import Mathlib

/-!
# Yadriggy object heap: a shallow embedding of `ext/yadriggy/oops`

The development models the generational collector of `gc.hpp`, `gc_impl.hpp`
and `gc.cpp`.

* A 64-bit word is a natural number; arithmetic that can wrap is reduced
  modulo `2 ^ 64` (or `2 ^ 32` for `std::uint32_t`) explicitly.
* A pointer is the byte address it holds.  `uint64_t*` arithmetic `q + n`
  is `q + 8 * n`.  Pointer arithmetic itself is not wrapped (overflowing a
  pointer is undefined behaviour in the source language).
* Memory is a total map from byte addresses to words; only 8-aligned
  addresses are ever used.
* `YHeader` is a polymorphic class, so an object starts with the virtual
  table pointer: word 0 is that pointer, word 1 is `header1`, word 2 is
  `header2`, and field `i` is word `3 + i`.  `sizeof(YHeader) / sizeof(uint64_t)`
  is therefore `3`.
* The C++ free store (`new uint64_t[n]`, `::operator new`, `delete`) is not
  part of the repository.  It is modelled by a bump allocator `heap_break`
  that never reuses storage, and `delete` records the block in `freed`.
* `while` loops whose termination depends on the heap take a fuel argument
  and return `none` when it runs out.
-/

namespace Yadriggy

/-- The word `uint64_t(-1)`. -/
def U64_MAX : Nat := 2 ^ 64 - 1

/-- Memory: byte address to 64-bit word. -/
abbrev Mem := Nat → Nat

/-- Store `v` at address `a`. -/
def Mem.write (m : Mem) (a v : Nat) : Mem := fun x => if x = a then v else m x

namespace Box

/-- The constant `Box::double_offset`. -/
def double_offset : Nat := 1 <<< 48

/-- The constant `Box::null_value`. -/
def null_value : Nat := 0

/-- The overload `Box::to_boxed(void* ptr)`. -/
def to_boxed_ptr (ptr : Nat) : Nat := ptr &&& (U64_MAX >>> 16)

/-- The cast `Box::to_ptr<T>(v)`. -/
def to_ptr (v : Nat) : Nat := v

/-- The test `Box::is_ptr(v)`. -/
def is_ptr (v : Nat) : Bool := (v >>> 48) == 0

end Box

namespace YHeader

/-- The quotient `sizeof(YHeader) / sizeof(uint64_t)`: vtable pointer, `header1`, `header2`. -/
def sizeof_words : Nat := 3

/-- Read `header1` of the object at `self`. -/
def header1 (m : Mem) (self : Nat) : Nat := m (self + 8)

/-- Read `header2` of the object at `self`. -/
def header2 (m : Mem) (self : Nat) : Nat := m (self + 16)

/-- Overwrite `header1` of the object at `self`. -/
def put_header1 (m : Mem) (self v : Nat) : Mem := m.write (self + 8) v

/-- The accessor `object_type()`, on the word `header1`. -/
def object_type (h1 : Nat) : Nat := (h1 >>> 62) &&& 3

/-- The test `has_boxed_value()`, on the word `header1`. -/
def has_boxed_value (h1 : Nat) : Bool := (object_type h1 &&& 1) == 0

/-- The accessor `unbox_size()`. -/
def unbox_size (h1 : Nat) : Nat := (h1 >>> 59) &&& 7

/-- The accessor `gc_generation()`. -/
def gc_generation (h1 : Nat) : Nat := (h1 >>> 57) &&& 3

/-- The new `header1` after `set_gc_generation(g)`. -/
def set_gc_generation (h1 g : Nat) : Nat :=
  (h1 &&& (U64_MAX - (3 <<< 57))) ||| ((g &&& 3) <<< 57)

/-- The new `header1` and the returned flag of `inc_gc_generation()`. -/
def inc_gc_generation (h1 : Nat) : Nat × Bool :=
  let gen := ((h1 + (1 <<< 57)) % 2 ^ 64) &&& (3 <<< 57)
  (gen ||| (h1 &&& (U64_MAX - (3 <<< 57))), gen == 0)

/-- The accessor `gc_remember()`. -/
def gc_remember (h1 : Nat) : Nat := (h1 >>> 56) &&& 1

/-- The new `header1` after `set_gc_remember()`. -/
def set_gc_remember (h1 : Nat) : Nat := h1 ||| (1 <<< 56)

/-- The new `header1` after `reset_gc_remember()`; `~x` is `U64_MAX - x`. -/
def reset_gc_remember (h1 : Nat) : Nat := h1 &&& (U64_MAX - (1 <<< 56))

/-- The accessor `gc_mark()`. -/
def gc_mark (h1 : Nat) : Nat := (h1 >>> 54) &&& 3

/-- The new `header1` and the returned old mark of `set_gc_mark(value)`. -/
def set_gc_mark (h1 value : Nat) : Nat × Nat :=
  let mask := 3 <<< 54
  let old := (h1 &&& mask) >>> 54
  (((value <<< 54) &&& mask) ||| (h1 &&& (U64_MAX - mask)), old)

/-- The accessor `next_object()`. -/
def next_object (h1 : Nat) : Nat := h1 &&& (U64_MAX >>> 16)

/-- The new `header1` after `set_next_object(obj)`. -/
def set_next_object (h1 obj : Nat) : Nat :=
  (h1 &&& (0xffff <<< 48)) ||| (obj &&& (U64_MAX >>> 16))

/-- The accessor `forward_pointer()`. -/
def forward_pointer (h1 : Nat) : Nat := h1 &&& (U64_MAX >>> 16)

/-- The new `header1` after `set_forward_pointer(obj)`: the whole word is replaced. -/
def set_forward_pointer (_h1 obj : Nat) : Nat := obj

/-- The accessor `field_size()`, the `std::uint32_t` truncation of `header2`. -/
def field_size (h2 : Nat) : Nat := h2 % 2 ^ 32

/-- The accessor `hash_value()`. -/
def hash_value (h2 : Nat) : Nat := h2 >>> 32

/-- The test `can_remember()`. -/
def can_remember (h1 : Nat) : Bool := (h1 &&& (7 <<< 56)) == 0

/-- Address of `(&header2)[index + 1]`; `index + 1` is computed in `std::uint32_t`. -/
def field_addr (self index : Nat) : Nat := self + 16 + 8 * ((index + 1) % 2 ^ 32)

/-- The accessor `get_field(index)`. -/
def get_field (m : Mem) (self index : Nat) : Nat := m (field_addr self index)

/-- The mutator `set_field(index, value)`. -/
def set_field (m : Mem) (self index value : Nat) : Mem := m.write (field_addr self index) value

/-- The constructor loop `for (i = unbox_size; i < size; i++) ptr[i] = null`,
with `ptr = &header2 + 1`; `k` iterations remain and `i` is the current index. -/
def init_fields (self : Nat) : Nat → Nat → Mem → Mem
  | 0, _, m => m
  | k + 1, i, m => init_fields self k (i + 1) (m.write (self + 24 + 8 * i) Box.null_value)

/-- The word the constructor stores in `header1`. -/
def init_header1 (type unbox : Nat) : Nat :=
  (((type &&& 3) <<< 62) ||| ((unbox &&& 7) <<< 59)) ||| (1 <<< 57)

/-- The constructor `YHeader(size, type, unbox_size)` run on the storage at `self`. -/
def construct (m : Mem) (self size type unbox : Nat) : Mem :=
  let h1 := init_header1 type unbox
  let h2 := ((((self % 2 ^ 32) >>> 3)) <<< 32) ||| (size % 2 ^ 32)
  let m1 := (m.write (self + 8) h1).write (self + 16) h2
  if has_boxed_value (header1 m1 self) then
    init_fields self (size % 2 ^ 32 - unbox % 2 ^ 32) (unbox % 2 ^ 32) m1
  else m1

end YHeader

/-- The static state of `GC`, `YHeader` and `Shadow`, the memory, and the free-store model. -/
structure GC where
  /-- The memory. -/
  mem : Mem
  /-- Head of the tenure list. -/
  tenure_space : Nat
  /-- Size of the tenure space in 64-bit words. -/
  tenure_space_size : Nat
  /-- Base of the nursery. -/
  nursery_space : Nat
  /-- End of the nursery. -/
  nursery_space_end : Nat
  /-- Size of one semi-space in 64-bit words. -/
  semi_space_size : Nat
  /-- The active semi-space. -/
  semi_space0 : Nat
  /-- The inactive semi-space. -/
  semi_space1 : Nat
  /-- The bump pointer `YHeader::current_top`. -/
  current_top : Nat
  /-- The limit `YHeader::current_end`. -/
  current_end : Nat
  /-- The vector `Shadow::shadow_stack`. -/
  shadow_stack : List Nat
  /-- The index `Shadow::stack_top`. -/
  stack_top : Int
  /-- The vector `GC::remember_set`. -/
  remember_set : List Nat
  /-- The vector `GC::promoted_objects`. -/
  promoted_objects : List Nat
  /-- The current mark value. -/
  current_mark_bit : Nat
  /-- Threshold that starts a major collection. -/
  tenure_space_limit : Nat
  /-- Number of minor collections. -/
  copy_gc_count : Int
  /-- Number of major collections. -/
  mark_sweep_gc_count : Int
  /-- Free-store model: the address the next `new` returns. -/
  heap_break : Nat
  /-- Free-store model: the blocks passed to `delete`, oldest first. -/
  freed : List Nat

namespace GC

/-- Assignment to `mem`. -/
def set_mem (s : GC) (v : Mem) : GC := { s with mem := v }

/-- Assignment to `tenure_space`. -/
def set_tenure_space (s : GC) (v : Nat) : GC := { s with tenure_space := v }

/-- Assignment to `tenure_space_size`. -/
def set_tenure_space_size (s : GC) (v : Nat) : GC := { s with tenure_space_size := v }

/-- Assignment to `shadow_stack`. -/
def set_shadow_stack (s : GC) (v : List Nat) : GC := { s with shadow_stack := v }

/-- Assignment to `remember_set`. -/
def set_remember_set (s : GC) (v : List Nat) : GC := { s with remember_set := v }

/-- Assignment to `promoted_objects`. -/
def set_promoted_objects (s : GC) (v : List Nat) : GC := { s with promoted_objects := v }

/-- Assignment to `heap_break`. -/
def set_heap_break (s : GC) (v : Nat) : GC := { s with heap_break := v }

/-- Assignment to `copy_gc_count`. -/
def set_copy_gc_count (s : GC) (v : Int) : GC := { s with copy_gc_count := v }

/-- Assignment to `mark_sweep_gc_count`. -/
def set_mark_sweep_gc_count (s : GC) (v : Int) : GC := { s with mark_sweep_gc_count := v }

/-- Assignment to `current_mark_bit`. -/
def set_current_mark_bit (s : GC) (v : Nat) : GC := { s with current_mark_bit := v }

/-- Assignment to `tenure_space_limit`. -/
def set_tenure_space_limit (s : GC) (v : Nat) : GC := { s with tenure_space_limit := v }

/-- Assignment to `freed`. -/
def set_freed (s : GC) (v : List Nat) : GC := { s with freed := v }

/-- Assignment to `current_top`. -/
def set_current_top (s : GC) (v : Nat) : GC := { s with current_top := v }

/-- Assignment to `stack_top`. -/
def set_stack_top (s : GC) (v : Int) : GC := { s with stack_top := v }

/-- The semi-space swap that ends `GC::do_copy_gc`: `tmp = semi_space1; semi_space1 =
semi_space0; semi_space0 = tmp; current_top = alloc_ptr; current_end = tmp + semi_space_size`. -/
def flip (s : GC) (alloc_ptr : Nat) : GC :=
  { s with semi_space1 := s.semi_space0,
           semi_space0 := s.semi_space1,
           current_top := alloc_ptr,
           current_end := s.semi_space1 + 8 * s.semi_space_size }

end GC

/-- The reference parameters that `GC::do_copy_gc` threads through its helpers,
together with the state. -/
structure Scan where
  /-- The state. -/
  gc : GC
  /-- The local `alloc_ptr`. -/
  alloc_ptr : Nat
  /-- The local `live_objects`. -/
  live_objects : Nat

namespace GC

/-- The test `GC::in_nursery(ptr)`. -/
def in_nursery (s : GC) (ptr : Nat) : Bool :=
  decide (s.nursery_space ≤ ptr) && decide (ptr < s.nursery_space_end)

/-- The static method `GC::add_to_tenure_space(obj)`. -/
def add_to_tenure_space (s : GC) (obj : Nat) : GC :=
  (s.set_mem (YHeader.put_header1 s.mem obj
    (YHeader.set_next_object (YHeader.header1 s.mem obj) s.tenure_space))).set_tenure_space obj

/-- The loop of `GC::copy_object`: `k` iterations remain, `i` is the index. -/
def copy_object_loop (obj dest : Nat) : Nat → Nat → Mem → Mem
  | 0, _, m => m
  | k + 1, i, m => copy_object_loop obj dest k (i + 1) (m.write (dest + 8 * i) (m (obj + 8 * i)))

/-- The static method `GC::copy_object(obj, dest, size)`. -/
def copy_object (m : Mem) (obj dest size : Nat) : Mem := copy_object_loop obj dest size 0 m

/-- The memory after the body of `if (newobj == nullptr)` in `copy_and_forward` has
incremented the generation of `p`, copied `p` to `newobj` and stored the forwarding
pointer. -/
def moved_mem (m : Mem) (p newobj size : Nat) : Mem :=
  let m1 := YHeader.put_header1 m p (YHeader.inc_gc_generation (YHeader.header1 m p)).1
  let m2 := copy_object m1 p newobj size
  YHeader.put_header1 m2 p (YHeader.set_forward_pointer (YHeader.header1 m2 p) newobj)

/-- The function `GC::copy_and_forward(p, alloc_ptr, live_objects)`; returns the updated
state and reference parameters, and the new object. -/
def copy_and_forward (c : Scan) (p : Nat) : Scan × Nat :=
  let newobj := YHeader.forward_pointer (YHeader.header1 c.gc.mem p)
  if newobj = 0 then
    let live := (c.live_objects + 1) % 2 ^ 64
    let size := YHeader.field_size (YHeader.header2 c.gc.mem p) + YHeader.sizeof_words
    if (YHeader.inc_gc_generation (YHeader.header1 c.gc.mem p)).2 then
      let newobj := c.gc.heap_break
      let s1 := c.gc.set_tenure_space_size ((c.gc.tenure_space_size + size) % 2 ^ 64)
      let s2 := s1.set_heap_break (c.gc.heap_break + 8 * size)
      let s3 := s2.set_mem (moved_mem c.gc.mem p newobj size)
      let s4 := s3.set_promoted_objects (c.gc.promoted_objects ++ [newobj])
      (⟨s4, c.alloc_ptr, live⟩, newobj)
    else
      let newobj := c.alloc_ptr
      (⟨c.gc.set_mem (moved_mem c.gc.mem p newobj size), newobj + 8 * size, live⟩, newobj)
  else (c, newobj)

/-- The two specialisations of `GC::has_to_remember<REMEMBER>(obj, remember)`. -/
def has_to_remember (REMEMBER : Bool) (s : GC) (obj : Nat) (remember : Bool) : Bool :=
  if REMEMBER then remember || s.in_nursery obj else false

/-- One iteration of the field loop of `GC::scan_object<REMEMBER>` at index `i`. -/
def scan_field (REMEMBER : Bool) (obj i : Nat) (c : Scan) (remember : Bool) : Scan × Bool :=
  let v := YHeader.get_field c.gc.mem obj i
  if Box.is_ptr v then
    let p := Box.to_ptr v
    if c.gc.in_nursery p then
      let r := copy_and_forward c p
      let s2 := r.1.gc.set_mem (YHeader.set_field r.1.gc.mem obj i (Box.to_boxed_ptr r.2))
      (⟨s2, r.1.alloc_ptr, r.1.live_objects⟩, has_to_remember REMEMBER s2 r.2 remember)
    else (c, remember)
  else (c, remember)

/-- The field loop of `GC::scan_object<REMEMBER>`: `k` iterations remain, `i` is the index. -/
def scan_fields (REMEMBER : Bool) (obj : Nat) : Nat → Nat → Scan × Bool → Scan × Bool
  | 0, _, st => st
  | k + 1, i, st => scan_fields REMEMBER obj k (i + 1) (scan_field REMEMBER obj i st.1 st.2)

/-- The function `GC::scan_object<REMEMBER>(obj, fsize, alloc_ptr, live_objects)`. -/
def scan_object (REMEMBER : Bool) (c : Scan) (obj fsize : Nat) : Scan × Bool :=
  if YHeader.has_boxed_value (YHeader.header1 c.gc.mem obj) then
    let u := YHeader.unbox_size (YHeader.header1 c.gc.mem obj)
    scan_fields REMEMBER obj (fsize - u) u (c, false)
  else (c, false)

/-- The body of the loop of `GC::scan_promoted_objects` for the popped object `p`. -/
def scan_promoted_step (c : Scan) (p : Nat) : Scan :=
  let s1 := c.gc.set_promoted_objects c.gc.promoted_objects.dropLast
  let r := scan_object true ⟨s1, c.alloc_ptr, c.live_objects⟩ p
    (YHeader.field_size (YHeader.header2 s1.mem p))
  let s2 :=
    if r.2 then
      (r.1.gc.set_mem (YHeader.put_header1 r.1.gc.mem p
        (YHeader.set_gc_remember (YHeader.header1 r.1.gc.mem p)))).set_remember_set
        (r.1.gc.remember_set ++ [p])
    else r.1.gc
  ⟨add_to_tenure_space s2 p, r.1.alloc_ptr, r.1.live_objects⟩

/-- The function `GC::scan_promoted_objects(alloc_ptr, live_objects)`. -/
def scan_promoted_objects : Nat → Scan → Option Scan
  | fuel, c =>
    match c.gc.promoted_objects.getLast? with
    | none => some c
    | some p =>
      match fuel with
      | 0 => none
      | fuel + 1 => scan_promoted_objects fuel (scan_promoted_step c p)

/-- One iteration of the shadow-stack loop of `GC::do_copy_gc` at index `i`. -/
def scan_shadow_step (c : Scan) (i : Nat) : Scan :=
  let p := c.gc.shadow_stack.getD i 0
  if c.gc.in_nursery p then
    let r := copy_and_forward c p
    ⟨r.1.gc.set_shadow_stack (r.1.gc.shadow_stack.set i r.2), r.1.alloc_ptr, r.1.live_objects⟩
  else c

/-- The shadow-stack loop of `GC::do_copy_gc`; the first argument is `i + 1`. -/
def scan_shadow : Nat → Scan → Scan
  | 0, c => c
  | i + 1, c => scan_shadow i (scan_shadow_step c i)

/-- One iteration of the remember-set loop of `GC::do_copy_gc` at index `i`. -/
def scan_remember_step (c : Scan) (i : Nat) : Scan :=
  let obj := c.gc.remember_set.getD i 0
  if obj ≠ 0 then
    let fsize := YHeader.field_size (YHeader.header2 c.gc.mem obj)
    let r := scan_object true c obj fsize
    if r.2 then r.1
    else
      ⟨(r.1.gc.set_mem (YHeader.put_header1 r.1.gc.mem obj
          (YHeader.reset_gc_remember (YHeader.header1 r.1.gc.mem obj)))).set_remember_set
          (r.1.gc.remember_set.set i 0),
        r.1.alloc_ptr, r.1.live_objects⟩
  else c

/-- The remember-set loop of `GC::do_copy_gc`; the first argument is `i + 1`. -/
def scan_remember : Nat → Scan → Scan
  | 0, c => c
  | i + 1, c => scan_remember i (scan_remember_step c i)

/-- The loop `while (scan_ptr < alloc_ptr)` of `GC::do_copy_gc`; `pfuel` is the fuel handed
to each `scan_promoted_objects`; the pair is the scan state and `scan_ptr`. -/
def cheney_loop (pfuel : Nat) : Nat → Scan × Nat → Option (Scan × Nat)
  | fuel, (c, scan_ptr) =>
    if scan_ptr < c.alloc_ptr then
      match fuel with
      | 0 => none
      | fuel + 1 =>
        let obj := scan_ptr
        let fsize := YHeader.field_size (YHeader.header2 c.gc.mem obj)
        let r := scan_object false c obj fsize
        match scan_promoted_objects pfuel r.1 with
        | none => none
        | some c2 => cheney_loop pfuel fuel (c2, scan_ptr + 8 * (fsize + YHeader.sizeof_words))
    else some (c, scan_ptr)

/-- The function `GC::do_copy_gc()`; returns the state and the live-object count. -/
def do_copy_gc (fuel : Nat) (s : GC) : Option (GC × Nat) :=
  let s0 := s.set_copy_gc_count (s.copy_gc_count + 1)
  let c1 := scan_shadow (s0.stack_top + 1).toNat ⟨s0, s0.semi_space1, 0⟩
  let c2 := scan_remember c1.gc.remember_set.length c1
  match scan_promoted_objects fuel c2 with
  | none => none
  | some c3 =>
    match cheney_loop fuel fuel (c3, s0.semi_space1) with
    | none => none
    | some r4 => some (r4.1.gc.flip r4.1.alloc_ptr, r4.1.live_objects)

/-- The first loop of `GC::do_mark_sweep_gc`: clear the remember bit of every entry of the
remember set; the first argument is `i + 1`. -/
def reset_remember_loop : Nat → GC → GC
  | 0, s => s
  | i + 1, s =>
    let obj := s.remember_set.getD i 0
    if obj ≠ 0 then
      reset_remember_loop i
        (s.set_mem (YHeader.put_header1 s.mem obj
          (YHeader.reset_gc_remember (YHeader.header1 s.mem obj))))
    else reset_remember_loop i s

/-- The method `YHeader::add_remember_set()` on the object `self`. -/
def add_remember_set (s : GC) (self : Nat) : GC :=
  s.set_remember_set (s.remember_set ++ [self])

/-- The method `YHeader::w_barrier(value)` on the object `self`; returns the state
and the returned word. -/
def w_barrier (s : GC) (self value : Nat) : GC × Nat :=
  if value ≠ Box.null_value ∧ Box.is_ptr value = true
      ∧ YHeader.can_remember (YHeader.header1 s.mem self) = true
      ∧ YHeader.gc_generation (YHeader.header1 s.mem (Box.to_ptr value)) > 0 then
    (add_remember_set
      (s.set_mem (YHeader.put_header1 s.mem self
        (YHeader.set_gc_remember (YHeader.header1 s.mem self)))) self,
     value)
  else (s, value)

/-- The test-and-set `p->set_gc_mark(mark_bit) != mark_bit` followed by the push onto
`visited` and the count, as both mark loops do it; the triple is the state, the vector
`visited` and `live_objects`. -/
def mark_object (mark_bit p : Nat) (st : GC × List Nat × Nat) : GC × List Nat × Nat :=
  let r := YHeader.set_gc_mark (YHeader.header1 st.1.mem p) mark_bit
  let s1 := st.1.set_mem (YHeader.put_header1 st.1.mem p r.1)
  if r.2 ≠ mark_bit then (s1, st.2.1 ++ [p], (st.2.2 + 1) % 2 ^ 64)
  else (s1, st.2.1, st.2.2)

/-- The root loop of the mark phase; the first argument is `i + 1`. -/
def mark_roots (mark_bit : Nat) : Nat → GC × List Nat × Nat → GC × List Nat × Nat
  | 0, st => st
  | i + 1, st =>
    let p := st.1.shadow_stack.getD i 0
    if p ≠ 0 then mark_roots mark_bit i (mark_object mark_bit p st)
    else mark_roots mark_bit i st

/-- One iteration of the field loop of the mark phase for the object `obj` at index `i`. -/
def mark_field (mark_bit obj i : Nat) (st : GC × List Nat × Nat) : GC × List Nat × Nat :=
  let v := YHeader.get_field st.1.mem obj i
  if Box.is_ptr v then
    let p := Box.to_ptr v
    if p ≠ 0 then
      mark_object mark_bit p ((w_barrier st.1 obj (Box.to_boxed_ptr p)).1, st.2.1, st.2.2)
    else st
  else st

/-- The field loop of the mark phase for the object `obj`: `k` iterations remain,
`i` is the index. -/
def mark_fields (mark_bit obj : Nat) :
    Nat → Nat → GC × List Nat × Nat → GC × List Nat × Nat
  | 0, _, st => st
  | k + 1, i, st => mark_fields mark_bit obj k (i + 1) (mark_field mark_bit obj i st)

/-- The loop `while (!visited.empty())` of the mark phase. -/
def mark_loop (mark_bit : Nat) : Nat → GC × List Nat × Nat → Option (GC × Nat)
  | fuel, (s, visited, live_objects) =>
    match visited.getLast? with
    | none => some (s, live_objects)
    | some obj =>
      match fuel with
      | 0 => none
      | fuel + 1 =>
        if YHeader.has_boxed_value (YHeader.header1 s.mem obj) then
          let fsize := YHeader.field_size (YHeader.header2 s.mem obj)
          let u := YHeader.unbox_size (YHeader.header1 s.mem obj)
          mark_loop mark_bit fuel
            (mark_fields mark_bit obj (fsize - u) u (s, visited.dropLast, live_objects))
        else mark_loop mark_bit fuel (s, visited.dropLast, live_objects)

/-- The inner loop of the sweep: free the run of unmarked nodes starting at `next`;
returns the state and the first node that is kept (or null). -/
def sweep_inner (mark_bit : Nat) : Nat → GC × Nat → Option (GC × Nat)
  | fuel, (s, next) =>
    if next ≠ 0 ∧ YHeader.gc_mark (YHeader.header1 s.mem next) ≠ mark_bit then
      match fuel with
      | 0 => none
      | fuel + 1 =>
        let size := YHeader.field_size (YHeader.header2 s.mem next) + YHeader.sizeof_words
        let next2 := YHeader.next_object (YHeader.header1 s.mem next)
        sweep_inner mark_bit fuel
          ((s.set_tenure_space_size ((s.tenure_space_size + 2 ^ 64 - size) % 2 ^ 64)).set_freed
            (s.freed ++ [next]),
           next2)
    else some (s, next)

/-- The outer loop of the sweep.  The local object `root` lives outside the heap: its
`header1` is carried as `root_h1`, and `ptr` is `none` while it points to `root`. -/
def sweep_outer (mark_bit ifuel : Nat) : Nat → GC × Nat × Option Nat → Option (GC × Nat)
  | 0, _ => none
  | fuel + 1, (s, root_h1, ptr) =>
    let h1 := match ptr with
      | none => root_h1
      | some q => YHeader.header1 s.mem q
    let next0 := YHeader.next_object h1
    match sweep_inner mark_bit ifuel (s, next0) with
    | none => none
    | some (s1, next) =>
      let st : GC × Nat :=
        if next ≠ next0 then
          match ptr with
          | none => (s1, YHeader.set_next_object root_h1 next)
          | some q =>
            (s1.set_mem (YHeader.put_header1 s1.mem q
              (YHeader.set_next_object (YHeader.header1 s1.mem q) next)), root_h1)
        else (s1, root_h1)
      if next = 0 then some st else sweep_outer mark_bit ifuel fuel (st.1, st.2, some next)

/-- The function `GC::do_mark_sweep_gc()`; returns the state and the live-object count. -/
def do_mark_sweep_gc (fuel : Nat) (s : GC) : Option (GC × Nat) :=
  let s0 := s.set_mark_sweep_gc_count (s.mark_sweep_gc_count + 1)
  let s1 := (reset_remember_loop s0.remember_set.length s0).set_remember_set []
  let mark_bit := s1.current_mark_bit
  let r1 := mark_roots mark_bit (s1.stack_top + 1).toNat (s1, [], 0)
  match mark_loop mark_bit fuel r1 with
  | none => none
  | some (s2, live_objects) =>
    let root_h1 := YHeader.set_next_object (YHeader.init_header1 0 0) s2.tenure_space
    match sweep_outer mark_bit fuel fuel (s2, root_h1, none) with
    | none => none
    | some (s3, root_h1) =>
      some (((s3.set_tenure_space (YHeader.next_object root_h1)).set_current_mark_bit
              (s3.current_mark_bit ^^^ 2)),
            live_objects)

/-- The function `GC::mark_sweep_gc_if_needed()`. -/
def mark_sweep_gc_if_needed (fuel : Nat) (s : GC) : Option (GC × Nat) :=
  if s.tenure_space_limit > s.tenure_space_size then some (s, 0)
  else
    match do_mark_sweep_gc fuel s with
    | none => none
    | some (s1, lives) =>
      if (s1.tenure_space_limit * 7) % 2 ^ 64 / 10 < s1.tenure_space_size then
        some (s1.set_tenure_space_limit ((s1.tenure_space_size * 3) % 2 ^ 64 / 2), lives)
      else some (s1, lives)

/-- Outcome of an allocation: a returned pointer, or the thrown exception. -/
inductive Outcome where
  /-- The function returned `value`. -/
  | returned (s : GC) (value : Nat)
  /-- The exception `GC_MemoryExhausted` was thrown. -/
  | memory_exhausted (s : GC)

/-- The loop `for (int i = 0; i < 3; i++)` of `YHeader::allocate_in_semi2`;
the second argument is the number of iterations that remain. -/
def alloc_attempts (fuel wcount : Nat) : Nat → GC → Option Outcome
  | 0, s => some (Outcome.memory_exhausted s)
  | k + 1, s =>
    match do_copy_gc fuel s with
    | none => none
    | some (s1, _) =>
      let new_top := s1.current_top + 8 * wcount
      if new_top ≤ s1.current_end then some (Outcome.returned s1 new_top)
      else alloc_attempts fuel wcount k s1

/-- The function `YHeader::allocate_in_semi2(wcount)`. -/
def allocate_in_semi2 (fuel : Nat) (s : GC) (wcount : Nat) : Option Outcome :=
  match mark_sweep_gc_if_needed fuel s with
  | none => none
  | some (s1, _) => alloc_attempts fuel wcount 3 s1

/-- The function of `gc.cpp` that sets up the heap, `GC::initialise` here (the source
spells it with a z, a reserved word in Lean); the nursery block comes from
the free store.  Reserving vector capacity changes no contents. -/
def initialise (s : GC) (young_size _stack_size : Nat) : GC :=
  let nursery := s.heap_break
  { s with heap_break := s.heap_break + 8 * (young_size * 2),
           semi_space_size := young_size,
           nursery_space := nursery,
           semi_space0 := nursery,
           semi_space1 := nursery + 8 * young_size,
           nursery_space_end := nursery + 8 * (young_size * 2),
           current_top := nursery,
           current_end := nursery + 8 * young_size,
           tenure_space := 0,
           tenure_space_size := 0,
           stack_top := -1,
           current_mark_bit := 1,
           tenure_space_limit := (young_size * 2) % 2 ^ 64,
           copy_gc_count := 0,
           mark_sweep_gc_count := 0 }

/-- The program state before `initialise`: static storage is zero, the vectors are
empty, and the free store starts at `heap_base`. -/
def start (heap_base : Nat) : GC :=
  { mem := fun _ => 0, tenure_space := 0, tenure_space_size := 0, nursery_space := 0,
    nursery_space_end := 0, semi_space_size := 0, semi_space0 := 0, semi_space1 := 0,
    current_top := 0, current_end := 0, shadow_stack := [], stack_top := 0,
    remember_set := [], promoted_objects := [], current_mark_bit := 0,
    tenure_space_limit := 0, copy_gc_count := 0, mark_sweep_gc_count := 0,
    heap_break := heap_base, freed := [] }

/-- The loop `for (i = 0; i < wcount; ++i) ptr[i] = null` of `allocate_in_semi`:
`k` iterations remain and `i` is the index. -/
def zero_words (ptr : Nat) : Nat → Nat → Mem → Mem
  | 0, _, m => m
  | k + 1, i, m => zero_words ptr k (i + 1) (m.write (ptr + 8 * i) Box.null_value)

/-- The tail of `allocate_in_semi` once `new_top` is known: publish the region at
`current_top`, advance `current_top`, zero the words. -/
def publish (s : GC) (new_top wcount : Nat) : Outcome :=
  Outcome.returned
    ((s.set_current_top new_top).set_mem (zero_words s.current_top wcount 0 s.mem)) s.current_top

/-- The function `YHeader::allocate_in_semi(count)`, `count` in bytes. -/
def allocate_in_semi (fuel : Nat) (s : GC) (count : Nat) : Option Outcome :=
  let wcount := ((count + 8 - 1) % 2 ^ 64) / 8
  let new_top := s.current_top + 8 * wcount
  if new_top > s.current_end then
    match allocate_in_semi2 fuel s wcount with
    | none => none
    | some (Outcome.memory_exhausted s1) => some (Outcome.memory_exhausted s1)
    | some (Outcome.returned s1 new_top1) => some (publish s1 new_top1 wcount)
  else some (publish s new_top wcount)

/-- Run `do_copy_gc` `k` times in a row. -/
def scavenges (fuel : Nat) : Nat → GC → Option GC
  | 0, s => some s
  | k + 1, s =>
    match do_copy_gc fuel s with
    | none => none
    | some r => scavenges fuel k r.1

end GC

/-- The method `YHeader::add_to_tenure_space()` on the object `self`. -/
def YHeader.add_to_tenure_space (s : GC) (self : Nat) : GC :=
  GC.add_to_tenure_space
    (s.set_mem (YHeader.put_header1 s.mem self
      (YHeader.set_gc_generation (YHeader.header1 s.mem self) 0))) self

/-- The factory `YArray::make_in_tenure(size)`; the storage comes from the free store. -/
def YArray.make_in_tenure (s : GC) (size : Nat) : GC × Nat :=
  let obj := s.heap_break
  let s1 := (s.set_heap_break (s.heap_break + (24 + size * 8))).set_mem
    (YHeader.construct s.mem obj size 2 0)
  let s2 := YHeader.add_to_tenure_space s1 obj
  (s2.set_mem (YHeader.init_fields obj size 0 s2.mem), obj)

/-- The tenure list as the sequence of nodes met by following `next_object` from `p`,
for at most `n` nodes. -/
def tenure_list (m : Mem) : Nat → Nat → List Nat
  | 0, _ => []
  | n + 1, p => if p = 0 then [] else p :: tenure_list m n (YHeader.next_object (YHeader.header1 m p))

/-- Size in words of the object at `p`: field count plus header words. -/
def object_words (m : Mem) (p : Nat) : Nat :=
  YHeader.field_size (YHeader.header2 m p) + YHeader.sizeof_words

/-- The factory `YUnboxArray::make(size)`. -/
def YUnboxArray.make (fuel : Nat) (s : GC) (size : Nat) : Option GC.Outcome :=
  match GC.allocate_in_semi fuel s (24 + size * 8) with
  | none => none
  | some (GC.Outcome.memory_exhausted s1) => some (GC.Outcome.memory_exhausted s1)
  | some (GC.Outcome.returned s1 obj) =>
    some (GC.Outcome.returned (s1.set_mem (YHeader.construct s1.mem obj size 1 0)) obj)

/-- The factory `YArray::make(size)`. -/
def YArray.make (fuel : Nat) (s : GC) (size : Nat) : Option GC.Outcome :=
  match GC.allocate_in_semi fuel s (24 + size * 8) with
  | none => none
  | some (GC.Outcome.memory_exhausted s1) => some (GC.Outcome.memory_exhausted s1)
  | some (GC.Outcome.returned s1 obj) =>
    some (GC.Outcome.returned (s1.set_mem (YHeader.construct s1.mem obj size 2 0)) obj)

namespace Shadow

/-- The call `shadow_stack.resize(n)`: new elements are null. -/
def resize (l : List Nat) (n : Nat) : List Nat := l.take n ++ List.replicate (n - l.length) 0

/-- The accessor `Shadow::get(index)`. -/
def get (s : GC) (index : Int) : Nat := s.shadow_stack.getD (s.stack_top - index).toNat 0

/-- The mutator `Shadow::set(index, value)`. -/
def set (s : GC) (index : Int) (value : Nat) : GC :=
  s.set_shadow_stack (s.shadow_stack.set (s.stack_top - index).toNat value)

/-- The function `Shadow::expand(size)`. -/
def expand (s : GC) (size : Int) : GC :=
  (s.set_stack_top (s.stack_top + size)).set_shadow_stack
    (resize s.shadow_stack (s.stack_top + size + 1).toNat)

/-- The function `Shadow::shrink(size)`. -/
def shrink (s : GC) (size : Nat) : GC :=
  (s.set_stack_top (s.stack_top - size)).set_shadow_stack
    (resize s.shadow_stack (s.stack_top - size + 1).toNat)

end Shadow

/-! ## Concrete heaps used to exercise the model -/

namespace Example

/-- State of an outcome, or the given state when the run did not return. -/
def state_of (d : GC) : Option GC.Outcome → GC
  | some (GC.Outcome.returned s _) => s
  | some (GC.Outcome.memory_exhausted s) => s
  | none => d

/-- Returned pointer of an outcome, null when there is none. -/
def value_of : Option GC.Outcome → Nat
  | some (GC.Outcome.returned _ v) => v
  | _ => 0

/-- A pointer store into field `i` of `self` that goes through the write barrier,
as client code writes it: `set_field(i, w_barrier(v))`. -/
def store (s : GC) (self i v : Nat) : GC :=
  let r := GC.w_barrier s self v
  r.1.set_mem (YHeader.set_field r.1.mem self i r.2)

/-- A heap of 16-word semi-spaces at address `0x1000`. -/
def heap0 : GC := GC.initialise (GC.start 0x1000) 16 0

/-- One young boxed array of one field, rooted in slot 0 of the shadow stack. -/
def one_root : GC :=
  let r := YArray.make 8 (Shadow.expand heap0 1) 1
  Shadow.set (state_of heap0 r) 0 (value_of r)

/-- One tenured boxed array of two fields whose field 0 was overwritten, through the
write barrier, with a pointer to a young unboxed array of one field. -/
def one_remembered : GC :=
  let t := YArray.make_in_tenure heap0 2
  let r := YUnboxArray.make 8 t.1 1
  store (state_of heap0 r) t.2 0 (Box.to_boxed_ptr (value_of r))

/-- The heap `one_root` with the tenure size at its limit. -/
def at_limit : GC := one_root.set_tenure_space_size one_root.tenure_space_limit

end Example


/-! ## Boxed integers and doubles

A `double` is modelled by its 64-bit pattern, which is what `*(uint64_t*)&d` reads. -/

namespace Box

/-- The overload `Box::to_boxed(uint64_t v)`. -/
def to_boxed_uint64 (v : Nat) : Nat := v ||| ((0xfffe + 1) <<< 48)

/-- The function `Box::to_uint64(v)`. -/
def to_uint64 (v : Nat) : Nat := v &&& (U64_MAX >>> 16)

/-- The test `Box::is_uint64(v)`. -/
def is_uint64 (v : Nat) : Bool := (v >>> 48) == 0xffff

/-- The conversion `uint64_t(v)` of an `int64_t`. -/
def of_int64 (v : Int) : Nat := (v % 2 ^ 64).toNat

/-- The conversion `int64_t(v)` of a `uint64_t`. -/
def as_int64 (v : Nat) : Int := if v < 2 ^ 63 then (v : Int) else (v : Int) - 2 ^ 64

/-- The overload `Box::to_boxed(int64_t v)`. -/
def to_boxed_int64 (v : Int) : Nat := to_boxed_uint64 (of_int64 v)

/-- The function `Box::to_int64(v)`: `int64_t(v << 16) >> 16`, the right shift being
arithmetic. -/
def to_int64 (v : Nat) : Int := as_int64 ((v <<< 16) % 2 ^ 64) >>> (16 : Nat)

/-- The test `Box::is_int64(v)`. -/
def is_int64 (v : Nat) : Bool := is_uint64 v

/-- The library test `std::isnan(d)` on the bit pattern of `d`: the exponent bits are all
ones and the fraction is not zero. -/
def is_nan (bits : Nat) : Bool :=
  ((bits >>> 52) &&& 0x7ff) == 0x7ff && (bits &&& (2 ^ 52 - 1)) != 0

/-- The overload `Box::to_boxed(double d)`, on the bit pattern of `d`. -/
def to_boxed_double (bits : Nat) : Nat :=
  if is_nan bits then (0x7ff8 + 1) <<< 48 else (bits + double_offset) % 2 ^ 64

/-- The function `Box::to_double(v)`; the result is the bit pattern of the double. -/
def to_double (v : Nat) : Nat := (v + 2 ^ 64 - double_offset) % 2 ^ 64

/-- The test `Box::is_double(v)`. -/
def is_double (v : Nat) : Bool := ((((v >>> 48) + 2 ^ 64 - 1) % 2 ^ 64) &&& 0xfffe) != 0xfffe

end Box
/-! ## Specification vocabulary -/

/-- The parts of the state that a scavenge's inner steps never assign. -/
structure GC.Frame (s t : GC) : Prop where
  /-- Same nursery base. -/
  nursery_space : t.nursery_space = s.nursery_space
  /-- Same nursery end. -/
  nursery_space_end : t.nursery_space_end = s.nursery_space_end
  /-- Same semi-space size. -/
  semi_space_size : t.semi_space_size = s.semi_space_size
  /-- Same active semi-space. -/
  semi_space0 : t.semi_space0 = s.semi_space0
  /-- Same inactive semi-space. -/
  semi_space1 : t.semi_space1 = s.semi_space1
  /-- Same bump pointer. -/
  current_top : t.current_top = s.current_top
  /-- Same limit. -/
  current_end : t.current_end = s.current_end
  /-- Same stack top. -/
  stack_top : t.stack_top = s.stack_top
  /-- Same mark value. -/
  current_mark_bit : t.current_mark_bit = s.current_mark_bit
  /-- Same threshold. -/
  tenure_space_limit : t.tenure_space_limit = s.tenure_space_limit
  /-- Same minor count. -/
  copy_gc_count : t.copy_gc_count = s.copy_gc_count
  /-- Same major count. -/
  mark_sweep_gc_count : t.mark_sweep_gc_count = s.mark_sweep_gc_count
  /-- Same freed blocks. -/
  freed : t.freed = s.freed
  /-- Same shadow-stack length. -/
  shadow_length : t.shadow_stack.length = s.shadow_stack.length

/-- Size in bytes of the object at `p`. -/
def object_bytes (m : Mem) (p : Nat) : Nat := 8 * object_words m p

/-- Bits 57 to 63 of `header1`: object type, unbox size and generation. -/
def YHeader.kind (h1 : Nat) : Nat := h1 / 2 ^ 57 % 128

/-- Index `i` is a field of the object at `o` that the collectors scan: the object has
boxed values and `unbox_size <= i < field_size`. -/
def scanned_index (m : Mem) (o i : Nat) : Prop :=
  YHeader.has_boxed_value (YHeader.header1 m o) = true
    ∧ YHeader.unbox_size (YHeader.header1 m o) ≤ i
    ∧ i < YHeader.field_size (YHeader.header2 m o)

/-- The object at `a` has a scanned field that holds the non-null pointer `b`. -/
def points_to (m : Mem) (a b : Nat) : Prop :=
  ∃ i, scanned_index m a i ∧ Box.is_ptr (YHeader.get_field m a i) = true
    ∧ YHeader.get_field m a i = b ∧ b ≠ 0

/-- A root of the scavenge: a non-null shadow-stack entry at or below `stack_top`, or a
non-null entry of the remember set. -/
def GC.copy_root (s : GC) (r : Nat) : Prop :=
  r ≠ 0 ∧ ((∃ i, i < (s.stack_top + 1).toNat ∧ s.shadow_stack.getD i 0 = r) ∨ r ∈ s.remember_set)

/-- Reachable from the roots of the scavenge through boxed pointer fields. -/
def GC.copy_reachable (s : GC) (x : Nat) : Prop :=
  ∃ r, s.copy_root r ∧ Relation.ReflTransGen (points_to s.mem) r x

/-- The collector's invariants between collections, for the list `N` of the young objects
(in address order) and the list `T` of the tenured objects (in tenure-list order). -/
structure GC.WF (s : GC) (N T : List Nat) : Prop where
  /-- The null pointer is below the nursery. -/
  nursery_pos : 0 < s.nursery_space
  /-- The two semi-spaces are the two halves of the nursery. -/
  semi_spaces : (s.semi_space0 = s.nursery_space
        ∧ s.semi_space1 = s.nursery_space + 8 * s.semi_space_size)
      ∨ (s.semi_space1 = s.nursery_space
        ∧ s.semi_space0 = s.nursery_space + 8 * s.semi_space_size)
  /-- The nursery is two semi-spaces long. -/
  nursery_end : s.nursery_space_end = s.nursery_space + 16 * s.semi_space_size
  /-- The free store hands out blocks above the nursery. -/
  heap_above : s.nursery_space_end ≤ s.heap_break
  /-- Promoting a whole semi-space keeps addresses within 48 bits. -/
  heap_room : s.heap_break + 8 * s.semi_space_size ≤ 2 ^ 48
  /-- Young objects do not overlap and are listed in address order. -/
  young_sorted : N.Pairwise (fun a b => a + object_bytes s.mem a ≤ b)
  /-- Young objects lie in the active semi-space. -/
  young_in_space : ∀ o ∈ N, s.semi_space0 ≤ o
      ∧ o + object_bytes s.mem o ≤ s.semi_space0 + 8 * s.semi_space_size
  /-- A live young object has a null forwarding pointer and generation 1 to 3. -/
  young_header : ∀ o ∈ N, YHeader.forward_pointer (YHeader.header1 s.mem o) = 0
      ∧ 1 ≤ YHeader.gc_generation (YHeader.header1 s.mem o)
  /-- Tenured objects do not overlap. -/
  old_apart : T.Pairwise (fun a b => a + object_bytes s.mem a ≤ b ∨ b + object_bytes s.mem b ≤ a)
  /-- Tenured objects are non-null blocks of the free store outside the nursery. -/
  old_outside : ∀ t ∈ T, t ≠ 0 ∧ t + object_bytes s.mem t ≤ s.heap_break
      ∧ (t + object_bytes s.mem t ≤ s.nursery_space ∨ s.nursery_space_end ≤ t)
  /-- A tenured object has generation 0. -/
  old_header : ∀ t ∈ T, YHeader.gc_generation (YHeader.header1 s.mem t) = 0
  /-- A pointer in a scanned field is null or the address of a listed object. -/
  fields_closed : ∀ o ∈ N ++ T, ∀ i, i < YHeader.field_size (YHeader.header2 s.mem o) →
      YHeader.has_boxed_value (YHeader.header1 s.mem o) = true →
      YHeader.unbox_size (YHeader.header1 s.mem o) ≤ i →
      Box.is_ptr (YHeader.get_field s.mem o i) = true →
      YHeader.get_field s.mem o i = 0 ∨ YHeader.get_field s.mem o i ∈ N
        ∨ YHeader.get_field s.mem o i ∈ T
  /-- The shadow stack has a slot for every index up to `stack_top`. -/
  stack_fits : (s.stack_top + 1).toNat ≤ s.shadow_stack.length
  /-- A shadow-stack entry is null or the address of a listed object. -/
  roots_closed : ∀ i, i < (s.stack_top + 1).toNat →
      s.shadow_stack.getD i 0 = 0 ∨ s.shadow_stack.getD i 0 ∈ N ∨ s.shadow_stack.getD i 0 ∈ T
  /-- A remember-set entry is null or a tenured object. -/
  remembered_old : ∀ r ∈ s.remember_set, r = 0 ∨ r ∈ T
  /-- No tenured object is in the remember set twice. -/
  remembered_nodup : s.remember_set.Pairwise (fun a b => a ≠ 0 → a ≠ b)
  /-- Every tenured object holding a pointer into the nursery is in the remember set. -/
  remembered_all : ∀ t ∈ T,
      (∃ i, i < YHeader.field_size (YHeader.header2 s.mem t)
        ∧ YHeader.has_boxed_value (YHeader.header1 s.mem t) = true
        ∧ YHeader.unbox_size (YHeader.header1 s.mem t) ≤ i
        ∧ Box.is_ptr (YHeader.get_field s.mem t i) = true
        ∧ s.in_nursery (YHeader.get_field s.mem t i) = true) →
      t ∈ s.remember_set
  /-- No promoted object is pending. -/
  no_promoted : s.promoted_objects = []
  /-- The tenured objects are exactly the nodes of the tenure list. -/
  tenure_chain : tenure_list s.mem (T.length + 1) s.tenure_space = T
  /-- The tenure size is a 64-bit word. -/
  size_word : s.tenure_space_size < 2 ^ 64

/-- The object at `o` is promoted by its next copy: its generation is 3. -/
def promotes (m : Mem) (o : Nat) : Bool :=
  decide (YHeader.gc_generation (YHeader.header1 m o) = 3)

/-- Bytes of to-space taken by the copies recorded in `F` (newest first). -/
def to_used (m : Mem) : List (Nat × Nat) → Nat
  | [] => 0
  | x :: F => if promotes m x.1 then to_used m F else to_used m F + object_bytes m x.1

/-- Bytes of the free store taken by the promotions recorded in `F` (newest first). -/
def heap_used (m : Mem) : List (Nat × Nat) → Nat
  | [] => 0
  | x :: F => if promotes m x.1 then heap_used m F + object_bytes m x.1 else heap_used m F

/-- Every pair `(old, new)` of `F` (newest first) has its `new` where the collector put
it: at the to-space or free-store break left by the older pairs. -/
def placed (s : GC) : List (Nat × Nat) → Prop
  | [] => True
  | x :: F =>
    x.2 = (if promotes s.mem x.1 then s.heap_break + heap_used s.mem F
           else s.semi_space1 + to_used s.mem F)
    ∧ placed s F

/-- The objects whose fields the scavenge rewrites, as pairs `(current address, address
at the start)`: the tenured objects and the new copies. -/
def owners (T : List Nat) (F : List (Nat × Nat)) : List (Nat × Nat) :=
  T.map (fun t => (t, t)) ++ F.map (fun x => (x.2, x.1))

/-- Every scanned field of the owner `w` still holds the word it held at the start. -/
def fresh (s0 : GC) (m : Mem) (w : Nat × Nat) : Prop :=
  ∀ i, scanned_index s0.mem w.2 i → YHeader.get_field m w.1 i = YHeader.get_field s0.mem w.2 i

/-- Every scanned field of the owner `w` that held a pointer into the nursery at the start
now holds its forwarding address. -/
def scanned (s0 : GC) (m : Mem) (F : List (Nat × Nat)) (w : Nat × Nat) : Prop :=
  ∀ i, scanned_index s0.mem w.2 i → Box.is_ptr (YHeader.get_field s0.mem w.2 i) = true →
    s0.in_nursery (YHeader.get_field s0.mem w.2 i) = true →
    (YHeader.get_field s0.mem w.2 i, YHeader.get_field m w.1 i) ∈ F

/-- The invariant of a scavenge in progress: `s0` is the state at its start, `N` and `T`
its young and tenured objects, `c` the current scan state and `F` the forwarding pairs
`(old, new)` made so far, newest first. -/
structure GC.Inv (s0 : GC) (N T : List Nat) (c : Scan) (F : List (Nat × Nat)) : Prop where
  /-- The registers are untouched. -/
  frame : GC.Frame s0 c.gc
  /-- The count is the number of pairs. -/
  live : c.live_objects = F.length
  /-- No object was copied twice. -/
  keys_nodup : (F.map Prod.fst).Nodup
  /-- Only young objects are copied. -/
  keys_young : ∀ x ∈ F, x.1 ∈ N
  /-- Only objects reachable from the roots are copied. -/
  reach : ∀ x ∈ F, s0.copy_reachable x.1
  /-- The copies are where the collector put them. -/
  is_placed : placed s0 F
  /-- The to-space break. -/
  alloc : c.alloc_ptr = s0.semi_space1 + to_used s0.mem F
  /-- The free-store break. -/
  brk : c.gc.heap_break = s0.heap_break + heap_used s0.mem F
  /-- The tenure size grew by the promoted words. -/
  tenure_size : c.gc.tenure_space_size
      = (s0.tenure_space_size + heap_used s0.mem F / 8) % 2 ^ 64
  /-- An object not yet copied has its header word. -/
  young_h1 : ∀ o ∈ N, o ∉ F.map Prod.fst →
      YHeader.header1 c.gc.mem o = YHeader.header1 s0.mem o
  /-- A copied object holds its forwarding address. -/
  young_fwd : ∀ x ∈ F, YHeader.header1 c.gc.mem x.1 = x.2
  /-- The second header word and the body of a young object never change. -/
  young_body : ∀ o ∈ N, ∀ j, 2 ≤ j → j < object_words s0.mem o →
      c.gc.mem (o + 8 * j) = s0.mem (o + 8 * j)
  /-- A copy has the type, unbox size and incremented generation of its original. -/
  new_kind : ∀ x ∈ F, YHeader.kind (YHeader.header1 c.gc.mem x.2)
      = YHeader.kind (YHeader.inc_gc_generation (YHeader.header1 s0.mem x.1)).1
  /-- A copy in to-space has the incremented header word. -/
  new_h1 : ∀ x ∈ F, promotes s0.mem x.1 = false →
      YHeader.header1 c.gc.mem x.2 = (YHeader.inc_gc_generation (YHeader.header1 s0.mem x.1)).1
  /-- A tenured object keeps its type, unbox size and generation. -/
  old_kind : ∀ t ∈ T, YHeader.kind (YHeader.header1 c.gc.mem t)
      = YHeader.kind (YHeader.header1 s0.mem t)
  /-- An owner has the second header word of its original. -/
  owner_h2 : ∀ w ∈ owners T F, YHeader.header2 c.gc.mem w.1 = YHeader.header2 s0.mem w.2
  /-- A scanned field of an owner holds its original word or its forwarding address. -/
  cells : ∀ w ∈ owners T F, ∀ i, scanned_index s0.mem w.2 i →
      YHeader.get_field c.gc.mem w.1 i = YHeader.get_field s0.mem w.2 i
      ∨ (Box.is_ptr (YHeader.get_field s0.mem w.2 i) = true
          ∧ s0.in_nursery (YHeader.get_field s0.mem w.2 i) = true
          ∧ (YHeader.get_field s0.mem w.2 i, YHeader.get_field c.gc.mem w.1 i) ∈ F)
  /-- A copy has the mark of its original. -/
  new_mark : ∀ x ∈ F, YHeader.gc_mark (YHeader.header1 c.gc.mem x.2)
      = YHeader.gc_mark (YHeader.header1 s0.mem x.1)
  /-- A pending promoted copy has the remember bit of its original. -/
  pend_rem : ∀ x ∈ F, x.2 ∈ c.gc.promoted_objects →
      YHeader.gc_remember (YHeader.header1 c.gc.mem x.2)
        = YHeader.gc_remember (YHeader.header1 s0.mem x.1)

/-- The promoted copies among the pairs `G` (newest first), oldest first: what the
pairs `G` appended to `promoted_objects`. -/
def promoted_of (m : Mem) (G : List (Nat × Nat)) : List Nat :=
  (G.reverse.filter (fun x => promotes m x.1)).map Prod.snd

/-- What a stretch of a scavenge that rewrites only fields of the owner `w0` does:
it takes the scan state `c` with pairs `F` to `c'` with pairs `F'`. -/
structure GC.Step (s0 : GC) (N T : List Nat) (w0 : Nat × Nat) (c : Scan)
    (F : List (Nat × Nat)) (c' : Scan) (F' : List (Nat × Nat)) : Prop where
  /-- The invariant holds afterwards. -/
  inv : GC.Inv s0 N T c' F'
  /-- Pairs are only added, and their promoted copies are appended to `promoted_objects`. -/
  grow : ∃ G, F' = G ++ F
      ∧ c'.gc.promoted_objects = c.gc.promoted_objects ++ promoted_of s0.mem G
  /-- A new copy holds the fields of its original. -/
  fresh_new : ∀ w ∈ owners T F', w ∉ owners T F → fresh s0 c'.gc.mem w
  /-- The shadow stack is not assigned. -/
  shadow : c'.gc.shadow_stack = c.gc.shadow_stack
  /-- The remember set is not assigned. -/
  remember : c'.gc.remember_set = c.gc.remember_set
  /-- The head of the tenure list is not assigned. -/
  tenure : c'.gc.tenure_space = c.gc.tenure_space
  /-- The header words of the owners are not written. -/
  kept_head : ∀ w ∈ owners T F, ∀ j, j < 3 → c'.gc.mem (w.1 + 8 * j) = c.gc.mem (w.1 + 8 * j)
  /-- The fields of the owners other than `w0` are not written. -/
  kept_cells : ∀ w ∈ owners T F, w ≠ w0 →
      ∀ i, i < YHeader.field_size (YHeader.header2 s0.mem w.2) →
        YHeader.get_field c'.gc.mem w.1 i = YHeader.get_field c.gc.mem w.1 i

/-- Some field of the owner `w` with index in `[lo, hi)` held a pointer into the nursery
at the start and holds a pointer into the nursery in the memory `m`. -/
def still_young (s0 : GC) (m : Mem) (w : Nat × Nat) (lo hi : Nat) : Prop :=
  ∃ j, lo ≤ j ∧ j < hi ∧ Box.is_ptr (YHeader.get_field s0.mem w.2 j) = true
    ∧ s0.in_nursery (YHeader.get_field s0.mem w.2 j) = true
    ∧ s0.in_nursery (YHeader.get_field m w.1 j) = true

/-- Following `next_object` from `p` through the nodes `L` ends at `q`. -/
def chain_to (m : Mem) : Nat → List Nat → Nat → Prop
  | p, [], q => p = q
  | p, n :: L, q => p = n ∧ chain_to m (YHeader.next_object (YHeader.header1 m n)) L q

/-- The tenured object `t` keeps a pointer into the nursery in the memory `m`. -/
def keeps_young (s0 : GC) (m : Mem) (w : Nat × Nat) : Prop :=
  YHeader.has_boxed_value (YHeader.header1 s0.mem w.2) = true
    ∧ still_young s0 m w (YHeader.unbox_size (YHeader.header1 s0.mem w.2))
        (YHeader.field_size (YHeader.header2 s0.mem w.2))

/-- The progress of a scavenge: `ksh` shadow-stack slots and `krs` remember-set slots are
still to be visited, `D` are the pairs whose copy has been scanned, `Lk` the promoted
copies already linked to the tenure list (newest first) and `Q` the promoted copies
appended to the remember set. -/
structure GC.Phase (s0 : GC) (N T : List Nat) (c : Scan) (F : List (Nat × Nat))
    (ksh krs : Nat) (D : List (Nat × Nat)) (Lk Q : List Nat) : Prop where
  /-- The invariant holds. -/
  inv : GC.Inv s0 N T c F
  /-- Slots still to be visited are untouched. -/
  sh_todo : ∀ j, j < ksh → c.gc.shadow_stack.getD j 0 = s0.shadow_stack.getD j 0
  /-- A visited slot holds the forwarding address of a young root, and is untouched
  otherwise. -/
  sh_done : ∀ j, ksh ≤ j → j < (s0.stack_top + 1).toNat →
      (s0.in_nursery (s0.shadow_stack.getD j 0) = true →
        (s0.shadow_stack.getD j 0, c.gc.shadow_stack.getD j 0) ∈ F)
      ∧ (s0.in_nursery (s0.shadow_stack.getD j 0) = false →
        c.gc.shadow_stack.getD j 0 = s0.shadow_stack.getD j 0)
  /-- Slots above `stack_top` are untouched. -/
  sh_rest : ∀ j, (s0.stack_top + 1).toNat ≤ j →
      c.gc.shadow_stack.getD j 0 = s0.shadow_stack.getD j 0
  /-- The remember set is the old one followed by `Q`. -/
  rs_len : c.gc.remember_set.length = s0.remember_set.length + Q.length
  /-- The appended entries. -/
  rs_new : ∀ j, j < Q.length →
      c.gc.remember_set.getD (s0.remember_set.length + j) 0 = Q.getD j 0
  /-- Entries still to be visited are untouched. -/
  rs_todo : ∀ j, j < krs → c.gc.remember_set.getD j 0 = s0.remember_set.getD j 0
  /-- A visited entry is kept or nulled; its object is scanned, it is kept exactly when the
  object still points into the nursery, and its remember bit is reset when it is nulled. -/
  rs_done : ∀ j, krs ≤ j → j < s0.remember_set.length →
      (c.gc.remember_set.getD j 0 = s0.remember_set.getD j 0 ∨ c.gc.remember_set.getD j 0 = 0)
      ∧ (s0.remember_set.getD j 0 ≠ 0 →
          scanned s0 c.gc.mem F (s0.remember_set.getD j 0, s0.remember_set.getD j 0)
          ∧ (c.gc.remember_set.getD j 0 ≠ 0 ↔
              keeps_young s0 c.gc.mem (s0.remember_set.getD j 0, s0.remember_set.getD j 0))
          ∧ YHeader.header1 c.gc.mem (s0.remember_set.getD j 0)
              = if c.gc.remember_set.getD j 0 ≠ 0 then
                  YHeader.header1 s0.mem (s0.remember_set.getD j 0)
                else YHeader.reset_gc_remember
                  (YHeader.header1 s0.mem (s0.remember_set.getD j 0)))
  /-- A tenured object that is not a visited entry is untouched. -/
  old_fresh : ∀ t ∈ T,
      (∀ j, krs ≤ j → j < s0.remember_set.length → s0.remember_set.getD j 0 ≠ t) →
      fresh s0 c.gc.mem (t, t) ∧ YHeader.header1 c.gc.mem t = YHeader.header1 s0.mem t
  /-- Scanned copies are copies. -/
  done_sub : ∀ x ∈ D, x ∈ F
  /-- No copy is scanned twice. -/
  done_nodup : D.Nodup
  /-- A scanned copy is scanned. -/
  new_scanned : ∀ x ∈ D, scanned s0 c.gc.mem F (x.2, x.1)
  /-- A copy not yet scanned holds the fields of its original. -/
  new_fresh : ∀ x ∈ F, x ∉ D → fresh s0 c.gc.mem (x.2, x.1)
  /-- The pending promoted objects are the promoted copies not yet scanned. -/
  pending : ∀ n, n ∈ c.gc.promoted_objects ↔
      ∃ x ∈ F, x ∉ D ∧ promotes s0.mem x.1 = true ∧ x.2 = n
  /-- No promoted object is pending twice. -/
  pending_nodup : c.gc.promoted_objects.Nodup
  /-- The tenure list starts with the linked copies and continues with the old list. -/
  chain : chain_to c.gc.mem c.gc.tenure_space Lk s0.tenure_space
  /-- The linked copies are the scanned promoted copies. -/
  linked : ∀ n, n ∈ Lk ↔ ∃ x ∈ D, promotes s0.mem x.1 = true ∧ x.2 = n
  /-- The appended entries are the scanned promoted copies that still point into the
  nursery. -/
  q_mem : ∀ n, n ∈ Q ↔ ∃ x ∈ D, promotes s0.mem x.1 = true ∧ x.2 = n
      ∧ keeps_young s0 c.gc.mem (x.2, x.1)
  /-- No entry is appended twice. -/
  q_nodup : Q.Nodup
  /-- A linked copy has the remember bit set exactly when it was appended to the remember
  set, or its original had it. -/
  q_bit : ∀ x ∈ D, promotes s0.mem x.1 = true →
      (YHeader.gc_remember (YHeader.header1 c.gc.mem x.2) = 1
        ↔ x.2 ∈ Q ∨ YHeader.gc_remember (YHeader.header1 s0.mem x.1) = 1)

/-- The scan pointer `sp` of the Cheney loop separates the to-space copies already scanned
from the others, and is the address of a to-space copy or the allocation pointer. -/
def GC.scan_line (s0 : GC) (F D : List (Nat × Nat)) (sp : Nat) : Prop :=
  (∀ x ∈ F, promotes s0.mem x.1 = false → (x ∈ D ↔ x.2 < sp))
    ∧ (sp = s0.semi_space1 + to_used s0.mem F
        ∨ ∃ x ∈ F, promotes s0.mem x.1 = false ∧ x.2 = sp)

/-! ## Vocabulary for the shadow stack and the major collection -/

/-- The shadow stack holds exactly the slots `0 .. stack_top`: the vector is as long as
`stack_top + 1`, which is what `expand` and `shrink` resize it to. -/
def Shadow.sized (s : GC) : Prop :=
  -1 ≤ s.stack_top ∧ s.shadow_stack.length = (s.stack_top + 1).toNat

namespace Example

/-- A heap set up a second time while slot 0 of its shadow stack holds a pointer:
`initialize`, `expand(1)`, `set(0, 0x2000)`, `initialize`. -/
def set_up_twice : GC :=
  GC.initialise (Shadow.set (Shadow.expand heap0 1) 0 0x2000) 16 0

end Example

/-- The word `header1` of the object that `ptr` points to in the sweep: of the local object
`root` when `ptr` is `none`, of the heap object `q` when it is `some q`. -/
def GC.link_word (s : GC) (root_h1 : Nat) (ptr : Option Nat) : Nat :=
  match ptr with
  | none => root_h1
  | some q => YHeader.header1 s.mem q

/-- The sweep phase of `GC::do_mark_sweep_gc`, from the construction of the local object
`root` to the assignment `tenure_space = root.next_object()`. -/
def GC.sweep (mark_bit fuel : Nat) (s : GC) : Option GC :=
  match GC.sweep_outer mark_bit fuel fuel
      (s, YHeader.set_next_object (YHeader.init_header1 0 0) s.tenure_space, none) with
  | none => none
  | some r => some (r.1.set_tenure_space (YHeader.next_object r.2))

/-- The tenure list of `s` is `L`: following `next_object` from `tenure_space` visits the
nodes of `L` in order and then reaches null; the nodes are distinct, not null, and the
first header word of a node is not the second header word of another. -/
structure GC.Listed (s : GC) (L : List Nat) : Prop where
  /-- The head fits in the 48 bits of a link. -/
  head : s.tenure_space < 2 ^ 48
  /-- The links. -/
  chain : chain_to s.mem s.tenure_space L 0
  /-- No node is null. -/
  nonnull : ∀ n ∈ L, n ≠ 0
  /-- No node is listed twice. -/
  nodup : L.Nodup
  /-- Header words of nodes do not overlap. -/
  apart : ∀ a ∈ L, ∀ b ∈ L, a + 8 ≠ b + 16

/-- Total size in words of the objects `L`. -/
def words_of (m : Mem) (L : List Nat) : Nat := (L.map (object_words m)).sum

/-- The step `if (next != next0) ptr->set_next_object(next)` of the sweep; the result is the
state and the first header word of the local object `root`. -/
def GC.relink (s1 : GC) (root_h1 : Nat) (ptr : Option Nat) (next0 next : Nat) : GC × Nat :=
  if next ≠ next0 then
    match ptr with
    | none => (s1, YHeader.set_next_object root_h1 next)
    | some q =>
      (s1.set_mem (YHeader.put_header1 s1.mem q
        (YHeader.set_next_object (YHeader.header1 s1.mem q) next)), root_h1)
  else (s1, root_h1)

/-- The parts of the state that the mark loops and the sweep loops of a major collection
never assign. -/
structure GC.Kept (s t : GC) : Prop where
  /-- Same nursery base. -/
  nursery_space : t.nursery_space = s.nursery_space
  /-- Same nursery end. -/
  nursery_space_end : t.nursery_space_end = s.nursery_space_end
  /-- Same semi-space size. -/
  semi_space_size : t.semi_space_size = s.semi_space_size
  /-- Same active semi-space. -/
  semi_space0 : t.semi_space0 = s.semi_space0
  /-- Same inactive semi-space. -/
  semi_space1 : t.semi_space1 = s.semi_space1
  /-- Same bump pointer. -/
  current_top : t.current_top = s.current_top
  /-- Same limit. -/
  current_end : t.current_end = s.current_end
  /-- Same shadow stack. -/
  shadow_stack : t.shadow_stack = s.shadow_stack
  /-- Same stack top. -/
  stack_top : t.stack_top = s.stack_top
  /-- Same pending promoted objects. -/
  promoted_objects : t.promoted_objects = s.promoted_objects
  /-- Same mark value. -/
  current_mark_bit : t.current_mark_bit = s.current_mark_bit
  /-- Same threshold. -/
  tenure_space_limit : t.tenure_space_limit = s.tenure_space_limit
  /-- Same minor count. -/
  copy_gc_count : t.copy_gc_count = s.copy_gc_count
  /-- Same major count. -/
  mark_sweep_gc_count : t.mark_sweep_gc_count = s.mark_sweep_gc_count
  /-- Same free-store break. -/
  heap_break : t.heap_break = s.heap_break

/-- The header word `g` is the header word `h` except, at most, for the mark bits and the
remember bit (bits 54 to 56). -/
def YHeader.same_but_marks (h g : Nat) : Prop :=
  g % 2 ^ 54 = h % 2 ^ 54 ∧ g / 2 ^ 57 % 2 ^ 7 = h / 2 ^ 57 % 2 ^ 7

/-- The memory `m'` is the memory `m` except, at most, for mark and remember bits of the
objects `U`. -/
structure marks_only (U : List Nat) (m m' : Mem) : Prop where
  /-- Only first header words of objects are written. -/
  other : ∀ a, (∀ o ∈ U, a ≠ o + 8) → m' a = m a
  /-- A first header word keeps all but its mark and remember bits. -/
  head : ∀ o ∈ U, YHeader.same_but_marks (YHeader.header1 m o) (YHeader.header1 m' o)

/-- The heap as a major collection needs it, for the list `U` of all objects: the objects do
not overlap, the roots and the scanned pointer fields are null or objects, the remember-set
entries are null or objects, and the mark value has two bits. -/
structure GC.Heap (s : GC) (U : List Nat) : Prop where
  /-- Objects do not overlap. -/
  apart : U.Pairwise (fun a b => a + object_bytes s.mem a ≤ b ∨ b + object_bytes s.mem b ≤ a)
  /-- A shadow-stack entry is null or an object. -/
  roots_closed : ∀ i, i < (s.stack_top + 1).toNat →
      s.shadow_stack.getD i 0 = 0 ∨ s.shadow_stack.getD i 0 ∈ U
  /-- A pointer in a scanned field is null or an object. -/
  fields_closed : ∀ o ∈ U, ∀ i, i < YHeader.field_size (YHeader.header2 s.mem o) →
      YHeader.has_boxed_value (YHeader.header1 s.mem o) = true →
      YHeader.unbox_size (YHeader.header1 s.mem o) ≤ i →
      Box.is_ptr (YHeader.get_field s.mem o i) = true →
      YHeader.get_field s.mem o i = 0 ∨ YHeader.get_field s.mem o i ∈ U
  /-- A remember-set entry is null or an object. -/
  remembered : ∀ r ∈ s.remember_set, r = 0 ∨ r ∈ U
  /-- The mark value has two bits. -/
  mark_value : s.current_mark_bit < 4

/-- A root of the major collection: a non-null shadow-stack entry at or below
`stack_top`. -/
def GC.mark_root (s : GC) (r : Nat) : Prop :=
  r ≠ 0 ∧ ∃ i, i < (s.stack_top + 1).toNat ∧ s.shadow_stack.getD i 0 = r

/-- Reachable from the shadow stack through boxed pointer fields. -/
def GC.mark_reachable (s : GC) (x : Nat) : Prop :=
  ∃ r, s.mark_root r ∧ Relation.ReflTransGen (points_to s.mem) r x

/-- The tri-colour invariant of the mark phase of a major collection started in `s0` with
the objects `U` and the mark value `mb`: `st` is the state, the vector `visited` and the
count; `pend o i` holds for the fields, not yet visited, of the object whose fields the
loop is visiting. -/
structure GC.Coloured (s0 : GC) (U : List Nat) (mb : Nat) (st : GC × List Nat × Nat)
    (pend : Nat → Nat → Prop) : Prop where
  /-- Only reachable objects carry the mark. -/
  sound : ∀ o ∈ U, YHeader.gc_mark (YHeader.header1 st.1.mem o) = mb → s0.mark_reachable o
  /-- A pushed object carries the mark. -/
  grey : ∀ o ∈ st.2.1, YHeader.gc_mark (YHeader.header1 st.1.mem o) = mb
  /-- No object is pushed twice. -/
  nodup : st.2.1.Nodup
  /-- A marked object that is not pushed points to marked objects, but for the pending
  fields. -/
  black : ∀ o ∈ U, YHeader.gc_mark (YHeader.header1 st.1.mem o) = mb → o ∉ st.2.1 →
      ∀ i, scanned_index s0.mem o i → Box.is_ptr (YHeader.get_field s0.mem o i) = true →
        YHeader.get_field s0.mem o i ≠ 0 → ¬ pend o i →
        YHeader.gc_mark (YHeader.header1 st.1.mem (YHeader.get_field s0.mem o i)) = mb

/-- The young objects after a scavenge with the forwarding pairs `F` (newest first): the
copies made in to-space, in address order. -/
def young_copies (m : Mem) (F : List (Nat × Nat)) : List Nat :=
  ((F.filter (fun x => !promotes m x.1)).map Prod.snd).reverse

/-- State that an allocation ends in, whether it returned or threw. -/
def GC.Outcome.state : GC.Outcome → GC
  | GC.Outcome.returned s _ => s
  | GC.Outcome.memory_exhausted s => s

/-- The states that a program reaches from a call of `GC::initialize` through the entry
points of the collector: both collections, the threshold check, the allocators, the write
barrier, the shadow-stack functions, and stores into memory (constructors and field
setters). -/
inductive GC.Reachable : GC → Prop
  /-- The call `GC::initialize(young_size, stack_size)`, in any state. -/
  | set_up (s : GC) (young_size stack_size : Nat) :
      GC.Reachable (GC.initialise s young_size stack_size)
  /-- A minor collection that returned. -/
  | minor {s t : GC} {fuel n : Nat} :
      GC.Reachable s → GC.do_copy_gc fuel s = some (t, n) → GC.Reachable t
  /-- A major collection that returned. -/
  | major {s t : GC} {fuel n : Nat} :
      GC.Reachable s → GC.do_mark_sweep_gc fuel s = some (t, n) → GC.Reachable t
  /-- The threshold check, with the major collection it may run. -/
  | if_needed {s t : GC} {fuel n : Nat} :
      GC.Reachable s → GC.mark_sweep_gc_if_needed fuel s = some (t, n) → GC.Reachable t
  /-- An allocation in the nursery, with the collections it may run. -/
  | alloc {s : GC} {fuel count : Nat} {o : GC.Outcome} :
      GC.Reachable s → GC.allocate_in_semi fuel s count = some o → GC.Reachable o.state
  /-- An allocation in the tenure space. -/
  | tenure {s : GC} (size : Nat) :
      GC.Reachable s → GC.Reachable (YArray.make_in_tenure s size).1
  /-- The write barrier. -/
  | barrier {s : GC} (self value : Nat) :
      GC.Reachable s → GC.Reachable (GC.w_barrier s self value).1
  /-- A store into memory. -/
  | write {s : GC} (m : Mem) : GC.Reachable s → GC.Reachable (s.set_mem m)
  /-- The call `Shadow::expand(size)`. -/
  | expand {s : GC} (size : Int) : GC.Reachable s → GC.Reachable (Shadow.expand s size)
  /-- The call `Shadow::shrink(size)`. -/
  | shrink {s : GC} (size : Nat) : GC.Reachable s → GC.Reachable (Shadow.shrink s size)
  /-- The call `Shadow::set(index, value)`. -/
  | set_slot {s : GC} (index : Int) (value : Nat) :
      GC.Reachable s → GC.Reachable (Shadow.set s index value)

/-- The invariant of the mark phase of a major collection started in `s0` with the objects
`U` and the mark value `mb`: `st` is the state, the vector `visited` and the count;
`W` lists the objects that may still lack the mark. -/
structure GC.Marking (s0 : GC) (U : List Nat) (mb : Nat) (st : GC × List Nat × Nat)
    (W : List Nat) : Prop where
  /-- Only mark and remember bits were written. -/
  mem : marks_only U s0.mem st.1.mem
  /-- The registers are untouched. -/
  kept : GC.Kept s0 st.1
  /-- Same tenure list head. -/
  tenure_space : st.1.tenure_space = s0.tenure_space
  /-- Same tenure size. -/
  tenure_space_size : st.1.tenure_space_size = s0.tenure_space_size
  /-- Same freed blocks. -/
  freed : st.1.freed = s0.freed
  /-- Only objects are pushed. -/
  visited : ∀ p ∈ st.2.1, p ∈ U
  /-- An object without the mark is in `W`. -/
  todo : ∀ o ∈ U, YHeader.gc_mark (YHeader.header1 st.1.mem o) ≠ mb → o ∈ W

namespace Example

/-- Two tenured boxed arrays of one field, `0x1100` and then `0x1120`; the older one,
`0x1100`, carries the mark 1. The tenure list is `0x1120, 0x1100`. -/
def two_tenured : GC :=
  let t := YArray.make_in_tenure heap0 1
  let u := YArray.make_in_tenure t.1 1
  u.1.set_mem (YHeader.put_header1 u.1.mem t.2
    (YHeader.set_gc_mark (YHeader.header1 u.1.mem t.2) 1).1)

/-- One tenured boxed array of two fields, `0x1100`, and one young unboxed array of one
field, `0x1000`, before any store: the state from which `one_remembered` is made. -/
def tenured_and_young : GC :=
  let t := YArray.make_in_tenure heap0 2
  state_of heap0 (YUnboxArray.make 8 t.1 1)

/-- One tenured boxed array of one field, `0x1100`, rooted in slot 0 of the shadow stack. -/
def rooted_tenured : GC :=
  let t := YArray.make_in_tenure (Shadow.expand heap0 1) 1
  Shadow.set t.1 0 t.2

/-- Two tenured boxed arrays of one field, `0x1100` and then `0x1120`; slot 0 of the shadow
stack holds the older one, nothing points to the other. The tenure list is
`0x1120, 0x1100`. -/
def rooted_and_loose : GC :=
  let t := YArray.make_in_tenure (Shadow.expand heap0 1) 1
  let u := YArray.make_in_tenure t.1 1
  Shadow.set u.1 0 t.2

end Example

/-! ## Vocabulary for the life cycle and for scavenges in a row -/

/-- The function `GC::finalize` of `gc.cpp`: the nursery block is deleted and the shadow
stack, the remember set and the vector of promoted objects are cleared. -/
def GC.finalize (s : GC) : GC :=
  { s with freed := s.freed ++ [s.nursery_space],
           nursery_space := 0,
           shadow_stack := [],
           remember_set := [],
           promoted_objects := [] }

/-- The states of a program that keeps to the life cycle of the collector: `initialize`
at program start or after `finalize`, and in between the entry points of the collector
and of the shadow stack, `expand` with a count that is not negative and `shrink` by no
more than the stack holds. -/
inductive GC.Defined : GC → Prop
  /-- The first call of `GC::initialize`, at program start. -/
  | first (heap_base young_size stack_size : Nat) :
      GC.Defined (GC.initialise (GC.start heap_base) young_size stack_size)
  /-- The call of `GC::initialize` after `GC::finalize`. -/
  | again {s : GC} (young_size stack_size : Nat) :
      GC.Defined s → GC.Defined (GC.initialise (GC.finalize s) young_size stack_size)
  /-- A minor collection that returned. -/
  | minor {s t : GC} {fuel n : Nat} :
      GC.Defined s → GC.do_copy_gc fuel s = some (t, n) → GC.Defined t
  /-- A major collection that returned. -/
  | major {s t : GC} {fuel n : Nat} :
      GC.Defined s → GC.do_mark_sweep_gc fuel s = some (t, n) → GC.Defined t
  /-- The threshold check, with the major collection it may run. -/
  | if_needed {s t : GC} {fuel n : Nat} :
      GC.Defined s → GC.mark_sweep_gc_if_needed fuel s = some (t, n) → GC.Defined t
  /-- An allocation in the nursery, with the collections it may run. -/
  | alloc {s : GC} {fuel count : Nat} {o : GC.Outcome} :
      GC.Defined s → GC.allocate_in_semi fuel s count = some o → GC.Defined o.state
  /-- An allocation in the tenure space. -/
  | tenure {s : GC} (size : Nat) :
      GC.Defined s → GC.Defined (YArray.make_in_tenure s size).1
  /-- The write barrier. -/
  | barrier {s : GC} (self value : Nat) :
      GC.Defined s → GC.Defined (GC.w_barrier s self value).1
  /-- A store into memory. -/
  | write {s : GC} (m : Mem) : GC.Defined s → GC.Defined (s.set_mem m)
  /-- The call `Shadow::expand(size)`. -/
  | expand {s : GC} (size : Nat) : GC.Defined s → GC.Defined (Shadow.expand s (size : Int))
  /-- The call `Shadow::shrink(size)`. -/
  | shrink {s : GC} (size : Nat) :
      GC.Defined s → (size : Int) ≤ s.stack_top + 1 → GC.Defined (Shadow.shrink s size)
  /-- The call `Shadow::set(index, value)`. -/
  | set_slot {s : GC} (index : Int) (value : Nat) :
      GC.Defined s → GC.Defined (Shadow.set s index value)

/-- What a scavenge of `s`, with young objects `N` and tenured objects `T`, has done when
it returns the state `t` and the count `n`: `N'` lists the copies left in the nursery and
`L` the promoted copies, which precede `T` on the tenure list. -/
structure GC.Scavenged (s : GC) (N T : List Nat) (t : GC) (n : Nat) (N' L : List Nat) :
    Prop where
  /-- The collector's invariants hold again when the free store has room. -/
  wf : s.heap_break + 16 * s.semi_space_size ≤ 2 ^ 48 → t.WF N' (L ++ T)
  /-- No more young objects than before. -/
  fewer : N'.length ≤ N.length
  /-- The free store grew by a semi-space at most. -/
  heap_break : t.heap_break ≤ s.heap_break + 8 * s.semi_space_size
  /-- Same semi-space size. -/
  semi_space_size : t.semi_space_size = s.semi_space_size
  /-- Same stack top. -/
  stack_top : t.stack_top = s.stack_top
  /-- Same nursery. -/
  nursery : ∀ v, t.in_nursery v = s.in_nursery v
  /-- The limit is the end of the active semi-space. -/
  current_end : t.current_end = t.semi_space0 + 8 * t.semi_space_size
  /-- The bump pointer is in the active semi-space. -/
  top_ge : t.semi_space0 ≤ t.current_top
  /-- With no young object left the bump pointer is at the base. -/
  empty : N' = [] → t.current_top = t.semi_space0
  /-- The tenure list is `L` followed by `T`. -/
  listed : tenure_list t.mem ((L ++ T).length + 1) t.tenure_space = L ++ T
  /-- The tenured objects are distinct. -/
  old_nodup : (L ++ T).Nodup
  /-- The young objects are distinct. -/
  young_nodup : N'.Nodup
  /-- A young object is in the nursery and reachable from the roots. -/
  young : ∀ y ∈ N', t.in_nursery y = true ∧ t.copy_reachable y
  /-- A tenured object is outside the nursery and has generation 0. -/
  old : ∀ y ∈ L ++ T, t.in_nursery y = false
      ∧ YHeader.gc_generation (YHeader.header1 t.mem y) = 0
  /-- The count is the number of young objects that were reachable. -/
  count : ∃ R : List Nat, R.Nodup
      ∧ (∀ x, x ∈ R ↔ s.in_nursery x = true ∧ s.copy_reachable x) ∧ n = R.length
  /-- Every counted object is left in the nursery or promoted. -/
  split : n = N'.length + L.length
  /-- A young object that was reachable has a copy. -/
  image : ∀ x, s.in_nursery x = true → s.copy_reachable x →
      ∃ y, (y ∈ N' ∨ y ∈ L) ∧ YHeader.header2 t.mem y = YHeader.header2 s.mem x
  /-- A copy left in the nursery is the copy of a reachable young object, one generation
  older. -/
  source_young : ∀ y ∈ N', ∃ x, s.in_nursery x = true ∧ s.copy_reachable x
      ∧ YHeader.header2 t.mem y = YHeader.header2 s.mem x
      ∧ YHeader.gc_generation (YHeader.header1 t.mem y)
          = YHeader.gc_generation (YHeader.header1 s.mem x) + 1
  /-- A promoted copy is the copy of a reachable young object. -/
  source_old : ∀ y ∈ L, ∃ x, s.in_nursery x = true ∧ s.copy_reachable x
      ∧ YHeader.header2 t.mem y = YHeader.header2 s.mem x
  /-- A tenured object keeps its second header word. -/
  kept : ∀ y ∈ T, YHeader.header2 t.mem y = YHeader.header2 s.mem y
  /-- A slot that held a young object holds its copy; another slot is unchanged. -/
  roots : ∀ i, i < (s.stack_top + 1).toNat →
      (s.in_nursery (s.shadow_stack.getD i 0) = true →
        (t.shadow_stack.getD i 0 ∈ N' ∨ t.shadow_stack.getD i 0 ∈ L)
        ∧ YHeader.header2 t.mem (t.shadow_stack.getD i 0)
            = YHeader.header2 s.mem (s.shadow_stack.getD i 0))
      ∧ (s.in_nursery (s.shadow_stack.getD i 0) = false →
        t.shadow_stack.getD i 0 = s.shadow_stack.getD i 0)

/-- What scavenges in a row from `s`, with tenured objects `T`, have done when they reach
the state `t`: `R` lists the young objects that were reachable in `s`, `N'` their copies
still in the nursery and `L` their promoted copies, which precede `T` on the tenure
list. -/
structure GC.Aged (s : GC) (T : List Nat) (t : GC) (N' L R : List Nat) : Prop where
  /-- Same stack top. -/
  stack_top : t.stack_top = s.stack_top
  /-- Same nursery. -/
  nursery : ∀ v, t.in_nursery v = s.in_nursery v
  /-- The survivors are distinct. -/
  nodup : R.Nodup
  /-- The survivors are the young objects that were reachable. -/
  survivors : ∀ x, x ∈ R ↔ s.in_nursery x = true ∧ s.copy_reachable x
  /-- Every survivor is in the nursery or promoted. -/
  split : R.length = N'.length + L.length
  /-- The young objects are distinct. -/
  young_nodup : N'.Nodup
  /-- A young object is in the nursery and reachable from the roots. -/
  young : ∀ y ∈ N', t.in_nursery y = true ∧ t.copy_reachable y
  /-- A tenured object is outside the nursery. -/
  old : ∀ y ∈ L ++ T, t.in_nursery y = false
  /-- A survivor has a copy. -/
  image : ∀ x ∈ R, ∃ y, (y ∈ N' ∨ y ∈ L) ∧ YHeader.header2 t.mem y = YHeader.header2 s.mem x
  /-- A copy is the copy of a survivor. -/
  source : ∀ y, y ∈ N' ∨ y ∈ L →
      ∃ x ∈ R, YHeader.header2 t.mem y = YHeader.header2 s.mem x
  /-- A tenured object keeps its second header word. -/
  kept : ∀ y ∈ T, YHeader.header2 t.mem y = YHeader.header2 s.mem y
  /-- A slot that held a young object holds its copy; another slot is unchanged. -/
  roots : ∀ i, i < (s.stack_top + 1).toNat →
      (s.in_nursery (s.shadow_stack.getD i 0) = true →
        (t.shadow_stack.getD i 0 ∈ N' ∨ t.shadow_stack.getD i 0 ∈ L)
        ∧ YHeader.header2 t.mem (t.shadow_stack.getD i 0)
            = YHeader.header2 s.mem (s.shadow_stack.getD i 0))
      ∧ (s.in_nursery (s.shadow_stack.getD i 0) = false →
        t.shadow_stack.getD i 0 = s.shadow_stack.getD i 0)

/-- The state of the heap between two operations of a program that keeps the pointers it
holds on the shadow stack, for the list `N` of the young objects and the list `T` of the
tenured objects: the collector's invariants, and with them the shape of the shadow-stack
vector, the mark value and the mark and remember bits of the objects, and the position of
the bump pointer. -/
structure GC.Sound (s : GC) (N T : List Nat) : Prop where
  /-- The collector's invariants. -/
  wf : s.WF N T
  /-- The shadow-stack vector holds the slots up to `stack_top`. -/
  sized : Shadow.sized s
  /-- The mark value is 1 or 3. -/
  mark_value : s.current_mark_bit = 1 ∨ s.current_mark_bit = 3
  /-- No object carries the mark value of the next major collection. -/
  unmarked : ∀ o ∈ N ++ T, YHeader.gc_mark (YHeader.header1 s.mem o) ≠ s.current_mark_bit
  /-- The remember bit of a young object is clear. -/
  young_bit : ∀ o ∈ N, YHeader.gc_remember (YHeader.header1 s.mem o) = 0
  /-- The remember bit of a tenured object is set exactly when it is in the remember
  set. -/
  old_bit : ∀ t ∈ T, YHeader.gc_remember (YHeader.header1 s.mem t) = 1 ↔ t ∈ s.remember_set
  /-- The young objects lie below the bump pointer. -/
  below_top : ∀ o ∈ N, o + object_bytes s.mem o ≤ s.current_top
  /-- The bump pointer is in the active semi-space. -/
  top_ge : s.semi_space0 ≤ s.current_top
  /-- The bump pointer is below the limit. -/
  top_le : s.current_top ≤ s.current_end
  /-- The limit is the end of the active semi-space. -/
  end_eq : s.current_end = s.semi_space0 + 8 * s.semi_space_size

/-- The invariant of the mark phase of a major collection, started in `s0` with the objects
`U` and the mark value `mb`, for the remember set that the phase builds: `st` is the state,
the vector `visited` and the count; `pend o i` holds for the fields, not yet visited, of
the object whose fields the loop is visiting. -/
structure GC.Rebuilt (s0 : GC) (U : List Nat) (mb : Nat) (st : GC × List Nat × Nat)
    (pend : Nat → Nat → Prop) : Prop where
  /-- The remember bit of an object is set exactly when it is in the remember set. -/
  bits : ∀ o ∈ U, YHeader.gc_remember (YHeader.header1 st.1.mem o) = 1 ↔ o ∈ st.1.remember_set
  /-- No object is in the remember set twice. -/
  nodup : st.1.remember_set.Nodup
  /-- An entry is a marked object of generation 0. -/
  entries : ∀ r ∈ st.1.remember_set, r ∈ U
      ∧ YHeader.gc_generation (YHeader.header1 s0.mem r) = 0
      ∧ YHeader.gc_mark (YHeader.header1 st.1.mem r) = mb
  /-- A marked object of generation 0 that is not pushed and points to an object of another
  generation is in the remember set, but for the pending fields. -/
  complete : ∀ o ∈ U, YHeader.gc_mark (YHeader.header1 st.1.mem o) = mb → o ∉ st.2.1 →
      YHeader.gc_generation (YHeader.header1 s0.mem o) = 0 →
      ∀ i, scanned_index s0.mem o i → Box.is_ptr (YHeader.get_field s0.mem o i) = true →
        YHeader.get_field s0.mem o i ≠ 0 → ¬ pend o i →
        0 < YHeader.gc_generation (YHeader.header1 s0.mem (YHeader.get_field s0.mem o i)) →
        o ∈ st.1.remember_set

/-- The object at `o` reads the same in `m'` as in `m`: header words and fields. -/
def same_object (m m' : Mem) (o : Nat) : Prop :=
  YHeader.header1 m' o = YHeader.header1 m o ∧ YHeader.header2 m' o = YHeader.header2 m o
    ∧ ∀ i, i < YHeader.field_size (YHeader.header2 m o) →
        YHeader.get_field m' o i = YHeader.get_field m o i

/-- The state and the memory that `YArray::make_in_tenure` leaves. -/
def tenured_mem (s : GC) (size : Nat) : Mem :=
  YHeader.init_fields s.heap_break size 0
    (YHeader.put_header1
      (YHeader.put_header1 (YHeader.construct s.mem s.heap_break size 2 0) s.heap_break
        (YHeader.set_gc_generation
          (YHeader.header1 (YHeader.construct s.mem s.heap_break size 2 0) s.heap_break) 0))
      s.heap_break
      (YHeader.set_next_object
        (YHeader.header1
          (YHeader.put_header1 (YHeader.construct s.mem s.heap_break size 2 0) s.heap_break
            (YHeader.set_gc_generation
              (YHeader.header1 (YHeader.construct s.mem s.heap_break size 2 0) s.heap_break)
              0))
          s.heap_break)
        s.tenure_space))

/-- The states of a program that keeps to the protocol of the shadow stack, with the
pointers `R` that the program holds in local variables.  The program starts with
`GC::initialize`; it obtains a pointer from a factory, from a slot of the shadow stack or
from a boxed pointer field of an object it holds; it stores null or a pointer it holds into
a slot, and, through the write barrier, a word into a field of an object it holds, where a
word that reads as a pointer is null or a pointer it holds; and it holds no pointer across
a call that may run a collection (a nursery factory, either collection, the check of the
threshold): what it needs later it has stored in a slot.  The premises on `heap_break`
say that the free store hands out addresses that fit the 48 bits of a boxed pointer. -/
inductive GC.Run : GC → List Nat → Prop
  /-- The call `GC::initialize(young_size, stack_size)`, once, at the start. -/
  | init (heap_base young_size stack_size : Nat) :
      0 < heap_base → heap_base + 24 * young_size ≤ 2 ^ 48 →
      GC.Run (GC.initialise (GC.start heap_base) young_size stack_size) []
  /-- The call `Shadow::expand(size)`. -/
  | expand {s : GC} {R : List Nat} (size : Nat) :
      GC.Run s R → GC.Run (Shadow.expand s (size : Int)) R
  /-- The call `Shadow::shrink(size)` of slots that exist. -/
  | shrink {s : GC} {R : List Nat} (size : Nat) :
      GC.Run s R → (size : Int) ≤ s.stack_top + 1 → GC.Run (Shadow.shrink s size) R
  /-- The call `Shadow::get(index)` of a slot that exists. -/
  | get {s : GC} {R : List Nat} (index : Int) :
      GC.Run s R → 0 ≤ index → index ≤ s.stack_top → GC.Run s (Shadow.get s index :: R)
  /-- The call `Shadow::set(index, value)` of a slot that exists, with null or a held
  pointer. -/
  | set {s : GC} {R : List Nat} (index : Int) (value : Nat) :
      GC.Run s R → 0 ≤ index → index ≤ s.stack_top → value = Box.null_value ∨ value ∈ R →
      GC.Run (Shadow.set s index value) R
  /-- The read of a boxed pointer field of a held object. -/
  | load {s : GC} {R : List Nat} (self i : Nat) :
      GC.Run s R → self ∈ R → self ≠ 0 → scanned_index s.mem self i →
      Box.is_ptr (YHeader.get_field s.mem self i) = true →
      GC.Run s (Box.to_ptr (YHeader.get_field s.mem self i) :: R)
  /-- The store `set_field(i, w_barrier(v))` into a field of a held object. -/
  | store {s : GC} {R : List Nat} (self i v : Nat) :
      GC.Run s R → self ∈ R → self ≠ 0 →
      i < YHeader.field_size (YHeader.header2 s.mem self) →
      (Box.is_ptr v = true → v = Box.null_value ∨ v ∈ R) →
      GC.Run (Example.store s self i v) R
  /-- The program forgets pointers it holds. -/
  | drop {s : GC} {R : List Nat} (R' : List Nat) :
      GC.Run s R → (∀ p ∈ R', p ∈ R) → GC.Run s R'
  /-- The factory `YArray::make(size)` returns. -/
  | make {s : GC} {R : List Nat} (fuel size : Nat) {t : GC} {p : Nat} :
      GC.Run s R → size < 2 ^ 32 → s.heap_break + 32 * s.semi_space_size ≤ 2 ^ 48 →
      YArray.make fuel s size = some (GC.Outcome.returned t p) → GC.Run t [p]
  /-- The factory `YArray::make(size)` throws. -/
  | make_failed {s : GC} {R : List Nat} (fuel size : Nat) {t : GC} :
      GC.Run s R → size < 2 ^ 32 → s.heap_break + 32 * s.semi_space_size ≤ 2 ^ 48 →
      YArray.make fuel s size = some (GC.Outcome.memory_exhausted t) → GC.Run t []
  /-- The factory `YUnboxArray::make(size)` returns. -/
  | make_unboxed {s : GC} {R : List Nat} (fuel size : Nat) {t : GC} {p : Nat} :
      GC.Run s R → size < 2 ^ 32 → s.heap_break + 32 * s.semi_space_size ≤ 2 ^ 48 →
      YUnboxArray.make fuel s size = some (GC.Outcome.returned t p) → GC.Run t [p]
  /-- The factory `YUnboxArray::make(size)` throws. -/
  | make_unboxed_failed {s : GC} {R : List Nat} (fuel size : Nat) {t : GC} :
      GC.Run s R → size < 2 ^ 32 → s.heap_break + 32 * s.semi_space_size ≤ 2 ^ 48 →
      YUnboxArray.make fuel s size = some (GC.Outcome.memory_exhausted t) → GC.Run t []
  /-- The factory `YArray::make_in_tenure(size)`, which runs no collection. -/
  | make_in_tenure {s : GC} {R : List Nat} (size : Nat) :
      GC.Run s R → size < 2 ^ 32 →
      s.heap_break + (24 + size * 8) + 8 * s.semi_space_size ≤ 2 ^ 48 →
      GC.Run (YArray.make_in_tenure s size).1 ((YArray.make_in_tenure s size).2 :: R)
  /-- The call `GC::do_copy_gc()` returns. -/
  | minor {s : GC} {R : List Nat} (fuel : Nat) {t : GC} {n : Nat} :
      GC.Run s R → s.heap_break + 16 * s.semi_space_size ≤ 2 ^ 48 →
      GC.do_copy_gc fuel s = some (t, n) → GC.Run t []
  /-- The call `GC::do_mark_sweep_gc()` returns. -/
  | major {s : GC} {R : List Nat} (fuel : Nat) {t : GC} {n : Nat} :
      GC.Run s R → GC.do_mark_sweep_gc fuel s = some (t, n) → GC.Run t []
  /-- The call `GC::mark_sweep_gc_if_needed()` returns. -/
  | if_needed {s : GC} {R : List Nat} (fuel : Nat) {t : GC} {n : Nat} :
      GC.Run s R → GC.mark_sweep_gc_if_needed fuel s = some (t, n) → GC.Run t []

/-! ## Bit fields of a word as quotients and remainders -/

theorem or_eq_add_of_and_eq_zero : ∀ (a b : Nat), a &&& b = 0 → a ||| b = a + b := by
  intro a
  induction a using Nat.strong_induction_on with
  | _ a ih =>
    intro b h
    rcases Nat.eq_zero_or_pos a with ha | ha
    · subst ha; simp
    · have h2 : a / 2 &&& b / 2 = 0 := by rw [← Nat.and_div_two, h]
      have ih2 := ih (a / 2) (by omega) (b / 2) h2
      have hd : (a ||| b) / 2 = a / 2 + b / 2 := by rw [Nat.or_div_two, ih2]
      have hm1 : (a ||| b) % 2 = 1 ↔ a % 2 = 1 ∨ b % 2 = 1 := Nat.or_mod_two_eq_one
      have hm2 : (a &&& b) % 2 = 1 ↔ a % 2 = 1 ∧ b % 2 = 1 := Nat.and_mod_two_eq_one
      rw [h] at hm2
      omega

theorem and_field_mask (h k w : Nat) :
    h &&& ((2 ^ w - 1) <<< k) = (h / 2 ^ k % 2 ^ w) * 2 ^ k := by
  apply Nat.eq_of_testBit_eq
  intro i
  rw [Nat.mul_comm, Nat.testBit_mul_pow_two, Nat.testBit_and, Nat.testBit_shiftLeft,
    Nat.testBit_two_pow_sub_one, Nat.testBit_mod_two_pow, ← Nat.shiftRight_eq_div_pow,
    Nat.testBit_shiftRight]
  by_cases hik : k ≤ i
  · have : k + (i - k) = i := by omega
    simp [hik, this, Bool.and_comm]
  · simp [hik]

/-- Masking with the complement `n` of `m` inside 64 bits removes the bits of `m`. -/
theorem and_compl_mask (h m n : Nat) (hor : m ||| n = 2 ^ 64 - 1) (hand : m &&& n = 0) :
    h &&& n = h % 2 ^ 64 - (h &&& m) := by
  have hx : h % 2 ^ 64 = (h &&& m) ||| (h &&& n) := by
    rw [← Nat.and_or_distrib_left, hor, Nat.and_pow_two_sub_one_eq_mod]
  have hd : (h &&& m) &&& (h &&& n) = 0 := by
    apply Nat.eq_of_testBit_eq
    intro i
    have := congrArg (fun z => Nat.testBit z i) hand
    simp only [Nat.testBit_and, Nat.zero_testBit] at this ⊢
    cases h1 : h.testBit i <;> simp [this]
  rw [or_eq_add_of_and_eq_zero _ _ hd] at hx
  omega

theorem or_absorb (h m : Nat) (hm : h &&& m = m) : h ||| m = h := by
  apply Nat.eq_of_testBit_eq
  intro i
  have := congrArg (fun z => Nat.testBit z i) hm
  simp only [Nat.testBit_and, Nat.testBit_or] at this ⊢
  cases h1 : h.testBit i <;> simp_all

theorem and_and_eq_zero (a b m n : Nat) (hand : m &&& n = 0) : (a &&& m) &&& (b &&& n) = 0 := by
  apply Nat.eq_of_testBit_eq
  intro i
  have := congrArg (fun z => Nat.testBit z i) hand
  simp only [Nat.testBit_and, Nat.zero_testBit] at this ⊢
  cases h1 : m.testBit i <;> simp_all

namespace YHeader

theorem gc_generation_eq (h : Nat) : gc_generation h = h / 2 ^ 57 % 4 := by
  unfold gc_generation
  rw [Nat.shiftRight_eq_div_pow]
  exact Nat.and_pow_two_sub_one_eq_mod _ 2

theorem gc_remember_eq (h : Nat) : gc_remember h = h / 2 ^ 56 % 2 := by
  unfold gc_remember
  rw [Nat.shiftRight_eq_div_pow]
  exact Nat.and_pow_two_sub_one_eq_mod _ 1

theorem gc_mark_eq (h : Nat) : gc_mark h = h / 2 ^ 54 % 4 := by
  unfold gc_mark
  rw [Nat.shiftRight_eq_div_pow]
  exact Nat.and_pow_two_sub_one_eq_mod _ 2

theorem unbox_size_eq (h : Nat) : unbox_size h = h / 2 ^ 59 % 8 := by
  unfold unbox_size
  rw [Nat.shiftRight_eq_div_pow]
  exact Nat.and_pow_two_sub_one_eq_mod _ 3

theorem object_type_eq (h : Nat) : object_type h = h / 2 ^ 62 % 4 := by
  unfold object_type
  rw [Nat.shiftRight_eq_div_pow]
  exact Nat.and_pow_two_sub_one_eq_mod _ 2

theorem forward_pointer_eq (h : Nat) : forward_pointer h = h % 2 ^ 48 := by
  unfold forward_pointer
  exact Nat.and_pow_two_sub_one_eq_mod _ 48

theorem next_object_eq (h : Nat) : next_object h = h % 2 ^ 48 := forward_pointer_eq h

theorem can_remember_iff (h : Nat) : can_remember h = true ↔ h / 2 ^ 56 % 8 = 0 := by
  unfold can_remember
  have e : h &&& (7 <<< 56) = (h / 2 ^ 56 % 2 ^ 3) * 2 ^ 56 := and_field_mask h 56 3
  rw [beq_iff_eq, e]
  omega

theorem set_gc_remember_eq (h : Nat) :
    set_gc_remember h = h + (1 - h / 2 ^ 56 % 2) * 2 ^ 56 := by
  unfold set_gc_remember
  have e : h &&& (1 <<< 56) = (h / 2 ^ 56 % 2 ^ 1) * 2 ^ 56 := and_field_mask h 56 1
  rcases Nat.mod_two_eq_zero_or_one (h / 2 ^ 56) with h0 | h1
  · rw [or_eq_add_of_and_eq_zero _ _ (by rw [e]; omega), h0]; rfl
  · rw [or_absorb _ _ (by rw [e]; norm_num; omega), h1]; rfl

theorem reset_gc_remember_eq (h : Nat) :
    reset_gc_remember h = h % 2 ^ 64 - (h / 2 ^ 56 % 2) * 2 ^ 56 := by
  unfold reset_gc_remember
  rw [and_compl_mask h (1 <<< 56) _ (by decide) (by decide)]
  have e : h &&& (1 <<< 56) = (h / 2 ^ 56 % 2) * 2 ^ 56 := and_field_mask h 56 1
  rw [e]

theorem clear_generation_eq (h : Nat) :
    h &&& (U64_MAX - (3 <<< 57)) = h % 2 ^ 64 - (h / 2 ^ 57 % 4) * 2 ^ 57 := by
  rw [and_compl_mask h (3 <<< 57) _ (by decide) (by decide)]
  have e : h &&& (3 <<< 57) = (h / 2 ^ 57 % 4) * 2 ^ 57 := and_field_mask h 57 2
  rw [e]

theorem inc_gc_generation_fst (h : Nat) :
    (inc_gc_generation h).1
      = h % 2 ^ 64 - (h / 2 ^ 57 % 4) * 2 ^ 57 + ((h / 2 ^ 57 + 1) % 4) * 2 ^ 57 := by
  unfold inc_gc_generation
  simp only
  have e : ((h + 1 <<< 57) % 2 ^ 64) &&& (3 <<< 57)
      = (((h + 1 <<< 57) % 2 ^ 64) / 2 ^ 57 % 2 ^ 2) * 2 ^ 57 := and_field_mask _ 57 2
  have e2 := clear_generation_eq h
  have e3 : (3 <<< 57) &&& (U64_MAX - (3 <<< 57)) = 0 := by decide
  rw [or_eq_add_of_and_eq_zero]
  · rw [e, e2]
    have : (1 <<< 57 : Nat) = 2 ^ 57 := by decide
    rw [this]
    omega
  · apply Nat.eq_of_testBit_eq
    intro i
    have := congrArg (fun z => Nat.testBit z i) e3
    simp only [Nat.testBit_and, Nat.zero_testBit] at this ⊢
    cases h1 : (3 <<< 57 : Nat).testBit i <;> simp_all

theorem inc_gc_generation_snd (h : Nat) :
    (inc_gc_generation h).2 = decide (h / 2 ^ 57 % 4 = 3) := by
  unfold inc_gc_generation
  simp only
  have e : ((h + 1 <<< 57) % 2 ^ 64) &&& (3 <<< 57)
      = (((h + 1 <<< 57) % 2 ^ 64) / 2 ^ 57 % 2 ^ 2) * 2 ^ 57 := and_field_mask _ 57 2
  rw [e]
  have : (1 <<< 57 : Nat) = 2 ^ 57 := by decide
  rw [this]
  by_cases hg : h / 2 ^ 57 % 4 = 3
  · simp only [hg, decide_True, beq_iff_eq]; omega
  · simp only [hg, decide_False, beq_eq_false_iff_ne, ne_eq]; omega

theorem set_gc_mark_fst (h v : Nat) :
    (set_gc_mark h v).1 = (v % 4) * 2 ^ 54 + (h % 2 ^ 64 - (h / 2 ^ 54 % 4) * 2 ^ 54) := by
  unfold set_gc_mark
  simp only
  have e1 : (v <<< 54) &&& (3 <<< 54) = ((v <<< 54) / 2 ^ 54 % 4) * 2 ^ 54 := and_field_mask _ 54 2
  have e2 : h &&& (3 <<< 54) = (h / 2 ^ 54 % 4) * 2 ^ 54 := and_field_mask h 54 2
  have e3 := and_compl_mask h (3 <<< 54) (U64_MAX - 3 <<< 54) (by decide) (by decide)
  rw [or_eq_add_of_and_eq_zero _ _ (and_and_eq_zero _ _ _ _ (by decide)), e3, e2, e1,
    Nat.shiftLeft_eq, Nat.mul_div_cancel _ (by norm_num)]

theorem set_gc_mark_snd (h v : Nat) : (set_gc_mark h v).2 = h / 2 ^ 54 % 4 := by
  unfold set_gc_mark
  simp only
  have e2 : h &&& (3 <<< 54) = (h / 2 ^ 54 % 4) * 2 ^ 54 := and_field_mask h 54 2
  rw [e2, Nat.shiftRight_eq_div_pow, Nat.mul_div_cancel _ (by norm_num)]

theorem set_next_object_eq (h obj : Nat) :
    set_next_object h obj = (h / 2 ^ 48 % 2 ^ 16) * 2 ^ 48 + obj % 2 ^ 48 := by
  unfold set_next_object
  have e1 : h &&& (0xffff <<< 48) = (h / 2 ^ 48 % 2 ^ 16) * 2 ^ 48 := and_field_mask h 48 16
  have e2 : obj &&& (U64_MAX >>> 16) = obj % 2 ^ 48 := Nat.and_pow_two_sub_one_eq_mod _ 48
  rw [or_eq_add_of_and_eq_zero _ _ (and_and_eq_zero _ _ _ _ (by decide)), e1, e2]

theorem set_gc_generation_eq (h g : Nat) :
    set_gc_generation h g = (h % 2 ^ 64 - (h / 2 ^ 57 % 4) * 2 ^ 57) + (g % 4) * 2 ^ 57 := by
  unfold set_gc_generation
  have e2 : h &&& (3 <<< 57) = (h / 2 ^ 57 % 4) * 2 ^ 57 := and_field_mask h 57 2
  have e3 := and_compl_mask h (3 <<< 57) (U64_MAX - 3 <<< 57) (by decide) (by decide)
  have e4 : g &&& 3 = g % 4 := Nat.and_pow_two_sub_one_eq_mod _ 2
  have e5 : (h &&& (U64_MAX - 3 <<< 57)) &&& ((g &&& 3) <<< 57) = 0 := by
    have : (g &&& 3) <<< 57 = ((g &&& 3) <<< 57) &&& (3 <<< 57) := by
      have e6 : ((g &&& 3) <<< 57) &&& (3 <<< 57) = (((g &&& 3) <<< 57) / 2 ^ 57 % 4) * 2 ^ 57 :=
        and_field_mask _ 57 2
      rw [e6, Nat.shiftLeft_eq, Nat.mul_div_cancel _ (by norm_num), e4]
      omega
    rw [this]
    exact and_and_eq_zero _ _ _ _ (by decide)
  rw [or_eq_add_of_and_eq_zero _ _ e5, e3, e2, e4, Nat.shiftLeft_eq]

end YHeader

namespace GC

@[simp] theorem set_mem_proj (s : GC) (v : Mem) :
    (s.set_mem v).mem = v
    ∧ (s.set_mem v).tenure_space = s.tenure_space
    ∧ (s.set_mem v).tenure_space_size = s.tenure_space_size
    ∧ (s.set_mem v).nursery_space = s.nursery_space
    ∧ (s.set_mem v).nursery_space_end = s.nursery_space_end
    ∧ (s.set_mem v).semi_space_size = s.semi_space_size
    ∧ (s.set_mem v).semi_space0 = s.semi_space0
    ∧ (s.set_mem v).semi_space1 = s.semi_space1
    ∧ (s.set_mem v).current_top = s.current_top
    ∧ (s.set_mem v).current_end = s.current_end
    ∧ (s.set_mem v).shadow_stack = s.shadow_stack
    ∧ (s.set_mem v).stack_top = s.stack_top
    ∧ (s.set_mem v).remember_set = s.remember_set
    ∧ (s.set_mem v).promoted_objects = s.promoted_objects
    ∧ (s.set_mem v).current_mark_bit = s.current_mark_bit
    ∧ (s.set_mem v).tenure_space_limit = s.tenure_space_limit
    ∧ (s.set_mem v).copy_gc_count = s.copy_gc_count
    ∧ (s.set_mem v).mark_sweep_gc_count = s.mark_sweep_gc_count
    ∧ (s.set_mem v).heap_break = s.heap_break
    ∧ (s.set_mem v).freed = s.freed := by
  refine ⟨rfl, rfl, rfl, rfl, rfl, rfl, rfl, rfl, rfl, rfl, rfl, rfl, rfl, rfl, rfl, rfl, rfl, rfl, rfl, rfl⟩

@[simp] theorem set_tenure_space_proj (s : GC) (v : Nat) :
    (s.set_tenure_space v).mem = s.mem
    ∧ (s.set_tenure_space v).tenure_space = v
    ∧ (s.set_tenure_space v).tenure_space_size = s.tenure_space_size
    ∧ (s.set_tenure_space v).nursery_space = s.nursery_space
    ∧ (s.set_tenure_space v).nursery_space_end = s.nursery_space_end
    ∧ (s.set_tenure_space v).semi_space_size = s.semi_space_size
    ∧ (s.set_tenure_space v).semi_space0 = s.semi_space0
    ∧ (s.set_tenure_space v).semi_space1 = s.semi_space1
    ∧ (s.set_tenure_space v).current_top = s.current_top
    ∧ (s.set_tenure_space v).current_end = s.current_end
    ∧ (s.set_tenure_space v).shadow_stack = s.shadow_stack
    ∧ (s.set_tenure_space v).stack_top = s.stack_top
    ∧ (s.set_tenure_space v).remember_set = s.remember_set
    ∧ (s.set_tenure_space v).promoted_objects = s.promoted_objects
    ∧ (s.set_tenure_space v).current_mark_bit = s.current_mark_bit
    ∧ (s.set_tenure_space v).tenure_space_limit = s.tenure_space_limit
    ∧ (s.set_tenure_space v).copy_gc_count = s.copy_gc_count
    ∧ (s.set_tenure_space v).mark_sweep_gc_count = s.mark_sweep_gc_count
    ∧ (s.set_tenure_space v).heap_break = s.heap_break
    ∧ (s.set_tenure_space v).freed = s.freed := by
  refine ⟨rfl, rfl, rfl, rfl, rfl, rfl, rfl, rfl, rfl, rfl, rfl, rfl, rfl, rfl, rfl, rfl, rfl, rfl, rfl, rfl⟩

@[simp] theorem set_tenure_space_size_proj (s : GC) (v : Nat) :
    (s.set_tenure_space_size v).mem = s.mem
    ∧ (s.set_tenure_space_size v).tenure_space = s.tenure_space
    ∧ (s.set_tenure_space_size v).tenure_space_size = v
    ∧ (s.set_tenure_space_size v).nursery_space = s.nursery_space
    ∧ (s.set_tenure_space_size v).nursery_space_end = s.nursery_space_end
    ∧ (s.set_tenure_space_size v).semi_space_size = s.semi_space_size
    ∧ (s.set_tenure_space_size v).semi_space0 = s.semi_space0
    ∧ (s.set_tenure_space_size v).semi_space1 = s.semi_space1
    ∧ (s.set_tenure_space_size v).current_top = s.current_top
    ∧ (s.set_tenure_space_size v).current_end = s.current_end
    ∧ (s.set_tenure_space_size v).shadow_stack = s.shadow_stack
    ∧ (s.set_tenure_space_size v).stack_top = s.stack_top
    ∧ (s.set_tenure_space_size v).remember_set = s.remember_set
    ∧ (s.set_tenure_space_size v).promoted_objects = s.promoted_objects
    ∧ (s.set_tenure_space_size v).current_mark_bit = s.current_mark_bit
    ∧ (s.set_tenure_space_size v).tenure_space_limit = s.tenure_space_limit
    ∧ (s.set_tenure_space_size v).copy_gc_count = s.copy_gc_count
    ∧ (s.set_tenure_space_size v).mark_sweep_gc_count = s.mark_sweep_gc_count
    ∧ (s.set_tenure_space_size v).heap_break = s.heap_break
    ∧ (s.set_tenure_space_size v).freed = s.freed := by
  refine ⟨rfl, rfl, rfl, rfl, rfl, rfl, rfl, rfl, rfl, rfl, rfl, rfl, rfl, rfl, rfl, rfl, rfl, rfl, rfl, rfl⟩

@[simp] theorem set_shadow_stack_proj (s : GC) (v : List Nat) :
    (s.set_shadow_stack v).mem = s.mem
    ∧ (s.set_shadow_stack v).tenure_space = s.tenure_space
    ∧ (s.set_shadow_stack v).tenure_space_size = s.tenure_space_size
    ∧ (s.set_shadow_stack v).nursery_space = s.nursery_space
    ∧ (s.set_shadow_stack v).nursery_space_end = s.nursery_space_end
    ∧ (s.set_shadow_stack v).semi_space_size = s.semi_space_size
    ∧ (s.set_shadow_stack v).semi_space0 = s.semi_space0
    ∧ (s.set_shadow_stack v).semi_space1 = s.semi_space1
    ∧ (s.set_shadow_stack v).current_top = s.current_top
    ∧ (s.set_shadow_stack v).current_end = s.current_end
    ∧ (s.set_shadow_stack v).shadow_stack = v
    ∧ (s.set_shadow_stack v).stack_top = s.stack_top
    ∧ (s.set_shadow_stack v).remember_set = s.remember_set
    ∧ (s.set_shadow_stack v).promoted_objects = s.promoted_objects
    ∧ (s.set_shadow_stack v).current_mark_bit = s.current_mark_bit
    ∧ (s.set_shadow_stack v).tenure_space_limit = s.tenure_space_limit
    ∧ (s.set_shadow_stack v).copy_gc_count = s.copy_gc_count
    ∧ (s.set_shadow_stack v).mark_sweep_gc_count = s.mark_sweep_gc_count
    ∧ (s.set_shadow_stack v).heap_break = s.heap_break
    ∧ (s.set_shadow_stack v).freed = s.freed := by
  refine ⟨rfl, rfl, rfl, rfl, rfl, rfl, rfl, rfl, rfl, rfl, rfl, rfl, rfl, rfl, rfl, rfl, rfl, rfl, rfl, rfl⟩

@[simp] theorem set_remember_set_proj (s : GC) (v : List Nat) :
    (s.set_remember_set v).mem = s.mem
    ∧ (s.set_remember_set v).tenure_space = s.tenure_space
    ∧ (s.set_remember_set v).tenure_space_size = s.tenure_space_size
    ∧ (s.set_remember_set v).nursery_space = s.nursery_space
    ∧ (s.set_remember_set v).nursery_space_end = s.nursery_space_end
    ∧ (s.set_remember_set v).semi_space_size = s.semi_space_size
    ∧ (s.set_remember_set v).semi_space0 = s.semi_space0
    ∧ (s.set_remember_set v).semi_space1 = s.semi_space1
    ∧ (s.set_remember_set v).current_top = s.current_top
    ∧ (s.set_remember_set v).current_end = s.current_end
    ∧ (s.set_remember_set v).shadow_stack = s.shadow_stack
    ∧ (s.set_remember_set v).stack_top = s.stack_top
    ∧ (s.set_remember_set v).remember_set = v
    ∧ (s.set_remember_set v).promoted_objects = s.promoted_objects
    ∧ (s.set_remember_set v).current_mark_bit = s.current_mark_bit
    ∧ (s.set_remember_set v).tenure_space_limit = s.tenure_space_limit
    ∧ (s.set_remember_set v).copy_gc_count = s.copy_gc_count
    ∧ (s.set_remember_set v).mark_sweep_gc_count = s.mark_sweep_gc_count
    ∧ (s.set_remember_set v).heap_break = s.heap_break
    ∧ (s.set_remember_set v).freed = s.freed := by
  refine ⟨rfl, rfl, rfl, rfl, rfl, rfl, rfl, rfl, rfl, rfl, rfl, rfl, rfl, rfl, rfl, rfl, rfl, rfl, rfl, rfl⟩

@[simp] theorem set_promoted_objects_proj (s : GC) (v : List Nat) :
    (s.set_promoted_objects v).mem = s.mem
    ∧ (s.set_promoted_objects v).tenure_space = s.tenure_space
    ∧ (s.set_promoted_objects v).tenure_space_size = s.tenure_space_size
    ∧ (s.set_promoted_objects v).nursery_space = s.nursery_space
    ∧ (s.set_promoted_objects v).nursery_space_end = s.nursery_space_end
    ∧ (s.set_promoted_objects v).semi_space_size = s.semi_space_size
    ∧ (s.set_promoted_objects v).semi_space0 = s.semi_space0
    ∧ (s.set_promoted_objects v).semi_space1 = s.semi_space1
    ∧ (s.set_promoted_objects v).current_top = s.current_top
    ∧ (s.set_promoted_objects v).current_end = s.current_end
    ∧ (s.set_promoted_objects v).shadow_stack = s.shadow_stack
    ∧ (s.set_promoted_objects v).stack_top = s.stack_top
    ∧ (s.set_promoted_objects v).remember_set = s.remember_set
    ∧ (s.set_promoted_objects v).promoted_objects = v
    ∧ (s.set_promoted_objects v).current_mark_bit = s.current_mark_bit
    ∧ (s.set_promoted_objects v).tenure_space_limit = s.tenure_space_limit
    ∧ (s.set_promoted_objects v).copy_gc_count = s.copy_gc_count
    ∧ (s.set_promoted_objects v).mark_sweep_gc_count = s.mark_sweep_gc_count
    ∧ (s.set_promoted_objects v).heap_break = s.heap_break
    ∧ (s.set_promoted_objects v).freed = s.freed := by
  refine ⟨rfl, rfl, rfl, rfl, rfl, rfl, rfl, rfl, rfl, rfl, rfl, rfl, rfl, rfl, rfl, rfl, rfl, rfl, rfl, rfl⟩

@[simp] theorem set_heap_break_proj (s : GC) (v : Nat) :
    (s.set_heap_break v).mem = s.mem
    ∧ (s.set_heap_break v).tenure_space = s.tenure_space
    ∧ (s.set_heap_break v).tenure_space_size = s.tenure_space_size
    ∧ (s.set_heap_break v).nursery_space = s.nursery_space
    ∧ (s.set_heap_break v).nursery_space_end = s.nursery_space_end
    ∧ (s.set_heap_break v).semi_space_size = s.semi_space_size
    ∧ (s.set_heap_break v).semi_space0 = s.semi_space0
    ∧ (s.set_heap_break v).semi_space1 = s.semi_space1
    ∧ (s.set_heap_break v).current_top = s.current_top
    ∧ (s.set_heap_break v).current_end = s.current_end
    ∧ (s.set_heap_break v).shadow_stack = s.shadow_stack
    ∧ (s.set_heap_break v).stack_top = s.stack_top
    ∧ (s.set_heap_break v).remember_set = s.remember_set
    ∧ (s.set_heap_break v).promoted_objects = s.promoted_objects
    ∧ (s.set_heap_break v).current_mark_bit = s.current_mark_bit
    ∧ (s.set_heap_break v).tenure_space_limit = s.tenure_space_limit
    ∧ (s.set_heap_break v).copy_gc_count = s.copy_gc_count
    ∧ (s.set_heap_break v).mark_sweep_gc_count = s.mark_sweep_gc_count
    ∧ (s.set_heap_break v).heap_break = v
    ∧ (s.set_heap_break v).freed = s.freed := by
  refine ⟨rfl, rfl, rfl, rfl, rfl, rfl, rfl, rfl, rfl, rfl, rfl, rfl, rfl, rfl, rfl, rfl, rfl, rfl, rfl, rfl⟩

@[simp] theorem set_copy_gc_count_proj (s : GC) (v : Int) :
    (s.set_copy_gc_count v).mem = s.mem
    ∧ (s.set_copy_gc_count v).tenure_space = s.tenure_space
    ∧ (s.set_copy_gc_count v).tenure_space_size = s.tenure_space_size
    ∧ (s.set_copy_gc_count v).nursery_space = s.nursery_space
    ∧ (s.set_copy_gc_count v).nursery_space_end = s.nursery_space_end
    ∧ (s.set_copy_gc_count v).semi_space_size = s.semi_space_size
    ∧ (s.set_copy_gc_count v).semi_space0 = s.semi_space0
    ∧ (s.set_copy_gc_count v).semi_space1 = s.semi_space1
    ∧ (s.set_copy_gc_count v).current_top = s.current_top
    ∧ (s.set_copy_gc_count v).current_end = s.current_end
    ∧ (s.set_copy_gc_count v).shadow_stack = s.shadow_stack
    ∧ (s.set_copy_gc_count v).stack_top = s.stack_top
    ∧ (s.set_copy_gc_count v).remember_set = s.remember_set
    ∧ (s.set_copy_gc_count v).promoted_objects = s.promoted_objects
    ∧ (s.set_copy_gc_count v).current_mark_bit = s.current_mark_bit
    ∧ (s.set_copy_gc_count v).tenure_space_limit = s.tenure_space_limit
    ∧ (s.set_copy_gc_count v).copy_gc_count = v
    ∧ (s.set_copy_gc_count v).mark_sweep_gc_count = s.mark_sweep_gc_count
    ∧ (s.set_copy_gc_count v).heap_break = s.heap_break
    ∧ (s.set_copy_gc_count v).freed = s.freed := by
  refine ⟨rfl, rfl, rfl, rfl, rfl, rfl, rfl, rfl, rfl, rfl, rfl, rfl, rfl, rfl, rfl, rfl, rfl, rfl, rfl, rfl⟩

@[simp] theorem set_mark_sweep_gc_count_proj (s : GC) (v : Int) :
    (s.set_mark_sweep_gc_count v).mem = s.mem
    ∧ (s.set_mark_sweep_gc_count v).tenure_space = s.tenure_space
    ∧ (s.set_mark_sweep_gc_count v).tenure_space_size = s.tenure_space_size
    ∧ (s.set_mark_sweep_gc_count v).nursery_space = s.nursery_space
    ∧ (s.set_mark_sweep_gc_count v).nursery_space_end = s.nursery_space_end
    ∧ (s.set_mark_sweep_gc_count v).semi_space_size = s.semi_space_size
    ∧ (s.set_mark_sweep_gc_count v).semi_space0 = s.semi_space0
    ∧ (s.set_mark_sweep_gc_count v).semi_space1 = s.semi_space1
    ∧ (s.set_mark_sweep_gc_count v).current_top = s.current_top
    ∧ (s.set_mark_sweep_gc_count v).current_end = s.current_end
    ∧ (s.set_mark_sweep_gc_count v).shadow_stack = s.shadow_stack
    ∧ (s.set_mark_sweep_gc_count v).stack_top = s.stack_top
    ∧ (s.set_mark_sweep_gc_count v).remember_set = s.remember_set
    ∧ (s.set_mark_sweep_gc_count v).promoted_objects = s.promoted_objects
    ∧ (s.set_mark_sweep_gc_count v).current_mark_bit = s.current_mark_bit
    ∧ (s.set_mark_sweep_gc_count v).tenure_space_limit = s.tenure_space_limit
    ∧ (s.set_mark_sweep_gc_count v).copy_gc_count = s.copy_gc_count
    ∧ (s.set_mark_sweep_gc_count v).mark_sweep_gc_count = v
    ∧ (s.set_mark_sweep_gc_count v).heap_break = s.heap_break
    ∧ (s.set_mark_sweep_gc_count v).freed = s.freed := by
  refine ⟨rfl, rfl, rfl, rfl, rfl, rfl, rfl, rfl, rfl, rfl, rfl, rfl, rfl, rfl, rfl, rfl, rfl, rfl, rfl, rfl⟩

@[simp] theorem set_current_mark_bit_proj (s : GC) (v : Nat) :
    (s.set_current_mark_bit v).mem = s.mem
    ∧ (s.set_current_mark_bit v).tenure_space = s.tenure_space
    ∧ (s.set_current_mark_bit v).tenure_space_size = s.tenure_space_size
    ∧ (s.set_current_mark_bit v).nursery_space = s.nursery_space
    ∧ (s.set_current_mark_bit v).nursery_space_end = s.nursery_space_end
    ∧ (s.set_current_mark_bit v).semi_space_size = s.semi_space_size
    ∧ (s.set_current_mark_bit v).semi_space0 = s.semi_space0
    ∧ (s.set_current_mark_bit v).semi_space1 = s.semi_space1
    ∧ (s.set_current_mark_bit v).current_top = s.current_top
    ∧ (s.set_current_mark_bit v).current_end = s.current_end
    ∧ (s.set_current_mark_bit v).shadow_stack = s.shadow_stack
    ∧ (s.set_current_mark_bit v).stack_top = s.stack_top
    ∧ (s.set_current_mark_bit v).remember_set = s.remember_set
    ∧ (s.set_current_mark_bit v).promoted_objects = s.promoted_objects
    ∧ (s.set_current_mark_bit v).current_mark_bit = v
    ∧ (s.set_current_mark_bit v).tenure_space_limit = s.tenure_space_limit
    ∧ (s.set_current_mark_bit v).copy_gc_count = s.copy_gc_count
    ∧ (s.set_current_mark_bit v).mark_sweep_gc_count = s.mark_sweep_gc_count
    ∧ (s.set_current_mark_bit v).heap_break = s.heap_break
    ∧ (s.set_current_mark_bit v).freed = s.freed := by
  refine ⟨rfl, rfl, rfl, rfl, rfl, rfl, rfl, rfl, rfl, rfl, rfl, rfl, rfl, rfl, rfl, rfl, rfl, rfl, rfl, rfl⟩

@[simp] theorem set_tenure_space_limit_proj (s : GC) (v : Nat) :
    (s.set_tenure_space_limit v).mem = s.mem
    ∧ (s.set_tenure_space_limit v).tenure_space = s.tenure_space
    ∧ (s.set_tenure_space_limit v).tenure_space_size = s.tenure_space_size
    ∧ (s.set_tenure_space_limit v).nursery_space = s.nursery_space
    ∧ (s.set_tenure_space_limit v).nursery_space_end = s.nursery_space_end
    ∧ (s.set_tenure_space_limit v).semi_space_size = s.semi_space_size
    ∧ (s.set_tenure_space_limit v).semi_space0 = s.semi_space0
    ∧ (s.set_tenure_space_limit v).semi_space1 = s.semi_space1
    ∧ (s.set_tenure_space_limit v).current_top = s.current_top
    ∧ (s.set_tenure_space_limit v).current_end = s.current_end
    ∧ (s.set_tenure_space_limit v).shadow_stack = s.shadow_stack
    ∧ (s.set_tenure_space_limit v).stack_top = s.stack_top
    ∧ (s.set_tenure_space_limit v).remember_set = s.remember_set
    ∧ (s.set_tenure_space_limit v).promoted_objects = s.promoted_objects
    ∧ (s.set_tenure_space_limit v).current_mark_bit = s.current_mark_bit
    ∧ (s.set_tenure_space_limit v).tenure_space_limit = v
    ∧ (s.set_tenure_space_limit v).copy_gc_count = s.copy_gc_count
    ∧ (s.set_tenure_space_limit v).mark_sweep_gc_count = s.mark_sweep_gc_count
    ∧ (s.set_tenure_space_limit v).heap_break = s.heap_break
    ∧ (s.set_tenure_space_limit v).freed = s.freed := by
  refine ⟨rfl, rfl, rfl, rfl, rfl, rfl, rfl, rfl, rfl, rfl, rfl, rfl, rfl, rfl, rfl, rfl, rfl, rfl, rfl, rfl⟩

@[simp] theorem set_freed_proj (s : GC) (v : List Nat) :
    (s.set_freed v).mem = s.mem
    ∧ (s.set_freed v).tenure_space = s.tenure_space
    ∧ (s.set_freed v).tenure_space_size = s.tenure_space_size
    ∧ (s.set_freed v).nursery_space = s.nursery_space
    ∧ (s.set_freed v).nursery_space_end = s.nursery_space_end
    ∧ (s.set_freed v).semi_space_size = s.semi_space_size
    ∧ (s.set_freed v).semi_space0 = s.semi_space0
    ∧ (s.set_freed v).semi_space1 = s.semi_space1
    ∧ (s.set_freed v).current_top = s.current_top
    ∧ (s.set_freed v).current_end = s.current_end
    ∧ (s.set_freed v).shadow_stack = s.shadow_stack
    ∧ (s.set_freed v).stack_top = s.stack_top
    ∧ (s.set_freed v).remember_set = s.remember_set
    ∧ (s.set_freed v).promoted_objects = s.promoted_objects
    ∧ (s.set_freed v).current_mark_bit = s.current_mark_bit
    ∧ (s.set_freed v).tenure_space_limit = s.tenure_space_limit
    ∧ (s.set_freed v).copy_gc_count = s.copy_gc_count
    ∧ (s.set_freed v).mark_sweep_gc_count = s.mark_sweep_gc_count
    ∧ (s.set_freed v).heap_break = s.heap_break
    ∧ (s.set_freed v).freed = v := by
  refine ⟨rfl, rfl, rfl, rfl, rfl, rfl, rfl, rfl, rfl, rfl, rfl, rfl, rfl, rfl, rfl, rfl, rfl, rfl, rfl, rfl⟩

@[simp] theorem set_current_top_proj (s : GC) (v : Nat) :
    (s.set_current_top v).mem = s.mem
    ∧ (s.set_current_top v).tenure_space = s.tenure_space
    ∧ (s.set_current_top v).tenure_space_size = s.tenure_space_size
    ∧ (s.set_current_top v).nursery_space = s.nursery_space
    ∧ (s.set_current_top v).nursery_space_end = s.nursery_space_end
    ∧ (s.set_current_top v).semi_space_size = s.semi_space_size
    ∧ (s.set_current_top v).semi_space0 = s.semi_space0
    ∧ (s.set_current_top v).semi_space1 = s.semi_space1
    ∧ (s.set_current_top v).current_top = v
    ∧ (s.set_current_top v).current_end = s.current_end
    ∧ (s.set_current_top v).shadow_stack = s.shadow_stack
    ∧ (s.set_current_top v).stack_top = s.stack_top
    ∧ (s.set_current_top v).remember_set = s.remember_set
    ∧ (s.set_current_top v).promoted_objects = s.promoted_objects
    ∧ (s.set_current_top v).current_mark_bit = s.current_mark_bit
    ∧ (s.set_current_top v).tenure_space_limit = s.tenure_space_limit
    ∧ (s.set_current_top v).copy_gc_count = s.copy_gc_count
    ∧ (s.set_current_top v).mark_sweep_gc_count = s.mark_sweep_gc_count
    ∧ (s.set_current_top v).heap_break = s.heap_break
    ∧ (s.set_current_top v).freed = s.freed := by
  refine ⟨rfl, rfl, rfl, rfl, rfl, rfl, rfl, rfl, rfl, rfl, rfl, rfl, rfl, rfl, rfl, rfl, rfl, rfl, rfl, rfl⟩

@[simp] theorem set_stack_top_proj (s : GC) (v : Int) :
    (s.set_stack_top v).mem = s.mem
    ∧ (s.set_stack_top v).tenure_space = s.tenure_space
    ∧ (s.set_stack_top v).tenure_space_size = s.tenure_space_size
    ∧ (s.set_stack_top v).nursery_space = s.nursery_space
    ∧ (s.set_stack_top v).nursery_space_end = s.nursery_space_end
    ∧ (s.set_stack_top v).semi_space_size = s.semi_space_size
    ∧ (s.set_stack_top v).semi_space0 = s.semi_space0
    ∧ (s.set_stack_top v).semi_space1 = s.semi_space1
    ∧ (s.set_stack_top v).current_top = s.current_top
    ∧ (s.set_stack_top v).current_end = s.current_end
    ∧ (s.set_stack_top v).shadow_stack = s.shadow_stack
    ∧ (s.set_stack_top v).stack_top = v
    ∧ (s.set_stack_top v).remember_set = s.remember_set
    ∧ (s.set_stack_top v).promoted_objects = s.promoted_objects
    ∧ (s.set_stack_top v).current_mark_bit = s.current_mark_bit
    ∧ (s.set_stack_top v).tenure_space_limit = s.tenure_space_limit
    ∧ (s.set_stack_top v).copy_gc_count = s.copy_gc_count
    ∧ (s.set_stack_top v).mark_sweep_gc_count = s.mark_sweep_gc_count
    ∧ (s.set_stack_top v).heap_break = s.heap_break
    ∧ (s.set_stack_top v).freed = s.freed := by
  refine ⟨rfl, rfl, rfl, rfl, rfl, rfl, rfl, rfl, rfl, rfl, rfl, rfl, rfl, rfl, rfl, rfl, rfl, rfl, rfl, rfl⟩

@[simp] theorem flip_proj (s : GC) (a : Nat) :
    (s.flip a).mem = s.mem
    ∧ (s.flip a).tenure_space = s.tenure_space
    ∧ (s.flip a).tenure_space_size = s.tenure_space_size
    ∧ (s.flip a).nursery_space = s.nursery_space
    ∧ (s.flip a).nursery_space_end = s.nursery_space_end
    ∧ (s.flip a).semi_space_size = s.semi_space_size
    ∧ (s.flip a).semi_space0 = s.semi_space1
    ∧ (s.flip a).semi_space1 = s.semi_space0
    ∧ (s.flip a).current_top = a
    ∧ (s.flip a).current_end = s.semi_space1 + 8 * s.semi_space_size
    ∧ (s.flip a).shadow_stack = s.shadow_stack
    ∧ (s.flip a).stack_top = s.stack_top
    ∧ (s.flip a).remember_set = s.remember_set
    ∧ (s.flip a).promoted_objects = s.promoted_objects
    ∧ (s.flip a).current_mark_bit = s.current_mark_bit
    ∧ (s.flip a).tenure_space_limit = s.tenure_space_limit
    ∧ (s.flip a).copy_gc_count = s.copy_gc_count
    ∧ (s.flip a).mark_sweep_gc_count = s.mark_sweep_gc_count
    ∧ (s.flip a).heap_break = s.heap_break
    ∧ (s.flip a).freed = s.freed := by
  refine ⟨rfl, rfl, rfl, rfl, rfl, rfl, rfl, rfl, rfl, rfl, rfl, rfl, rfl, rfl, rfl, rfl, rfl, rfl, rfl, rfl⟩

end GC

/-! ## Memory and `copy_object` -/

@[simp] theorem Mem.write_same (m : Mem) (a v : Nat) : (m.write a v) a = v := by
  simp [Mem.write]

theorem Mem.write_other (m : Mem) (a v x : Nat) (h : x ≠ a) : (m.write a v) x = m x := by
  simp [Mem.write, h]

namespace GC

theorem copy_object_loop_other (src dest : Nat) :
    ∀ (k i : Nat) (m : Mem) (a : Nat), (∀ j, i ≤ j → j < i + k → a ≠ dest + 8 * j) →
      copy_object_loop src dest k i m a = m a := by
  intro k
  induction k with
  | zero => intro i m a _; rfl
  | succ k ih =>
    intro i m a h
    rw [copy_object_loop, ih (i + 1) _ a (fun j h1 h2 => h j (by omega) (by omega))]
    exact Mem.write_other _ _ _ _ (h i (le_refl _) (by omega))

theorem copy_object_loop_dest (src dest n : Nat)
    (hd : dest + 8 * n ≤ src ∨ src + 8 * n ≤ dest) :
    ∀ (k i : Nat) (m : Mem), i + k ≤ n → ∀ j, i ≤ j → j < i + k →
      copy_object_loop src dest k i m (dest + 8 * j) = m (src + 8 * j) := by
  intro k
  induction k with
  | zero => intro i m _ j h1 h2; omega
  | succ k ih =>
    intro i m hn j h1 h2
    rw [copy_object_loop]
    rcases Nat.eq_or_lt_of_le h1 with e | hlt
    · subst e
      rw [copy_object_loop_other _ _ _ _ _ _ (fun j h3 h4 => by omega)]
      exact Mem.write_same _ _ _
    · rw [ih (i + 1) _ (by omega) j (by omega) (by omega)]
      exact Mem.write_other _ _ _ _ (by omega)

theorem copy_object_dest (m : Mem) (src dest n j : Nat)
    (hd : dest + 8 * n ≤ src ∨ src + 8 * n ≤ dest) (hj : j < n) :
    copy_object m src dest n (dest + 8 * j) = m (src + 8 * j) :=
  copy_object_loop_dest src dest n hd n 0 m (by omega) j (by omega) (by omega)

theorem copy_object_other (m : Mem) (src dest n a : Nat)
    (h : ∀ j, j < n → a ≠ dest + 8 * j) : copy_object m src dest n a = m a :=
  copy_object_loop_other src dest n 0 m a (fun j _ h2 => h j (by omega))

end GC

theorem YHeader.field_addr_eq (self i : Nat) (hi : i + 1 < 2 ^ 32) :
    YHeader.field_addr self i = self + 8 * (i + 3) := by
  unfold YHeader.field_addr
  rw [Nat.mod_eq_of_lt hi]
  omega

namespace YHeader

theorem gc_remember_set_gc_remember (h : Nat) : gc_remember (set_gc_remember h) = 1 := by
  rw [gc_remember_eq, set_gc_remember_eq]
  omega

theorem can_remember_iff_generation_remember (h : Nat) :
    can_remember h = true ↔ gc_generation h = 0 ∧ gc_remember h = 0 := by
  rw [can_remember_iff, gc_generation_eq, gc_remember_eq]
  omega

end YHeader

namespace GC

theorem Frame.rfl (s : GC) : Frame s s := by constructor <;> rfl

theorem Frame.trans {s t u : GC} (h1 : Frame s t) (h2 : Frame t u) : Frame s u := by
  constructor
  · exact h2.nursery_space.trans h1.nursery_space
  · exact h2.nursery_space_end.trans h1.nursery_space_end
  · exact h2.semi_space_size.trans h1.semi_space_size
  · exact h2.semi_space0.trans h1.semi_space0
  · exact h2.semi_space1.trans h1.semi_space1
  · exact h2.current_top.trans h1.current_top
  · exact h2.current_end.trans h1.current_end
  · exact h2.stack_top.trans h1.stack_top
  · exact h2.current_mark_bit.trans h1.current_mark_bit
  · exact h2.tenure_space_limit.trans h1.tenure_space_limit
  · exact h2.copy_gc_count.trans h1.copy_gc_count
  · exact h2.mark_sweep_gc_count.trans h1.mark_sweep_gc_count
  · exact h2.freed.trans h1.freed
  · exact h2.shadow_length.trans h1.shadow_length

end GC


/-! ## Header bits that the collectors keep -/

namespace YHeader

theorem has_boxed_value_eq (h : Nat) : has_boxed_value h = decide (h / 2 ^ 62 % 2 = 0) := by
  unfold has_boxed_value
  rw [object_type_eq, Nat.and_one_is_mod]
  by_cases hb : h / 2 ^ 62 % 2 = 0
  · simp only [hb, decide_True, beq_iff_eq]; omega
  · simp only [hb, decide_False, beq_eq_false_iff_ne, ne_eq]; omega

theorem kind_congr {h g : Nat} (e : kind h = kind g) :
    has_boxed_value h = has_boxed_value g ∧ unbox_size h = unbox_size g
      ∧ gc_generation h = gc_generation g := by
  unfold kind at e
  refine ⟨?_, ?_, ?_⟩
  · rw [has_boxed_value_eq, has_boxed_value_eq]
    have : h / 2 ^ 62 % 2 = g / 2 ^ 62 % 2 := by omega
    rw [this]
  · rw [unbox_size_eq, unbox_size_eq]; omega
  · rw [gc_generation_eq, gc_generation_eq]; omega

theorem kind_set_gc_remember (h : Nat) : kind (set_gc_remember h) = kind h := by
  unfold kind
  rw [set_gc_remember_eq]
  omega

theorem kind_reset_gc_remember (h : Nat) : kind (reset_gc_remember h) = kind h := by
  unfold kind
  rw [reset_gc_remember_eq]
  omega

theorem kind_set_next_object (h p : Nat) : kind (set_next_object h p) = kind h := by
  unfold kind
  rw [set_next_object_eq]
  omega

theorem next_object_set_gc_remember (h : Nat) :
    next_object (set_gc_remember h) = next_object h := by
  rw [next_object_eq, next_object_eq, set_gc_remember_eq]
  omega

theorem next_object_reset_gc_remember (h : Nat) :
    next_object (reset_gc_remember h) = next_object h := by
  rw [next_object_eq, next_object_eq, reset_gc_remember_eq]
  omega

theorem next_object_set_next_object (h p : Nat) (hp : p < 2 ^ 48) :
    next_object (set_next_object h p) = p := by
  rw [next_object_eq, set_next_object_eq]
  omega

theorem gc_remember_reset_gc_remember (h : Nat) : gc_remember (reset_gc_remember h) = 0 := by
  rw [gc_remember_eq, reset_gc_remember_eq]
  omega

theorem gc_remember_set_next_object (h p : Nat) :
    gc_remember (set_next_object h p) = gc_remember h := by
  rw [gc_remember_eq, gc_remember_eq, set_next_object_eq]
  omega

theorem gc_mark_set_gc_remember (h : Nat) : gc_mark (set_gc_remember h) = gc_mark h := by
  rw [gc_mark_eq, gc_mark_eq, set_gc_remember_eq]
  omega

theorem gc_mark_reset_gc_remember (h : Nat) : gc_mark (reset_gc_remember h) = gc_mark h := by
  rw [gc_mark_eq, gc_mark_eq, reset_gc_remember_eq]
  omega

theorem gc_mark_set_next_object (h p : Nat) : gc_mark (set_next_object h p) = gc_mark h := by
  rw [gc_mark_eq, gc_mark_eq, set_next_object_eq]
  omega

theorem gc_mark_inc (h : Nat) : gc_mark (inc_gc_generation h).1 = gc_mark h := by
  rw [gc_mark_eq, gc_mark_eq, inc_gc_generation_fst]
  omega

theorem forward_pointer_inc (h : Nat) :
    forward_pointer (inc_gc_generation h).1 = forward_pointer h := by
  rw [forward_pointer_eq, forward_pointer_eq, inc_gc_generation_fst]
  omega

theorem gc_generation_inc (h : Nat) :
    gc_generation (inc_gc_generation h).1 = (gc_generation h + 1) % 4 := by
  rw [gc_generation_eq, gc_generation_eq, inc_gc_generation_fst]
  omega

theorem gc_remember_inc (h : Nat) :
    gc_remember (inc_gc_generation h).1 = gc_remember h := by
  rw [gc_remember_eq, gc_remember_eq, inc_gc_generation_fst]
  omega

theorem has_boxed_value_inc (h : Nat) :
    has_boxed_value (inc_gc_generation h).1 = has_boxed_value h := by
  rw [has_boxed_value_eq, has_boxed_value_eq, inc_gc_generation_fst]
  have : (h % 2 ^ 64 - h / 2 ^ 57 % 4 * 2 ^ 57 + (h / 2 ^ 57 + 1) % 4 * 2 ^ 57) / 2 ^ 62 % 2
      = h / 2 ^ 62 % 2 := by omega
  rw [this]

theorem unbox_size_inc (h : Nat) :
    unbox_size (inc_gc_generation h).1 = unbox_size h := by
  rw [unbox_size_eq, unbox_size_eq, inc_gc_generation_fst]
  omega

theorem forward_pointer_of_lt (n : Nat) (h : n < 2 ^ 48) : forward_pointer n = n := by
  rw [forward_pointer_eq]
  exact Nat.mod_eq_of_lt h

end YHeader

theorem Box.to_boxed_ptr_of_lt (n : Nat) (h : n < 2 ^ 48) : Box.to_boxed_ptr n = n := by
  unfold Box.to_boxed_ptr
  have : n &&& (U64_MAX >>> 16) = n % 2 ^ 48 := Nat.and_pow_two_sub_one_eq_mod _ 48
  rw [this]
  exact Nat.mod_eq_of_lt h

theorem Box.is_ptr_iff (v : Nat) : Box.is_ptr v = true ↔ v < 2 ^ 48 := by
  unfold Box.is_ptr
  rw [beq_iff_eq, Nat.shiftRight_eq_div_pow]
  omega

theorem object_bytes_eq (m : Mem) (p : Nat) :
    object_bytes m p = 8 * (YHeader.field_size (YHeader.header2 m p) + 3) := rfl

theorem object_words_eq (m : Mem) (p : Nat) :
    object_words m p = YHeader.field_size (YHeader.header2 m p) + 3 := rfl

theorem field_size_lt (h : Nat) : YHeader.field_size h < 2 ^ 32 := Nat.mod_lt _ (by norm_num)

theorem GC.in_nursery_iff (s : GC) (p : Nat) :
    s.in_nursery p = true ↔ s.nursery_space ≤ p ∧ p < s.nursery_space_end := by
  unfold GC.in_nursery
  simp


/-! ## Zones of the heap -/

theorem object_bytes_pos (m : Mem) (p : Nat) : 24 ≤ object_bytes m p := by
  rw [object_bytes_eq]; omega

/-- Objects listed in address order between `lo` and `hi` take at most `hi - lo` bytes. -/
theorem sorted_bytes_le (m : Mem) :
    ∀ (L : List Nat) (lo hi : Nat), L.Pairwise (fun a b => a + object_bytes m a ≤ b) →
      (∀ o ∈ L, lo ≤ o ∧ o + object_bytes m o ≤ hi) → lo ≤ hi →
      lo + (L.map (object_bytes m)).sum ≤ hi := by
  intro L
  induction L with
  | nil => intro lo hi _ _ h; simpa using h
  | cons a L ih =>
    intro lo hi hs hb hle
    rw [List.pairwise_cons] at hs
    have ha := hb a (List.mem_cons_self _ _)
    have := ih (a + object_bytes m a) hi hs.2
      (fun o ho => ⟨hs.1 o ho, (hb o (List.mem_cons_of_mem _ ho)).2⟩) ha.2
    simp only [List.map_cons, List.sum_cons]
    omega

theorem used_eq_sum (m : Mem) (F : List (Nat × Nat)) :
    to_used m F + heap_used m F = ((F.map Prod.fst).map (object_bytes m)).sum := by
  induction F with
  | nil => rfl
  | cons x F ih =>
    simp only [to_used, heap_used, List.map_cons, List.sum_cons]
    split <;> omega

theorem nodup_subset_sum_le (f : Nat → Nat) (K L : List Nat) (hn : K.Nodup) (hs : K ⊆ L) :
    (K.map f).sum ≤ (L.map f).sum := by
  obtain ⟨K', hp, hsub⟩ := List.subperm_of_subset hn hs
  rw [← (hp.map f).sum_eq]
  exact (hsub.map f).sum_le_sum (fun a _ => Nat.zero_le _)

theorem nodup_subset_length_le (K L : List Nat) (hn : K.Nodup) (hs : K ⊆ L) :
    K.length ≤ L.length := (List.subperm_of_subset hn hs).length_le

theorem length_le_sum (m : Mem) (L : List Nat) : 24 * L.length ≤ (L.map (object_bytes m)).sum := by
  induction L with
  | nil => simp
  | cons a L ih =>
    simp only [List.length_cons, List.map_cons, List.sum_cons]
    have := object_bytes_pos m a
    omega

namespace GC

/-- The young objects of a well-formed heap fit in one semi-space. -/
theorem WF.young_bytes {s : GC} {N T : List Nat} (h : s.WF N T) :
    (N.map (object_bytes s.mem)).sum ≤ 8 * s.semi_space_size := by
  have := sorted_bytes_le s.mem N s.semi_space0 (s.semi_space0 + 8 * s.semi_space_size)
    h.young_sorted h.young_in_space (by omega)
  omega

theorem WF.young_apart {s : GC} {N T : List Nat} (h : s.WF N T) {a b : Nat}
    (ha : a ∈ N) (hb : b ∈ N) (hab : a ≠ b) :
    a + object_bytes s.mem a ≤ b ∨ b + object_bytes s.mem b ≤ a := by
  have hp : N.Pairwise (fun a b => a + object_bytes s.mem a ≤ b ∨ b + object_bytes s.mem b ≤ a) :=
    h.young_sorted.imp (fun h => Or.inl h)
  exact hp.forall (fun _ _ hxy => hxy.symm) ha hb hab

theorem WF.old_distinct {s : GC} {N T : List Nat} (h : s.WF N T) {a b : Nat}
    (ha : a ∈ T) (hb : b ∈ T) (hab : a ≠ b) :
    a + object_bytes s.mem a ≤ b ∨ b + object_bytes s.mem b ≤ a :=
  h.old_apart.forall (fun _ _ hxy => hxy.symm) ha hb hab

/-- Bounds on what the pairs of a scavenge have used. -/
theorem used_le {s : GC} {N T : List Nat} (h : s.WF N T) (F : List (Nat × Nat))
    (hn : (F.map Prod.fst).Nodup) (hy : ∀ x ∈ F, x.1 ∈ N) :
    to_used s.mem F + heap_used s.mem F ≤ 8 * s.semi_space_size ∧ 24 * F.length ≤ 2 ^ 48 := by
  have hsub : F.map Prod.fst ⊆ N := by
    intro a ha
    obtain ⟨x, hx, rfl⟩ := List.mem_map.1 ha
    exact hy x hx
  have h1 := nodup_subset_sum_le (object_bytes s.mem) _ _ hn hsub
  have h2 := h.young_bytes
  have h3 := used_eq_sum s.mem F
  have h4 := length_le_sum s.mem (F.map Prod.fst)
  rw [List.length_map] at h4
  have h5 := h.heap_room
  omega

/-- Where a placed copy lies. -/
theorem placed_bounds (s : GC) :
    ∀ (F : List (Nat × Nat)), placed s F → ∀ x ∈ F,
      (promotes s.mem x.1 = false →
        s.semi_space1 ≤ x.2 ∧ x.2 + object_bytes s.mem x.1 ≤ s.semi_space1 + to_used s.mem F)
      ∧ (promotes s.mem x.1 = true →
        s.heap_break ≤ x.2 ∧ x.2 + object_bytes s.mem x.1 ≤ s.heap_break + heap_used s.mem F) := by
  intro F
  induction F with
  | nil => intro _ x hx; cases hx
  | cons y F ih =>
    intro hp x hx
    obtain ⟨hy, hF⟩ := hp
    rcases List.mem_cons.1 hx with rfl | hx
    · constructor
      · intro hpr
        simp only [hpr, Bool.false_eq_true, if_false] at hy
        simp only [to_used, hpr, Bool.false_eq_true, if_false]
        omega
      · intro hpr
        simp only [hpr, if_true] at hy
        simp only [heap_used, hpr, if_true]
        omega
    · have := ih hF x hx
      constructor
      · intro hpr
        have := this.1 hpr
        simp only [to_used]
        split <;> omega
      · intro hpr
        have := this.2 hpr
        simp only [heap_used]
        split <;> omega

end GC
namespace GC

/-! ## The memory effect of moving one object -/

theorem moved_mem_forward (m : Mem) (p n size : Nat) : moved_mem m p n size (p + 8) = n := by
  simp only [moved_mem, YHeader.put_header1, YHeader.set_forward_pointer, Mem.write_same]

theorem moved_mem_dest (m : Mem) (p n size j : Nat)
    (hd : n + 8 * size ≤ p ∨ p + 8 * size ≤ n) (hs : 3 ≤ size) (hj : j < size) :
    moved_mem m p n size (n + 8 * j)
      = if j = 1 then (YHeader.inc_gc_generation (YHeader.header1 m p)).1 else m (p + 8 * j) := by
  simp only [moved_mem, YHeader.put_header1, YHeader.set_forward_pointer]
  rw [Mem.write_other _ _ _ _ (by omega), copy_object_dest _ _ _ _ _ hd hj]
  by_cases h1 : j = 1
  · subst h1
    simp only [if_true]
    exact Mem.write_same _ _ _
  · rw [if_neg h1]
    exact Mem.write_other _ _ _ _ (by omega)

theorem moved_mem_other (m : Mem) (p n size a : Nat) (h1 : a ≠ p + 8)
    (h2 : a < n ∨ n + 8 * size ≤ a) : moved_mem m p n size a = m a := by
  simp only [moved_mem, YHeader.put_header1, YHeader.set_forward_pointer]
  rw [Mem.write_other _ _ _ _ h1, copy_object_other _ _ _ _ _ (fun j hj => by omega)]
  exact Mem.write_other _ _ _ _ h1

theorem copy_and_forward_forwarded (c : Scan) (p : Nat)
    (h : YHeader.forward_pointer (YHeader.header1 c.gc.mem p) ≠ 0) :
    copy_and_forward c p = (c, YHeader.forward_pointer (YHeader.header1 c.gc.mem p)) := by
  unfold copy_and_forward
  simp only [h, if_false]

theorem copy_and_forward_young (c : Scan) (p : Nat)
    (h : YHeader.forward_pointer (YHeader.header1 c.gc.mem p) = 0)
    (hg : YHeader.gc_generation (YHeader.header1 c.gc.mem p) ≠ 3) :
    copy_and_forward c p
      = (⟨c.gc.set_mem (moved_mem c.gc.mem p c.alloc_ptr (object_words c.gc.mem p)),
          c.alloc_ptr + 8 * object_words c.gc.mem p, (c.live_objects + 1) % 2 ^ 64⟩,
         c.alloc_ptr) := by
  unfold copy_and_forward
  simp only [h, if_true]
  rw [YHeader.inc_gc_generation_snd, ← YHeader.gc_generation_eq]
  simp only [hg, decide_False, Bool.false_eq_true, if_false]
  rfl

theorem copy_and_forward_promoted (c : Scan) (p : Nat)
    (h : YHeader.forward_pointer (YHeader.header1 c.gc.mem p) = 0)
    (hg : YHeader.gc_generation (YHeader.header1 c.gc.mem p) = 3) :
    copy_and_forward c p
      = (⟨(((c.gc.set_tenure_space_size
              ((c.gc.tenure_space_size + object_words c.gc.mem p) % 2 ^ 64)).set_heap_break
              (c.gc.heap_break + 8 * object_words c.gc.mem p)).set_mem
              (moved_mem c.gc.mem p c.gc.heap_break (object_words c.gc.mem p))).set_promoted_objects
              (c.gc.promoted_objects ++ [c.gc.heap_break]),
          c.alloc_ptr, (c.live_objects + 1) % 2 ^ 64⟩,
         c.gc.heap_break) := by
  unfold copy_and_forward
  simp only [h, if_true]
  rw [YHeader.inc_gc_generation_snd, ← YHeader.gc_generation_eq]
  simp only [hg, decide_True, if_true]
  rfl

end GC
namespace GC

/-! ## Owners and their zones -/

theorem mem_owners {T : List Nat} {F : List (Nat × Nat)} {w : Nat × Nat} :
    w ∈ owners T F ↔ (w.1 ∈ T ∧ w.2 = w.1) ∨ (w.2, w.1) ∈ F := by
  unfold owners
  rw [List.mem_append, List.mem_map, List.mem_map]
  constructor
  · rintro (⟨t, ht, rfl⟩ | ⟨x, hx, rfl⟩)
    · exact Or.inl ⟨ht, rfl⟩
    · exact Or.inr hx
  · rintro (⟨ht, e⟩ | hx)
    · exact Or.inl ⟨w.1, ht, by obtain ⟨a, b⟩ := w; simp only at e; subst e; rfl⟩
    · exact Or.inr ⟨(w.2, w.1), hx, rfl⟩

theorem owners_cons_subset {T : List Nat} {F : List (Nat × Nat)} (x : Nat × Nat)
    {w : Nat × Nat} (h : w ∈ owners T F) : w ∈ owners T (x :: F) := by
  rw [mem_owners] at h ⊢
  rcases h with h | h
  · exact Or.inl h
  · exact Or.inr (List.mem_cons_of_mem _ h)

/-- An owner is a tenured object, a copy in to-space below the break, or a promoted copy
below the free-store break. -/
theorem owners_zone {s0 : GC} {N T : List Nat} (hwf : s0.WF N T) (F : List (Nat × Nat))
    (hpl : placed s0 F) (w : Nat × Nat) (hw : w ∈ owners T F) :
    (w.1 ≠ 0 ∧ w.1 + object_bytes s0.mem w.2 ≤ s0.heap_break
      ∧ (w.1 + object_bytes s0.mem w.2 ≤ s0.nursery_space ∨ s0.nursery_space_end ≤ w.1))
    ∨ (s0.semi_space1 ≤ w.1
      ∧ w.1 + object_bytes s0.mem w.2 ≤ s0.semi_space1 + to_used s0.mem F)
    ∨ (s0.heap_break ≤ w.1
      ∧ w.1 + object_bytes s0.mem w.2 ≤ s0.heap_break + heap_used s0.mem F) := by
  rw [mem_owners] at hw
  rcases hw with ⟨ht, e⟩ | hx
  · rw [e]
    exact Or.inl (hwf.old_outside _ ht)
  · have := placed_bounds s0 F hpl _ hx
    cases hpr : promotes s0.mem w.2
    · exact Or.inr (Or.inl (this.1 hpr))
    · exact Or.inr (Or.inr (this.2 hpr))

end GC
namespace GC

/-! ## Copying one more object keeps the invariant -/

theorem field_addr_small (w i : Nat) (m : Mem) (o : Nat)
    (hi : i < YHeader.field_size (YHeader.header2 m o)) :
    YHeader.field_addr w i = w + 8 * (i + 3) :=
  YHeader.field_addr_eq w i (by have := field_size_lt (YHeader.header2 m o); omega)

/-- The invariant after `p`, not yet copied, is moved to the break `n` of its zone. -/
theorem Inv.moved {s0 : GC} {N T : List Nat} {c : Scan} {F : List (Nat × Nat)}
    (hwf : s0.WF N T) (h : Inv s0 N T c F) {p : Nat} (hp : p ∈ N)
    (hreach : s0.copy_reachable p)
    (hk : p ∉ F.map Prod.fst) (c' : Scan) (n : Nat)
    (hn : n = if promotes s0.mem p then s0.heap_break + heap_used s0.mem F
              else s0.semi_space1 + to_used s0.mem F)
    (hmem : c'.gc.mem = moved_mem c.gc.mem p n (object_words s0.mem p))
    (hframe : Frame c.gc c'.gc)
    (hlive : c'.live_objects = F.length + 1)
    (halloc : c'.alloc_ptr = s0.semi_space1 + to_used s0.mem ((p, n) :: F))
    (hbrk : c'.gc.heap_break = s0.heap_break + heap_used s0.mem ((p, n) :: F))
    (hts : c'.gc.tenure_space_size
      = (s0.tenure_space_size + heap_used s0.mem ((p, n) :: F) / 8) % 2 ^ 64)
    (hpo : ∀ q, q ∈ c'.gc.promoted_objects → q ∈ c.gc.promoted_objects ∨ q = n) :
    Inv s0 N T c' ((p, n) :: F)
    ∧ (∀ w ∈ owners T F, ∀ j, j < object_words s0.mem w.2 →
        c'.gc.mem (w.1 + 8 * j) = c.gc.mem (w.1 + 8 * j))
    ∧ fresh s0 c'.gc.mem (n, p) := by
  have hnd : (((p, n) :: F).map Prod.fst).Nodup := by
    rw [List.map_cons, List.nodup_cons]; exact ⟨hk, h.keys_nodup⟩
  have hky : ∀ x ∈ (p, n) :: F, x.1 ∈ N := by
    intro x hx
    rcases List.mem_cons.1 hx with rfl | hx
    · exact hp
    · exact h.keys_young x hx
  have hu := (used_le hwf _ hnd hky).1
  have hu0 := (used_le hwf _ h.keys_nodup h.keys_young).1
  have hpz := hwf.young_in_space p hp
  have hsemi := hwf.semi_spaces
  have hne := hwf.nursery_end
  have hab := hwf.heap_above
  have hroom := hwf.heap_room
  have hpos := hwf.nursery_pos
  have hbp := object_bytes_eq s0.mem p
  have hwp := object_words_eq s0.mem p
  -- the words of tenured objects and of older copies are not written
  have hown : ∀ w ∈ owners T F, ∀ j, j < object_words s0.mem w.2 →
      c'.gc.mem (w.1 + 8 * j) = c.gc.mem (w.1 + 8 * j) := by
    intro w hw j hj
    have hz := owners_zone hwf F h.is_placed w hw
    have hbw := object_bytes_eq s0.mem w.2
    have hww := object_words_eq s0.mem w.2
    rw [hmem]
    simp only [to_used, heap_used] at hu
    cases hpr : promotes s0.mem p <;>
      simp only [hpr, Bool.false_eq_true, if_false, if_true] at hn hu <;>
      apply moved_mem_other <;> omega
  -- the words of young objects other than the header word of `p` are not written
  have hyoung : ∀ o ∈ N, ∀ j, j < object_words s0.mem o → (o ≠ p ∨ j ≠ 1) →
      c'.gc.mem (o + 8 * j) = c.gc.mem (o + 8 * j) := by
    intro o ho j hj hne1
    have hoz := hwf.young_in_space o ho
    have hbo := object_bytes_eq s0.mem o
    have hwo := object_words_eq s0.mem o
    have hap : o ≠ p → o + object_bytes s0.mem o ≤ p ∨ p + object_bytes s0.mem p ≤ o :=
      fun hop => hwf.young_apart ho hp hop
    rw [hmem]
    simp only [to_used, heap_used] at hu
    cases hpr : promotes s0.mem p <;>
      simp only [hpr, Bool.false_eq_true, if_false, if_true] at hn hu <;>
      apply moved_mem_other <;> omega
  -- the destination holds the words of `p`
  have hdest : ∀ j, j < object_words s0.mem p →
      c'.gc.mem (n + 8 * j)
        = if j = 1 then (YHeader.inc_gc_generation (YHeader.header1 c.gc.mem p)).1
          else c.gc.mem (p + 8 * j) := by
    intro j hj
    rw [hmem]
    simp only [to_used, heap_used] at hu
    apply moved_mem_dest _ _ _ _ _ _ (by omega) hj
    cases hpr : promotes s0.mem p <;>
      simp only [hpr, Bool.false_eq_true, if_false, if_true] at hn hu <;> omega
  have hh1 : YHeader.header1 c.gc.mem p = YHeader.header1 s0.mem p := h.young_h1 p hp hk
  -- no older owner is at the destination
  have hfar : ∀ w ∈ owners T F, w.1 ≠ n := by
    intro w hw
    have hz := owners_zone hwf F h.is_placed w hw
    have hbw := object_bytes_eq s0.mem w.2
    have hww := object_words_eq s0.mem w.2
    simp only [to_used, heap_used] at hu
    cases hpr : promotes s0.mem p <;>
      simp only [hpr, Bool.false_eq_true, if_false, if_true] at hn hu <;> omega
  refine ⟨?_, hown, ?_⟩
  · constructor
    · exact Frame.trans h.frame hframe
    · rw [hlive]; rfl
    · exact hnd
    · exact hky
    · intro x hx
      rcases List.mem_cons.1 hx with rfl | hx
      · exact hreach
      · exact h.reach x hx
    · exact ⟨hn, h.is_placed⟩
    · exact halloc
    · exact hbrk
    · exact hts
    · -- young_h1
      intro o ho hok
      rw [List.map_cons, List.mem_cons, not_or] at hok
      have := hyoung o ho 1 (by rw [object_words_eq]; omega) (Or.inl hok.1)
      simp only [YHeader.header1] at this ⊢
      rw [this]
      exact h.young_h1 o ho hok.2
    · -- young_fwd
      intro x hx
      rcases List.mem_cons.1 hx with rfl | hx
      · simp only [YHeader.header1]
        rw [hmem]
        exact moved_mem_forward _ _ _ _
      · have hxp : x.1 ≠ p := by
          intro e
          exact hk (e ▸ List.mem_map_of_mem Prod.fst hx)
        have := hyoung x.1 (h.keys_young x hx) 1 (by rw [object_words_eq]; omega) (Or.inl hxp)
        simp only [YHeader.header1] at this ⊢
        rw [this]
        exact h.young_fwd x hx
    · -- young_body
      intro o ho j hj2 hj
      rw [hyoung o ho j hj (Or.inr (by omega))]
      exact h.young_body o ho j hj2 hj
    · -- new_kind
      intro x hx
      rcases List.mem_cons.1 hx with rfl | hx
      · have := hdest 1 (by omega)
        simp only [if_true] at this
        simp only [YHeader.header1] at this hh1 ⊢
        rw [this, hh1]
      · have hw : (x.2, x.1) ∈ owners T F := mem_owners.2 (Or.inr hx)
        have := hown _ hw 1 (by rw [object_words_eq]; omega)
        simp only [YHeader.header1] at this ⊢
        rw [this]
        exact h.new_kind x hx
    · -- new_h1
      intro x hx hpr
      rcases List.mem_cons.1 hx with rfl | hx
      · have := hdest 1 (by omega)
        simp only [if_true] at this
        simp only [YHeader.header1] at this hh1 ⊢
        rw [this, hh1]
      · have hw : (x.2, x.1) ∈ owners T F := mem_owners.2 (Or.inr hx)
        have := hown _ hw 1 (by rw [object_words_eq]; omega)
        simp only [YHeader.header1] at this ⊢
        rw [this]
        exact h.new_h1 x hx hpr
    · -- old_kind
      intro t ht
      have hw : (t, t) ∈ owners T F := mem_owners.2 (Or.inl ⟨ht, rfl⟩)
      have := hown _ hw 1 (by rw [object_words_eq]; omega)
      simp only [YHeader.header1] at this ⊢
      rw [this]
      exact h.old_kind t ht
    · -- owner_h2
      intro w hw
      rw [mem_owners] at hw
      rcases hw with hw | hw
      · have hw' : w ∈ owners T F := mem_owners.2 (Or.inl hw)
        have := hown _ hw' 2 (by rw [object_words_eq]; omega)
        simp only [YHeader.header2] at this ⊢
        rw [this]
        exact h.owner_h2 w hw'
      · rcases List.mem_cons.1 hw with e | hw
        · have e1 : w.2 = p := congrArg Prod.fst e
          have e2 : w.1 = n := congrArg Prod.snd e
          have := hdest 2 (by omega)
          simp only [show (2 : Nat) ≠ 1 by omega, if_false] at this
          simp only [YHeader.header2]
          rw [e1, e2, this]
          exact h.young_body p hp 2 (le_refl _) (by omega)
        · have hw' : w ∈ owners T F := mem_owners.2 (Or.inr hw)
          have := hown _ hw' 2 (by rw [object_words_eq]; omega)
          simp only [YHeader.header2] at this ⊢
          rw [this]
          exact h.owner_h2 w hw'
    · -- cells
      intro w hw i hi
      have hold : w ∈ owners T F →
          YHeader.get_field c'.gc.mem w.1 i = YHeader.get_field s0.mem w.2 i
          ∨ (Box.is_ptr (YHeader.get_field s0.mem w.2 i) = true
              ∧ s0.in_nursery (YHeader.get_field s0.mem w.2 i) = true
              ∧ (YHeader.get_field s0.mem w.2 i, YHeader.get_field c'.gc.mem w.1 i)
                  ∈ (p, n) :: F) := by
        intro hw'
        have hi3 := hi.2.2
        have e : YHeader.get_field c'.gc.mem w.1 i = YHeader.get_field c.gc.mem w.1 i := by
          unfold YHeader.get_field
          rw [field_addr_small _ _ _ _ hi.2.2]
          exact hown _ hw' _ (by rw [object_words_eq]; omega)
        rw [e]
        rcases h.cells w hw' i hi with h1 | ⟨h1, h2, h3⟩
        · exact Or.inl h1
        · exact Or.inr ⟨h1, h2, List.mem_cons_of_mem _ h3⟩
      rw [mem_owners] at hw
      rcases hw with hw | hw
      · exact hold (mem_owners.2 (Or.inl hw))
      · rcases List.mem_cons.1 hw with e | hw
        · have e1 : w.2 = p := congrArg Prod.fst e
          have e2 : w.1 = n := congrArg Prod.snd e
          left
          rw [e1] at hi ⊢
          rw [e2]
          have hi3 := hi.2.2
          unfold YHeader.get_field
          rw [field_addr_small _ _ _ _ hi.2.2, field_addr_small _ _ _ _ hi.2.2,
            hdest (i + 3) (by omega), if_neg (by omega)]
          exact h.young_body p hp (i + 3) (by omega) (by omega)
        · exact hold (mem_owners.2 (Or.inr hw))
    · -- new_mark
      intro x hx
      rcases List.mem_cons.1 hx with rfl | hx
      · have := hdest 1 (by omega)
        simp only [if_true] at this
        simp only [YHeader.header1] at this hh1 ⊢
        rw [this, hh1]
        exact YHeader.gc_mark_inc _
      · have hw : (x.2, x.1) ∈ owners T F := mem_owners.2 (Or.inr hx)
        have := hown _ hw 1 (by rw [object_words_eq]; omega)
        simp only [YHeader.header1] at this ⊢
        rw [this]
        exact h.new_mark x hx
    · -- pend_rem
      intro x hx hq
      rcases List.mem_cons.1 hx with rfl | hx
      · have := hdest 1 (by omega)
        simp only [if_true] at this
        simp only [YHeader.header1] at this hh1 ⊢
        rw [this, hh1]
        exact YHeader.gc_remember_inc _
      · have hw : (x.2, x.1) ∈ owners T F := mem_owners.2 (Or.inr hx)
        have := hown _ hw 1 (by rw [object_words_eq]; omega)
        simp only [YHeader.header1] at this ⊢
        rw [this]
        rcases hpo _ hq with hq | hq
        · exact h.pend_rem x hx hq
        · exact absurd hq (hfar _ hw)
  · -- fresh
    intro i hi
    simp only at hi ⊢
    have hi3 := hi.2.2
    unfold YHeader.get_field
    rw [field_addr_small _ _ _ _ hi.2.2, field_addr_small _ _ _ _ hi.2.2,
      hdest (i + 3) (by omega), if_neg (by omega)]
    exact h.young_body p hp (i + 3) (by omega) (by omega)

end GC
namespace GC

/-! ## Owners do not overlap -/

theorem to_used_cons_le (m : Mem) (x : Nat × Nat) (F : List (Nat × Nat)) :
    to_used m F ≤ to_used m (x :: F) := by
  simp only [to_used]; split <;> omega

/-- Two different placed copies do not overlap. -/
theorem placed_apart (s : GC) :
    ∀ (F : List (Nat × Nat)), placed s F → s.semi_space1 + to_used s.mem F ≤ s.heap_break →
      ∀ x ∈ F, ∀ y ∈ F, x ≠ y →
        x.2 + object_bytes s.mem x.1 ≤ y.2 ∨ y.2 + object_bytes s.mem y.1 ≤ x.2 := by
  intro F
  induction F with
  | nil => intro _ _ x hx; cases hx
  | cons z F ih =>
    intro hp hz x hx y hy hxy
    have hle := to_used_cons_le s.mem z F
    have hb := placed_bounds s (z :: F) hp
    have hbF := placed_bounds s F hp.2
    have hzd := hp.1
    have key : ∀ y ∈ F,
        z.2 + object_bytes s.mem z.1 ≤ y.2 ∨ y.2 + object_bytes s.mem y.1 ≤ z.2 := by
      intro y hy
      have h1 := hbF y hy
      have h2 := hb z (List.mem_cons_self _ _)
      cases hpz : promotes s.mem z.1 <;> cases hpy : promotes s.mem y.1 <;>
        simp only [hpz, hpy, Bool.false_eq_true, if_false, if_true, forall_true_left,
          IsEmpty.forall_iff, true_and, and_true] at h1 h2 hzd <;> omega
    rcases List.mem_cons.1 hx with ex | hx1 <;> rcases List.mem_cons.1 hy with ey | hy1
    · exact absurd (ex.trans ey.symm) hxy
    · rw [ex]; exact key y hy1
    · rw [ey]; exact (key x hx1).symm
    · exact ih hp.2 (by omega) x hx1 y hy1 hxy

/-- A copy is a non-null address of 48 bits. -/
theorem Inv.new_addr {s0 : GC} {N T : List Nat} {c : Scan} {F : List (Nat × Nat)}
    (hwf : s0.WF N T) (h : Inv s0 N T c F) (x : Nat × Nat) (hx : x ∈ F) :
    0 < x.2 ∧ x.2 < 2 ^ 48 ∧ (s0.in_nursery x.2 = true ↔ promotes s0.mem x.1 = false)
      ∧ (promotes s0.mem x.1 = false →
          s0.semi_space1 ≤ x.2 ∧ x.2 + object_bytes s0.mem x.1 ≤ c.alloc_ptr) := by
  have hu := (used_le hwf _ h.keys_nodup h.keys_young).1
  have hb := placed_bounds s0 F h.is_placed x hx
  have hsemi := hwf.semi_spaces
  have hne := hwf.nursery_end
  have hab := hwf.heap_above
  have hroom := hwf.heap_room
  have hpos := hwf.nursery_pos
  have hbx := object_bytes_pos s0.mem x.1
  have ha := h.alloc
  rw [in_nursery_iff]
  cases hpr : promotes s0.mem x.1
  · have hb1 := hb.1 hpr
    exact ⟨by omega, by omega, ⟨fun _ => rfl, fun _ => by omega⟩, fun _ => by omega⟩
  · have hb2 := hb.2 hpr
    refine ⟨by omega, by omega, ⟨fun hn => by omega, fun hf => by cases hf⟩,
      fun hf => by cases hf⟩

/-- Two different owners do not overlap. -/
theorem Inv.owners_apart {s0 : GC} {N T : List Nat} {c : Scan} {F : List (Nat × Nat)}
    (hwf : s0.WF N T) (h : Inv s0 N T c F) (w w' : Nat × Nat)
    (hw : w ∈ owners T F) (hw' : w' ∈ owners T F) (hne : w ≠ w') :
    w.1 + object_bytes s0.mem w.2 ≤ w'.1 ∨ w'.1 + object_bytes s0.mem w'.2 ≤ w.1 := by
  have hu := (used_le hwf _ h.keys_nodup h.keys_young).1
  have hsemi := hwf.semi_spaces
  have hnend := hwf.nursery_end
  have hab := hwf.heap_above
  have hpos := hwf.nursery_pos
  have hbw := object_bytes_pos s0.mem w.2
  have hbw' := object_bytes_pos s0.mem w'.2
  rw [mem_owners] at hw hw'
  rcases hw with ⟨ht, e⟩ | hx <;> rcases hw' with ⟨ht', e'⟩ | hx'
  · rw [e, e']
    refine hwf.old_distinct ht ht' ?_
    intro e1
    apply hne
    obtain ⟨a, b⟩ := w
    obtain ⟨a', b'⟩ := w'
    simp only at e e' e1
    subst e e' e1
    rfl
  · have h1 := hwf.old_outside _ ht
    have h2 := placed_bounds s0 F h.is_placed _ hx'
    rw [e]
    cases hpr : promotes s0.mem w'.2 <;>
      simp only [hpr, Bool.false_eq_true, forall_true_left, IsEmpty.forall_iff, true_and,
        and_true] at h2 <;> omega
  · have h1 := hwf.old_outside _ ht'
    have h2 := placed_bounds s0 F h.is_placed _ hx
    rw [e']
    cases hpr : promotes s0.mem w.2 <;>
      simp only [hpr, Bool.false_eq_true, forall_true_left, IsEmpty.forall_iff, true_and,
        and_true] at h2 <;> omega
  · have := placed_apart s0 F h.is_placed (by omega) _ hx _ hx' (by
      intro e1
      apply hne
      obtain ⟨a, b⟩ := w
      obtain ⟨a', b'⟩ := w'
      simp only [Prod.mk.injEq] at e1
      obtain ⟨e2, e3⟩ := e1
      subst e2 e3
      rfl)
    exact this

/-- Owners at the same address are the same owner. -/
theorem Inv.owners_inj {s0 : GC} {N T : List Nat} {c : Scan} {F : List (Nat × Nat)}
    (hwf : s0.WF N T) (h : Inv s0 N T c F) (w w' : Nat × Nat)
    (hw : w ∈ owners T F) (hw' : w' ∈ owners T F) (e : w.1 = w'.1) : w = w' := by
  by_contra hne
  have := h.owners_apart hwf w w' hw hw' hne
  have hbw := object_bytes_pos s0.mem w.2
  have hbw' := object_bytes_pos s0.mem w'.2
  omega

/-- An owner's original is a listed object. -/
theorem Inv.owner_orig {s0 : GC} {N T : List Nat} {c : Scan} {F : List (Nat × Nat)}
    (h : Inv s0 N T c F) (w : Nat × Nat) (hw : w ∈ owners T F) : w.2 ∈ N ++ T := by
  rw [mem_owners] at hw
  rcases hw with ⟨ht, e⟩ | hx
  · rw [e]; exact List.mem_append_right _ ht
  · exact List.mem_append_left _ (h.keys_young _ hx)

end GC
namespace GC

/-! ## Stretches of a scavenge compose -/

theorem promoted_of_nil (m : Mem) : promoted_of m [] = [] := rfl

theorem promoted_of_append (m : Mem) (G2 G1 : List (Nat × Nat)) :
    promoted_of m (G2 ++ G1) = promoted_of m G1 ++ promoted_of m G2 := by
  simp only [promoted_of, List.reverse_append, List.filter_append, List.map_append]

theorem owners_append_subset {T : List Nat} {F : List (Nat × Nat)} (G : List (Nat × Nat))
    {w : Nat × Nat} (h : w ∈ owners T F) : w ∈ owners T (G ++ F) := by
  rw [mem_owners] at h ⊢
  rcases h with h | h
  · exact Or.inl h
  · exact Or.inr (List.mem_append_right _ h)

theorem Step.refl {s0 : GC} {N T : List Nat} (w0 : Nat × Nat) {c : Scan}
    {F : List (Nat × Nat)} (h : Inv s0 N T c F) : Step s0 N T w0 c F c F where
  inv := h
  grow := ⟨[], rfl, by rw [promoted_of_nil, List.append_nil]⟩
  fresh_new := fun w hw hn => absurd hw hn
  shadow := rfl
  remember := rfl
  tenure := rfl
  kept_head := fun _ _ _ _ => rfl
  kept_cells := fun _ _ _ _ _ => rfl

theorem Step.compose {s0 : GC} {N T : List Nat} {w0 : Nat × Nat} {c c1 c2 : Scan}
    {F F1 F2 : List (Nat × Nat)} (hw0 : w0 ∈ owners T F)
    (h1 : Step s0 N T w0 c F c1 F1) (h2 : Step s0 N T w0 c1 F1 c2 F2) :
    Step s0 N T w0 c F c2 F2 := by
  obtain ⟨G1, e1, p1⟩ := h1.grow
  obtain ⟨G2, e2, p2⟩ := h2.grow
  have hsub : ∀ w, w ∈ owners T F → w ∈ owners T F1 := by
    intro w hw; rw [e1]; exact owners_append_subset G1 hw
  constructor
  · exact h2.inv
  · refine ⟨G2 ++ G1, by rw [e2, e1, List.append_assoc], ?_⟩
    rw [p2, p1, promoted_of_append, List.append_assoc]
  · intro w hw hn
    by_cases h : w ∈ owners T F1
    · have hne : w ≠ w0 := fun e => hn (e ▸ hw0)
      have hf := h1.fresh_new w h hn
      intro i hi
      rw [h2.kept_cells w h hne i hi.2.2]
      exact hf i hi
    · exact h2.fresh_new w hw h
  · exact h2.shadow.trans h1.shadow
  · exact h2.remember.trans h1.remember
  · exact h2.tenure.trans h1.tenure
  · intro w hw j hj
    rw [h2.kept_head w (hsub w hw) j hj, h1.kept_head w hw j hj]
  · intro w hw hne i hi
    rw [h2.kept_cells w (hsub w hw) hne i hi, h1.kept_cells w hw hne i hi]

/-! ## `copy_and_forward` on a young object -/

/-- A young object is among the pairs exactly when its forwarding pointer is set. -/
theorem Inv.forwarded_iff {s0 : GC} {N T : List Nat} {c : Scan} {F : List (Nat × Nat)}
    (hwf : s0.WF N T) (h : Inv s0 N T c F) {p : Nat} (hp : p ∈ N) :
    YHeader.forward_pointer (YHeader.header1 c.gc.mem p) ≠ 0 ↔ p ∈ F.map Prod.fst := by
  constructor
  · intro hf
    by_contra hk
    rw [h.young_h1 p hp hk] at hf
    exact hf (hwf.young_header p hp).1
  · intro hk
    obtain ⟨x, hx, rfl⟩ := List.mem_map.1 hk
    rw [h.young_fwd x hx]
    have := h.new_addr hwf x hx
    rw [YHeader.forward_pointer_of_lt _ this.2.1]
    omega

/-- The pair of a forwarded object is determined by the object. -/
theorem Inv.pair_unique {s0 : GC} {N T : List Nat} {c : Scan} {F : List (Nat × Nat)}
    (h : Inv s0 N T c F) {p n n' : Nat} (h1 : (p, n) ∈ F) (h2 : (p, n') ∈ F) : n = n' := by
  have e1 := h.young_fwd _ h1
  have e2 := h.young_fwd _ h2
  simp only at e1 e2
  rw [← e1, ← e2]

theorem promotes_iff (m : Mem) (o : Nat) :
    promotes m o = true ↔ YHeader.gc_generation (YHeader.header1 m o) = 3 := by
  unfold promotes
  simp

/-- `copy_and_forward` on a reachable young object: the result is the object's pair, and
nothing but the object's header word and the fresh destination is written. -/
theorem Inv.copy_and_forward {s0 : GC} {N T : List Nat} {c : Scan} {F : List (Nat × Nat)}
    (hwf : s0.WF N T) (h : Inv s0 N T c F) (w0 : Nat × Nat) {p : Nat} (hp : p ∈ N)
    (hreach : s0.copy_reachable p) :
    ∃ F', Step s0 N T w0 c F (copy_and_forward c p).1 F'
      ∧ (p, (copy_and_forward c p).2) ∈ F'
      ∧ (∀ w ∈ owners T F, ∀ i, i < YHeader.field_size (YHeader.header2 s0.mem w.2) →
          YHeader.get_field (copy_and_forward c p).1.gc.mem w.1 i
            = YHeader.get_field c.gc.mem w.1 i) := by
  by_cases hf : YHeader.forward_pointer (YHeader.header1 c.gc.mem p) = 0
  · -- the object is copied now
    have hk : p ∉ F.map Prod.fst := fun hk => (h.forwarded_iff hwf hp).2 hk hf
    have hh1 : YHeader.header1 c.gc.mem p = YHeader.header1 s0.mem p := h.young_h1 p hp hk
    have hh2 : YHeader.header2 c.gc.mem p = YHeader.header2 s0.mem p := by
      have := h.young_body p hp 2 (le_refl _) (by rw [object_words_eq]; omega)
      simpa [YHeader.header2] using this
    have hwords : object_words c.gc.mem p = object_words s0.mem p := by
      rw [object_words_eq, object_words_eq, hh2]
    have hlen := (used_le hwf _ h.keys_nodup h.keys_young).2
    have hlive : (c.live_objects + 1) % 2 ^ 64 = F.length + 1 := by
      rw [h.live]; omega
    have hbp := object_bytes_eq s0.mem p
    have hwp := object_words_eq s0.mem p
    by_cases hg : YHeader.gc_generation (YHeader.header1 c.gc.mem p) = 3
    · have hpr : promotes s0.mem p = true := by rw [promotes_iff, ← hh1]; exact hg
      rw [copy_and_forward_promoted c p hf hg, hwords]
      simp only
      have hm := Inv.moved hwf h hp hreach hk
        ⟨(((c.gc.set_tenure_space_size
              ((c.gc.tenure_space_size + object_words s0.mem p) % 2 ^ 64)).set_heap_break
              (c.gc.heap_break + 8 * object_words s0.mem p)).set_mem
              (moved_mem c.gc.mem p c.gc.heap_break (object_words s0.mem p))).set_promoted_objects
              (c.gc.promoted_objects ++ [c.gc.heap_break]),
          c.alloc_ptr, (c.live_objects + 1) % 2 ^ 64⟩ c.gc.heap_break
        (by rw [hpr, if_pos rfl]; exact h.brk)
        (by simp)
        (by constructor <;> simp)
        hlive
        (by simp only [to_used, hpr, if_true]; exact h.alloc)
        (by simp only [heap_used, hpr, if_true, set_promoted_objects_proj, set_mem_proj,
              set_heap_break_proj]
            rw [h.brk]; omega)
        (by simp only [heap_used, hpr, if_true, set_promoted_objects_proj, set_mem_proj,
              set_heap_break_proj, set_tenure_space_size_proj]
            rw [h.tenure_size]; omega)
        (by intro q hq
            simp only [set_promoted_objects_proj] at hq
            rcases List.mem_append.1 hq with hq | hq
            · exact Or.inl hq
            · exact Or.inr (List.mem_singleton.1 hq))
      refine ⟨(p, c.gc.heap_break) :: F, ?_, List.mem_cons_self _ _, ?_⟩
      · constructor
        · exact hm.1
        · refine ⟨[(p, c.gc.heap_break)], rfl, ?_⟩
          simp [promoted_of, hpr]
        · intro w hw hn
          rw [mem_owners] at hw
          rcases hw with hw | hw
          · exact absurd (mem_owners.2 (Or.inl hw)) hn
          · rcases List.mem_cons.1 hw with e | hw
            · have : w = (c.gc.heap_break, p) := by
                obtain ⟨a, b⟩ := w
                simp only [Prod.mk.injEq] at e
                rw [e.1, e.2]
              rw [this]
              exact hm.2.2
            · exact absurd (mem_owners.2 (Or.inr hw)) hn
        · simp
        · simp
        · simp
        · intro w hw j hj
          exact hm.2.1 w hw j (by rw [object_words_eq]; omega)
        · intro w hw _ i hi
          unfold YHeader.get_field
          rw [field_addr_small _ _ _ _ hi]
          exact hm.2.1 w hw _ (by rw [object_words_eq]; omega)
      · intro w hw i hi
        unfold YHeader.get_field
        rw [field_addr_small _ _ _ _ hi]
        exact hm.2.1 w hw _ (by rw [object_words_eq]; omega)
    · have hpr : promotes s0.mem p = false := by
        cases hb : promotes s0.mem p
        · rfl
        · rw [promotes_iff, ← hh1] at hb; exact absurd hb hg
      rw [copy_and_forward_young c p hf hg, hwords]
      simp only
      have hm := Inv.moved hwf h hp hreach hk
        ⟨c.gc.set_mem (moved_mem c.gc.mem p c.alloc_ptr (object_words s0.mem p)),
          c.alloc_ptr + 8 * object_words s0.mem p, (c.live_objects + 1) % 2 ^ 64⟩ c.alloc_ptr
        (by rw [hpr]; simp only [Bool.false_eq_true, if_false]; exact h.alloc)
        (by simp)
        (by constructor <;> simp)
        hlive
        (by simp only [to_used, hpr, Bool.false_eq_true, if_false]
            rw [h.alloc]; omega)
        (by simp only [heap_used, hpr, Bool.false_eq_true, if_false, set_mem_proj]
            exact h.brk)
        (by simp only [heap_used, hpr, Bool.false_eq_true, if_false, set_mem_proj]
            exact h.tenure_size)
        (by intro q hq
            simp only [set_mem_proj] at hq
            exact Or.inl hq)
      refine ⟨(p, c.alloc_ptr) :: F, ?_, List.mem_cons_self _ _, ?_⟩
      · constructor
        · exact hm.1
        · refine ⟨[(p, c.alloc_ptr)], rfl, ?_⟩
          simp [promoted_of, hpr]
        · intro w hw hn
          rw [mem_owners] at hw
          rcases hw with hw | hw
          · exact absurd (mem_owners.2 (Or.inl hw)) hn
          · rcases List.mem_cons.1 hw with e | hw
            · have : w = (c.alloc_ptr, p) := by
                obtain ⟨a, b⟩ := w
                simp only [Prod.mk.injEq] at e
                rw [e.1, e.2]
              rw [this]
              exact hm.2.2
            · exact absurd (mem_owners.2 (Or.inr hw)) hn
        · simp
        · simp
        · simp
        · intro w hw j hj
          exact hm.2.1 w hw j (by rw [object_words_eq]; omega)
        · intro w hw _ i hi
          unfold YHeader.get_field
          rw [field_addr_small _ _ _ _ hi]
          exact hm.2.1 w hw _ (by rw [object_words_eq]; omega)
      · intro w hw i hi
        unfold YHeader.get_field
        rw [field_addr_small _ _ _ _ hi]
        exact hm.2.1 w hw _ (by rw [object_words_eq]; omega)
  · -- the object was copied before
    rw [copy_and_forward_forwarded c p hf]
    have hk := (h.forwarded_iff hwf hp).1 hf
    obtain ⟨x, hx, e⟩ := List.mem_map.1 hk
    refine ⟨F, Step.refl w0 h, ?_, fun _ _ _ _ => rfl⟩
    simp only
    rw [← e, h.young_fwd x hx, YHeader.forward_pointer_of_lt _ (h.new_addr hwf x hx).2.1]
    exact hx

end GC
namespace GC

/-! ## Rewriting one field of an owner -/

/-- Storing the forwarding address `n` in field `i` of the owner `w0` keeps the invariant
and writes nothing else. -/
theorem Inv.set_cell {s0 : GC} {N T : List Nat} {c : Scan} {F : List (Nat × Nat)}
    (hwf : s0.WF N T) (h : Inv s0 N T c F) {w0 : Nat × Nat} (hw0 : w0 ∈ owners T F)
    {i n : Nat} (hi : scanned_index s0.mem w0.2 i)
    (hptr : Box.is_ptr (YHeader.get_field s0.mem w0.2 i) = true)
    (hnur : s0.in_nursery (YHeader.get_field s0.mem w0.2 i) = true)
    (hpair : (YHeader.get_field s0.mem w0.2 i, n) ∈ F) :
    Step s0 N T w0 c F
      ⟨c.gc.set_mem (YHeader.set_field c.gc.mem w0.1 i n), c.alloc_ptr, c.live_objects⟩ F
    ∧ YHeader.get_field (YHeader.set_field c.gc.mem w0.1 i n) w0.1 i = n
    ∧ (∀ j, j < YHeader.field_size (YHeader.header2 s0.mem w0.2) → j ≠ i →
        YHeader.get_field (YHeader.set_field c.gc.mem w0.1 i n) w0.1 j
          = YHeader.get_field c.gc.mem w0.1 j) := by
  have hi3 := hi.2.2
  have haddr : YHeader.field_addr w0.1 i = w0.1 + 8 * (i + 3) := field_addr_small _ _ _ _ hi3
  have hu := (used_le hwf _ h.keys_nodup h.keys_young).1
  have hsemi := hwf.semi_spaces
  have hnend := hwf.nursery_end
  have hab := hwf.heap_above
  have hpos := hwf.nursery_pos
  have hz0 := owners_zone hwf F h.is_placed w0 hw0
  have hb0 := object_bytes_eq s0.mem w0.2
  -- the other words of the owners are not written
  have hown : ∀ w ∈ owners T F, ∀ j, j < object_words s0.mem w.2 → (w ≠ w0 ∨ j ≠ i + 3) →
      YHeader.set_field c.gc.mem w0.1 i n (w.1 + 8 * j) = c.gc.mem (w.1 + 8 * j) := by
    intro w hw j hj hne
    have hbw := object_bytes_eq s0.mem w.2
    have hww := object_words_eq s0.mem w.2
    unfold YHeader.set_field
    rw [haddr]
    apply Mem.write_other
    by_cases e : w = w0
    · subst e
      rcases hne with hne | hne
      · exact absurd rfl hne
      · omega
    · have := h.owners_apart hwf w w0 hw hw0 e
      omega
  -- no word of a young object is written
  have hyoung : ∀ o ∈ N, ∀ j, j < object_words s0.mem o →
      YHeader.set_field c.gc.mem w0.1 i n (o + 8 * j) = c.gc.mem (o + 8 * j) := by
    intro o ho j hj
    have hoz := hwf.young_in_space o ho
    have hbo := object_bytes_eq s0.mem o
    have hwo := object_words_eq s0.mem o
    unfold YHeader.set_field
    rw [haddr]
    apply Mem.write_other
    omega
  have hcell : ∀ w ∈ owners T F, ∀ j, j < YHeader.field_size (YHeader.header2 s0.mem w.2) →
      (w ≠ w0 ∨ j ≠ i) →
      YHeader.get_field (YHeader.set_field c.gc.mem w0.1 i n) w.1 j
        = YHeader.get_field c.gc.mem w.1 j := by
    intro w hw j hj hne
    unfold YHeader.get_field
    rw [field_addr_small _ _ _ _ hj]
    apply hown w hw _ (by rw [object_words_eq]; omega)
    rcases hne with hne | hne
    · exact Or.inl hne
    · exact Or.inr (by omega)
  have hsame : YHeader.get_field (YHeader.set_field c.gc.mem w0.1 i n) w0.1 i = n := by
    unfold YHeader.get_field YHeader.set_field
    exact Mem.write_same _ _ _
  refine ⟨?_, hsame, fun j hj hne => hcell w0 hw0 j hj (Or.inr hne)⟩
  constructor
  · constructor
    · exact Frame.trans h.frame (by constructor <;> simp)
    · exact h.live
    · exact h.keys_nodup
    · exact h.keys_young
    · exact h.reach
    · exact h.is_placed
    · exact h.alloc
    · exact h.brk
    · exact h.tenure_size
    · intro o ho hk
      have := hyoung o ho 1 (by rw [object_words_eq]; omega)
      simp only [YHeader.header1, set_mem_proj] at this ⊢
      rw [this]
      exact h.young_h1 o ho hk
    · intro x hx
      have := hyoung x.1 (h.keys_young x hx) 1 (by rw [object_words_eq]; omega)
      simp only [YHeader.header1, set_mem_proj] at this ⊢
      rw [this]
      exact h.young_fwd x hx
    · intro o ho j hj2 hj
      simp only [set_mem_proj]
      rw [hyoung o ho j hj]
      exact h.young_body o ho j hj2 hj
    · intro x hx
      have := hown (x.2, x.1) (mem_owners.2 (Or.inr hx)) 1 (by rw [object_words_eq]; omega)
        (Or.inr (by omega))
      simp only [YHeader.header1, set_mem_proj] at this ⊢
      rw [this]
      exact h.new_kind x hx
    · intro x hx hpr
      have := hown (x.2, x.1) (mem_owners.2 (Or.inr hx)) 1 (by rw [object_words_eq]; omega)
        (Or.inr (by omega))
      simp only [YHeader.header1, set_mem_proj] at this ⊢
      rw [this]
      exact h.new_h1 x hx hpr
    · intro t ht
      have := hown (t, t) (mem_owners.2 (Or.inl ⟨ht, rfl⟩)) 1 (by rw [object_words_eq]; omega)
        (Or.inr (by omega))
      simp only [YHeader.header1, set_mem_proj] at this ⊢
      rw [this]
      exact h.old_kind t ht
    · intro w hw
      have := hown w hw 2 (by rw [object_words_eq]; omega) (Or.inr (by omega))
      simp only [YHeader.header2, set_mem_proj] at this ⊢
      rw [this]
      exact h.owner_h2 w hw
    · intro w hw j hj
      simp only [set_mem_proj]
      by_cases e : w = w0 ∧ j = i
      · obtain ⟨e1, e2⟩ := e
        subst e1 e2
        rw [hsame]
        exact Or.inr ⟨hptr, hnur, hpair⟩
      · rw [hcell w hw j hj.2.2 (by
          by_cases e1 : w = w0
          · exact Or.inr (fun e2 => e ⟨e1, e2⟩)
          · exact Or.inl e1)]
        exact h.cells w hw j hj
    · intro x hx
      have := hown (x.2, x.1) (mem_owners.2 (Or.inr hx)) 1 (by rw [object_words_eq]; omega)
        (Or.inr (by omega))
      simp only [YHeader.header1, set_mem_proj] at this ⊢
      rw [this]
      exact h.new_mark x hx
    · intro x hx hq
      have := hown (x.2, x.1) (mem_owners.2 (Or.inr hx)) 1 (by rw [object_words_eq]; omega)
        (Or.inr (by omega))
      simp only [YHeader.header1, set_mem_proj] at this ⊢
      rw [this]
      exact h.pend_rem x hx (by simpa using hq)
  · exact ⟨[], rfl, by simp [promoted_of_nil]⟩
  · intro w hw hn; exact absurd hw hn
  · simp
  · simp
  · simp
  · intro w hw j hj
    simp only [set_mem_proj]
    exact hown w hw j (by rw [object_words_eq]; omega) (Or.inr (by omega))
  · intro w hw hne j hj
    simp only [set_mem_proj]
    exact hcell w hw j hj (Or.inl hne)

end GC
namespace GC

/-! ## Scanning one field -/

theorem in_nursery_frame {s t : GC} (h : Frame s t) (p : Nat) :
    t.in_nursery p = s.in_nursery p := by
  unfold in_nursery
  rw [h.nursery_space, h.nursery_space_end]

/-- A listed object or null that lies in the nursery is a young object. -/
theorem WF.young_of_in_nursery {s : GC} {N T : List Nat} (hwf : s.WF N T) {v : Nat}
    (hv : v = 0 ∨ v ∈ N ∨ v ∈ T) (hn : s.in_nursery v = true) : v ∈ N := by
  rw [in_nursery_iff] at hn
  have hpos := hwf.nursery_pos
  rcases hv with hv | hv | hv
  · omega
  · exact hv
  · have := hwf.old_outside v hv
    have := object_bytes_pos s.mem v
    omega

/-- A young object lies in the nursery, a tenured one does not. -/
theorem WF.in_nursery_young {s : GC} {N T : List Nat} (hwf : s.WF N T) {v : Nat}
    (hv : v ∈ N) : s.in_nursery v = true := by
  rw [in_nursery_iff]
  have := hwf.young_in_space v hv
  have := object_bytes_pos s.mem v
  have := hwf.semi_spaces
  have := hwf.nursery_end
  omega

theorem WF.in_nursery_old {s : GC} {N T : List Nat} (hwf : s.WF N T) {v : Nat}
    (hv : v ∈ T) : s.in_nursery v = false := by
  cases h : s.in_nursery v
  · rfl
  · rw [in_nursery_iff] at h
    have := hwf.old_outside v hv
    have := object_bytes_pos s.mem v
    omega

/-- The value of a scanned field of a listed object, when it points into the nursery,
is a young object that the field's object points to. -/
theorem WF.field_target {s : GC} {N T : List Nat} (hwf : s.WF N T) {o i : Nat}
    (ho : o ∈ N ++ T) (hi : scanned_index s.mem o i)
    (hptr : Box.is_ptr (YHeader.get_field s.mem o i) = true)
    (hnur : s.in_nursery (YHeader.get_field s.mem o i) = true) :
    YHeader.get_field s.mem o i ∈ N ∧ points_to s.mem o (YHeader.get_field s.mem o i) := by
  have h1 := hwf.fields_closed o ho i hi.2.2 hi.1 hi.2.1 hptr
  refine ⟨hwf.young_of_in_nursery h1 hnur, i, hi, hptr, rfl, ?_⟩
  rw [in_nursery_iff] at hnur
  have := hwf.nursery_pos
  omega

theorem copy_reachable_step {s : GC} {a b : Nat} (ha : s.copy_reachable a)
    (hab : points_to s.mem a b) : s.copy_reachable b := by
  obtain ⟨r, hr, hp⟩ := ha
  exact ⟨r, hr, hp.tail hab⟩

theorem scan_field_skip (R : Bool) (obj i : Nat) (c : Scan) (rem : Bool)
    (h : ¬ (Box.is_ptr (YHeader.get_field c.gc.mem obj i) = true
          ∧ c.gc.in_nursery (YHeader.get_field c.gc.mem obj i) = true)) :
    scan_field R obj i c rem = (c, rem) := by
  unfold scan_field
  simp only [Box.to_ptr]
  by_cases hp : Box.is_ptr (YHeader.get_field c.gc.mem obj i) = true
  · have hn : ¬ c.gc.in_nursery (YHeader.get_field c.gc.mem obj i) = true := fun hn => h ⟨hp, hn⟩
    rw [if_pos hp, if_neg hn]
  · rw [if_neg hp]

theorem scan_field_copy (R : Bool) (obj i : Nat) (c : Scan) (rem : Bool)
    (hp : Box.is_ptr (YHeader.get_field c.gc.mem obj i) = true)
    (hn : c.gc.in_nursery (YHeader.get_field c.gc.mem obj i) = true) :
    scan_field R obj i c rem
      = (⟨(copy_and_forward c (YHeader.get_field c.gc.mem obj i)).1.gc.set_mem
            (YHeader.set_field (copy_and_forward c (YHeader.get_field c.gc.mem obj i)).1.gc.mem
              obj i (Box.to_boxed_ptr (copy_and_forward c (YHeader.get_field c.gc.mem obj i)).2)),
          (copy_and_forward c (YHeader.get_field c.gc.mem obj i)).1.alloc_ptr,
          (copy_and_forward c (YHeader.get_field c.gc.mem obj i)).1.live_objects⟩,
         has_to_remember R
          ((copy_and_forward c (YHeader.get_field c.gc.mem obj i)).1.gc.set_mem
            (YHeader.set_field (copy_and_forward c (YHeader.get_field c.gc.mem obj i)).1.gc.mem
              obj i (Box.to_boxed_ptr (copy_and_forward c (YHeader.get_field c.gc.mem obj i)).2)))
          (copy_and_forward c (YHeader.get_field c.gc.mem obj i)).2 rem) := by
  unfold scan_field
  simp only [Box.to_ptr]
  rw [if_pos hp, if_pos hn]

/-- One iteration of the field loop on a field that still holds its original word. -/
theorem Inv.scan_field {s0 : GC} {N T : List Nat} {c : Scan} {F : List (Nat × Nat)}
    (hwf : s0.WF N T) (h : Inv s0 N T c F) {w0 : Nat × Nat} (hw0 : w0 ∈ owners T F)
    (hr : s0.copy_reachable w0.2) {i : Nat} (hi : scanned_index s0.mem w0.2 i)
    (hfresh : YHeader.get_field c.gc.mem w0.1 i = YHeader.get_field s0.mem w0.2 i)
    (R rem : Bool) :
    ∃ F', Step s0 N T w0 c F (scan_field R w0.1 i c rem).1 F'
      ∧ (Box.is_ptr (YHeader.get_field s0.mem w0.2 i) = true →
          s0.in_nursery (YHeader.get_field s0.mem w0.2 i) = true →
          (YHeader.get_field s0.mem w0.2 i,
            YHeader.get_field (scan_field R w0.1 i c rem).1.gc.mem w0.1 i) ∈ F')
      ∧ (¬ (Box.is_ptr (YHeader.get_field s0.mem w0.2 i) = true
            ∧ s0.in_nursery (YHeader.get_field s0.mem w0.2 i) = true) →
          YHeader.get_field (scan_field R w0.1 i c rem).1.gc.mem w0.1 i
            = YHeader.get_field s0.mem w0.2 i)
      ∧ (∀ j, j < YHeader.field_size (YHeader.header2 s0.mem w0.2) → j ≠ i →
          YHeader.get_field (scan_field R w0.1 i c rem).1.gc.mem w0.1 j
            = YHeader.get_field c.gc.mem w0.1 j)
      ∧ (scan_field R w0.1 i c rem).2
          = if Box.is_ptr (YHeader.get_field s0.mem w0.2 i) = true
                ∧ s0.in_nursery (YHeader.get_field s0.mem w0.2 i) = true then
              (if R then
                rem || s0.in_nursery
                  (YHeader.get_field (scan_field R w0.1 i c rem).1.gc.mem w0.1 i)
               else false)
            else rem := by
  have hin : c.gc.in_nursery (YHeader.get_field s0.mem w0.2 i)
      = s0.in_nursery (YHeader.get_field s0.mem w0.2 i) := in_nursery_frame h.frame _
  by_cases hc : Box.is_ptr (YHeader.get_field s0.mem w0.2 i) = true
      ∧ s0.in_nursery (YHeader.get_field s0.mem w0.2 i) = true
  · obtain ⟨hptr, hnur⟩ := hc
    rw [scan_field_copy R w0.1 i c rem (by rw [hfresh]; exact hptr)
      (by rw [hfresh, hin]; exact hnur), hfresh]
    have htgt := hwf.field_target (h.owner_orig w0 hw0) hi hptr hnur
    obtain ⟨F', hstep, hpair, hkept⟩ :=
      h.copy_and_forward hwf w0 htgt.1 (copy_reachable_step hr htgt.2)
    have hw0' : w0 ∈ owners T F' := by
      obtain ⟨G, e, _⟩ := hstep.grow
      rw [e]; exact owners_append_subset G hw0
    have hlt := (hstep.inv.new_addr hwf _ hpair).2.1
    rw [Box.to_boxed_ptr_of_lt _ hlt]
    obtain ⟨hstep2, hsame, hothers⟩ := hstep.inv.set_cell hwf hw0' hi hptr hnur hpair
    refine ⟨F', Step.compose hw0 hstep hstep2, ?_, ?_, ?_, ?_⟩
    · intro _ _
      simp only [set_mem_proj]
      rw [hsame]
      exact hpair
    · intro hn
      exact absurd ⟨hptr, hnur⟩ hn
    · intro j hj hne
      simp only [set_mem_proj]
      rw [hothers j hj hne]
      exact hkept w0 hw0 j hj
    · simp only [set_mem_proj]
      rw [hsame, if_pos ⟨hptr, hnur⟩]
      unfold has_to_remember
      rw [in_nursery_frame hstep2.inv.frame]
  · rw [scan_field_skip R w0.1 i c rem (by rw [hfresh, hin]; exact hc)]
    refine ⟨F, Step.refl w0 h, fun hp hn => absurd ⟨hp, hn⟩ hc, fun _ => hfresh,
      fun _ _ _ => rfl, ?_⟩
    rw [if_neg hc]

end GC
namespace GC

/-! ## Scanning the fields of one owner -/

theorem Step.owner_mono {s0 : GC} {N T : List Nat} {w0 : Nat × Nat} {c c' : Scan}
    {F F' : List (Nat × Nat)} (h : Step s0 N T w0 c F c' F') {w : Nat × Nat}
    (hw : w ∈ owners T F) : w ∈ owners T F' := by
  obtain ⟨G, e, _⟩ := h.grow
  rw [e]; exact owners_append_subset G hw

theorem Step.pair_mono {s0 : GC} {N T : List Nat} {w0 : Nat × Nat} {c c' : Scan}
    {F F' : List (Nat × Nat)} (h : Step s0 N T w0 c F c' F') {x : Nat × Nat}
    (hx : x ∈ F) : x ∈ F' := by
  obtain ⟨G, e, _⟩ := h.grow
  rw [e]; exact List.mem_append_right _ hx

theorem scan_fields_zero (R : Bool) (obj i : Nat) (st : Scan × Bool) :
    scan_fields R obj 0 i st = st := rfl

theorem scan_fields_succ (R : Bool) (obj k i : Nat) (st : Scan × Bool) :
    scan_fields R obj (k + 1) i st
      = scan_fields R obj k (i + 1) (scan_field R obj i st.1 st.2) := rfl

/-- The field loop from index `i` for `k` iterations on fields that still hold their
original words: every field in the range that pointed into the nursery is forwarded,
no other field of the owner changes, and the returned flag says whether one of the
forwarded fields still points into the nursery. -/
theorem Inv.scan_fields {s0 : GC} {N T : List Nat} (hwf : s0.WF N T) {w0 : Nat × Nat}
    (hr : s0.copy_reachable w0.2)
    (hbox : YHeader.has_boxed_value (YHeader.header1 s0.mem w0.2) = true) (R : Bool) :
    ∀ (k i : Nat) (c : Scan) (F : List (Nat × Nat)) (rem : Bool),
      Inv s0 N T c F → w0 ∈ owners T F →
      YHeader.unbox_size (YHeader.header1 s0.mem w0.2) ≤ i →
      i + k ≤ YHeader.field_size (YHeader.header2 s0.mem w0.2) →
      (∀ j, i ≤ j → j < i + k →
        YHeader.get_field c.gc.mem w0.1 j = YHeader.get_field s0.mem w0.2 j) →
      ∃ F', Step s0 N T w0 c F (GC.scan_fields R w0.1 k i (c, rem)).1 F'
        ∧ (∀ j, i ≤ j → j < i + k →
            Box.is_ptr (YHeader.get_field s0.mem w0.2 j) = true →
            s0.in_nursery (YHeader.get_field s0.mem w0.2 j) = true →
            (YHeader.get_field s0.mem w0.2 j,
              YHeader.get_field (GC.scan_fields R w0.1 k i (c, rem)).1.gc.mem w0.1 j) ∈ F')
        ∧ (∀ j, j < YHeader.field_size (YHeader.header2 s0.mem w0.2) → (j < i ∨ i + k ≤ j) →
            YHeader.get_field (GC.scan_fields R w0.1 k i (c, rem)).1.gc.mem w0.1 j
              = YHeader.get_field c.gc.mem w0.1 j)
        ∧ (R = true → ((GC.scan_fields R w0.1 k i (c, rem)).2 = true ↔
            rem = true
              ∨ still_young s0 (GC.scan_fields R w0.1 k i (c, rem)).1.gc.mem w0 i (i + k)))
        ∧ (R = false → rem = false → (GC.scan_fields R w0.1 k i (c, rem)).2 = false) := by
  intro k
  induction k with
  | zero =>
    intro i c F rem h hw0 _ _ _
    rw [scan_fields_zero]
    refine ⟨F, Step.refl w0 h, fun j h1 h2 => by omega, fun _ _ _ => rfl, ?_, fun _ hrem => hrem⟩
    intro _
    constructor
    · intro hrem; exact Or.inl hrem
    · rintro (hrem | ⟨j, h1, h2, _⟩)
      · exact hrem
      · omega
  | succ k ih =>
    intro i c F rem h hw0 hub hle hfresh
    rw [scan_fields_succ]
    simp only
    have hi : scanned_index s0.mem w0.2 i := ⟨hbox, hub, by omega⟩
    obtain ⟨F1, hstep1, hdone1, _, hoth1, hflag1⟩ :=
      h.scan_field hwf hw0 hr hi (hfresh i (le_refl _) (by omega)) R rem
    generalize GC.scan_field R w0.1 i c rem = st1 at hstep1 hdone1 hoth1 hflag1 ⊢
    obtain ⟨c1, rem1⟩ := st1
    simp only at hstep1 hdone1 hoth1 hflag1 ⊢
    have hw1 : w0 ∈ owners T F1 := hstep1.owner_mono hw0
    have hfresh1 : ∀ j, i + 1 ≤ j → j < i + 1 + k →
        YHeader.get_field c1.gc.mem w0.1 j = YHeader.get_field s0.mem w0.2 j := by
      intro j h1 h2
      rw [hoth1 j (by omega) (by omega)]
      exact hfresh j (by omega) (by omega)
    obtain ⟨F2, hstep2, hdone2, hoth2, hflagT, hflagF⟩ :=
      ih (i + 1) c1 F1 rem1 hstep1.inv hw1 (by omega) (by omega) hfresh1
    generalize GC.scan_fields R w0.1 k (i + 1) (c1, rem1) = st2
      at hstep2 hdone2 hoth2 hflagT hflagF ⊢
    obtain ⟨c2, rem2⟩ := st2
    simp only at hstep2 hdone2 hoth2 hflagT hflagF ⊢
    have hcur : YHeader.get_field c2.gc.mem w0.1 i = YHeader.get_field c1.gc.mem w0.1 i :=
      hoth2 i (by omega) (Or.inl (by omega))
    refine ⟨F2, Step.compose hw0 hstep1 hstep2, ?_, ?_, ?_, ?_⟩
    · intro j h1 h2 hp hn
      rcases Nat.eq_or_lt_of_le h1 with e | hlt
      · subst e
        rw [hcur]
        exact hstep2.pair_mono (hdone1 hp hn)
      · exact hdone2 j (by omega) (by omega) hp hn
    · intro j hj hout
      rw [hoth2 j hj (by omega), hoth1 j hj (by omega)]
    · intro hR
      rw [hflagT hR]
      constructor
      · rintro (h1 | ⟨j, h1, h2, h3, h4, h5⟩)
        · rw [hflag1] at h1
          by_cases hc : Box.is_ptr (YHeader.get_field s0.mem w0.2 i) = true
              ∧ s0.in_nursery (YHeader.get_field s0.mem w0.2 i) = true
          · rw [if_pos hc, if_pos hR, Bool.or_eq_true] at h1
            rcases h1 with h1 | h1
            · exact Or.inl h1
            · exact Or.inr ⟨i, le_refl _, by omega, hc.1, hc.2, by rw [hcur]; exact h1⟩
          · rw [if_neg hc] at h1
            exact Or.inl h1
        · exact Or.inr ⟨j, by omega, by omega, h3, h4, h5⟩
      · rintro (h1 | ⟨j, h1, h2, h3, h4, h5⟩)
        · left
          rw [hflag1]
          by_cases hc : Box.is_ptr (YHeader.get_field s0.mem w0.2 i) = true
              ∧ s0.in_nursery (YHeader.get_field s0.mem w0.2 i) = true
          · rw [if_pos hc, if_pos hR, Bool.or_eq_true]
            exact Or.inl h1
          · rw [if_neg hc]; exact h1
        · rcases Nat.eq_or_lt_of_le h1 with e | hlt
          · subst e
            left
            rw [hflag1, if_pos ⟨h3, h4⟩, if_pos hR, Bool.or_eq_true]
            right
            rw [← hcur]; exact h5
          · exact Or.inr ⟨j, by omega, by omega, h3, h4, h5⟩
    · intro hR hrem
      apply hflagF hR
      rw [hflag1]
      by_cases hc : Box.is_ptr (YHeader.get_field s0.mem w0.2 i) = true
          ∧ s0.in_nursery (YHeader.get_field s0.mem w0.2 i) = true
      · rw [if_pos hc, hR]; rfl
      · rw [if_neg hc]; exact hrem

end GC
namespace GC

/-! ## `scan_object` on an owner -/

/-- An owner has the layout of its original. -/
theorem Inv.owner_shape {s0 : GC} {N T : List Nat} {c : Scan} {F : List (Nat × Nat)}
    (h : Inv s0 N T c F) (w : Nat × Nat) (hw : w ∈ owners T F) :
    YHeader.has_boxed_value (YHeader.header1 c.gc.mem w.1)
        = YHeader.has_boxed_value (YHeader.header1 s0.mem w.2)
    ∧ YHeader.unbox_size (YHeader.header1 c.gc.mem w.1)
        = YHeader.unbox_size (YHeader.header1 s0.mem w.2)
    ∧ YHeader.field_size (YHeader.header2 c.gc.mem w.1)
        = YHeader.field_size (YHeader.header2 s0.mem w.2) := by
  have h2 := h.owner_h2 w hw
  rw [mem_owners] at hw
  rcases hw with ⟨ht, e⟩ | hx
  · have := YHeader.kind_congr (h.old_kind _ ht)
    rw [e]
    exact ⟨this.1, this.2.1, by rw [h2, e]⟩
  · have := YHeader.kind_congr (h.new_kind _ hx)
    simp only at this
    rw [YHeader.has_boxed_value_inc, YHeader.unbox_size_inc] at this
    exact ⟨this.1, this.2.1, by rw [h2]⟩

theorem scan_object_boxed (R : Bool) (c : Scan) (obj fsize : Nat)
    (h : YHeader.has_boxed_value (YHeader.header1 c.gc.mem obj) = true) :
    scan_object R c obj fsize
      = scan_fields R obj (fsize - YHeader.unbox_size (YHeader.header1 c.gc.mem obj))
          (YHeader.unbox_size (YHeader.header1 c.gc.mem obj)) (c, false) := by
  unfold scan_object
  rw [if_pos h]

theorem scan_object_unboxed (R : Bool) (c : Scan) (obj fsize : Nat)
    (h : ¬ YHeader.has_boxed_value (YHeader.header1 c.gc.mem obj) = true) :
    scan_object R c obj fsize = (c, false) := by
  unfold scan_object
  rw [if_neg h]

/-- `scan_object` on an owner whose fields still hold their original words: afterwards
the owner is scanned, and the returned flag says whether it still points into the
nursery. -/
theorem Inv.scan_object {s0 : GC} {N T : List Nat} {c : Scan} {F : List (Nat × Nat)}
    (hwf : s0.WF N T) (h : Inv s0 N T c F) {w0 : Nat × Nat} (hw0 : w0 ∈ owners T F)
    (hr : s0.copy_reachable w0.2) (hfresh : fresh s0 c.gc.mem w0) (R : Bool) :
    ∃ F', Step s0 N T w0 c F
        (GC.scan_object R c w0.1 (YHeader.field_size (YHeader.header2 c.gc.mem w0.1))).1 F'
      ∧ scanned s0
          (GC.scan_object R c w0.1 (YHeader.field_size (YHeader.header2 c.gc.mem w0.1))).1.gc.mem
          F' w0
      ∧ (R = true →
          ((GC.scan_object R c w0.1 (YHeader.field_size (YHeader.header2 c.gc.mem w0.1))).2 = true
            ↔ YHeader.has_boxed_value (YHeader.header1 s0.mem w0.2) = true
              ∧ still_young s0
                (GC.scan_object R c w0.1
                  (YHeader.field_size (YHeader.header2 c.gc.mem w0.1))).1.gc.mem w0
                (YHeader.unbox_size (YHeader.header1 s0.mem w0.2))
                (YHeader.field_size (YHeader.header2 s0.mem w0.2))))
      ∧ (R = false →
          (GC.scan_object R c w0.1 (YHeader.field_size (YHeader.header2 c.gc.mem w0.1))).2
            = false) := by
  obtain ⟨hb, hu, hf⟩ := h.owner_shape w0 hw0
  rw [hf]
  by_cases hbox : YHeader.has_boxed_value (YHeader.header1 s0.mem w0.2) = true
  · rw [scan_object_boxed R c w0.1 _ (by rw [hb]; exact hbox), hu]
    by_cases hle : YHeader.unbox_size (YHeader.header1 s0.mem w0.2)
        ≤ YHeader.field_size (YHeader.header2 s0.mem w0.2)
    · obtain ⟨F', hstep, hdone, _, hT, hF⟩ :=
        Inv.scan_fields hwf hr hbox R
          (YHeader.field_size (YHeader.header2 s0.mem w0.2)
            - YHeader.unbox_size (YHeader.header1 s0.mem w0.2))
          (YHeader.unbox_size (YHeader.header1 s0.mem w0.2)) c F false h hw0 (le_refl _)
          (by omega) (fun j h1 h2 => hfresh j ⟨hbox, h1, by omega⟩)
      have e : YHeader.unbox_size (YHeader.header1 s0.mem w0.2)
          + (YHeader.field_size (YHeader.header2 s0.mem w0.2)
            - YHeader.unbox_size (YHeader.header1 s0.mem w0.2))
          = YHeader.field_size (YHeader.header2 s0.mem w0.2) := by omega
      rw [e] at hdone hT
      refine ⟨F', hstep, ?_, ?_, fun hR => hF hR rfl⟩
      · intro j hj hp hn
        exact hdone j hj.2.1 hj.2.2 hp hn
      · intro hR
        rw [hT hR]
        constructor
        · rintro (h1 | h1)
          · cases h1
          · exact ⟨hbox, h1⟩
        · rintro ⟨_, h1⟩
          exact Or.inr h1
    · have e : YHeader.field_size (YHeader.header2 s0.mem w0.2)
          - YHeader.unbox_size (YHeader.header1 s0.mem w0.2) = 0 := by omega
      rw [e, scan_fields_zero]
      refine ⟨F, Step.refl w0 h, ?_, ?_, fun _ => rfl⟩
      · intro j hj
        have := hj.2.1
        have := hj.2.2
        omega
      · intro _
        constructor
        · intro h1; cases h1
        · rintro ⟨_, j, h1, h2, _⟩
          omega
  · rw [scan_object_unboxed R c w0.1 _ (by rw [hb]; exact hbox)]
    refine ⟨F, Step.refl w0 h, ?_, ?_, fun _ => rfl⟩
    · intro j hj
      exact absurd hj.1 hbox
    · intro _
      constructor
      · intro h1; cases h1
      · rintro ⟨h1, _⟩
        exact absurd h1 hbox

end GC
namespace GC

/-! ## Carrying the status of an owner across a stretch -/

theorem fresh_of_same {s0 : GC} {m m' : Mem} {w : Nat × Nat}
    (hs : ∀ i, i < YHeader.field_size (YHeader.header2 s0.mem w.2) →
      YHeader.get_field m' w.1 i = YHeader.get_field m w.1 i)
    (h : fresh s0 m w) : fresh s0 m' w := by
  intro i hi
  rw [hs i hi.2.2]
  exact h i hi

theorem scanned_of_same {s0 : GC} {m m' : Mem} {F F' : List (Nat × Nat)} {w : Nat × Nat}
    (hs : ∀ i, i < YHeader.field_size (YHeader.header2 s0.mem w.2) →
      YHeader.get_field m' w.1 i = YHeader.get_field m w.1 i)
    (hF : ∀ x ∈ F, x ∈ F') (h : scanned s0 m F w) : scanned s0 m' F' w := by
  intro i hi hp hn
  rw [hs i hi.2.2]
  exact hF _ (h i hi hp hn)

theorem keeps_young_of_same {s0 : GC} {m m' : Mem} {w : Nat × Nat}
    (hs : ∀ i, i < YHeader.field_size (YHeader.header2 s0.mem w.2) →
      YHeader.get_field m' w.1 i = YHeader.get_field m w.1 i) :
    keeps_young s0 m' w ↔ keeps_young s0 m w := by
  unfold keeps_young still_young
  constructor
  · rintro ⟨hb, j, h1, h2, h3, h4, h5⟩
    exact ⟨hb, j, h1, h2, h3, h4, by rw [← hs j h2]; exact h5⟩
  · rintro ⟨hb, j, h1, h2, h3, h4, h5⟩
    exact ⟨hb, j, h1, h2, h3, h4, by rw [hs j h2]; exact h5⟩

theorem chain_to_of_same {m m' : Mem} :
    ∀ (L : List Nat) (p q : Nat), (∀ n ∈ L, YHeader.header1 m' n = YHeader.header1 m n) →
      chain_to m p L q → chain_to m' p L q := by
  intro L
  induction L with
  | nil => intro p q _ h; exact h
  | cons n L ih =>
    intro p q hs h
    refine ⟨h.1, ?_⟩
    rw [hs n (List.mem_cons_self _ _)]
    exact ih _ _ (fun k hk => hs k (List.mem_cons_of_mem _ hk)) h.2

/-- A scanned field that is fresh and did not point into the nursery counts as scanned. -/
theorem scanned_of_fresh_old {s0 : GC} {N T : List Nat} (hwf : s0.WF N T) {m : Mem}
    {F : List (Nat × Nat)} {t : Nat} (ht : t ∈ T) (hn : t ∉ s0.remember_set) :
    scanned s0 m F (t, t) := by
  intro i hi hp hnur
  exact absurd (hwf.remembered_all t ht ⟨i, hi.2.2, hi.1, hi.2.1, hp, hnur⟩) hn

/-- The pairs of the invariant are distinct, and so are their copies. -/
theorem Inv.pairs_nodup {s0 : GC} {N T : List Nat} {c : Scan} {F : List (Nat × Nat)}
    (h : Inv s0 N T c F) : F.Nodup := List.Nodup.of_map _ h.keys_nodup

theorem Inv.snd_inj {s0 : GC} {N T : List Nat} {c : Scan} {F : List (Nat × Nat)}
    (hwf : s0.WF N T) (h : Inv s0 N T c F) {x y : Nat × Nat} (hx : x ∈ F) (hy : y ∈ F)
    (e : x.2 = y.2) : x = y := by
  have := h.owners_inj hwf (x.2, x.1) (y.2, y.1) (mem_owners.2 (Or.inr hx))
    (mem_owners.2 (Or.inr hy)) e
  obtain ⟨a, b⟩ := x
  obtain ⟨a', b'⟩ := y
  simp only [Prod.mk.injEq] at this ⊢
  exact ⟨this.2, this.1⟩

/-- A copy is not a tenured object. -/
theorem Inv.new_not_old {s0 : GC} {N T : List Nat} {c : Scan} {F : List (Nat × Nat)}
    (hwf : s0.WF N T) (h : Inv s0 N T c F) {x : Nat × Nat} (hx : x ∈ F) : x.2 ∉ T := by
  intro ht
  have e := h.owners_inj hwf (x.2, x.2) (x.2, x.1) (mem_owners.2 (Or.inl ⟨ht, rfl⟩))
    (mem_owners.2 (Or.inr hx)) rfl
  have e1 : x.2 = x.1 := by
    have := congrArg Prod.snd e
    exact this
  have h1 := hwf.in_nursery_old ht
  have h2 := hwf.in_nursery_young (h.keys_young x hx)
  rw [e1, h2] at h1
  cases h1

theorem mem_promoted_of (m : Mem) (G : List (Nat × Nat)) (n : Nat) :
    n ∈ promoted_of m G ↔ ∃ x ∈ G, promotes m x.1 = true ∧ x.2 = n := by
  unfold promoted_of
  rw [List.mem_map]
  constructor
  · rintro ⟨x, hx, e⟩
    rw [List.mem_filter, List.mem_reverse] at hx
    exact ⟨x, hx.1, hx.2, e⟩
  · rintro ⟨x, hx, hp, e⟩
    exact ⟨x, by rw [List.mem_filter, List.mem_reverse]; exact ⟨hx, hp⟩, e⟩

/-- After a stretch, the invariant's pairs split into new and old ones. -/
theorem Step.new_pair {s0 : GC} {N T : List Nat} {w0 : Nat × Nat} {c c' : Scan}
    {F F' : List (Nat × Nat)} (hwf : s0.WF N T) (h : Step s0 N T w0 c F c' F')
    {x : Nat × Nat} (hx : x ∈ F') (hn : x ∉ F) : (x.2, x.1) ∉ owners T F := by
  intro ho
  rw [mem_owners] at ho
  rcases ho with ⟨ht, _⟩ | hf
  · exact h.inv.new_not_old hwf hx ht
  · exact hn hf

/-- The pending promoted objects after a stretch. -/
theorem Step.pending {s0 : GC} {N T : List Nat} {w0 : Nat × Nat} {c c' : Scan}
    {F F' : List (Nat × Nat)} (hwf : s0.WF N T) (h : Step s0 N T w0 c F c' F')
    (hP : ∀ n ∈ c.gc.promoted_objects, ∃ x ∈ F, x.2 = n)
    (hnd : c.gc.promoted_objects.Nodup) :
    (∀ n, n ∈ c'.gc.promoted_objects ↔
      n ∈ c.gc.promoted_objects ∨ ∃ x ∈ F', x ∉ F ∧ promotes s0.mem x.1 = true ∧ x.2 = n)
    ∧ c'.gc.promoted_objects.Nodup := by
  obtain ⟨G, e, hp⟩ := h.grow
  have hnd' : F'.Nodup := h.inv.pairs_nodup
  rw [e] at hnd'
  have hdisj := List.disjoint_of_nodup_append hnd'
  have hmem : ∀ n, (∃ x ∈ G, promotes s0.mem x.1 = true ∧ x.2 = n)
      ↔ ∃ x ∈ F', x ∉ F ∧ promotes s0.mem x.1 = true ∧ x.2 = n := by
    intro n
    constructor
    · rintro ⟨x, hx, h1, h2⟩
      exact ⟨x, by rw [e]; exact List.mem_append_left _ hx, fun hf => hdisj hx hf, h1, h2⟩
    · rintro ⟨x, hx, hn, h1, h2⟩
      rw [e] at hx
      rcases List.mem_append.1 hx with hx | hx
      · exact ⟨x, hx, h1, h2⟩
      · exact absurd hx hn
  constructor
  · intro n
    rw [hp, List.mem_append, mem_promoted_of, hmem]
  · rw [hp]
    apply List.Nodup.append hnd
    · -- the copies of distinct pairs are distinct
      unfold promoted_of
      have h1 : (G.reverse.filter (fun x => promotes s0.mem x.1)).Nodup :=
        ((List.nodup_reverse.2 (List.Nodup.of_append_left hnd')).filter _)
      refine List.Nodup.map_on ?_ h1
      intro x hx y hy exy
      rw [List.mem_filter, List.mem_reverse] at hx hy
      exact h.inv.snd_inj hwf (by rw [e]; exact List.mem_append_left _ hx.1)
        (by rw [e]; exact List.mem_append_left _ hy.1) exy
    · intro n h1 h2
      obtain ⟨x, hx, ex⟩ := hP n h1
      obtain ⟨y, hy, _, ey⟩ := (mem_promoted_of _ _ _).1 h2
      have := h.inv.snd_inj hwf (x := x) (y := y) (by rw [e]; exact List.mem_append_right _ hx)
        (by rw [e]; exact List.mem_append_left _ hy) (by rw [ex, ey])
      subst this
      exact hdisj hy hx

theorem Step.suffix {s0 : GC} {N T : List Nat} {w0 : Nat × Nat} {c c' : Scan}
    {F F' : List (Nat × Nat)} (h : Step s0 N T w0 c F c' F') : F <:+ F' := by
  obtain ⟨G, hG, _⟩ := h.grow
  exact ⟨G, hG.symm⟩

end GC
namespace GC

/-! ## The shadow-stack loop -/

/-- The invariant only looks at the memory, the breaks and the registers. -/
theorem Inv.of_same {s0 : GC} {N T : List Nat} {c c' : Scan} {F : List (Nat × Nat)}
    (h : Inv s0 N T c F) (hm : c'.gc.mem = c.gc.mem) (hf : Frame c.gc c'.gc)
    (hb : c'.gc.heap_break = c.gc.heap_break)
    (ht : c'.gc.tenure_space_size = c.gc.tenure_space_size)
    (ha : c'.alloc_ptr = c.alloc_ptr) (hl : c'.live_objects = c.live_objects)
    (hp : ∀ q, q ∈ c'.gc.promoted_objects → q ∈ c.gc.promoted_objects) :
    Inv s0 N T c' F := by
  constructor
  · exact Frame.trans h.frame hf
  · rw [hl]; exact h.live
  · exact h.keys_nodup
  · exact h.keys_young
  · exact h.reach
  · exact h.is_placed
  · rw [ha]; exact h.alloc
  · rw [hb]; exact h.brk
  · rw [ht]; exact h.tenure_size
  · rw [hm]; exact h.young_h1
  · rw [hm]; exact h.young_fwd
  · rw [hm]; exact h.young_body
  · rw [hm]; exact h.new_kind
  · rw [hm]; exact h.new_h1
  · rw [hm]; exact h.old_kind
  · rw [hm]; exact h.owner_h2
  · rw [hm]; exact h.cells
  · rw [hm]; exact h.new_mark
  · rw [hm]; exact fun x hx hq => h.pend_rem x hx (hp _ hq)

theorem scan_shadow_step_skip (c : Scan) (i : Nat)
    (h : ¬ c.gc.in_nursery (c.gc.shadow_stack.getD i 0) = true) : scan_shadow_step c i = c := by
  unfold scan_shadow_step
  simp only
  rw [if_neg h]

theorem scan_shadow_step_copy (c : Scan) (i : Nat)
    (h : c.gc.in_nursery (c.gc.shadow_stack.getD i 0) = true) :
    scan_shadow_step c i
      = ⟨(copy_and_forward c (c.gc.shadow_stack.getD i 0)).1.gc.set_shadow_stack
            ((copy_and_forward c (c.gc.shadow_stack.getD i 0)).1.gc.shadow_stack.set i
              (copy_and_forward c (c.gc.shadow_stack.getD i 0)).2),
          (copy_and_forward c (c.gc.shadow_stack.getD i 0)).1.alloc_ptr,
          (copy_and_forward c (c.gc.shadow_stack.getD i 0)).1.live_objects⟩ := by
  unfold scan_shadow_step
  simp only
  rw [if_pos h]

theorem getD_set_same (l : List Nat) (i v : Nat) (h : i < l.length) :
    (l.set i v).getD i 0 = v := by
  rw [List.getD_eq_getElem _ _ (by rw [List.length_set]; exact h)]
  exact List.getElem_set_self _

theorem getD_set_other (l : List Nat) (i j v : Nat) (h : i ≠ j) :
    (l.set i v).getD j 0 = l.getD j 0 := by
  simp only [List.getD_eq_getElem?_getD]
  rw [List.getElem?_set_ne h]

/-- One iteration of the shadow-stack loop. -/
theorem Phase.shadow_step {s0 : GC} {N T : List Nat} {c : Scan} {F : List (Nat × Nat)}
    {i krs : Nat} {D : List (Nat × Nat)} {Lk Q : List Nat}
    (hwf : s0.WF N T) (h : Phase s0 N T c F (i + 1) krs D Lk Q)
    (hi : i < (s0.stack_top + 1).toNat) :
    ∃ F', Phase s0 N T (GC.scan_shadow_step c i) F' i krs D Lk Q ∧ F <:+ F' := by
  have hsh : c.gc.shadow_stack.getD i 0 = s0.shadow_stack.getD i 0 := h.sh_todo i (by omega)
  have hin : c.gc.in_nursery (s0.shadow_stack.getD i 0)
      = s0.in_nursery (s0.shadow_stack.getD i 0) := in_nursery_frame h.inv.frame _
  by_cases hn : s0.in_nursery (s0.shadow_stack.getD i 0) = true
  · rw [scan_shadow_step_copy c i (by rw [hsh, hin]; exact hn), hsh]
    have hpN : s0.shadow_stack.getD i 0 ∈ N :=
      hwf.young_of_in_nursery (hwf.roots_closed i hi) hn
    have hp0 : s0.shadow_stack.getD i 0 ≠ 0 := by
      have := hwf.nursery_pos
      rw [in_nursery_iff] at hn
      omega
    have hreach : s0.copy_reachable (s0.shadow_stack.getD i 0) :=
      ⟨_, ⟨hp0, Or.inl ⟨i, hi, rfl⟩⟩, Relation.ReflTransGen.refl⟩
    obtain ⟨F', hstep, hpair, hkept⟩ := h.inv.copy_and_forward hwf (0, 0) hpN hreach
    generalize copy_and_forward c (s0.shadow_stack.getD i 0) = r at hstep hpair hkept ⊢
    obtain ⟨c1, n⟩ := r
    simp only at hstep hpair hkept ⊢
    have hmono : ∀ x ∈ F, x ∈ F' := fun x hx => hstep.pair_mono hx
    have hilen : i < c1.gc.shadow_stack.length := by
      rw [hstep.inv.frame.shadow_length]
      have := hwf.stack_fits
      omega
    have hhead : ∀ w ∈ owners T F, YHeader.header1 c1.gc.mem w.1 = YHeader.header1 c.gc.mem w.1 := by
      intro w hw
      have := hstep.kept_head w hw 1 (by omega)
      simpa [YHeader.header1] using this
    have hpend := hstep.pending hwf
      (fun n hn => by
        obtain ⟨x, hx, _, _, e⟩ := (h.pending n).1 hn
        exact ⟨x, hx, e⟩) h.pending_nodup
    refine ⟨F', ?_, hstep.suffix⟩
    constructor
    · exact hstep.inv.of_same (by simp) (by constructor <;> simp) (by simp) (by simp) rfl rfl
        (by simp)
    · intro j hj
      simp only [set_shadow_stack_proj]
      rw [getD_set_other _ _ _ _ (by omega), hstep.shadow]
      exact h.sh_todo j (by omega)
    · intro j hj1 hj2
      simp only [set_shadow_stack_proj]
      rcases Nat.eq_or_lt_of_le hj1 with e | hlt
      · subst e
        rw [getD_set_same _ _ _ hilen]
        exact ⟨fun _ => hpair, fun hf => by rw [hn] at hf; cases hf⟩
      · rw [getD_set_other _ _ _ _ (by omega), hstep.shadow]
        have := h.sh_done j (by omega) hj2
        exact ⟨fun h1 => hmono _ (this.1 h1), this.2⟩
    · intro j hj
      simp only [set_shadow_stack_proj]
      rw [getD_set_other _ _ _ _ (by omega), hstep.shadow]
      exact h.sh_rest j hj
    · simp only [set_shadow_stack_proj]
      rw [hstep.remember]; exact h.rs_len
    · intro j hj
      simp only [set_shadow_stack_proj]
      rw [hstep.remember]; exact h.rs_new j hj
    · intro j hj
      simp only [set_shadow_stack_proj]
      rw [hstep.remember]; exact h.rs_todo j hj
    · intro j hj1 hj2
      simp only [set_shadow_stack_proj]
      rw [hstep.remember]
      have := h.rs_done j hj1 hj2
      refine ⟨this.1, fun h0 => ?_⟩
      have ht : s0.remember_set.getD j 0 ∈ T := by
        have hm : s0.remember_set.getD j 0 ∈ s0.remember_set := by
          rw [List.getD_eq_getElem _ _ hj2]
          exact List.getElem_mem _
        rcases hwf.remembered_old _ hm with h1 | h1
        · exact absurd h1 h0
        · exact h1
      have hw : (s0.remember_set.getD j 0, s0.remember_set.getD j 0) ∈ owners T F :=
        mem_owners.2 (Or.inl ⟨ht, rfl⟩)
      have hs := hkept _ hw
      obtain ⟨h1, h2, h3⟩ := this.2 h0
      refine ⟨scanned_of_same hs hmono h1, ?_, ?_⟩
      · rw [h2]; exact (keeps_young_of_same hs).symm
      · exact (hhead _ hw).trans h3
    · intro t ht hj
      have hw : (t, t) ∈ owners T F := mem_owners.2 (Or.inl ⟨ht, rfl⟩)
      have := h.old_fresh t ht hj
      exact ⟨fresh_of_same (hkept _ hw) this.1, (hhead _ hw).trans this.2⟩
    · exact fun x hx => hmono x (h.done_sub x hx)
    · exact h.done_nodup
    · intro x hx
      have hw : (x.2, x.1) ∈ owners T F := mem_owners.2 (Or.inr (h.done_sub x hx))
      exact scanned_of_same (hkept _ hw) hmono (h.new_scanned x hx)
    · intro x hx hd
      by_cases hxF : x ∈ F
      · have hw : (x.2, x.1) ∈ owners T F := mem_owners.2 (Or.inr hxF)
        exact fresh_of_same (hkept _ hw) (h.new_fresh x hxF hd)
      · exact hstep.fresh_new _ (mem_owners.2 (Or.inr hx)) (hstep.new_pair hwf hx hxF)
    · intro n
      simp only [set_shadow_stack_proj]
      rw [hpend.1 n, h.pending n]
      constructor
      · rintro (⟨x, hx, h1, h2, h3⟩ | ⟨x, hx, h1, h2, h3⟩)
        · exact ⟨x, hmono x hx, h1, h2, h3⟩
        · exact ⟨x, hx, fun hd => h1 (h.done_sub x hd), h2, h3⟩
      · rintro ⟨x, hx, h1, h2, h3⟩
        by_cases hxF : x ∈ F
        · exact Or.inl ⟨x, hxF, h1, h2, h3⟩
        · exact Or.inr ⟨x, hx, hxF, h2, h3⟩
    · simp only [set_shadow_stack_proj]
      exact hpend.2
    · simp only [set_shadow_stack_proj]
      rw [hstep.tenure]
      refine chain_to_of_same Lk _ _ ?_ h.chain
      intro n hn
      obtain ⟨x, hx, _, e⟩ := (h.linked n).1 hn
      have := hhead (x.2, x.1) (mem_owners.2 (Or.inr (h.done_sub x hx)))
      rw [← e]; exact this
    · exact h.linked
    · intro n
      rw [h.q_mem n]
      constructor
      · rintro ⟨x, hx, h1, h2, h3⟩
        exact ⟨x, hx, h1, h2,
          (keeps_young_of_same (hkept _ (mem_owners.2 (Or.inr (h.done_sub x hx))))).2 h3⟩
      · rintro ⟨x, hx, h1, h2, h3⟩
        exact ⟨x, hx, h1, h2,
          (keeps_young_of_same (hkept _ (mem_owners.2 (Or.inr (h.done_sub x hx))))).1 h3⟩
    · exact h.q_nodup
    · intro x hx hpr
      simp only [set_shadow_stack_proj]
      rw [hhead (x.2, x.1) (mem_owners.2 (Or.inr (h.done_sub x hx)))]
      exact h.q_bit x hx hpr
  · rw [scan_shadow_step_skip c i (by rw [hsh, hin]; exact hn)]
    refine ⟨F, ?_, List.suffix_refl F⟩
    have hnf : s0.in_nursery (s0.shadow_stack.getD i 0) = false := by
      cases hb : s0.in_nursery (s0.shadow_stack.getD i 0)
      · rfl
      · exact absurd hb hn
    exact { h with
      sh_todo := fun j hj => h.sh_todo j (by omega)
      sh_done := fun j hj1 hj2 => by
        rcases Nat.eq_or_lt_of_le hj1 with e | hlt
        · subst e
          exact ⟨fun h1 => absurd h1 hn, fun _ => hsh⟩
        · exact h.sh_done j (by omega) hj2 }

end GC
namespace GC

/-! ## What a stretch leaves alone -/

theorem WF.remembered_mem {s0 : GC} {N T : List Nat} (hwf : s0.WF N T) {j : Nat}
    (hj : j < s0.remember_set.length) (h0 : s0.remember_set.getD j 0 ≠ 0) :
    s0.remember_set.getD j 0 ∈ T ∧ s0.remember_set.getD j 0 ∈ s0.remember_set := by
  have hm : s0.remember_set.getD j 0 ∈ s0.remember_set := by
    rw [List.getD_eq_getElem _ _ hj]
    exact List.getElem_mem _
  rcases hwf.remembered_old _ hm with h1 | h1
  · exact absurd h1 h0
  · exact ⟨h1, hm⟩

/-- The statuses that a stretch rewriting only fields of `w0` carries over. -/
theorem Phase.carry {s0 : GC} {N T : List Nat} {c : Scan} {F : List (Nat × Nat)}
    {ksh krs : Nat} {D : List (Nat × Nat)} {Lk Q : List Nat}
    (hwf : s0.WF N T) (h : Phase s0 N T c F ksh krs D Lk Q)
    {w0 : Nat × Nat} {c0 c1 : Scan} {F1 : List (Nat × Nat)}
    (hm : c0.gc.mem = c.gc.mem) (hstep : Step s0 N T w0 c0 F c1 F1) :
    (∀ x ∈ F, x ∈ F1)
    ∧ (∀ w ∈ owners T F, YHeader.header1 c1.gc.mem w.1 = YHeader.header1 c.gc.mem w.1)
    ∧ (∀ j, krs ≤ j → j < s0.remember_set.length → s0.remember_set.getD j 0 ≠ 0 →
        (s0.remember_set.getD j 0, s0.remember_set.getD j 0) ≠ w0 →
        scanned s0 c1.gc.mem F1 (s0.remember_set.getD j 0, s0.remember_set.getD j 0)
        ∧ (keeps_young s0 c1.gc.mem (s0.remember_set.getD j 0, s0.remember_set.getD j 0)
            ↔ keeps_young s0 c.gc.mem (s0.remember_set.getD j 0, s0.remember_set.getD j 0)))
    ∧ (∀ t ∈ T, (t, t) ≠ w0 → fresh s0 c.gc.mem (t, t) → fresh s0 c1.gc.mem (t, t))
    ∧ (∀ x ∈ D, (x.2, x.1) ≠ w0 →
        scanned s0 c1.gc.mem F1 (x.2, x.1)
        ∧ (keeps_young s0 c1.gc.mem (x.2, x.1) ↔ keeps_young s0 c.gc.mem (x.2, x.1)))
    ∧ (∀ x ∈ F1, x ∉ D → (x.2, x.1) ≠ w0 → fresh s0 c1.gc.mem (x.2, x.1))
    ∧ chain_to c1.gc.mem c.gc.tenure_space Lk s0.tenure_space := by
  have hmono : ∀ x ∈ F, x ∈ F1 := fun x hx => hstep.pair_mono hx
  have hhead : ∀ w ∈ owners T F,
      YHeader.header1 c1.gc.mem w.1 = YHeader.header1 c.gc.mem w.1 := by
    intro w hw
    have := hstep.kept_head w hw 1 (by omega)
    rw [hm] at this
    simpa [YHeader.header1] using this
  have hcells : ∀ w ∈ owners T F, w ≠ w0 →
      ∀ i, i < YHeader.field_size (YHeader.header2 s0.mem w.2) →
        YHeader.get_field c1.gc.mem w.1 i = YHeader.get_field c.gc.mem w.1 i := by
    intro w hw hne i hi
    have := hstep.kept_cells w hw hne i hi
    rw [hm] at this
    exact this
  refine ⟨hmono, hhead, ?_, ?_, ?_, ?_, ?_⟩
  · intro j hj1 hj2 h0 hne
    have ht := (hwf.remembered_mem hj2 h0).1
    have hw : (s0.remember_set.getD j 0, s0.remember_set.getD j 0) ∈ owners T F :=
      mem_owners.2 (Or.inl ⟨ht, rfl⟩)
    exact ⟨scanned_of_same (hcells _ hw hne) hmono ((h.rs_done j hj1 hj2).2 h0).1,
      keeps_young_of_same (hcells _ hw hne)⟩
  · intro t ht hne hf
    exact fresh_of_same (hcells _ (mem_owners.2 (Or.inl ⟨ht, rfl⟩)) hne) hf
  · intro x hx hne
    have hw : (x.2, x.1) ∈ owners T F := mem_owners.2 (Or.inr (h.done_sub x hx))
    exact ⟨scanned_of_same (hcells _ hw hne) hmono (h.new_scanned x hx),
      keeps_young_of_same (hcells _ hw hne)⟩
  · intro x hx hd hne
    by_cases hxF : x ∈ F
    · have hw : (x.2, x.1) ∈ owners T F := mem_owners.2 (Or.inr hxF)
      exact fresh_of_same (hcells _ hw hne) (h.new_fresh x hxF hd)
    · exact hstep.fresh_new _ (mem_owners.2 (Or.inr hx)) (hstep.new_pair hwf hx hxF)
  · refine chain_to_of_same Lk _ _ ?_ h.chain
    intro n hn
    obtain ⟨x, hx, _, e⟩ := (h.linked n).1 hn
    have := hhead (x.2, x.1) (mem_owners.2 (Or.inr (h.done_sub x hx)))
    rw [← e]; exact this

/-! ## Rewriting the first header word of a tenured or promoted owner -/

/-- A store to `header1` of a tenured object or a promoted copy that keeps its type, unbox
size and generation keeps the invariant, and writes no other word. -/
theorem Inv.put_head {s0 : GC} {N T : List Nat} {c : Scan} {F : List (Nat × Nat)}
    (hwf : s0.WF N T) (h : Inv s0 N T c F) {w0 : Nat × Nat} (hw0 : w0 ∈ owners T F)
    (hold : s0.in_nursery w0.1 = false) (v : Nat)
    (hk : YHeader.kind v = YHeader.kind (YHeader.header1 c.gc.mem w0.1))
    (hmk : YHeader.gc_mark v = YHeader.gc_mark (YHeader.header1 c.gc.mem w0.1))
    (hrem : w0.1 ∈ c.gc.promoted_objects →
      YHeader.gc_remember v = YHeader.gc_remember (YHeader.header1 c.gc.mem w0.1)) :
    Inv s0 N T ⟨c.gc.set_mem (YHeader.put_header1 c.gc.mem w0.1 v), c.alloc_ptr,
      c.live_objects⟩ F
    ∧ (∀ a, a ≠ w0.1 + 8 → YHeader.put_header1 c.gc.mem w0.1 v a = c.gc.mem a)
    ∧ (∀ w ∈ owners T F, ∀ j, j < object_words s0.mem w.2 → (w ≠ w0 ∨ j ≠ 1) →
        YHeader.put_header1 c.gc.mem w0.1 v (w.1 + 8 * j) = c.gc.mem (w.1 + 8 * j)) := by
  have hu := (used_le hwf _ h.keys_nodup h.keys_young).1
  have hsemi := hwf.semi_spaces
  have hnend := hwf.nursery_end
  have hab := hwf.heap_above
  have hpos := hwf.nursery_pos
  have hz0 := owners_zone hwf F h.is_placed w0 hw0
  have hb0 := object_bytes_eq s0.mem w0.2
  have hnur := hold
  have hnur' : ¬ (s0.nursery_space ≤ w0.1 ∧ w0.1 < s0.nursery_space_end) := by
    rw [← in_nursery_iff, hold]; simp
  have hoth : ∀ a, a ≠ w0.1 + 8 → YHeader.put_header1 c.gc.mem w0.1 v a = c.gc.mem a :=
    fun a ha => Mem.write_other _ _ _ _ ha
  have hown : ∀ w ∈ owners T F, ∀ j, j < object_words s0.mem w.2 → (w ≠ w0 ∨ j ≠ 1) →
      YHeader.put_header1 c.gc.mem w0.1 v (w.1 + 8 * j) = c.gc.mem (w.1 + 8 * j) := by
    intro w hw j hj hne
    have hbw := object_bytes_eq s0.mem w.2
    have hww := object_words_eq s0.mem w.2
    apply hoth
    by_cases e : w = w0
    · subst e
      rcases hne with hne | hne
      · exact absurd rfl hne
      · omega
    · have := h.owners_apart hwf w w0 hw hw0 e
      omega
  have hyoung : ∀ o ∈ N, ∀ j, j < object_words s0.mem o →
      YHeader.put_header1 c.gc.mem w0.1 v (o + 8 * j) = c.gc.mem (o + 8 * j) := by
    intro o ho j hj
    have hoz := hwf.young_in_space o ho
    have hbo := object_bytes_eq s0.mem o
    have hwo := object_words_eq s0.mem o
    apply hoth
    omega
  have hsame : YHeader.header1 (YHeader.put_header1 c.gc.mem w0.1 v) w0.1 = v := by
    unfold YHeader.header1 YHeader.put_header1
    exact Mem.write_same _ _ _
  have hhead : ∀ w ∈ owners T F, w ≠ w0 →
      YHeader.header1 (YHeader.put_header1 c.gc.mem w0.1 v) w.1 = YHeader.header1 c.gc.mem w.1 := by
    intro w hw hne
    have := hown w hw 1 (by rw [object_words_eq]; omega) (Or.inl hne)
    simpa [YHeader.header1] using this
  refine ⟨?_, hoth, hown⟩
  constructor
  · exact Frame.trans h.frame (by constructor <;> simp)
  · exact h.live
  · exact h.keys_nodup
  · exact h.keys_young
  · exact h.reach
  · exact h.is_placed
  · exact h.alloc
  · exact h.brk
  · exact h.tenure_size
  · intro o ho hk'
    have := hyoung o ho 1 (by rw [object_words_eq]; omega)
    simp only [YHeader.header1, set_mem_proj] at this ⊢
    rw [this]
    exact h.young_h1 o ho hk'
  · intro x hx
    have := hyoung x.1 (h.keys_young x hx) 1 (by rw [object_words_eq]; omega)
    simp only [YHeader.header1, set_mem_proj] at this ⊢
    rw [this]
    exact h.young_fwd x hx
  · intro o ho j hj2 hj
    simp only [set_mem_proj]
    rw [hyoung o ho j hj]
    exact h.young_body o ho j hj2 hj
  · intro x hx
    simp only [set_mem_proj]
    by_cases e : (x.2, x.1) = w0
    · have e1 : x.2 = w0.1 := by rw [← e]
      rw [e1, hsame, hk, ← e1]
      exact h.new_kind x hx
    · rw [hhead _ (mem_owners.2 (Or.inr hx)) e]
      exact h.new_kind x hx
  · intro x hx hpr
    simp only [set_mem_proj]
    have e : (x.2, x.1) ≠ w0 := by
      intro e
      have e1 : x.2 = w0.1 := by rw [← e]
      have := ((h.new_addr hwf x hx).2.2.1).2 hpr
      rw [e1, hold] at this
      cases this
    rw [hhead _ (mem_owners.2 (Or.inr hx)) e]
    exact h.new_h1 x hx hpr
  · intro t ht
    simp only [set_mem_proj]
    by_cases e : (t, t) = w0
    · have e1 : t = w0.1 := by rw [← e]
      rw [e1, hsame, hk, ← e1]
      exact h.old_kind t ht
    · rw [hhead _ (mem_owners.2 (Or.inl ⟨ht, rfl⟩)) e]
      exact h.old_kind t ht
  · intro w hw
    have := hown w hw 2 (by rw [object_words_eq]; omega) (Or.inr (by omega))
    simp only [YHeader.header2, set_mem_proj] at this ⊢
    rw [this]
    exact h.owner_h2 w hw
  · intro w hw j hj
    have hj3 := hj.2.2
    have e : YHeader.get_field (YHeader.put_header1 c.gc.mem w0.1 v) w.1 j
        = YHeader.get_field c.gc.mem w.1 j := by
      unfold YHeader.get_field
      rw [field_addr_small _ _ _ _ hj3]
      exact hown w hw _ (by rw [object_words_eq]; omega) (Or.inr (by omega))
    simp only [set_mem_proj]
    rw [e]
    exact h.cells w hw j hj
  · intro x hx
    simp only [set_mem_proj]
    by_cases e : (x.2, x.1) = w0
    · have e1 : x.2 = w0.1 := by rw [← e]
      rw [e1, hsame, hmk, ← e1]
      exact h.new_mark x hx
    · rw [hhead _ (mem_owners.2 (Or.inr hx)) e]
      exact h.new_mark x hx
  · intro x hx hq
    simp only [set_mem_proj] at hq ⊢
    by_cases e : (x.2, x.1) = w0
    · have e1 : x.2 = w0.1 := by rw [← e]
      rw [e1, hsame, hrem (e1 ▸ hq), ← e1]
      exact h.pend_rem x hx hq
    · rw [hhead _ (mem_owners.2 (Or.inr hx)) e]
      exact h.pend_rem x hx hq

end GC
namespace GC

theorem WF.remembered_index {s0 : GC} {N T : List Nat} (hwf : s0.WF N T) {i j : Nat}
    (hi : i < s0.remember_set.length) (hj : j < s0.remember_set.length)
    (h0 : s0.remember_set.getD i 0 ≠ 0)
    (e : s0.remember_set.getD i 0 = s0.remember_set.getD j 0) : i = j := by
  have hp := List.pairwise_iff_getElem.1 hwf.remembered_nodup
  rw [List.getD_eq_getElem _ _ hi] at h0 e
  rw [List.getD_eq_getElem _ _ hj] at e
  rcases Nat.lt_trichotomy i j with h | h | h
  · exact absurd e (hp i j hi hj h h0)
  · exact h
  · exact absurd e.symm (hp j i hj hi h (by rw [← e]; exact h0))

/-- The statuses carried over a stretch followed by stores that leave the fields of every
owner, and the first header word of every owner but `w0`, as they were. -/
theorem Phase.carry2 {s0 : GC} {N T : List Nat} {c : Scan} {F : List (Nat × Nat)}
    {ksh krs : Nat} {D : List (Nat × Nat)} {Lk Q : List Nat}
    (hwf : s0.WF N T) (h : Phase s0 N T c F ksh krs D Lk Q)
    {w0 : Nat × Nat} {c0 c1 : Scan} {F1 : List (Nat × Nat)}
    (hm : c0.gc.mem = c.gc.mem) (hstep : Step s0 N T w0 c0 F c1 F1) (m2 : Mem)
    (hcell2 : ∀ w ∈ owners T F1, ∀ i, i < YHeader.field_size (YHeader.header2 s0.mem w.2) →
      YHeader.get_field m2 w.1 i = YHeader.get_field c1.gc.mem w.1 i)
    (hhead2 : ∀ w ∈ owners T F1, w ≠ w0 →
      YHeader.header1 m2 w.1 = YHeader.header1 c1.gc.mem w.1) :
    (∀ x ∈ F, x ∈ F1)
    ∧ (∀ w ∈ owners T F, w ≠ w0 → YHeader.header1 m2 w.1 = YHeader.header1 c.gc.mem w.1)
    ∧ (∀ j, krs ≤ j → j < s0.remember_set.length → s0.remember_set.getD j 0 ≠ 0 →
        (s0.remember_set.getD j 0, s0.remember_set.getD j 0) ≠ w0 →
        scanned s0 m2 F1 (s0.remember_set.getD j 0, s0.remember_set.getD j 0)
        ∧ (keeps_young s0 m2 (s0.remember_set.getD j 0, s0.remember_set.getD j 0)
            ↔ keeps_young s0 c.gc.mem (s0.remember_set.getD j 0, s0.remember_set.getD j 0)))
    ∧ (∀ t ∈ T, (t, t) ≠ w0 → fresh s0 c.gc.mem (t, t) → fresh s0 m2 (t, t))
    ∧ (∀ x ∈ D, (x.2, x.1) ≠ w0 →
        scanned s0 m2 F1 (x.2, x.1)
        ∧ (keeps_young s0 m2 (x.2, x.1) ↔ keeps_young s0 c.gc.mem (x.2, x.1)))
    ∧ (∀ x ∈ F1, x ∉ D → (x.2, x.1) ≠ w0 → fresh s0 m2 (x.2, x.1))
    ∧ (∀ n ∈ Lk, (∀ x ∈ F, x.2 = n → (x.2, x.1) ≠ w0) →
        YHeader.header1 m2 n = YHeader.header1 c.gc.mem n) := by
  obtain ⟨hmono, hhead, hold, hfr, hdn, hnf, _⟩ := h.carry hwf hm hstep
  have hsub : ∀ w, w ∈ owners T F → w ∈ owners T F1 := fun w hw => hstep.owner_mono hw
  refine ⟨hmono, ?_, ?_, ?_, ?_, ?_, ?_⟩
  · intro w hw hne
    rw [hhead2 w (hsub w hw) hne]
    exact hhead w hw
  · intro j hj1 hj2 h0 hne
    have ht := (hwf.remembered_mem hj2 h0).1
    have hw : (s0.remember_set.getD j 0, s0.remember_set.getD j 0) ∈ owners T F1 :=
      mem_owners.2 (Or.inl ⟨ht, rfl⟩)
    obtain ⟨h1, h2⟩ := hold j hj1 hj2 h0 hne
    exact ⟨scanned_of_same (hcell2 _ hw) (fun x hx => hx) h1,
      (keeps_young_of_same (hcell2 _ hw)).trans h2⟩
  · intro t ht hne hf
    exact fresh_of_same (hcell2 _ (mem_owners.2 (Or.inl ⟨ht, rfl⟩))) (hfr t ht hne hf)
  · intro x hx hne
    have hw : (x.2, x.1) ∈ owners T F1 := mem_owners.2 (Or.inr (hmono x (h.done_sub x hx)))
    obtain ⟨h1, h2⟩ := hdn x hx hne
    exact ⟨scanned_of_same (hcell2 _ hw) (fun x hx => hx) h1,
      (keeps_young_of_same (hcell2 _ hw)).trans h2⟩
  · intro x hx hd hne
    exact fresh_of_same (hcell2 _ (mem_owners.2 (Or.inr hx))) (hnf x hx hd hne)
  · intro n hn hne
    obtain ⟨x, hx, _, e⟩ := (h.linked n).1 hn
    have hxF := h.done_sub x hx
    have hw : (x.2, x.1) ∈ owners T F := mem_owners.2 (Or.inr hxF)
    have h1 := hhead2 _ (hsub _ hw) (hne x hxF e)
    have h2 := hhead _ hw
    rw [← e]
    exact h1.trans h2

end GC
namespace GC

theorem scan_remember_step_null (c : Scan) (i : Nat)
    (h : c.gc.remember_set.getD i 0 = 0) : scan_remember_step c i = c := by
  unfold scan_remember_step
  simp only [h, ne_eq, not_true_eq_false, if_false]

theorem scan_remember_step_keep (c : Scan) (i : Nat)
    (h : c.gc.remember_set.getD i 0 ≠ 0)
    (hf : (scan_object true c (c.gc.remember_set.getD i 0)
      (YHeader.field_size (YHeader.header2 c.gc.mem (c.gc.remember_set.getD i 0)))).2 = true) :
    scan_remember_step c i
      = (scan_object true c (c.gc.remember_set.getD i 0)
          (YHeader.field_size (YHeader.header2 c.gc.mem (c.gc.remember_set.getD i 0)))).1 := by
  unfold scan_remember_step
  simp only [h, ne_eq, not_false_eq_true, if_true, hf]

theorem scan_remember_step_drop (c : Scan) (i : Nat)
    (h : c.gc.remember_set.getD i 0 ≠ 0)
    (hf : (scan_object true c (c.gc.remember_set.getD i 0)
      (YHeader.field_size (YHeader.header2 c.gc.mem (c.gc.remember_set.getD i 0)))).2 = false) :
    scan_remember_step c i
      = ⟨((scan_object true c (c.gc.remember_set.getD i 0)
          (YHeader.field_size (YHeader.header2 c.gc.mem (c.gc.remember_set.getD i 0)))).1.gc.set_mem
          (YHeader.put_header1 (scan_object true c (c.gc.remember_set.getD i 0)
              (YHeader.field_size
                (YHeader.header2 c.gc.mem (c.gc.remember_set.getD i 0)))).1.gc.mem
            (c.gc.remember_set.getD i 0)
            (YHeader.reset_gc_remember (YHeader.header1 (scan_object true c
              (c.gc.remember_set.getD i 0)
              (YHeader.field_size
                (YHeader.header2 c.gc.mem (c.gc.remember_set.getD i 0)))).1.gc.mem
              (c.gc.remember_set.getD i 0))))).set_remember_set
          ((scan_object true c (c.gc.remember_set.getD i 0)
            (YHeader.field_size
              (YHeader.header2 c.gc.mem (c.gc.remember_set.getD i 0)))).1.gc.remember_set.set i 0),
        (scan_object true c (c.gc.remember_set.getD i 0)
          (YHeader.field_size
            (YHeader.header2 c.gc.mem (c.gc.remember_set.getD i 0)))).1.alloc_ptr,
        (scan_object true c (c.gc.remember_set.getD i 0)
          (YHeader.field_size
            (YHeader.header2 c.gc.mem (c.gc.remember_set.getD i 0)))).1.live_objects⟩ := by
  unfold scan_remember_step
  simp only [h, ne_eq, not_false_eq_true, if_true, hf, Bool.false_eq_true, if_false]

/-- The progress after the remember-set entry `i` was scanned and then kept or nulled. -/
theorem Phase.remember_finish {s0 : GC} {N T : List Nat} {c : Scan} {F : List (Nat × Nat)}
    {ksh i : Nat} {D : List (Nat × Nat)} {Lk Q : List Nat}
    (hwf : s0.WF N T) (h : Phase s0 N T c F ksh (i + 1) D Lk Q)
    (hi : i < s0.remember_set.length) (h0 : s0.remember_set.getD i 0 ≠ 0)
    {c1 c2 : Scan} {F1 : List (Nat × Nat)}
    (hstep : Step s0 N T (s0.remember_set.getD i 0, s0.remember_set.getD i 0) c F c1 F1)
    (hinv2 : Inv s0 N T c2 F1)
    (hcell2 : ∀ w ∈ owners T F1, ∀ k, k < YHeader.field_size (YHeader.header2 s0.mem w.2) →
      YHeader.get_field c2.gc.mem w.1 k = YHeader.get_field c1.gc.mem w.1 k)
    (hhead2 : ∀ w ∈ owners T F1,
      w ≠ (s0.remember_set.getD i 0, s0.remember_set.getD i 0) →
      YHeader.header1 c2.gc.mem w.1 = YHeader.header1 c1.gc.mem w.1)
    (hsh : c2.gc.shadow_stack = c1.gc.shadow_stack)
    (hpr : c2.gc.promoted_objects = c1.gc.promoted_objects)
    (hten : c2.gc.tenure_space = c1.gc.tenure_space)
    (hlen : c2.gc.remember_set.length = c1.gc.remember_set.length)
    (hoth : ∀ j, j ≠ i → c2.gc.remember_set.getD j 0 = c1.gc.remember_set.getD j 0)
    (hscan : scanned s0 c2.gc.mem F1 (s0.remember_set.getD i 0, s0.remember_set.getD i 0))
    (hcase : (c2.gc.remember_set.getD i 0 = s0.remember_set.getD i 0
          ∧ keeps_young s0 c2.gc.mem (s0.remember_set.getD i 0, s0.remember_set.getD i 0)
          ∧ YHeader.header1 c2.gc.mem (s0.remember_set.getD i 0)
              = YHeader.header1 c.gc.mem (s0.remember_set.getD i 0))
        ∨ (c2.gc.remember_set.getD i 0 = 0
          ∧ ¬ keeps_young s0 c2.gc.mem (s0.remember_set.getD i 0, s0.remember_set.getD i 0)
          ∧ YHeader.header1 c2.gc.mem (s0.remember_set.getD i 0)
              = YHeader.reset_gc_remember
                  (YHeader.header1 c.gc.mem (s0.remember_set.getD i 0)))) :
    Phase s0 N T c2 F1 ksh i D Lk Q := by
  obtain ⟨hmono, hhd, hold, hfr, hdn, hnf, hlk⟩ :=
    h.carry2 hwf rfl hstep c2.gc.mem hcell2 hhead2
  have htT : s0.remember_set.getD i 0 ∈ T := (hwf.remembered_mem hi h0).1
  have hnew : ∀ x ∈ F1, (x.2, x.1)
      ≠ (s0.remember_set.getD i 0, s0.remember_set.getD i 0) := by
    intro x hx e
    have e1 : x.2 = s0.remember_set.getD i 0 := congrArg Prod.fst e
    exact hstep.inv.new_not_old hwf hx (e1 ▸ htT)
  have hidx : ∀ j, i + 1 ≤ j → j < s0.remember_set.length →
      s0.remember_set.getD j 0 ≠ s0.remember_set.getD i 0 := by
    intro j hj1 hj2 e
    have := hwf.remembered_index hi hj2 h0 e.symm
    omega
  have hc0 := (h.old_fresh _ htT hidx).2
  have hpend := hstep.pending hwf
    (fun n hn => by
      obtain ⟨x, hx, _, _, e⟩ := (h.pending n).1 hn
      exact ⟨x, hx, e⟩) h.pending_nodup
  constructor
  · exact hinv2
  · intro j hj
    rw [hsh, hstep.shadow]
    exact h.sh_todo j hj
  · intro j hj1 hj2
    rw [hsh, hstep.shadow]
    have := h.sh_done j hj1 hj2
    exact ⟨fun h1 => hmono _ (this.1 h1), this.2⟩
  · intro j hj
    rw [hsh, hstep.shadow]
    exact h.sh_rest j hj
  · rw [hlen, hstep.remember]; exact h.rs_len
  · intro j hj
    rw [hoth _ (by omega), hstep.remember]; exact h.rs_new j hj
  · intro j hj
    rw [hoth _ (by omega), hstep.remember]; exact h.rs_todo j (by omega)
  · intro j hj1 hj2
    rcases Nat.eq_or_lt_of_le hj1 with e | hlt
    · subst e
      rcases hcase with ⟨e1, e2, e3⟩ | ⟨e1, e2, e3⟩
      · refine ⟨Or.inl e1, fun _ => ⟨hscan, ?_, ?_⟩⟩
        · rw [e1]; exact ⟨fun _ => e2, fun _ => h0⟩
        · rw [e1, if_pos h0, e3, hc0]
      · refine ⟨Or.inr e1, fun _ => ⟨hscan, ?_, ?_⟩⟩
        · rw [e1]; exact ⟨fun hx => absurd rfl hx, fun hx => absurd hx e2⟩
        · rw [e1, if_neg (fun hx => hx rfl), e3, hc0]
    · rw [hoth _ (by omega), hstep.remember]
      have := h.rs_done j (by omega) hj2
      refine ⟨this.1, fun hj0 => ?_⟩
      have hne : (s0.remember_set.getD j 0, s0.remember_set.getD j 0)
          ≠ (s0.remember_set.getD i 0, s0.remember_set.getD i 0) :=
        fun e => hidx j (by omega) hj2 (congrArg Prod.fst e)
      obtain ⟨h1, h2, h3⟩ := this.2 hj0
      obtain ⟨k1, k2⟩ := hold j (by omega) hj2 hj0 hne
      refine ⟨k1, h2.trans k2.symm, ?_⟩
      have hw : (s0.remember_set.getD j 0, s0.remember_set.getD j 0) ∈ owners T F :=
        mem_owners.2 (Or.inl ⟨(hwf.remembered_mem hj2 hj0).1, rfl⟩)
      exact (hhd _ hw hne).trans h3
  · intro t ht hj
    have hne : (t, t) ≠ (s0.remember_set.getD i 0, s0.remember_set.getD i 0) :=
      fun e => hj i (Nat.le_refl i) hi (congrArg Prod.fst e).symm
    have := h.old_fresh t ht (fun j hj1 hj2 => hj j (by omega) hj2)
    exact ⟨hfr t ht hne this.1,
      (hhd _ (mem_owners.2 (Or.inl ⟨ht, rfl⟩)) hne).trans this.2⟩
  · exact fun x hx => hmono x (h.done_sub x hx)
  · exact h.done_nodup
  · intro x hx
    exact (hdn x hx (hnew x (hmono x (h.done_sub x hx)))).1
  · intro x hx hd
    exact hnf x hx hd (hnew x hx)
  · intro n
    rw [hpr, hpend.1 n, h.pending n]
    constructor
    · rintro (⟨x, hx, h1, h2, h3⟩ | ⟨x, hx, h1, h2, h3⟩)
      · exact ⟨x, hmono x hx, h1, h2, h3⟩
      · exact ⟨x, hx, fun hd => h1 (h.done_sub x hd), h2, h3⟩
    · rintro ⟨x, hx, h1, h2, h3⟩
      by_cases hxF : x ∈ F
      · exact Or.inl ⟨x, hxF, h1, h2, h3⟩
      · exact Or.inr ⟨x, hx, hxF, h2, h3⟩
  · rw [hpr]; exact hpend.2
  · rw [hten, hstep.tenure]
    refine chain_to_of_same Lk _ _ ?_ h.chain
    intro n hn
    exact hlk n hn (fun x hx _ => hnew x (hmono x hx))
  · exact h.linked
  · intro n
    rw [h.q_mem n]
    constructor
    · rintro ⟨x, hx, h1, h2, h3⟩
      exact ⟨x, hx, h1, h2, (hdn x hx (hnew x (hmono x (h.done_sub x hx)))).2.2 h3⟩
    · rintro ⟨x, hx, h1, h2, h3⟩
      exact ⟨x, hx, h1, h2, (hdn x hx (hnew x (hmono x (h.done_sub x hx)))).2.1 h3⟩
  · exact h.q_nodup
  · intro x hx hpr
    rw [hhd (x.2, x.1) (mem_owners.2 (Or.inr (h.done_sub x hx)))
      (hnew x (hmono x (h.done_sub x hx)))]
    exact h.q_bit x hx hpr

end GC
namespace GC

/-- One iteration of the remember-set loop keeps the progress invariant. -/
theorem Phase.remember_step {s0 : GC} {N T : List Nat} {c : Scan} {F : List (Nat × Nat)}
    {ksh i : Nat} {D : List (Nat × Nat)} {Lk Q : List Nat}
    (hwf : s0.WF N T) (h : Phase s0 N T c F ksh (i + 1) D Lk Q)
    (hi : i < s0.remember_set.length) :
    ∃ F', Phase s0 N T (GC.scan_remember_step c i) F' ksh i D Lk Q ∧ F <:+ F' := by
  have hrs : c.gc.remember_set.getD i 0 = s0.remember_set.getD i 0 := h.rs_todo i (by omega)
  by_cases h0 : s0.remember_set.getD i 0 = 0
  · rw [scan_remember_step_null c i (by rw [hrs]; exact h0)]
    refine ⟨F, ?_, List.suffix_refl F⟩
    exact { h with
      rs_todo := fun j hj => h.rs_todo j (by omega)
      rs_done := fun j hj1 hj2 => by
        rcases Nat.eq_or_lt_of_le hj1 with e | hlt
        · subst e
          exact ⟨Or.inl hrs, fun hx => absurd h0 hx⟩
        · exact h.rs_done j (by omega) hj2
      old_fresh := fun t ht hj => h.old_fresh t ht (fun j hj1 hj2 => hj j (by omega) hj2) }
  · have htT : s0.remember_set.getD i 0 ∈ T := (hwf.remembered_mem hi h0).1
    have hmemrs : s0.remember_set.getD i 0 ∈ s0.remember_set := (hwf.remembered_mem hi h0).2
    have hw0 : (s0.remember_set.getD i 0, s0.remember_set.getD i 0) ∈ owners T F :=
      mem_owners.2 (Or.inl ⟨htT, rfl⟩)
    have hreach : s0.copy_reachable (s0.remember_set.getD i 0) :=
      ⟨_, ⟨h0, Or.inr hmemrs⟩, Relation.ReflTransGen.refl⟩
    have hidx : ∀ j, i + 1 ≤ j → j < s0.remember_set.length →
        s0.remember_set.getD j 0 ≠ s0.remember_set.getD i 0 := by
      intro j hj1 hj2 e
      have := hwf.remembered_index hi hj2 h0 e.symm
      omega
    have hfr := h.old_fresh _ htT hidx
    have hso := h.inv.scan_object hwf hw0 hreach hfr.1 true
    simp only at hso
    obtain ⟨F1, hstep, hscanned, hflag, -⟩ := hso
    have hflag := hflag trivial
    have hold : s0.in_nursery (s0.remember_set.getD i 0) = false := hwf.in_nursery_old htT
    have hilen : i < (scan_object true c (s0.remember_set.getD i 0)
        (YHeader.field_size (YHeader.header2 c.gc.mem
          (s0.remember_set.getD i 0)))).1.gc.remember_set.length := by
      rw [hstep.remember, h.rs_len]; omega
    have hhead1 : YHeader.header1 (scan_object true c (s0.remember_set.getD i 0)
        (YHeader.field_size (YHeader.header2 c.gc.mem (s0.remember_set.getD i 0)))).1.gc.mem
        (s0.remember_set.getD i 0) = YHeader.header1 c.gc.mem (s0.remember_set.getD i 0) := by
      have := hstep.kept_head _ hw0 1 (by omega)
      simpa [YHeader.header1] using this
    refine ⟨F1, ?_, hstep.suffix⟩
    cases hb : (scan_object true c (s0.remember_set.getD i 0)
        (YHeader.field_size (YHeader.header2 c.gc.mem (s0.remember_set.getD i 0)))).2
    · rw [scan_remember_step_drop c i (by rw [hrs]; exact h0) (by rw [hrs]; exact hb), hrs]
      have hw1 : (s0.remember_set.getD i 0, s0.remember_set.getD i 0) ∈ owners T F1 :=
        hstep.owner_mono hw0
      obtain ⟨hinv2, hother, hown⟩ := hstep.inv.put_head hwf hw1 hold
        (YHeader.reset_gc_remember (YHeader.header1 (scan_object true c
          (s0.remember_set.getD i 0)
          (YHeader.field_size (YHeader.header2 c.gc.mem
            (s0.remember_set.getD i 0)))).1.gc.mem (s0.remember_set.getD i 0)))
        (YHeader.kind_reset_gc_remember _) (YHeader.gc_mark_reset_gc_remember _)
        (fun hq => by
          exfalso
          have hpend := hstep.pending hwf
            (fun n hn => by
              obtain ⟨x, hx, _, _, e⟩ := (h.pending n).1 hn
              exact ⟨x, hx, e⟩) h.pending_nodup
          rcases (hpend.1 _).1 hq with hq | ⟨x, hx, _, _, e⟩
          · obtain ⟨x, hx, _, _, e⟩ := (h.pending _).1 hq
            exact h.inv.new_not_old hwf hx (e ▸ htT)
          · exact hstep.inv.new_not_old hwf hx (e ▸ htT))
      simp only at hinv2 hother hown
      have hcell2 : ∀ w ∈ owners T F1, ∀ k,
          k < YHeader.field_size (YHeader.header2 s0.mem w.2) →
          YHeader.get_field (YHeader.put_header1 (scan_object true c
            (s0.remember_set.getD i 0)
            (YHeader.field_size (YHeader.header2 c.gc.mem
              (s0.remember_set.getD i 0)))).1.gc.mem (s0.remember_set.getD i 0)
            (YHeader.reset_gc_remember (YHeader.header1 (scan_object true c
              (s0.remember_set.getD i 0)
              (YHeader.field_size (YHeader.header2 c.gc.mem
                (s0.remember_set.getD i 0)))).1.gc.mem (s0.remember_set.getD i 0)))) w.1 k
            = YHeader.get_field (scan_object true c (s0.remember_set.getD i 0)
              (YHeader.field_size (YHeader.header2 c.gc.mem
                (s0.remember_set.getD i 0)))).1.gc.mem w.1 k := by
        intro w hw k hk
        have hk32 := field_size_lt (YHeader.header2 s0.mem w.2)
        have := hown w hw (k + 3) (by rw [object_words_eq]; omega) (Or.inr (by omega))
        unfold YHeader.get_field
        rw [YHeader.field_addr_eq w.1 k (by omega)]
        exact this
      have hkeep : ¬ keeps_young s0 (YHeader.put_header1 (scan_object true c
            (s0.remember_set.getD i 0)
            (YHeader.field_size (YHeader.header2 c.gc.mem
              (s0.remember_set.getD i 0)))).1.gc.mem (s0.remember_set.getD i 0)
            (YHeader.reset_gc_remember (YHeader.header1 (scan_object true c
              (s0.remember_set.getD i 0)
              (YHeader.field_size (YHeader.header2 c.gc.mem
                (s0.remember_set.getD i 0)))).1.gc.mem (s0.remember_set.getD i 0))))
            (s0.remember_set.getD i 0, s0.remember_set.getD i 0) := by
        intro hk
        have := (keeps_young_of_same (hcell2 _ hw1)).1 hk
        have := hflag.2 this
        rw [hb] at this
        cases this
      refine h.remember_finish hwf hi h0 hstep ?_ ?_ ?_ ?_ ?_ ?_ ?_ ?_ ?_ ?_
      · exact hinv2.of_same (by simp) (by constructor <;> simp) (by simp) (by simp) rfl rfl
          (by simp)
      · simpa using hcell2
      · intro w hw hne
        have := hown w hw 1 (by rw [object_words_eq]; omega) (Or.inl hne)
        simpa [YHeader.header1] using this
      · simp
      · simp
      · simp
      · simp
      · intro j hj
        simp only [set_remember_set_proj, set_mem_proj]
        exact getD_set_other _ _ _ _ (Ne.symm hj)
      · simp only [set_remember_set_proj, set_mem_proj]
        exact scanned_of_same (hcell2 _ hw1) (fun x hx => hx) hscanned
      · refine Or.inr ⟨?_, ?_, ?_⟩
        · simp only [set_remember_set_proj, set_mem_proj]
          exact getD_set_same _ _ _ hilen
        · simpa using hkeep
        · simp only [set_remember_set_proj, set_mem_proj]
          rw [← hhead1]
          simp [YHeader.header1, YHeader.put_header1, Mem.write]
    · rw [scan_remember_step_keep c i (by rw [hrs]; exact h0) (by rw [hrs]; exact hb), hrs]
      refine h.remember_finish hwf hi h0 hstep hstep.inv (fun _ _ _ _ => rfl)
        (fun _ _ _ => rfl) rfl rfl rfl rfl (fun _ _ => rfl) hscanned ?_
      refine Or.inl ⟨?_, hflag.1 hb, hhead1⟩
      rw [hstep.remember]; exact hrs

end GC
namespace GC

/-- The shadow-stack loop keeps the progress invariant and visits every slot. -/
theorem Phase.scan_shadow {s0 : GC} {N T : List Nat} {krs : Nat} {D : List (Nat × Nat)}
    {Lk Q : List Nat} (hwf : s0.WF N T) :
    ∀ (k : Nat) (c : Scan) (F : List (Nat × Nat)), k ≤ (s0.stack_top + 1).toNat →
      Phase s0 N T c F k krs D Lk Q →
      ∃ F', Phase s0 N T (GC.scan_shadow k c) F' 0 krs D Lk Q ∧ F <:+ F' := by
  intro k
  induction k with
  | zero =>
    intro c F _ h
    exact ⟨F, h, List.suffix_refl F⟩
  | succ k ih =>
    intro c F hk h
    obtain ⟨F1, h1, hm1⟩ := h.shadow_step hwf (by omega)
    obtain ⟨F2, h2, hm2⟩ := ih _ F1 (by omega) h1
    exact ⟨F2, h2, hm1.trans hm2⟩

/-- The remember-set loop keeps the progress invariant and visits every entry. -/
theorem Phase.scan_remember {s0 : GC} {N T : List Nat} {ksh : Nat} {D : List (Nat × Nat)}
    {Lk Q : List Nat} (hwf : s0.WF N T) :
    ∀ (k : Nat) (c : Scan) (F : List (Nat × Nat)), k ≤ s0.remember_set.length →
      Phase s0 N T c F ksh k D Lk Q →
      ∃ F', Phase s0 N T (GC.scan_remember k c) F' ksh 0 D Lk Q ∧ F <:+ F' := by
  intro k
  induction k with
  | zero =>
    intro c F _ h
    exact ⟨F, h, List.suffix_refl F⟩
  | succ k ih =>
    intro c F hk h
    obtain ⟨F1, h1, hm1⟩ := h.remember_step hwf (by omega)
    obtain ⟨F2, h2, hm2⟩ := ih _ F1 (by omega) h1
    exact ⟨F2, h2, hm1.trans hm2⟩

theorem WF.tenure_space_lt {s0 : GC} {N T : List Nat} (hwf : s0.WF N T) :
    s0.tenure_space < 2 ^ 48 := by
  by_cases h0 : s0.tenure_space = 0
  · rw [h0]; norm_num
  · have := hwf.tenure_chain
    rw [tenure_list, if_neg h0] at this
    have hm : s0.tenure_space ∈ T := by rw [← this]; exact List.mem_cons_self _ _
    have h1 := (hwf.old_outside _ hm).2.1
    have h2 := hwf.heap_room
    have h3 := object_bytes_pos s0.mem s0.tenure_space
    omega

theorem Phase.tenure_head_lt {s0 : GC} {N T : List Nat} {c : Scan} {F : List (Nat × Nat)}
    {ksh krs : Nat} {D : List (Nat × Nat)} {Lk Q : List Nat}
    (hwf : s0.WF N T) (h : Phase s0 N T c F ksh krs D Lk Q) :
    c.gc.tenure_space < 2 ^ 48 := by
  have hc := h.chain
  cases Lk with
  | nil =>
    simp only [chain_to] at hc
    rw [hc]; exact hwf.tenure_space_lt
  | cons n L =>
    simp only [chain_to] at hc
    obtain ⟨x, hx, hp, e⟩ := (h.linked n).1 (List.mem_cons_self _ _)
    have hxF := h.done_sub x hx
    have ha := h.inv.new_addr hwf x hxF
    rw [hc.1, ← e]
    exact ha.2.1

end GC
namespace GC

/-- The progress after the pending promoted copy `x.2` was scanned, entered in the remember
set if it still points into the nursery, and linked to the tenure list. -/
theorem Phase.promoted_finish {s0 : GC} {N T : List Nat} {c : Scan} {F : List (Nat × Nat)}
    {D : List (Nat × Nat)} {Lk Q : List Nat}
    (hwf : s0.WF N T) (h : Phase s0 N T c F 0 0 D Lk Q)
    {x : Nat × Nat} (hx : x ∈ F) (hxD : x ∉ D) (hxp : promotes s0.mem x.1 = true)
    {c0 c1 c2 : Scan} {F1 : List (Nat × Nat)}
    (hm : c0.gc.mem = c.gc.mem) (hsh0 : c0.gc.shadow_stack = c.gc.shadow_stack)
    (hrs0 : c0.gc.remember_set = c.gc.remember_set)
    (hpr0 : ∀ n, n ∈ c0.gc.promoted_objects ↔ n ∈ c.gc.promoted_objects ∧ n ≠ x.2)
    (hnd0 : c0.gc.promoted_objects.Nodup)
    (hstep : Step s0 N T (x.2, x.1) c0 F c1 F1)
    (hinv2 : Inv s0 N T c2 F1)
    (hcell2 : ∀ w ∈ owners T F1, ∀ k, k < YHeader.field_size (YHeader.header2 s0.mem w.2) →
      YHeader.get_field c2.gc.mem w.1 k = YHeader.get_field c1.gc.mem w.1 k)
    (hhead2 : ∀ w ∈ owners T F1, w ≠ (x.2, x.1) →
      YHeader.header1 c2.gc.mem w.1 = YHeader.header1 c1.gc.mem w.1)
    (hsh : c2.gc.shadow_stack = c1.gc.shadow_stack)
    (hpr : c2.gc.promoted_objects = c1.gc.promoted_objects)
    (hten : c2.gc.tenure_space = x.2)
    (hnext : YHeader.next_object (YHeader.header1 c2.gc.mem x.2) = c.gc.tenure_space)
    (hscan : scanned s0 c2.gc.mem F1 (x.2, x.1))
    {Q' : List Nat}
    (hq : (Q' = Q ++ [x.2] ∧ c2.gc.remember_set = c1.gc.remember_set ++ [x.2]
          ∧ keeps_young s0 c2.gc.mem (x.2, x.1))
        ∨ (Q' = Q ∧ c2.gc.remember_set = c1.gc.remember_set
          ∧ ¬ keeps_young s0 c2.gc.mem (x.2, x.1)))
    (hbit : YHeader.gc_remember (YHeader.header1 c2.gc.mem x.2) = 1
      ↔ x.2 ∈ Q' ∨ YHeader.gc_remember (YHeader.header1 s0.mem x.1) = 1) :
    Phase s0 N T c2 F1 0 0 (x :: D) (x.2 :: Lk) Q' := by
  obtain ⟨hmono, hhd, hold, hfr, hdn, hnf, hlk⟩ :=
    h.carry2 hwf hm hstep c2.gc.mem hcell2 hhead2
  have hsnd : ∀ y ∈ F, y.2 = x.2 → y = x := fun y hy e => h.inv.snd_inj hwf hy hx e
  have hsnd1 : ∀ y ∈ F1, y.2 = x.2 → y = x :=
    fun y hy e => hstep.inv.snd_inj hwf hy (hmono x hx) e
  have hneD : ∀ y ∈ D, (y.2, y.1) ≠ (x.2, x.1) := by
    intro y hy e
    have e1 : y.2 = x.2 := congrArg Prod.fst e
    exact hxD (hsnd y (h.done_sub y hy) e1 ▸ hy)
  have hneT : ∀ t ∈ T, (t, t) ≠ (x.2, x.1) := by
    intro t ht e
    have e1 : t = x.2 := congrArg Prod.fst e
    exact h.inv.new_not_old hwf hx (e1 ▸ ht)
  have hc1rs : c1.gc.remember_set = c.gc.remember_set := hstep.remember.trans hrs0
  have hrsj : ∀ j, j < c.gc.remember_set.length →
      c2.gc.remember_set.getD j 0 = c.gc.remember_set.getD j 0 := by
    intro j hj
    rcases hq with ⟨_, e, _⟩ | ⟨_, e, _⟩
    · rw [e, hc1rs, List.getD_append _ _ _ _ hj]
    · rw [e, hc1rs]
  have hpend := hstep.pending hwf
    (fun n hn => by
      obtain ⟨y, hy, _, _, e⟩ := (h.pending n).1 ((hpr0 n).1 hn).1
      exact ⟨y, hy, e⟩) hnd0
  constructor
  · exact hinv2
  · intro j hj
    exact absurd hj (Nat.not_lt_zero _)
  · intro j hj1 hj2
    rw [hsh, hstep.shadow, hsh0]
    have := h.sh_done j hj1 hj2
    exact ⟨fun h1 => hmono _ (this.1 h1), this.2⟩
  · intro j hj
    rw [hsh, hstep.shadow, hsh0]
    exact h.sh_rest j hj
  · rcases hq with ⟨e1, e, _⟩ | ⟨e1, e, _⟩
    · rw [e, e1, hc1rs, List.length_append, List.length_append, h.rs_len]
      simp only [List.length_singleton]
      omega
    · rw [e, e1, hc1rs]; exact h.rs_len
  · intro j hj
    rcases hq with ⟨e1, e, _⟩ | ⟨e1, e, _⟩
    · rw [e1, List.length_append, List.length_singleton] at hj
      rw [e, e1, hc1rs]
      rcases Nat.lt_or_ge j Q.length with hlt | hge
      · rw [List.getD_append _ _ _ _ (by rw [h.rs_len]; omega),
          List.getD_append _ _ _ _ hlt]
        exact h.rs_new j hlt
      · have ej : j = Q.length := by omega
        rw [List.getD_append_right _ _ _ _ (by rw [h.rs_len]; omega),
          List.getD_append_right _ _ _ _ (by omega), h.rs_len, ej]
        simp
    · rw [e, e1, hc1rs]
      rw [e1] at hj
      exact h.rs_new j hj
  · intro j hj
    exact absurd hj (Nat.not_lt_zero _)
  · intro j hj1 hj2
    rw [hrsj j (by rw [h.rs_len]; omega)]
    have := h.rs_done j hj1 hj2
    refine ⟨this.1, fun hj0 => ?_⟩
    have hjT := (hwf.remembered_mem hj2 hj0).1
    have hne := hneT _ hjT
    obtain ⟨h1, h2, h3⟩ := this.2 hj0
    obtain ⟨k1, k2⟩ := hold j hj1 hj2 hj0 hne
    exact ⟨k1, h2.trans k2.symm,
      (hhd _ (mem_owners.2 (Or.inl ⟨hjT, rfl⟩)) hne).trans h3⟩
  · intro t ht hj
    have := h.old_fresh t ht hj
    exact ⟨hfr t ht (hneT t ht) this.1,
      (hhd _ (mem_owners.2 (Or.inl ⟨ht, rfl⟩)) (hneT t ht)).trans this.2⟩
  · intro y hy
    rcases List.mem_cons.1 hy with e | hy
    · rw [e]; exact hmono x hx
    · exact hmono y (h.done_sub y hy)
  · exact List.nodup_cons.2 ⟨hxD, h.done_nodup⟩
  · intro y hy
    rcases List.mem_cons.1 hy with e | hy
    · rw [e]; exact hscan
    · exact (hdn y hy (hneD y hy)).1
  · intro y hy hd
    have hyx : y ≠ x := fun e => hd (e ▸ List.mem_cons_self _ _)
    have hyD : y ∉ D := fun e => hd (List.mem_cons_of_mem _ e)
    refine hnf y hy hyD (fun e => hyx (hsnd1 y hy (congrArg Prod.fst e)))
  · intro n
    rw [hpr, hpend.1 n, hpr0 n, h.pending n]
    constructor
    · rintro (⟨⟨y, hy, h1, h2, h3⟩, hn⟩ | ⟨y, hy, h1, h2, h3⟩)
      · refine ⟨y, hmono y hy, ?_, h2, h3⟩
        intro hd
        rcases List.mem_cons.1 hd with e | hd
        · exact hn (by rw [← h3, e])
        · exact h1 hd
      · refine ⟨y, hy, ?_, h2, h3⟩
        intro hd
        rcases List.mem_cons.1 hd with e | hd
        · exact h1 (e ▸ hx)
        · exact h1 (h.done_sub y hd)
    · rintro ⟨y, hy, h1, h2, h3⟩
      have hyx : y ≠ x := fun e => h1 (e ▸ List.mem_cons_self _ _)
      have hyD : y ∉ D := fun e => h1 (List.mem_cons_of_mem _ e)
      by_cases hyF : y ∈ F
      · refine Or.inl ⟨⟨y, hyF, hyD, h2, h3⟩, ?_⟩
        intro e
        exact hyx (hsnd y hyF (h3.trans e))
      · exact Or.inr ⟨y, hy, hyF, h2, h3⟩
  · rw [hpr]; exact hpend.2
  · rw [hten]
    refine ⟨rfl, ?_⟩
    rw [hnext]
    refine chain_to_of_same Lk _ _ ?_ h.chain
    intro n hn
    refine hlk n hn (fun y hy e => ?_)
    obtain ⟨z, hz, _, ez⟩ := (h.linked n).1 hn
    have : y = z := h.inv.snd_inj hwf hy (h.done_sub z hz) (e.trans ez.symm)
    exact hneD y (this ▸ hz)
  · intro n
    constructor
    · intro hn
      rcases List.mem_cons.1 hn with e | hn
      · exact ⟨x, List.mem_cons_self _ _, hxp, e.symm⟩
      · obtain ⟨y, hy, h1, h2⟩ := (h.linked n).1 hn
        exact ⟨y, List.mem_cons_of_mem _ hy, h1, h2⟩
    · rintro ⟨y, hy, h1, h2⟩
      rcases List.mem_cons.1 hy with e | hy
      · rw [← h2, e]; exact List.mem_cons_self _ _
      · exact List.mem_cons_of_mem _ ((h.linked n).2 ⟨y, hy, h1, h2⟩)
  · intro n
    have hQ : ∀ n, n ∈ Q ↔ ∃ y ∈ D, promotes s0.mem y.1 = true ∧ y.2 = n
        ∧ keeps_young s0 c2.gc.mem (y.2, y.1) := by
      intro n
      rw [h.q_mem n]
      constructor
      · rintro ⟨y, hy, h1, h2, h3⟩
        exact ⟨y, hy, h1, h2, (hdn y hy (hneD y hy)).2.2 h3⟩
      · rintro ⟨y, hy, h1, h2, h3⟩
        exact ⟨y, hy, h1, h2, (hdn y hy (hneD y hy)).2.1 h3⟩
    rcases hq with ⟨e1, _, hk⟩ | ⟨e1, _, hk⟩
    · rw [e1, List.mem_append, hQ n]
      constructor
      · rintro (⟨y, hy, h1, h2, h3⟩ | hn)
        · exact ⟨y, List.mem_cons_of_mem _ hy, h1, h2, h3⟩
        · rw [List.mem_singleton] at hn
          exact ⟨x, List.mem_cons_self _ _, hxp, hn.symm, hk⟩
      · rintro ⟨y, hy, h1, h2, h3⟩
        rcases List.mem_cons.1 hy with e | hy
        · right
          rw [List.mem_singleton, ← h2, e]
        · exact Or.inl ⟨y, hy, h1, h2, h3⟩
    · rw [e1, hQ n]
      constructor
      · rintro ⟨y, hy, h1, h2, h3⟩
        exact ⟨y, List.mem_cons_of_mem _ hy, h1, h2, h3⟩
      · rintro ⟨y, hy, h1, h2, h3⟩
        rcases List.mem_cons.1 hy with e | hy
        · rw [e] at h3
          exact absurd h3 hk
        · exact ⟨y, hy, h1, h2, h3⟩
  · rcases hq with ⟨e1, _, _⟩ | ⟨e1, _, _⟩
    · rw [e1]
      refine List.Nodup.append h.q_nodup (List.nodup_singleton _) ?_
      intro n hn hn2
      rw [List.mem_singleton] at hn2
      obtain ⟨y, hy, _, e, _⟩ := (h.q_mem n).1 hn
      exact hneD y hy (by rw [e, hn2, hsnd y (h.done_sub y hy) (e.trans hn2)])
    · rw [e1]; exact h.q_nodup
  · intro y hy hpr
    rcases List.mem_cons.1 hy with e | hy
    · rw [e]; exact hbit
    · rw [hhd (y.2, y.1) (mem_owners.2 (Or.inr (h.done_sub y hy))) (hneD y hy)]
      rw [h.q_bit y hy hpr]
      have hq' : y.2 ∈ Q' ↔ y.2 ∈ Q := by
        rcases hq with ⟨e1, _, _⟩ | ⟨e1, _, _⟩
        · rw [e1, List.mem_append, List.mem_singleton]
          constructor
          · rintro (h1 | h1)
            · exact h1
            · exact absurd (by rw [hsnd y (h.done_sub y hy) h1]) (hneD y hy)
          · exact Or.inl
        · rw [e1]
      rw [hq']

end GC
namespace GC

/-- A store to the first header word of an owner outside the nursery, in the form the
progress lemmas use. -/
theorem Inv.put_head_cells {s0 : GC} {N T : List Nat} {c : Scan} {F : List (Nat × Nat)}
    (hwf : s0.WF N T) (h : Inv s0 N T c F) {w0 : Nat × Nat} (hw0 : w0 ∈ owners T F)
    (hold : s0.in_nursery w0.1 = false) (v : Nat)
    (hk : YHeader.kind v = YHeader.kind (YHeader.header1 c.gc.mem w0.1))
    (hmk : YHeader.gc_mark v = YHeader.gc_mark (YHeader.header1 c.gc.mem w0.1))
    (hrem : w0.1 ∈ c.gc.promoted_objects →
      YHeader.gc_remember v = YHeader.gc_remember (YHeader.header1 c.gc.mem w0.1)) :
    Inv s0 N T ⟨c.gc.set_mem (YHeader.put_header1 c.gc.mem w0.1 v), c.alloc_ptr,
      c.live_objects⟩ F
    ∧ (∀ w ∈ owners T F, ∀ k, k < YHeader.field_size (YHeader.header2 s0.mem w.2) →
        YHeader.get_field (YHeader.put_header1 c.gc.mem w0.1 v) w.1 k
          = YHeader.get_field c.gc.mem w.1 k)
    ∧ (∀ w ∈ owners T F, w ≠ w0 →
        YHeader.header1 (YHeader.put_header1 c.gc.mem w0.1 v) w.1
          = YHeader.header1 c.gc.mem w.1)
    ∧ YHeader.header1 (YHeader.put_header1 c.gc.mem w0.1 v) w0.1 = v := by
  obtain ⟨hinv, _, hown⟩ := h.put_head hwf hw0 hold v hk hmk hrem
  refine ⟨hinv, ?_, ?_, ?_⟩
  · intro w hw k hk
    have hk32 := field_size_lt (YHeader.header2 s0.mem w.2)
    have := hown w hw (k + 3) (by rw [object_words_eq]; omega) (Or.inr (by omega))
    unfold YHeader.get_field
    rw [YHeader.field_addr_eq w.1 k (by omega)]
    exact this
  · intro w hw hne
    have := hown w hw 1 (by rw [object_words_eq]; omega) (Or.inl hne)
    simpa [YHeader.header1] using this
  · simp [YHeader.header1, YHeader.put_header1, Mem.write]

theorem add_to_tenure_space_header1 (s : GC) (p : Nat) :
    YHeader.header1 (add_to_tenure_space s p).mem p
      = YHeader.set_next_object (YHeader.header1 s.mem p) s.tenure_space := by
  simp [add_to_tenure_space, YHeader.header1, YHeader.put_header1, Mem.write]

theorem scan_promoted_step_eq (c : Scan) (p : Nat) (r : Scan × Bool)
    (hr : scan_object true
      ⟨c.gc.set_promoted_objects c.gc.promoted_objects.dropLast, c.alloc_ptr, c.live_objects⟩ p
      (YHeader.field_size (YHeader.header2
        (c.gc.set_promoted_objects c.gc.promoted_objects.dropLast).mem p)) = r) :
    scan_promoted_step c p
      = ⟨add_to_tenure_space
          (if r.2 then
            (r.1.gc.set_mem (YHeader.put_header1 r.1.gc.mem p
              (YHeader.set_gc_remember (YHeader.header1 r.1.gc.mem p)))).set_remember_set
              (r.1.gc.remember_set ++ [p])
          else r.1.gc) p, r.1.alloc_ptr, r.1.live_objects⟩ := by
  subst hr
  rfl

/-- Linking an owner outside the nursery to the tenure list. -/
theorem Inv.link {s0 : GC} {N T : List Nat} {c : Scan} {F : List (Nat × Nat)}
    (hwf : s0.WF N T) (h : Inv s0 N T c F) {w0 : Nat × Nat} (hw0 : w0 ∈ owners T F)
    (hold : s0.in_nursery w0.1 = false) (hts : c.gc.tenure_space < 2 ^ 48) :
    Inv s0 N T ⟨add_to_tenure_space c.gc w0.1, c.alloc_ptr, c.live_objects⟩ F
    ∧ (∀ w ∈ owners T F, ∀ k, k < YHeader.field_size (YHeader.header2 s0.mem w.2) →
        YHeader.get_field (add_to_tenure_space c.gc w0.1).mem w.1 k
          = YHeader.get_field c.gc.mem w.1 k)
    ∧ (∀ w ∈ owners T F, w ≠ w0 →
        YHeader.header1 (add_to_tenure_space c.gc w0.1).mem w.1
          = YHeader.header1 c.gc.mem w.1)
    ∧ YHeader.next_object (YHeader.header1 (add_to_tenure_space c.gc w0.1).mem w0.1)
        = c.gc.tenure_space
    ∧ (add_to_tenure_space c.gc w0.1).tenure_space = w0.1
    ∧ (add_to_tenure_space c.gc w0.1).shadow_stack = c.gc.shadow_stack
    ∧ (add_to_tenure_space c.gc w0.1).remember_set = c.gc.remember_set
    ∧ (add_to_tenure_space c.gc w0.1).promoted_objects = c.gc.promoted_objects := by
  obtain ⟨hinv, hcell, hhead, hself⟩ := h.put_head_cells hwf hw0 hold
    (YHeader.set_next_object (YHeader.header1 c.gc.mem w0.1) c.gc.tenure_space)
    (YHeader.kind_set_next_object _ _) (YHeader.gc_mark_set_next_object _ _)
    (fun _ => YHeader.gc_remember_set_next_object _ _)
  refine ⟨?_, ?_, ?_, ?_, ?_, ?_, ?_, ?_⟩
  · exact hinv.of_same (by simp [add_to_tenure_space])
      (by constructor <;> simp [add_to_tenure_space]) (by simp [add_to_tenure_space])
      (by simp [add_to_tenure_space]) rfl rfl (by simp [add_to_tenure_space])
  · simpa [add_to_tenure_space] using hcell
  · simpa [add_to_tenure_space] using hhead
  · simp only [add_to_tenure_space, set_tenure_space_proj, set_mem_proj]
    rw [hself]
    exact YHeader.next_object_set_next_object _ _ hts
  · simp [add_to_tenure_space]
  · simp [add_to_tenure_space]
  · simp [add_to_tenure_space]
  · simp [add_to_tenure_space]

end GC
namespace GC

/-- One iteration of the loop of `scan_promoted_objects` keeps the progress invariant and
scans one more copy. -/
theorem Phase.promoted_step {s0 : GC} {N T : List Nat} {c : Scan} {F : List (Nat × Nat)}
    {D : List (Nat × Nat)} {Lk Q : List Nat}
    (hwf : s0.WF N T) (h : Phase s0 N T c F 0 0 D Lk Q) {p : Nat}
    (hp : c.gc.promoted_objects.getLast? = some p) :
    ∃ F' x Q', x ∈ F ∧ x ∉ D
      ∧ Phase s0 N T (GC.scan_promoted_step c p) F' 0 0 (x :: D) (x.2 :: Lk) Q'
      ∧ F <:+ F' ∧ promotes s0.mem x.1 = true := by
  have hpm : p ∈ c.gc.promoted_objects := List.mem_of_getLast?_eq_some hp
  obtain ⟨x, hx, hxD, hxp, e⟩ := (h.pending p).1 hpm
  subst e
  have hsplit : c.gc.promoted_objects = c.gc.promoted_objects.dropLast ++ [x.2] :=
    (List.dropLast_append_getLast? _ hp).symm
  have hnd := h.pending_nodup
  rw [hsplit] at hnd
  have hnd0 : c.gc.promoted_objects.dropLast.Nodup := (List.nodup_append.1 hnd).1
  have hpr0 : ∀ n, n ∈ c.gc.promoted_objects.dropLast ↔ n ∈ c.gc.promoted_objects ∧ n ≠ x.2 := by
    intro n
    constructor
    · intro hn
      refine ⟨List.mem_of_mem_dropLast hn, fun e => ?_⟩
      exact (List.nodup_append.1 hnd).2.2 hn (by rw [e]; exact List.mem_singleton_self _)
    · rintro ⟨hn, hne⟩
      rw [hsplit, List.mem_append, List.mem_singleton] at hn
      rcases hn with hn | hn
      · exact hn
      · exact absurd hn hne
  have hw0 : (x.2, x.1) ∈ owners T F := mem_owners.2 (Or.inr hx)
  have hinv0 : Inv s0 N T
      ⟨c.gc.set_promoted_objects c.gc.promoted_objects.dropLast, c.alloc_ptr, c.live_objects⟩ F :=
    h.inv.of_same (by simp) (by constructor <;> simp) (by simp) (by simp) rfl rfl
      (fun q hq => List.mem_of_mem_dropLast (by simpa using hq))
  have hfresh0 : fresh s0 (c.gc.set_promoted_objects c.gc.promoted_objects.dropLast).mem
      (x.2, x.1) := by
    have := h.new_fresh x hx hxD
    simpa using this
  have hold : s0.in_nursery x.2 = false := by
    have := (h.inv.new_addr hwf x hx).2.2.1
    cases hb : s0.in_nursery x.2
    · rfl
    · rw [this.1 hb] at hxp
      cases hxp
  have hso := hinv0.scan_object hwf hw0 (h.inv.reach x hx) hfresh0 true
  simp only at hso
  rw [scan_promoted_step_eq c x.2 _ rfl]
  generalize scan_object true
      ⟨c.gc.set_promoted_objects c.gc.promoted_objects.dropLast, c.alloc_ptr, c.live_objects⟩ x.2
      (YHeader.field_size (YHeader.header2
        (c.gc.set_promoted_objects c.gc.promoted_objects.dropLast).mem x.2)) = r at hso ⊢
  obtain ⟨c1, flag⟩ := r
  obtain ⟨F1, hstep, hscanned, hflag, -⟩ := hso
  have hflag := hflag trivial
  simp only at hstep hscanned hflag ⊢
  have hw1 : (x.2, x.1) ∈ owners T F1 := hstep.owner_mono hw0
  have hmono : ∀ y ∈ F, y ∈ F1 := fun y hy => hstep.pair_mono hy
  have hc1ts : c1.gc.tenure_space = c.gc.tenure_space := by
    rw [hstep.tenure]; simp
  have hts := h.tenure_head_lt hwf
  have hbit0 : YHeader.gc_remember (YHeader.header1 c1.gc.mem x.2)
      = YHeader.gc_remember (YHeader.header1 s0.mem x.1) := by
    have := hstep.kept_head _ hw0 1 (by omega)
    simp only [set_promoted_objects_proj] at this
    have e : YHeader.header1 c1.gc.mem x.2 = YHeader.header1 c.gc.mem x.2 := by
      simpa [YHeader.header1] using this
    rw [e]
    exact h.inv.pend_rem x hx hpm
  have hxQ : x.2 ∉ Q := by
    intro hq
    obtain ⟨y, hy, _, e, _⟩ := (h.q_mem x.2).1 hq
    exact hxD (h.inv.snd_inj hwf (h.done_sub y hy) hx e ▸ hy)
  have hpend1 := hstep.pending hwf
    (fun n hn => by
      obtain ⟨y, hy, _, _, e⟩ := (h.pending n).1 ((hpr0 n).1 (by simpa using hn)).1
      exact ⟨y, hy, e⟩) (by simpa using hnd0)
  have hxpo : x.2 ∉ c1.gc.promoted_objects := by
    intro hq
    rcases (hpend1.1 _).1 hq with hq | ⟨y, hy, hyF, _, e⟩
    · exact ((hpr0 _).1 (by simpa using hq)).2 rfl
    · exact hyF (hstep.inv.snd_inj hwf hy (hmono x hx) e ▸ hx)
  cases flag
  · simp only [Bool.false_eq_true, if_false]
    obtain ⟨hinv2, hcell, hhead, hnext, hten, hsh, hrs, hpr⟩ :=
      hstep.inv.link hwf hw1 hold (by rw [hc1ts]; exact hts)
    simp only at hinv2 hcell hhead hnext hten hsh hrs hpr
    refine ⟨F1, x, Q, hx, hxD, ?_, hstep.suffix, hxp⟩
    refine h.promoted_finish hwf hx hxD hxp (by simp) (by simp) (by simp) hpr0 hnd0 hstep
      hinv2 hcell hhead hsh hpr hten (by rw [hnext, hc1ts])
      (scanned_of_same (hcell _ hw1) (fun y hy => hy) hscanned) (Or.inr ⟨rfl, hrs, ?_⟩) ?_
    · intro hk
      have := hflag.2 ((keeps_young_of_same (hcell _ hw1)).1 hk)
      cases this
    · rw [add_to_tenure_space_header1, YHeader.gc_remember_set_next_object, hbit0]
      constructor
      · exact Or.inr
      · rintro (h1 | h1)
        · exact absurd h1 hxQ
        · exact h1
  · simp only [if_true]
    obtain ⟨hinvA, hcellA, hheadA, _⟩ := hstep.inv.put_head_cells hwf hw1 hold
      (YHeader.set_gc_remember (YHeader.header1 c1.gc.mem x.2))
      (YHeader.kind_set_gc_remember _) (YHeader.gc_mark_set_gc_remember _)
      (fun hq => absurd hq hxpo)
    simp only at hinvA hcellA hheadA
    have hinvB : Inv s0 N T
        ⟨(c1.gc.set_mem (YHeader.put_header1 c1.gc.mem x.2
          (YHeader.set_gc_remember (YHeader.header1 c1.gc.mem x.2)))).set_remember_set
          (c1.gc.remember_set ++ [x.2]), c1.alloc_ptr, c1.live_objects⟩ F1 :=
      hinvA.of_same (by simp) (by constructor <;> simp) (by simp) (by simp) rfl rfl
        (by simp)
    obtain ⟨hinv2, hcell, hhead, hnext, hten, hsh, hrs, hpr⟩ :=
      hinvB.link hwf hw1 hold (by simp only [set_remember_set_proj, set_mem_proj]; rw [hc1ts]; exact hts)
    simp only [set_remember_set_proj, set_mem_proj] at hinv2 hcell hhead hnext hten hsh hrs hpr
    have hcell2 : ∀ w ∈ owners T F1, ∀ k,
        k < YHeader.field_size (YHeader.header2 s0.mem w.2) →
        YHeader.get_field (add_to_tenure_space
          ((c1.gc.set_mem (YHeader.put_header1 c1.gc.mem x.2
            (YHeader.set_gc_remember (YHeader.header1 c1.gc.mem x.2)))).set_remember_set
            (c1.gc.remember_set ++ [x.2])) x.2).mem w.1 k
          = YHeader.get_field c1.gc.mem w.1 k :=
      fun w hw k hk => (hcell w hw k hk).trans (hcellA w hw k hk)
    refine ⟨F1, x, Q ++ [x.2], hx, hxD, ?_, hstep.suffix, hxp⟩
    refine h.promoted_finish hwf hx hxD hxp (by simp) (by simp) (by simp) hpr0 hnd0 hstep
      hinv2 hcell2 (fun w hw hne => (hhead w hw hne).trans (hheadA w hw hne)) hsh hpr hten
      (by rw [hnext, hc1ts])
      (scanned_of_same (hcell2 _ hw1) (fun y hy => hy) hscanned) (Or.inl ⟨rfl, hrs, ?_⟩) ?_
    · exact (keeps_young_of_same (hcell2 _ hw1)).2 (hflag.1 rfl)
    · rw [add_to_tenure_space_header1, YHeader.gc_remember_set_next_object]
      simp only [set_remember_set_proj, set_mem_proj]
      have e : YHeader.header1 (YHeader.put_header1 c1.gc.mem x.2
          (YHeader.set_gc_remember (YHeader.header1 c1.gc.mem x.2))) x.2
          = YHeader.set_gc_remember (YHeader.header1 c1.gc.mem x.2) := by
        simp [YHeader.header1, YHeader.put_header1, Mem.write]
      rw [e, YHeader.gc_remember_set_gc_remember]
      exact ⟨fun _ => Or.inl (List.mem_append_right _ (List.mem_singleton_self _)),
        fun _ => rfl⟩

end GC
namespace GC

theorem scan_promoted_objects_done (fuel : Nat) (c : Scan)
    (h : c.gc.promoted_objects.getLast? = none) : scan_promoted_objects fuel c = some c := by
  cases fuel <;> simp only [scan_promoted_objects, h]

theorem scan_promoted_objects_zero (c : Scan) (p : Nat)
    (h : c.gc.promoted_objects.getLast? = some p) : scan_promoted_objects 0 c = none := by
  simp only [scan_promoted_objects, h]

theorem scan_promoted_objects_succ (fuel : Nat) (c : Scan) (p : Nat)
    (h : c.gc.promoted_objects.getLast? = some p) :
    scan_promoted_objects (fuel + 1) c = scan_promoted_objects fuel (scan_promoted_step c p) := by
  rw [scan_promoted_objects]
  simp only [h]

theorem Phase.done_length {s0 : GC} {N T : List Nat} {c : Scan} {F : List (Nat × Nat)}
    {ksh krs : Nat} {D : List (Nat × Nat)} {Lk Q : List Nat}
    (h : Phase s0 N T c F ksh krs D Lk Q) : D.length ≤ F.length ∧ F.length ≤ N.length := by
  constructor
  · exact (List.subperm_of_subset h.done_nodup (fun x hx => h.done_sub x hx)).length_le
  · have := nodup_subset_length_le (F.map Prod.fst) N h.inv.keys_nodup
      (fun k hk => by
        obtain ⟨x, hx, e⟩ := List.mem_map.1 hk
        rw [← e]; exact h.inv.keys_young x hx)
    rw [List.length_map] at this
    exact this

theorem Phase.done_lt {s0 : GC} {N T : List Nat} {c : Scan} {F : List (Nat × Nat)}
    {ksh krs : Nat} {D : List (Nat × Nat)} {Lk Q : List Nat}
    (h : Phase s0 N T c F ksh krs D Lk Q) {x : Nat × Nat} (hx : x ∈ F) (hxD : x ∉ D) :
    D.length < N.length := by
  have h1 : (x :: D).length ≤ F.length :=
    (List.subperm_of_subset (List.nodup_cons.2 ⟨hxD, h.done_nodup⟩)
      (fun y hy => by
        rcases List.mem_cons.1 hy with e | hy
        · rw [e]; exact hx
        · exact h.done_sub y hy)).length_le
  have h2 := h.done_length.2
  rw [List.length_cons] at h1
  omega

/-- The loop of `scan_promoted_objects` ends with no pending promoted object when its fuel
covers the young objects not yet scanned. -/
theorem Phase.scan_promoted_objects {s0 : GC} {N T : List Nat} (hwf : s0.WF N T) :
    ∀ (fuel : Nat) (c : Scan) (F D : List (Nat × Nat)) (Lk Q : List Nat),
      Phase s0 N T c F 0 0 D Lk Q → N.length ≤ fuel + D.length →
      ∃ c' F' D' Lk' Q', GC.scan_promoted_objects fuel c = some c'
        ∧ Phase s0 N T c' F' 0 0 D' Lk' Q' ∧ c'.gc.promoted_objects = []
        ∧ F <:+ F' ∧ (∀ y ∈ D, y ∈ D')
        ∧ (∀ y ∈ D', y ∈ D ∨ promotes s0.mem y.1 = true) := by
  intro fuel
  induction fuel with
  | zero =>
    intro c F D Lk Q h hf
    cases hl : c.gc.promoted_objects.getLast? with
    | none =>
      refine ⟨c, F, D, Lk, Q, scan_promoted_objects_done 0 c hl, h, ?_, List.suffix_refl F,
        fun y hy => hy, fun y hy => Or.inl hy⟩
      exact List.getLast?_eq_none_iff.1 hl
    | some p =>
      obtain ⟨x, hx, hxD, _⟩ := (h.pending p).1 (List.mem_of_getLast?_eq_some hl)
      have := h.done_lt hx hxD
      omega
  | succ fuel ih =>
    intro c F D Lk Q h hf
    cases hl : c.gc.promoted_objects.getLast? with
    | none =>
      refine ⟨c, F, D, Lk, Q, scan_promoted_objects_done _ c hl, h, ?_, List.suffix_refl F,
        fun y hy => hy, fun y hy => Or.inl hy⟩
      exact List.getLast?_eq_none_iff.1 hl
    | some p =>
      obtain ⟨F1, x, Q1, hx, hxD, h1, hs1, hxp⟩ := h.promoted_step hwf hl
      obtain ⟨c', F', D', Lk', Q', e, h2, hp2, hs2, hd2, hd3⟩ :=
        ih _ F1 (x :: D) (x.2 :: Lk) Q1 h1 (by rw [List.length_cons]; omega)
      refine ⟨c', F', D', Lk', Q', ?_, h2, hp2, hs1.trans hs2,
        fun y hy => hd2 y (List.mem_cons_of_mem _ hy), ?_⟩
      · rw [scan_promoted_objects_succ fuel c p hl]; exact e
      · intro y hy
        rcases hd3 y hy with h3 | h3
        · rcases List.mem_cons.1 h3 with e1 | h4
          · right; rw [e1]; exact hxp
          · exact Or.inl h4
        · exact Or.inr h3

end GC
namespace GC

theorem placed_suffix (s : GC) :
    ∀ (G F : List (Nat × Nat)), placed s (G ++ F) → placed s F := by
  intro G
  induction G with
  | nil => intro F h; exact h
  | cons g G ih =>
    intro F h
    exact ih F h.2

theorem to_used_append_le (m : Mem) :
    ∀ (G F : List (Nat × Nat)), to_used m F ≤ to_used m (G ++ F) := by
  intro G
  induction G with
  | nil => intro F; exact Nat.le_refl _
  | cons g G ih =>
    intro F
    exact Nat.le_trans (ih F) (to_used_cons_le m g (G ++ F))

/-- A to-space copy made later lies at or above the earlier allocation pointer. -/
theorem placed_new_ge (s : GC) :
    ∀ (G F : List (Nat × Nat)), placed s (G ++ F) → ∀ y ∈ G, promotes s.mem y.1 = false →
      s.semi_space1 + to_used s.mem F ≤ y.2 := by
  intro G
  induction G with
  | nil => intro F _ y hy; cases hy
  | cons g G ih =>
    intro F h y hy hp
    rcases List.mem_cons.1 hy with e | hy
    · have h1 := h.1
      rw [← e, hp] at h1
      simp only [Bool.false_eq_true, if_false, List.append_eq] at h1
      have := to_used_append_le s.mem G F
      omega
    · exact ih F h.2 y hy hp

/-- The to-space copies are contiguous: a copy ends at the allocation pointer or at the
next copy. -/
theorem placed_next (s : GC) :
    ∀ (F : List (Nat × Nat)), placed s F → ∀ x ∈ F, promotes s.mem x.1 = false →
      x.2 + object_bytes s.mem x.1 = s.semi_space1 + to_used s.mem F
      ∨ ∃ y ∈ F, promotes s.mem y.1 = false ∧ y.2 = x.2 + object_bytes s.mem x.1 := by
  intro F
  induction F with
  | nil => intro _ x hx; cases hx
  | cons z F ih =>
    intro h x hx hp
    cases hz : promotes s.mem z.1
    · have h1 := h.1
      rw [hz] at h1
      simp only [Bool.false_eq_true, if_false] at h1
      have hu : to_used s.mem (z :: F) = to_used s.mem F + object_bytes s.mem z.1 := by
        simp only [to_used, hz, Bool.false_eq_true, if_false]
      rcases List.mem_cons.1 hx with e | hx
      · left
        rw [e, hu, h1]; omega
      · rcases ih h.2 x hx hp with h2 | ⟨y, hy, h3, h4⟩
        · right
          exact ⟨z, List.mem_cons_self _ _, hz, by rw [h1, h2]⟩
        · right
          exact ⟨y, List.mem_cons_of_mem _ hy, h3, h4⟩
    · have hu : to_used s.mem (z :: F) = to_used s.mem F := by
        simp only [to_used, hz, if_true]
      rcases List.mem_cons.1 hx with e | hx
      · rw [e, hz] at hp; cases hp
      · rcases ih h.2 x hx hp with h2 | ⟨y, hy, h3, h4⟩
        · left; rw [hu]; exact h2
        · right
          exact ⟨y, List.mem_cons_of_mem _ hy, h3, h4⟩

/-- To-space is empty or its first copy is at its start. -/
theorem placed_first (s : GC) :
    ∀ (F : List (Nat × Nat)), placed s F →
      s.semi_space1 = s.semi_space1 + to_used s.mem F
      ∨ ∃ x ∈ F, promotes s.mem x.1 = false ∧ x.2 = s.semi_space1 := by
  intro F
  induction F with
  | nil => intro _; left; simp [to_used]
  | cons z F ih =>
    intro h
    rcases ih h.2 with h2 | ⟨y, hy, h3, h4⟩
    · cases hz : promotes s.mem z.1
      · right
        have h1 := h.1
        rw [hz] at h1
        simp only [Bool.false_eq_true, if_false] at h1
        exact ⟨z, List.mem_cons_self _ _, hz, by omega⟩
      · left
        simp only [to_used, hz, if_true]
        exact h2
    · right
      exact ⟨y, List.mem_cons_of_mem _ hy, h3, h4⟩

end GC
namespace GC

theorem cheney_loop_done (pfuel fuel : Nat) (c : Scan) (sp : Nat) (h : ¬ sp < c.alloc_ptr) :
    cheney_loop pfuel fuel (c, sp) = some (c, sp) := by
  cases fuel <;> simp only [cheney_loop, h, if_false]

theorem cheney_loop_succ (pfuel fuel : Nat) (c : Scan) (sp : Nat) (h : sp < c.alloc_ptr) :
    cheney_loop pfuel (fuel + 1) (c, sp)
      = match scan_promoted_objects pfuel
          (scan_object false c sp (YHeader.field_size (YHeader.header2 c.gc.mem sp))).1 with
        | none => none
        | some c2 => cheney_loop pfuel fuel
            (c2, sp + 8 * (YHeader.field_size (YHeader.header2 c.gc.mem sp)
              + YHeader.sizeof_words)) := by
  rw [cheney_loop]
  simp only [h, if_true]

/-- The progress after the to-space copy `x.2` was scanned. -/
theorem Phase.copy_scanned {s0 : GC} {N T : List Nat} {c : Scan} {F : List (Nat × Nat)}
    {D : List (Nat × Nat)} {Lk Q : List Nat}
    (hwf : s0.WF N T) (h : Phase s0 N T c F 0 0 D Lk Q)
    {x : Nat × Nat} (hx : x ∈ F) (hxD : x ∉ D) (hxp : promotes s0.mem x.1 = false)
    {c1 : Scan} {F1 : List (Nat × Nat)}
    (hstep : Step s0 N T (x.2, x.1) c F c1 F1)
    (hscan : scanned s0 c1.gc.mem F1 (x.2, x.1)) :
    Phase s0 N T c1 F1 0 0 (x :: D) Lk Q := by
  obtain ⟨hmono, hhd, hold, hfr, hdn, hnf, hlk⟩ :=
    h.carry2 hwf rfl hstep c1.gc.mem (fun _ _ _ _ => rfl) (fun _ _ _ => rfl)
  have hsnd : ∀ y ∈ F, y.2 = x.2 → y = x := fun y hy e => h.inv.snd_inj hwf hy hx e
  have hsnd1 : ∀ y ∈ F1, y.2 = x.2 → y = x :=
    fun y hy e => hstep.inv.snd_inj hwf hy (hmono x hx) e
  have hneD : ∀ y ∈ D, (y.2, y.1) ≠ (x.2, x.1) := by
    intro y hy e
    have e1 : y.2 = x.2 := congrArg Prod.fst e
    exact hxD (hsnd y (h.done_sub y hy) e1 ▸ hy)
  have hneT : ∀ t ∈ T, (t, t) ≠ (x.2, x.1) := by
    intro t ht e
    have e1 : t = x.2 := congrArg Prod.fst e
    exact h.inv.new_not_old hwf hx (e1 ▸ ht)
  have hpend := hstep.pending hwf
    (fun n hn => by
      obtain ⟨y, hy, _, _, e⟩ := (h.pending n).1 hn
      exact ⟨y, hy, e⟩) h.pending_nodup
  constructor
  · exact hstep.inv
  · intro j hj
    exact absurd hj (Nat.not_lt_zero _)
  · intro j hj1 hj2
    rw [hstep.shadow]
    have := h.sh_done j hj1 hj2
    exact ⟨fun h1 => hmono _ (this.1 h1), this.2⟩
  · intro j hj
    rw [hstep.shadow]
    exact h.sh_rest j hj
  · rw [hstep.remember]; exact h.rs_len
  · intro j hj
    rw [hstep.remember]; exact h.rs_new j hj
  · intro j hj
    exact absurd hj (Nat.not_lt_zero _)
  · intro j hj1 hj2
    rw [hstep.remember]
    have := h.rs_done j hj1 hj2
    refine ⟨this.1, fun hj0 => ?_⟩
    have hjT := (hwf.remembered_mem hj2 hj0).1
    have hne := hneT _ hjT
    obtain ⟨h1, h2, h3⟩ := this.2 hj0
    obtain ⟨k1, k2⟩ := hold j hj1 hj2 hj0 hne
    exact ⟨k1, h2.trans k2.symm,
      (hhd _ (mem_owners.2 (Or.inl ⟨hjT, rfl⟩)) hne).trans h3⟩
  · intro t ht hj
    have := h.old_fresh t ht hj
    exact ⟨hfr t ht (hneT t ht) this.1,
      (hhd _ (mem_owners.2 (Or.inl ⟨ht, rfl⟩)) (hneT t ht)).trans this.2⟩
  · intro y hy
    rcases List.mem_cons.1 hy with e | hy
    · rw [e]; exact hmono x hx
    · exact hmono y (h.done_sub y hy)
  · exact List.nodup_cons.2 ⟨hxD, h.done_nodup⟩
  · intro y hy
    rcases List.mem_cons.1 hy with e | hy
    · rw [e]; exact hscan
    · exact (hdn y hy (hneD y hy)).1
  · intro y hy hd
    have hyx : y ≠ x := fun e => hd (e ▸ List.mem_cons_self _ _)
    have hyD : y ∉ D := fun e => hd (List.mem_cons_of_mem _ e)
    refine hnf y hy hyD (fun e => hyx (hsnd1 y hy (congrArg Prod.fst e)))
  · intro n
    rw [hpend.1 n, h.pending n]
    constructor
    · rintro (⟨y, hy, h1, h2, h3⟩ | ⟨y, hy, h1, h2, h3⟩)
      · refine ⟨y, hmono y hy, ?_, h2, h3⟩
        intro hd
        rcases List.mem_cons.1 hd with e | hd
        · rw [e, hxp] at h2; cases h2
        · exact h1 hd
      · refine ⟨y, hy, ?_, h2, h3⟩
        intro hd
        rcases List.mem_cons.1 hd with e | hd
        · exact h1 (e ▸ hx)
        · exact h1 (h.done_sub y hd)
    · rintro ⟨y, hy, h1, h2, h3⟩
      have hyD : y ∉ D := fun e => h1 (List.mem_cons_of_mem _ e)
      by_cases hyF : y ∈ F
      · exact Or.inl ⟨y, hyF, hyD, h2, h3⟩
      · exact Or.inr ⟨y, hy, hyF, h2, h3⟩
  · exact hpend.2
  · rw [hstep.tenure]
    refine chain_to_of_same Lk _ _ ?_ h.chain
    intro n hn
    refine hlk n hn (fun y hy e => ?_)
    obtain ⟨z, hz, _, ez⟩ := (h.linked n).1 hn
    have : y = z := h.inv.snd_inj hwf hy (h.done_sub z hz) (e.trans ez.symm)
    exact hneD y (this ▸ hz)
  · intro n
    rw [h.linked n]
    constructor
    · rintro ⟨y, hy, h1, h2⟩
      exact ⟨y, List.mem_cons_of_mem _ hy, h1, h2⟩
    · rintro ⟨y, hy, h1, h2⟩
      rcases List.mem_cons.1 hy with e | hy
      · rw [e, hxp] at h1; cases h1
      · exact ⟨y, hy, h1, h2⟩
  · intro n
    rw [h.q_mem n]
    constructor
    · rintro ⟨y, hy, h1, h2, h3⟩
      exact ⟨y, List.mem_cons_of_mem _ hy, h1, h2, (hdn y hy (hneD y hy)).2.2 h3⟩
    · rintro ⟨y, hy, h1, h2, h3⟩
      rcases List.mem_cons.1 hy with e | hy
      · rw [e, hxp] at h1; cases h1
      · exact ⟨y, hy, h1, h2, (hdn y hy (hneD y hy)).2.1 h3⟩
  · exact h.q_nodup
  · intro y hy hpr
    rcases List.mem_cons.1 hy with e | hy
    · rw [e, hxp] at hpr; cases hpr
    · rw [hhd (y.2, y.1) (mem_owners.2 (Or.inr (h.done_sub y hy))) (hneD y hy)]
      exact h.q_bit y hy hpr

end GC
namespace GC

/-- The Cheney loop ends with every copy scanned when its fuel covers the young objects not
yet scanned. -/
theorem Phase.cheney_loop {s0 : GC} {N T : List Nat} (hwf : s0.WF N T) (pfuel : Nat)
    (hpf : N.length ≤ pfuel) :
    ∀ (fuel : Nat) (c : Scan) (F D : List (Nat × Nat)) (Lk Q : List Nat) (sp : Nat),
      Phase s0 N T c F 0 0 D Lk Q → c.gc.promoted_objects = [] → scan_line s0 F D sp →
      N.length ≤ fuel + D.length →
      ∃ c' F' D' Lk' Q' sp', GC.cheney_loop pfuel fuel (c, sp) = some (c', sp')
        ∧ Phase s0 N T c' F' 0 0 D' Lk' Q' ∧ c'.gc.promoted_objects = []
        ∧ (∀ x ∈ F', x ∈ D') ∧ F <:+ F' := by
  intro fuel
  induction fuel with
  | zero =>
    intro c F D Lk Q sp h hp hl hf
    by_cases hlt : sp < c.alloc_ptr
    · exfalso
      rcases hl.2 with e | ⟨x, hx, hxp, e⟩
      · rw [h.inv.alloc] at hlt; omega
      · have hxD : x ∉ D := fun hd => by
          have := (hl.1 x hx hxp).1 hd
          omega
        have := h.done_lt hx hxD
        omega
    · refine ⟨c, F, D, Lk, Q, sp, cheney_loop_done pfuel 0 c sp hlt, h, hp, ?_,
        List.suffix_refl F⟩
      intro x hx
      by_contra hxD
      cases hxp : promotes s0.mem x.1
      · have h1 := (h.inv.new_addr hwf x hx).2.2.2 hxp
        have h2 := object_bytes_pos s0.mem x.1
        exact hxD ((hl.1 x hx hxp).2 (by omega))
      · have := (h.pending x.2).2 ⟨x, hx, hxD, hxp, rfl⟩
        rw [hp] at this
        cases this
  | succ fuel ih =>
    intro c F D Lk Q sp h hp hl hf
    by_cases hlt : sp < c.alloc_ptr
    · rcases hl.2 with e | ⟨x, hx, hxp, e⟩
      · rw [h.inv.alloc] at hlt; omega
      · subst e
        have hxD : x ∉ D := fun hd => by
          have := (hl.1 x hx hxp).1 hd
          omega
        have hw0 : (x.2, x.1) ∈ owners T F := mem_owners.2 (Or.inr hx)
        have hso := h.inv.scan_object hwf hw0 (h.inv.reach x hx) (h.new_fresh x hx hxD) false
        simp only at hso
        obtain ⟨F1, hstep, hscanned, -, -⟩ := hso
        have hfs : YHeader.field_size (YHeader.header2 c.gc.mem x.2)
            = YHeader.field_size (YHeader.header2 s0.mem x.1) :=
          (h.inv.owner_shape _ hw0).2.2
        have h1 := h.copy_scanned hwf hx hxD hxp hstep hscanned
        obtain ⟨c2, F2, D2, Lk2, Q2, e2, h2, hp2, hs2, hd2, hd3⟩ :=
          Phase.scan_promoted_objects hwf pfuel _ F1 (x :: D) Lk Q h1 (by omega)
        have hsuf : F <:+ F2 := hstep.suffix.trans hs2
        have hxF2 : x ∈ F2 := hsuf.subset hx
        obtain ⟨G, hG⟩ := hsuf
        have hbytes : 8 * (YHeader.field_size (YHeader.header2 c.gc.mem x.2)
            + YHeader.sizeof_words) = object_bytes s0.mem x.1 := by
          rw [hfs, object_bytes_eq]
          simp only [YHeader.sizeof_words]
        have hxend := ((placed_bounds s0 F h.inv.is_placed x hx).1 hxp).2
        have hline : scan_line s0 F2 D2 (x.2 + 8 * (YHeader.field_size
            (YHeader.header2 c.gc.mem x.2) + YHeader.sizeof_words)) := by
          rw [hbytes]
          refine ⟨?_, placed_next s0 F2 h2.inv.is_placed x hxF2 hxp⟩
          intro y hy hyp
          have hyD2 : y ∈ D2 ↔ y ∈ x :: D := by
            constructor
            · intro hd
              rcases hd3 y hd with h3 | h3
              · exact h3
              · rw [hyp] at h3; cases h3
            · exact hd2 y
          by_cases hyF : y ∈ F
          · have hya := hl.1 y hyF hyp
            rw [hyD2, List.mem_cons, hya]
            constructor
            · rintro (e | hlt2)
              · rw [e]
                have := object_bytes_pos s0.mem x.1
                omega
              · omega
            · intro hlt2
              by_cases e : y = x
              · exact Or.inl e
              · right
                have hap := placed_apart s0 F h.inv.is_placed
                  (by
                    have h5 := (used_le hwf F h.inv.keys_nodup h.inv.keys_young).1
                    have h6 := hwf.semi_spaces
                    have h7 := hwf.nursery_end
                    have h8 := hwf.heap_above
                    omega) y hyF x hx e
                have := object_bytes_pos s0.mem y.1
                omega
          · have hyG : y ∈ G := by
              rw [← hG, List.mem_append] at hy
              rcases hy with hy | hy
              · exact hy
              · exact absurd hy hyF
            have hge := placed_new_ge s0 G F (by rw [hG]; exact h2.inv.is_placed) y hyG hyp
            rw [hyD2]
            constructor
            · intro hd
              rcases List.mem_cons.1 hd with e | hd
              · exact absurd (e ▸ hx) hyF
              · exact absurd (h.done_sub y hd) hyF
            · intro hlt2
              omega
        have hlen : (x :: D).length ≤ D2.length :=
          (List.subperm_of_subset (List.nodup_cons.2 ⟨hxD, h.done_nodup⟩) hd2).length_le
        rw [List.length_cons] at hlen
        obtain ⟨c', F', D', Lk', Q', sp', e3, h3, hp3, hall, hs3⟩ :=
          ih c2 F2 D2 Lk2 Q2 _ h2 hp2 hline (by omega)
        refine ⟨c', F', D', Lk', Q', sp', ?_, h3, hp3, hall, (hstep.suffix.trans hs2).trans hs3⟩
        rw [cheney_loop_succ pfuel fuel c x.2 hlt, e2]
        exact e3
    · refine ⟨c, F, D, Lk, Q, sp, cheney_loop_done pfuel _ c sp hlt, h, hp, ?_,
        List.suffix_refl F⟩
      intro x hx
      by_contra hxD
      cases hxp : promotes s0.mem x.1
      · have h1 := (h.inv.new_addr hwf x hx).2.2.2 hxp
        have h2 := object_bytes_pos s0.mem x.1
        exact hxD ((hl.1 x hx hxp).2 (by omega))
      · have := (h.pending x.2).2 ⟨x, hx, hxD, hxp, rfl⟩
        rw [hp] at this
        cases this

end GC
namespace GC

/-- Counting the scavenge does not disturb the collector's invariants. -/
theorem WF.count {s : GC} {N T : List Nat} (h : s.WF N T) (k : Int) :
    (s.set_copy_gc_count k).WF N T := by
  constructor
  · simpa using h.nursery_pos
  · simpa using h.semi_spaces
  · simpa using h.nursery_end
  · simpa using h.heap_above
  · simpa using h.heap_room
  · simpa using h.young_sorted
  · simpa using h.young_in_space
  · simpa using h.young_header
  · simpa using h.old_apart
  · simpa using h.old_outside
  · simpa using h.old_header
  · simpa using h.fields_closed
  · simpa using h.stack_fits
  · simpa using h.roots_closed
  · simpa using h.remembered_old
  · simpa using h.remembered_nodup
  · simpa [in_nursery] using h.remembered_all
  · simpa using h.no_promoted
  · simpa using h.tenure_chain
  · simpa using h.size_word

/-- The progress at the start of a scavenge. -/
theorem Phase.start {s0 : GC} {N T : List Nat} (hwf : s0.WF N T) :
    Phase s0 N T ⟨s0, s0.semi_space1, 0⟩ [] (s0.stack_top + 1).toNat s0.remember_set.length
      [] [] [] := by
  constructor
  · constructor
    · exact Frame.rfl s0
    · rfl
    · exact List.nodup_nil
    · intro x hx; cases hx
    · intro x hx; cases hx
    · trivial
    · simp [to_used]
    · simp [heap_used]
    · simp only [heap_used, Nat.zero_div, Nat.add_zero]
      exact (Nat.mod_eq_of_lt hwf.size_word).symm
    · intro _ _ _; rfl
    · intro x hx; cases hx
    · intro _ _ _ _ _; rfl
    · intro x hx; cases hx
    · intro x hx; cases hx
    · intro _ _; rfl
    · intro w hw
      rcases mem_owners.1 hw with ⟨_, e⟩ | hx
      · rw [e]
      · cases hx
    · intro w hw i _
      rcases mem_owners.1 hw with ⟨_, e⟩ | hx
      · left; rw [e]
      · cases hx
    · intro x hx; cases hx
    · intro x hx; cases hx
  · intro _ _; rfl
  · intro j h1 h2; omega
  · intro _ _; rfl
  · rfl
  · intro j hj; cases hj
  · intro _ _; rfl
  · intro j h1 h2; omega
  · intro t _ _
    exact ⟨fun _ _ => rfl, rfl⟩
  · intro x hx; cases hx
  · exact List.nodup_nil
  · intro x hx; cases hx
  · intro x hx; cases hx
  · intro n
    simp only [hwf.no_promoted]
    constructor
    · intro hn; cases hn
    · rintro ⟨x, hx, _⟩; cases hx
  · simp only [hwf.no_promoted]
    exact List.nodup_nil
  · rfl
  · intro n
    constructor
    · intro hn; cases hn
    · rintro ⟨x, hx, _⟩; cases hx
  · intro n
    constructor
    · intro hn; cases hn
    · rintro ⟨x, hx, _⟩; cases hx
  · exact List.nodup_nil
  · intro x hx; cases hx

/-- A scavenge started from a state satisfying the collector's invariants, with fuel
covering the young objects, ends; at its end every copy is scanned and no promoted object
is pending. -/
theorem WF.do_copy_gc {s : GC} {N T : List Nat} (hwf : s.WF N T) (fuel : Nat)
    (hf : N.length ≤ fuel) :
    ∃ c F D Lk Q, GC.do_copy_gc fuel s = some (c.gc.flip c.alloc_ptr, c.live_objects)
      ∧ Phase (s.set_copy_gc_count (s.copy_gc_count + 1)) N T c F 0 0 D Lk Q
      ∧ c.gc.promoted_objects = [] ∧ (∀ x ∈ F, x ∈ D) := by
  have hwf0 := hwf.count (s.copy_gc_count + 1)
  generalize hs0 : s.set_copy_gc_count (s.copy_gc_count + 1) = s0 at hwf0
  obtain ⟨F1, h1, -⟩ := Phase.scan_shadow hwf0 _ _ [] (Nat.le_refl _) (Phase.start hwf0)
  have hk : (GC.scan_shadow (s0.stack_top + 1).toNat ⟨s0, s0.semi_space1, 0⟩).gc.remember_set.length
      = s0.remember_set.length := by
    rw [h1.rs_len]; rfl
  rw [← hk] at h1
  obtain ⟨F2, h2, -⟩ := Phase.scan_remember hwf0 _ _ F1 (by rw [hk]) h1
  obtain ⟨c3, F3, D3, Lk3, Q3, e3, h3, hp3, -, -, hd3⟩ :=
    Phase.scan_promoted_objects hwf0 fuel _ F2 [] [] [] h2 (by simpa using hf)
  have hline : scan_line s0 F3 D3 s0.semi_space1 := by
    refine ⟨?_, placed_first s0 F3 h3.inv.is_placed⟩
    intro x hx hxp
    constructor
    · intro hd
      rcases hd3 x hd with h4 | h4
      · cases h4
      · rw [hxp] at h4; cases h4
    · intro hlt
      have := ((h3.inv.new_addr hwf0 x hx).2.2.2 hxp).1
      omega
  obtain ⟨c4, F4, D4, Lk4, Q4, sp4, e4, h4, hp4, hall, -⟩ :=
    Phase.cheney_loop hwf0 fuel hf fuel c3 F3 D3 Lk3 Q3 _ h3 hp3 hline (by omega)
  refine ⟨c4, F4, D4, Lk4, Q4, ?_, h4, hp4, hall⟩
  unfold GC.do_copy_gc
  simp only [hs0, e3, e4]

end GC
namespace GC

theorem WF.remembered_index_of {s0 : GC} {N T : List Nat} (_hwf : s0.WF N T) {t : Nat}
    (ht : t ∈ s0.remember_set) :
    ∃ j, j < s0.remember_set.length ∧ s0.remember_set.getD j 0 = t := by
  obtain ⟨j, hj, e⟩ := List.mem_iff_getElem.1 ht
  exact ⟨j, hj, by rw [List.getD_eq_getElem _ _ hj]; exact e⟩

/-- At the end of a scavenge every owner is scanned. -/
theorem Phase.owner_scanned {s0 : GC} {N T : List Nat} {c : Scan} {F : List (Nat × Nat)}
    {D : List (Nat × Nat)} {Lk Q : List Nat}
    (hwf : s0.WF N T) (h : Phase s0 N T c F 0 0 D Lk Q) (hall : ∀ x ∈ F, x ∈ D) :
    ∀ w ∈ owners T F, scanned s0 c.gc.mem F w := by
  intro w hw
  rcases mem_owners.1 hw with ⟨ht, e⟩ | hx
  · have ew : w = (w.1, w.1) := Prod.ext rfl e
    rw [ew]
    by_cases hr : w.1 ∈ s0.remember_set
    · obtain ⟨j, hj, ej⟩ := hwf.remembered_index_of hr
      have h0 : s0.remember_set.getD j 0 ≠ 0 := by
        rw [ej]; exact (hwf.old_outside _ ht).1
      have := ((h.rs_done j (Nat.zero_le _) hj).2 h0).1
      rw [ej] at this
      exact this
    · exact scanned_of_fresh_old hwf ht hr
  · exact h.new_scanned (w.2, w.1) (hall _ hx)

/-- At the end of a scavenge every young object reachable from the roots has been copied. -/
theorem Phase.closed {s0 : GC} {N T : List Nat} {c : Scan} {F : List (Nat × Nat)}
    {D : List (Nat × Nat)} {Lk Q : List Nat}
    (hwf : s0.WF N T) (h : Phase s0 N T c F 0 0 D Lk Q) (hall : ∀ x ∈ F, x ∈ D)
    {r x : Nat} (hr : s0.copy_root r) (hp : Relation.ReflTransGen (points_to s0.mem) r x) :
    (x ∈ N ∨ x ∈ T) ∧ (x ∈ N → x ∈ F.map Prod.fst) := by
  induction hp with
  | refl =>
    obtain ⟨h0, hi | hm⟩ := hr
    · obtain ⟨i, hi, e⟩ := hi
      have hcl := hwf.roots_closed i hi
      rw [e] at hcl
      rcases hcl with h1 | h1
      · exact absurd h1 h0
      · refine ⟨h1, fun hn => ?_⟩
        have := (h.sh_done i (Nat.zero_le _) hi).1 (by rw [e]; exact hwf.in_nursery_young hn)
        rw [e] at this
        exact List.mem_map.2 ⟨_, this, rfl⟩
    · rcases hwf.remembered_old r hm with h1 | h1
      · exact absurd h1 h0
      · refine ⟨Or.inr h1, fun hn => ?_⟩
        have h2 := hwf.in_nursery_young hn
        rw [hwf.in_nursery_old h1] at h2
        cases h2
  | @tail b z _ hbc ih =>
    obtain ⟨i, hi, hptr, e, hz0⟩ := hbc
    have hbo : b ∈ N ++ T := List.mem_append.2 ih.1
    have hcl := hwf.fields_closed b hbo i hi.2.2 hi.1 hi.2.1 hptr
    rw [e] at hcl
    have hz : z ∈ N ∨ z ∈ T := by
      rcases hcl with h1 | h1
      · exact absurd h1 hz0
      · exact h1
    refine ⟨hz, fun hn => ?_⟩
    have hw : ∃ w ∈ owners T F, w.2 = b := by
      rcases ih.1 with hbN | hbT
      · obtain ⟨y, hy, ey⟩ := List.mem_map.1 (ih.2 hbN)
        exact ⟨(y.2, y.1), mem_owners.2 (Or.inr hy), ey⟩
      · exact ⟨(b, b), mem_owners.2 (Or.inl ⟨hbT, rfl⟩), rfl⟩
    obtain ⟨w, hw, ew⟩ := hw
    have hs := h.owner_scanned hwf hall w hw i (by rw [ew]; exact hi)
      (by rw [ew]; exact hptr) (by rw [ew, e]; exact hwf.in_nursery_young hn)
    rw [ew, e] at hs
    exact List.mem_map.2 ⟨_, hs, rfl⟩

end GC

theorem or_add_and : ∀ (a b : Nat), (a ||| b) + (a &&& b) = a + b := by
  intro a
  induction a using Nat.strong_induction_on with
  | _ a ih =>
    intro b
    rcases Nat.eq_zero_or_pos a with ha | ha
    · subst ha; simp
    · have ih2 := ih (a / 2) (by omega) (b / 2)
      rw [← Nat.or_div_two, ← Nat.and_div_two] at ih2
      have hm1 : (a ||| b) % 2 = 1 ↔ a % 2 = 1 ∨ b % 2 = 1 := Nat.or_mod_two_eq_one
      have hm2 : (a &&& b) % 2 = 1 ↔ a % 2 = 1 ∧ b % 2 = 1 := Nat.and_mod_two_eq_one
      omega

namespace Box

theorem to_boxed_uint64_eq (v : Nat) :
    to_boxed_uint64 v + v / 2 ^ 48 % 2 ^ 16 * 2 ^ 48 = v + 65535 * 2 ^ 48 := by
  unfold to_boxed_uint64
  have h1 := or_add_and v ((0xfffe + 1) <<< 48)
  have h2 : v &&& ((0xfffe + 1) <<< 48) = v / 2 ^ 48 % 2 ^ 16 * 2 ^ 48 := and_field_mask v 48 16
  have h3 : (0xfffe + 1) <<< 48 = 65535 * 2 ^ 48 := by decide
  rw [h2] at h1
  rw [h3] at h1 ⊢
  exact h1

theorem is_uint64_iff (v : Nat) : is_uint64 v = true ↔ v / 2 ^ 48 = 65535 := by
  unfold is_uint64
  rw [beq_iff_eq, Nat.shiftRight_eq_div_pow]

theorem to_int64_eq (v : Nat) :
    to_int64 v = as_int64 (v * 2 ^ 16 % 2 ^ 64) / 2 ^ 16 := by
  unfold to_int64
  rw [Nat.shiftLeft_eq, Int.shiftRight_eq_div_pow]
  norm_num

theorem of_int64_cast (i : Int) : ((of_int64 i : Nat) : Int) = i % 2 ^ 64 := by
  unfold of_int64
  exact Int.toNat_of_nonneg (Int.emod_nonneg _ (by norm_num))

theorem is_nan_iff (d : Nat) :
    is_nan d = true ↔ d / 2 ^ 52 % 2 ^ 11 = 2047 ∧ d % 2 ^ 52 ≠ 0 := by
  unfold is_nan
  rw [Bool.and_eq_true, beq_iff_eq, bne_iff_ne, Nat.shiftRight_eq_div_pow]
  have h1 : d / 2 ^ 52 &&& 0x7ff = d / 2 ^ 52 % 2 ^ 11 :=
    Nat.and_pow_two_sub_one_eq_mod _ 11
  have h2 : d &&& 2 ^ 52 - 1 = d % 2 ^ 52 := Nat.and_pow_two_sub_one_eq_mod _ 52
  rw [h1, h2]

theorem is_double_iff (v : Nat) :
    is_double v = true ↔ (v / 2 ^ 48 + 2 ^ 64 - 1) % 2 ^ 64 / 2 % 2 ^ 15 ≠ 32767 := by
  unfold is_double
  rw [bne_iff_ne, Nat.shiftRight_eq_div_pow]
  have h1 : (v / 2 ^ 48 + 2 ^ 64 - 1) % 2 ^ 64 &&& 0xfffe
      = (v / 2 ^ 48 + 2 ^ 64 - 1) % 2 ^ 64 / 2 ^ 1 % 2 ^ 15 * 2 ^ 1 :=
    and_field_mask _ 1 15
  rw [h1]
  omega

end Box

/-! ## The write barrier -/

/-- Claim C5. The write barrier `w_barrier(v)` on `self` returns `v`; when `v` is a non-null
pointer word whose target has generation above 0 and `self` has generation 0 and remember
bit 0, it sets the remember bit of `self` (adding `2 ^ 56` to `header1` and nothing else)
and appends `self` to the remember set; in every other case the state, hence the header of
`self` and the remember set, is unchanged; and `can_remember` is exactly generation 0 with
remember bit 0. -/
theorem w_barrier_spec (s : GC) (self v : Nat) :
    (GC.w_barrier s self v).2 = v
    ∧ (YHeader.can_remember (YHeader.header1 s.mem self) = true
        ↔ YHeader.gc_generation (YHeader.header1 s.mem self) = 0
          ∧ YHeader.gc_remember (YHeader.header1 s.mem self) = 0)
    ∧ ((v ≠ 0 ∧ Box.is_ptr v = true
          ∧ YHeader.gc_generation (YHeader.header1 s.mem v) > 0
          ∧ YHeader.gc_generation (YHeader.header1 s.mem self) = 0
          ∧ YHeader.gc_remember (YHeader.header1 s.mem self) = 0) →
        (GC.w_barrier s self v).1.remember_set = s.remember_set ++ [self]
        ∧ YHeader.gc_remember (YHeader.header1 (GC.w_barrier s self v).1.mem self) = 1
        ∧ YHeader.header1 (GC.w_barrier s self v).1.mem self
            = YHeader.header1 s.mem self + 2 ^ 56
        ∧ (∀ a, a ≠ self + 8 → (GC.w_barrier s self v).1.mem a = s.mem a))
    ∧ (¬ (v ≠ 0 ∧ Box.is_ptr v = true
          ∧ YHeader.gc_generation (YHeader.header1 s.mem v) > 0
          ∧ YHeader.gc_generation (YHeader.header1 s.mem self) = 0
          ∧ YHeader.gc_remember (YHeader.header1 s.mem self) = 0) →
        GC.w_barrier s self v = (s, v)) := by
  refine ⟨?_, YHeader.can_remember_iff_generation_remember _, ?_, ?_⟩
  · unfold GC.w_barrier; split <;> rfl
  · rintro ⟨h1, h2, h3, h4, h5⟩
    have hc := (YHeader.can_remember_iff_generation_remember _).2 ⟨h4, h5⟩
    have hcond : v ≠ Box.null_value ∧ Box.is_ptr v = true
        ∧ YHeader.can_remember (YHeader.header1 s.mem self) = true
        ∧ YHeader.gc_generation (YHeader.header1 s.mem (Box.to_ptr v)) > 0 :=
      ⟨h1, h2, hc, h3⟩
    unfold GC.w_barrier
    rw [if_pos hcond]
    simp only [GC.add_remember_set, GC.set_remember_set_proj, GC.set_mem_proj]
    refine ⟨trivial, ?_, ?_, ?_⟩
    · simp only [YHeader.header1, YHeader.put_header1, Mem.write_same]
      exact YHeader.gc_remember_set_gc_remember _
    · simp only [YHeader.header1, YHeader.put_header1, Mem.write_same]
      rw [YHeader.set_gc_remember_eq]
      rw [YHeader.gc_remember_eq] at h5
      simp only [YHeader.header1] at h5
      rw [h5]
      omega
    · intro a ha
      simp only [YHeader.put_header1]
      exact Mem.write_other _ _ _ _ ha
  · intro hn
    unfold GC.w_barrier
    rw [if_neg]
    rintro ⟨h1, h2, h3, h4⟩
    have hc := (YHeader.can_remember_iff_generation_remember _).1 h3
    exact hn ⟨h1, h2, h4, hc.1, hc.2⟩

theorem w_barrier_spec_witness :
    ((4096 : Nat) ≠ 0 ∧ Box.is_ptr 4096 = true
        ∧ YHeader.gc_generation (YHeader.header1 Example.tenured_and_young.mem 4096) > 0
        ∧ YHeader.gc_generation (YHeader.header1 Example.tenured_and_young.mem 4352) = 0
        ∧ YHeader.gc_remember (YHeader.header1 Example.tenured_and_young.mem 4352) = 0)
      ∧ (GC.w_barrier Example.tenured_and_young 4352 4096).2 = 4096
      ∧ (GC.w_barrier Example.tenured_and_young 4352 4096).1.remember_set
          = Example.tenured_and_young.remember_set ++ [4352]
      ∧ YHeader.gc_remember
          (YHeader.header1 (GC.w_barrier Example.tenured_and_young 4352 4096).1.mem 4352) = 1 :=
  ⟨by decide!, (w_barrier_spec Example.tenured_and_young 4352 4096).1,
    ((w_barrier_spec Example.tenured_and_young 4352 4096).2.2.1 (by decide!)).1,
    ((w_barrier_spec Example.tenured_and_young 4352 4096).2.2.1 (by decide!)).2.1⟩

/-! ## Moving an object keeps its second header word and its body -/

/-- Moving an object keeps its words: when `copy_and_forward` moves an object `p` (null forwarding pointer) to a
destination that does not overlap it (the to-space cell at `alloc_ptr`, or the fresh tenure
cell when the generation wraps from 3), the destination holds the virtual-table word, the
second header word and every body word of `p` unchanged; so `hash_value` and `field_size`
of the moved object equal those of `p`. -/
theorem copy_and_forward_keeps_header2_and_body (s : GC) (p alloc_ptr live_objects : Nat)
    (hnull : YHeader.forward_pointer (YHeader.header1 s.mem p) = 0)
    (hdisj : (if YHeader.gc_generation (YHeader.header1 s.mem p) = 3 then s.heap_break
                else alloc_ptr) + 8 * object_words s.mem p ≤ p
             ∨ p + 8 * object_words s.mem p
                ≤ (if YHeader.gc_generation (YHeader.header1 s.mem p) = 3 then s.heap_break
                    else alloc_ptr)) :
    (GC.copy_and_forward ⟨s, alloc_ptr, live_objects⟩ p).2
        = (if YHeader.gc_generation (YHeader.header1 s.mem p) = 3 then s.heap_break
            else alloc_ptr)
    ∧ YHeader.header2 (GC.copy_and_forward ⟨s, alloc_ptr, live_objects⟩ p).1.gc.mem
        (GC.copy_and_forward ⟨s, alloc_ptr, live_objects⟩ p).2 = YHeader.header2 s.mem p
    ∧ (∀ i, i < YHeader.field_size (YHeader.header2 s.mem p) →
        YHeader.get_field (GC.copy_and_forward ⟨s, alloc_ptr, live_objects⟩ p).1.gc.mem
          (GC.copy_and_forward ⟨s, alloc_ptr, live_objects⟩ p).2 i = YHeader.get_field s.mem p i)
    ∧ (GC.copy_and_forward ⟨s, alloc_ptr, live_objects⟩ p).1.gc.mem
        (GC.copy_and_forward ⟨s, alloc_ptr, live_objects⟩ p).2 = s.mem p
    ∧ YHeader.hash_value (YHeader.header2 (GC.copy_and_forward ⟨s, alloc_ptr, live_objects⟩ p).1.gc.mem
        (GC.copy_and_forward ⟨s, alloc_ptr, live_objects⟩ p).2)
        = YHeader.hash_value (YHeader.header2 s.mem p)
    ∧ YHeader.field_size (YHeader.header2 (GC.copy_and_forward ⟨s, alloc_ptr, live_objects⟩ p).1.gc.mem
        (GC.copy_and_forward ⟨s, alloc_ptr, live_objects⟩ p).2)
        = YHeader.field_size (YHeader.header2 s.mem p) := by
  have hwords : object_words s.mem p = YHeader.field_size (YHeader.header2 s.mem p) + 3 := rfl
  have hfs : YHeader.field_size (YHeader.header2 s.mem p) < 2 ^ 32 := Nat.mod_lt _ (by norm_num)
  -- the word of the destination at offset `8 * j` is the word of `p` at that offset
  have key : ∀ j, j < YHeader.field_size (YHeader.header2 s.mem p) + 3 → j ≠ 1 →
      (GC.copy_and_forward ⟨s, alloc_ptr, live_objects⟩ p).2
          = (if YHeader.gc_generation (YHeader.header1 s.mem p) = 3 then s.heap_break
              else alloc_ptr)
      ∧ (GC.copy_and_forward ⟨s, alloc_ptr, live_objects⟩ p).1.gc.mem
          ((GC.copy_and_forward ⟨s, alloc_ptr, live_objects⟩ p).2 + 8 * j) = s.mem (p + 8 * j) := by
    intro j hj hj1
    rw [hwords] at hdisj
    unfold GC.copy_and_forward
    simp only [hnull, if_true]
    rw [YHeader.inc_gc_generation_snd, ← YHeader.gc_generation_eq]
    by_cases hg : YHeader.gc_generation (YHeader.header1 s.mem p) = 3
    · simp only [hg, decide_True, if_true, GC.set_promoted_objects_proj, GC.set_mem_proj]
        at hdisj ⊢
      refine ⟨trivial, ?_⟩
      simp only [GC.moved_mem, YHeader.put_header1, YHeader.sizeof_words]
      rw [Mem.write_other _ _ _ _ (by omega), GC.copy_object_dest _ _ _ _ _ hdisj hj,
        Mem.write_other _ _ _ _ (by omega)]
    · simp only [hg, decide_False, if_false, Bool.false_eq_true, GC.set_mem_proj] at hdisj ⊢
      refine ⟨trivial, ?_⟩
      simp only [GC.moved_mem, YHeader.put_header1, YHeader.sizeof_words]
      rw [Mem.write_other _ _ _ _ (by omega), GC.copy_object_dest _ _ _ _ _ hdisj hj,
        Mem.write_other _ _ _ _ (by omega)]
  have h2 : YHeader.header2 (GC.copy_and_forward ⟨s, alloc_ptr, live_objects⟩ p).1.gc.mem
        (GC.copy_and_forward ⟨s, alloc_ptr, live_objects⟩ p).2 = YHeader.header2 s.mem p := by
    have := (key 2 (by omega) (by omega)).2
    simpa [YHeader.header2] using this
  refine ⟨(key 0 (by omega) (by omega)).1, h2, ?_, ?_, by rw [h2], by rw [h2]⟩
  · intro i hi
    unfold YHeader.get_field
    rw [YHeader.field_addr_eq _ _ (by omega), YHeader.field_addr_eq _ _ (by omega)]
    exact (key (i + 3) (by omega) (by omega)).2
  · have := (key 0 (by omega) (by omega)).2
    simpa using this

namespace YHeader

theorem init_fields_other (self : Nat) :
    ∀ (k i : Nat) (m : Mem) (a : Nat),
      (∀ j, i ≤ j → j < i + k → a ≠ self + 24 + 8 * j) → init_fields self k i m a = m a := by
  intro k
  induction k with
  | zero => intro i m a _; rfl
  | succ k ih =>
    intro i m a h
    rw [init_fields, ih (i + 1) _ a (fun j h1 h2 => h j (by omega) (by omega))]
    exact Mem.write_other _ _ _ _ (h i (Nat.le_refl _) (by omega))

theorem init_fields_at (self : Nat) :
    ∀ (k i : Nat) (m : Mem) (j : Nat), i ≤ j → j < i + k →
      init_fields self k i m (self + 24 + 8 * j) = Box.null_value := by
  intro k
  induction k with
  | zero => intro i m j h1 h2; omega
  | succ k ih =>
    intro i m j h1 h2
    rw [init_fields]
    rcases Nat.eq_or_lt_of_le h1 with e | hlt
    · subst e
      rw [init_fields_other self k (i + 1) _ _ (fun j h3 _ => by omega)]
      exact Mem.write_same _ _ _
    · exact ih (i + 1) _ j (by omega) (by omega)

theorem init_header1_fields : ∀ t, t ≤ 2 → ∀ u, u ≤ 7 →
    object_type (init_header1 t u) = t ∧ unbox_size (init_header1 t u) = u
      ∧ gc_generation (init_header1 t u) = 1 ∧ gc_remember (init_header1 t u) = 0
      ∧ gc_mark (init_header1 t u) = 0 ∧ forward_pointer (init_header1 t u) = 0 := by
  decide

theorem or_shift_mod (a b : Nat) (hb : b < 2 ^ 32) : ((a <<< 32) ||| b) % 2 ^ 32 = b := by
  apply Nat.eq_of_testBit_eq
  intro i
  rw [Nat.testBit_mod_two_pow, Nat.testBit_or, Nat.testBit_shiftLeft]
  by_cases hi : i < 32
  · have : ¬ (i ≥ 32) := by omega
    simp [hi, this]
  · have h2 : b < 2 ^ i := Nat.lt_of_lt_of_le hb (Nat.pow_le_pow_right (by norm_num) (by omega))
    simp [hi, Nat.testBit_lt_two_pow h2]

theorem construct_header1 (m : Mem) (self size type unbox : Nat) :
    header1 (construct m self size type unbox) self = init_header1 type unbox := by
  unfold construct
  simp only
  split
  · unfold header1
    rw [init_fields_other self _ _ _ _ (fun j _ _ => by omega)]
    rw [Mem.write_other _ _ _ _ (by omega)]
    exact Mem.write_same _ _ _
  · unfold header1
    rw [Mem.write_other _ _ _ _ (by omega)]
    exact Mem.write_same _ _ _

theorem construct_header2 (m : Mem) (self size type unbox : Nat) :
    header2 (construct m self size type unbox) self
      = ((((self % 2 ^ 32) >>> 3)) <<< 32) ||| (size % 2 ^ 32) := by
  unfold construct
  simp only
  split
  · unfold header2
    rw [init_fields_other self _ _ _ _ (fun j _ _ => by omega)]
    exact Mem.write_same _ _ _
  · unfold header2
    exact Mem.write_same _ _ _

end YHeader

namespace GC

theorem zero_words_other (ptr : Nat) :
    ∀ (k i : Nat) (m : Mem) (a : Nat),
      (∀ j, i ≤ j → j < i + k → a ≠ ptr + 8 * j) → zero_words ptr k i m a = m a := by
  intro k
  induction k with
  | zero => intro i m a _; rfl
  | succ k ih =>
    intro i m a h
    rw [zero_words, ih (i + 1) _ a (fun j h1 h2 => h j (by omega) (by omega))]
    exact Mem.write_other _ _ _ _ (h i (Nat.le_refl _) (by omega))

theorem zero_words_at (ptr : Nat) :
    ∀ (k i : Nat) (m : Mem) (j : Nat), i ≤ j → j < i + k →
      zero_words ptr k i m (ptr + 8 * j) = Box.null_value := by
  intro k
  induction k with
  | zero => intro i m j h1 h2; omega
  | succ k ih =>
    intro i m j h1 h2
    rw [zero_words]
    rcases Nat.eq_or_lt_of_le h1 with e | hlt
    · subst e
      rw [zero_words_other ptr k (i + 1) _ _ (fun j h3 _ => by omega)]
      exact Mem.write_same _ _ _
    · exact ih (i + 1) _ j (by omega) (by omega)

theorem allocate_in_semi_fits (fuel : Nat) (s : GC) (count : Nat)
    (h : ¬ s.current_top + 8 * (((count + 8 - 1) % 2 ^ 64) / 8) > s.current_end) :
    allocate_in_semi fuel s count
      = some (publish s (s.current_top + 8 * (((count + 8 - 1) % 2 ^ 64) / 8))
          (((count + 8 - 1) % 2 ^ 64) / 8)) := by
  unfold allocate_in_semi
  simp only [h, if_false]

end GC

namespace Shadow

theorem resize_grow (l : List Nat) (n : Nat) :
    resize l (l.length + n) = l ++ List.replicate n 0 := by
  unfold resize
  rw [List.take_of_length_le (by omega)]
  congr 2
  omega

theorem resize_append (l r : List Nat) : resize (l ++ r) l.length = l := by
  unfold resize
  rw [List.take_left']
  · have : l.length - (l ++ r).length = 0 := by rw [List.length_append]; omega
    rw [this]; simp
  · rfl

theorem expand_stack (s : GC) (n : Nat) (h : sized s) :
    (expand s (n : Int)).shadow_stack = s.shadow_stack ++ List.replicate n 0
      ∧ (expand s (n : Int)).stack_top = s.stack_top + n := by
  obtain ⟨h1, h2⟩ := h
  unfold expand
  simp only [GC.set_shadow_stack_proj, GC.set_stack_top_proj]
  refine ⟨?_, trivial⟩
  have : (s.stack_top + (n : Int) + 1).toNat = s.shadow_stack.length + n := by omega
  rw [this]
  exact resize_grow _ _

theorem getD_replicate_zero (l : List Nat) (n k : Nat) (hk : l.length ≤ k) :
    (l ++ List.replicate n 0).getD k 0 = 0 := by
  rw [List.getD_append_right _ _ _ _ hk]
  rw [List.getD_eq_getElem?_getD]
  rcases Nat.lt_or_ge (k - l.length) n with h | h
  · rw [List.getElem?_replicate_of_lt h]; rfl
  · rw [List.getElem?_eq_none (by rw [List.length_replicate]; exact h)]; rfl

end Shadow

namespace GC

theorem sweep_inner_stop (mb fuel : Nat) (s : GC) (next : Nat)
    (h : ¬ (next ≠ 0 ∧ YHeader.gc_mark (YHeader.header1 s.mem next) ≠ mb)) :
    sweep_inner mb fuel (s, next) = some (s, next) := by
  cases fuel <;> simp only [sweep_inner, h, if_false]

theorem sweep_inner_succ (mb fuel : Nat) (s : GC) (next : Nat)
    (h : next ≠ 0 ∧ YHeader.gc_mark (YHeader.header1 s.mem next) ≠ mb) :
    sweep_inner mb (fuel + 1) (s, next)
      = sweep_inner mb fuel
          ((s.set_tenure_space_size ((s.tenure_space_size + 2 ^ 64
              - (YHeader.field_size (YHeader.header2 s.mem next) + YHeader.sizeof_words))
              % 2 ^ 64)).set_freed (s.freed ++ [next]),
            YHeader.next_object (YHeader.header1 s.mem next)) := by
  rw [sweep_inner, if_pos h]

theorem words_of_nil (m : Mem) : words_of m [] = 0 := rfl

theorem words_of_cons (m : Mem) (n : Nat) (L : List Nat) :
    words_of m (n :: L) = object_words m n + words_of m L := by
  simp [words_of]

theorem words_of_append (m : Mem) (A B : List Nat) :
    words_of m (A ++ B) = words_of m A + words_of m B := by
  simp [words_of]

theorem words_of_congr {m m' : Mem} (L : List Nat)
    (h : ∀ n ∈ L, YHeader.header2 m' n = YHeader.header2 m n) :
    words_of m' L = words_of m L := by
  unfold words_of
  congr 1
  apply List.map_congr_left
  intro n hn
  unfold object_words
  rw [h n hn]

/-- The inner loop of the sweep frees the leading run of unmarked nodes. -/
theorem sweep_inner_spec (mb : Nat) :
    ∀ (R : List Nat) (fuel : Nat) (s : GC) (next : Nat),
      chain_to s.mem next R 0 → (∀ n ∈ R, n ≠ 0) → R.length ≤ fuel →
      ∃ (U K : List Nat) (s' : GC), R = U ++ K
        ∧ (∀ n ∈ U, YHeader.gc_mark (YHeader.header1 s.mem n) ≠ mb)
        ∧ (∀ k K', K = k :: K' → YHeader.gc_mark (YHeader.header1 s.mem k) = mb)
        ∧ sweep_inner mb fuel (s, next) = some (s', K.headD 0)
        ∧ chain_to s.mem (K.headD 0) K 0
        ∧ s'.freed = s.freed ++ U
        ∧ (s'.tenure_space_size + words_of s.mem U) % 2 ^ 64 = s.tenure_space_size % 2 ^ 64
        ∧ s' = (s.set_tenure_space_size s'.tenure_space_size).set_freed s'.freed := by
  intro R
  induction R with
  | nil =>
    intro fuel s next hc _ _
    have h0 : next = 0 := hc
    refine ⟨[], [], s, rfl, (fun n hn => by cases hn), (fun k K' e => by cases e), ?_, ?_, ?_,
      ?_, rfl⟩
    · rw [sweep_inner_stop mb fuel s next (by rw [h0]; simp), h0]
      rfl
    · rfl
    · simp
    · simp [words_of]
  | cons n R ih =>
    intro fuel s next hc hnz hf
    obtain ⟨e, hc2⟩ := hc
    subst e
    by_cases hm : YHeader.gc_mark (YHeader.header1 s.mem next) = mb
    · refine ⟨[], next :: R, s, rfl, (fun n hn => by cases hn), ?_, ?_, ⟨rfl, hc2⟩, ?_, ?_,
        rfl⟩
      · intro k K' e
        cases e
        exact hm
      · exact sweep_inner_stop mb fuel s next (by simp [hm])
      · simp
      · simp [words_of]
    · have hn0 : next ≠ 0 := hnz next (List.mem_cons_self _ _)
      obtain ⟨fuel, rfl⟩ : ∃ f, fuel = f + 1 := ⟨fuel - 1, by
        rw [List.length_cons] at hf; omega⟩
      rw [List.length_cons] at hf
      obtain ⟨U, K, s', e1, h1, h2, h3, h4, h5, h6, h7⟩ :=
        ih fuel ((s.set_tenure_space_size ((s.tenure_space_size + 2 ^ 64
              - (YHeader.field_size (YHeader.header2 s.mem next) + YHeader.sizeof_words))
              % 2 ^ 64)).set_freed (s.freed ++ [next]))
          (YHeader.next_object (YHeader.header1 s.mem next)) (by simpa using hc2)
          (fun x hx => hnz x (List.mem_cons_of_mem _ hx)) (by omega)
      simp only [set_freed_proj, set_tenure_space_size_proj] at h1 h2 h4 h5 h6 h7
      refine ⟨next :: U, K, s', by rw [e1]; rfl, ?_, h2, ?_, h4, ?_, ?_, ?_⟩
      · intro x hx
        rcases List.mem_cons.1 hx with e | hx
        · rw [e]; exact hm
        · exact h1 x hx
      · rw [sweep_inner_succ mb fuel s next ⟨hn0, hm⟩]
        exact h3
      · rw [h5]; simp
      · rw [words_of_cons]
        have hw : object_words s.mem next
            = YHeader.field_size (YHeader.header2 s.mem next) + 3 := rfl
        have hlt := field_size_lt (YHeader.header2 s.mem next)
        have hs : YHeader.sizeof_words = 3 := rfl
        rw [hs] at h6
        rw [hw]
        omega
      · rw [h7]
        rfl

end GC

namespace GC

theorem sweep_outer_succ (mb ifuel fuel : Nat) (s : GC) (root_h1 : Nat) (ptr : Option Nat)
    (s1 : GC) (next : Nat)
    (e : sweep_inner mb ifuel (s, YHeader.next_object (s.link_word root_h1 ptr))
      = some (s1, next)) :
    sweep_outer mb ifuel (fuel + 1) (s, root_h1, ptr)
      = if next = 0 then
          some (relink s1 root_h1 ptr (YHeader.next_object (s.link_word root_h1 ptr)) next)
        else sweep_outer mb ifuel fuel
          ((relink s1 root_h1 ptr (YHeader.next_object (s.link_word root_h1 ptr)) next).1,
            (relink s1 root_h1 ptr (YHeader.next_object (s.link_word root_h1 ptr)) next).2,
            some next) := by
  unfold link_word at e
  cases ptr with
  | none =>
    simp only at e
    simp only [sweep_outer, e, relink, link_word]
  | some q =>
    simp only at e
    simp only [sweep_outer, e, relink, link_word]

theorem relink_spec (s1 : GC) (root_h1 : Nat) (ptr : Option Nat) (next0 next : Nat)
    (hn : next < 2 ^ 48)
    (h0 : next = next0 → YHeader.next_object (s1.link_word root_h1 ptr) = next0) :
    YHeader.next_object
        ((relink s1 root_h1 ptr next0 next).1.link_word (relink s1 root_h1 ptr next0 next).2 ptr)
        = next
    ∧ (∀ a, (∀ q, ptr = some q → a ≠ q + 8) →
        (relink s1 root_h1 ptr next0 next).1.mem a = s1.mem a)
    ∧ (relink s1 root_h1 ptr next0 next).1.link_word (relink s1 root_h1 ptr next0 next).2 ptr
          / 2 ^ 48 % 2 ^ 16
        = s1.link_word root_h1 ptr / 2 ^ 48 % 2 ^ 16
    ∧ (∀ q, ptr = some q → (relink s1 root_h1 ptr next0 next).2 = root_h1)
    ∧ (relink s1 root_h1 ptr next0 next).1
        = s1.set_mem (relink s1 root_h1 ptr next0 next).1.mem := by
  unfold relink
  by_cases hne : next = next0
  · rw [if_neg (by simpa using hne)]
    refine ⟨by rw [h0 hne, hne], fun _ _ => rfl, rfl, fun _ _ => rfl, rfl⟩
  · rw [if_pos hne]
    cases ptr with
    | none =>
      simp only [link_word]
      refine ⟨YHeader.next_object_set_next_object _ _ hn, ?_, ?_, ?_, ?_⟩
      · intro _ _; trivial
      · rw [YHeader.set_next_object_eq]; omega
      · intro q hq; cases hq
      · trivial
    | some q =>
      simp only [link_word, set_mem_proj]
      have hw : YHeader.header1 (YHeader.put_header1 s1.mem q
          (YHeader.set_next_object (YHeader.header1 s1.mem q) next)) q
          = YHeader.set_next_object (YHeader.header1 s1.mem q) next := by
        simp [YHeader.header1, YHeader.put_header1, Mem.write]
      rw [hw]
      refine ⟨YHeader.next_object_set_next_object _ _ hn, ?_, ?_, ?_, ?_⟩
      · intro a ha
        exact Mem.write_other _ _ _ _ (ha q rfl)
      · rw [YHeader.set_next_object_eq]; omega
      · intro _ _; trivial
      · simp

theorem chain_small {m : Mem} :
    ∀ (R : List Nat) (p : Nat), p < 2 ^ 48 → chain_to m p R 0 → ∀ n ∈ R, n < 2 ^ 48 := by
  intro R
  induction R with
  | nil => intro p _ _ n hn; cases hn
  | cons x R ih =>
    intro p hp hc n hn
    obtain ⟨e, hc2⟩ := hc
    rcases List.mem_cons.1 hn with e2 | hn
    · rw [e2, ← e]; exact hp
    · exact ih _ (by rw [YHeader.next_object_eq]; exact Nat.mod_lt _ (by norm_num)) hc2 n hn

theorem next_object_lt (h : Nat) : YHeader.next_object h < 2 ^ 48 := by
  rw [YHeader.next_object_eq]; exact Nat.mod_lt _ (by norm_num)

end GC

namespace GC

theorem Kept.same (s : GC) : Kept s s := by
  constructor <;> rfl

theorem Kept.step {s t u : GC} (h1 : Kept s t) (h2 : Kept t u) : Kept s u := by
  constructor
  · exact h2.nursery_space.trans h1.nursery_space
  · exact h2.nursery_space_end.trans h1.nursery_space_end
  · exact h2.semi_space_size.trans h1.semi_space_size
  · exact h2.semi_space0.trans h1.semi_space0
  · exact h2.semi_space1.trans h1.semi_space1
  · exact h2.current_top.trans h1.current_top
  · exact h2.current_end.trans h1.current_end
  · exact h2.shadow_stack.trans h1.shadow_stack
  · exact h2.stack_top.trans h1.stack_top
  · exact h2.promoted_objects.trans h1.promoted_objects
  · exact h2.current_mark_bit.trans h1.current_mark_bit
  · exact h2.tenure_space_limit.trans h1.tenure_space_limit
  · exact h2.copy_gc_count.trans h1.copy_gc_count
  · exact h2.mark_sweep_gc_count.trans h1.mark_sweep_gc_count
  · exact h2.heap_break.trans h1.heap_break

end GC

namespace GC

theorem link_word_congr {s t : GC} (r : Nat) (ptr : Option Nat)
    (h : ∀ q, ptr = some q → t.mem (q + 8) = s.mem (q + 8)) :
    t.link_word r ptr = s.link_word r ptr := by
  cases ptr with
  | none => rfl
  | some q => exact h q rfl

theorem filter_marked_append (p : Nat → Bool) (U : List Nat) (k : Nat) (K : List Nat)
    (hU : ∀ x ∈ U, p x = false) (hk : p k = true) :
    (U ++ k :: K).filter p = k :: K.filter p
      ∧ (U ++ k :: K).filter (fun x => !p x) = U ++ K.filter (fun x => !p x) := by
  constructor
  · rw [List.filter_append, List.filter_cons_of_pos hk]
    have : U.filter p = [] := List.filter_eq_nil_iff.2 (fun x hx => by rw [hU x hx]; simp)
    rw [this]; rfl
  · rw [List.filter_append, List.filter_cons_of_neg (by rw [hk]; simp)]
    have : U.filter (fun x => !p x) = U :=
      List.filter_eq_self.2 (fun x hx => by rw [hU x hx]; rfl)
    rw [this]

theorem filter_marked_all (p : Nat → Bool) (U : List Nat) (hU : ∀ x ∈ U, p x = false) :
    U.filter p = [] ∧ U.filter (fun x => !p x) = U :=
  ⟨List.filter_eq_nil_iff.2 (fun x hx => by rw [hU x hx]; simp),
    List.filter_eq_self.2 (fun x hx => by rw [hU x hx]; rfl)⟩

end GC

namespace GC

/-- The outer loop of the sweep, started at `ptr` with the nodes `R` after it, leaves after
`ptr` exactly the nodes of `R` that carry the mark, in their order. -/
theorem sweep_outer_spec (mb ifuel : Nat) :
    ∀ (n : Nat) (R : List Nat) (fuel : Nat) (s : GC) (root_h1 : Nat) (ptr : Option Nat),
      R.length < n →
      chain_to s.mem (YHeader.next_object (s.link_word root_h1 ptr)) R 0 →
      (∀ x ∈ R, x ≠ 0) → R.Nodup → (∀ q, ptr = some q → q ∉ R) →
      (∀ a ∈ ptr.toList ++ R, ∀ b ∈ ptr.toList ++ R, a + 8 ≠ b + 16) →
      R.length ≤ ifuel → R.length + 1 ≤ fuel →
      ∃ (s' : GC) (r' : Nat), sweep_outer mb ifuel fuel (s, root_h1, ptr) = some (s', r')
        ∧ chain_to s'.mem (YHeader.next_object (s'.link_word r' ptr))
            (R.filter (fun x => decide (YHeader.gc_mark (YHeader.header1 s.mem x) = mb))) 0
        ∧ (∀ a, (∀ x ∈ ptr.toList
              ++ R.filter (fun x => decide (YHeader.gc_mark (YHeader.header1 s.mem x) = mb)),
            a ≠ x + 8) → s'.mem a = s.mem a)
        ∧ (∀ x ∈ R.filter (fun x => decide (YHeader.gc_mark (YHeader.header1 s.mem x) = mb)),
            YHeader.header1 s'.mem x / 2 ^ 48 % 2 ^ 16
              = YHeader.header1 s.mem x / 2 ^ 48 % 2 ^ 16)
        ∧ s'.link_word r' ptr / 2 ^ 48 % 2 ^ 16 = s.link_word root_h1 ptr / 2 ^ 48 % 2 ^ 16
        ∧ (∀ q, ptr = some q → r' = root_h1)
        ∧ s'.freed = s.freed
            ++ R.filter (fun x => !decide (YHeader.gc_mark (YHeader.header1 s.mem x) = mb))
        ∧ (s'.tenure_space_size + words_of s.mem (R.filter
              (fun x => !decide (YHeader.gc_mark (YHeader.header1 s.mem x) = mb)))) % 2 ^ 64
            = s.tenure_space_size % 2 ^ 64
        ∧ Kept s s' ∧ s'.tenure_space = s.tenure_space
        ∧ s'.remember_set = s.remember_set := by
  intro n
  induction n with
  | zero => intro R fuel s root_h1 ptr h; omega
  | succ n ih =>
    intro R fuel s root_h1 ptr hlen hchain hnz hnd hpq hap hif hf
    obtain ⟨fuel, rfl⟩ : ∃ f, fuel = f + 1 := ⟨fuel - 1, by omega⟩
    obtain ⟨U, K, s1, eR, hU, hK, einner, hcK, hfreed, htss, hs1⟩ :=
      sweep_inner_spec mb R ifuel s _ hchain hnz hif
    have hm1 : s1.mem = s.mem := by rw [hs1]; simp
    have hk1 : Kept s s1 := by rw [hs1]; constructor <;> simp
    have hts1 : s1.tenure_space = s.tenure_space := by rw [hs1]; simp
    have hrs1 : s1.remember_set = s.remember_set := by rw [hs1]; simp
    have hR48 : ∀ x ∈ R, x < 2 ^ 48 := chain_small R _ (next_object_lt _) hchain
    have hnext48 : K.headD 0 < 2 ^ 48 := by
      cases K with
      | nil => simp
      | cons k K' =>
        simp only [List.headD_cons]
        exact hR48 k (by rw [eR]; simp)
    have hlw1 : s1.link_word root_h1 ptr = s.link_word root_h1 ptr :=
      link_word_congr root_h1 ptr (fun q _ => by rw [hm1])
    rw [sweep_outer_succ mb ifuel fuel s root_h1 ptr s1 _ einner]
    obtain ⟨a1, a2, a3, a4, a5⟩ := relink_spec s1 root_h1 ptr
      (YHeader.next_object (s.link_word root_h1 ptr)) (K.headD 0) hnext48
      (fun _ => by rw [hlw1])
    generalize relink s1 root_h1 ptr (YHeader.next_object (s.link_word root_h1 ptr))
      (K.headD 0) = st at a1 a2 a3 a4 a5 ⊢
    obtain ⟨s2, r2⟩ := st
    simp only at a1 a2 a3 a4 a5 ⊢
    have hk2 : Kept s s2 := by
      refine hk1.step ?_
      rw [a5]; constructor <;> simp
    have hts2 : s2.tenure_space = s.tenure_space := by rw [a5]; simpa using hts1
    have hrs2 : s2.remember_set = s.remember_set := by rw [a5]; simpa using hrs1
    have hfr2 : s2.freed = s.freed ++ U := by rw [a5]; simpa using hfreed
    have htss2 : s2.tenure_space_size = s1.tenure_space_size := by rw [a5]; simp
    have hmem2 : ∀ a, (∀ q, ptr = some q → a ≠ q + 8) → s2.mem a = s.mem a := by
      intro a ha
      rw [a2 a ha, hm1]
    have hUm : ∀ x ∈ U,
        decide (YHeader.gc_mark (YHeader.header1 s.mem x) = mb) = false :=
      fun x hx => decide_eq_false (hU x hx)
    cases K with
    | nil =>
      simp only [List.headD_nil, if_true] at a1 ⊢
      rw [List.append_nil] at eR
      subst eR
      obtain ⟨f1, f2⟩ := filter_marked_all _ R hUm
      rw [f1, f2]
      refine ⟨s2, r2, rfl, a1, ?_, ?_, ?_, a4, hfr2, ?_, hk2, hts2, hrs2⟩
      · intro a ha
        exact hmem2 a (fun q hq => ha q (by rw [hq]; simp))
      · intro x hx; cases hx
      · rw [a3, hlw1]
      · rw [htss2]; exact htss
    | cons k K' =>
      have hkR : k ∈ R := by rw [eR]; simp
      have hk0 : k ≠ 0 := hnz k hkR
      simp only [List.headD_cons] at a1 hcK ⊢
      rw [if_neg hk0]
      have hkm : decide (YHeader.gc_mark (YHeader.header1 s.mem k) = mb) = true :=
        decide_eq_true (hK k K' rfl)
      have hK'R : ∀ x ∈ K', x ∈ R := fun x hx => by rw [eR]; simp [hx]
      have hsub : ∀ x ∈ k :: K', x ∈ R := fun x hx => by
        rcases List.mem_cons.1 hx with e | hx
        · rw [e]; exact hkR
        · exact hK'R x hx
      have hnq : ∀ x ∈ R, ∀ q, ptr = some q → x + 8 ≠ q + 8 := by
        intro x hx q hq e
        have : x = q := by omega
        exact hpq q hq (this ▸ hx)
      have hh2 : ∀ x ∈ R, YHeader.header1 s2.mem x = YHeader.header1 s.mem x :=
        fun x hx => hmem2 (x + 8) (fun q hq => hnq x hx q hq)
      have hh2b : ∀ x ∈ R, YHeader.header2 s2.mem x = YHeader.header2 s.mem x :=
        fun x hx => hmem2 (x + 16) (fun q hq => by
          have := hap q (by rw [hq]; simp) x (by simp [hx])
          omega)
      have hnd2 : (k :: K').Nodup := by
        rw [eR] at hnd
        exact (List.nodup_append.1 hnd).2.1
      have hlenR : R.length = U.length + (K'.length + 1) := by
        rw [eR, List.length_append, List.length_cons]
      have hchain2 : chain_to s2.mem
          (YHeader.next_object (s2.link_word r2 (some k))) K' 0 := by
        show chain_to s2.mem (YHeader.next_object (YHeader.header1 s2.mem k)) K' 0
        rw [hh2 k hkR]
        exact chain_to_of_same K' _ _ (fun x hx => hh2 x (hK'R x hx)) hcK.2
      obtain ⟨s', r', e', c1, c2, c3, c4, c5, c6, c7, c8, c9, c10⟩ :=
        ih K' fuel s2 r2 (some k) (by omega) hchain2 (fun x hx => hnz x (hK'R x hx))
          (List.nodup_cons.1 hnd2).2
          (fun q hq => by cases hq; exact (List.nodup_cons.1 hnd2).1)
          (fun a ha b hb => hap a (by
              simp only [Option.toList, List.singleton_append] at ha
              exact List.mem_append_right _ (hsub a ha)) b (by
              simp only [Option.toList, List.singleton_append] at hb
              exact List.mem_append_right _ (hsub b hb)))
          (by omega) (by omega)
      have hfc : K'.filter (fun x => decide (YHeader.gc_mark (YHeader.header1 s2.mem x) = mb))
          = K'.filter (fun x => decide (YHeader.gc_mark (YHeader.header1 s.mem x) = mb)) :=
        List.filter_congr (fun x hx => by rw [hh2 x (hK'R x hx)])
      have hfc2 : K'.filter
            (fun x => !decide (YHeader.gc_mark (YHeader.header1 s2.mem x) = mb))
          = K'.filter (fun x => !decide (YHeader.gc_mark (YHeader.header1 s.mem x) = mb)) :=
        List.filter_congr (fun x hx => by rw [hh2 x (hK'R x hx)])
      rw [hfc] at c1 c2 c3
      rw [hfc2] at c6 c7
      have hw2 : words_of s2.mem (K'.filter
            (fun x => !decide (YHeader.gc_mark (YHeader.header1 s.mem x) = mb)))
          = words_of s.mem (K'.filter
            (fun x => !decide (YHeader.gc_mark (YHeader.header1 s.mem x) = mb))) :=
        words_of_congr _ (fun x hx => hh2b x (hK'R x (List.mem_of_mem_filter hx)))
      rw [hw2] at c7
      have hr' : r' = r2 := c5 k rfl
      have hfk : ∀ x ∈ K'.filter
          (fun x => decide (YHeader.gc_mark (YHeader.header1 s.mem x) = mb)), x ∈ R :=
        fun x hx => hK'R x (List.mem_of_mem_filter hx)
      have hl : s'.link_word r' ptr = s2.link_word r2 ptr := by
        rw [hr']
        refine link_word_congr r2 ptr (fun q hq => c2 _ (fun x hx => ?_))
        simp only [Option.toList, List.singleton_append, List.mem_cons] at hx
        rcases hx with e | hx
        · exact fun e2 => hnq k hkR q hq (by omega)
        · exact fun e2 => hnq x (hfk x hx) q hq (by omega)
      obtain ⟨g1, g2⟩ := filter_marked_append _ U k K' hUm hkm
      rw [eR, g1, g2]
      refine ⟨s', r', e', ⟨by rw [hl]; exact a1, c1⟩, ?_, ?_, ?_, ?_, ?_, ?_, hk2.step c8,
        c9.trans hts2, c10.trans hrs2⟩
      · intro a ha
        rw [c2 a (fun x hx => ha x (by
          simp only [Option.toList, List.singleton_append] at hx
          exact List.mem_append_right _ hx))]
        exact hmem2 a (fun q hq => ha q (by rw [hq]; simp))
      · intro x hx
        rcases List.mem_cons.1 hx with e | hx
        · rw [e]
          have : YHeader.header1 s'.mem k / 2 ^ 48 % 2 ^ 16
              = YHeader.header1 s2.mem k / 2 ^ 48 % 2 ^ 16 := c4
          rw [this, hh2 k hkR]
        · rw [c3 x hx, hh2 x (hfk x hx)]
      · rw [hl, a3, hlw1]
      · intro q hq
        rw [hr']; exact a4 q hq
      · rw [c6, hfr2, List.append_assoc]
      · rw [words_of_append]
        rw [htss2] at c7
        omega

end GC

namespace GC

/-- The sweep phase as a whole, in the terms of `sweep_outer_spec`. -/
theorem sweep_spec (s : GC) (L : List Nat) (mb fuel : Nat) (hL : s.Listed L)
    (hf : L.length + 1 ≤ fuel) :
    ∃ t : GC, GC.sweep mb fuel s = some t
      ∧ t.Listed (L.filter (fun x => decide (YHeader.gc_mark (YHeader.header1 s.mem x) = mb)))
      ∧ (∀ x ∈ L.filter (fun x => decide (YHeader.gc_mark (YHeader.header1 s.mem x) = mb)),
          YHeader.gc_mark (YHeader.header1 t.mem x) = mb)
      ∧ t.freed = s.freed
          ++ L.filter (fun x => !decide (YHeader.gc_mark (YHeader.header1 s.mem x) = mb))
      ∧ (t.tenure_space_size + words_of s.mem (L.filter
            (fun x => !decide (YHeader.gc_mark (YHeader.header1 s.mem x) = mb)))) % 2 ^ 64
          = s.tenure_space_size % 2 ^ 64
      ∧ (∀ a, (∀ x ∈ L.filter
            (fun x => decide (YHeader.gc_mark (YHeader.header1 s.mem x) = mb)), a ≠ x + 8) →
          t.mem a = s.mem a)
      ∧ Kept s t ∧ t.remember_set = s.remember_set := by
  have hroot : YHeader.next_object
      (s.link_word (YHeader.set_next_object (YHeader.init_header1 0 0) s.tenure_space) none)
      = s.tenure_space := YHeader.next_object_set_next_object _ _ hL.head
  obtain ⟨s', r', e', c1, c2, c3, c4, c5, c6, c7, c8, c9, c10⟩ :=
    sweep_outer_spec mb fuel (L.length + 1) L fuel s
      (YHeader.set_next_object (YHeader.init_header1 0 0) s.tenure_space) none
      (by omega) (by rw [hroot]; exact hL.chain) hL.nonnull hL.nodup
      (fun q hq => by cases hq)
      (fun a ha b hb => hL.apart a (by simpa using ha) b (by simpa using hb))
      (by omega) hf
  refine ⟨s'.set_tenure_space (YHeader.next_object r'), ?_, ?_, ?_, ?_, ?_, ?_, ?_, ?_⟩
  · unfold GC.sweep
    rw [e']
  · constructor
    · simp only [set_tenure_space_proj]
      exact next_object_lt _
    · simp only [set_tenure_space_proj]
      exact c1
    · intro x hx
      exact hL.nonnull x (List.mem_of_mem_filter hx)
    · exact hL.nodup.filter _
    · intro a ha b hb
      exact hL.apart a (List.mem_of_mem_filter ha) b (List.mem_of_mem_filter hb)
  · intro x hx
    simp only [set_tenure_space_proj]
    have h1 := c3 x hx
    have h2 : YHeader.gc_mark (YHeader.header1 s.mem x) = mb :=
      of_decide_eq_true (List.mem_filter.1 hx).2
    rw [YHeader.gc_mark_eq] at h2 ⊢
    omega
  · simpa using c6
  · simpa using c7
  · intro a ha
    simp only [set_tenure_space_proj]
    exact c2 a (fun x hx => ha x (by simpa using hx))
  · refine c8.step ?_
    constructor <;> simp
  · simpa using c10

theorem do_mark_sweep_gc_sweep (fuel : Nat) (s : GC) :
    do_mark_sweep_gc fuel s
      = match mark_loop
            ((reset_remember_loop s.remember_set.length
              (s.set_mark_sweep_gc_count (s.mark_sweep_gc_count + 1))).set_remember_set
              []).current_mark_bit fuel
          (mark_roots
            ((reset_remember_loop s.remember_set.length
              (s.set_mark_sweep_gc_count (s.mark_sweep_gc_count + 1))).set_remember_set
              []).current_mark_bit
            (((reset_remember_loop s.remember_set.length
              (s.set_mark_sweep_gc_count (s.mark_sweep_gc_count + 1))).set_remember_set
              []).stack_top + 1).toNat
            ((reset_remember_loop s.remember_set.length
              (s.set_mark_sweep_gc_count (s.mark_sweep_gc_count + 1))).set_remember_set [],
              [], 0)) with
        | none => none
        | some r =>
          match GC.sweep
              ((reset_remember_loop s.remember_set.length
                (s.set_mark_sweep_gc_count (s.mark_sweep_gc_count + 1))).set_remember_set
                []).current_mark_bit fuel r.1 with
          | none => none
          | some t => some (t.set_current_mark_bit (t.current_mark_bit ^^^ 2), r.2) := by
  unfold do_mark_sweep_gc GC.sweep
  simp only [set_mark_sweep_gc_count_proj]
  cases mark_loop _ fuel _ with
  | none => rfl
  | some r =>
    obtain ⟨s2, live⟩ := r
    simp only
    cases sweep_outer _ fuel fuel _ with
    | none => rfl
    | some r2 =>
      obtain ⟨s3, root⟩ := r2
      simp

end GC

theorem two_tenured_listed : Example.two_tenured.Listed [0x1120, 0x1100] := by
  constructor
  · decide!
  · simp only [chain_to]
    decide!
  · decide
  · decide
  · decide


namespace YHeader

theorem same_but_marks_refl (h : Nat) : same_but_marks h h := ⟨rfl, rfl⟩

theorem same_but_marks_trans {a b c : Nat} (h1 : same_but_marks a b)
    (h2 : same_but_marks b c) : same_but_marks a c :=
  ⟨h2.1.trans h1.1, h2.2.trans h1.2⟩

theorem same_but_marks_set_gc_mark (h v : Nat) : same_but_marks h (set_gc_mark h v).1 := by
  unfold same_but_marks
  rw [set_gc_mark_fst]
  omega

theorem same_but_marks_set_gc_remember (h : Nat) : same_but_marks h (set_gc_remember h) := by
  unfold same_but_marks
  rw [set_gc_remember_eq]
  omega

theorem same_but_marks_reset_gc_remember (h : Nat) :
    same_but_marks h (reset_gc_remember h) := by
  unfold same_but_marks
  rw [reset_gc_remember_eq]
  omega

theorem gc_mark_set_gc_mark (h v : Nat) (hv : v < 4) : gc_mark (set_gc_mark h v).1 = v := by
  rw [gc_mark_eq, set_gc_mark_fst]
  omega

theorem same_but_marks_shape {h g : Nat} (e : same_but_marks h g) :
    has_boxed_value g = has_boxed_value h ∧ unbox_size g = unbox_size h
      ∧ next_object g = next_object h := by
  obtain ⟨e1, e2⟩ := e
  have hk : kind g = kind h := e2
  obtain ⟨k1, k2, _⟩ := kind_congr hk
  refine ⟨k1, k2, ?_⟩
  rw [next_object_eq, next_object_eq]; omega

end YHeader

theorem marks_only_refl (U : List Nat) (m : Mem) : marks_only U m m :=
  ⟨fun _ _ => rfl, fun _ _ => YHeader.same_but_marks_refl _⟩

theorem marks_only_trans {U : List Nat} {a b c : Mem} (h1 : marks_only U a b)
    (h2 : marks_only U b c) : marks_only U a c :=
  ⟨fun x hx => (h2.other x hx).trans (h1.other x hx),
    fun o ho => YHeader.same_but_marks_trans (h1.head o ho) (h2.head o ho)⟩

theorem marks_only_put {U : List Nat} (m : Mem) {p g : Nat} (hp : p ∈ U)
    (hg : YHeader.same_but_marks (YHeader.header1 m p) g) :
    marks_only U m (YHeader.put_header1 m p g) := by
  constructor
  · intro a ha
    exact Mem.write_other _ _ _ _ (ha p hp)
  · intro o ho
    by_cases e : o = p
    · subst e
      have : YHeader.header1 (YHeader.put_header1 m o g) o = g := Mem.write_same _ _ _
      rw [this]; exact hg
    · have : YHeader.header1 (YHeader.put_header1 m p g) o = YHeader.header1 m o :=
        Mem.write_other _ _ _ _ (by omega)
      rw [this]; exact YHeader.same_but_marks_refl _

namespace GC

theorem Heap.distinct_apart {s : GC} {U : List Nat} (h : s.Heap U) {a b : Nat}
    (ha : a ∈ U) (hb : b ∈ U) (hab : a ≠ b) :
    a + object_bytes s.mem a ≤ b ∨ b + object_bytes s.mem b ≤ a :=
  h.apart.forall (fun _ _ hxy => hxy.symm) ha hb hab

/-- Writing mark and remember bits leaves the second header word and the fields of every
object as they were. -/
theorem Heap.body_kept {s : GC} {U : List Nat} (h : s.Heap U) {m : Mem}
    (hm : marks_only U s.mem m) {o : Nat} (ho : o ∈ U) :
    YHeader.header2 m o = YHeader.header2 s.mem o
      ∧ (∀ i, i < YHeader.field_size (YHeader.header2 s.mem o) →
          YHeader.get_field m o i = YHeader.get_field s.mem o i) := by
  have hbo := object_bytes_pos s.mem o
  constructor
  · refine hm.other _ (fun p hp => ?_)
    by_cases e : o = p
    · omega
    · have := h.distinct_apart ho hp e
      have := object_bytes_pos s.mem p
      omega
  · intro i hi
    unfold YHeader.get_field
    have h32 := field_size_lt (YHeader.header2 s.mem o)
    rw [YHeader.field_addr_eq o i (by omega)]
    refine hm.other _ (fun p hp => ?_)
    have hb : object_bytes s.mem o = 8 * (YHeader.field_size (YHeader.header2 s.mem o) + 3) :=
      rfl
    by_cases e : o = p
    · omega
    · have := h.distinct_apart ho hp e
      have := object_bytes_pos s.mem p
      omega

theorem Heap.scanned_kept {s : GC} {U : List Nat} (h : s.Heap U) {m : Mem}
    (hm : marks_only U s.mem m) {o : Nat} (ho : o ∈ U) (i : Nat) :
    scanned_index m o i ↔ scanned_index s.mem o i := by
  unfold scanned_index
  obtain ⟨e1, e2, _⟩ := YHeader.same_but_marks_shape (hm.head o ho)
  rw [e1, e2, (h.body_kept hm ho).1]

end GC

namespace GC

theorem Marking.of_mem {s0 : GC} {U : List Nat} {mb : Nat} {st : GC × List Nat × Nat}
    {W : List Nat} (h : Marking s0 U mb st W) (s1 : GC) (v : List Nat) (l : Nat) (W' : List Nat)
    (hm : marks_only U st.1.mem s1.mem) (hk : Kept st.1 s1)
    (h1 : s1.tenure_space = st.1.tenure_space)
    (h2 : s1.tenure_space_size = st.1.tenure_space_size) (h3 : s1.freed = st.1.freed)
    (hv : ∀ p ∈ v, p ∈ U)
    (ht : ∀ o ∈ U, YHeader.gc_mark (YHeader.header1 s1.mem o) ≠ mb → o ∈ W') :
    Marking s0 U mb (s1, v, l) W' :=
  ⟨marks_only_trans h.mem hm, h.kept.step hk, h1.trans h.tenure_space,
    h2.trans h.tenure_space_size, h3.trans h.freed, hv, ht⟩

/-- Marking an object keeps the invariant and does not raise the measure. -/
theorem Marking.mark_object {s0 : GC} {U : List Nat} {mb : Nat} {st : GC × List Nat × Nat}
    {W : List Nat} (hmb : mb < 4) (h : Marking s0 U mb st W) {p : Nat} (hp : p ∈ U) :
    ∃ W', Marking s0 U mb (GC.mark_object mb p st) W'
      ∧ W'.length + (GC.mark_object mb p st).2.1.length ≤ W.length + st.2.1.length
      ∧ (GC.mark_object mb p st).1.remember_set = st.1.remember_set := by
  have hput := marks_only_put (U := U) st.1.mem hp
    (YHeader.same_but_marks_set_gc_mark (YHeader.header1 st.1.mem p) mb)
  have hnew : ∀ o ∈ U, YHeader.gc_mark (YHeader.header1 (YHeader.put_header1 st.1.mem p
      (YHeader.set_gc_mark (YHeader.header1 st.1.mem p) mb).1) o) ≠ mb →
      o ≠ p ∧ YHeader.gc_mark (YHeader.header1 st.1.mem o) ≠ mb := by
    intro o _ hne
    by_cases e : o = p
    · subst e
      have : YHeader.header1 (YHeader.put_header1 st.1.mem o
          (YHeader.set_gc_mark (YHeader.header1 st.1.mem o) mb).1) o
          = (YHeader.set_gc_mark (YHeader.header1 st.1.mem o) mb).1 := Mem.write_same _ _ _
      rw [this, YHeader.gc_mark_set_gc_mark _ _ hmb] at hne
      exact absurd rfl hne
    · have : YHeader.header1 (YHeader.put_header1 st.1.mem p
          (YHeader.set_gc_mark (YHeader.header1 st.1.mem p) mb).1) o
          = YHeader.header1 st.1.mem o := Mem.write_other _ _ _ _ (by omega)
      rw [this] at hne
      exact ⟨e, hne⟩
  unfold GC.mark_object
  simp only
  by_cases hold : (YHeader.set_gc_mark (YHeader.header1 st.1.mem p) mb).2 = mb
  · rw [if_neg (by simpa using hold)]
    refine ⟨W, ?_, Nat.le_refl _, by simp⟩
    refine h.of_mem _ _ _ W (by simpa using hput) (by constructor <;> simp) (by simp)
      (by simp) (by simp) h.visited ?_
    intro o ho hne
    exact h.todo o ho (hnew o ho (by simpa using hne)).2
  · rw [if_pos hold]
    have hpW : p ∈ W := by
      refine h.todo p hp ?_
      rw [YHeader.set_gc_mark_snd] at hold
      rw [YHeader.gc_mark_eq]
      exact hold
    refine ⟨W.erase p, ?_, ?_, by simp⟩
    · refine h.of_mem _ _ _ (W.erase p) (by simpa using hput) (by constructor <;> simp)
        (by simp) (by simp) (by simp) ?_ ?_
      · intro q hq
        rcases List.mem_append.1 hq with hq | hq
        · exact h.visited q hq
        · rw [List.mem_singleton] at hq
          rw [hq]; exact hp
      · intro o ho hne
        obtain ⟨h1, h2⟩ := hnew o ho (by simpa using hne)
        exact (List.mem_erase_of_ne h1).2 (h.todo o ho h2)
    · simp only [List.length_append, List.length_singleton]
      rw [List.length_erase_of_mem hpW]
      have := List.length_pos_of_mem hpW
      omega

/-- The write barrier run by the mark phase keeps the invariant. -/
theorem Marking.w_barrier {s0 : GC} {U : List Nat} {mb : Nat} {st : GC × List Nat × Nat}
    {W : List Nat} (h : Marking s0 U mb st W) {obj : Nat} (ho : obj ∈ U) (v : Nat) :
    Marking s0 U mb ((GC.w_barrier st.1 obj v).1, st.2.1, st.2.2) W := by
  unfold GC.w_barrier
  split
  · have hput := marks_only_put (U := U) st.1.mem ho
      (YHeader.same_but_marks_set_gc_remember (YHeader.header1 st.1.mem obj))
    refine h.of_mem _ _ _ W (by simpa [add_remember_set] using hput)
      (by constructor <;> simp [add_remember_set]) (by simp [add_remember_set])
      (by simp [add_remember_set]) (by simp [add_remember_set]) h.visited ?_
    intro o ho2 hne
    refine h.todo o ho2 ?_
    simp only [add_remember_set, set_remember_set_proj, set_mem_proj] at hne
    by_cases e : o = obj
    · subst e
      have : YHeader.header1 (YHeader.put_header1 st.1.mem o
          (YHeader.set_gc_remember (YHeader.header1 st.1.mem o))) o
          = YHeader.set_gc_remember (YHeader.header1 st.1.mem o) := Mem.write_same _ _ _
      rw [this, YHeader.gc_mark_set_gc_remember] at hne
      exact hne
    · have : YHeader.header1 (YHeader.put_header1 st.1.mem obj
          (YHeader.set_gc_remember (YHeader.header1 st.1.mem obj))) o
          = YHeader.header1 st.1.mem o := Mem.write_other _ _ _ _ (by omega)
      rw [this] at hne
      exact hne
  · exact h.of_mem _ _ _ W (marks_only_refl _ _) (Kept.same _) rfl rfl rfl h.visited h.todo

end GC

namespace GC

/-- One iteration of the field loop of the mark phase keeps the invariant and does not
raise the measure. -/
theorem Marking.mark_field {s0 : GC} {U : List Nat} {mb : Nat} {st : GC × List Nat × Nat}
    {W : List Nat} (hh : s0.Heap U) (hmb : mb < 4) (h : Marking s0 U mb st W) {obj i : Nat}
    (ho : obj ∈ U) (hi : scanned_index s0.mem obj i) :
    ∃ W', Marking s0 U mb (GC.mark_field mb obj i st) W'
      ∧ W'.length + (GC.mark_field mb obj i st).2.1.length ≤ W.length + st.2.1.length := by
  have hv : YHeader.get_field st.1.mem obj i = YHeader.get_field s0.mem obj i :=
    (hh.body_kept h.mem ho).2 i hi.2.2
  unfold GC.mark_field
  simp only
  rw [hv]
  by_cases hptr : Box.is_ptr (YHeader.get_field s0.mem obj i) = true
  · rw [if_pos hptr]
    by_cases h0 : Box.to_ptr (YHeader.get_field s0.mem obj i) = 0
    · rw [if_neg (by simpa using h0)]
      exact ⟨W, h, Nat.le_refl _⟩
    · rw [if_pos h0]
      have hpU : Box.to_ptr (YHeader.get_field s0.mem obj i) ∈ U := by
        rcases hh.fields_closed obj ho i hi.2.2 hi.1 hi.2.1 hptr with e | e
        · exact absurd e h0
        · exact e
      obtain ⟨W', h1, h2, _⟩ := (h.w_barrier ho
        (Box.to_boxed_ptr (Box.to_ptr (YHeader.get_field s0.mem obj i)))).mark_object hmb hpU
      exact ⟨W', h1, h2⟩
  · rw [if_neg hptr]
    exact ⟨W, h, Nat.le_refl _⟩

/-- The field loop of the mark phase keeps the invariant and does not raise the measure. -/
theorem Marking.mark_fields {s0 : GC} {U : List Nat} {mb : Nat} (hh : s0.Heap U)
    (hmb : mb < 4) {obj : Nat} (ho : obj ∈ U)
    (hb : YHeader.has_boxed_value (YHeader.header1 s0.mem obj) = true) :
    ∀ (k i : Nat) (st : GC × List Nat × Nat) (W : List Nat), Marking s0 U mb st W →
      YHeader.unbox_size (YHeader.header1 s0.mem obj) ≤ i →
      i + k ≤ YHeader.field_size (YHeader.header2 s0.mem obj) →
      ∃ W', Marking s0 U mb (GC.mark_fields mb obj k i st) W'
        ∧ W'.length + (GC.mark_fields mb obj k i st).2.1.length ≤ W.length + st.2.1.length := by
  intro k
  induction k with
  | zero =>
    intro i st W h _ _
    exact ⟨W, h, Nat.le_refl _⟩
  | succ k ih =>
    intro i st W h h1 h2
    obtain ⟨W1, g1, g2⟩ := h.mark_field hh hmb ho ⟨hb, h1, by omega⟩
    obtain ⟨W2, g3, g4⟩ := ih (i + 1) _ W1 g1 (by omega) (by omega)
    refine ⟨W2, ?_, ?_⟩
    · rw [GC.mark_fields]; exact g3
    · rw [GC.mark_fields]; omega

/-- The root loop of the mark phase keeps the invariant and does not raise the measure. -/
theorem Marking.mark_roots {s0 : GC} {U : List Nat} {mb : Nat} (hh : s0.Heap U)
    (hmb : mb < 4) :
    ∀ (k : Nat) (st : GC × List Nat × Nat) (W : List Nat), Marking s0 U mb st W →
      k ≤ (s0.stack_top + 1).toNat →
      ∃ W', Marking s0 U mb (GC.mark_roots mb k st) W'
        ∧ W'.length + (GC.mark_roots mb k st).2.1.length ≤ W.length + st.2.1.length := by
  intro k
  induction k with
  | zero =>
    intro st W h _
    exact ⟨W, h, Nat.le_refl _⟩
  | succ k ih =>
    intro st W h hk
    rw [GC.mark_roots]
    rw [h.kept.shadow_stack]
    by_cases h0 : s0.shadow_stack.getD k 0 = 0
    · rw [if_neg (by simpa using h0)]
      exact ih st W h (by omega)
    · rw [if_pos h0]
      have hp : s0.shadow_stack.getD k 0 ∈ U := by
        rcases hh.roots_closed k (by omega) with e | e
        · exact absurd e h0
        · exact e
      obtain ⟨W1, g1, g2, _⟩ := h.mark_object hmb hp
      obtain ⟨W2, g3, g4⟩ := ih _ W1 g1 (by omega)
      exact ⟨W2, g3, by omega⟩

theorem mark_loop_done (mb fuel : Nat) (s : GC) (visited : List Nat) (live : Nat)
    (h : visited.getLast? = none) : mark_loop mb fuel (s, visited, live) = some (s, live) := by
  cases fuel <;> simp only [mark_loop, h]

theorem mark_loop_succ (mb fuel : Nat) (s : GC) (visited : List Nat) (live obj : Nat)
    (h : visited.getLast? = some obj) :
    mark_loop mb (fuel + 1) (s, visited, live)
      = if YHeader.has_boxed_value (YHeader.header1 s.mem obj) then
          mark_loop mb fuel
            (mark_fields mb obj
              (YHeader.field_size (YHeader.header2 s.mem obj)
                - YHeader.unbox_size (YHeader.header1 s.mem obj))
              (YHeader.unbox_size (YHeader.header1 s.mem obj)) (s, visited.dropLast, live))
        else mark_loop mb fuel (s, visited.dropLast, live) := by
  rw [mark_loop]
  simp only [h]

/-- The loop over `visited` ends when its fuel covers the objects that may lack the mark and
the objects pushed. -/
theorem Marking.mark_loop {s0 : GC} {U : List Nat} {mb : Nat} (hh : s0.Heap U)
    (hmb : mb < 4) :
    ∀ (fuel : Nat) (st : GC × List Nat × Nat) (W : List Nat), Marking s0 U mb st W →
      W.length + st.2.1.length ≤ fuel →
      ∃ (s' : GC) (live : Nat) (W' : List Nat), GC.mark_loop mb fuel st = some (s', live)
        ∧ Marking s0 U mb (s', [], live) W' := by
  intro fuel
  induction fuel with
  | zero =>
    intro st W h hf
    obtain ⟨s, visited, live⟩ := st
    simp only at hf
    have hv : visited = [] := List.length_eq_zero.1 (by omega)
    subst hv
    exact ⟨s, live, W, mark_loop_done mb 0 s [] live rfl, h⟩
  | succ fuel ih =>
    intro st W h hf
    obtain ⟨s, visited, live⟩ := st
    simp only at hf
    cases hl : visited.getLast? with
    | none =>
      have hv : visited = [] := List.getLast?_eq_none_iff.1 hl
      subst hv
      exact ⟨s, live, W, mark_loop_done mb _ s [] live rfl, h⟩
    | some obj =>
      have hsplit : visited = visited.dropLast ++ [obj] :=
        (List.dropLast_append_getLast? _ hl).symm
      have hoU : obj ∈ U := h.visited obj (List.mem_of_getLast?_eq_some hl)
      have hlen : visited.length = visited.dropLast.length + 1 := by
        conv_lhs => rw [hsplit]
        simp
      have hpop : Marking s0 U mb (s, visited.dropLast, live) W :=
        ⟨h.mem, h.kept, h.tenure_space, h.tenure_space_size, h.freed,
          fun p hp => h.visited p (List.mem_of_mem_dropLast hp), h.todo⟩
      obtain ⟨e1, e2, _⟩ := YHeader.same_but_marks_shape (h.mem.head obj hoU)
      have e3 := (hh.body_kept h.mem hoU).1
      rw [mark_loop_succ mb fuel s visited live obj hl]
      simp only at e1 e2 e3
      rw [e1, e2, e3]
      by_cases hb : YHeader.has_boxed_value (YHeader.header1 s0.mem obj) = true
      · rw [if_pos hb]
        by_cases hle : YHeader.unbox_size (YHeader.header1 s0.mem obj)
            ≤ YHeader.field_size (YHeader.header2 s0.mem obj)
        · obtain ⟨W1, g1, g2⟩ := Marking.mark_fields hh hmb hoU hb
            (YHeader.field_size (YHeader.header2 s0.mem obj)
              - YHeader.unbox_size (YHeader.header1 s0.mem obj))
            (YHeader.unbox_size (YHeader.header1 s0.mem obj)) _ W hpop (Nat.le_refl _)
            (by omega)
          simp only at g2
          exact ih _ W1 g1 (by omega)
        · rw [Nat.sub_eq_zero_of_le (by omega), GC.mark_fields]
          exact ih _ W hpop (by simp only; omega)
      · rw [if_neg hb]
        exact ih _ W hpop (by simp only; omega)

end GC

namespace GC

theorem chain_to_of_next {m m' : Mem} :
    ∀ (L : List Nat) (p q : Nat),
      (∀ n ∈ L, YHeader.next_object (YHeader.header1 m' n)
        = YHeader.next_object (YHeader.header1 m n)) →
      chain_to m p L q → chain_to m' p L q := by
  intro L
  induction L with
  | nil => intro p q _ h; exact h
  | cons x L ih =>
    intro p q hn h
    refine ⟨h.1, ?_⟩
    rw [hn x (List.mem_cons_self _ _)]
    exact ih _ q (fun n hn2 => hn n (List.mem_cons_of_mem _ hn2)) h.2

theorem Heap.counted {s : GC} {U : List Nat} (h : s.Heap U) (k : Int) :
    (s.set_mark_sweep_gc_count k).Heap U := by
  constructor
  · simpa using h.apart
  · simpa using h.roots_closed
  · simpa using h.fields_closed
  · simpa using h.remembered
  · simpa using h.mark_value

theorem Marking.initial (s0 : GC) (U : List Nat) (mb : Nat) :
    Marking s0 U mb (s0, [], 0) U :=
  ⟨marks_only_refl _ _, Kept.same _, rfl, rfl, rfl, (fun p hp => by cases hp),
    (fun o ho _ => ho)⟩

/-- The loop that clears the remember bits keeps the invariant. -/
theorem Marking.reset_remember_loop {s0 : GC} {U : List Nat} {mb : Nat}
    (hrs : ∀ r ∈ s0.remember_set, r = 0 ∨ r ∈ U) :
    ∀ (k : Nat) (s : GC), Marking s0 U mb (s, [], 0) U → s.remember_set = s0.remember_set →
      k ≤ s0.remember_set.length →
      Marking s0 U mb (GC.reset_remember_loop k s, [], 0) U
        ∧ (GC.reset_remember_loop k s).remember_set = s0.remember_set := by
  intro k
  induction k with
  | zero => intro s h e _; exact ⟨h, e⟩
  | succ k ih =>
    intro s h e hk
    rw [GC.reset_remember_loop]
    by_cases h0 : s.remember_set.getD k 0 = 0
    · rw [if_neg (by simpa using h0)]
      exact ih s h e (by omega)
    · rw [if_pos h0]
      have hm : s.remember_set.getD k 0 ∈ s0.remember_set := by
        rw [e, List.getD_eq_getElem _ _ (by omega)]
        exact List.getElem_mem _
      have hu : s.remember_set.getD k 0 ∈ U := by
        rcases hrs _ hm with e1 | e1
        · exact absurd e1 h0
        · exact e1
      refine ih _ ?_ (by simpa using e) (by omega)
      have hput : marks_only U s.mem (YHeader.put_header1 s.mem (s.remember_set.getD k 0)
          (YHeader.reset_gc_remember (YHeader.header1 s.mem (s.remember_set.getD k 0)))) :=
        marks_only_put s.mem hu (YHeader.same_but_marks_reset_gc_remember _)
      exact h.of_mem _ _ _ U (by simpa using hput)
        (by constructor <;> simp) (by simp) (by simp) (by simp) (fun p hp => by cases hp)
        (fun o ho _ => ho)

end GC

namespace GC

/-- A major collection run on a closed heap with fuel for its objects ends; what it leaves
is described through the tenure list `L` it started with. -/
theorem Heap.do_mark_sweep_gc {s : GC} {U L : List Nat} (hh : s.Heap U) (hL : s.Listed L)
    (hLU : ∀ n ∈ L, n ∈ U) (fuel : Nat) (hf : U.length + 1 ≤ fuel) :
    ∃ (t : GC) (n : Nat) (L' D : List Nat), GC.do_mark_sweep_gc fuel s = some (t, n)
      ∧ t.Listed L' ∧ L'.Sublist L
      ∧ (∀ x ∈ L', YHeader.gc_mark (YHeader.header1 t.mem x) = s.current_mark_bit)
      ∧ t.freed = s.freed ++ D ∧ (∀ x ∈ L, x ∈ L' ∨ x ∈ D)
      ∧ (t.tenure_space_size + words_of s.mem D) % 2 ^ 64 = s.tenure_space_size % 2 ^ 64
      ∧ t.mark_sweep_gc_count = s.mark_sweep_gc_count + 1
      ∧ t.current_mark_bit = s.current_mark_bit ^^^ 2
      ∧ t.tenure_space_limit = s.tenure_space_limit
      ∧ t.copy_gc_count = s.copy_gc_count
      ∧ t.shadow_stack = s.shadow_stack ∧ t.stack_top = s.stack_top
      ∧ t.current_top = s.current_top ∧ t.current_end = s.current_end
      ∧ (∀ a, (∀ o ∈ U, a ≠ o + 8) → t.mem a = s.mem a) := by
  have hmb : s.current_mark_bit < 4 := hh.mark_value
  have hh0 := hh.counted (s.mark_sweep_gc_count + 1)
  have hr : Marking (s.set_mark_sweep_gc_count (s.mark_sweep_gc_count + 1)) U
      s.current_mark_bit
      (reset_remember_loop s.remember_set.length
        (s.set_mark_sweep_gc_count (s.mark_sweep_gc_count + 1)), [], 0) U
      ∧ (reset_remember_loop s.remember_set.length
        (s.set_mark_sweep_gc_count (s.mark_sweep_gc_count + 1))).remember_set
        = (s.set_mark_sweep_gc_count (s.mark_sweep_gc_count + 1)).remember_set :=
    Marking.reset_remember_loop hh0.remembered _ _ (Marking.initial _ U _) rfl (Nat.le_refl _)
  have hM1 : Marking (s.set_mark_sweep_gc_count (s.mark_sweep_gc_count + 1)) U
      s.current_mark_bit
      ((reset_remember_loop s.remember_set.length
        (s.set_mark_sweep_gc_count (s.mark_sweep_gc_count + 1))).set_remember_set [], [], 0) U :=
    hr.1.of_mem _ _ _ U (by simpa using marks_only_refl U _) (by constructor <;> simp)
      (by simp) (by simp) (by simp) (fun p hp => by cases hp) (fun o ho _ => ho)
  rw [do_mark_sweep_gc_sweep]
  generalize (reset_remember_loop s.remember_set.length
    (s.set_mark_sweep_gc_count (s.mark_sweep_gc_count + 1))).set_remember_set [] = s1 at hM1 ⊢
  have hmb1 : s1.current_mark_bit = s.current_mark_bit := by
    have := hM1.kept.current_mark_bit
    simpa using this
  have hst1 : s1.stack_top = s.stack_top := by
    have := hM1.kept.stack_top
    simpa using this
  rw [hmb1, hst1]
  obtain ⟨W1, g1, g2⟩ := Marking.mark_roots hh0 hmb (s.stack_top + 1).toNat (s1, [], 0) U hM1
    (Nat.le_refl _)
  simp only [List.length_nil, Nat.add_zero] at g2
  obtain ⟨s2, live, W2, e2, g3⟩ := Marking.mark_loop hh0 hmb fuel _ W1 g1 (by omega)
  rw [e2]
  simp only
  have hm2 : marks_only U s.mem s2.mem := by
    have := g3.mem
    simpa using this
  have hL2 : s2.Listed L := by
    constructor
    · have := g3.tenure_space
      simp only [set_mark_sweep_gc_count_proj] at this
      rw [this]; exact hL.head
    · have := g3.tenure_space
      simp only [set_mark_sweep_gc_count_proj] at this
      rw [this]
      exact chain_to_of_next L _ _
        (fun n hn => (YHeader.same_but_marks_shape (hm2.head n (hLU n hn))).2.2) hL.chain
    · exact hL.nonnull
    · exact hL.nodup
    · exact hL.apart
  have hlen : L.length ≤ U.length := nodup_subset_length_le L U hL.nodup (fun x hx => hLU x hx)
  obtain ⟨t, e3, c1, c2, c3, c4, c5, c6, c7⟩ :=
    sweep_spec s2 L s.current_mark_bit fuel hL2 (by omega)
  rw [e3]
  simp only
  have hk2 := g3.kept
  have hw : words_of s2.mem (L.filter
        (fun x => !decide (YHeader.gc_mark (YHeader.header1 s2.mem x) = s.current_mark_bit)))
      = words_of s.mem (L.filter
        (fun x => !decide (YHeader.gc_mark (YHeader.header1 s2.mem x) = s.current_mark_bit))) :=
    words_of_congr _ (fun x hx =>
      (hh.body_kept hm2 (hLU x (List.mem_of_mem_filter hx))).1)
  refine ⟨_, _,
    L.filter (fun x => decide (YHeader.gc_mark (YHeader.header1 s2.mem x) = s.current_mark_bit)),
    L.filter (fun x => !decide (YHeader.gc_mark (YHeader.header1 s2.mem x) = s.current_mark_bit)),
    rfl, ?_, List.filter_sublist _, ?_, ?_, ?_, ?_, ?_, ?_, ?_, ?_, ?_, ?_, ?_, ?_, ?_⟩
  · constructor
    · simpa using c1.head
    · simpa using c1.chain
    · exact c1.nonnull
    · exact c1.nodup
    · exact c1.apart
  · intro x hx
    simpa using c2 x hx
  · have := g3.freed
    simp only [set_mark_sweep_gc_count_proj] at this
    simp only [set_current_mark_bit_proj]
    rw [c3, this]
  · intro x hx
    by_cases hm : YHeader.gc_mark (YHeader.header1 s2.mem x) = s.current_mark_bit
    · exact Or.inl (List.mem_filter.2 ⟨hx, decide_eq_true hm⟩)
    · exact Or.inr (List.mem_filter.2 ⟨hx, by simp [hm]⟩)
  · have := g3.tenure_space_size
    simp only [set_mark_sweep_gc_count_proj] at this
    simp only [set_current_mark_bit_proj]
    rw [← hw, ← this]
    exact c4
  · have := (hk2.step c6).mark_sweep_gc_count
    simpa using this
  · have := (hk2.step c6).current_mark_bit
    simp only [set_mark_sweep_gc_count_proj] at this
    simp only [set_current_mark_bit_proj]
    rw [this]
  · have := (hk2.step c6).tenure_space_limit
    simpa using this
  · have := (hk2.step c6).copy_gc_count
    simpa using this
  · have := (hk2.step c6).shadow_stack
    simpa using this
  · have := (hk2.step c6).stack_top
    simpa using this
  · have := (hk2.step c6).current_top
    simpa using this
  · have := (hk2.step c6).current_end
    simpa using this
  · intro a ha
    simp only [set_current_mark_bit_proj]
    rw [c5 a (fun x hx => ha x (hLU x (List.mem_of_mem_filter hx)))]
    exact hm2.other a ha

end GC

namespace GC

theorem copy_and_forward_frame (c : Scan) (p : Nat) :
    Frame c.gc (copy_and_forward c p).1.gc := by
  unfold copy_and_forward
  simp only
  split
  · split
    · constructor <;> simp
    · constructor <;> simp
  · exact Frame.rfl _

theorem scan_field_frame (R : Bool) (obj i : Nat) (c : Scan) (r : Bool) :
    Frame c.gc (scan_field R obj i c r).1.gc := by
  unfold scan_field
  simp only
  split
  · split
    · refine Frame.trans
        (copy_and_forward_frame c (Box.to_ptr (YHeader.get_field c.gc.mem obj i))) ?_
      constructor <;> simp
    · exact Frame.rfl _
  · exact Frame.rfl _

theorem scan_fields_frame (R : Bool) (obj : Nat) :
    ∀ (k i : Nat) (st : Scan × Bool), Frame st.1.gc (scan_fields R obj k i st).1.gc := by
  intro k
  induction k with
  | zero => intro i st; exact Frame.rfl _
  | succ k ih =>
    intro i st
    rw [scan_fields]
    exact Frame.trans (scan_field_frame R obj i st.1 st.2) (ih _ _)

theorem scan_object_frame (R : Bool) (c : Scan) (obj fsize : Nat) :
    Frame c.gc (scan_object R c obj fsize).1.gc := by
  unfold scan_object
  split
  · exact scan_fields_frame R obj _ _ (c, false)
  · exact Frame.rfl _

theorem scan_promoted_step_frame (c : Scan) (p : Nat) :
    Frame c.gc (scan_promoted_step c p).gc := by
  unfold scan_promoted_step
  simp only
  have h1 : Frame c.gc (c.gc.set_promoted_objects c.gc.promoted_objects.dropLast) := by
    constructor <;> simp
  refine Frame.trans h1 ?_
  refine Frame.trans (scan_object_frame true
    ⟨c.gc.set_promoted_objects c.gc.promoted_objects.dropLast, c.alloc_ptr, c.live_objects⟩ p
    (YHeader.field_size
      (YHeader.header2 (c.gc.set_promoted_objects c.gc.promoted_objects.dropLast).mem p))) ?_
  split
  · constructor <;> simp [add_to_tenure_space]
  · constructor <;> simp [add_to_tenure_space]

theorem scan_promoted_objects_frame :
    ∀ (fuel : Nat) (c c' : Scan), scan_promoted_objects fuel c = some c' →
      Frame c.gc c'.gc := by
  intro fuel
  induction fuel with
  | zero =>
    intro c c' h
    cases hl : c.gc.promoted_objects.getLast? with
    | none =>
      rw [scan_promoted_objects_done 0 c hl] at h
      cases h
      exact Frame.rfl _
    | some p =>
      rw [scan_promoted_objects_zero c p hl] at h
      cases h
  | succ fuel ih =>
    intro c c' h
    cases hl : c.gc.promoted_objects.getLast? with
    | none =>
      rw [scan_promoted_objects_done _ c hl] at h
      cases h
      exact Frame.rfl _
    | some p =>
      rw [scan_promoted_objects_succ fuel c p hl] at h
      exact Frame.trans (scan_promoted_step_frame c p) (ih _ _ h)

theorem scan_shadow_step_frame (c : Scan) (i : Nat) :
    Frame c.gc (scan_shadow_step c i).gc := by
  unfold scan_shadow_step
  simp only
  split
  · refine Frame.trans (copy_and_forward_frame c (c.gc.shadow_stack.getD i 0)) ?_
    constructor <;> simp
  · exact Frame.rfl _

theorem scan_shadow_frame : ∀ (k : Nat) (c : Scan), Frame c.gc (scan_shadow k c).gc := by
  intro k
  induction k with
  | zero => intro c; exact Frame.rfl _
  | succ k ih =>
    intro c
    rw [scan_shadow]
    exact Frame.trans (scan_shadow_step_frame c k) (ih _)

theorem scan_remember_step_frame (c : Scan) (i : Nat) :
    Frame c.gc (scan_remember_step c i).gc := by
  unfold scan_remember_step
  simp only
  split
  · split
    · exact scan_object_frame true c _ _
    · refine Frame.trans (scan_object_frame true c (c.gc.remember_set.getD i 0)
        (YHeader.field_size (YHeader.header2 c.gc.mem (c.gc.remember_set.getD i 0)))) ?_
      constructor <;> simp
  · exact Frame.rfl _

theorem scan_remember_frame : ∀ (k : Nat) (c : Scan), Frame c.gc (scan_remember k c).gc := by
  intro k
  induction k with
  | zero => intro c; exact Frame.rfl _
  | succ k ih =>
    intro c
    rw [scan_remember]
    exact Frame.trans (scan_remember_step_frame c k) (ih _)

theorem cheney_loop_frame (pfuel : Nat) :
    ∀ (fuel : Nat) (c : Scan) (sp : Nat) (r : Scan × Nat),
      cheney_loop pfuel fuel (c, sp) = some r → Frame c.gc r.1.gc := by
  intro fuel
  induction fuel with
  | zero =>
    intro c sp r h
    by_cases hlt : sp < c.alloc_ptr
    · rw [cheney_loop] at h
      simp only [hlt, if_true] at h
      cases h
    · rw [cheney_loop_done pfuel 0 c sp hlt] at h
      cases h
      exact Frame.rfl _
  | succ fuel ih =>
    intro c sp r h
    by_cases hlt : sp < c.alloc_ptr
    · rw [cheney_loop_succ pfuel fuel c sp hlt] at h
      cases hp : scan_promoted_objects pfuel
          (scan_object false c sp (YHeader.field_size (YHeader.header2 c.gc.mem sp))).1 with
      | none =>
        rw [hp] at h
        cases h
      | some c2 =>
        rw [hp] at h
        simp only at h
        exact Frame.trans (scan_object_frame false c sp _)
          (Frame.trans (scan_promoted_objects_frame pfuel _ _ hp) (ih _ _ _ h))
    · rw [cheney_loop_done pfuel _ c sp hlt] at h
      cases h
      exact Frame.rfl _


theorem do_copy_gc_frame {fuel : Nat} {s t : GC} {n : Nat}
    (h : do_copy_gc fuel s = some (t, n)) :
    t.copy_gc_count = s.copy_gc_count + 1 ∧ t.mark_sweep_gc_count = s.mark_sweep_gc_count
      ∧ t.current_mark_bit = s.current_mark_bit
      ∧ t.tenure_space_limit = s.tenure_space_limit ∧ t.stack_top = s.stack_top
      ∧ t.freed = s.freed ∧ t.shadow_stack.length = s.shadow_stack.length := by
  unfold do_copy_gc at h
  simp only at h
  have h1 := scan_shadow_frame ((s.set_copy_gc_count (s.copy_gc_count + 1)).stack_top + 1).toNat
    ⟨s.set_copy_gc_count (s.copy_gc_count + 1),
      (s.set_copy_gc_count (s.copy_gc_count + 1)).semi_space1, 0⟩
  generalize scan_shadow ((s.set_copy_gc_count (s.copy_gc_count + 1)).stack_top + 1).toNat
    ⟨s.set_copy_gc_count (s.copy_gc_count + 1),
      (s.set_copy_gc_count (s.copy_gc_count + 1)).semi_space1, 0⟩ = c1 at h h1
  have h2 := scan_remember_frame c1.gc.remember_set.length c1
  generalize scan_remember c1.gc.remember_set.length c1 = c2 at h h2
  cases h3 : scan_promoted_objects fuel c2 with
  | none => rw [h3] at h; cases h
  | some c3 =>
    rw [h3] at h
    simp only at h
    cases h4 : cheney_loop fuel fuel (c3, (s.set_copy_gc_count (s.copy_gc_count + 1)).semi_space1) with
    | none => rw [h4] at h; cases h
    | some r4 =>
      rw [h4] at h
      simp only [Option.some.injEq, Prod.mk.injEq] at h
      have hf := Frame.trans (Frame.trans h1 h2)
        (Frame.trans (scan_promoted_objects_frame fuel c2 c3 h3)
          (cheney_loop_frame fuel fuel c3 _ r4 h4))
      have ht := h.1
      subst ht
      refine ⟨?_, ?_, ?_, ?_, ?_, ?_, ?_⟩
      · simpa [flip] using hf.copy_gc_count
      · simpa [flip] using hf.mark_sweep_gc_count
      · simpa [flip] using hf.current_mark_bit
      · simpa [flip] using hf.tenure_space_limit
      · simpa [flip] using hf.stack_top
      · simpa [flip] using hf.freed
      · simpa [flip] using hf.shadow_length

theorem reset_remember_loop_kept : ∀ (k : Nat) (s : GC), Kept s (reset_remember_loop k s) := by
  intro k
  induction k with
  | zero => intro s; exact Kept.same s
  | succ k ih =>
    intro s
    rw [reset_remember_loop]
    split
    · refine Kept.step ?_ (ih _)
      constructor <;> rfl
    · exact ih s

theorem mark_object_kept (mb p : Nat) (st : GC × List Nat × Nat) :
    Kept st.1 (mark_object mb p st).1 := by
  unfold mark_object
  simp only
  split <;> constructor <;> rfl

theorem w_barrier_kept (s : GC) (self v : Nat) : Kept s (w_barrier s self v).1 := by
  unfold w_barrier
  split
  · constructor <;> rfl
  · exact Kept.same s

theorem mark_field_kept (mb obj i : Nat) (st : GC × List Nat × Nat) :
    Kept st.1 (mark_field mb obj i st).1 := by
  unfold mark_field
  simp only
  split
  · split
    · exact Kept.step (w_barrier_kept st.1 obj _)
        (mark_object_kept mb _ ((w_barrier st.1 obj _).1, st.2.1, st.2.2))
    · exact Kept.same _
  · exact Kept.same _

theorem mark_fields_kept (mb obj : Nat) :
    ∀ (k i : Nat) (st : GC × List Nat × Nat), Kept st.1 (mark_fields mb obj k i st).1 := by
  intro k
  induction k with
  | zero => intro i st; exact Kept.same _
  | succ k ih =>
    intro i st
    rw [mark_fields]
    exact Kept.step (mark_field_kept mb obj i st) (ih _ _)

theorem mark_roots_kept (mb : Nat) :
    ∀ (k : Nat) (st : GC × List Nat × Nat), Kept st.1 (mark_roots mb k st).1 := by
  intro k
  induction k with
  | zero => intro st; exact Kept.same _
  | succ k ih =>
    intro st
    rw [mark_roots]
    split
    · exact Kept.step (mark_object_kept mb _ st) (ih _)
    · exact ih st

theorem mark_loop_kept (mb : Nat) :
    ∀ (fuel : Nat) (s : GC) (visited : List Nat) (live : Nat) (r : GC × Nat),
      mark_loop mb fuel (s, visited, live) = some r → Kept s r.1 := by
  intro fuel
  induction fuel with
  | zero =>
    intro s visited live r h
    cases hl : visited.getLast? with
    | none =>
      rw [mark_loop_done mb 0 s visited live hl] at h
      cases h
      exact Kept.same s
    | some obj =>
      rw [mark_loop] at h
      simp only [hl] at h
      cases h
  | succ fuel ih =>
    intro s visited live r h
    cases hl : visited.getLast? with
    | none =>
      rw [mark_loop_done mb _ s visited live hl] at h
      cases h
      exact Kept.same s
    | some obj =>
      rw [mark_loop_succ mb fuel s visited live obj hl] at h
      split at h
      · have hk := mark_fields_kept mb obj
          (YHeader.field_size (YHeader.header2 s.mem obj)
            - YHeader.unbox_size (YHeader.header1 s.mem obj))
          (YHeader.unbox_size (YHeader.header1 s.mem obj)) (s, visited.dropLast, live)
        generalize mark_fields mb obj
          (YHeader.field_size (YHeader.header2 s.mem obj)
            - YHeader.unbox_size (YHeader.header1 s.mem obj))
          (YHeader.unbox_size (YHeader.header1 s.mem obj)) (s, visited.dropLast, live) = st at h hk
        obtain ⟨s2, v2, l2⟩ := st
        exact Kept.step hk (ih s2 v2 l2 r h)
      · exact ih s _ live r h

theorem sweep_inner_kept (mb : Nat) :
    ∀ (fuel : Nat) (s : GC) (next : Nat) (r : GC × Nat),
      sweep_inner mb fuel (s, next) = some r → Kept s r.1 ∧ r.1.mem = s.mem := by
  intro fuel
  induction fuel with
  | zero =>
    intro s next r h
    by_cases hc : next ≠ 0 ∧ YHeader.gc_mark (YHeader.header1 s.mem next) ≠ mb
    · rw [sweep_inner, if_pos hc] at h
      cases h
    · rw [sweep_inner_stop mb 0 s next hc] at h
      cases h
      exact ⟨Kept.same s, rfl⟩
  | succ fuel ih =>
    intro s next r h
    by_cases hc : next ≠ 0 ∧ YHeader.gc_mark (YHeader.header1 s.mem next) ≠ mb
    · rw [sweep_inner_succ mb fuel s next hc] at h
      obtain ⟨hk, hm⟩ := ih _ _ r h
      refine ⟨Kept.step ?_ hk, by rw [hm]; rfl⟩
      constructor <;> rfl
    · rw [sweep_inner_stop mb _ s next hc] at h
      cases h
      exact ⟨Kept.same s, rfl⟩

theorem relink_kept (s1 : GC) (root_h1 : Nat) (ptr : Option Nat) (next0 next : Nat) :
    Kept s1 (relink s1 root_h1 ptr next0 next).1 := by
  unfold relink
  split
  · cases ptr with
    | none => exact Kept.same s1
    | some q => constructor <;> rfl
  · exact Kept.same s1

theorem sweep_outer_kept (mb ifuel : Nat) :
    ∀ (fuel : Nat) (s : GC) (root_h1 : Nat) (ptr : Option Nat) (r : GC × Nat),
      sweep_outer mb ifuel fuel (s, root_h1, ptr) = some r → Kept s r.1 := by
  intro fuel
  induction fuel with
  | zero =>
    intro s root_h1 ptr r h
    rw [sweep_outer] at h
    cases h
  | succ fuel ih =>
    intro s root_h1 ptr r h
    cases e : sweep_inner mb ifuel (s, YHeader.next_object (s.link_word root_h1 ptr)) with
    | none =>
      unfold link_word at e
      cases ptr with
      | none =>
        simp only at e
        simp only [sweep_outer, e] at h
        cases h
      | some q =>
        simp only at e
        simp only [sweep_outer, e] at h
        cases h
    | some r1 =>
      obtain ⟨s1, next⟩ := r1
      rw [sweep_outer_succ mb ifuel fuel s root_h1 ptr s1 next e] at h
      have hk1 := (sweep_inner_kept mb ifuel s _ _ e).1
      have hk2 := relink_kept s1 root_h1 ptr (YHeader.next_object (s.link_word root_h1 ptr)) next
      split at h
      · cases h
        exact Kept.step hk1 hk2
      · exact Kept.step (Kept.step hk1 hk2) (ih _ _ _ r h)

theorem do_mark_sweep_gc_frame {fuel : Nat} {s t : GC} {n : Nat}
    (h : do_mark_sweep_gc fuel s = some (t, n)) :
    t.mark_sweep_gc_count = s.mark_sweep_gc_count + 1
      ∧ t.current_mark_bit = s.current_mark_bit ^^^ 2
      ∧ t.copy_gc_count = s.copy_gc_count
      ∧ t.tenure_space_limit = s.tenure_space_limit ∧ t.stack_top = s.stack_top
      ∧ t.shadow_stack = s.shadow_stack ∧ t.current_top = s.current_top
      ∧ t.current_end = s.current_end := by
  unfold do_mark_sweep_gc at h
  simp only at h
  have h1 := reset_remember_loop_kept
    (s.set_mark_sweep_gc_count (s.mark_sweep_gc_count + 1)).remember_set.length
    (s.set_mark_sweep_gc_count (s.mark_sweep_gc_count + 1))
  generalize reset_remember_loop
    (s.set_mark_sweep_gc_count (s.mark_sweep_gc_count + 1)).remember_set.length
    (s.set_mark_sweep_gc_count (s.mark_sweep_gc_count + 1)) = s1 at h h1
  have h2 := mark_roots_kept (s1.set_remember_set []).current_mark_bit
    ((s1.set_remember_set []).stack_top + 1).toNat (s1.set_remember_set [], [], 0)
  generalize mark_roots (s1.set_remember_set []).current_mark_bit
    ((s1.set_remember_set []).stack_top + 1).toNat (s1.set_remember_set [], [], 0) = r1 at h h2
  obtain ⟨sa, va, la⟩ := r1
  cases h3 : mark_loop (s1.set_remember_set []).current_mark_bit fuel (sa, va, la) with
  | none => rw [h3] at h; cases h
  | some r2 =>
    obtain ⟨s2, live⟩ := r2
    rw [h3] at h
    simp only at h
    have hk3 := mark_loop_kept _ fuel sa va la _ h3
    cases h4 : sweep_outer (s1.set_remember_set []).current_mark_bit fuel fuel
        (s2, YHeader.set_next_object (YHeader.init_header1 0 0) s2.tenure_space, none) with
    | none => rw [h4] at h; cases h
    | some r3 =>
      obtain ⟨s3, rh⟩ := r3
      rw [h4] at h
      simp only [Option.some.injEq, Prod.mk.injEq] at h
      have hk4 := sweep_outer_kept _ fuel fuel s2 _ none _ h4
      have hk : Kept (s1.set_remember_set []) s3 := Kept.step h2 (Kept.step hk3 hk4)
      have ht := h.1
      subst ht
      refine ⟨?_, ?_, ?_, ?_, ?_, ?_, ?_, ?_⟩
      · simpa using hk.mark_sweep_gc_count.trans h1.mark_sweep_gc_count
      · have := hk.current_mark_bit.trans h1.current_mark_bit
        simp at this ⊢
        rw [this]
      · simpa using hk.copy_gc_count.trans h1.copy_gc_count
      · simpa using hk.tenure_space_limit.trans h1.tenure_space_limit
      · simpa using hk.stack_top.trans h1.stack_top
      · simpa using hk.shadow_stack.trans h1.shadow_stack
      · simpa using hk.current_top.trans h1.current_top
      · simpa using hk.current_end.trans h1.current_end

end GC
namespace GC

theorem xor_two_of_mark {b : Nat} (h : b = 1 ∨ b = 3) :
    (b ^^^ 2 = 1 ∨ b ^^^ 2 = 3) ∧ b ^^^ 2 ≠ b := by
  rcases h with h | h <;> subst h <;> decide

theorem mark_sweep_gc_if_needed_mark {fuel : Nat} {s t : GC} {n : Nat}
    (h : mark_sweep_gc_if_needed fuel s = some (t, n)) :
    t.current_mark_bit = s.current_mark_bit ∨ t.current_mark_bit = s.current_mark_bit ^^^ 2 := by
  unfold mark_sweep_gc_if_needed at h
  split at h
  · simp only [Option.some.injEq, Prod.mk.injEq] at h
    rw [← h.1]
    exact Or.inl rfl
  · cases hrun : do_mark_sweep_gc fuel s with
    | none => rw [hrun] at h; cases h
    | some r =>
      obtain ⟨s1, lives⟩ := r
      rw [hrun] at h
      simp only at h
      have hm := (do_mark_sweep_gc_frame hrun).2.1
      split at h
      · simp only [Option.some.injEq, Prod.mk.injEq] at h
        rw [← h.1]
        exact Or.inr hm
      · simp only [Option.some.injEq, Prod.mk.injEq] at h
        rw [← h.1]
        exact Or.inr hm

theorem alloc_attempts_mark (fuel wcount : Nat) :
    ∀ (k : Nat) (s : GC) (o : Outcome), alloc_attempts fuel wcount k s = some o →
      o.state.current_mark_bit = s.current_mark_bit := by
  intro k
  induction k with
  | zero =>
    intro s o h
    rw [alloc_attempts] at h
    cases h
    rfl
  | succ k ih =>
    intro s o h
    rw [alloc_attempts] at h
    cases hrun : do_copy_gc fuel s with
    | none => rw [hrun] at h; cases h
    | some r =>
      obtain ⟨s1, n⟩ := r
      rw [hrun] at h
      simp only at h
      have hm := (do_copy_gc_frame hrun).2.2.1
      split at h
      · cases h
        exact hm
      · exact (ih s1 o h).trans hm

theorem publish_mark (s : GC) (new_top wcount : Nat) :
    (publish s new_top wcount).state.current_mark_bit = s.current_mark_bit := rfl

theorem allocate_in_semi_mark {fuel : Nat} {s : GC} {count : Nat} {o : Outcome}
    (h : allocate_in_semi fuel s count = some o) :
    o.state.current_mark_bit = s.current_mark_bit
      ∨ o.state.current_mark_bit = s.current_mark_bit ^^^ 2 := by
  unfold allocate_in_semi at h
  simp only at h
  split at h
  · unfold allocate_in_semi2 at h
    cases hn : mark_sweep_gc_if_needed fuel s with
    | none => rw [hn] at h; cases h
    | some r =>
      obtain ⟨s1, n⟩ := r
      rw [hn] at h
      simp only at h
      have h1 := mark_sweep_gc_if_needed_mark hn
      cases ha : alloc_attempts fuel ((count + 8 - 1) % 2 ^ 64 / 8) 3 s1 with
      | none => rw [ha] at h; cases h
      | some o1 =>
        rw [ha] at h
        have h2 := alloc_attempts_mark fuel _ 3 s1 o1 ha
        cases o1 with
        | memory_exhausted s2 =>
          simp only [Option.some.injEq] at h
          rw [← h]
          rw [← h2] at h1
          exact h1
        | returned s2 p =>
          simp only [Option.some.injEq] at h
          rw [← h, publish_mark]
          rw [← h2] at h1
          exact h1
  · simp only [Option.some.injEq] at h
    rw [← h]
    exact Or.inl rfl

theorem Reachable.mark_value {s : GC} (h : s.Reachable) :
    s.current_mark_bit = 1 ∨ s.current_mark_bit = 3 := by
  induction h with
  | set_up s young_size stack_size => exact Or.inl rfl
  | minor _ hrun ih =>
    rw [(do_copy_gc_frame hrun).2.2.1]
    exact ih
  | major _ hrun ih =>
    rw [(do_mark_sweep_gc_frame hrun).2.1]
    exact (xor_two_of_mark ih).1
  | if_needed _ hrun ih =>
    rcases mark_sweep_gc_if_needed_mark hrun with e | e
    · rw [e]; exact ih
    · rw [e]; exact (xor_two_of_mark ih).1
  | alloc _ hrun ih =>
    rcases allocate_in_semi_mark hrun with e | e
    · rw [e]; exact ih
    · rw [e]; exact (xor_two_of_mark ih).1
  | tenure size _ ih => exact ih
  | barrier self value _ ih =>
    unfold w_barrier
    split
    · exact ih
    · exact ih
  | write m _ ih => exact ih
  | expand size _ ih => exact ih
  | shrink size _ ih => exact ih
  | set_slot index value _ ih => exact ih

end GC


theorem at_limit_heap : Example.at_limit.Heap [0x1000] := by
  constructor
  · simp
  · decide!
  · decide!
  · decide!
  · decide!

theorem at_limit_listed : Example.at_limit.Listed [] := by
  constructor
  · decide!
  · simp only [chain_to]
    decide!
  · decide
  · decide
  · decide

theorem rooted_tenured_reachable : Example.rooted_tenured.Reachable :=
  GC.Reachable.set_slot 0 _ (GC.Reachable.tenure 1 (GC.Reachable.expand 1
    (GC.Reachable.set_up (GC.start 0x1000) 16 0)))

theorem rooted_tenured_heap : Example.rooted_tenured.Heap [0x1100] := by
  constructor
  · simp
  · decide!
  · decide!
  · decide!
  · decide!

theorem rooted_tenured_listed : Example.rooted_tenured.Listed [0x1100] := by
  constructor
  · decide!
  · simp only [chain_to]
    decide!
  · decide
  · decide
  · decide


theorem chain_to_append {m : Mem} :
    ∀ (L : List Nat) (p q : Nat) (R : List Nat) (r : Nat),
      chain_to m p L q → chain_to m q R r → chain_to m p (L ++ R) r := by
  intro L
  induction L with
  | nil =>
    intro p q R r h1 h2
    simp only [chain_to] at h1
    rw [h1]
    exact h2
  | cons n L ih =>
    intro p q R r h1 h2
    exact ⟨h1.1, ih _ q R r h1.2 h2⟩

theorem tenure_list_of_chain {m : Mem} :
    ∀ (L : List Nat) (p : Nat), chain_to m p L 0 → (∀ n ∈ L, n ≠ 0) →
      tenure_list m (L.length + 1) p = L := by
  intro L
  induction L with
  | nil =>
    intro p h _
    simp only [chain_to] at h
    rw [h]
    simp [tenure_list]
  | cons n L ih =>
    intro p h hn
    obtain ⟨e, h2⟩ := h
    have hp : p ≠ 0 := by rw [e]; exact hn n (List.mem_cons_self _ _)
    rw [List.length_cons, tenure_list, if_neg hp, e]
    rw [ih _ h2 (fun k hk => hn k (List.mem_cons_of_mem _ hk))]

theorem chain_of_tenure_list {m : Mem} :
    ∀ (L : List Nat) (p : Nat), tenure_list m (L.length + 1) p = L →
      chain_to m p L 0 ∧ ∀ n ∈ L, n ≠ 0 := by
  intro L
  induction L with
  | nil =>
    intro p h
    simp only [List.length_nil, tenure_list] at h
    refine ⟨?_, fun n hn => by cases hn⟩
    simp only [chain_to]
    by_contra hp
    rw [if_neg hp] at h
    cases h
  | cons n L ih =>
    intro p h
    rw [List.length_cons, tenure_list] at h
    by_cases hp : p = 0
    · rw [if_pos hp] at h
      cases h
    · rw [if_neg hp] at h
      simp only [List.cons.injEq] at h
      obtain ⟨e, h2⟩ := h
      subst e
      obtain ⟨hc, hn⟩ := ih _ h2
      refine ⟨⟨rfl, hc⟩, ?_⟩
      intro k hk
      rcases List.mem_cons.1 hk with e | hk
      · rw [e]; exact hp
      · exact hn k hk

theorem mem_young_copies {m : Mem} {F : List (Nat × Nat)} {n : Nat} :
    n ∈ young_copies m F ↔ ∃ x ∈ F, promotes m x.1 = false ∧ x.2 = n := by
  unfold young_copies
  simp only [List.mem_reverse, List.mem_map, List.mem_filter, Bool.not_eq_true']
  constructor
  · rintro ⟨x, ⟨hx, hp⟩, e⟩
    exact ⟨x, hx, hp, e⟩
  · rintro ⟨x, hx, hp, e⟩
    exact ⟨x, ⟨hx, hp⟩, e⟩

theorem young_copies_cons (m : Mem) (x : Nat × Nat) (F : List (Nat × Nat)) :
    young_copies m (x :: F)
      = if promotes m x.1 then young_copies m F else young_copies m F ++ [x.2] := by
  unfold young_copies
  by_cases h : promotes m x.1 = true
  · simp [h]
  · simp [h]

theorem young_copies_sorted (s : GC) (m' : Mem) :
    ∀ (F : List (Nat × Nat)), placed s F →
      (∀ x ∈ F, object_bytes m' x.2 = object_bytes s.mem x.1) →
      (young_copies s.mem F).Pairwise (fun a b => a + object_bytes m' a ≤ b) := by
  intro F
  induction F with
  | nil => intro _ _; simp [young_copies]
  | cons x F ih =>
    intro hp hsz
    have hpF : placed s F := hp.2
    have ih2 := ih hpF (fun y hy => hsz y (List.mem_cons_of_mem _ hy))
    rw [young_copies_cons]
    by_cases hx : promotes s.mem x.1 = true
    · rw [if_pos hx]
      exact ih2
    · rw [if_neg hx]
      rw [List.pairwise_append]
      refine ⟨ih2, List.pairwise_singleton _ _, ?_⟩
      intro a ha b hb
      rw [List.mem_singleton] at hb
      obtain ⟨y, hy, hyp, e⟩ := mem_young_copies.1 ha
      have hb1 := ((GC.placed_bounds s F hpF y hy).1 hyp).2
      have hx2 := hp.1
      simp only [hx, if_false, Bool.false_eq_true] at hx2
      rw [← e, hsz y (List.mem_cons_of_mem _ hy), hb, hx2]
      exact hb1


namespace GC

/-- At the end of a scavenge a tenured object has its first header word, but for the
remember bit. -/
theorem Phase.old_header_after {s0 : GC} {N T : List Nat} {c : Scan} {F : List (Nat × Nat)}
    {D : List (Nat × Nat)} {Lk Q : List Nat}
    (hwf : s0.WF N T) (h : Phase s0 N T c F 0 0 D Lk Q) {t : Nat} (ht : t ∈ T) :
    YHeader.header1 c.gc.mem t = YHeader.header1 s0.mem t
      ∨ YHeader.header1 c.gc.mem t = YHeader.reset_gc_remember (YHeader.header1 s0.mem t) := by
  by_cases hex : ∃ j, j < s0.remember_set.length ∧ s0.remember_set.getD j 0 = t
  · obtain ⟨j, hj, e⟩ := hex
    have ht0 : t ≠ 0 := (hwf.old_outside t ht).1
    have h1 := ((h.rs_done j (Nat.zero_le _) hj).2 (by rw [e]; exact ht0)).2.2
    rw [e] at h1
    split at h1
    · exact Or.inl h1
    · exact Or.inr h1
  · refine Or.inl (h.old_fresh t ht ?_).2
    intro j _ hj e
    exact hex ⟨j, hj, e⟩

/-- A pair is a to-space copy or a linked promoted copy. -/
theorem Phase.new_listed {s0 : GC} {N T : List Nat} {c : Scan} {F : List (Nat × Nat)}
    {D : List (Nat × Nat)} {Lk Q : List Nat}
    (h : Phase s0 N T c F 0 0 D Lk Q) (hall : ∀ x ∈ F, x ∈ D) {x : Nat × Nat} (hx : x ∈ F) :
    x.2 ∈ young_copies s0.mem F ∨ x.2 ∈ Lk := by
  cases hp : promotes s0.mem x.1
  · exact Or.inl (mem_young_copies.2 ⟨x, hx, hp, rfl⟩)
  · exact Or.inr ((h.linked x.2).2 ⟨x, hall x hx, hp, rfl⟩)

/-- At the end of a scavenge a scanned field of an owner holds the forwarding address of the
young object it pointed to, and its original word otherwise. -/
theorem Phase.value_after {s0 : GC} {N T : List Nat} {c : Scan} {F : List (Nat × Nat)}
    {D : List (Nat × Nat)} {Lk Q : List Nat}
    (hwf : s0.WF N T) (h : Phase s0 N T c F 0 0 D Lk Q) (hall : ∀ x ∈ F, x ∈ D)
    {w : Nat × Nat} (hw : w ∈ owners T F) {i : Nat} (hi : scanned_index s0.mem w.2 i) :
    (Box.is_ptr (YHeader.get_field s0.mem w.2 i) = true
        ∧ s0.in_nursery (YHeader.get_field s0.mem w.2 i) = true
        ∧ (YHeader.get_field s0.mem w.2 i, YHeader.get_field c.gc.mem w.1 i) ∈ F)
      ∨ (¬ (Box.is_ptr (YHeader.get_field s0.mem w.2 i) = true
            ∧ s0.in_nursery (YHeader.get_field s0.mem w.2 i) = true)
        ∧ YHeader.get_field c.gc.mem w.1 i = YHeader.get_field s0.mem w.2 i) := by
  by_cases hc : Box.is_ptr (YHeader.get_field s0.mem w.2 i) = true
      ∧ s0.in_nursery (YHeader.get_field s0.mem w.2 i) = true
  · exact Or.inl ⟨hc.1, hc.2, h.owner_scanned hwf hall w hw i hi hc.1 hc.2⟩
  · refine Or.inr ⟨hc, ?_⟩
    rcases h.inv.cells w hw i hi with e | ⟨h1, h2, _⟩
    · exact e
    · exact absurd ⟨h1, h2⟩ hc

/-- At the end of a scavenge a pointer in a scanned field of an owner is null, a to-space
copy or a tenured object. -/
theorem Phase.target_after {s0 : GC} {N T : List Nat} {c : Scan} {F : List (Nat × Nat)}
    {D : List (Nat × Nat)} {Lk Q : List Nat}
    (hwf : s0.WF N T) (h : Phase s0 N T c F 0 0 D Lk Q) (hall : ∀ x ∈ F, x ∈ D)
    {w : Nat × Nat} (hw : w ∈ owners T F) {i : Nat} (hi : scanned_index s0.mem w.2 i)
    (hptr : Box.is_ptr (YHeader.get_field c.gc.mem w.1 i) = true) :
    YHeader.get_field c.gc.mem w.1 i = 0
      ∨ YHeader.get_field c.gc.mem w.1 i ∈ young_copies s0.mem F
      ∨ YHeader.get_field c.gc.mem w.1 i ∈ Lk ++ T := by
  rcases h.value_after hwf hall hw hi with ⟨_, _, hF⟩ | ⟨hn, e⟩
  · rcases h.new_listed hall hF with h1 | h1
    · exact Or.inr (Or.inl h1)
    · exact Or.inr (Or.inr (List.mem_append_left _ h1))
  · rw [e] at hptr ⊢
    have ho := h.inv.owner_orig w hw
    rcases hwf.fields_closed w.2 ho i hi.2.2 hi.1 hi.2.1 hptr with h0 | hN | hT
    · exact Or.inl h0
    · exact absurd ⟨hptr, hwf.in_nursery_young hN⟩ hn
    · exact Or.inr (Or.inr (List.mem_append_right _ hT))

/-- The owner of an object listed at the end of a scavenge. -/
theorem Phase.owner_of_listed {s0 : GC} {N T : List Nat} {c : Scan} {F : List (Nat × Nat)}
    {D : List (Nat × Nat)} {Lk Q : List Nat}
    (h : Phase s0 N T c F 0 0 D Lk Q) {o : Nat}
    (ho : o ∈ young_copies s0.mem F ++ (Lk ++ T)) :
    ∃ w ∈ owners T F, w.1 = o := by
  rcases List.mem_append.1 ho with h1 | h1
  · obtain ⟨x, hx, _, e⟩ := mem_young_copies.1 h1
    exact ⟨(x.2, x.1), mem_owners.2 (Or.inr hx), e⟩
  · rcases List.mem_append.1 h1 with h2 | h2
    · obtain ⟨x, hx, _, e⟩ := (h.linked o).1 h2
      exact ⟨(x.2, x.1), mem_owners.2 (Or.inr (h.done_sub x hx)), e⟩
    · exact ⟨(o, o), mem_owners.2 (Or.inl ⟨h2, rfl⟩), rfl⟩

/-- The pointer fields are closed at the end of a scavenge. -/
theorem Phase.fields_after {s0 : GC} {N T : List Nat} {c : Scan} {F : List (Nat × Nat)}
    {D : List (Nat × Nat)} {Lk Q : List Nat}
    (hwf : s0.WF N T) (h : Phase s0 N T c F 0 0 D Lk Q) (hall : ∀ x ∈ F, x ∈ D) :
    ∀ o ∈ young_copies s0.mem F ++ (Lk ++ T),
      ∀ i, i < YHeader.field_size (YHeader.header2 c.gc.mem o) →
      YHeader.has_boxed_value (YHeader.header1 c.gc.mem o) = true →
      YHeader.unbox_size (YHeader.header1 c.gc.mem o) ≤ i →
      Box.is_ptr (YHeader.get_field c.gc.mem o i) = true →
      YHeader.get_field c.gc.mem o i = 0
        ∨ YHeader.get_field c.gc.mem o i ∈ young_copies s0.mem F
        ∨ YHeader.get_field c.gc.mem o i ∈ Lk ++ T := by
  intro o ho i hi hb hu hptr
  obtain ⟨w, hw, e⟩ := h.owner_of_listed ho
  subst e
  obtain ⟨s1, s2, s3⟩ := h.inv.owner_shape w hw
  rw [s3] at hi
  rw [s1] at hb
  rw [s2] at hu
  exact h.target_after hwf hall hw ⟨hb, hu, hi⟩ hptr

/-- The roots are closed at the end of a scavenge. -/
theorem Phase.roots_after {s0 : GC} {N T : List Nat} {c : Scan} {F : List (Nat × Nat)}
    {D : List (Nat × Nat)} {Lk Q : List Nat}
    (hwf : s0.WF N T) (h : Phase s0 N T c F 0 0 D Lk Q) (hall : ∀ x ∈ F, x ∈ D) :
    ∀ i, i < (s0.stack_top + 1).toNat →
      c.gc.shadow_stack.getD i 0 = 0 ∨ c.gc.shadow_stack.getD i 0 ∈ young_copies s0.mem F
        ∨ c.gc.shadow_stack.getD i 0 ∈ Lk ++ T := by
  intro i hi
  obtain ⟨h1, h2⟩ := h.sh_done i (Nat.zero_le _) hi
  cases hn : s0.in_nursery (s0.shadow_stack.getD i 0)
  · rw [h2 hn]
    rcases hwf.roots_closed i hi with h0 | hN | hT
    · exact Or.inl h0
    · rw [hwf.in_nursery_young hN] at hn
      cases hn
    · exact Or.inr (Or.inr (List.mem_append_right _ hT))
  · rcases h.new_listed hall (h1 hn) with h3 | h3
    · exact Or.inr (Or.inl h3)
    · exact Or.inr (Or.inr (List.mem_append_left _ h3))

end GC


theorem chain_to_split {m : Mem} :
    ∀ (A B : List Nat) (p q : Nat), chain_to m p (A ++ B) q →
      ∃ r, chain_to m p A r ∧ chain_to m r B q := by
  intro A
  induction A with
  | nil => intro B p q h; exact ⟨p, rfl, h⟩
  | cons a A ih =>
    intro B p q h
    obtain ⟨e, h2⟩ := h
    obtain ⟨r, h3, h4⟩ := ih B _ q h2
    exact ⟨r, ⟨e, h3⟩, h4⟩

theorem chain_to_shorter {m : Mem} {q : Nat} :
    ∀ (L' L : List Nat) (p : Nat), chain_to m p L q → chain_to m p L' q →
      L'.length < L.length → q ∈ L := by
  intro L'
  induction L' with
  | nil =>
    intro L p h h' hl
    cases L with
    | nil => simp at hl
    | cons n L =>
      simp only [chain_to] at h'
      rw [← h', h.1]
      exact List.mem_cons_self _ _
  | cons n' L' ih =>
    intro L p h h' hl
    cases L with
    | nil => simp at hl
    | cons n L =>
      obtain ⟨e, h2⟩ := h
      obtain ⟨e', h2'⟩ := h'
      have en : n = n' := by rw [← e, ← e']
      subst en
      exact List.mem_cons_of_mem _
        (ih L _ h2 h2' (by simp only [List.length_cons] at hl; omega))

/-- A chain that does not pass through its end visits no node twice. -/
theorem chain_to_nodup {m : Mem} {q : Nat} :
    ∀ (L : List Nat) (p : Nat), chain_to m p L q → q ∉ L → L.Nodup := by
  intro L
  induction L with
  | nil => intro _ _ _; exact List.nodup_nil
  | cons n L ih =>
    intro p h hq
    obtain ⟨_, h2⟩ := h
    have hqL : q ∉ L := fun hm => hq (List.mem_cons_of_mem _ hm)
    refine List.nodup_cons.2 ⟨?_, ih _ h2 hqL⟩
    intro hn
    obtain ⟨A, B, e⟩ := List.append_of_mem hn
    rw [e] at h2
    obtain ⟨r, _, h4⟩ := chain_to_split A (n :: B) _ q h2
    obtain ⟨_, h5⟩ := h4
    have h2' : chain_to m (YHeader.next_object (YHeader.header1 m n)) L q := by
      have := ih
      rw [e]
      exact h2
    have hl : B.length < L.length := by
      rw [e, List.length_append, List.length_cons]
      omega
    exact hqL (chain_to_shorter B L _ h2' h5 hl)

namespace GC

theorem Inv.size_after {s0 : GC} {N T : List Nat} {c : Scan} {F : List (Nat × Nat)}
    (h : Inv s0 N T c F) {w : Nat × Nat} (hw : w ∈ owners T F) :
    object_bytes c.gc.mem w.1 = object_bytes s0.mem w.2 := by
  rw [object_bytes_eq, object_bytes_eq, h.owner_h2 w hw]

/-- The tenure list at the end of a scavenge: the linked copies, then the old list. -/
theorem Phase.chain_after {s0 : GC} {N T : List Nat} {c : Scan} {F : List (Nat × Nat)}
    {D : List (Nat × Nat)} {Lk Q : List Nat}
    (hwf : s0.WF N T) (h : Phase s0 N T c F 0 0 D Lk Q) :
    chain_to c.gc.mem c.gc.tenure_space (Lk ++ T) 0 ∧ (∀ n ∈ Lk ++ T, n ≠ 0)
      ∧ (Lk ++ T).Nodup := by
  obtain ⟨hc0, hn0⟩ := chain_of_tenure_list T s0.tenure_space hwf.tenure_chain
  have hc1 : chain_to c.gc.mem s0.tenure_space T 0 := by
    refine chain_to_of_next T _ 0 ?_ hc0
    intro n hn
    rcases h.old_header_after hwf hn with e | e
    · rw [e]
    · rw [e, YHeader.next_object_reset_gc_remember]
  have hc := chain_to_append Lk _ _ T 0 h.chain hc1
  have hnn : ∀ n ∈ Lk ++ T, n ≠ 0 := by
    intro n hn
    rcases List.mem_append.1 hn with h1 | h1
    · obtain ⟨x, hx, _, e⟩ := (h.linked n).1 h1
      have := (h.inv.new_addr hwf x (h.done_sub x hx)).1
      omega
    · exact hn0 n h1
  exact ⟨hc, hnn, chain_to_nodup _ _ hc (fun h0 => hnn 0 h0 rfl)⟩

/-- The listed objects at the end of a scavenge do not overlap. -/
theorem Phase.old_apart_after {s0 : GC} {N T : List Nat} {c : Scan} {F : List (Nat × Nat)}
    {D : List (Nat × Nat)} {Lk Q : List Nat}
    (hwf : s0.WF N T) (h : Phase s0 N T c F 0 0 D Lk Q) :
    (Lk ++ T).Pairwise
      (fun a b => a + object_bytes c.gc.mem a ≤ b ∨ b + object_bytes c.gc.mem b ≤ a) := by
  refine (h.chain_after hwf).2.2.pairwise_of_forall_ne ?_
  intro a ha b hb hab
  obtain ⟨w, hw, e⟩ := h.owner_of_listed (List.mem_append_right _ ha)
  obtain ⟨w', hw', e'⟩ := h.owner_of_listed (List.mem_append_right _ hb)
  have hne : w ≠ w' := by
    intro hww
    rw [hww] at e
    exact hab (e.symm.trans e')
  have := h.inv.owners_apart hwf w w' hw hw' hne
  rw [← h.inv.size_after hw, ← h.inv.size_after hw', e, e'] at this
  exact this

/-- The listed tenured objects at the end of a scavenge are blocks of the free store with
generation 0. -/
theorem Phase.old_zone_after {s0 : GC} {N T : List Nat} {c : Scan} {F : List (Nat × Nat)}
    {D : List (Nat × Nat)} {Lk Q : List Nat}
    (hwf : s0.WF N T) (h : Phase s0 N T c F 0 0 D Lk Q) :
    ∀ t ∈ Lk ++ T, (t ≠ 0 ∧ t + object_bytes c.gc.mem t ≤ c.gc.heap_break
        ∧ (t + object_bytes c.gc.mem t ≤ s0.nursery_space ∨ s0.nursery_space_end ≤ t))
      ∧ YHeader.gc_generation (YHeader.header1 c.gc.mem t) = 0 := by
  intro t ht
  have hbrk := h.inv.brk
  rcases List.mem_append.1 ht with h1 | h1
  · obtain ⟨x, hx, hp, e⟩ := (h.linked t).1 h1
    have hxF := h.done_sub x hx
    have hb := (placed_bounds s0 F h.inv.is_placed x hxF).2 hp
    have hsz := h.inv.size_after (mem_owners.2 (Or.inr hxF) : (x.2, x.1) ∈ owners T F)
    simp only at hsz
    have hab := hwf.heap_above
    have hpos := (h.inv.new_addr hwf x hxF).1
    subst e
    refine ⟨⟨by omega, by omega, Or.inr (by omega)⟩, ?_⟩
    have hk := h.inv.new_kind x hxF
    rw [(YHeader.kind_congr hk).2.2, YHeader.gc_generation_inc, (promotes_iff _ _).1 hp]
  · have ho := hwf.old_outside t h1
    have hsz := h.inv.size_after (mem_owners.2 (Or.inl ⟨h1, rfl⟩) : (t, t) ∈ owners T F)
    simp only at hsz
    refine ⟨⟨ho.1, by omega, by omega⟩, ?_⟩
    rw [(YHeader.kind_congr (h.inv.old_kind t h1)).2.2]
    exact hwf.old_header t h1

/-- The young objects at the end of a scavenge lie in to-space, in address order, with a
null forwarding pointer and generation 2 or 3. -/
theorem Phase.young_after {s0 : GC} {N T : List Nat} {c : Scan} {F : List (Nat × Nat)}
    {D : List (Nat × Nat)} {Lk Q : List Nat}
    (hwf : s0.WF N T) (h : Phase s0 N T c F 0 0 D Lk Q) :
    (young_copies s0.mem F).Pairwise (fun a b => a + object_bytes c.gc.mem a ≤ b)
      ∧ (∀ o ∈ young_copies s0.mem F, s0.semi_space1 ≤ o
          ∧ o + object_bytes c.gc.mem o ≤ c.alloc_ptr
          ∧ c.alloc_ptr ≤ s0.semi_space1 + 8 * s0.semi_space_size)
      ∧ (∀ o ∈ young_copies s0.mem F,
          YHeader.forward_pointer (YHeader.header1 c.gc.mem o) = 0
          ∧ 1 ≤ YHeader.gc_generation (YHeader.header1 c.gc.mem o)) := by
  have hsz : ∀ x ∈ F, object_bytes c.gc.mem x.2 = object_bytes s0.mem x.1 := fun x hx =>
    h.inv.size_after (mem_owners.2 (Or.inr hx) : (x.2, x.1) ∈ owners T F)
  refine ⟨young_copies_sorted s0 c.gc.mem F h.inv.is_placed hsz, ?_, ?_⟩
  · intro o ho
    obtain ⟨x, hx, hp, e⟩ := mem_young_copies.1 ho
    have hb := (placed_bounds s0 F h.inv.is_placed x hx).1 hp
    have hu := (used_le hwf F h.inv.keys_nodup h.inv.keys_young).1
    have ha := h.inv.alloc
    have := hsz x hx
    subst e
    refine ⟨hb.1, by omega, by omega⟩
  · intro o ho
    obtain ⟨x, hx, hp, e⟩ := mem_young_copies.1 ho
    subst e
    rw [h.inv.new_h1 x hx hp, YHeader.forward_pointer_inc, YHeader.gc_generation_inc]
    have hy := hwf.young_header x.1 (h.inv.keys_young x hx)
    refine ⟨hy.1, ?_⟩
    have hg : YHeader.gc_generation (YHeader.header1 s0.mem x.1) ≠ 3 := by
      intro e3
      rw [(promotes_iff _ _).2 e3] at hp
      cases hp
    have hlt : YHeader.gc_generation (YHeader.header1 s0.mem x.1) < 4 := by
      rw [YHeader.gc_generation_eq]
      exact Nat.mod_lt _ (by norm_num)
    omega

end GC


namespace GC

/-- The entries of the remember set at the end of a scavenge, by index. -/
theorem Phase.entry_after {s0 : GC} {N T : List Nat} {c : Scan} {F : List (Nat × Nat)}
    {D : List (Nat × Nat)} {Lk Q : List Nat}
    (hwf : s0.WF N T) (h : Phase s0 N T c F 0 0 D Lk Q) {j : Nat}
    (hj : j < c.gc.remember_set.length) :
    (j < s0.remember_set.length
        ∧ (c.gc.remember_set.getD j 0 = 0
          ∨ (c.gc.remember_set.getD j 0 = s0.remember_set.getD j 0
            ∧ s0.remember_set.getD j 0 ∈ T)))
      ∨ (s0.remember_set.length ≤ j ∧ c.gc.remember_set.getD j 0 ∈ Q
        ∧ c.gc.remember_set.getD j 0 = Q.getD (j - s0.remember_set.length) 0
        ∧ j - s0.remember_set.length < Q.length) := by
  by_cases hlt : j < s0.remember_set.length
  · refine Or.inl ⟨hlt, ?_⟩
    rcases (h.rs_done j (Nat.zero_le _) hlt).1 with e | e
    · by_cases h0 : s0.remember_set.getD j 0 = 0
      · exact Or.inl (e.trans h0)
      · exact Or.inr ⟨e, (hwf.remembered_mem hlt h0).1⟩
    · exact Or.inl e
  · have hk : j - s0.remember_set.length < Q.length := by
      have := h.rs_len
      omega
    have e := h.rs_new (j - s0.remember_set.length) hk
    rw [show s0.remember_set.length + (j - s0.remember_set.length) = j by omega] at e
    refine Or.inr ⟨by omega, ?_, e, hk⟩
    rw [e, List.getD_eq_getElem _ _ hk]
    exact List.getElem_mem _

theorem Phase.q_linked {s0 : GC} {N T : List Nat} {c : Scan} {F : List (Nat × Nat)}
    {D : List (Nat × Nat)} {Lk Q : List Nat}
    (hwf : s0.WF N T) (h : Phase s0 N T c F 0 0 D Lk Q) {n : Nat} (hn : n ∈ Q) :
    n ∈ Lk ∧ n ∉ T ∧ n ≠ 0 := by
  obtain ⟨x, hx, hp, e, _⟩ := (h.q_mem n).1 hn
  refine ⟨(h.linked n).2 ⟨x, hx, hp, e⟩, ?_, ?_⟩
  · rw [← e]
    exact h.inv.new_not_old hwf (h.done_sub x hx)
  · have := (h.inv.new_addr hwf x (h.done_sub x hx)).1
    omega

/-- The remember set at the end of a scavenge holds nulls and listed tenured objects, none
twice. -/
theorem Phase.remembered_after {s0 : GC} {N T : List Nat} {c : Scan} {F : List (Nat × Nat)}
    {D : List (Nat × Nat)} {Lk Q : List Nat}
    (hwf : s0.WF N T) (h : Phase s0 N T c F 0 0 D Lk Q) :
    (∀ r ∈ c.gc.remember_set, r = 0 ∨ r ∈ Lk ++ T)
      ∧ c.gc.remember_set.Pairwise (fun a b => a ≠ 0 → a ≠ b) := by
  constructor
  · intro r hr
    obtain ⟨j, hj, e⟩ := List.mem_iff_getElem.1 hr
    have e2 : c.gc.remember_set.getD j 0 = r := by
      rw [List.getD_eq_getElem _ _ hj]; exact e
    rcases h.entry_after hwf hj with ⟨_, h0 | ⟨h1, h2⟩⟩ | ⟨_, hq, _⟩
    · exact Or.inl (e2.symm.trans h0)
    · rw [← e2, h1]
      exact Or.inr (List.mem_append_right _ h2)
    · rw [← e2]
      exact Or.inr (List.mem_append_left _ (h.q_linked hwf hq).1)
  · rw [List.pairwise_iff_getElem]
    intro i j hi hj hij ha e
    have ei : c.gc.remember_set.getD i 0 = c.gc.remember_set[i] :=
      List.getD_eq_getElem _ _ hi
    have ej : c.gc.remember_set.getD j 0 = c.gc.remember_set[j] :=
      List.getD_eq_getElem _ _ hj
    rw [← ei] at ha e
    rw [← ej] at e
    rcases h.entry_after hwf hi with ⟨hil, h0 | ⟨h1, h2⟩⟩ | ⟨hil, hq, eq1, hk1⟩
    · exact ha h0
    · rcases h.entry_after hwf hj with ⟨hjl, h0' | ⟨h1', _⟩⟩ | ⟨_, hq', _⟩
      · exact ha (e.trans h0')
      · have hne : s0.remember_set.getD i 0 ≠ 0 := by rw [← h1]; exact ha
        have := hwf.remembered_index hil hjl hne (by rw [← h1, ← h1', e])
        omega
      · rw [← e, h1] at hq'
        exact (h.q_linked hwf hq').2.1 h2
    · rcases h.entry_after hwf hj with ⟨hjl, _⟩ | ⟨hjl, _, eq2, hk2⟩
      · omega
      · rw [eq1, eq2, List.getD_eq_getElem _ _ hk1, List.getD_eq_getElem _ _ hk2] at e
        have := (h.q_nodup.getElem_inj_iff).1 e
        omega

/-- At the end of a scavenge every listed tenured object that holds a pointer into the
nursery is in the remember set. -/
theorem Phase.remembered_all_after {s0 : GC} {N T : List Nat} {c : Scan}
    {F : List (Nat × Nat)} {D : List (Nat × Nat)} {Lk Q : List Nat}
    (hwf : s0.WF N T) (h : Phase s0 N T c F 0 0 D Lk Q) (hall : ∀ x ∈ F, x ∈ D) :
    ∀ t ∈ Lk ++ T,
      (∃ i, i < YHeader.field_size (YHeader.header2 c.gc.mem t)
        ∧ YHeader.has_boxed_value (YHeader.header1 c.gc.mem t) = true
        ∧ YHeader.unbox_size (YHeader.header1 c.gc.mem t) ≤ i
        ∧ Box.is_ptr (YHeader.get_field c.gc.mem t i) = true
        ∧ s0.in_nursery (YHeader.get_field c.gc.mem t i) = true) →
      t ∈ c.gc.remember_set := by
  intro t ht hex
  obtain ⟨i, hi, hb, hu, hptr, hnur⟩ := hex
  obtain ⟨w, hw, e⟩ := h.owner_of_listed (List.mem_append_right _ ht)
  subst e
  obtain ⟨s1, s2, s3⟩ := h.inv.owner_shape w hw
  rw [s3] at hi
  rw [s1] at hb
  rw [s2] at hu
  have hsi : scanned_index s0.mem w.2 i := ⟨hb, hu, hi⟩
  rcases h.value_after hwf hall hw hsi with ⟨hp0, hn0, _⟩ | ⟨hn, e⟩
  · have hky : keeps_young s0 c.gc.mem w := ⟨hb, i, hu, hi, hp0, hn0, hnur⟩
    rcases List.mem_append.1 ht with h1 | h1
    · obtain ⟨x, hx, hp, ex⟩ := (h.linked w.1).1 h1
      have hwx : w = (x.2, x.1) :=
        h.inv.owners_inj hwf w (x.2, x.1) hw (mem_owners.2 (Or.inr (h.done_sub x hx)))
          ex.symm
      have hq : w.1 ∈ Q := (h.q_mem w.1).2 ⟨x, hx, hp, ex, by rw [← hwx]; exact hky⟩
      obtain ⟨k, hk, ek⟩ := List.mem_iff_getElem.1 hq
      have := h.rs_new k hk
      rw [List.getD_eq_getElem _ _ hk, ek] at this
      have hlen := h.rs_len
      rw [← this, List.getD_eq_getElem _ _ (by omega)]
      exact List.getElem_mem _
    · have hwt : w = (w.1, w.1) :=
        h.inv.owners_inj hwf w (w.1, w.1) hw (mem_owners.2 (Or.inl ⟨h1, rfl⟩)) rfl
      have e2 : w.2 = w.1 := by
        have := congrArg Prod.snd hwt
        exact this
      rw [e2] at hi hb hu hp0 hn0
      have hin : w.1 ∈ s0.remember_set :=
        hwf.remembered_all w.1 h1 ⟨i, hi, hb, hu, hp0, hn0⟩
      obtain ⟨j, hj, ej⟩ := hwf.remembered_index_of hin
      have ht0 : w.1 ≠ 0 := (hwf.old_outside w.1 h1).1
      have hd := h.rs_done j (Nat.zero_le _) hj
      have hd2 := (hd.2 (by rw [ej]; exact ht0)).2.1
      rw [ej] at hd2
      have hne : c.gc.remember_set.getD j 0 ≠ 0 := hd2.2 (by rw [← hwt]; exact hky)
      have hlen := h.rs_len
      rcases hd.1 with e3 | e3
      · rw [ej] at e3
        rw [← e3, List.getD_eq_getElem _ _ (by omega)]
        exact List.getElem_mem _
      · exact absurd e3 hne
  · rw [e] at hptr hnur
    exact absurd ⟨hptr, hnur⟩ hn

end GC


namespace GC

/-- The collector's invariants hold again at the end of a scavenge, for the to-space copies
and the tenure list extended by the promoted copies, when the free store has room for
another semi-space of promotions. -/
theorem Phase.wf_after {s0 : GC} {N T : List Nat} {c : Scan} {F : List (Nat × Nat)}
    {D : List (Nat × Nat)} {Lk Q : List Nat}
    (hwf : s0.WF N T) (h : Phase s0 N T c F 0 0 D Lk Q) (hall : ∀ x ∈ F, x ∈ D)
    (hpo : c.gc.promoted_objects = [])
    (hroom : s0.heap_break + 16 * s0.semi_space_size ≤ 2 ^ 48) :
    (c.gc.flip c.alloc_ptr).WF (young_copies s0.mem F) (Lk ++ T) := by
  have hfr := h.inv.frame
  have hu := (used_le hwf F h.inv.keys_nodup h.inv.keys_young).1
  have hbrk := h.inv.brk
  obtain ⟨hy1, hy2, hy3⟩ := h.young_after hwf
  obtain ⟨hc1, hc2, hc3⟩ := h.chain_after hwf
  obtain ⟨hr1, hr2⟩ := h.remembered_after hwf
  constructor
  · simpa [hfr.nursery_space] using hwf.nursery_pos
  · have := hwf.semi_spaces
    simp only [flip_proj, hfr.nursery_space, hfr.semi_space0, hfr.semi_space1,
      hfr.semi_space_size]
    rcases this with ⟨a, b⟩ | ⟨a, b⟩
    · exact Or.inr ⟨a, b⟩
    · exact Or.inl ⟨a, b⟩
  · simpa [hfr.nursery_space, hfr.nursery_space_end, hfr.semi_space_size]
      using hwf.nursery_end
  · have := hwf.heap_above
    simp only [flip_proj, hfr.nursery_space_end]
    omega
  · simp only [flip_proj, hfr.semi_space_size]
    omega
  · simpa using hy1
  · intro o ho
    have := hy2 o ho
    simp only [flip_proj, hfr.semi_space1, hfr.semi_space_size]
    omega
  · intro o ho
    simpa using hy3 o ho
  · simpa using h.old_apart_after hwf
  · intro t ht
    have := (h.old_zone_after hwf t ht).1
    simp only [flip_proj, hfr.nursery_space, hfr.nursery_space_end]
    exact this
  · intro t ht
    simpa using (h.old_zone_after hwf t ht).2
  · simpa using h.fields_after hwf hall
  · simp only [flip_proj, hfr.stack_top, hfr.shadow_length]
    exact hwf.stack_fits
  · simp only [flip_proj, hfr.stack_top]
    exact h.roots_after hwf hall
  · simpa using hr1
  · simpa using hr2
  · intro t ht hex
    have := h.remembered_all_after hwf hall t ht
    simp only [flip_proj] at hex ⊢
    refine this ?_
    obtain ⟨i, a1, a2, a3, a4, a5⟩ := hex
    refine ⟨i, a1, a2, a3, a4, ?_⟩
    rw [← in_nursery_frame hfr]
    simpa [in_nursery] using a5
  · simpa using hpo
  · simp only [flip_proj]
    exact tenure_list_of_chain _ _ hc1 hc2
  · simp only [flip_proj]
    rw [h.inv.tenure_size]
    exact Nat.mod_lt _ (by norm_num)

end GC


namespace GC

/-- At the end of a scavenge everything reachable from the roots is listed. -/
theorem Phase.reachable_after {s0 : GC} {N T : List Nat} {c : Scan} {F : List (Nat × Nat)}
    {D : List (Nat × Nat)} {Lk Q : List Nat}
    (hwf : s0.WF N T) (h : Phase s0 N T c F 0 0 D Lk Q) (hall : ∀ x ∈ F, x ∈ D)
    {x : Nat} (hx : (c.gc.flip c.alloc_ptr).copy_reachable x) :
    x ∈ young_copies s0.mem F ++ (Lk ++ T) := by
  obtain ⟨r, hr, hp⟩ := hx
  have hroot : r ∈ young_copies s0.mem F ++ (Lk ++ T) := by
    obtain ⟨hr0, hr1 | hr1⟩ := hr
    · obtain ⟨i, hi, e⟩ := hr1
      simp only [flip_proj, h.inv.frame.stack_top] at hi e
      rcases h.roots_after hwf hall i hi with h0 | h1 | h1
      · exact absurd (e.symm.trans h0) hr0
      · rw [← e]; exact List.mem_append_left _ h1
      · rw [← e]; exact List.mem_append_right _ h1
    · simp only [flip_proj] at hr1
      rcases (h.remembered_after hwf).1 r hr1 with h0 | h1
      · exact absurd h0 hr0
      · exact List.mem_append_right _ h1
  induction hp with
  | refl => exact hroot
  | @tail b z _ hbz ih =>
    obtain ⟨i, hi, hptr, e, hz⟩ := hbz
    simp only [flip_proj] at hi hptr e
    rcases h.fields_after hwf hall b ih i hi.2.2 hi.1 hi.2.1 hptr with h0 | h1 | h1
    · exact absurd (e.symm.trans h0) hz
    · rw [← e]; exact List.mem_append_left _ h1
    · rw [← e]; exact List.mem_append_right _ h1

/-- A listed object or null at the end of a scavenge lies outside the semi-space that was
active, and has a null forwarding pointer when it lies in the nursery. -/
theorem Phase.target_clean {s0 : GC} {N T : List Nat} {c : Scan} {F : List (Nat × Nat)}
    {D : List (Nat × Nat)} {Lk Q : List Nat}
    (hwf : s0.WF N T) (h : Phase s0 N T c F 0 0 D Lk Q) {v : Nat}
    (hv : v = 0 ∨ v ∈ young_copies s0.mem F ∨ v ∈ Lk ++ T) :
    ¬ (s0.semi_space0 ≤ v ∧ v < s0.semi_space0 + 8 * s0.semi_space_size)
      ∧ (s0.in_nursery v = true → YHeader.forward_pointer (YHeader.header1 c.gc.mem v) = 0) := by
  have hsp := hwf.semi_spaces
  have hne := hwf.nursery_end
  have hpos := hwf.nursery_pos
  rcases hv with h0 | h1 | h1
  · subst h0
    refine ⟨by omega, ?_⟩
    intro hn
    rw [in_nursery_iff] at hn
    omega
  · obtain ⟨_, hy2, hy3⟩ := h.young_after hwf
    have := hy2 v h1
    have := object_bytes_pos c.gc.mem v
    exact ⟨by omega, fun _ => (hy3 v h1).1⟩
  · have hz := (h.old_zone_after hwf v h1).1
    have := object_bytes_pos c.gc.mem v
    refine ⟨by omega, ?_⟩
    intro hn
    rw [in_nursery_iff] at hn
    omega

end GC


namespace GC

theorem heap_used_mem (m : Mem) :
    ∀ (F : List (Nat × Nat)) (x : Nat × Nat), x ∈ F → promotes m x.1 = true →
      object_bytes m x.1 ≤ heap_used m F := by
  intro F
  induction F with
  | nil => intro x hx; cases hx
  | cons y F ih =>
    intro x hx hp
    rcases List.mem_cons.1 hx with e | hx
    · subst e
      simp only [heap_used, hp, if_true]
      omega
    · have := ih x hx hp
      simp only [heap_used]
      split <;> omega

theorem young_copies_length_le {s0 : GC} {N T : List Nat} {c : Scan} {F : List (Nat × Nat)}
    (h : Inv s0 N T c F) : (young_copies s0.mem F).length ≤ N.length := by
  have h1 : (young_copies s0.mem F).length ≤ F.length := by
    unfold young_copies
    rw [List.length_reverse, List.length_map]
    exact List.length_filter_le _ _
  have h2 : (F.map Prod.fst).length ≤ N.length :=
    nodup_subset_length_le _ _ h.keys_nodup (by
      intro a ha
      obtain ⟨x, hx, e⟩ := List.mem_map.1 ha
      rw [← e]
      exact h.keys_young x hx)
  rw [List.length_map] at h2
  omega

/-- A scavenge of a state that satisfies the collector's invariants returns; the invariants
hold again when the free store has room, for no more young objects than before; the
scavenge is counted, and no major collection is. -/
theorem WF.scavenge {s : GC} {N T : List Nat} (hwf : s.WF N T) (fuel : Nat)
    (hf : N.length ≤ fuel) :
    ∃ (t : GC) (n : Nat) (N' T' : List Nat), GC.do_copy_gc fuel s = some (t, n)
      ∧ (s.heap_break + 16 * s.semi_space_size ≤ 2 ^ 48 → t.WF N' T')
      ∧ N'.length ≤ N.length
      ∧ t.heap_break ≤ s.heap_break + 8 * s.semi_space_size
      ∧ t.semi_space_size = s.semi_space_size
      ∧ t.copy_gc_count = s.copy_gc_count + 1
      ∧ t.mark_sweep_gc_count = s.mark_sweep_gc_count
      ∧ t.current_end = t.semi_space0 + 8 * t.semi_space_size
      ∧ t.semi_space0 ≤ t.current_top ∧ t.current_top ≤ t.current_end := by
  obtain ⟨c, F, D, Lk, Q, hrun, hph, hpo, hall⟩ := hwf.do_copy_gc fuel hf
  have hwf0 := hwf.count (s.copy_gc_count + 1)
  have hfr := hph.inv.frame
  have hu := (used_le hwf0 F hph.inv.keys_nodup hph.inv.keys_young).1
  have hbrk := hph.inv.brk
  have hal := hph.inv.alloc
  have hlen0 := young_copies_length_le hph.inv
  have hlen : (young_copies s.mem F).length ≤ N.length := hlen0
  have e1 : (s.set_copy_gc_count (s.copy_gc_count + 1)).semi_space_size = s.semi_space_size :=
    rfl
  have e2 : (s.set_copy_gc_count (s.copy_gc_count + 1)).heap_break = s.heap_break := rfl
  have e3 : (s.set_copy_gc_count (s.copy_gc_count + 1)).copy_gc_count = s.copy_gc_count + 1 :=
    rfl
  have e4 : (s.set_copy_gc_count (s.copy_gc_count + 1)).mark_sweep_gc_count
      = s.mark_sweep_gc_count := rfl
  rw [e1] at hu
  rw [e2] at hbrk
  refine ⟨_, _, young_copies s.mem F, Lk ++ T, hrun, ?_, hlen, ?_, ?_, ?_, ?_, ?_, ?_, ?_⟩
  · intro hroom
    have hw := hph.wf_after hwf0 hall hpo hroom
    exact hw
  · simp only [flip_proj]
    omega
  · simp only [flip_proj, hfr.semi_space_size, e1]
  · simp only [flip_proj, hfr.copy_gc_count, e3]
  · simp only [flip_proj, hfr.mark_sweep_gc_count, e4]
  · simp only [flip_proj]
  · simp only [flip_proj, hfr.semi_space1]
    omega
  · simp only [flip_proj, hfr.semi_space1, hfr.semi_space_size, e1]
    omega

end GC


namespace GC

theorem alloc_attempts_succ (fuel wcount k : Nat) (s s1 : GC) (n : Nat)
    (h : do_copy_gc fuel s = some (s1, n)) :
    alloc_attempts fuel wcount (k + 1) s
      = if s1.current_top + 8 * wcount ≤ s1.current_end then
          some (Outcome.returned s1 (s1.current_top + 8 * wcount))
        else alloc_attempts fuel wcount k s1 := by
  rw [alloc_attempts, h]

/-- The three attempts of the allocation slow path, from a state that satisfies the
collector's invariants. -/
theorem WF.alloc_attempts {s : GC} {N T : List Nat} (hwf : s.WF N T) (fuel : Nat)
    (hf : N.length ≤ fuel) (hroom : s.heap_break + 24 * s.semi_space_size ≤ 2 ^ 48)
    (wcount : Nat) :
    ∃ (t1 t2 t3 : GC) (n1 n2 n3 : Nat), GC.do_copy_gc fuel s = some (t1, n1)
      ∧ GC.do_copy_gc fuel t1 = some (t2, n2) ∧ GC.do_copy_gc fuel t2 = some (t3, n3)
      ∧ GC.alloc_attempts fuel wcount 3 s
        = some (if t1.current_top + 8 * wcount ≤ t1.current_end then
            Outcome.returned t1 (t1.current_top + 8 * wcount)
          else if t2.current_top + 8 * wcount ≤ t2.current_end then
            Outcome.returned t2 (t2.current_top + 8 * wcount)
          else if t3.current_top + 8 * wcount ≤ t3.current_end then
            Outcome.returned t3 (t3.current_top + 8 * wcount)
          else Outcome.memory_exhausted t3) := by
  obtain ⟨t1, n1, N1, T1, hr1, hw1, hl1, hb1, hs1, -⟩ := hwf.scavenge fuel hf
  have hwf1 := hw1 (by omega)
  obtain ⟨t2, n2, N2, T2, hr2, hw2, hl2, hb2, hs2, -⟩ := hwf1.scavenge fuel (by omega)
  have hwf2 := hw2 (by omega)
  obtain ⟨t3, n3, N3, T3, hr3, -⟩ := hwf2.scavenge fuel (by omega)
  refine ⟨t1, t2, t3, n1, n2, n3, hr1, hr2, hr3, ?_⟩
  rw [alloc_attempts_succ fuel wcount 2 s t1 n1 hr1]
  by_cases h1 : t1.current_top + 8 * wcount ≤ t1.current_end
  · rw [if_pos h1, if_pos h1]
  · rw [if_neg h1, if_neg h1, alloc_attempts_succ fuel wcount 1 t1 t2 n2 hr2]
    by_cases h2 : t2.current_top + 8 * wcount ≤ t2.current_end
    · rw [if_pos h2, if_pos h2]
    · rw [if_neg h2, if_neg h2, alloc_attempts_succ fuel wcount 0 t2 t3 n3 hr3]
      by_cases h3 : t3.current_top + 8 * wcount ≤ t3.current_end
      · rw [if_pos h3, if_pos h3]
      · rw [if_neg h3, if_neg h3, GC.alloc_attempts]

theorem mark_sweep_gc_if_needed_counts {fuel : Nat} {s t : GC} {n : Nat}
    (h : mark_sweep_gc_if_needed fuel s = some (t, n)) :
    t.copy_gc_count = s.copy_gc_count
      ∧ t.mark_sweep_gc_count = s.mark_sweep_gc_count
          + (if s.tenure_space_size < s.tenure_space_limit then 0 else 1) := by
  unfold mark_sweep_gc_if_needed at h
  by_cases hlt : s.tenure_space_limit > s.tenure_space_size
  · rw [if_pos hlt] at h
    simp only [Option.some.injEq, Prod.mk.injEq] at h
    rw [← h.1, if_pos hlt]
    exact ⟨rfl, by simp⟩
  · rw [if_neg hlt] at h
    rw [if_neg hlt]
    cases hrun : do_mark_sweep_gc fuel s with
    | none => rw [hrun] at h; cases h
    | some r =>
      obtain ⟨s1, lives⟩ := r
      rw [hrun] at h
      simp only at h
      obtain ⟨hm, -, hc, -⟩ := do_mark_sweep_gc_frame hrun
      split at h
      · simp only [Option.some.injEq, Prod.mk.injEq] at h
        rw [← h.1]
        exact ⟨hc, hm⟩
      · simp only [Option.some.injEq, Prod.mk.injEq] at h
        rw [← h.1]
        exact ⟨hc, hm⟩

/-- An entry of the remember set keeps a pointer into the nursery after the scavenge
exactly when one of its scanned fields pointed to a young object that is not promoted. -/
theorem Phase.keeps_young_iff {s0 : GC} {N T : List Nat} {c : Scan} {F : List (Nat × Nat)}
    {D : List (Nat × Nat)} {Lk Q : List Nat}
    (hwf : s0.WF N T) (h : Phase s0 N T c F 0 0 D Lk Q) (hall : ∀ x ∈ F, x ∈ D)
    {w : Nat × Nat} (hw : w ∈ owners T F) :
    keeps_young s0 c.gc.mem w
      ↔ ∃ i, scanned_index s0.mem w.2 i ∧ Box.is_ptr (YHeader.get_field s0.mem w.2 i) = true
          ∧ s0.in_nursery (YHeader.get_field s0.mem w.2 i) = true
          ∧ YHeader.gc_generation (YHeader.header1 s0.mem (YHeader.get_field s0.mem w.2 i))
              ≠ 3 := by
  constructor
  · rintro ⟨hb, j, hlo, hhi, hp, hn, hn2⟩
    have hsi : scanned_index s0.mem w.2 j := ⟨hb, hlo, hhi⟩
    refine ⟨j, hsi, hp, hn, ?_⟩
    have hF := h.owner_scanned hwf hall w hw j hsi hp hn
    have ha := (h.inv.new_addr hwf _ hF).2.2.1
    simp only at ha
    have hpf := ha.1 hn2
    intro e3
    rw [(promotes_iff _ _).2 e3] at hpf
    cases hpf
  · rintro ⟨i, hsi, hp, hn, hg⟩
    have hF := h.owner_scanned hwf hall w hw i hsi hp hn
    have ha := (h.inv.new_addr hwf _ hF).2.2.1
    simp only at ha
    have hpf : promotes s0.mem (YHeader.get_field s0.mem w.2 i) = false := by
      cases hpp : promotes s0.mem (YHeader.get_field s0.mem w.2 i)
      · rfl
      · exact absurd ((promotes_iff _ _).1 hpp) hg
    exact ⟨hsi.1, i, hsi.2.1, hsi.2.2, hp, hn, ha.2 hpf⟩

end GC


namespace GC

/-- What a scavenge does to a young object held in slot `i` of the shadow stack: below
generation 3 it is copied within the nursery with the generation incremented; at
generation 3 it is moved to the tenure list with generation 0. -/
theorem WF.scavenge_rooted {s : GC} {N T : List Nat} (hwf : s.WF N T) (fuel : Nat)
    (hf : N.length ≤ fuel) (i : Nat) (hi : i < (s.stack_top + 1).toNat)
    (hy : s.in_nursery (s.shadow_stack.getD i 0) = true) :
    ∃ (t : GC) (n : Nat) (N' T' : List Nat), GC.do_copy_gc fuel s = some (t, n)
      ∧ (s.heap_break + 16 * s.semi_space_size ≤ 2 ^ 48 → t.WF N' T')
      ∧ N'.length ≤ N.length
      ∧ t.heap_break ≤ s.heap_break + 8 * s.semi_space_size
      ∧ t.semi_space_size = s.semi_space_size
      ∧ t.stack_top = s.stack_top
      ∧ (s.tenure_space_size + s.semi_space_size < 2 ^ 64 →
          s.tenure_space_size ≤ t.tenure_space_size
          ∧ t.tenure_space_size ≤ s.tenure_space_size + s.semi_space_size)
      ∧ (YHeader.gc_generation (YHeader.header1 s.mem (s.shadow_stack.getD i 0)) ≠ 3 →
          t.in_nursery (t.shadow_stack.getD i 0) = true
          ∧ YHeader.gc_generation (YHeader.header1 t.mem (t.shadow_stack.getD i 0))
              = YHeader.gc_generation (YHeader.header1 s.mem (s.shadow_stack.getD i 0)) + 1)
      ∧ (YHeader.gc_generation (YHeader.header1 s.mem (s.shadow_stack.getD i 0)) = 3 →
          t.in_nursery (t.shadow_stack.getD i 0) = false
          ∧ YHeader.gc_generation (YHeader.header1 t.mem (t.shadow_stack.getD i 0)) = 0
          ∧ tenure_list t.mem (T'.length + 1) t.tenure_space = T'
          ∧ t.shadow_stack.getD i 0 ∈ T'
          ∧ (s.tenure_space_size + s.semi_space_size < 2 ^ 64 →
              s.tenure_space_size + 3 ≤ t.tenure_space_size)) := by
  obtain ⟨c, F, D, Lk, Q, hrun, hph, hpo, hall⟩ := hwf.do_copy_gc fuel hf
  have hwf0 := hwf.count (s.copy_gc_count + 1)
  have hfr := hph.inv.frame
  have hu := (used_le hwf0 F hph.inv.keys_nodup hph.inv.keys_young).1
  have hbrk := hph.inv.brk
  have hts := hph.inv.tenure_size
  have hlen0 := young_copies_length_le hph.inv
  have hlen : (young_copies s.mem F).length ≤ N.length := hlen0
  have e1 : (s.set_copy_gc_count (s.copy_gc_count + 1)).semi_space_size = s.semi_space_size :=
    rfl
  have e2 : (s.set_copy_gc_count (s.copy_gc_count + 1)).heap_break = s.heap_break := rfl
  have e3 : (s.set_copy_gc_count (s.copy_gc_count + 1)).tenure_space_size
      = s.tenure_space_size := rfl
  have e4 : (s.set_copy_gc_count (s.copy_gc_count + 1)).stack_top = s.stack_top := rfl
  rw [e1] at hu
  rw [e2] at hbrk
  rw [e3] at hts
  have hpair := (hph.sh_done i (Nat.zero_le _) hi).1 hy
  have hpair2 : (s.shadow_stack.getD i 0, c.gc.shadow_stack.getD i 0) ∈ F := hpair
  have ha := hph.inv.new_addr hwf0 _ hpair
  simp only at ha
  have hnur : ∀ v, (c.gc.flip c.alloc_ptr).in_nursery v
      = (s.set_copy_gc_count (s.copy_gc_count + 1)).in_nursery v := by
    intro v
    rw [← GC.in_nursery_frame hfr]
    simp [GC.in_nursery]
  refine ⟨_, _, young_copies s.mem F, Lk ++ T, hrun, ?_, hlen, ?_, ?_, ?_, ?_, ?_, ?_⟩
  · intro hroom
    have hw := hph.wf_after hwf0 hall hpo hroom
    exact hw
  · simp only [flip_proj]
    omega
  · simp only [flip_proj, hfr.semi_space_size, e1]
  · simp only [flip_proj, hfr.stack_top, e4]
  · intro hno
    simp only [flip_proj]
    rw [hts, Nat.mod_eq_of_lt (by omega)]
    omega
  · intro hg
    have hpf : promotes s.mem (s.shadow_stack.getD i 0) = false := by
      cases hpp : promotes s.mem (s.shadow_stack.getD i 0)
      · rfl
      · exact absurd ((promotes_iff _ _).1 hpp) hg
    have hlt : YHeader.gc_generation (YHeader.header1 s.mem (s.shadow_stack.getD i 0)) < 4 := by
      rw [YHeader.gc_generation_eq]
      exact Nat.mod_lt _ (by norm_num)
    have hh := hph.inv.new_h1 _ hpair hpf
    simp only at hh
    have hh2 : YHeader.header1 c.gc.mem (c.gc.shadow_stack.getD i 0)
        = (YHeader.inc_gc_generation (YHeader.header1 s.mem (s.shadow_stack.getD i 0))).1 := hh
    refine ⟨?_, ?_⟩
    · rw [hnur]
      simp only [flip_proj]
      exact ha.2.2.1.2 hpf
    · simp only [flip_proj]
      rw [hh2, YHeader.gc_generation_inc]
      omega
  · intro hg
    have hpt : promotes s.mem (s.shadow_stack.getD i 0) = true := (promotes_iff _ _).2 hg
    have hLk : c.gc.shadow_stack.getD i 0 ∈ Lk :=
      (hph.linked _).2 ⟨_, hall _ hpair, hpt, rfl⟩
    obtain ⟨hc1, hc2, -⟩ := hph.chain_after hwf0
    have hz := hph.old_zone_after hwf0 _ (List.mem_append_left T hLk)
    refine ⟨?_, ?_, ?_, ?_, ?_⟩
    · rw [hnur]
      simp only [flip_proj]
      cases hn : (s.set_copy_gc_count (s.copy_gc_count + 1)).in_nursery
          (c.gc.shadow_stack.getD i 0)
      · rfl
      · have hpf2 : promotes s.mem (s.shadow_stack.getD i 0) = false := ha.2.2.1.1 hn
        rw [hpt] at hpf2
        cases hpf2
    · simp only [flip_proj]
      exact hz.2
    · simp only [flip_proj]
      exact tenure_list_of_chain _ _ hc1 hc2
    · simp only [flip_proj]
      exact List.mem_append_left T hLk
    · intro hno
      simp only [flip_proj]
      rw [hts, Nat.mod_eq_of_lt (by omega)]
      have h1 := heap_used_mem s.mem F _ hpair2 hpt
      have h2 := object_bytes_pos s.mem (s.shadow_stack.getD i 0)
      simp only at h1
      have h3 : heap_used (s.set_copy_gc_count (s.copy_gc_count + 1)).mem F
          = heap_used s.mem F := rfl
      rw [h3]
      omega

theorem scavenges_zero (fuel : Nat) (s : GC) : scavenges fuel 0 s = some s := rfl

theorem scavenges_succ (fuel k : Nat) (s t : GC) (n : Nat)
    (h : do_copy_gc fuel s = some (t, n)) :
    scavenges fuel (k + 1) s = scavenges fuel k t := by
  rw [scavenges, h]

/-- A scavenge leaves the second header word of the object held in a root slot as it was,
at the address the slot holds afterwards. -/
theorem WF.scavenge_header2 {s : GC} {N T : List Nat} (hwf : s.WF N T) (fuel : Nat)
    (hf : N.length ≤ fuel) (i : Nat) (hi : i < (s.stack_top + 1).toNat)
    (h0 : s.shadow_stack.getD i 0 ≠ 0) :
    ∃ (t : GC) (n : Nat) (N' T' : List Nat), GC.do_copy_gc fuel s = some (t, n)
      ∧ (s.heap_break + 16 * s.semi_space_size ≤ 2 ^ 48 → t.WF N' T')
      ∧ N'.length ≤ N.length
      ∧ t.heap_break ≤ s.heap_break + 8 * s.semi_space_size
      ∧ t.semi_space_size = s.semi_space_size
      ∧ t.stack_top = s.stack_top
      ∧ t.shadow_stack.getD i 0 ≠ 0
      ∧ YHeader.header2 t.mem (t.shadow_stack.getD i 0)
          = YHeader.header2 s.mem (s.shadow_stack.getD i 0) := by
  obtain ⟨c, F, D, Lk, Q, hrun, hph, hpo, hall⟩ := hwf.do_copy_gc fuel hf
  have hwf0 := hwf.count (s.copy_gc_count + 1)
  have hfr := hph.inv.frame
  have hu := (used_le hwf0 F hph.inv.keys_nodup hph.inv.keys_young).1
  have hbrk := hph.inv.brk
  have hlen0 := young_copies_length_le hph.inv
  have hlen : (young_copies s.mem F).length ≤ N.length := hlen0
  have e1 : (s.set_copy_gc_count (s.copy_gc_count + 1)).semi_space_size = s.semi_space_size :=
    rfl
  have e2 : (s.set_copy_gc_count (s.copy_gc_count + 1)).heap_break = s.heap_break := rfl
  have e4 : (s.set_copy_gc_count (s.copy_gc_count + 1)).stack_top = s.stack_top := rfl
  rw [e1] at hu
  rw [e2] at hbrk
  have hsd := hph.sh_done i (Nat.zero_le _) hi
  have hkey : c.gc.shadow_stack.getD i 0 ≠ 0
      ∧ YHeader.header2 c.gc.mem (c.gc.shadow_stack.getD i 0)
          = YHeader.header2 s.mem (s.shadow_stack.getD i 0) := by
    cases hn : s.in_nursery (s.shadow_stack.getD i 0)
    · have e := hsd.2 hn
      have e' : c.gc.shadow_stack.getD i 0 = s.shadow_stack.getD i 0 := e
      rw [e']
      refine ⟨h0, ?_⟩
      rcases hwf.roots_closed i hi with hz | hN | hT
      · exact absurd hz h0
      · rw [hwf.in_nursery_young hN] at hn
        cases hn
      · exact hph.inv.owner_h2 (s.shadow_stack.getD i 0, s.shadow_stack.getD i 0)
          (mem_owners.2 (Or.inl ⟨hT, rfl⟩))
    · have hpair := hsd.1 hn
      have ha := (hph.inv.new_addr hwf0 _ hpair).1
      simp only at ha
      refine ⟨by omega, ?_⟩
      exact hph.inv.owner_h2 (c.gc.shadow_stack.getD i 0, s.shadow_stack.getD i 0)
        (mem_owners.2 (Or.inr hpair))
  refine ⟨_, _, young_copies s.mem F, Lk ++ T, hrun, ?_, hlen, ?_, ?_, ?_, ?_, ?_⟩
  · intro hroom
    have hw := hph.wf_after hwf0 hall hpo hroom
    exact hw
  · simp only [flip_proj]
    omega
  · simp only [flip_proj, hfr.semi_space_size, e1]
  · simp only [flip_proj, hfr.stack_top, e4]
  · simp only [flip_proj]
    exact hkey.1
  · simp only [flip_proj]
    exact hkey.2

/-- Any number of scavenges in a row leaves the second header word of the object held in
a root slot as it was. -/
theorem WF.scavenges_header2 (fuel i : Nat) :
    ∀ (k : Nat) (s : GC) (N T : List Nat), s.WF N T → N.length ≤ fuel →
      s.heap_break + 8 * (k + 1) * s.semi_space_size ≤ 2 ^ 48 →
      i < (s.stack_top + 1).toNat → s.shadow_stack.getD i 0 ≠ 0 →
      ∃ t : GC, GC.scavenges fuel k s = some t
        ∧ YHeader.header2 t.mem (t.shadow_stack.getD i 0)
            = YHeader.header2 s.mem (s.shadow_stack.getD i 0) := by
  intro k
  induction k with
  | zero =>
    intro s N T _ _ _ _ _
    exact ⟨s, rfl, rfl⟩
  | succ k ih =>
    intro s N T hwf hf hroom hi h0
    obtain ⟨t, n, N', T', hrun, hw, hl, hb, hs, ht, hnz, hh⟩ :=
      hwf.scavenge_header2 fuel hf i hi h0
    have hr2 : 8 * (k + 1 + 1) * s.semi_space_size
        = 8 * (k + 1) * s.semi_space_size + 8 * s.semi_space_size := by ring
    have hpos : 8 * s.semi_space_size ≤ 8 * (k + 1) * s.semi_space_size := by
      have : 8 * (k + 1) * s.semi_space_size = 8 * s.semi_space_size
          + 8 * k * s.semi_space_size := by ring
      omega
    have hwf1 := hw (by omega)
    obtain ⟨u, hu1, hu2⟩ := ih t N' T' hwf1 (by omega) (by rw [hs]; omega)
      (by rw [ht]; exact hi) hnz
    exact ⟨u, by rw [scavenges_succ fuel k s t n hrun]; exact hu1, hu2.trans hh⟩

end GC


theorem heap0_wf : Example.heap0.WF [] [] := by
  constructor <;> decide!

theorem heap0_below_limit :
    GC.mark_sweep_gc_if_needed 0 Example.heap0 = some (Example.heap0, 0) := by
  unfold GC.mark_sweep_gc_if_needed
  rw [if_pos (by decide!)]

theorem one_remembered_wf : Example.one_remembered.WF [4096] [4352] := by
  constructor <;> decide!

theorem one_root_wf : Example.one_root.WF [4096] [] := by
  constructor <;> decide!

theorem at_limit_wf : Example.at_limit.WF [4096] [] := by
  constructor <;> decide!


namespace GC

/-- The mark of every object after `mark_object`. -/
theorem mark_object_mark (mb p : Nat) (st : GC × List Nat × Nat) (hmb : mb < 4) (o : Nat) :
    YHeader.gc_mark (YHeader.header1 (mark_object mb p st).1.mem o)
      = if o = p then mb else YHeader.gc_mark (YHeader.header1 st.1.mem o) := by
  have hmem : (mark_object mb p st).1.mem
      = YHeader.put_header1 st.1.mem p (YHeader.set_gc_mark (YHeader.header1 st.1.mem p) mb).1 := by
    unfold mark_object
    simp only
    split <;> rfl
  rw [hmem]
  by_cases e : o = p
  · subst e
    rw [if_pos rfl]
    have : YHeader.header1 (YHeader.put_header1 st.1.mem o
        (YHeader.set_gc_mark (YHeader.header1 st.1.mem o) mb).1) o
        = (YHeader.set_gc_mark (YHeader.header1 st.1.mem o) mb).1 := Mem.write_same _ _ _
    rw [this, YHeader.gc_mark_set_gc_mark _ _ hmb]
  · rw [if_neg e]
    have : YHeader.header1 (YHeader.put_header1 st.1.mem p
        (YHeader.set_gc_mark (YHeader.header1 st.1.mem p) mb).1) o
        = YHeader.header1 st.1.mem o := Mem.write_other _ _ _ _ (by omega)
    rw [this]

/-- The vector `visited` after `mark_object`. -/
theorem mark_object_visited (mb p : Nat) (st : GC × List Nat × Nat) :
    (mark_object mb p st).2.1
      = if YHeader.gc_mark (YHeader.header1 st.1.mem p) = mb then st.2.1 else st.2.1 ++ [p] := by
  unfold mark_object
  simp only
  rw [YHeader.set_gc_mark_snd, ← YHeader.gc_mark_eq]
  by_cases h : YHeader.gc_mark (YHeader.header1 st.1.mem p) = mb
  · rw [if_neg (by simpa using h), if_pos h]
  · rw [if_pos h, if_neg h]

/-- The write barrier changes no mark. -/
theorem w_barrier_mark (s : GC) (obj v o : Nat) :
    YHeader.gc_mark (YHeader.header1 (w_barrier s obj v).1.mem o)
      = YHeader.gc_mark (YHeader.header1 s.mem o) := by
  unfold w_barrier
  split
  · simp only [add_remember_set, set_remember_set_proj, set_mem_proj]
    by_cases e : o = obj
    · subst e
      have : YHeader.header1 (YHeader.put_header1 s.mem o
          (YHeader.set_gc_remember (YHeader.header1 s.mem o))) o
          = YHeader.set_gc_remember (YHeader.header1 s.mem o) := Mem.write_same _ _ _
      rw [this, YHeader.gc_mark_set_gc_remember]
    · have : YHeader.header1 (YHeader.put_header1 s.mem obj
          (YHeader.set_gc_remember (YHeader.header1 s.mem obj))) o
          = YHeader.header1 s.mem o := Mem.write_other _ _ _ _ (by omega)
      rw [this]
  · rfl

/-- The loop that resets the remember bits changes no mark. -/
theorem reset_remember_loop_mark :
    ∀ (k : Nat) (s : GC) (o : Nat),
      YHeader.gc_mark (YHeader.header1 (reset_remember_loop k s).mem o)
        = YHeader.gc_mark (YHeader.header1 s.mem o) := by
  intro k
  induction k with
  | zero => intro s o; rfl
  | succ k ih =>
    intro s o
    rw [reset_remember_loop]
    split
    · rw [ih]
      simp only [set_mem_proj]
      by_cases e : o = s.remember_set.getD k 0
      · rw [← e]
        have : YHeader.header1 (YHeader.put_header1 s.mem o
            (YHeader.reset_gc_remember (YHeader.header1 s.mem o))) o
            = YHeader.reset_gc_remember (YHeader.header1 s.mem o) := Mem.write_same _ _ _
        rw [this, YHeader.gc_mark_reset_gc_remember]
      · have : YHeader.header1 (YHeader.put_header1 s.mem (s.remember_set.getD k 0)
            (YHeader.reset_gc_remember (YHeader.header1 s.mem (s.remember_set.getD k 0)))) o
            = YHeader.header1 s.mem o := Mem.write_other _ _ _ _ (by omega)
        rw [this]
    · exact ih s o

/-- The invariant depends on the state only through the marks and the vector `visited`. -/
theorem Coloured.of_marks {s0 : GC} {U : List Nat} {mb : Nat} {st st' : GC × List Nat × Nat}
    {pend : Nat → Nat → Prop} (h : Coloured s0 U mb st pend)
    (hm : ∀ o, YHeader.gc_mark (YHeader.header1 st'.1.mem o)
      = YHeader.gc_mark (YHeader.header1 st.1.mem o))
    (hv : st'.2.1 = st.2.1) : Coloured s0 U mb st' pend := by
  constructor
  · intro o ho hmk
    rw [hm] at hmk
    exact h.sound o ho hmk
  · intro o ho
    rw [hv] at ho
    rw [hm]
    exact h.grey o ho
  · rw [hv]; exact h.nodup
  · intro o ho hmk hnv i hi hp h0 hpn
    rw [hm] at hmk ⊢
    rw [hv] at hnv
    exact h.black o ho hmk hnv i hi hp h0 hpn

/-- Weakening the pending fields. -/
theorem Coloured.of_pend {s0 : GC} {U : List Nat} {mb : Nat} {st : GC × List Nat × Nat}
    {pend pend' : Nat → Nat → Prop} (h : Coloured s0 U mb st pend)
    (hp : ∀ o i, pend o i → pend' o i) : Coloured s0 U mb st pend' :=
  ⟨h.sound, h.grey, h.nodup,
    fun o ho hmk hnv i hi hptr h0 hpn => h.black o ho hmk hnv i hi hptr h0 (fun x => hpn (hp o i x))⟩

/-- Marking a reachable object keeps the invariant; the object carries the mark afterwards
and no mark is lost. -/
theorem Coloured.object_step {s0 : GC} {U : List Nat} {mb : Nat} {st : GC × List Nat × Nat}
    {pend : Nat → Nat → Prop} (hmb : mb < 4) (h : Coloured s0 U mb st pend) {p : Nat}
    (hr : s0.mark_reachable p) :
    Coloured s0 U mb (GC.mark_object mb p st) pend
      ∧ YHeader.gc_mark (YHeader.header1 (GC.mark_object mb p st).1.mem p) = mb
      ∧ (∀ o, YHeader.gc_mark (YHeader.header1 st.1.mem o) = mb →
          YHeader.gc_mark (YHeader.header1 (GC.mark_object mb p st).1.mem o) = mb) := by
  have hmono : ∀ o, YHeader.gc_mark (YHeader.header1 st.1.mem o) = mb →
      YHeader.gc_mark (YHeader.header1 (GC.mark_object mb p st).1.mem o) = mb := by
    intro o ho
    rw [mark_object_mark mb p st hmb]
    split
    · rfl
    · exact ho
  have hself : YHeader.gc_mark (YHeader.header1 (GC.mark_object mb p st).1.mem p) = mb := by
    rw [mark_object_mark mb p st hmb, if_pos rfl]
  refine ⟨?_, hself, hmono⟩
  constructor
  · intro o ho hmk
    rw [mark_object_mark mb p st hmb] at hmk
    by_cases e : o = p
    · rw [e]; exact hr
    · rw [if_neg e] at hmk
      exact h.sound o ho hmk
  · intro o ho
    rw [mark_object_visited] at ho
    by_cases hm : YHeader.gc_mark (YHeader.header1 st.1.mem p) = mb
    · rw [if_pos hm] at ho
      exact hmono o (h.grey o ho)
    · rw [if_neg hm] at ho
      rcases List.mem_append.1 ho with h1 | h1
      · exact hmono o (h.grey o h1)
      · rw [List.mem_singleton] at h1
        rw [h1]; exact hself
  · rw [mark_object_visited]
    by_cases hm : YHeader.gc_mark (YHeader.header1 st.1.mem p) = mb
    · rw [if_pos hm]; exact h.nodup
    · rw [if_neg hm]
      refine List.Nodup.append h.nodup (List.nodup_singleton p) ?_
      intro a ha hb
      rw [List.mem_singleton] at hb
      rw [hb] at ha
      exact hm (h.grey p ha)
  · intro o ho hmk hnv i hi hptr h0 hpn
    rw [mark_object_visited] at hnv
    rw [mark_object_mark mb p st hmb] at hmk
    by_cases hm : YHeader.gc_mark (YHeader.header1 st.1.mem p) = mb
    · rw [if_pos hm] at hnv
      have hmk' : YHeader.gc_mark (YHeader.header1 st.1.mem o) = mb := by
        by_cases e : o = p
        · rw [e]; exact hm
        · rw [if_neg e] at hmk; exact hmk
      exact hmono _ (h.black o ho hmk' hnv i hi hptr h0 hpn)
    · rw [if_neg hm] at hnv
      have hop : o ≠ p := by
        intro e
        exact hnv (List.mem_append_right _ (by rw [e]; exact List.mem_singleton_self p))
      rw [if_neg hop] at hmk
      exact hmono _ (h.black o ho hmk
        (fun hx => hnv (List.mem_append_left _ hx)) i hi hptr h0 hpn)

end GC


namespace GC

/-- Once the loop has visited field `i` of the object `obj`, the field is not pending. -/
theorem Coloured.advance {s0 : GC} {U : List Nat} {mb : Nat} {st : GC × List Nat × Nat}
    {obj i : Nat} (h : Coloured s0 U mb st (fun o j => o = obj ∧ i ≤ j))
    (hdone : Box.is_ptr (YHeader.get_field s0.mem obj i) = true →
      YHeader.get_field s0.mem obj i ≠ 0 →
      YHeader.gc_mark (YHeader.header1 st.1.mem (YHeader.get_field s0.mem obj i)) = mb) :
    Coloured s0 U mb st (fun o j => o = obj ∧ i + 1 ≤ j) := by
  refine ⟨h.sound, h.grey, h.nodup, ?_⟩
  intro o ho hmk hnv j hj hptr h0 hpn
  by_cases hp : o = obj ∧ i ≤ j
  · obtain ⟨e, hij⟩ := hp
    have hji : j = i := by
      by_contra hne
      exact hpn ⟨e, by omega⟩
    subst hji
    subst e
    exact hdone hptr h0
  · exact h.black o ho hmk hnv j hj hptr h0 hp

/-- When no scanned field is pending, nothing is. -/
theorem Coloured.finish {s0 : GC} {U : List Nat} {mb : Nat} {st : GC × List Nat × Nat}
    {pend : Nat → Nat → Prop} (h : Coloured s0 U mb st pend)
    (hp : ∀ o i, scanned_index s0.mem o i → ¬ pend o i) :
    Coloured s0 U mb st (fun _ _ => False) :=
  ⟨h.sound, h.grey, h.nodup,
    fun o ho hmk hnv i hi hptr h0 _ => h.black o ho hmk hnv i hi hptr h0 (hp o i hi)⟩

/-- One iteration of the field loop of the mark phase keeps the tri-colour invariant. -/
theorem Coloured.field_step {s0 : GC} {U : List Nat} {mb : Nat} {st : GC × List Nat × Nat}
    {W : List Nat} (hh : s0.Heap U) (hmb : mb < 4) (hM : Marking s0 U mb st W) {obj i : Nat}
    (h : Coloured s0 U mb st (fun o j => o = obj ∧ i ≤ j))
    (ho : obj ∈ U) (hob : YHeader.gc_mark (YHeader.header1 st.1.mem obj) = mb)
    (hi : scanned_index s0.mem obj i) :
    Coloured s0 U mb (GC.mark_field mb obj i st) (fun o j => o = obj ∧ i + 1 ≤ j)
      ∧ (∀ o, YHeader.gc_mark (YHeader.header1 st.1.mem o) = mb →
          YHeader.gc_mark (YHeader.header1 (GC.mark_field mb obj i st).1.mem o) = mb) := by
  have hv : YHeader.get_field st.1.mem obj i = YHeader.get_field s0.mem obj i :=
    (hh.body_kept hM.mem ho).2 i hi.2.2
  unfold GC.mark_field
  simp only
  rw [hv]
  by_cases hptr : Box.is_ptr (YHeader.get_field s0.mem obj i) = true
  · rw [if_pos hptr]
    by_cases h0 : Box.to_ptr (YHeader.get_field s0.mem obj i) = 0
    · rw [if_neg (by simpa using h0)]
      exact ⟨h.advance (fun _ hne => absurd h0 hne), fun o ho => ho⟩
    · rw [if_pos h0]
      have hreach : s0.mark_reachable (Box.to_ptr (YHeader.get_field s0.mem obj i)) := by
        obtain ⟨r, hr, hpath⟩ := h.sound obj ho hob
        exact ⟨r, hr, Relation.ReflTransGen.tail hpath ⟨i, hi, hptr, rfl, h0⟩⟩
      have hbar : Coloured s0 U mb
          ((GC.w_barrier st.1 obj
            (Box.to_boxed_ptr (Box.to_ptr (YHeader.get_field s0.mem obj i)))).1, st.2.1, st.2.2)
          (fun o j => o = obj ∧ i ≤ j) :=
        h.of_marks (fun o => w_barrier_mark st.1 obj _ o) rfl
      obtain ⟨g1, g2, g3⟩ := hbar.object_step hmb hreach
      refine ⟨g1.advance (fun _ _ => g2), ?_⟩
      intro o hmo
      refine g3 o ?_
      simp only
      rw [w_barrier_mark]
      exact hmo
  · rw [if_neg hptr]
    exact ⟨h.advance (fun hp _ => absurd hp hptr), fun o ho => ho⟩

/-- The field loop of the mark phase keeps the tri-colour invariant. -/
theorem Coloured.fields_loop {s0 : GC} {U : List Nat} {mb : Nat} (hh : s0.Heap U)
    (hmb : mb < 4) {obj : Nat} (ho : obj ∈ U)
    (hb : YHeader.has_boxed_value (YHeader.header1 s0.mem obj) = true) :
    ∀ (k i : Nat) (st : GC × List Nat × Nat) (W : List Nat), Marking s0 U mb st W →
      Coloured s0 U mb st (fun o j => o = obj ∧ i ≤ j) →
      YHeader.gc_mark (YHeader.header1 st.1.mem obj) = mb →
      YHeader.unbox_size (YHeader.header1 s0.mem obj) ≤ i →
      i + k ≤ YHeader.field_size (YHeader.header2 s0.mem obj) →
      Coloured s0 U mb (GC.mark_fields mb obj k i st) (fun o j => o = obj ∧ i + k ≤ j)
        ∧ (∀ o, YHeader.gc_mark (YHeader.header1 st.1.mem o) = mb →
            YHeader.gc_mark (YHeader.header1 (GC.mark_fields mb obj k i st).1.mem o) = mb) := by
  intro k
  induction k with
  | zero =>
    intro i st W _ h _ _ _
    exact ⟨h, fun o ho => ho⟩
  | succ k ih =>
    intro i st W hM h hob h1 h2
    have hi : scanned_index s0.mem obj i := ⟨hb, h1, by omega⟩
    obtain ⟨W1, g1, _⟩ := hM.mark_field hh hmb ho hi
    obtain ⟨c1, c2⟩ := h.field_step hh hmb hM ho hob hi
    obtain ⟨c3, c4⟩ := ih (i + 1) _ W1 g1 c1 (c2 obj hob) (by omega) (by omega)
    rw [GC.mark_fields]
    refine ⟨?_, fun o hmo => c4 o (c2 o hmo)⟩
    have e : i + (k + 1) = i + 1 + k := by omega
    rw [e]
    exact c3

/-- The root loop of the mark phase keeps the tri-colour invariant and marks the roots. -/
theorem Coloured.roots_loop {s0 : GC} {U : List Nat} {mb : Nat} (hh : s0.Heap U)
    (hmb : mb < 4) :
    ∀ (k : Nat) (st : GC × List Nat × Nat) (W : List Nat), Marking s0 U mb st W →
      Coloured s0 U mb st (fun _ _ => False) → k ≤ (s0.stack_top + 1).toNat →
      Coloured s0 U mb (GC.mark_roots mb k st) (fun _ _ => False)
        ∧ (∀ o, YHeader.gc_mark (YHeader.header1 st.1.mem o) = mb →
            YHeader.gc_mark (YHeader.header1 (GC.mark_roots mb k st).1.mem o) = mb)
        ∧ (∀ j, j < k → s0.shadow_stack.getD j 0 ≠ 0 →
            YHeader.gc_mark (YHeader.header1 (GC.mark_roots mb k st).1.mem
              (s0.shadow_stack.getD j 0)) = mb) := by
  intro k
  induction k with
  | zero =>
    intro st W _ h _
    exact ⟨h, fun o ho => ho, fun j hj => absurd hj (Nat.not_lt_zero j)⟩
  | succ k ih =>
    intro st W hM h hk
    rw [GC.mark_roots]
    rw [hM.kept.shadow_stack]
    by_cases h0 : s0.shadow_stack.getD k 0 = 0
    · rw [if_neg (by simpa using h0)]
      obtain ⟨c1, c2, c3⟩ := ih st W hM h (by omega)
      refine ⟨c1, c2, ?_⟩
      intro j hj hne
      by_cases e : j = k
      · rw [e] at hne
        exact absurd h0 hne
      · exact c3 j (by omega) hne
    · rw [if_pos h0]
      have hp : s0.shadow_stack.getD k 0 ∈ U := by
        rcases hh.roots_closed k (by omega) with e | e
        · exact absurd e h0
        · exact e
      have hreach : s0.mark_reachable (s0.shadow_stack.getD k 0) :=
        ⟨_, ⟨h0, k, by omega, rfl⟩, Relation.ReflTransGen.refl⟩
      obtain ⟨W1, g1, _⟩ := hM.mark_object hmb hp
      obtain ⟨d1, d2, d3⟩ := h.object_step hmb hreach
      obtain ⟨c1, c2, c3⟩ := ih _ W1 g1 d1 (by omega)
      refine ⟨c1, fun o hmo => c2 o (d3 o hmo), ?_⟩
      intro j hj hne
      by_cases e : j = k
      · rw [e]
        exact c2 _ d2
      · exact c3 j (by omega) hne

/-- The loop over `visited` keeps the tri-colour invariant, and no object is pending when it
returns. -/
theorem Coloured.visited_loop {s0 : GC} {U : List Nat} {mb : Nat} (hh : s0.Heap U)
    (hmb : mb < 4) :
    ∀ (fuel : Nat) (st : GC × List Nat × Nat) (W : List Nat) (r : GC × Nat),
      Marking s0 U mb st W → Coloured s0 U mb st (fun _ _ => False) →
      GC.mark_loop mb fuel st = some r →
      Coloured s0 U mb (r.1, [], r.2) (fun _ _ => False)
        ∧ (∀ o, YHeader.gc_mark (YHeader.header1 st.1.mem o) = mb →
            YHeader.gc_mark (YHeader.header1 r.1.mem o) = mb) := by
  intro fuel
  induction fuel with
  | zero =>
    intro st W r hM h hrun
    obtain ⟨s, visited, live⟩ := st
    cases hl : visited.getLast? with
    | none =>
      have hv : visited = [] := List.getLast?_eq_none_iff.1 hl
      subst hv
      rw [mark_loop_done mb 0 s [] live rfl] at hrun
      cases hrun
      exact ⟨h, fun o ho => ho⟩
    | some obj =>
      rw [GC.mark_loop] at hrun
      simp only [hl] at hrun
      cases hrun
  | succ fuel ih =>
    intro st W r hM h hrun
    obtain ⟨s, visited, live⟩ := st
    cases hl : visited.getLast? with
    | none =>
      have hv : visited = [] := List.getLast?_eq_none_iff.1 hl
      subst hv
      rw [mark_loop_done mb _ s [] live rfl] at hrun
      cases hrun
      exact ⟨h, fun o ho => ho⟩
    | some obj =>
      have hsplit : visited = visited.dropLast ++ [obj] :=
        (List.dropLast_append_getLast? _ hl).symm
      have hoV : obj ∈ visited := List.mem_of_getLast?_eq_some hl
      have hoU : obj ∈ U := hM.visited obj hoV
      have hob : YHeader.gc_mark (YHeader.header1 s.mem obj) = mb := h.grey obj hoV
      have hnd : (visited.dropLast ++ [obj]).Nodup := by
        rw [← hsplit]; exact h.nodup
      have hnotin : obj ∉ visited.dropLast := by
        intro hx
        have := (List.nodup_append.1 hnd).2.2 hx (List.mem_singleton_self obj)
        exact this
      have hpop : Marking s0 U mb (s, visited.dropLast, live) W :=
        ⟨hM.mem, hM.kept, hM.tenure_space, hM.tenure_space_size, hM.freed,
          fun p hp => hM.visited p (List.mem_of_mem_dropLast hp), hM.todo⟩
      have hcpop : Coloured s0 U mb (s, visited.dropLast, live)
          (fun o j => o = obj ∧ YHeader.unbox_size (YHeader.header1 s0.mem obj) ≤ j) := by
        refine ⟨h.sound, fun o ho => h.grey o (List.mem_of_mem_dropLast ho),
          (List.nodup_append.1 hnd).1, ?_⟩
        intro o ho hmk hnv j hj hptr h0 hpn
        have hne : o ≠ obj := by
          intro e
          rw [e] at hj
          exact hpn ⟨e, hj.2.1⟩
        refine h.black o ho hmk ?_ j hj hptr h0 (fun x => x)
        intro hx
        simp only at hx
        rw [hsplit] at hx
        rcases List.mem_append.1 hx with h1 | h1
        · exact hnv h1
        · exact hne (List.mem_singleton.1 h1)
      obtain ⟨e1, e2, _⟩ := YHeader.same_but_marks_shape (hM.mem.head obj hoU)
      have e3 := (hh.body_kept hM.mem hoU).1
      rw [mark_loop_succ mb fuel s visited live obj hl] at hrun
      simp only at e1 e2 e3
      rw [e1, e2, e3] at hrun
      by_cases hb : YHeader.has_boxed_value (YHeader.header1 s0.mem obj) = true
      · rw [if_pos hb] at hrun
        by_cases hle : YHeader.unbox_size (YHeader.header1 s0.mem obj)
            ≤ YHeader.field_size (YHeader.header2 s0.mem obj)
        · obtain ⟨W1, g1, _⟩ := Marking.mark_fields hh hmb hoU hb
            (YHeader.field_size (YHeader.header2 s0.mem obj)
              - YHeader.unbox_size (YHeader.header1 s0.mem obj))
            (YHeader.unbox_size (YHeader.header1 s0.mem obj)) _ W hpop (Nat.le_refl _)
            (by omega)
          obtain ⟨c1, c2⟩ := Coloured.fields_loop hh hmb hoU hb
            (YHeader.field_size (YHeader.header2 s0.mem obj)
              - YHeader.unbox_size (YHeader.header1 s0.mem obj))
            (YHeader.unbox_size (YHeader.header1 s0.mem obj)) _ W hpop hcpop hob
            (Nat.le_refl _) (by omega)
          have c3 := c1.finish (by
            intro o j hj hp
            obtain ⟨e, hp2⟩ := hp
            rw [e] at hj
            have := hj.2.2
            omega)
          obtain ⟨d1, d2⟩ := ih _ W1 r g1 c3 hrun
          exact ⟨d1, fun o hmo => d2 o (c2 o hmo)⟩
        · rw [Nat.sub_eq_zero_of_le (by omega), GC.mark_fields] at hrun
          have c3 := hcpop.finish (by
            intro o j hj hp
            obtain ⟨e, hp2⟩ := hp
            rw [e] at hj
            have := hj.2.2
            omega)
          exact ih (s, visited.dropLast, live) W r hpop c3 hrun
      · rw [if_neg hb] at hrun
        have c3 := hcpop.finish (by
          intro o j hj hp
          obtain ⟨e, _⟩ := hp
          rw [e] at hj
          exact hb hj.1)
        exact ih (s, visited.dropLast, live) W r hpop c3 hrun

end GC


namespace GC

/-- When the mark phase is over, the marked objects are the reachable ones. -/
theorem Coloured.closure {s0 : GC} {U : List Nat} {mb : Nat} {s2 : GC} {live : Nat}
    (hh : s0.Heap U) (h : Coloured s0 U mb (s2, [], live) (fun _ _ => False))
    (hroots : ∀ j, j < (s0.stack_top + 1).toNat → s0.shadow_stack.getD j 0 ≠ 0 →
      YHeader.gc_mark (YHeader.header1 s2.mem (s0.shadow_stack.getD j 0)) = mb) :
    ∀ x, s0.mark_reachable x → x ∈ U ∧ YHeader.gc_mark (YHeader.header1 s2.mem x) = mb := by
  intro x hx
  obtain ⟨r, ⟨hr0, j, hj, e⟩, hp⟩ := hx
  induction hp with
  | refl =>
    subst e
    refine ⟨?_, hroots j hj hr0⟩
    rcases hh.roots_closed j hj with h0 | h1
    · exact absurd h0 hr0
    · exact h1
  | @tail b z _ hbz ih =>
    obtain ⟨hbU, hbm⟩ := ih
    obtain ⟨i, hi, hptr, e2, hz⟩ := hbz
    subst e2
    refine ⟨?_, h.black b hbU hbm (fun hx => by cases hx) i hi hptr hz (fun x => x)⟩
    rcases hh.fields_closed b hbU i hi.2.2 hi.1 hi.2.1 hptr with h0 | h1
    · exact absurd h0 hz
    · exact h1

/-- A major collection run on a closed heap none of whose objects carries the mark value,
with fuel for its objects, ends; the tenure list it leaves is made of the nodes of the old
list that are reachable from the shadow stack, in their order, and the other nodes are
freed. -/
theorem Heap.major_exact {s : GC} {U L : List Nat} (hh : s.Heap U) (hL : s.Listed L)
    (hLU : ∀ n ∈ L, n ∈ U)
    (hun : ∀ o ∈ U, YHeader.gc_mark (YHeader.header1 s.mem o) ≠ s.current_mark_bit)
    (fuel : Nat) (hf : U.length + 1 ≤ fuel) :
    ∃ (t : GC) (n : Nat) (L' D : List Nat), GC.do_mark_sweep_gc fuel s = some (t, n)
      ∧ t.Listed L' ∧ L'.Sublist L ∧ D.Sublist L
      ∧ (∀ x, x ∈ L' ↔ x ∈ L ∧ s.mark_reachable x)
      ∧ (∀ x, x ∈ D ↔ x ∈ L ∧ ¬ s.mark_reachable x)
      ∧ t.freed = s.freed ++ D := by
  have hmb : s.current_mark_bit < 4 := hh.mark_value
  have hh0 := hh.counted (s.mark_sweep_gc_count + 1)
  have hr : Marking (s.set_mark_sweep_gc_count (s.mark_sweep_gc_count + 1)) U
      s.current_mark_bit
      (reset_remember_loop s.remember_set.length
        (s.set_mark_sweep_gc_count (s.mark_sweep_gc_count + 1)), [], 0) U
      ∧ (reset_remember_loop s.remember_set.length
        (s.set_mark_sweep_gc_count (s.mark_sweep_gc_count + 1))).remember_set
        = (s.set_mark_sweep_gc_count (s.mark_sweep_gc_count + 1)).remember_set :=
    Marking.reset_remember_loop hh0.remembered _ _ (Marking.initial _ U _) rfl (Nat.le_refl _)
  have hM1 : Marking (s.set_mark_sweep_gc_count (s.mark_sweep_gc_count + 1)) U
      s.current_mark_bit
      ((reset_remember_loop s.remember_set.length
        (s.set_mark_sweep_gc_count (s.mark_sweep_gc_count + 1))).set_remember_set [], [], 0) U :=
    hr.1.of_mem _ _ _ U (by simpa using marks_only_refl U _) (by constructor <;> simp)
      (by simp) (by simp) (by simp) (fun p hp => by cases hp) (fun o ho _ => ho)
  have hmk1 : ∀ o, YHeader.gc_mark (YHeader.header1
      ((reset_remember_loop s.remember_set.length
        (s.set_mark_sweep_gc_count (s.mark_sweep_gc_count + 1))).set_remember_set []).mem o)
      = YHeader.gc_mark (YHeader.header1 s.mem o) := by
    intro o
    simp only [set_remember_set_proj]
    rw [reset_remember_loop_mark]
    rfl
  have hC1 : Coloured (s.set_mark_sweep_gc_count (s.mark_sweep_gc_count + 1)) U
      s.current_mark_bit
      ((reset_remember_loop s.remember_set.length
        (s.set_mark_sweep_gc_count (s.mark_sweep_gc_count + 1))).set_remember_set [], [], 0)
      (fun _ _ => False) := by
    constructor
    · intro o ho hm
      rw [hmk1] at hm
      exact absurd hm (hun o ho)
    · intro o ho
      cases ho
    · exact List.nodup_nil
    · intro o ho hm
      rw [hmk1] at hm
      exact absurd hm (hun o ho)
  rw [do_mark_sweep_gc_sweep]
  generalize (reset_remember_loop s.remember_set.length
    (s.set_mark_sweep_gc_count (s.mark_sweep_gc_count + 1))).set_remember_set [] = s1
    at hM1 hC1 ⊢
  have hmb1 : s1.current_mark_bit = s.current_mark_bit := by
    have := hM1.kept.current_mark_bit
    simpa using this
  have hst1 : s1.stack_top = s.stack_top := by
    have := hM1.kept.stack_top
    simpa using this
  rw [hmb1, hst1]
  obtain ⟨W1, g1, g2⟩ := Marking.mark_roots hh0 hmb (s.stack_top + 1).toNat (s1, [], 0) U hM1
    (Nat.le_refl _)
  obtain ⟨k1, _, k3⟩ := Coloured.roots_loop hh0 hmb (s.stack_top + 1).toNat (s1, [], 0) U hM1
    hC1 (Nat.le_refl _)
  simp only [List.length_nil, Nat.add_zero] at g2
  obtain ⟨s2, live, W2, e2, g3⟩ := Marking.mark_loop hh0 hmb fuel _ W1 g1 (by omega)
  obtain ⟨k4, k5⟩ := Coloured.visited_loop hh0 hmb fuel _ W1 (s2, live) g1 k1 e2
  have hex := Coloured.closure hh0 k4 (fun j hj hne => k5 _ (k3 j hj hne))
  have hiff : ∀ x ∈ U,
      (YHeader.gc_mark (YHeader.header1 s2.mem x) = s.current_mark_bit ↔ s.mark_reachable x) := by
    intro x hx
    constructor
    · intro hm
      exact k4.sound x hx hm
    · intro hrx
      exact (hex x hrx).2
  rw [e2]
  simp only
  have hm2 : marks_only U s.mem s2.mem := by
    have := g3.mem
    simpa using this
  have hL2 : s2.Listed L := by
    constructor
    · have := g3.tenure_space
      simp only [set_mark_sweep_gc_count_proj] at this
      rw [this]; exact hL.head
    · have := g3.tenure_space
      simp only [set_mark_sweep_gc_count_proj] at this
      rw [this]
      exact chain_to_of_next L _ _
        (fun n hn => (YHeader.same_but_marks_shape (hm2.head n (hLU n hn))).2.2) hL.chain
    · exact hL.nonnull
    · exact hL.nodup
    · exact hL.apart
  have hlen : L.length ≤ U.length := nodup_subset_length_le L U hL.nodup (fun x hx => hLU x hx)
  obtain ⟨t, e3, c1, c2, c3, c4, c5, c6, c7⟩ :=
    sweep_spec s2 L s.current_mark_bit fuel hL2 (by omega)
  rw [e3]
  simp only
  refine ⟨_, _,
    L.filter (fun x => decide (YHeader.gc_mark (YHeader.header1 s2.mem x) = s.current_mark_bit)),
    L.filter (fun x => !decide (YHeader.gc_mark (YHeader.header1 s2.mem x) = s.current_mark_bit)),
    rfl, ?_, List.filter_sublist _, List.filter_sublist _, ?_, ?_, ?_⟩
  · constructor
    · simpa using c1.head
    · simpa using c1.chain
    · exact c1.nonnull
    · exact c1.nodup
    · exact c1.apart
  · intro x
    rw [List.mem_filter]
    constructor
    · rintro ⟨hx, hd⟩
      exact ⟨hx, (hiff x (hLU x hx)).1 (of_decide_eq_true hd)⟩
    · rintro ⟨hx, hrx⟩
      exact ⟨hx, decide_eq_true ((hiff x (hLU x hx)).2 hrx)⟩
  · intro x
    rw [List.mem_filter]
    constructor
    · rintro ⟨hx, hd⟩
      refine ⟨hx, fun hrx => ?_⟩
      have := (hiff x (hLU x hx)).2 hrx
      simp [this] at hd
    · rintro ⟨hx, hrx⟩
      refine ⟨hx, ?_⟩
      have : ¬ YHeader.gc_mark (YHeader.header1 s2.mem x) = s.current_mark_bit :=
        fun hm => hrx ((hiff x (hLU x hx)).1 hm)
      simp [this]
  · have := g3.freed
    simp only [set_mark_sweep_gc_count_proj] at this
    simp only [set_current_mark_bit_proj]
    rw [c3, this]

end GC


namespace GC

theorem to_used_of_no_copies (m : Mem) :
    ∀ (F : List (Nat × Nat)), young_copies m F = [] → to_used m F = 0 := by
  intro F
  induction F with
  | nil => intro _; rfl
  | cons x F ih =>
    intro h
    rw [young_copies_cons] at h
    by_cases hp : promotes m x.1 = true
    · rw [if_pos hp] at h
      simp only [to_used, hp, if_true]
      exact ih h
    · rw [if_neg hp] at h
      exact absurd h (List.append_ne_nil_of_right_ne_nil _ (List.cons_ne_nil _ _))

/-- A scavenge raises the least generation of the young objects by one; when no young
object is left, the bump pointer is at the base of the active semi-space. -/
theorem WF.scavenge_ages {s : GC} {N T : List Nat} (hwf : s.WF N T) (fuel : Nat)
    (hf : N.length ≤ fuel) (g : Nat)
    (hg : ∀ o ∈ N, g ≤ YHeader.gc_generation (YHeader.header1 s.mem o)) :
    ∃ (t : GC) (n : Nat) (N' T' : List Nat), GC.do_copy_gc fuel s = some (t, n)
      ∧ (s.heap_break + 16 * s.semi_space_size ≤ 2 ^ 48 → t.WF N' T')
      ∧ N'.length ≤ N.length
      ∧ t.heap_break ≤ s.heap_break + 8 * s.semi_space_size
      ∧ t.semi_space_size = s.semi_space_size
      ∧ (∀ o ∈ N', g + 1 ≤ YHeader.gc_generation (YHeader.header1 t.mem o))
      ∧ (N' = [] → t.current_top = t.semi_space0)
      ∧ t.current_end = t.semi_space0 + 8 * t.semi_space_size
      ∧ t.semi_space0 ≤ t.current_top := by
  obtain ⟨c, F, D, Lk, Q, hrun, hph, hpo, hall⟩ := hwf.do_copy_gc fuel hf
  have hwf0 := hwf.count (s.copy_gc_count + 1)
  have hfr := hph.inv.frame
  have hu := (used_le hwf0 F hph.inv.keys_nodup hph.inv.keys_young).1
  have hbrk := hph.inv.brk
  have hal := hph.inv.alloc
  have hlen0 := young_copies_length_le hph.inv
  have hlen : (young_copies s.mem F).length ≤ N.length := hlen0
  have e1 : (s.set_copy_gc_count (s.copy_gc_count + 1)).semi_space_size = s.semi_space_size :=
    rfl
  have e2 : (s.set_copy_gc_count (s.copy_gc_count + 1)).heap_break = s.heap_break := rfl
  rw [e1] at hu
  rw [e2] at hbrk
  refine ⟨_, _, young_copies s.mem F, Lk ++ T, hrun, ?_, hlen, ?_, ?_, ?_, ?_, ?_, ?_⟩
  · intro hroom
    have hw := hph.wf_after hwf0 hall hpo hroom
    exact hw
  · simp only [flip_proj]
    omega
  · simp only [flip_proj, hfr.semi_space_size, e1]
  · intro o ho
    obtain ⟨x, hx, hp, e⟩ := mem_young_copies.1 ho
    have hh := hph.inv.new_h1 x hx hp
    have hh2 : YHeader.header1 c.gc.mem x.2
        = (YHeader.inc_gc_generation (YHeader.header1 s.mem x.1)).1 := hh
    have hgx := hg x.1 (hph.inv.keys_young x hx)
    have hne : YHeader.gc_generation (YHeader.header1 s.mem x.1) ≠ 3 := by
      intro e3
      have hp2 : promotes s.mem x.1 = false := hp
      rw [(promotes_iff _ _).2 e3] at hp2
      cases hp2
    have hlt : YHeader.gc_generation (YHeader.header1 s.mem x.1) < 4 := by
      rw [YHeader.gc_generation_eq]
      exact Nat.mod_lt _ (by norm_num)
    simp only [flip_proj]
    rw [← e, hh2, YHeader.gc_generation_inc]
    omega
  · intro hnil
    have h0 := to_used_of_no_copies s.mem F hnil
    have hal2 : c.alloc_ptr = (s.set_copy_gc_count (s.copy_gc_count + 1)).semi_space1
        + to_used s.mem F := hal
    simp only [flip_proj]
    rw [hal2, h0, hfr.semi_space1]
    rfl
  · simp only [flip_proj]
  · simp only [flip_proj, hfr.semi_space1]
    omega

/-- Three scavenges in a row promote every survivor: the nursery is empty afterwards. -/
theorem WF.three_scavenges {s : GC} {N T : List Nat} (hwf : s.WF N T) (fuel : Nat)
    (hf : N.length ≤ fuel) (hroom : s.heap_break + 24 * s.semi_space_size ≤ 2 ^ 48) :
    ∃ (s1 s2 s3 : GC) (n1 n2 n3 : Nat) (T3 : List Nat), GC.do_copy_gc fuel s = some (s1, n1)
      ∧ GC.do_copy_gc fuel s1 = some (s2, n2) ∧ GC.do_copy_gc fuel s2 = some (s3, n3)
      ∧ s3.current_top = s3.semi_space0
      ∧ (s.heap_break + 32 * s.semi_space_size ≤ 2 ^ 48 → s3.WF [] T3)
      ∧ s1.semi_space_size = s.semi_space_size ∧ s2.semi_space_size = s.semi_space_size
      ∧ s3.semi_space_size = s.semi_space_size
      ∧ s1.current_end = s1.semi_space0 + 8 * s1.semi_space_size
      ∧ s2.current_end = s2.semi_space0 + 8 * s2.semi_space_size
      ∧ s3.current_end = s3.semi_space0 + 8 * s3.semi_space_size
      ∧ s1.semi_space0 ≤ s1.current_top ∧ s2.semi_space0 ≤ s2.current_top := by
  obtain ⟨s1, n1, N1, T1, hr1, hw1, hl1, hb1, hs1, hg1, -, he1, ht1⟩ :=
    hwf.scavenge_ages fuel hf 1 (fun o ho => (hwf.young_header o ho).2)
  have hwf1 := hw1 (by omega)
  obtain ⟨s2, n2, N2, T2, hr2, hw2, hl2, hb2, hs2, hg2, -, he2, ht2⟩ :=
    hwf1.scavenge_ages fuel (by omega) 2 hg1
  have hwf2 := hw2 (by omega)
  obtain ⟨s3, n3, N3, T3, hr3, hw3, hl3, hb3, hs3, hg3, hz3, he3, ht3⟩ :=
    hwf2.scavenge_ages fuel (by omega) 3 hg2
  have hnil : N3 = [] := by
    rw [List.eq_nil_iff_forall_not_mem]
    intro o ho
    have h4 := hg3 o ho
    have hlt : YHeader.gc_generation (YHeader.header1 s3.mem o) < 4 := by
      rw [YHeader.gc_generation_eq]
      exact Nat.mod_lt _ (by norm_num)
    omega
  refine ⟨s1, s2, s3, n1, n2, n3, T3, hr1, hr2, hr3, hz3 hnil, ?_, hs1, by omega, by omega,
    he1, he2, he3, ht1, ht2⟩
  intro hroom2
  have := hw3 (by omega)
  rw [hnil] at this
  exact this

/-- The first call of `copy_and_forward` on an object leaves the destination in the first
header word of the object. -/
theorem copy_and_forward_first (c : Scan) (p : Nat)
    (hnull : YHeader.forward_pointer (YHeader.header1 c.gc.mem p) = 0) :
    (copy_and_forward c p).2
        = (if YHeader.gc_generation (YHeader.header1 c.gc.mem p) = 3 then c.gc.heap_break
            else c.alloc_ptr)
      ∧ YHeader.header1 (copy_and_forward c p).1.gc.mem p = (copy_and_forward c p).2
      ∧ (copy_and_forward c p).1.live_objects = (c.live_objects + 1) % 2 ^ 64 := by
  by_cases hg : YHeader.gc_generation (YHeader.header1 c.gc.mem p) = 3
  · rw [copy_and_forward_promoted c p hnull hg, if_pos hg]
    refine ⟨rfl, ?_, rfl⟩
    simp only [set_promoted_objects_proj, set_mem_proj]
    exact moved_mem_forward _ _ _ _
  · rw [copy_and_forward_young c p hnull hg, if_neg hg]
    refine ⟨rfl, ?_, rfl⟩
    simp only [set_mem_proj]
    exact moved_mem_forward _ _ _ _

/-- During a scavenge a call of `copy_and_forward` on an object already copied returns the
recorded destination and changes nothing. -/
theorem Inv.copy_again {s0 : GC} {N T : List Nat} {c : Scan} {F : List (Nat × Nat)}
    (hwf : s0.WF N T) (h : Inv s0 N T c F) {p n : Nat} (hp : (p, n) ∈ F) :
    GC.copy_and_forward c p = (c, n) := by
  have h1 := h.young_fwd (p, n) hp
  have h2 := h.new_addr hwf (p, n) hp
  simp only at h1 h2
  have h3 : YHeader.forward_pointer (YHeader.header1 c.gc.mem p) = n := by
    rw [h1]
    exact YHeader.forward_pointer_of_lt n h2.2.1
  rw [copy_and_forward_forwarded c p (by rw [h3]; omega), h3]

end GC

theorem one_root_reachable : Example.one_root.copy_reachable 4096 :=
  ⟨4096, ⟨by decide, Or.inl ⟨0, by decide!, by decide!⟩⟩, Relation.ReflTransGen.refl⟩

theorem one_root_below_limit :
    GC.mark_sweep_gc_if_needed 1 Example.one_root = some (Example.one_root, 0) := by
  unfold GC.mark_sweep_gc_if_needed
  rw [if_pos (by decide!)]


namespace GC

theorem mark_sweep_gc_if_needed_stack {fuel : Nat} {s t : GC} {n : Nat}
    (h : mark_sweep_gc_if_needed fuel s = some (t, n)) :
    t.stack_top = s.stack_top ∧ t.shadow_stack.length = s.shadow_stack.length := by
  unfold mark_sweep_gc_if_needed at h
  split at h
  · simp only [Option.some.injEq, Prod.mk.injEq] at h
    rw [← h.1]
    exact ⟨rfl, rfl⟩
  · cases hrun : do_mark_sweep_gc fuel s with
    | none => rw [hrun] at h; cases h
    | some r =>
      obtain ⟨s1, lives⟩ := r
      rw [hrun] at h
      simp only at h
      have hm := do_mark_sweep_gc_frame hrun
      split at h
      · simp only [Option.some.injEq, Prod.mk.injEq] at h
        rw [← h.1]
        exact ⟨hm.2.2.2.2.1, by rw [← hm.2.2.2.2.2.1]; rfl⟩
      · simp only [Option.some.injEq, Prod.mk.injEq] at h
        rw [← h.1]
        exact ⟨hm.2.2.2.2.1, by rw [← hm.2.2.2.2.2.1]⟩

theorem alloc_attempts_stack (fuel wcount : Nat) :
    ∀ (k : Nat) (s : GC) (o : Outcome), alloc_attempts fuel wcount k s = some o →
      o.state.stack_top = s.stack_top
        ∧ o.state.shadow_stack.length = s.shadow_stack.length := by
  intro k
  induction k with
  | zero =>
    intro s o h
    rw [alloc_attempts] at h
    cases h
    exact ⟨rfl, rfl⟩
  | succ k ih =>
    intro s o h
    rw [alloc_attempts] at h
    cases hrun : do_copy_gc fuel s with
    | none => rw [hrun] at h; cases h
    | some r =>
      obtain ⟨s1, n⟩ := r
      rw [hrun] at h
      simp only at h
      have hm := do_copy_gc_frame hrun
      split at h
      · cases h
        exact ⟨hm.2.2.2.2.1, hm.2.2.2.2.2.2⟩
      · obtain ⟨h1, h2⟩ := ih s1 o h
        exact ⟨h1.trans hm.2.2.2.2.1, h2.trans hm.2.2.2.2.2.2⟩

theorem allocate_in_semi_stack {fuel : Nat} {s : GC} {count : Nat} {o : Outcome}
    (h : allocate_in_semi fuel s count = some o) :
    o.state.stack_top = s.stack_top
      ∧ o.state.shadow_stack.length = s.shadow_stack.length := by
  unfold allocate_in_semi at h
  simp only at h
  split at h
  · unfold allocate_in_semi2 at h
    cases hn : mark_sweep_gc_if_needed fuel s with
    | none => rw [hn] at h; cases h
    | some r =>
      obtain ⟨s1, n⟩ := r
      rw [hn] at h
      simp only at h
      have h1 := mark_sweep_gc_if_needed_stack hn
      cases ha : alloc_attempts fuel ((count + 8 - 1) % 2 ^ 64 / 8) 3 s1 with
      | none => rw [ha] at h; cases h
      | some o1 =>
        rw [ha] at h
        have h2 := alloc_attempts_stack fuel _ 3 s1 o1 ha
        cases o1 with
        | memory_exhausted s2 =>
          simp only [Option.some.injEq] at h
          rw [← h]
          exact ⟨h2.1.trans h1.1, h2.2.trans h1.2⟩
        | returned s2 p =>
          simp only [Option.some.injEq] at h
          rw [← h]
          exact ⟨h2.1.trans h1.1, h2.2.trans h1.2⟩
  · simp only [Option.some.injEq] at h
    rw [← h]
    exact ⟨rfl, rfl⟩

/-- In every state of a program that keeps to the life cycle of the collector the
shadow-stack vector holds exactly the slots `0 .. stack_top`. -/
theorem Defined.sized {s : GC} (h : s.Defined) : Shadow.sized s := by
  induction h with
  | first heap_base young_size stack_size => exact ⟨Int.le_refl _, rfl⟩
  | again young_size stack_size _ _ => exact ⟨Int.le_refl _, rfl⟩
  | minor _ hrun ih =>
    have hm := do_copy_gc_frame hrun
    unfold Shadow.sized at ih ⊢
    rw [hm.2.2.2.2.1, hm.2.2.2.2.2.2]
    exact ih
  | major _ hrun ih =>
    have hm := do_mark_sweep_gc_frame hrun
    unfold Shadow.sized at ih ⊢
    rw [hm.2.2.2.2.1, hm.2.2.2.2.2.1]
    exact ih
  | if_needed _ hrun ih =>
    have hm := mark_sweep_gc_if_needed_stack hrun
    unfold Shadow.sized at ih ⊢
    rw [hm.1, hm.2]
    exact ih
  | alloc _ hrun ih =>
    have hm := allocate_in_semi_stack hrun
    unfold Shadow.sized at ih ⊢
    rw [hm.1, hm.2]
    exact ih
  | tenure size _ ih => exact ih
  | barrier self value _ ih =>
    unfold w_barrier
    split
    · exact ih
    · exact ih
  | write m _ ih => exact ih
  | expand size _ ih =>
    obtain ⟨e1, e2⟩ := Shadow.expand_stack _ size ih
    obtain ⟨h1, h2⟩ := ih
    refine ⟨by rw [e2]; omega, ?_⟩
    rw [e1, e2, List.length_append, List.length_replicate]
    omega
  | shrink size _ hle ih =>
    obtain ⟨h1, h2⟩ := ih
    unfold Shadow.shrink Shadow.sized
    simp only [GC.set_shadow_stack_proj, GC.set_stack_top_proj]
    refine ⟨by omega, ?_⟩
    unfold Shadow.resize
    rw [List.length_append, List.length_take, List.length_replicate]
    omega
  | set_slot index value _ ih =>
    obtain ⟨h1, h2⟩ := ih
    unfold Shadow.set Shadow.sized
    simp only [GC.set_shadow_stack_proj]
    refine ⟨h1, ?_⟩
    rw [List.length_set]
    exact h2

end GC


namespace GC

/-- An object has one current address. -/
theorem Inv.current_unique {s0 : GC} {N T : List Nat} {c : Scan} {F : List (Nat × Nat)}
    (hwf : s0.WF N T) (h : Inv s0 N T c F) {a b x : Nat}
    (ha : (a, x) ∈ owners T F) (hb : (b, x) ∈ owners T F) : a = b := by
  rw [mem_owners] at ha hb
  simp only at ha hb
  rcases ha with ⟨ha1, ha2⟩ | ha
  · rcases hb with ⟨hb1, hb2⟩ | hb
    · exact ha2.symm.trans hb2
    · have h1 := hwf.in_nursery_young (h.keys_young _ hb)
      have h2 := hwf.in_nursery_old ha1
      simp only at h1
      rw [ha2, h2] at h1
      cases h1
  · rcases hb with ⟨hb1, hb2⟩ | hb
    · have h1 := hwf.in_nursery_young (h.keys_young _ ha)
      have h2 := hwf.in_nursery_old hb1
      simp only at h1
      rw [hb2, h2] at h1
      cases h1
    · exact h.pair_unique ha hb

/-- At the end of a scavenge a pointer field of an owner points to the current address of
the object it pointed to at the start. -/
theorem Phase.edge_after {s0 : GC} {N T : List Nat} {c : Scan} {F : List (Nat × Nat)}
    {D : List (Nat × Nat)} {Lk Q : List Nat}
    (hwf : s0.WF N T) (h : Phase s0 N T c F 0 0 D Lk Q) (hall : ∀ x ∈ F, x ∈ D)
    {w : Nat × Nat} (hw : w ∈ owners T F) {z : Nat} (hz : points_to s0.mem w.2 z) :
    ∃ z', points_to c.gc.mem w.1 z' ∧ (z', z) ∈ owners T F := by
  obtain ⟨i, hi, hptr, e, hz0⟩ := hz
  obtain ⟨sh1, sh2, sh3⟩ := h.inv.owner_shape w hw
  have hi' : scanned_index c.gc.mem w.1 i := by
    unfold scanned_index at hi ⊢
    rw [sh1, sh2, sh3]
    exact hi
  rcases h.value_after hwf hall hw hi with ⟨_, _, hF⟩ | ⟨hn, ev⟩
  · rw [e] at hF
    obtain ⟨hpos, hlt, _, _⟩ := h.inv.new_addr hwf _ hF
    refine ⟨YHeader.get_field c.gc.mem w.1 i, ⟨i, hi', (Box.is_ptr_iff _).2 hlt, rfl, ?_⟩, ?_⟩
    · exact Nat.pos_iff_ne_zero.1 hpos
    · exact mem_owners.2 (Or.inr hF)
  · have ho := h.inv.owner_orig w hw
    rcases hwf.fields_closed w.2 ho i hi.2.2 hi.1 hi.2.1 hptr with h0 | hN | hT
    · exact absurd (e.symm.trans h0) hz0
    · exact absurd ⟨hptr, hwf.in_nursery_young hN⟩ hn
    · rw [e] at hT
      refine ⟨z, ⟨i, hi', ?_, ev.trans e, hz0⟩, mem_owners.2 (Or.inl ⟨hT, rfl⟩)⟩
      rw [ev]
      exact hptr

/-- At the end of a scavenge the current address of an object that was reachable, when it
is a copy in to-space, is reachable from the roots of the next scavenge. -/
theorem Phase.path_after {s0 : GC} {N T : List Nat} {c : Scan} {F : List (Nat × Nat)}
    {D : List (Nat × Nat)} {Lk Q : List Nat}
    (hwf : s0.WF N T) (h : Phase s0 N T c F 0 0 D Lk Q) (hall : ∀ x ∈ F, x ∈ D)
    {r x : Nat} (hr : s0.copy_root r) (hp : Relation.ReflTransGen (points_to s0.mem) r x) :
    ∀ x', (x', x) ∈ owners T F → x' ∈ young_copies s0.mem F →
      (c.gc.flip c.alloc_ptr).copy_reachable x' := by
  induction hp with
  | refl =>
    intro x' hx' hy
    obtain ⟨p, hp, hpr, e⟩ := mem_young_copies.1 hy
    have hpair : (r, x') ∈ F := by
      rcases mem_owners.1 hx' with ⟨h1, _⟩ | h1
      · simp only at h1
        rw [← e] at h1
        exact absurd h1 (h.inv.new_not_old hwf hp)
      · exact h1
    have hrN : r ∈ N := h.inv.keys_young _ hpair
    have hrn := hwf.in_nursery_young hrN
    obtain ⟨hp0, _, _, _⟩ := h.inv.new_addr hwf _ hpair
    obtain ⟨hr0, hr1 | hr1⟩ := hr
    · obtain ⟨i, hi, ei⟩ := hr1
      have hd := (h.sh_done i (Nat.zero_le _) hi).1 (by rw [ei]; exact hrn)
      rw [ei] at hd
      have := h.inv.pair_unique hd hpair
      refine ⟨x', ⟨Nat.pos_iff_ne_zero.1 hp0, Or.inl ⟨i, ?_, ?_⟩⟩, Relation.ReflTransGen.refl⟩
      · simp only [flip_proj, h.inv.frame.stack_top]
        exact hi
      · simp only [flip_proj]
        exact this
    · rcases hwf.remembered_old r hr1 with h0 | hT
      · exact absurd h0 hr0
      · rw [hwf.in_nursery_old hT] at hrn
        cases hrn
  | @tail a x hpa hax ih =>
    intro x' hx' hy
    have hcl := h.closed hwf hall hr hpa
    have hown : ∃ a', (a', a) ∈ owners T F := by
      rcases hcl.1 with hN | hT
      · obtain ⟨q, hq, eq⟩ := List.mem_map.1 (hcl.2 hN)
        refine ⟨q.2, mem_owners.2 (Or.inr ?_)⟩
        simp only
        rw [← eq]
        exact hq
      · exact ⟨a, mem_owners.2 (Or.inl ⟨hT, rfl⟩)⟩
    obtain ⟨a', ha'⟩ := hown
    obtain ⟨z', hz', hzo⟩ := h.edge_after hwf hall ha' (z := x) hax
    have ez : z' = x' := h.inv.current_unique hwf hzo hx'
    rw [ez] at hz'
    simp only at hz'
    by_cases hay : a' ∈ young_copies s0.mem F
    · have hra := ih a' ha' hay
      obtain ⟨r', hr', hp'⟩ := hra
      refine ⟨r', hr', hp'.tail ?_⟩
      simp only [flip_proj]
      exact hz'
    · have hlist : a' ∈ Lk ++ T := by
        rcases mem_owners.1 ha' with ⟨h1, _⟩ | h1
        · exact List.mem_append_right _ h1
        · rcases h.new_listed hall h1 with h2 | h2
          · exact absurd h2 hay
          · exact List.mem_append_left _ h2
      obtain ⟨p, hp, hpr, e⟩ := mem_young_copies.1 hy
      have hyn : s0.in_nursery x' = true := by
        rw [← e]
        exact (h.inv.new_addr hwf _ hp).2.2.1.2 hpr
      obtain ⟨i, hi, hptr, ei, hx0⟩ := hz'
      have hrem := h.remembered_all_after hwf hall a' hlist
        ⟨i, hi.2.2, hi.1, hi.2.1, hptr, by rw [ei]; exact hyn⟩
      have ha0 := (h.chain_after hwf).2.1 a' hlist
      refine ⟨a', ⟨ha0, Or.inr ?_⟩, Relation.ReflTransGen.single ?_⟩
      · simp only [flip_proj]
        exact hrem
      · simp only [flip_proj]
        exact ⟨i, hi, hptr, ei, hx0⟩

/-- At the end of a scavenge every copy in to-space is reachable from the roots of the next
scavenge. -/
theorem Phase.copies_reachable {s0 : GC} {N T : List Nat} {c : Scan} {F : List (Nat × Nat)}
    {D : List (Nat × Nat)} {Lk Q : List Nat}
    (hwf : s0.WF N T) (h : Phase s0 N T c F 0 0 D Lk Q) (hall : ∀ x ∈ F, x ∈ D)
    {y : Nat} (hy : y ∈ young_copies s0.mem F) :
    (c.gc.flip c.alloc_ptr).copy_reachable y := by
  obtain ⟨p, hp, _, e⟩ := mem_young_copies.1 hy
  obtain ⟨r, hr, hpath⟩ := h.inv.reach p hp
  refine h.path_after hwf hall hr hpath y (mem_owners.2 (Or.inr ?_)) hy
  simp only
  rw [← e]
  exact hp

end GC


theorem length_filter_split {α : Type} (p : α → Bool) :
    ∀ l : List α, (l.filter p).length + (l.filter (fun x => !p x)).length = l.length := by
  intro l
  induction l with
  | nil => rfl
  | cons a l ih =>
    cases hp : p a
    · simp only [List.filter, hp, Bool.not_false, List.length_cons]
      omega
    · simp only [List.filter, hp, Bool.not_true, List.length_cons]
      omega

namespace GC

/-- The promoted copies linked by a scavenge are as many as the promoted pairs. -/
theorem Phase.linked_length {s0 : GC} {N T : List Nat} {c : Scan} {F : List (Nat × Nat)}
    {D : List (Nat × Nat)} {Lk Q : List Nat}
    (hwf : s0.WF N T) (h : Phase s0 N T c F 0 0 D Lk Q) (hall : ∀ x ∈ F, x ∈ D) :
    Lk.length = (F.filter (fun x => promotes s0.mem x.1)).length := by
  have hnd : Lk.Nodup := (List.nodup_append.1 (h.chain_after hwf).2.2).1
  have hP : ((F.filter (fun x => promotes s0.mem x.1)).map Prod.snd).Nodup := by
    refine List.Nodup.map_on ?_ ((h.inv.pairs_nodup).filter _)
    intro x hx y hy e
    exact h.inv.snd_inj hwf (List.mem_filter.1 hx).1 (List.mem_filter.1 hy).1 e
  have h1 : Lk.length ≤ ((F.filter (fun x => promotes s0.mem x.1)).map Prod.snd).length := by
    refine nodup_subset_length_le _ _ hnd ?_
    intro n hn
    obtain ⟨x, hx, hp, e⟩ := (h.linked n).1 hn
    exact List.mem_map.2 ⟨x, List.mem_filter.2 ⟨h.done_sub x hx, hp⟩, e⟩
  have h2 : ((F.filter (fun x => promotes s0.mem x.1)).map Prod.snd).length ≤ Lk.length := by
    refine nodup_subset_length_le _ _ hP ?_
    intro n hn
    obtain ⟨x, hx, e⟩ := List.mem_map.1 hn
    obtain ⟨hxF, hp⟩ := List.mem_filter.1 hx
    exact (h.linked n).2 ⟨x, hall x hxF, hp, e⟩
  rw [List.length_map] at h1 h2
  omega

/-- A scavenge of a state that satisfies the collector's invariants returns, and what it
has done. -/
theorem WF.scavenged {s : GC} {N T : List Nat} (hwf : s.WF N T) (fuel : Nat)
    (hf : N.length ≤ fuel) :
    ∃ (t : GC) (n : Nat) (N' L : List Nat), GC.do_copy_gc fuel s = some (t, n)
      ∧ GC.Scavenged s N T t n N' L := by
  obtain ⟨c, F, D, Lk, Q, hrun, hph, hpo, hall⟩ := hwf.do_copy_gc fuel hf
  have hwf0 := hwf.count (s.copy_gc_count + 1)
  have hfr := hph.inv.frame
  have hu := (used_le hwf0 F hph.inv.keys_nodup hph.inv.keys_young).1
  have hbrk := hph.inv.brk
  have hal := hph.inv.alloc
  have hlen0 := young_copies_length_le hph.inv
  have hlen : (young_copies s.mem F).length ≤ N.length := hlen0
  have e1 : (s.set_copy_gc_count (s.copy_gc_count + 1)).semi_space_size = s.semi_space_size :=
    rfl
  have e2 : (s.set_copy_gc_count (s.copy_gc_count + 1)).heap_break = s.heap_break := rfl
  have e4 : (s.set_copy_gc_count (s.copy_gc_count + 1)).stack_top = s.stack_top := rfl
  rw [e1] at hu
  rw [e2] at hbrk
  have hnur : ∀ v, (c.gc.flip c.alloc_ptr).in_nursery v = s.in_nursery v := by
    intro v
    have h1 : (c.gc.flip c.alloc_ptr).in_nursery v = c.gc.in_nursery v := by
      simp [GC.in_nursery]
    rw [h1, GC.in_nursery_frame hfr]
    rfl
  have hnur0 : ∀ v, (s.set_copy_gc_count (s.copy_gc_count + 1)).in_nursery v
      = s.in_nursery v := fun _ => rfl
  obtain ⟨hc1, hc2, hc3⟩ := hph.chain_after hwf0
  have hya := hph.young_after hwf0
  have hsrc : ∀ x ∈ F, s.in_nursery x.1 = true ∧ s.copy_reachable x.1
      ∧ YHeader.header2 c.gc.mem x.2 = YHeader.header2 s.mem x.1 := by
    intro x hx
    refine ⟨hwf.in_nursery_young (hph.inv.keys_young x hx), hph.inv.reach x hx, ?_⟩
    exact hph.inv.owner_h2 (x.2, x.1) (mem_owners.2 (Or.inr hx))
  have hkeys : ∀ x, s.in_nursery x = true → s.copy_reachable x → x ∈ F.map Prod.fst := by
    rintro x hn ⟨r, hr, hp⟩
    have hcl := hph.closed hwf0 hall hr hp
    rcases hcl.1 with hN | hT
    · exact hcl.2 hN
    · rw [hwf.in_nursery_old hT] at hn
      cases hn
  refine ⟨_, _, young_copies s.mem F, Lk, hrun, ?_⟩
  constructor
  · intro hroom
    have hw := hph.wf_after hwf0 hall hpo hroom
    exact hw
  · exact hlen
  · simp only [flip_proj]
    omega
  · simp only [flip_proj, hfr.semi_space_size, e1]
  · simp only [flip_proj, hfr.stack_top, e4]
  · exact hnur
  · simp only [flip_proj]
  · simp only [flip_proj, hfr.semi_space1]
    omega
  · intro hnil
    have h0 := to_used_of_no_copies s.mem F hnil
    have hal2 : c.alloc_ptr = (s.set_copy_gc_count (s.copy_gc_count + 1)).semi_space1
        + to_used s.mem F := hal
    simp only [flip_proj]
    rw [hal2, h0, hfr.semi_space1]
    rfl
  · simp only [flip_proj]
    exact tenure_list_of_chain _ _ hc1 hc2
  · exact hc3
  · refine hya.1.imp ?_
    intro a b hab e
    have := object_bytes_pos c.gc.mem a
    omega
  · intro y hy
    obtain ⟨x, hx, hp, e⟩ := mem_young_copies.1 hy
    refine ⟨?_, hph.copies_reachable hwf0 hall hy⟩
    rw [hnur, ← e]
    exact (hph.inv.new_addr hwf0 x hx).2.2.1.2 hp
  · intro y hy
    have hz := hph.old_zone_after hwf0 y hy
    refine ⟨?_, ?_⟩
    · rw [hnur]
      cases hn : s.in_nursery y
      · rfl
      · have hn2 := (GC.in_nursery_iff _ _).1 hn
        have hb := hya.2.1
        have e5 : (s.set_copy_gc_count (s.copy_gc_count + 1)).nursery_space
            = s.nursery_space := rfl
        have e6 : (s.set_copy_gc_count (s.copy_gc_count + 1)).nursery_space_end
            = s.nursery_space_end := rfl
        rw [e5, e6] at hz
        have := object_bytes_pos c.gc.mem y
        omega
    · simp only [flip_proj]
      exact hz.2
  · refine ⟨F.map Prod.fst, hph.inv.keys_nodup, ?_, ?_⟩
    · intro x
      constructor
      · intro hx
        obtain ⟨y, hy, ey⟩ := List.mem_map.1 hx
        rw [← ey]
        exact ⟨(hsrc y hy).1, (hsrc y hy).2.1⟩
      · rintro ⟨hn, hr⟩
        exact hkeys x hn hr
    · rw [List.length_map]
      exact hph.inv.live
  · have h1 := hph.linked_length hwf0 hall
    have h2 := length_filter_split (fun x : Nat × Nat => promotes s.mem x.1) F
    have h3 : (young_copies s.mem F).length
        = (F.filter (fun x => !promotes s.mem x.1)).length := by
      unfold young_copies
      rw [List.length_reverse, List.length_map]
    have h4 : Lk.length = (F.filter (fun x => promotes s.mem x.1)).length := h1
    have h5 := hph.inv.live
    rw [h3, h4]
    omega
  · intro x hn hr
    obtain ⟨y, hy, ey⟩ := List.mem_map.1 (hkeys x hn hr)
    refine ⟨y.2, ?_, ?_⟩
    · rcases hph.new_listed hall hy with h1 | h1
      · exact Or.inl h1
      · exact Or.inr h1
    · rw [← ey]
      simp only [flip_proj]
      exact (hsrc y hy).2.2
  · intro y hy
    obtain ⟨x, hx, hp, e⟩ := mem_young_copies.1 hy
    refine ⟨x.1, (hsrc x hx).1, (hsrc x hx).2.1, ?_, ?_⟩
    · rw [← e]
      simp only [flip_proj]
      exact (hsrc x hx).2.2
    · have hh := hph.inv.new_h1 x hx hp
      have hh2 : YHeader.header1 c.gc.mem x.2
          = (YHeader.inc_gc_generation (YHeader.header1 s.mem x.1)).1 := hh
      have hne : YHeader.gc_generation (YHeader.header1 s.mem x.1) ≠ 3 := by
        intro e3
        have hp2 : promotes s.mem x.1 = false := hp
        rw [(promotes_iff _ _).2 e3] at hp2
        cases hp2
      have hlt : YHeader.gc_generation (YHeader.header1 s.mem x.1) < 4 := by
        rw [YHeader.gc_generation_eq]
        exact Nat.mod_lt _ (by norm_num)
      simp only [flip_proj]
      rw [← e, hh2, YHeader.gc_generation_inc]
      omega
  · intro y hy
    obtain ⟨x, hx, hp, e⟩ := (hph.linked y).1 hy
    have hxF := hph.done_sub x hx
    refine ⟨x.1, (hsrc x hxF).1, (hsrc x hxF).2.1, ?_⟩
    rw [← e]
    simp only [flip_proj]
    exact (hsrc x hxF).2.2
  · intro y hy
    simp only [flip_proj]
    exact hph.inv.owner_h2 (y, y) (mem_owners.2 (Or.inl ⟨hy, rfl⟩))
  · intro i hi
    have hd := hph.sh_done i (Nat.zero_le _) hi
    refine ⟨?_, ?_⟩
    · intro hy
      have hpair := hd.1 hy
      refine ⟨?_, ?_⟩
      · simp only [flip_proj]
        rcases hph.new_listed hall hpair with h1 | h1
        · exact Or.inl h1
        · exact Or.inr h1
      · simp only [flip_proj]
        exact (hsrc _ hpair).2.2
    · intro hy
      simp only [flip_proj]
      exact hd.2 hy

end GC


namespace GC

/-- Everything reachable from the roots of the scavenge is listed. -/
theorem WF.reachable_listed {s : GC} {N T : List Nat} (hwf : s.WF N T) {x : Nat}
    (hx : s.copy_reachable x) : x ∈ N ∨ x ∈ T := by
  obtain ⟨r, hr, hp⟩ := hx
  have hroot : r ∈ N ∨ r ∈ T := by
    obtain ⟨hr0, hr1 | hr1⟩ := hr
    · obtain ⟨i, hi, e⟩ := hr1
      rcases hwf.roots_closed i hi with h0 | h1
      · exact absurd (e.symm.trans h0) hr0
      · rw [← e]; exact h1
    · rcases hwf.remembered_old r hr1 with h0 | h1
      · exact absurd h0 hr0
      · exact Or.inr h1
  induction hp with
  | refl => exact hroot
  | @tail b z _ hbz ih =>
    obtain ⟨i, hi, hptr, e, hz⟩ := hbz
    rcases hwf.fields_closed b (List.mem_append.2 ih) i hi.2.2 hi.1 hi.2.1 hptr with h0 | h1
    · exact absurd (e.symm.trans h0) hz
    · rw [← e]; exact h1

/-- A young object that is reachable is listed as young. -/
theorem WF.reachable_young {s : GC} {N T : List Nat} (hwf : s.WF N T) {x : Nat}
    (hn : s.in_nursery x = true) (hx : s.copy_reachable x) : x ∈ N :=
  hwf.young_of_in_nursery (Or.inr (hwf.reachable_listed hx)) hn

theorem nodup_same_length (K L : List Nat) (hK : K.Nodup) (hL : L.Nodup)
    (h : ∀ x, x ∈ K ↔ x ∈ L) : K.length = L.length :=
  Nat.le_antisymm (nodup_subset_length_le K L hK (fun x hx => (h x).1 hx))
    (nodup_subset_length_le L K hL (fun x hx => (h x).2 hx))

/-- One scavenge, as the first of a row. -/
theorem Scavenged.aged {s t : GC} {N T N' L : List Nat} {n : Nat}
    (h : Scavenged s N T t n N' L) : ∃ R, Aged s T t N' L R ∧ n = R.length := by
  obtain ⟨R, hR1, hR2, hR3⟩ := h.count
  refine ⟨R, ?_, hR3⟩
  constructor
  · exact h.stack_top
  · exact h.nursery
  · exact hR1
  · exact hR2
  · rw [← hR3]; exact h.split
  · exact h.young_nodup
  · exact h.young
  · exact fun y hy => (h.old y hy).1
  · intro x hx
    exact h.image x ((hR2 x).1 hx).1 ((hR2 x).1 hx).2
  · intro y hy
    rcases hy with hy | hy
    · obtain ⟨x, h1, h2, h3, _⟩ := h.source_young y hy
      exact ⟨x, (hR2 x).2 ⟨h1, h2⟩, h3⟩
    · obtain ⟨x, h1, h2, h3⟩ := h.source_old y hy
      exact ⟨x, (hR2 x).2 ⟨h1, h2⟩, h3⟩
  · exact h.kept
  · exact h.roots

/-- One more scavenge at the end of a row. -/
theorem Aged.one_more {s t u : GC} {T Nt L R Nu Lu : List Nat} {n : Nat}
    (h : Aged s T t Nt L R) (hwf : t.WF Nt (L ++ T))
    (hs : Scavenged t Nt (L ++ T) u n Nu Lu) :
    Aged s T u Nu (Lu ++ L) R ∧ n = Nt.length := by
  obtain ⟨R', hR1, hR2, hR3⟩ := hs.count
  have hlen : R'.length = Nt.length := by
    refine nodup_same_length _ _ hR1 h.young_nodup ?_
    intro x
    rw [hR2]
    constructor
    · rintro ⟨h1, h2⟩
      exact hwf.reachable_young h1 h2
    · intro hx
      exact h.young x hx
  have hn : n = Nt.length := hR3.trans hlen
  have hold : ∀ y ∈ L ++ T, YHeader.header2 u.mem y = YHeader.header2 t.mem y := hs.kept
  have hmov : ∀ y, y ∈ Nt ∨ y ∈ L → ∃ z, (z ∈ Nu ∨ z ∈ Lu ++ L)
      ∧ YHeader.header2 u.mem z = YHeader.header2 t.mem y := by
    intro y hy
    rcases hy with hy | hy
    · obtain ⟨z, hz, e⟩ := hs.image y (h.young y hy).1 (h.young y hy).2
      refine ⟨z, ?_, e⟩
      rcases hz with hz | hz
      · exact Or.inl hz
      · exact Or.inr (List.mem_append_left _ hz)
    · exact ⟨y, Or.inr (List.mem_append_right _ hy), hold y (List.mem_append_left _ hy)⟩
  refine ⟨?_, hn⟩
  constructor
  · exact hs.stack_top.trans h.stack_top
  · intro v
    rw [hs.nursery, h.nursery]
  · exact h.nodup
  · exact h.survivors
  · have h1 := h.split
    have h2 := hs.split
    rw [List.length_append]
    omega
  · exact hs.young_nodup
  · exact hs.young
  · intro y hy
    refine (hs.old y ?_).1
    rw [← List.append_assoc]
    exact hy
  · intro x hx
    obtain ⟨y, hy, e⟩ := h.image x hx
    obtain ⟨z, hz, e2⟩ := hmov y hy
    exact ⟨z, hz, e2.trans e⟩
  · intro z hz
    have hsrc : ∃ y, (y ∈ Nt ∨ y ∈ L)
        ∧ YHeader.header2 u.mem z = YHeader.header2 t.mem y := by
      rcases hz with hz | hz
      · obtain ⟨y, h1, h2, h3, _⟩ := hs.source_young z hz
        exact ⟨y, Or.inl (hwf.reachable_young h1 h2), h3⟩
      · rcases List.mem_append.1 hz with hz | hz
        · obtain ⟨y, h1, h2, h3⟩ := hs.source_old z hz
          exact ⟨y, Or.inl (hwf.reachable_young h1 h2), h3⟩
        · exact ⟨z, Or.inr hz, hold z (List.mem_append_left _ hz)⟩
    obtain ⟨y, hy, e⟩ := hsrc
    obtain ⟨x, hx, e2⟩ := h.source y hy
    exact ⟨x, hx, e.trans e2⟩
  · intro y hy
    rw [hold y (List.mem_append_right _ hy)]
    exact h.kept y hy
  · intro i hi
    have hi' : i < (t.stack_top + 1).toNat := by rw [h.stack_top]; exact hi
    obtain ⟨r1, r2⟩ := h.roots i hi
    obtain ⟨q1, q2⟩ := hs.roots i hi'
    refine ⟨?_, ?_⟩
    · intro hy
      obtain ⟨hm, e⟩ := r1 hy
      rcases hm with hm | hm
      · obtain ⟨hz, e2⟩ := q1 (h.young _ hm).1
        refine ⟨?_, e2.trans e⟩
        rcases hz with hz | hz
        · exact Or.inl hz
        · exact Or.inr (List.mem_append_left _ hz)
      · have hq := q2 (h.old _ (List.mem_append_left _ hm))
        rw [hq]
        exact ⟨Or.inr (List.mem_append_right _ hm),
          (hold _ (List.mem_append_left _ hm)).trans e⟩
    · intro hy
      have e1 := r2 hy
      have hq := q2 (by rw [h.nursery, e1]; exact hy)
      rw [hq, e1]

end GC


namespace GC

/-- Three scavenges in a row promote every survivor: every young object that was reachable
has its copy on the tenure list, in front of the objects that were tenured, and every root
follows. -/
theorem WF.three_promotions {s : GC} {N T : List Nat} (hwf : s.WF N T) (fuel : Nat)
    (hf : N.length ≤ fuel) (hroom : s.heap_break + 32 * s.semi_space_size ≤ 2 ^ 48) :
    ∃ (s1 s2 s3 : GC) (n1 n2 n3 : Nat) (L R : List Nat),
      GC.do_copy_gc fuel s = some (s1, n1) ∧ GC.do_copy_gc fuel s1 = some (s2, n2)
        ∧ GC.do_copy_gc fuel s2 = some (s3, n3)
        ∧ s3.current_top = s3.semi_space0 ∧ s3.WF [] (L ++ T)
        ∧ Aged s T s3 [] L R ∧ n1 = R.length
        ∧ tenure_list s3.mem ((L ++ T).length + 1) s3.tenure_space = L ++ T
        ∧ (L ++ T).Nodup
        ∧ (∀ y ∈ L ++ T, YHeader.gc_generation (YHeader.header1 s3.mem y) = 0) := by
  obtain ⟨s1, n1, N1, L1, hr1, S1⟩ := hwf.scavenged fuel hf
  have hwf1 := S1.wf (by omega)
  have hb1 := S1.heap_break
  have hz1 := S1.semi_space_size
  have hl1 := S1.fewer
  obtain ⟨R, A1, hn1⟩ := S1.aged
  obtain ⟨s2, n2, N2, L2, hr2, S2⟩ := hwf1.scavenged fuel (by omega)
  have hwf2 := S2.wf (by omega)
  have hb2 := S2.heap_break
  have hz2 := S2.semi_space_size
  have hl2 := S2.fewer
  obtain ⟨A2, -⟩ := A1.one_more hwf1 S2
  have hwf2' : s2.WF N2 ((L2 ++ L1) ++ T) := by
    rw [List.append_assoc]; exact hwf2
  obtain ⟨s3, n3, N3, L3, hr3, S3⟩ := hwf2.scavenged fuel (by omega)
  have hwf3 := S3.wf (by omega)
  have S3' : Scavenged s2 N2 ((L2 ++ L1) ++ T) s3 n3 N3 L3 := by
    rw [List.append_assoc]; exact S3
  obtain ⟨A3, -⟩ := A2.one_more hwf2' S3'
  have hlt : ∀ (u : GC) (o : Nat), YHeader.gc_generation (YHeader.header1 u.mem o) < 4 := by
    intro u o
    rw [YHeader.gc_generation_eq]
    exact Nat.mod_lt _ (by norm_num)
  have hnil : N3 = [] := by
    rw [List.eq_nil_iff_forall_not_mem]
    intro y3 hy3
    obtain ⟨x2, a2, b2, -, g3⟩ := S3.source_young y3 hy3
    obtain ⟨x1, a1, b1, -, g2⟩ := S2.source_young x2 (hwf2.reachable_young a2 b2)
    obtain ⟨x, a0, b0, -, g1⟩ := S1.source_young x1 (hwf1.reachable_young a1 b1)
    have g0 := (hwf.young_header x (hwf.reachable_young a0 b0)).2
    have := hlt s3 y3
    omega
  subst hnil
  have e3 : L3 ++ (L2 ++ (L1 ++ T)) = (L3 ++ (L2 ++ L1)) ++ T := by
    simp only [List.append_assoc]
  refine ⟨s1, s2, s3, n1, n2, n3, L3 ++ (L2 ++ L1), R, hr1, hr2, hr3, S3.empty rfl, ?_, A3,
    hn1, ?_, ?_, ?_⟩
  · rw [← e3]; exact hwf3
  · rw [← e3]; exact S3.listed
  · rw [← e3]; exact S3.old_nodup
  · rw [← e3]; exact fun y hy => (S3.old y hy).2

end GC


namespace GC

/-- At the end of a scavenge the remember bit of a tenured object is set exactly when the
object is in the remember set, if it was so at the start and no young object had the bit. -/
theorem Phase.old_bit_after {s0 : GC} {N T : List Nat} {c : Scan} {F : List (Nat × Nat)}
    {D : List (Nat × Nat)} {Lk Q : List Nat}
    (hwf : s0.WF N T) (h : Phase s0 N T c F 0 0 D Lk Q)
    (hyb : ∀ o ∈ N, YHeader.gc_remember (YHeader.header1 s0.mem o) = 0)
    (hob : ∀ t ∈ T, YHeader.gc_remember (YHeader.header1 s0.mem t) = 1 ↔ t ∈ s0.remember_set) :
    ∀ t ∈ Lk ++ T,
      YHeader.gc_remember (YHeader.header1 c.gc.mem t) = 1 ↔ t ∈ c.gc.remember_set := by
  intro t ht
  have hmem : ∀ r, r ∈ c.gc.remember_set ↔ ∃ k, k < c.gc.remember_set.length
      ∧ c.gc.remember_set.getD k 0 = r := by
    intro r
    rw [List.mem_iff_getElem]
    constructor
    · rintro ⟨k, hk, e⟩
      exact ⟨k, hk, by rw [List.getD_eq_getElem _ _ hk]; exact e⟩
    · rintro ⟨k, hk, e⟩
      exact ⟨k, hk, by rw [List.getD_eq_getElem _ _ hk] at e; exact e⟩
  rcases List.mem_append.1 ht with hL | hT
  · -- a promoted copy
    obtain ⟨x, hx, hp, e⟩ := (h.linked t).1 hL
    have hxF := h.done_sub x hx
    have h0 := hyb x.1 (h.inv.keys_young x hxF)
    have hnT : t ∉ T := by rw [← e]; exact h.inv.new_not_old hwf hxF
    have ht0 : t ≠ 0 := by
      have := (h.inv.new_addr hwf x hxF).1
      omega
    rw [← e, h.q_bit x hx hp, h0, e]
    constructor
    · rintro (hq | hq)
      · obtain ⟨j, hj, ej⟩ := List.mem_iff_getElem.1 hq
        refine (hmem t).2 ⟨s0.remember_set.length + j, by rw [h.rs_len]; omega, ?_⟩
        rw [h.rs_new j hj, List.getD_eq_getElem _ _ hj]
        exact ej
      · cases hq
    · intro hr
      obtain ⟨k, hk, ek⟩ := (hmem t).1 hr
      rcases h.entry_after hwf hk with ⟨_, h1 | ⟨h1, h2⟩⟩ | ⟨_, hq, _⟩
      · exact absurd (ek.symm.trans h1) ht0
      · rw [← h1, ek] at h2
        exact absurd h2 hnT
      · rw [ek] at hq
        exact Or.inl hq
  · -- a tenured object
    have ht0 : t ≠ 0 := (hwf.old_outside t hT).1
    have hnot : (∀ j, j < s0.remember_set.length → s0.remember_set.getD j 0 ≠ t ∨
        c.gc.remember_set.getD j 0 = 0) → t ∉ c.gc.remember_set := by
      intro hno hr
      obtain ⟨k, hk, ek⟩ := (hmem t).1 hr
      rcases h.entry_after hwf hk with ⟨hk1, h1 | ⟨h1, h2⟩⟩ | ⟨_, hq, _⟩
      · exact absurd (ek.symm.trans h1) ht0
      · rcases hno k hk1 with h3 | h3
        · exact h3 (h1.symm.trans ek)
        · exact absurd (ek.symm.trans h3) ht0
      · rw [ek] at hq
        exact (h.q_linked hwf hq).2.1 hT
    by_cases hex : ∃ j, j < s0.remember_set.length ∧ s0.remember_set.getD j 0 = t
    · obtain ⟨j, hj, ej⟩ := hex
      have hin : t ∈ s0.remember_set := by
        rw [← ej, List.getD_eq_getElem _ _ hj]
        exact List.getElem_mem _
      have hd := h.rs_done j (Nat.zero_le _) hj
      have h3 := (hd.2 (by rw [ej]; exact ht0)).2.2
      rw [ej] at h3
      by_cases hk : c.gc.remember_set.getD j 0 ≠ 0
      · rw [if_pos hk] at h3
        rw [h3]
        have hjl : j < c.gc.remember_set.length := by rw [h.rs_len]; omega
        have hkeep : c.gc.remember_set.getD j 0 = t := by
          rcases hd.1 with e | e
          · exact e.trans ej
          · exact absurd e hk
        exact ⟨fun _ => (hmem t).2 ⟨j, hjl, hkeep⟩, fun _ => (hob t hT).2 hin⟩
      · rw [if_neg hk] at h3
        rw [h3, YHeader.gc_remember_reset_gc_remember]
        have hk0 : c.gc.remember_set.getD j 0 = 0 := not_not.1 hk
        constructor
        · intro h1; cases h1
        · intro hr
          refine absurd hr (hnot ?_)
          intro j' hj'
          by_cases e : s0.remember_set.getD j' 0 = t
          · have := hwf.remembered_index hj hj' (by rw [ej]; exact ht0) (ej.trans e.symm)
            right
            rw [← this]
            exact hk0
          · exact Or.inl e
    · have hfr := (h.old_fresh t hT (fun j _ hj e => hex ⟨j, hj, e⟩)).2
      rw [hfr]
      have hn0 : t ∉ s0.remember_set := by
        intro hin
        obtain ⟨j, hj, ej⟩ := List.mem_iff_getElem.1 hin
        exact hex ⟨j, hj, by rw [List.getD_eq_getElem _ _ hj]; exact ej⟩
      constructor
      · intro h1
        exact absurd ((hob t hT).1 h1) hn0
      · intro hr
        refine absurd hr (hnot ?_)
        intro j hj
        exact Or.inl (fun e => hex ⟨j, hj, e⟩)

/-- At the end of a scavenge a listed object has the mark of an object listed at the
start. -/
theorem Phase.mark_after {s0 : GC} {N T : List Nat} {c : Scan} {F : List (Nat × Nat)}
    {D : List (Nat × Nat)} {Lk Q : List Nat}
    (hwf : s0.WF N T) (h : Phase s0 N T c F 0 0 D Lk Q) :
    ∀ o ∈ young_copies s0.mem F ++ (Lk ++ T), ∃ o0 ∈ N ++ T,
      YHeader.gc_mark (YHeader.header1 c.gc.mem o) = YHeader.gc_mark (YHeader.header1 s0.mem o0) := by
  intro o ho
  have hpair : ∀ x ∈ F, ∃ o0 ∈ N ++ T, YHeader.gc_mark (YHeader.header1 c.gc.mem x.2)
      = YHeader.gc_mark (YHeader.header1 s0.mem o0) :=
    fun x hx => ⟨x.1, List.mem_append_left _ (h.inv.keys_young x hx), h.inv.new_mark x hx⟩
  rcases List.mem_append.1 ho with h1 | h1
  · obtain ⟨x, hx, _, e⟩ := mem_young_copies.1 h1
    rw [← e]; exact hpair x hx
  · rcases List.mem_append.1 h1 with h2 | h2
    · obtain ⟨x, hx, _, e⟩ := (h.linked o).1 h2
      rw [← e]; exact hpair x (h.done_sub x hx)
    · refine ⟨o, List.mem_append_right _ h2, ?_⟩
      rcases h.old_header_after hwf h2 with e | e
      · rw [e]
      · rw [e, YHeader.gc_mark_reset_gc_remember]

/-- A scavenge keeps the heap sound. -/
theorem Sound.after_scavenge {s : GC} {N T : List Nat} (hs : s.Sound N T) (fuel : Nat)
    (hf : N.length ≤ fuel) (hroom : s.heap_break + 16 * s.semi_space_size ≤ 2 ^ 48) :
    ∃ (t : GC) (n : Nat) (N' L : List Nat), GC.do_copy_gc fuel s = some (t, n)
      ∧ t.Sound N' (L ++ T) ∧ N'.length ≤ N.length
      ∧ t.heap_break ≤ s.heap_break + 8 * s.semi_space_size
      ∧ t.semi_space_size = s.semi_space_size := by
  have hwf := hs.wf
  obtain ⟨c, F, D, Lk, Q, hrun, hph, hpo, hall⟩ := hwf.do_copy_gc fuel hf
  have hwf0 := hwf.count (s.copy_gc_count + 1)
  have hfr := hph.inv.frame
  have hu := (used_le hwf0 F hph.inv.keys_nodup hph.inv.keys_young).1
  have hbrk := hph.inv.brk
  have hal := hph.inv.alloc
  have hlen0 := young_copies_length_le hph.inv
  have hlen : (young_copies s.mem F).length ≤ N.length := hlen0
  have e1 : (s.set_copy_gc_count (s.copy_gc_count + 1)).semi_space_size = s.semi_space_size :=
    rfl
  have e2 : (s.set_copy_gc_count (s.copy_gc_count + 1)).heap_break = s.heap_break := rfl
  have e3 : (s.set_copy_gc_count (s.copy_gc_count + 1)).current_mark_bit
      = s.current_mark_bit := rfl
  have e4 : (s.set_copy_gc_count (s.copy_gc_count + 1)).stack_top = s.stack_top := rfl
  have e5 : (s.set_copy_gc_count (s.copy_gc_count + 1)).shadow_stack = s.shadow_stack := rfl
  rw [e1] at hu
  rw [e2] at hbrk
  have hya := hph.young_after hwf0
  have hmk := hph.mark_after hwf0
  have hob := hph.old_bit_after hwf0 hs.young_bit hs.old_bit
  refine ⟨_, _, young_copies s.mem F, Lk, hrun, ?_, hlen, ?_, ?_⟩
  · constructor
    · have hw := hph.wf_after hwf0 hall hpo hroom
      exact hw
    · obtain ⟨h1, h2⟩ := hs.sized
      unfold Shadow.sized
      simp only [flip_proj]
      rw [hfr.stack_top, hfr.shadow_length, e4, e5]
      exact ⟨h1, h2⟩
    · simp only [flip_proj]
      rw [hfr.current_mark_bit, e3]
      exact hs.mark_value
    · intro o ho
      obtain ⟨o0, ho0, e⟩ := hmk o ho
      simp only [flip_proj]
      rw [e, hfr.current_mark_bit, e3]
      exact hs.unmarked o0 ho0
    · intro o ho
      obtain ⟨x, hx, hp, e⟩ := mem_young_copies.1 ho
      have hh := hph.inv.new_h1 x hx hp
      simp only [flip_proj]
      rw [← e, hh, YHeader.gc_remember_inc]
      exact hs.young_bit x.1 (hph.inv.keys_young x hx)
    · intro t ht
      simp only [flip_proj]
      exact hob t ht
    · intro o ho
      simp only [flip_proj]
      exact (hya.2.1 o ho).2.1
    · simp only [flip_proj]
      rw [hal, hfr.semi_space1]
      omega
    · simp only [flip_proj]
      rw [hal, hfr.semi_space1, hfr.semi_space_size, e1]
      have : (s.set_copy_gc_count (s.copy_gc_count + 1)).semi_space1 = s.semi_space1 := rfl
      have h2 : to_used (s.set_copy_gc_count (s.copy_gc_count + 1)).mem F = to_used s.mem F :=
        rfl
      rw [h2]
      omega
    · simp only [flip_proj]
  · simp only [flip_proj]
    omega
  · simp only [flip_proj, hfr.semi_space_size, e1]

end GC


namespace YHeader

theorem gc_remember_set_gc_mark (h v : Nat) :
    gc_remember (set_gc_mark h v).1 = gc_remember h := by
  rw [gc_remember_eq, gc_remember_eq, set_gc_mark_fst]
  omega

theorem gc_generation_set_gc_remember (h : Nat) :
    gc_generation (set_gc_remember h) = gc_generation h :=
  (kind_congr (kind_set_gc_remember h)).2.2

theorem same_but_marks_generation {h g : Nat} (e : same_but_marks h g) :
    gc_generation g = gc_generation h := by
  have hk : kind g = kind h := e.2
  exact (kind_congr hk).2.2

theorem gc_remember_lt (h : Nat) : gc_remember h < 2 := by
  rw [gc_remember_eq]
  exact Nat.mod_lt _ (by norm_num)

end YHeader

namespace GC

theorem mark_object_mem (mb p : Nat) (st : GC × List Nat × Nat) :
    (mark_object mb p st).1.mem
      = YHeader.put_header1 st.1.mem p (YHeader.set_gc_mark (YHeader.header1 st.1.mem p) mb).1 := by
  unfold mark_object
  simp only
  split <;> rfl

theorem mark_object_remember_set (mb p : Nat) (st : GC × List Nat × Nat) :
    (mark_object mb p st).1.remember_set = st.1.remember_set := by
  unfold mark_object
  simp only
  split <;> rfl

/-- Marking changes no remember bit. -/
theorem mark_object_remember (mb p : Nat) (st : GC × List Nat × Nat) (o : Nat) :
    YHeader.gc_remember (YHeader.header1 (mark_object mb p st).1.mem o)
      = YHeader.gc_remember (YHeader.header1 st.1.mem o) := by
  rw [mark_object_mem]
  by_cases e : o = p
  · subst e
    have : YHeader.header1 (YHeader.put_header1 st.1.mem o
        (YHeader.set_gc_mark (YHeader.header1 st.1.mem o) mb).1) o
        = (YHeader.set_gc_mark (YHeader.header1 st.1.mem o) mb).1 := Mem.write_same _ _ _
    rw [this, YHeader.gc_remember_set_gc_mark]
  · have : YHeader.header1 (YHeader.put_header1 st.1.mem p
        (YHeader.set_gc_mark (YHeader.header1 st.1.mem p) mb).1) o
        = YHeader.header1 st.1.mem o := Mem.write_other _ _ _ _ (by omega)
    rw [this]

/-- The barrier when it enrols the object. -/
theorem w_barrier_fire (s : GC) (obj v : Nat)
    (h : v ≠ Box.null_value ∧ Box.is_ptr v = true
      ∧ YHeader.can_remember (YHeader.header1 s.mem obj) = true
      ∧ YHeader.gc_generation (YHeader.header1 s.mem (Box.to_ptr v)) > 0) :
    (w_barrier s obj v).1
      = (s.set_mem (YHeader.put_header1 s.mem obj
          (YHeader.set_gc_remember (YHeader.header1 s.mem obj)))).set_remember_set
          (s.remember_set ++ [obj]) := by
  unfold w_barrier
  rw [if_pos h]
  rfl

/-- The barrier when it does nothing. -/
theorem w_barrier_skip (s : GC) (obj v : Nat)
    (h : ¬ (v ≠ Box.null_value ∧ Box.is_ptr v = true
      ∧ YHeader.can_remember (YHeader.header1 s.mem obj) = true
      ∧ YHeader.gc_generation (YHeader.header1 s.mem (Box.to_ptr v)) > 0)) :
    (w_barrier s obj v).1 = s := by
  unfold w_barrier
  rw [if_neg h]

/-- Marking an object keeps the invariant of the remember set. -/
theorem Rebuilt.mark_step {s0 : GC} {U : List Nat} {mb : Nat} {st : GC × List Nat × Nat}
    {pend : Nat → Nat → Prop} (hmb : mb < 4) (h : Rebuilt s0 U mb st pend) (p : Nat) :
    Rebuilt s0 U mb (GC.mark_object mb p st) pend := by
  have hmono : ∀ o, YHeader.gc_mark (YHeader.header1 st.1.mem o) = mb →
      YHeader.gc_mark (YHeader.header1 (GC.mark_object mb p st).1.mem o) = mb := by
    intro o ho
    rw [mark_object_mark mb p st hmb]
    split
    · rfl
    · exact ho
  constructor
  · intro o ho
    rw [mark_object_remember, mark_object_remember_set]
    exact h.bits o ho
  · rw [mark_object_remember_set]; exact h.nodup
  · intro r hr
    rw [mark_object_remember_set] at hr
    obtain ⟨h1, h2, h3⟩ := h.entries r hr
    exact ⟨h1, h2, hmono r h3⟩
  · intro o ho hmk hnv hg i hi hptr h0 hpn hy
    rw [mark_object_remember_set]
    rw [mark_object_visited] at hnv
    rw [mark_object_mark mb p st hmb] at hmk
    by_cases hm : YHeader.gc_mark (YHeader.header1 st.1.mem p) = mb
    · rw [if_pos hm] at hnv
      have hmk' : YHeader.gc_mark (YHeader.header1 st.1.mem o) = mb := by
        by_cases e : o = p
        · rw [e]; exact hm
        · rw [if_neg e] at hmk; exact hmk
      exact h.complete o ho hmk' hnv hg i hi hptr h0 hpn hy
    · rw [if_neg hm] at hnv
      have hop : o ≠ p := by
        intro e
        exact hnv (List.mem_append_right _ (by rw [e]; exact List.mem_singleton_self p))
      rw [if_neg hop] at hmk
      exact h.complete o ho hmk (fun hx => hnv (List.mem_append_left _ hx)) hg i hi hptr h0 hpn
        hy

/-- Once the loop has visited field `i` of the object `obj`, the field is not pending. -/
theorem Rebuilt.next_field {s0 : GC} {U : List Nat} {mb : Nat} {st : GC × List Nat × Nat}
    {obj i : Nat} (h : Rebuilt s0 U mb st (fun o j => o = obj ∧ i ≤ j))
    (hdone : YHeader.gc_generation (YHeader.header1 s0.mem obj) = 0 →
      Box.is_ptr (YHeader.get_field s0.mem obj i) = true →
      YHeader.get_field s0.mem obj i ≠ 0 →
      0 < YHeader.gc_generation (YHeader.header1 s0.mem (YHeader.get_field s0.mem obj i)) →
      obj ∈ st.1.remember_set) :
    Rebuilt s0 U mb st (fun o j => o = obj ∧ i + 1 ≤ j) := by
  refine ⟨h.bits, h.nodup, h.entries, ?_⟩
  intro o ho hmk hnv hg j hj hptr h0 hpn hy
  by_cases hp : o = obj ∧ i ≤ j
  · obtain ⟨e, hij⟩ := hp
    have hji : j = i := by
      by_contra hne
      exact hpn ⟨e, by omega⟩
    subst hji
    subst e
    exact hdone hg hptr h0 hy
  · exact h.complete o ho hmk hnv hg j hj hptr h0 hp hy

/-- When no scanned field is pending, nothing is. -/
theorem Rebuilt.settled {s0 : GC} {U : List Nat} {mb : Nat} {st : GC × List Nat × Nat}
    {pend : Nat → Nat → Prop} (h : Rebuilt s0 U mb st pend)
    (hp : ∀ o i, scanned_index s0.mem o i → ¬ pend o i) :
    Rebuilt s0 U mb st (fun _ _ => False) :=
  ⟨h.bits, h.nodup, h.entries,
    fun o ho hmk hnv hg i hi hptr h0 _ hy =>
      h.complete o ho hmk hnv hg i hi hptr h0 (hp o i hi) hy⟩

/-- The write barrier of the mark phase, run on a marked object, keeps the invariant of
the remember set and enrols the object when it has generation 0 and the value points to an
object of another generation. -/
theorem Rebuilt.barrier_step {s0 : GC} {U : List Nat} {mb : Nat} {st : GC × List Nat × Nat}
    {W : List Nat} {pend : Nat → Nat → Prop} (hM : Marking s0 U mb st W)
    (h : Rebuilt s0 U mb st pend) {obj v : Nat} (ho : obj ∈ U)
    (hob : YHeader.gc_mark (YHeader.header1 st.1.mem obj) = mb)
    (hv : v ∈ U) (hv0 : v ≠ 0) (hvp : Box.is_ptr v = true) :
    Rebuilt s0 U mb ((GC.w_barrier st.1 obj v).1, st.2.1, st.2.2) pend
      ∧ (YHeader.gc_generation (YHeader.header1 s0.mem obj) = 0 →
          0 < YHeader.gc_generation (YHeader.header1 s0.mem v) →
          obj ∈ (GC.w_barrier st.1 obj v).1.remember_set) := by
  have hgo : YHeader.gc_generation (YHeader.header1 st.1.mem obj)
      = YHeader.gc_generation (YHeader.header1 s0.mem obj) :=
    YHeader.same_but_marks_generation (hM.mem.head obj ho)
  have hgv : YHeader.gc_generation (YHeader.header1 st.1.mem v)
      = YHeader.gc_generation (YHeader.header1 s0.mem v) :=
    YHeader.same_but_marks_generation (hM.mem.head v hv)
  by_cases hc : v ≠ Box.null_value ∧ Box.is_ptr v = true
      ∧ YHeader.can_remember (YHeader.header1 st.1.mem obj) = true
      ∧ YHeader.gc_generation (YHeader.header1 st.1.mem (Box.to_ptr v)) > 0
  · rw [w_barrier_fire _ _ _ hc]
    obtain ⟨_, _, hcan, _⟩ := hc
    rw [YHeader.can_remember_iff_generation_remember] at hcan
    have hnot : obj ∉ st.1.remember_set := by
      intro hin
      have := (h.bits obj ho).2 hin
      rw [hcan.2] at this
      cases this
    have hself : YHeader.header1 (YHeader.put_header1 st.1.mem obj
        (YHeader.set_gc_remember (YHeader.header1 st.1.mem obj))) obj
        = YHeader.set_gc_remember (YHeader.header1 st.1.mem obj) := Mem.write_same _ _ _
    have hother : ∀ o, o ≠ obj → YHeader.header1 (YHeader.put_header1 st.1.mem obj
        (YHeader.set_gc_remember (YHeader.header1 st.1.mem obj))) o
        = YHeader.header1 st.1.mem o :=
      fun o hne => Mem.write_other _ _ _ _ (by omega)
    refine ⟨?_, fun _ _ => ?_⟩
    · constructor
      · intro o hoU
        simp only [set_remember_set_proj, set_mem_proj]
        by_cases e : o = obj
        · rw [e, hself, YHeader.gc_remember_set_gc_remember]
          exact ⟨fun _ => List.mem_append_right _ (List.mem_singleton_self _), fun _ => rfl⟩
        · rw [hother o e, h.bits o hoU, List.mem_append, List.mem_singleton]
          exact ⟨Or.inl, fun hx => hx.resolve_right e⟩
      · simp only [set_remember_set_proj]
        refine List.Nodup.append h.nodup (List.nodup_singleton _) ?_
        intro a ha hb
        rw [List.mem_singleton] at hb
        exact hnot (hb ▸ ha)
      · intro r hr
        simp only [set_remember_set_proj, set_mem_proj] at hr ⊢
        have hmk : ∀ o, YHeader.gc_mark (YHeader.header1 st.1.mem o) = mb →
            YHeader.gc_mark (YHeader.header1 (YHeader.put_header1 st.1.mem obj
              (YHeader.set_gc_remember (YHeader.header1 st.1.mem obj))) o) = mb := by
          intro o hmo
          by_cases e : o = obj
          · rw [e, hself, YHeader.gc_mark_set_gc_remember]
            exact hob
          · rw [hother o e]; exact hmo
        rcases List.mem_append.1 hr with h1 | h1
        · obtain ⟨a, b, c⟩ := h.entries r h1
          exact ⟨a, b, hmk r c⟩
        · rw [List.mem_singleton] at h1
          rw [h1]
          exact ⟨ho, by rw [← hgo]; exact hcan.1, hmk obj hob⟩
      · intro o hoU hmk hnv hg i hi hptr h0 hpn hy
        simp only [set_remember_set_proj, set_mem_proj] at hmk ⊢
        have hmk' : YHeader.gc_mark (YHeader.header1 st.1.mem o) = mb := by
          by_cases e : o = obj
          · rw [e]; exact hob
          · rw [hother o e] at hmk; exact hmk
        exact List.mem_append_left _ (h.complete o hoU hmk' hnv hg i hi hptr h0 hpn hy)
    · simp only [set_remember_set_proj]
      exact List.mem_append_right _ (List.mem_singleton_self _)
  · rw [w_barrier_skip _ _ _ hc]
    refine ⟨⟨h.bits, h.nodup, h.entries, h.complete⟩, ?_⟩
    intro hg hy
    by_contra hnot
    apply hc
    refine ⟨hv0, hvp, ?_, ?_⟩
    · rw [YHeader.can_remember_iff_generation_remember, hgo]
      refine ⟨hg, ?_⟩
      have h1 := YHeader.gc_remember_lt (YHeader.header1 st.1.mem obj)
      have h2 : YHeader.gc_remember (YHeader.header1 st.1.mem obj) ≠ 1 :=
        fun e => hnot ((h.bits obj ho).1 e)
      omega
    · show YHeader.gc_generation (YHeader.header1 st.1.mem v) > 0
      rw [hgv]; exact hy

end GC

theorem Box.lt_of_is_ptr {v : Nat} (h : Box.is_ptr v = true) : v < 2 ^ 48 := by
  unfold Box.is_ptr at h
  have h1 : v >>> 48 = 0 := by simpa using h
  rw [Nat.shiftRight_eq_div_pow] at h1
  exact (Nat.div_eq_zero_iff (by norm_num)).1 h1

namespace GC

/-- One iteration of the field loop of the mark phase keeps the invariant of the remember
set. -/
theorem Rebuilt.visit_field {s0 : GC} {U : List Nat} {mb : Nat} {st : GC × List Nat × Nat}
    {W : List Nat} (hh : s0.Heap U) (hmb : mb < 4) (hM : Marking s0 U mb st W) {obj i : Nat}
    (h : Rebuilt s0 U mb st (fun o j => o = obj ∧ i ≤ j))
    (ho : obj ∈ U) (hob : YHeader.gc_mark (YHeader.header1 st.1.mem obj) = mb)
    (hi : scanned_index s0.mem obj i) :
    Rebuilt s0 U mb (GC.mark_field mb obj i st) (fun o j => o = obj ∧ i + 1 ≤ j) := by
  have hv : YHeader.get_field st.1.mem obj i = YHeader.get_field s0.mem obj i :=
    (hh.body_kept hM.mem ho).2 i hi.2.2
  unfold GC.mark_field
  simp only
  rw [hv]
  by_cases hptr : Box.is_ptr (YHeader.get_field s0.mem obj i) = true
  · rw [if_pos hptr]
    by_cases h0 : Box.to_ptr (YHeader.get_field s0.mem obj i) = 0
    · rw [if_neg (by simpa using h0)]
      exact h.next_field (fun _ _ hne => absurd h0 hne)
    · rw [if_pos h0]
      have hvU : YHeader.get_field s0.mem obj i ∈ U := by
        rcases hh.fields_closed obj ho i hi.2.2 hi.1 hi.2.1 hptr with e | e
        · exact absurd e h0
        · exact e
      have hbox : Box.to_boxed_ptr (Box.to_ptr (YHeader.get_field s0.mem obj i))
          = YHeader.get_field s0.mem obj i :=
        Box.to_boxed_ptr_of_lt _ (Box.lt_of_is_ptr hptr)
      rw [hbox]
      obtain ⟨b1, b2⟩ := h.barrier_step hM ho hob hvU h0 hptr
      have b3 := b1.mark_step hmb (Box.to_ptr (YHeader.get_field s0.mem obj i))
      refine b3.next_field ?_
      intro hg _ _ hy
      rw [mark_object_remember_set]
      exact b2 hg hy
  · rw [if_neg hptr]
    exact h.next_field (fun _ hp => absurd hp hptr)

/-- The field loop of the mark phase keeps the invariant of the remember set. -/
theorem Rebuilt.visit_fields {s0 : GC} {U : List Nat} {mb : Nat} (hh : s0.Heap U)
    (hmb : mb < 4) {obj : Nat} (ho : obj ∈ U)
    (hb : YHeader.has_boxed_value (YHeader.header1 s0.mem obj) = true) :
    ∀ (k i : Nat) (st : GC × List Nat × Nat) (W : List Nat), Marking s0 U mb st W →
      Coloured s0 U mb st (fun o j => o = obj ∧ i ≤ j) →
      Rebuilt s0 U mb st (fun o j => o = obj ∧ i ≤ j) →
      YHeader.gc_mark (YHeader.header1 st.1.mem obj) = mb →
      YHeader.unbox_size (YHeader.header1 s0.mem obj) ≤ i →
      i + k ≤ YHeader.field_size (YHeader.header2 s0.mem obj) →
      Rebuilt s0 U mb (GC.mark_fields mb obj k i st) (fun o j => o = obj ∧ i + k ≤ j) := by
  intro k
  induction k with
  | zero =>
    intro i st W _ _ h _ _ _
    exact h
  | succ k ih =>
    intro i st W hM hC h hob h1 h2
    have hi : scanned_index s0.mem obj i := ⟨hb, h1, by omega⟩
    obtain ⟨W1, g1, _⟩ := hM.mark_field hh hmb ho hi
    obtain ⟨c1, c2⟩ := hC.field_step hh hmb hM ho hob hi
    have r1 := h.visit_field hh hmb hM ho hob hi
    have r2 := ih (i + 1) _ W1 g1 c1 r1 (c2 obj hob) (by omega) (by omega)
    rw [GC.mark_fields]
    have e : i + (k + 1) = i + 1 + k := by omega
    rw [e]
    exact r2

/-- The root loop of the mark phase keeps the invariant of the remember set. -/
theorem Rebuilt.visit_roots {s0 : GC} {U : List Nat} {mb : Nat} (hmb : mb < 4) :
    ∀ (k : Nat) (st : GC × List Nat × Nat),
      Rebuilt s0 U mb st (fun _ _ => False) →
      Rebuilt s0 U mb (GC.mark_roots mb k st) (fun _ _ => False) := by
  intro k
  induction k with
  | zero =>
    intro st h
    exact h
  | succ k ih =>
    intro st h
    rw [GC.mark_roots]
    split
    · exact ih _ (h.mark_step hmb _)
    · exact ih _ h

/-- The loop over `visited` keeps the invariant of the remember set, and no object is
pending when it returns. -/
theorem Rebuilt.drain {s0 : GC} {U : List Nat} {mb : Nat} (hh : s0.Heap U)
    (hmb : mb < 4) :
    ∀ (fuel : Nat) (st : GC × List Nat × Nat) (W : List Nat) (r : GC × Nat),
      Marking s0 U mb st W → Coloured s0 U mb st (fun _ _ => False) →
      Rebuilt s0 U mb st (fun _ _ => False) →
      GC.mark_loop mb fuel st = some r →
      Rebuilt s0 U mb (r.1, [], r.2) (fun _ _ => False) := by
  intro fuel
  induction fuel with
  | zero =>
    intro st W r hM h hR hrun
    obtain ⟨s, visited, live⟩ := st
    cases hl : visited.getLast? with
    | none =>
      have hv : visited = [] := List.getLast?_eq_none_iff.1 hl
      subst hv
      rw [mark_loop_done mb 0 s [] live rfl] at hrun
      cases hrun
      exact hR
    | some obj =>
      rw [GC.mark_loop] at hrun
      simp only [hl] at hrun
      cases hrun
  | succ fuel ih =>
    intro st W r hM h hR hrun
    obtain ⟨s, visited, live⟩ := st
    cases hl : visited.getLast? with
    | none =>
      have hv : visited = [] := List.getLast?_eq_none_iff.1 hl
      subst hv
      rw [mark_loop_done mb _ s [] live rfl] at hrun
      cases hrun
      exact hR
    | some obj =>
      have hsplit : visited = visited.dropLast ++ [obj] :=
        (List.dropLast_append_getLast? _ hl).symm
      have hoV : obj ∈ visited := List.mem_of_getLast?_eq_some hl
      have hoU : obj ∈ U := hM.visited obj hoV
      have hob : YHeader.gc_mark (YHeader.header1 s.mem obj) = mb := h.grey obj hoV
      have hnd : (visited.dropLast ++ [obj]).Nodup := by
        rw [← hsplit]; exact h.nodup
      have hpop : Marking s0 U mb (s, visited.dropLast, live) W :=
        ⟨hM.mem, hM.kept, hM.tenure_space, hM.tenure_space_size, hM.freed,
          fun p hp => hM.visited p (List.mem_of_mem_dropLast hp), hM.todo⟩
      have hcpop : Coloured s0 U mb (s, visited.dropLast, live)
          (fun o j => o = obj ∧ YHeader.unbox_size (YHeader.header1 s0.mem obj) ≤ j) := by
        refine ⟨h.sound, fun o ho => h.grey o (List.mem_of_mem_dropLast ho),
          (List.nodup_append.1 hnd).1, ?_⟩
        intro o ho hmk hnv j hj hptr h0 hpn
        have hne : o ≠ obj := by
          intro e
          rw [e] at hj
          exact hpn ⟨e, hj.2.1⟩
        refine h.black o ho hmk ?_ j hj hptr h0 (fun x => x)
        intro hx
        simp only at hx
        rw [hsplit] at hx
        rcases List.mem_append.1 hx with h1 | h1
        · exact hnv h1
        · exact hne (List.mem_singleton.1 h1)
      have hrpop : Rebuilt s0 U mb (s, visited.dropLast, live)
          (fun o j => o = obj ∧ YHeader.unbox_size (YHeader.header1 s0.mem obj) ≤ j) := by
        refine ⟨hR.bits, hR.nodup, hR.entries, ?_⟩
        intro o ho hmk hnv hg j hj hptr h0 hpn hy
        have hne : o ≠ obj := by
          intro e
          rw [e] at hj
          exact hpn ⟨e, hj.2.1⟩
        refine hR.complete o ho hmk ?_ hg j hj hptr h0 (fun x => x) hy
        intro hx
        simp only at hx
        rw [hsplit] at hx
        rcases List.mem_append.1 hx with h1 | h1
        · exact hnv h1
        · exact hne (List.mem_singleton.1 h1)
      obtain ⟨e1, e2, _⟩ := YHeader.same_but_marks_shape (hM.mem.head obj hoU)
      have e3 := (hh.body_kept hM.mem hoU).1
      rw [mark_loop_succ mb fuel s visited live obj hl] at hrun
      simp only at e1 e2 e3
      rw [e1, e2, e3] at hrun
      by_cases hb : YHeader.has_boxed_value (YHeader.header1 s0.mem obj) = true
      · rw [if_pos hb] at hrun
        by_cases hle : YHeader.unbox_size (YHeader.header1 s0.mem obj)
            ≤ YHeader.field_size (YHeader.header2 s0.mem obj)
        · obtain ⟨W1, g1, _⟩ := Marking.mark_fields hh hmb hoU hb
            (YHeader.field_size (YHeader.header2 s0.mem obj)
              - YHeader.unbox_size (YHeader.header1 s0.mem obj))
            (YHeader.unbox_size (YHeader.header1 s0.mem obj)) _ W hpop (Nat.le_refl _)
            (by omega)
          obtain ⟨c1, c2⟩ := Coloured.fields_loop hh hmb hoU hb
            (YHeader.field_size (YHeader.header2 s0.mem obj)
              - YHeader.unbox_size (YHeader.header1 s0.mem obj))
            (YHeader.unbox_size (YHeader.header1 s0.mem obj)) _ W hpop hcpop hob
            (Nat.le_refl _) (by omega)
          have r1 := Rebuilt.visit_fields hh hmb hoU hb
            (YHeader.field_size (YHeader.header2 s0.mem obj)
              - YHeader.unbox_size (YHeader.header1 s0.mem obj))
            (YHeader.unbox_size (YHeader.header1 s0.mem obj)) _ W hpop hcpop hrpop hob
            (Nat.le_refl _) (by omega)
          have c3 := c1.finish (by
            intro o j hj hp
            obtain ⟨e, hp2⟩ := hp
            rw [e] at hj
            have := hj.2.2
            omega)
          have r3 := r1.settled (by
            intro o j hj hp
            obtain ⟨e, hp2⟩ := hp
            rw [e] at hj
            have := hj.2.2
            omega)
          exact ih _ W1 r g1 c3 r3 hrun
        · rw [Nat.sub_eq_zero_of_le (by omega), GC.mark_fields] at hrun
          have c3 := hcpop.finish (by
            intro o j hj hp
            obtain ⟨e, hp2⟩ := hp
            rw [e] at hj
            have := hj.2.2
            omega)
          have r3 := hrpop.settled (by
            intro o j hj hp
            obtain ⟨e, hp2⟩ := hp
            rw [e] at hj
            have := hj.2.2
            omega)
          exact ih (s, visited.dropLast, live) W r hpop c3 r3 hrun
      · rw [if_neg hb] at hrun
        have c3 := hcpop.finish (by
          intro o j hj hp
          obtain ⟨e, _⟩ := hp
          rw [e] at hj
          exact hb hj.1)
        have r3 := hrpop.settled (by
          intro o j hj hp
          obtain ⟨e, _⟩ := hp
          rw [e] at hj
          exact hb hj.1)
        exact ih (s, visited.dropLast, live) W r hpop c3 r3 hrun

end GC


namespace GC

/-- After the loop that resets the remember bits, an object whose bit was set only if it is
a non-null entry below `k` has the bit clear. -/
theorem reset_remember_loop_remember :
    ∀ (k : Nat) (s : GC) (o : Nat),
      (YHeader.gc_remember (YHeader.header1 s.mem o) = 1 →
        o ≠ 0 ∧ ∃ i, i < k ∧ s.remember_set.getD i 0 = o) →
      YHeader.gc_remember (YHeader.header1 (reset_remember_loop k s).mem o) = 0 := by
  intro k
  induction k with
  | zero =>
    intro s o h
    have h1 := YHeader.gc_remember_lt (YHeader.header1 s.mem o)
    have h2 : YHeader.gc_remember (YHeader.header1 s.mem o) ≠ 1 := by
      intro e
      obtain ⟨_, i, hi, _⟩ := h e
      omega
    show YHeader.gc_remember (YHeader.header1 s.mem o) = 0
    omega
  | succ k ih =>
    intro s o h
    rw [reset_remember_loop]
    split
    · rename_i hobj
      apply ih
      simp only [set_mem_proj]
      intro hb
      by_cases e : o = s.remember_set.getD k 0
      · exfalso
        rw [← e] at hb
        have : YHeader.header1 (YHeader.put_header1 s.mem o
            (YHeader.reset_gc_remember (YHeader.header1 s.mem o))) o
            = YHeader.reset_gc_remember (YHeader.header1 s.mem o) := Mem.write_same _ _ _
        rw [this, YHeader.gc_remember_reset_gc_remember] at hb
        cases hb
      · have : YHeader.header1 (YHeader.put_header1 s.mem (s.remember_set.getD k 0)
            (YHeader.reset_gc_remember (YHeader.header1 s.mem (s.remember_set.getD k 0)))) o
            = YHeader.header1 s.mem o := Mem.write_other _ _ _ _ (by omega)
        rw [this] at hb
        obtain ⟨h0, i, hi, hio⟩ := h hb
        refine ⟨h0, i, ?_, hio⟩
        by_contra hlt
        have : i = k := by omega
        rw [this] at hio
        exact e hio.symm
    · rename_i hobj
      apply ih
      intro hb
      obtain ⟨h0, i, hi, hio⟩ := h hb
      refine ⟨h0, i, ?_, hio⟩
      by_contra hlt
      have : i = k := by omega
      rw [this] at hio
      simp only [ne_eq, Decidable.not_not] at hobj
      exact h0 (hio ▸ hobj)

/-- The inner loop of the sweep keeps the tenure size a 64-bit word. -/
theorem sweep_inner_size (mb : Nat) :
    ∀ (fuel : Nat) (s : GC) (next : Nat) (r : GC × Nat),
      sweep_inner mb fuel (s, next) = some r → s.tenure_space_size < 2 ^ 64 →
      r.1.tenure_space_size < 2 ^ 64 := by
  intro fuel
  induction fuel with
  | zero =>
    intro s next r h hs
    by_cases hc : next ≠ 0 ∧ YHeader.gc_mark (YHeader.header1 s.mem next) ≠ mb
    · rw [sweep_inner] at h
      simp only [hc, ne_eq, not_false_eq_true, and_self, if_true] at h
      cases h
    · rw [sweep_inner_stop mb 0 s next hc] at h
      cases h
      exact hs
  | succ fuel ih =>
    intro s next r h hs
    by_cases hc : next ≠ 0 ∧ YHeader.gc_mark (YHeader.header1 s.mem next) ≠ mb
    · rw [sweep_inner_succ mb fuel s next hc] at h
      refine ih _ _ r h ?_
      simp only [set_freed_proj, set_tenure_space_size_proj]
      exact Nat.mod_lt _ (by norm_num)
    · rw [sweep_inner_stop mb _ s next hc] at h
      cases h
      exact hs

theorem relink_size (s1 : GC) (root_h1 : Nat) (ptr : Option Nat) (next0 next : Nat) :
    (relink s1 root_h1 ptr next0 next).1.tenure_space_size = s1.tenure_space_size := by
  unfold relink
  split
  · cases ptr <;> rfl
  · rfl

/-- The outer loop of the sweep keeps the tenure size a 64-bit word. -/
theorem sweep_outer_size (mb ifuel : Nat) :
    ∀ (fuel : Nat) (s : GC) (root_h1 : Nat) (ptr : Option Nat) (r : GC × Nat),
      sweep_outer mb ifuel fuel (s, root_h1, ptr) = some r → s.tenure_space_size < 2 ^ 64 →
      r.1.tenure_space_size < 2 ^ 64 := by
  intro fuel
  induction fuel with
  | zero =>
    intro s root_h1 ptr r h _
    simp only [sweep_outer] at h
    cases h
  | succ fuel ih =>
    intro s root_h1 ptr r h hs
    cases e : sweep_inner mb ifuel (s, YHeader.next_object (s.link_word root_h1 ptr)) with
    | none =>
      unfold link_word at e
      cases ptr with
      | none =>
        simp only at e
        simp only [sweep_outer, e] at h
        cases h
      | some q =>
        simp only at e
        simp only [sweep_outer, e] at h
        cases h
    | some r1 =>
      obtain ⟨s1, next⟩ := r1
      have h1 := sweep_inner_size mb ifuel s _ _ e hs
      rw [sweep_outer_succ mb ifuel fuel s root_h1 ptr s1 next e] at h
      split at h
      · cases h
        rw [relink_size]
        exact h1
      · refine ih _ _ _ r h ?_
        rw [relink_size]
        exact h1

/-- The sweep keeps the tenure size a 64-bit word. -/
theorem sweep_size (mb fuel : Nat) (s t : GC) (h : GC.sweep mb fuel s = some t)
    (hs : s.tenure_space_size < 2 ^ 64) : t.tenure_space_size < 2 ^ 64 := by
  unfold GC.sweep at h
  cases e : sweep_outer mb fuel fuel
      (s, YHeader.set_next_object (YHeader.init_header1 0 0) s.tenure_space, none) with
  | none =>
    rw [e] at h
    cases h
  | some r =>
    rw [e] at h
    cases h
    exact sweep_outer_size mb fuel fuel s _ none r e hs

/-- The sweep keeps bits 48 to 63 of the first header word of the nodes it keeps. -/
theorem sweep_bits (s : GC) (L : List Nat) (mb fuel : Nat) (hL : s.Listed L)
    (hf : L.length + 1 ≤ fuel) (t : GC) (ht : GC.sweep mb fuel s = some t) :
    ∀ x ∈ L.filter (fun x => decide (YHeader.gc_mark (YHeader.header1 s.mem x) = mb)),
      YHeader.header1 t.mem x / 2 ^ 48 % 2 ^ 16 = YHeader.header1 s.mem x / 2 ^ 48 % 2 ^ 16 := by
  have hroot : YHeader.next_object
      (s.link_word (YHeader.set_next_object (YHeader.init_header1 0 0) s.tenure_space) none)
      = s.tenure_space := YHeader.next_object_set_next_object _ _ hL.head
  obtain ⟨s', r', e', c1, c2, c3, c4, c5, c6, c7, c8, c9, c10⟩ :=
    sweep_outer_spec mb fuel (L.length + 1) L fuel s
      (YHeader.set_next_object (YHeader.init_header1 0 0) s.tenure_space) none
      (by omega) (by rw [hroot]; exact hL.chain) hL.nonnull hL.nodup
      (fun q hq => by cases hq)
      (fun a ha b hb => hL.apart a (by simpa using ha) b (by simpa using hb))
      (by omega) hf
  unfold GC.sweep at ht
  rw [e'] at ht
  cases ht
  intro x hx
  simp only [set_tenure_space_proj]
  exact c3 x hx

/-- Writing first header words of objects leaves the second header word and the fields of
every object as they were. -/
theorem Heap.body_same {s : GC} {U : List Nat} (h : s.Heap U) {m : Mem}
    (hm : ∀ a, (∀ o ∈ U, a ≠ o + 8) → m a = s.mem a) {o : Nat} (ho : o ∈ U) :
    YHeader.header2 m o = YHeader.header2 s.mem o
      ∧ (∀ i, i < YHeader.field_size (YHeader.header2 s.mem o) →
          YHeader.get_field m o i = YHeader.get_field s.mem o i) := by
  have hbo := object_bytes_pos s.mem o
  constructor
  · refine hm _ (fun p hp => ?_)
    by_cases e : o = p
    · omega
    · have := h.distinct_apart ho hp e
      have := object_bytes_pos s.mem p
      omega
  · intro i hi
    unfold YHeader.get_field
    have h32 := field_size_lt (YHeader.header2 s.mem o)
    rw [YHeader.field_addr_eq o i (by omega)]
    refine hm _ (fun p hp => ?_)
    have hb : object_bytes s.mem o = 8 * (YHeader.field_size (YHeader.header2 s.mem o) + 3) :=
      rfl
    by_cases e : o = p
    · omega
    · have := h.distinct_apart ho hp e
      have := object_bytes_pos s.mem p
      omega

/-- A young object lies in the nursery. -/
theorem WF.young_inside {s : GC} {N T : List Nat} (h : s.WF N T) {o : Nat} (ho : o ∈ N) :
    s.nursery_space ≤ o ∧ o + object_bytes s.mem o ≤ s.nursery_space_end := by
  have h1 := h.young_in_space o ho
  have h2 := h.nursery_end
  rcases h.semi_spaces with ⟨a, b⟩ | ⟨a, b⟩ <;> omega

/-- A young object is not a tenured object. -/
theorem WF.young_not_old {s : GC} {N T : List Nat} (h : s.WF N T) {o : Nat} (ho : o ∈ N)
    (ht : o ∈ T) : False := by
  have h1 := h.young_header o ho
  have h2 := h.old_header o ht
  omega

/-- The objects of a well-formed state make a heap for the major collection. -/
theorem WF.heap {s : GC} {N T : List Nat} (h : s.WF N T) (hmb : s.current_mark_bit < 4) :
    s.Heap (N ++ T) := by
  constructor
  · rw [List.pairwise_append]
    refine ⟨h.young_sorted.imp (fun h => Or.inl h), h.old_apart, ?_⟩
    intro a ha b hb
    have h1 := h.young_inside ha
    have h2 := (h.old_outside b hb).2.2
    have := object_bytes_pos s.mem a
    have := object_bytes_pos s.mem b
    omega
  · intro i hi
    rcases h.roots_closed i hi with e | e | e
    · exact Or.inl e
    · exact Or.inr (List.mem_append_left _ e)
    · exact Or.inr (List.mem_append_right _ e)
  · intro o ho i hi hb hu hp
    rcases h.fields_closed o ho i hi hb hu hp with e | e | e
    · exact Or.inl e
    · exact Or.inr (List.mem_append_left _ e)
    · exact Or.inr (List.mem_append_right _ e)
  · intro r hr
    rcases h.remembered_old r hr with e | e
    · exact Or.inl e
    · exact Or.inr (List.mem_append_right _ e)
  · exact hmb

/-- The tenured objects of a well-formed state are its tenure list. -/
theorem WF.listed {s : GC} {N T : List Nat} (h : s.WF N T) : s.Listed T := by
  obtain ⟨hc, hn⟩ := chain_of_tenure_list T s.tenure_space h.tenure_chain
  have hnd : T.Nodup := by
    refine h.old_apart.imp ?_
    intro a b hab e
    have := object_bytes_pos s.mem a
    have := object_bytes_pos s.mem b
    subst e
    omega
  constructor
  · cases T with
    | nil =>
      have : s.tenure_space = 0 := hc
      rw [this]
      norm_num
    | cons a T =>
      have : s.tenure_space = a := hc.1
      rw [this]
      have h1 := (h.old_outside a (List.mem_cons_self a T)).2.1
      have h2 := h.heap_room
      have := object_bytes_pos s.mem a
      omega
  · exact hc
  · exact hn
  · exact hnd
  · intro a ha b hb
    by_cases e : a = b
    · omega
    · have := h.old_distinct ha hb e
      have := object_bytes_pos s.mem a
      have := object_bytes_pos s.mem b
      omega

end GC

namespace YHeader

/-- Two header words with the same bits 48 to 63 have the same flags. -/
theorem high_bits_shape {h g : Nat} (e : g / 2 ^ 48 % 2 ^ 16 = h / 2 ^ 48 % 2 ^ 16) :
    gc_generation g = gc_generation h ∧ gc_remember g = gc_remember h
      ∧ gc_mark g = gc_mark h ∧ has_boxed_value g = has_boxed_value h
      ∧ unbox_size g = unbox_size h := by
  refine ⟨?_, ?_, ?_, ?_, ?_⟩
  · rw [gc_generation_eq, gc_generation_eq]; omega
  · rw [gc_remember_eq, gc_remember_eq]; omega
  · rw [gc_mark_eq, gc_mark_eq]; omega
  · rw [has_boxed_value_eq, has_boxed_value_eq]
    have : g / 2 ^ 62 % 2 = h / 2 ^ 62 % 2 := by omega
    rw [this]
  · rw [unbox_size_eq, unbox_size_eq]; omega

theorem same_but_marks_forward {h g : Nat} (e : same_but_marks h g) :
    forward_pointer g = forward_pointer h := by
  obtain ⟨e1, _⟩ := e
  rw [forward_pointer_eq, forward_pointer_eq]; omega

end YHeader

theorem mem_getD_of_mem {L : List Nat} {o : Nat} (h : o ∈ L) :
    ∃ i, i < L.length ∧ L.getD i 0 = o := by
  obtain ⟨i, hi, e⟩ := List.mem_iff_getElem.1 h
  refine ⟨i, hi, ?_⟩
  rw [List.getD_eq_getElem _ _ hi]
  exact e

theorem xor_two_ne {mb : Nat} (h : mb = 1 ∨ mb = 3) :
    (mb ^^^ 2 = 1 ∨ mb ^^^ 2 = 3) ∧ mb ≠ mb ^^^ 2 := by
  rcases h with e | e <;> subst e <;> decide

namespace GC

/-- The mark phase of a major collection run in a sound state, with fuel for the objects,
ends; it writes mark and remember bits only, marks the roots, and leaves the tri-colour
invariant and the invariant of the remember set with nothing pending. -/
theorem Sound.mark_phase {s : GC} {N T : List Nat} (hs : s.Sound N T) (fuel : Nat)
    (hf : (N ++ T).length + 1 ≤ fuel) :
    ∃ (s2 : GC) (live : Nat),
      mark_loop
          ((reset_remember_loop s.remember_set.length
            (s.set_mark_sweep_gc_count (s.mark_sweep_gc_count + 1))).set_remember_set
            []).current_mark_bit fuel
          (mark_roots
            ((reset_remember_loop s.remember_set.length
              (s.set_mark_sweep_gc_count (s.mark_sweep_gc_count + 1))).set_remember_set
              []).current_mark_bit
            (((reset_remember_loop s.remember_set.length
              (s.set_mark_sweep_gc_count (s.mark_sweep_gc_count + 1))).set_remember_set
              []).stack_top + 1).toNat
            ((reset_remember_loop s.remember_set.length
              (s.set_mark_sweep_gc_count (s.mark_sweep_gc_count + 1))).set_remember_set [],
              [], 0)) = some (s2, live)
        ∧ ((reset_remember_loop s.remember_set.length
              (s.set_mark_sweep_gc_count (s.mark_sweep_gc_count + 1))).set_remember_set
              []).current_mark_bit = s.current_mark_bit
        ∧ marks_only (N ++ T) s.mem s2.mem
        ∧ Kept (s.set_mark_sweep_gc_count (s.mark_sweep_gc_count + 1)) s2
        ∧ s2.tenure_space = s.tenure_space
        ∧ s2.tenure_space_size = s.tenure_space_size
        ∧ s2.freed = s.freed
        ∧ Coloured (s.set_mark_sweep_gc_count (s.mark_sweep_gc_count + 1)) (N ++ T)
            s.current_mark_bit (s2, [], live) (fun _ _ => False)
        ∧ Rebuilt (s.set_mark_sweep_gc_count (s.mark_sweep_gc_count + 1)) (N ++ T)
            s.current_mark_bit (s2, [], live) (fun _ _ => False)
        ∧ (∀ j, j < (s.stack_top + 1).toNat → s.shadow_stack.getD j 0 ≠ 0 →
            YHeader.gc_mark (YHeader.header1 s2.mem (s.shadow_stack.getD j 0))
              = s.current_mark_bit) := by
  have hmb : s.current_mark_bit < 4 := by
    rcases hs.mark_value with e | e <;> omega
  have hh : s.Heap (N ++ T) := hs.wf.heap hmb
  have hun := hs.unmarked
  have hh0 := hh.counted (s.mark_sweep_gc_count + 1)
  have hr : Marking (s.set_mark_sweep_gc_count (s.mark_sweep_gc_count + 1)) (N ++ T)
      s.current_mark_bit
      (reset_remember_loop s.remember_set.length
        (s.set_mark_sweep_gc_count (s.mark_sweep_gc_count + 1)), [], 0) (N ++ T)
      ∧ (reset_remember_loop s.remember_set.length
        (s.set_mark_sweep_gc_count (s.mark_sweep_gc_count + 1))).remember_set
        = (s.set_mark_sweep_gc_count (s.mark_sweep_gc_count + 1)).remember_set :=
    Marking.reset_remember_loop hh0.remembered _ _ (Marking.initial _ (N ++ T) _) rfl
      (Nat.le_refl _)
  have hM1 : Marking (s.set_mark_sweep_gc_count (s.mark_sweep_gc_count + 1)) (N ++ T)
      s.current_mark_bit
      ((reset_remember_loop s.remember_set.length
        (s.set_mark_sweep_gc_count (s.mark_sweep_gc_count + 1))).set_remember_set [], [], 0)
      (N ++ T) :=
    hr.1.of_mem _ _ _ (N ++ T) (by simpa using marks_only_refl (N ++ T) _)
      (by constructor <;> simp) (by simp) (by simp) (by simp) (fun p hp => by cases hp)
      (fun o ho _ => ho)
  have hmk1 : ∀ o, YHeader.gc_mark (YHeader.header1
      ((reset_remember_loop s.remember_set.length
        (s.set_mark_sweep_gc_count (s.mark_sweep_gc_count + 1))).set_remember_set []).mem o)
      = YHeader.gc_mark (YHeader.header1 s.mem o) := by
    intro o
    simp only [set_remember_set_proj]
    rw [reset_remember_loop_mark]
    rfl
  have hbit1 : ∀ o ∈ N ++ T, YHeader.gc_remember (YHeader.header1
      ((reset_remember_loop s.remember_set.length
        (s.set_mark_sweep_gc_count (s.mark_sweep_gc_count + 1))).set_remember_set []).mem o)
      = 0 := by
    intro o ho
    simp only [set_remember_set_proj]
    apply reset_remember_loop_remember
    intro hb
    have hb2 : YHeader.gc_remember (YHeader.header1 s.mem o) = 1 := hb
    rcases List.mem_append.1 ho with h1 | h1
    · rw [hs.young_bit o h1] at hb2
      cases hb2
    · refine ⟨(hs.wf.old_outside o h1).1, ?_⟩
      exact mem_getD_of_mem ((hs.old_bit o h1).1 hb2)
  have hC1 : Coloured (s.set_mark_sweep_gc_count (s.mark_sweep_gc_count + 1)) (N ++ T)
      s.current_mark_bit
      ((reset_remember_loop s.remember_set.length
        (s.set_mark_sweep_gc_count (s.mark_sweep_gc_count + 1))).set_remember_set [], [], 0)
      (fun _ _ => False) := by
    constructor
    · intro o ho hm
      rw [hmk1] at hm
      exact absurd hm (hun o ho)
    · intro o ho
      cases ho
    · exact List.nodup_nil
    · intro o ho hm
      rw [hmk1] at hm
      exact absurd hm (hun o ho)
  have hR1 : Rebuilt (s.set_mark_sweep_gc_count (s.mark_sweep_gc_count + 1)) (N ++ T)
      s.current_mark_bit
      ((reset_remember_loop s.remember_set.length
        (s.set_mark_sweep_gc_count (s.mark_sweep_gc_count + 1))).set_remember_set [], [], 0)
      (fun _ _ => False) := by
    constructor
    · intro o ho
      rw [hbit1 o ho]
      simp
    · simp
    · intro r hr
      simp at hr
    · intro o ho hm
      rw [hmk1] at hm
      exact absurd hm (hun o ho)
  generalize (reset_remember_loop s.remember_set.length
    (s.set_mark_sweep_gc_count (s.mark_sweep_gc_count + 1))).set_remember_set [] = s1
    at hM1 hC1 hR1 ⊢
  have hmb1 : s1.current_mark_bit = s.current_mark_bit := by
    have := hM1.kept.current_mark_bit
    simpa using this
  have hst1 : s1.stack_top = s.stack_top := by
    have := hM1.kept.stack_top
    simpa using this
  rw [hmb1, hst1]
  obtain ⟨W1, g1, g2⟩ := Marking.mark_roots hh0 hmb (s.stack_top + 1).toNat (s1, [], 0)
    (N ++ T) hM1 (Nat.le_refl _)
  obtain ⟨k1, _, k3⟩ := Coloured.roots_loop hh0 hmb (s.stack_top + 1).toNat (s1, [], 0)
    (N ++ T) hM1 hC1 (Nat.le_refl _)
  have r1 := Rebuilt.visit_roots hmb (s.stack_top + 1).toNat (s1, [], 0) hR1
  simp only [List.length_nil, Nat.add_zero] at g2
  obtain ⟨s2, live, W2, e2, g3⟩ := Marking.mark_loop hh0 hmb fuel _ W1 g1 (by omega)
  obtain ⟨k4, k5⟩ := Coloured.visited_loop hh0 hmb fuel _ W1 (s2, live) g1 k1 e2
  have r4 := Rebuilt.drain hh0 hmb fuel _ W1 (s2, live) g1 k1 r1 e2
  refine ⟨s2, live, e2, rfl, ?_, g3.kept, ?_, ?_, ?_, k4, r4, ?_⟩
  · have := g3.mem
    simpa using this
  · have := g3.tenure_space
    simpa using this
  · have := g3.tenure_space_size
    simpa using this
  · have := g3.freed
    simpa using this
  · intro j hj hne
    exact k5 _ (k3 j hj hne)

end GC

namespace GC

/-- A major collection run in a sound state, with fuel for the objects, ends in a sound
state: its young objects are the reachable young objects, its tenure list is made of the
reachable tenured objects, in their order, and the other tenured objects are freed. -/
theorem Sound.major {s : GC} {N T : List Nat} (hs : s.Sound N T) (fuel : Nat)
    (hf : (N ++ T).length + 1 ≤ fuel) :
    ∃ (t : GC) (n : Nat) (N' L' D : List Nat), GC.do_mark_sweep_gc fuel s = some (t, n)
      ∧ t.Sound N' L'
      ∧ N'.Sublist N ∧ L'.Sublist T ∧ D.Sublist T
      ∧ (∀ x, x ∈ N' ↔ x ∈ N ∧ s.mark_reachable x)
      ∧ (∀ x, x ∈ L' ↔ x ∈ T ∧ s.mark_reachable x)
      ∧ (∀ x, x ∈ D ↔ x ∈ T ∧ ¬ s.mark_reachable x)
      ∧ t.freed = s.freed ++ D
      ∧ t.heap_break = s.heap_break ∧ t.semi_space_size = s.semi_space_size
      ∧ t.stack_top = s.stack_top ∧ t.shadow_stack = s.shadow_stack
      ∧ t.current_top = s.current_top ∧ t.current_end = s.current_end := by
  have hmbv := hs.mark_value
  have hmb : s.current_mark_bit < 4 := by
    rcases hs.mark_value with e | e <;> omega
  have hwf := hs.wf
  have hh : s.Heap (N ++ T) := hs.wf.heap hmb
  have hL : s.Listed T := hs.wf.listed
  have hLU : ∀ n ∈ T, n ∈ N ++ T := fun n hn => List.mem_append_right _ hn
  have hNU : ∀ n ∈ N, n ∈ N ++ T := fun n hn => List.mem_append_left _ hn
  obtain ⟨s2, live, e2, emb, hm2, K2, ts2, tss2, fr2, k4, r4, hroots⟩ := hs.mark_phase fuel hf
  rw [do_mark_sweep_gc_sweep, e2]
  simp only
  rw [emb]
  have hex := Coloured.closure (hh.counted (s.mark_sweep_gc_count + 1)) k4 hroots
  have hiff : ∀ x ∈ N ++ T,
      (YHeader.gc_mark (YHeader.header1 s2.mem x) = s.current_mark_bit ↔ s.mark_reachable x) := by
    intro x hx
    constructor
    · intro hm
      exact k4.sound x hx hm
    · intro hrx
      exact (hex x hrx).2
  have hL2 : s2.Listed T := by
    constructor
    · rw [ts2]; exact hL.head
    · rw [ts2]
      exact chain_to_of_next T _ _
        (fun n hn => (YHeader.same_but_marks_shape (hm2.head n (hLU n hn))).2.2) hL.chain
    · exact hL.nonnull
    · exact hL.nodup
    · exact hL.apart
  have hlen : T.length ≤ (N ++ T).length := by simp
  obtain ⟨t, e3, c1, c2, c3, c4, c5, c6, c7⟩ :=
    sweep_spec s2 T s.current_mark_bit fuel hL2 (by omega)
  have cb := sweep_bits s2 T s.current_mark_bit fuel hL2 (by omega) t e3
  have csz := sweep_size s.current_mark_bit fuel s2 t e3 (by rw [tss2]; exact hwf.size_word)
  rw [e3]
  simp only
  have K := K2.step c6
  have q_ns : t.nursery_space = s.nursery_space := K.nursery_space
  have q_ne : t.nursery_space_end = s.nursery_space_end := K.nursery_space_end
  have q_sz : t.semi_space_size = s.semi_space_size := K.semi_space_size
  have q_s0 : t.semi_space0 = s.semi_space0 := K.semi_space0
  have q_s1 : t.semi_space1 = s.semi_space1 := K.semi_space1
  have q_ct : t.current_top = s.current_top := K.current_top
  have q_ce : t.current_end = s.current_end := K.current_end
  have q_ss : t.shadow_stack = s.shadow_stack := K.shadow_stack
  have q_st : t.stack_top = s.stack_top := K.stack_top
  have q_po : t.promoted_objects = s.promoted_objects := K.promoted_objects
  have q_mb : t.current_mark_bit = s.current_mark_bit := K.current_mark_bit
  have q_hb : t.heap_break = s.heap_break := K.heap_break
  have hother : ∀ a, (∀ o ∈ N ++ T, a ≠ o + 8) → t.mem a = s.mem a := fun a ha =>
    (c5 a (fun x hx => ha x (hLU x (List.mem_of_mem_filter hx)))).trans (hm2.other a ha)
  have hbody := fun o (ho : o ∈ N ++ T) => hh.body_same hother ho
  have hbytes : ∀ o ∈ N ++ T, object_bytes t.mem o = object_bytes s.mem o := by
    intro o ho
    unfold object_bytes object_words
    rw [(hbody o ho).1]
  have hyoung1 : ∀ o ∈ N, YHeader.header1 t.mem o = YHeader.header1 s2.mem o := by
    intro o ho
    refine c5 (o + 8) (fun x hx e => ?_)
    have : o = x := by omega
    exact hwf.young_not_old ho (this ▸ List.mem_of_mem_filter hx)
  have hflag : ∀ o, (o ∈ N ∨ o ∈ T.filter
        (fun x => decide (YHeader.gc_mark (YHeader.header1 s2.mem x) = s.current_mark_bit))) →
      YHeader.gc_generation (YHeader.header1 t.mem o)
          = YHeader.gc_generation (YHeader.header1 s.mem o)
        ∧ YHeader.has_boxed_value (YHeader.header1 t.mem o)
          = YHeader.has_boxed_value (YHeader.header1 s.mem o)
        ∧ YHeader.unbox_size (YHeader.header1 t.mem o)
          = YHeader.unbox_size (YHeader.header1 s.mem o)
        ∧ YHeader.gc_remember (YHeader.header1 t.mem o)
          = YHeader.gc_remember (YHeader.header1 s2.mem o)
        ∧ YHeader.gc_mark (YHeader.header1 t.mem o)
          = YHeader.gc_mark (YHeader.header1 s2.mem o) := by
    intro o ho
    rcases ho with ho | ho
    · have hsm := hm2.head o (hNU o ho)
      obtain ⟨a1, a2, _⟩ := YHeader.same_but_marks_shape hsm
      rw [hyoung1 o ho]
      exact ⟨YHeader.same_but_marks_generation hsm, a1, a2, rfl, rfl⟩
    · have hsm := hm2.head o (hLU o (List.mem_of_mem_filter ho))
      obtain ⟨a1, a2, _⟩ := YHeader.same_but_marks_shape hsm
      obtain ⟨b1, b2, b3, b4, b5⟩ := YHeader.high_bits_shape (cb o ho)
      exact ⟨b1.trans (YHeader.same_but_marks_generation hsm), b4.trans a1, b5.trans a2, b2, b3⟩
  have hmkd : ∀ {o : Nat} {A : List Nat}, o ∈ A.filter
      (fun x => decide (YHeader.gc_mark (YHeader.header1 s2.mem x) = s.current_mark_bit)) →
      o ∈ A ∧ YHeader.gc_mark (YHeader.header1 s2.mem o) = s.current_mark_bit := by
    intro o A ho
    obtain ⟨h1, h2⟩ := List.mem_filter.1 ho
    exact ⟨h1, of_decide_eq_true h2⟩
  have hin : ∀ {o : Nat} {A : List Nat}, o ∈ A →
      YHeader.gc_mark (YHeader.header1 s2.mem o) = s.current_mark_bit → o ∈ A.filter
      (fun x => decide (YHeader.gc_mark (YHeader.header1 s2.mem x) = s.current_mark_bit)) :=
    fun h1 h2 => List.mem_filter.2 ⟨h1, decide_eq_true h2⟩
  have hsplit : ∀ o, o ∈ N.filter
        (fun x => decide (YHeader.gc_mark (YHeader.header1 s2.mem x) = s.current_mark_bit))
        ++ T.filter
        (fun x => decide (YHeader.gc_mark (YHeader.header1 s2.mem x) = s.current_mark_bit)) →
      o ∈ N ++ T ∧ YHeader.gc_mark (YHeader.header1 s2.mem o) = s.current_mark_bit
        ∧ (o ∈ N ∨ o ∈ T.filter
        (fun x => decide (YHeader.gc_mark (YHeader.header1 s2.mem x) = s.current_mark_bit))) := by
    intro o ho
    rcases List.mem_append.1 ho with h1 | h1
    · exact ⟨hNU o (hmkd h1).1, (hmkd h1).2, Or.inl (hmkd h1).1⟩
    · exact ⟨hLU o (hmkd h1).1, (hmkd h1).2, Or.inr h1⟩
  obtain ⟨hx1, hx2⟩ := xor_two_ne hmbv
  refine ⟨_, _,
    N.filter (fun x => decide (YHeader.gc_mark (YHeader.header1 s2.mem x) = s.current_mark_bit)),
    T.filter (fun x => decide (YHeader.gc_mark (YHeader.header1 s2.mem x) = s.current_mark_bit)),
    T.filter (fun x => !decide (YHeader.gc_mark (YHeader.header1 s2.mem x) = s.current_mark_bit)),
    rfl, ?_, List.filter_sublist _, List.filter_sublist _, List.filter_sublist _, ?_, ?_, ?_,
    ?_, ?_, ?_, ?_, ?_, ?_, ?_⟩
  · constructor
    · constructor
      · simp only [set_current_mark_bit_proj]
        rw [q_ns]; exact hwf.nursery_pos
      · simp only [set_current_mark_bit_proj]
        rw [q_ns, q_s0, q_s1, q_sz]; exact hwf.semi_spaces
      · simp only [set_current_mark_bit_proj]
        rw [q_ns, q_ne, q_sz]; exact hwf.nursery_end
      · simp only [set_current_mark_bit_proj]
        rw [q_hb, q_ne]; exact hwf.heap_above
      · simp only [set_current_mark_bit_proj]
        rw [q_hb, q_sz]; exact hwf.heap_room
      · simp only [set_current_mark_bit_proj]
        have hsub : (N.filter (fun x => decide (YHeader.gc_mark (YHeader.header1 s2.mem x)
            = s.current_mark_bit))).Sublist N := List.filter_sublist _
        have hp := List.Pairwise.sublist hsub hwf.young_sorted
        refine hp.imp_of_mem ?_
        intro a b ha _ hab
        rw [hbytes a (hNU a (hmkd ha).1)]
        exact hab
      · simp only [set_current_mark_bit_proj]
        intro o ho
        rw [hbytes o (hNU o (hmkd ho).1), q_s0, q_sz]
        exact hwf.young_in_space o (hmkd ho).1
      · simp only [set_current_mark_bit_proj]
        intro o ho
        have h1 := hwf.young_header o (hmkd ho).1
        rw [(hflag o (Or.inl (hmkd ho).1)).1, hyoung1 o (hmkd ho).1,
          YHeader.same_but_marks_forward (hm2.head o (hNU o (hmkd ho).1))]
        exact h1
      · simp only [set_current_mark_bit_proj]
        have hsub : (T.filter (fun x => decide (YHeader.gc_mark (YHeader.header1 s2.mem x)
            = s.current_mark_bit))).Sublist T := List.filter_sublist _
        have hp := List.Pairwise.sublist hsub hwf.old_apart
        refine hp.imp_of_mem ?_
        intro a b ha hb' hab
        rw [hbytes a (hLU a (hmkd ha).1), hbytes b (hLU b (hmkd hb').1)]
        exact hab
      · simp only [set_current_mark_bit_proj]
        intro o ho
        rw [hbytes o (hLU o (hmkd ho).1), q_hb, q_ns, q_ne]
        exact hwf.old_outside o (hmkd ho).1
      · simp only [set_current_mark_bit_proj]
        intro o ho
        rw [(hflag o (Or.inr ho)).1]
        exact hwf.old_header o (hmkd ho).1
      · simp only [set_current_mark_bit_proj]
        intro o ho i hi hb hu hp
        obtain ⟨hoU, hom, hoo⟩ := hsplit o ho
        obtain ⟨f1, f2, f3, _, _⟩ := hflag o hoo
        rw [(hbody o hoU).1] at hi
        rw [f2] at hb
        rw [f3] at hu
        rw [(hbody o hoU).2 i hi] at hp ⊢
        by_cases h0 : YHeader.get_field s.mem o i = 0
        · exact Or.inl h0
        · have hvm := k4.black o hoU hom (fun hx => by cases hx) i ⟨hb, hu, hi⟩ hp h0
            (fun x => x)
          rcases hwf.fields_closed o hoU i hi hb hu hp with e | e | e
          · exact absurd e h0
          · exact Or.inr (Or.inl (hin e hvm))
          · exact Or.inr (Or.inr (hin e hvm))
      · simp only [set_current_mark_bit_proj]
        rw [q_st, q_ss]; exact hwf.stack_fits
      · simp only [set_current_mark_bit_proj]
        intro i hi
        rw [q_st] at hi
        rw [q_ss]
        by_cases h0 : s.shadow_stack.getD i 0 = 0
        · exact Or.inl h0
        · have hvm := hroots i hi h0
          rcases hwf.roots_closed i hi with e | e | e
          · exact absurd e h0
          · exact Or.inr (Or.inl (hin e hvm))
          · exact Or.inr (Or.inr (hin e hvm))
      · simp only [set_current_mark_bit_proj]
        intro r hr
        rw [c7] at hr
        obtain ⟨h1, h2, h3⟩ := r4.entries r hr
        right
        rcases List.mem_append.1 h1 with e | e
        · have := (hwf.young_header r e).2
          have h2' : YHeader.gc_generation (YHeader.header1 s.mem r) = 0 := h2
          omega
        · exact hin e h3
      · simp only [set_current_mark_bit_proj]
        rw [c7]
        have hnd : s2.remember_set.Pairwise (fun a b => a ≠ b) := r4.nodup
        exact List.Pairwise.imp (S := fun a b => a ≠ 0 → a ≠ b) (fun h _ => h) hnd
      · simp only [set_current_mark_bit_proj]
        intro o ho hex2
        obtain ⟨i, hi, hb, hu, hp, hn⟩ := hex2
        have hoU := hLU o (hmkd ho).1
        obtain ⟨f1, f2, f3, _, _⟩ := hflag o (Or.inr ho)
        rw [(hbody o hoU).1] at hi
        rw [f2] at hb
        rw [f3] at hu
        rw [(hbody o hoU).2 i hi] at hp hn
        rw [c7]
        have hn2 : s.nursery_space ≤ YHeader.get_field s.mem o i
            ∧ YHeader.get_field s.mem o i < s.nursery_space_end := by
          unfold GC.in_nursery at hn
          simp only [set_current_mark_bit_proj, q_ns, q_ne, Bool.and_eq_true,
            decide_eq_true_eq] at hn
          exact hn
        have hpos := hwf.nursery_pos
        have h0 : YHeader.get_field s.mem o i ≠ 0 := by omega
        have hvN : YHeader.get_field s.mem o i ∈ N := by
          rcases hwf.fields_closed o hoU i hi hb hu hp with e | e | e
          · exact absurd e h0
          · exact e
          · have := (hwf.old_outside _ e).2.2
            have := object_bytes_pos s.mem (YHeader.get_field s.mem o i)
            omega
        have hg := (hwf.young_header _ hvN).2
        exact r4.complete o hoU (hmkd ho).2 (fun hx => by cases hx)
          (hwf.old_header o (hmkd ho).1) i ⟨hb, hu, hi⟩ hp h0 (fun x => x) (by
            show 0 < YHeader.gc_generation (YHeader.header1 s.mem (YHeader.get_field s.mem o i))
            omega)
      · simp only [set_current_mark_bit_proj]
        rw [q_po]; exact hwf.no_promoted
      · simp only [set_current_mark_bit_proj]
        exact tenure_list_of_chain _ _ c1.chain c1.nonnull
      · simp only [set_current_mark_bit_proj]
        exact csz
    · unfold Shadow.sized
      simp only [set_current_mark_bit_proj]
      rw [q_st, q_ss]
      exact hs.sized
    · simp only [set_current_mark_bit_proj]
      rw [q_mb]; exact hx1
    · simp only [set_current_mark_bit_proj]
      intro o ho
      obtain ⟨hoU, hom, hoo⟩ := hsplit o ho
      rw [(hflag o hoo).2.2.2.2, hom, q_mb]
      exact hx2
    · simp only [set_current_mark_bit_proj]
      intro o ho
      rw [(hflag o (Or.inl (hmkd ho).1)).2.2.2.1]
      have h1 := YHeader.gc_remember_lt (YHeader.header1 s2.mem o)
      have h2 : YHeader.gc_remember (YHeader.header1 s2.mem o) ≠ 1 := by
        intro e
        have hr := (r4.bits o (hNU o (hmkd ho).1)).1 e
        have h3 : YHeader.gc_generation (YHeader.header1 s.mem o) = 0 := (r4.entries o hr).2.1
        have := (hwf.young_header o (hmkd ho).1).2
        omega
      omega
    · simp only [set_current_mark_bit_proj]
      intro o ho
      rw [(hflag o (Or.inr ho)).2.2.2.1, c7]
      exact r4.bits o (hLU o (hmkd ho).1)
    · simp only [set_current_mark_bit_proj]
      intro o ho
      rw [hbytes o (hNU o (hmkd ho).1), q_ct]
      exact hs.below_top o (hmkd ho).1
    · simp only [set_current_mark_bit_proj]
      rw [q_s0, q_ct]; exact hs.top_ge
    · simp only [set_current_mark_bit_proj]
      rw [q_ct, q_ce]; exact hs.top_le
    · simp only [set_current_mark_bit_proj]
      rw [q_ce, q_s0, q_sz]; exact hs.end_eq
  · intro x
    constructor
    · intro hx
      exact ⟨(hmkd hx).1, (hiff x (hNU x (hmkd hx).1)).1 (hmkd hx).2⟩
    · rintro ⟨hx, hrx⟩
      exact hin hx ((hiff x (hNU x hx)).2 hrx)
  · intro x
    constructor
    · intro hx
      exact ⟨(hmkd hx).1, (hiff x (hLU x (hmkd hx).1)).1 (hmkd hx).2⟩
    · rintro ⟨hx, hrx⟩
      exact hin hx ((hiff x (hLU x hx)).2 hrx)
  · intro x
    rw [List.mem_filter]
    constructor
    · rintro ⟨hx, hd⟩
      refine ⟨hx, fun hrx => ?_⟩
      have := (hiff x (hLU x hx)).2 hrx
      simp [this] at hd
    · rintro ⟨hx, hrx⟩
      refine ⟨hx, ?_⟩
      have : ¬ YHeader.gc_mark (YHeader.header1 s2.mem x) = s.current_mark_bit :=
        fun hm => hrx ((hiff x (hLU x hx)).1 hm)
      simp [this]
  · simp only [set_current_mark_bit_proj]
    rw [c3, fr2]
  · simpa using q_hb
  · simpa using q_sz
  · simpa using q_st
  · simpa using q_ss
  · simpa using q_ct
  · simpa using q_ce

end GC


namespace GC

/-- More fuel does not change the result of `scan_promoted_objects`. -/
theorem scan_promoted_objects_mono :
    ∀ (fuel : Nat) (c r : Scan), scan_promoted_objects fuel c = some r →
      ∀ fuel', fuel ≤ fuel' → scan_promoted_objects fuel' c = some r := by
  intro fuel
  induction fuel with
  | zero =>
    intro c r h fuel' _
    cases hl : c.gc.promoted_objects.getLast? with
    | none =>
      rw [scan_promoted_objects_done 0 c hl] at h
      rw [scan_promoted_objects_done fuel' c hl]
      exact h
    | some p =>
      rw [scan_promoted_objects_zero c p hl] at h
      cases h
  | succ fuel ih =>
    intro c r h fuel' hle
    cases hl : c.gc.promoted_objects.getLast? with
    | none =>
      rw [scan_promoted_objects_done _ c hl] at h
      rw [scan_promoted_objects_done fuel' c hl]
      exact h
    | some p =>
      obtain ⟨k, rfl⟩ : ∃ k, fuel' = k + 1 := ⟨fuel' - 1, by omega⟩
      rw [scan_promoted_objects_succ fuel c p hl] at h
      rw [scan_promoted_objects_succ k c p hl]
      exact ih _ r h k (by omega)

/-- More fuel does not change the result of the loop over to-space. -/
theorem cheney_loop_mono (pfuel pfuel' : Nat) (hp : pfuel ≤ pfuel') :
    ∀ (fuel : Nat) (c : Scan) (sp : Nat) (r : Scan × Nat),
      cheney_loop pfuel fuel (c, sp) = some r →
      ∀ fuel', fuel ≤ fuel' → cheney_loop pfuel' fuel' (c, sp) = some r := by
  intro fuel
  induction fuel with
  | zero =>
    intro c sp r h fuel' _
    by_cases hs : sp < c.alloc_ptr
    · rw [cheney_loop] at h
      simp only [hs, if_true] at h
      cases h
    · rw [cheney_loop_done pfuel 0 c sp hs] at h
      rw [cheney_loop_done pfuel' fuel' c sp hs]
      exact h
  | succ fuel ih =>
    intro c sp r h fuel' hle
    by_cases hs : sp < c.alloc_ptr
    · obtain ⟨k, rfl⟩ : ∃ k, fuel' = k + 1 := ⟨fuel' - 1, by omega⟩
      rw [cheney_loop_succ pfuel fuel c sp hs] at h
      rw [cheney_loop_succ pfuel' k c sp hs]
      cases e : scan_promoted_objects pfuel
          (scan_object false c sp (YHeader.field_size (YHeader.header2 c.gc.mem sp))).1 with
      | none =>
        rw [e] at h
        cases h
      | some c2 =>
        rw [e] at h
        rw [scan_promoted_objects_mono pfuel _ c2 e pfuel' hp]
        exact ih _ _ r h k (by omega)
    · rw [cheney_loop_done pfuel _ c sp hs] at h
      rw [cheney_loop_done pfuel' fuel' c sp hs]
      exact h

/-- More fuel does not change the result of a scavenge. -/
theorem do_copy_gc_mono {fuel : Nat} {s : GC} {r : GC × Nat} (h : do_copy_gc fuel s = some r)
    {fuel' : Nat} (hle : fuel ≤ fuel') : do_copy_gc fuel' s = some r := by
  unfold do_copy_gc at h ⊢
  simp only at h ⊢
  cases e : scan_promoted_objects fuel
      (scan_remember
        (scan_shadow ((s.set_copy_gc_count (s.copy_gc_count + 1)).stack_top + 1).toNat
          ⟨s.set_copy_gc_count (s.copy_gc_count + 1),
            (s.set_copy_gc_count (s.copy_gc_count + 1)).semi_space1, 0⟩).gc.remember_set.length
        (scan_shadow ((s.set_copy_gc_count (s.copy_gc_count + 1)).stack_top + 1).toNat
          ⟨s.set_copy_gc_count (s.copy_gc_count + 1),
            (s.set_copy_gc_count (s.copy_gc_count + 1)).semi_space1, 0⟩)) with
  | none =>
    rw [e] at h
    cases h
  | some c3 =>
    rw [e] at h
    rw [scan_promoted_objects_mono fuel _ c3 e fuel' hle]
    simp only at h ⊢
    cases e2 : cheney_loop fuel fuel
        (c3, (s.set_copy_gc_count (s.copy_gc_count + 1)).semi_space1) with
    | none =>
      rw [e2] at h
      cases h
    | some r4 =>
      rw [e2] at h
      rw [cheney_loop_mono fuel fuel' hle fuel c3 _ r4 e2 fuel' hle]
      exact h

/-- More fuel does not change the result of the loop over `visited`. -/
theorem mark_loop_mono (mb : Nat) :
    ∀ (fuel : Nat) (st : GC × List Nat × Nat) (r : GC × Nat),
      mark_loop mb fuel st = some r → ∀ fuel', fuel ≤ fuel' → mark_loop mb fuel' st = some r := by
  intro fuel
  induction fuel with
  | zero =>
    intro st r h fuel' _
    obtain ⟨s, visited, live⟩ := st
    cases hl : visited.getLast? with
    | none =>
      rw [mark_loop_done mb 0 s visited live hl] at h
      rw [mark_loop_done mb fuel' s visited live hl]
      exact h
    | some obj =>
      rw [mark_loop] at h
      simp only [hl] at h
      cases h
  | succ fuel ih =>
    intro st r h fuel' hle
    obtain ⟨s, visited, live⟩ := st
    cases hl : visited.getLast? with
    | none =>
      rw [mark_loop_done mb _ s visited live hl] at h
      rw [mark_loop_done mb fuel' s visited live hl]
      exact h
    | some obj =>
      obtain ⟨k, rfl⟩ : ∃ k, fuel' = k + 1 := ⟨fuel' - 1, by omega⟩
      rw [mark_loop_succ mb fuel s visited live obj hl] at h
      rw [mark_loop_succ mb k s visited live obj hl]
      split
      · rename_i hb
        rw [if_pos hb] at h
        exact ih _ r h k (by omega)
      · rename_i hb
        rw [if_neg hb] at h
        exact ih _ r h k (by omega)

/-- More fuel does not change the result of the inner loop of the sweep. -/
theorem sweep_inner_mono (mb : Nat) :
    ∀ (fuel : Nat) (s : GC) (next : Nat) (r : GC × Nat),
      sweep_inner mb fuel (s, next) = some r →
      ∀ fuel', fuel ≤ fuel' → sweep_inner mb fuel' (s, next) = some r := by
  intro fuel
  induction fuel with
  | zero =>
    intro s next r h fuel' _
    by_cases hc : next ≠ 0 ∧ YHeader.gc_mark (YHeader.header1 s.mem next) ≠ mb
    · rw [sweep_inner] at h
      simp only [hc, ne_eq, not_false_eq_true, and_self, if_true] at h
      cases h
    · rw [sweep_inner_stop mb 0 s next hc] at h
      rw [sweep_inner_stop mb fuel' s next hc]
      exact h
  | succ fuel ih =>
    intro s next r h fuel' hle
    by_cases hc : next ≠ 0 ∧ YHeader.gc_mark (YHeader.header1 s.mem next) ≠ mb
    · obtain ⟨k, rfl⟩ : ∃ k, fuel' = k + 1 := ⟨fuel' - 1, by omega⟩
      rw [sweep_inner_succ mb fuel s next hc] at h
      rw [sweep_inner_succ mb k s next hc]
      exact ih _ _ r h k (by omega)
    · rw [sweep_inner_stop mb _ s next hc] at h
      rw [sweep_inner_stop mb fuel' s next hc]
      exact h

/-- More fuel does not change the result of the outer loop of the sweep. -/
theorem sweep_outer_mono (mb ifuel ifuel' : Nat) (hi : ifuel ≤ ifuel') :
    ∀ (fuel : Nat) (s : GC) (root_h1 : Nat) (ptr : Option Nat) (r : GC × Nat),
      sweep_outer mb ifuel fuel (s, root_h1, ptr) = some r →
      ∀ fuel', fuel ≤ fuel' → sweep_outer mb ifuel' fuel' (s, root_h1, ptr) = some r := by
  intro fuel
  induction fuel with
  | zero =>
    intro s root_h1 ptr r h _ _
    simp only [sweep_outer] at h
    cases h
  | succ fuel ih =>
    intro s root_h1 ptr r h fuel' hle
    obtain ⟨k, rfl⟩ : ∃ k, fuel' = k + 1 := ⟨fuel' - 1, by omega⟩
    cases e : sweep_inner mb ifuel (s, YHeader.next_object (s.link_word root_h1 ptr)) with
    | none =>
      unfold link_word at e
      cases ptr with
      | none =>
        simp only at e
        simp only [sweep_outer, e] at h
        cases h
      | some q =>
        simp only at e
        simp only [sweep_outer, e] at h
        cases h
    | some r1 =>
      obtain ⟨s1, next⟩ := r1
      have e' := sweep_inner_mono mb ifuel s _ _ e ifuel' hi
      rw [sweep_outer_succ mb ifuel fuel s root_h1 ptr s1 next e] at h
      rw [sweep_outer_succ mb ifuel' k s root_h1 ptr s1 next e']
      split
      · rename_i h0
        rw [if_pos h0] at h
        exact h
      · rename_i h0
        rw [if_neg h0] at h
        exact ih _ _ _ r h k (by omega)

/-- More fuel does not change the result of a major collection. -/
theorem do_mark_sweep_gc_mono {fuel : Nat} {s : GC} {r : GC × Nat}
    (h : do_mark_sweep_gc fuel s = some r) {fuel' : Nat} (hle : fuel ≤ fuel') :
    do_mark_sweep_gc fuel' s = some r := by
  rw [do_mark_sweep_gc_sweep] at h ⊢
  cases e : mark_loop
      ((reset_remember_loop s.remember_set.length
        (s.set_mark_sweep_gc_count (s.mark_sweep_gc_count + 1))).set_remember_set
        []).current_mark_bit fuel
      (mark_roots
        ((reset_remember_loop s.remember_set.length
          (s.set_mark_sweep_gc_count (s.mark_sweep_gc_count + 1))).set_remember_set
          []).current_mark_bit
        (((reset_remember_loop s.remember_set.length
          (s.set_mark_sweep_gc_count (s.mark_sweep_gc_count + 1))).set_remember_set
          []).stack_top + 1).toNat
        ((reset_remember_loop s.remember_set.length
          (s.set_mark_sweep_gc_count (s.mark_sweep_gc_count + 1))).set_remember_set [],
          [], 0)) with
  | none =>
    rw [e] at h
    cases h
  | some r1 =>
    rw [e] at h
    rw [mark_loop_mono _ fuel _ r1 e fuel' hle]
    simp only at h ⊢
    cases e2 : GC.sweep
        ((reset_remember_loop s.remember_set.length
          (s.set_mark_sweep_gc_count (s.mark_sweep_gc_count + 1))).set_remember_set
          []).current_mark_bit fuel r1.1 with
    | none =>
      rw [e2] at h
      cases h
    | some t =>
      rw [e2] at h
      have e3 : GC.sweep
          ((reset_remember_loop s.remember_set.length
            (s.set_mark_sweep_gc_count (s.mark_sweep_gc_count + 1))).set_remember_set
            []).current_mark_bit fuel' r1.1 = some t := by
        unfold GC.sweep at e2 ⊢
        cases e4 : sweep_outer
            ((reset_remember_loop s.remember_set.length
              (s.set_mark_sweep_gc_count (s.mark_sweep_gc_count + 1))).set_remember_set
              []).current_mark_bit fuel fuel
            (r1.1, YHeader.set_next_object (YHeader.init_header1 0 0) r1.1.tenure_space,
              none) with
        | none =>
          rw [e4] at e2
          cases e2
        | some r2 =>
          rw [e4] at e2
          rw [sweep_outer_mono _ fuel fuel' hle fuel _ _ _ r2 e4 fuel' hle]
          exact e2
      rw [e3]
      exact h

end GC


theorem same_object_of_eq {m m' : Mem} {o : Nat}
    (h : ∀ a, o + 8 ≤ a → a < o + object_bytes m o → m' a = m a) : same_object m m' o := by
  have hb : object_bytes m o = 8 * (YHeader.field_size (YHeader.header2 m o) + 3) := rfl
  refine ⟨h _ (by omega) (by omega), h _ (by omega) (by omega), ?_⟩
  intro i hi
  unfold YHeader.get_field
  have h32 := field_size_lt (YHeader.header2 m o)
  rw [YHeader.field_addr_eq o i (by omega)]
  exact h _ (by omega) (by omega)

theorem same_object.bytes {m m' : Mem} {o : Nat} (h : same_object m m' o) :
    object_bytes m' o = object_bytes m o := by
  unfold object_bytes object_words
  rw [h.2.1]

namespace GC

/-- A sound state stays sound when the objects read the same, the registers of the heap
are the same, and the shadow stack holds null or objects. -/
theorem Sound.frame {s t : GC} {N T : List Nat} (hs : s.Sound N T)
    (hmem : ∀ o ∈ N ++ T, same_object s.mem t.mem o)
    (q_ns : t.nursery_space = s.nursery_space)
    (q_ne : t.nursery_space_end = s.nursery_space_end)
    (q_sz : t.semi_space_size = s.semi_space_size)
    (q_s0 : t.semi_space0 = s.semi_space0)
    (q_s1 : t.semi_space1 = s.semi_space1)
    (q_ct : t.current_top = s.current_top)
    (q_ce : t.current_end = s.current_end)
    (q_po : t.promoted_objects = s.promoted_objects)
    (q_mb : t.current_mark_bit = s.current_mark_bit)
    (q_hb : t.heap_break = s.heap_break)
    (q_ts : t.tenure_space = s.tenure_space)
    (q_tz : t.tenure_space_size = s.tenure_space_size)
    (q_rs : t.remember_set = s.remember_set)
    (hsized : Shadow.sized t)
    (hroots : ∀ i, i < (t.stack_top + 1).toNat →
      t.shadow_stack.getD i 0 = 0 ∨ t.shadow_stack.getD i 0 ∈ N ∨ t.shadow_stack.getD i 0 ∈ T) :
    t.Sound N T := by
  have hwf := hs.wf
  have hNU : ∀ n ∈ N, n ∈ N ++ T := fun n hn => List.mem_append_left _ hn
  have hTU : ∀ n ∈ T, n ∈ N ++ T := fun n hn => List.mem_append_right _ hn
  have hbytes : ∀ o ∈ N ++ T, object_bytes t.mem o = object_bytes s.mem o :=
    fun o ho => (hmem o ho).bytes
  have hh1 : ∀ o ∈ N ++ T, YHeader.header1 t.mem o = YHeader.header1 s.mem o :=
    fun o ho => (hmem o ho).1
  constructor
  · constructor
    · rw [q_ns]; exact hwf.nursery_pos
    · rw [q_ns, q_s0, q_s1, q_sz]; exact hwf.semi_spaces
    · rw [q_ns, q_ne, q_sz]; exact hwf.nursery_end
    · rw [q_hb, q_ne]; exact hwf.heap_above
    · rw [q_hb, q_sz]; exact hwf.heap_room
    · refine hwf.young_sorted.imp_of_mem ?_
      intro a b ha _ hab
      rw [hbytes a (hNU a ha)]
      exact hab
    · intro o ho
      rw [hbytes o (hNU o ho), q_s0, q_sz]
      exact hwf.young_in_space o ho
    · intro o ho
      rw [hh1 o (hNU o ho)]
      exact hwf.young_header o ho
    · refine hwf.old_apart.imp_of_mem ?_
      intro a b ha hb' hab
      rw [hbytes a (hTU a ha), hbytes b (hTU b hb')]
      exact hab
    · intro o ho
      rw [hbytes o (hTU o ho), q_hb, q_ns, q_ne]
      exact hwf.old_outside o ho
    · intro o ho
      rw [hh1 o (hTU o ho)]
      exact hwf.old_header o ho
    · intro o ho i hi hb hu hp
      obtain ⟨e1, e2, e3⟩ := hmem o ho
      rw [e2] at hi
      rw [e1] at hb hu
      rw [e3 i hi] at hp ⊢
      exact hwf.fields_closed o ho i hi hb hu hp
    · exact le_of_eq hsized.2.symm
    · exact hroots
    · intro r hr
      rw [q_rs] at hr
      exact hwf.remembered_old r hr
    · rw [q_rs]; exact hwf.remembered_nodup
    · intro o ho hex
      obtain ⟨i, hi, hb, hu, hp, hn⟩ := hex
      obtain ⟨e1, e2, e3⟩ := hmem o (hTU o ho)
      rw [e2] at hi
      rw [e1] at hb hu
      rw [e3 i hi] at hp hn
      rw [q_rs]
      refine hwf.remembered_all o ho ⟨i, hi, hb, hu, hp, ?_⟩
      unfold GC.in_nursery at hn ⊢
      rw [q_ns, q_ne] at hn
      exact hn
    · rw [q_po]; exact hwf.no_promoted
    · obtain ⟨hc, hn⟩ := chain_of_tenure_list T s.tenure_space hwf.tenure_chain
      rw [q_ts]
      exact tenure_list_of_chain T _
        (chain_to_of_next T _ _ (fun n hn => by rw [hh1 n (hTU n hn)]) hc) hn
    · rw [q_tz]; exact hwf.size_word
  · exact hsized
  · rw [q_mb]; exact hs.mark_value
  · intro o ho
    rw [hh1 o ho, q_mb]
    exact hs.unmarked o ho
  · intro o ho
    rw [hh1 o (hNU o ho)]
    exact hs.young_bit o ho
  · intro o ho
    rw [hh1 o (hTU o ho), q_rs]
    exact hs.old_bit o ho
  · intro o ho
    rw [hbytes o (hNU o ho), q_ct]
    exact hs.below_top o ho
  · rw [q_s0, q_ct]; exact hs.top_ge
  · rw [q_ct, q_ce]; exact hs.top_le
  · rw [q_ce, q_s0, q_sz]; exact hs.end_eq

theorem same_object_refl (m : Mem) (o : Nat) : same_object m m o :=
  ⟨rfl, rfl, fun _ _ => rfl⟩

/-- The threshold of the major collection plays no part in soundness. -/
theorem Sound.of_limit {s : GC} {N T : List Nat} (hs : s.Sound N T) (v : Nat) :
    (s.set_tenure_space_limit v).Sound N T :=
  hs.frame (fun o _ => same_object_refl _ o) rfl rfl rfl rfl rfl rfl rfl rfl rfl rfl rfl rfl
    rfl hs.sized hs.wf.roots_closed

/-- A scavenge that returns, run in a sound state with room in the free store, returns a
sound state. -/
theorem Sound.scavenge_of {s : GC} {N T : List Nat} (hs : s.Sound N T)
    (hroom : s.heap_break + 16 * s.semi_space_size ≤ 2 ^ 48) {fuel : Nat} {t : GC} {n : Nat}
    (h : do_copy_gc fuel s = some (t, n)) :
    ∃ (N' T' : List Nat), t.Sound N' T'
      ∧ t.heap_break ≤ s.heap_break + 8 * s.semi_space_size
      ∧ t.semi_space_size = s.semi_space_size := by
  obtain ⟨t', n', N', L, e, h1, _, h3, h4⟩ :=
    hs.after_scavenge (max fuel N.length) (Nat.le_max_right _ _) hroom
  have e2 := do_copy_gc_mono h (Nat.le_max_left fuel N.length)
  rw [e] at e2
  cases e2
  exact ⟨N', L ++ T, h1, h3, h4⟩

/-- A major collection that returns, run in a sound state, returns a sound state. -/
theorem Sound.major_of {s : GC} {N T : List Nat} (hs : s.Sound N T) {fuel : Nat} {t : GC}
    {n : Nat} (h : do_mark_sweep_gc fuel s = some (t, n)) :
    ∃ (N' T' : List Nat), t.Sound N' T' ∧ t.heap_break = s.heap_break
      ∧ t.semi_space_size = s.semi_space_size := by
  obtain ⟨t', n', N', L', D, e, h1, _, _, _, _, _, _, _, h3, h4, _⟩ :=
    hs.major (max fuel ((N ++ T).length + 1)) (Nat.le_max_right _ _)
  have e2 := do_mark_sweep_gc_mono h (Nat.le_max_left fuel ((N ++ T).length + 1))
  rw [e] at e2
  cases e2
  exact ⟨N', L', h1, h3, h4⟩

/-- The check of the threshold, when it returns, keeps a sound state sound. -/
theorem Sound.if_needed_of {s : GC} {N T : List Nat} (hs : s.Sound N T) {fuel : Nat} {t : GC}
    {n : Nat} (h : mark_sweep_gc_if_needed fuel s = some (t, n)) :
    ∃ (N' T' : List Nat), t.Sound N' T' ∧ t.heap_break = s.heap_break
      ∧ t.semi_space_size = s.semi_space_size := by
  unfold mark_sweep_gc_if_needed at h
  split at h
  · cases h
    exact ⟨N, T, hs, rfl, rfl⟩
  · cases e : do_mark_sweep_gc fuel s with
    | none =>
      rw [e] at h
      cases h
    | some r =>
      obtain ⟨s1, lives⟩ := r
      rw [e] at h
      simp only at h
      obtain ⟨N', T', h1, h2, h3⟩ := hs.major_of e
      split at h
      · cases h
        exact ⟨N', T', h1.of_limit _, h2, h3⟩
      · cases h
        exact ⟨N', T', h1, h2, h3⟩

/-- The scavenges of the slow path of the allocator, when they return, keep a sound state
sound; a returned top fits the active semi-space. -/
theorem Sound.alloc_attempts_of (fuel wcount : Nat) :
    ∀ (k : Nat) (s : GC) (N T : List Nat), s.Sound N T →
      s.heap_break + 8 * (k + 1) * s.semi_space_size ≤ 2 ^ 48 →
      ∀ o, alloc_attempts fuel wcount k s = some o →
      ∃ (N' T' : List Nat), o.state.Sound N' T'
        ∧ o.state.heap_break ≤ s.heap_break + 8 * k * s.semi_space_size
        ∧ o.state.semi_space_size = s.semi_space_size
        ∧ (∀ u p, o = Outcome.returned u p →
            p = u.current_top + 8 * wcount ∧ p ≤ u.current_end) := by
  intro k
  induction k with
  | zero =>
    intro s N T hs _ o h
    rw [alloc_attempts] at h
    cases h
    refine ⟨N, T, hs, by simp [Outcome.state], rfl, ?_⟩
    intro u p e
    cases e
  | succ k ih =>
    intro s N T hs hroom o h
    cases e : do_copy_gc fuel s with
    | none =>
      rw [alloc_attempts, e] at h
      cases h
    | some r =>
      obtain ⟨s1, n⟩ := r
      rw [alloc_attempts_succ fuel wcount k s s1 n e] at h
      have hr1 : s.heap_break + 16 * s.semi_space_size ≤ 2 ^ 48 := by
        have : 8 * (k + 1 + 1) * s.semi_space_size
            = 16 * s.semi_space_size + 8 * k * s.semi_space_size := by ring
        omega
      obtain ⟨N', T', h1, h2, h3⟩ := hs.scavenge_of hr1 e
      split at h
      · rename_i hfit
        cases h
        refine ⟨N', T', h1, ?_, h3, ?_⟩
        · simp only [Outcome.state]
          have : 8 * (k + 1) * s.semi_space_size
              = 8 * s.semi_space_size + 8 * k * s.semi_space_size := by ring
          omega
        · intro u p e
          cases e
          exact ⟨rfl, hfit⟩
      · have hr2 : s1.heap_break + 8 * (k + 1) * s1.semi_space_size ≤ 2 ^ 48 := by
          rw [h3]
          have : 8 * (k + 1 + 1) * s.semi_space_size
              = 8 * s.semi_space_size + 8 * (k + 1) * s.semi_space_size := by ring
          omega
        obtain ⟨N2, T2, g1, g2, g3, g4⟩ := ih s1 N' T' h1 hr2 o h
        refine ⟨N2, T2, g1, ?_, g3.trans h3, g4⟩
        rw [h3] at g2
        have : 8 * (k + 1) * s.semi_space_size
            = 8 * s.semi_space_size + 8 * k * s.semi_space_size := by ring
        omega

end GC


namespace YHeader

theorem init_fields_zero (self : Nat) :
    ∀ (k i : Nat) (m : Mem) (a : Nat), m a = 0 → init_fields self k i m a = 0 := by
  intro k
  induction k with
  | zero => intro i m a h; exact h
  | succ k ih =>
    intro i m a h
    rw [init_fields]
    apply ih
    by_cases e : a = self + 24 + 8 * i
    · rw [e]; exact Mem.write_same _ _ _
    · rw [Mem.write_other _ _ _ _ e]; exact h

/-- The constructor writes only words of the object. -/
theorem construct_other (m : Mem) (self size type unbox : Nat) (hs : size < 2 ^ 32) (a : Nat)
    (ha : a < self + 8 ∨ self + 8 * (size + 3) ≤ a) :
    construct m self size type unbox a = m a := by
  unfold construct
  have h1 : ((m.write (self + 8) (init_header1 type unbox)).write (self + 16)
      ((((self % 2 ^ 32) >>> 3)) <<< 32 ||| size % 2 ^ 32)) a = m a := by
    rw [Mem.write_other _ _ _ _ (by omega), Mem.write_other _ _ _ _ (by omega)]
  split
  · rw [init_fields_other self _ _ _ a ?_]
    · exact h1
    · intro j hj1 hj2
      have : size % 2 ^ 32 = size := Nat.mod_eq_of_lt hs
      omega
  · exact h1

/-- A field that is zero before the constructor runs is zero after it. -/
theorem construct_field_zero (m : Mem) (self size type unbox : Nat) (i : Nat)
    (hi : i + 1 < 2 ^ 32) (h : m (self + 8 * (i + 3)) = 0) :
    get_field (construct m self size type unbox) self i = 0 := by
  unfold get_field
  rw [field_addr_eq self i hi]
  unfold construct
  have h1 : ((m.write (self + 8) (init_header1 type unbox)).write (self + 16)
      ((((self % 2 ^ 32) >>> 3)) <<< 32 ||| size % 2 ^ 32)) (self + 8 * (i + 3)) = 0 := by
    rw [Mem.write_other _ _ _ _ (by omega), Mem.write_other _ _ _ _ (by omega)]
    exact h
  split
  · exact init_fields_zero self _ _ _ _ h1
  · exact h1

theorem construct_field_size (m : Mem) (self size type unbox : Nat) (hs : size < 2 ^ 32) :
    field_size (header2 (construct m self size type unbox) self) = size := by
  rw [construct_header2]
  unfold field_size
  rw [or_shift_mod _ _ (Nat.mod_lt _ (by norm_num))]
  exact Nat.mod_eq_of_lt hs

end YHeader

namespace GC

/-- A new young object, built at the bump pointer of a sound state with room for it, leaves
a sound state. -/
theorem Sound.young_object {s : GC} {N T : List Nat} (hs : s.Sound N T)
    (size type unbox : Nat) (hsize : size < 2 ^ 32) (htype : type ≤ 2) (hunbox : unbox ≤ 7)
    (hfit : s.current_top + 8 * (size + 3) ≤ s.current_end) :
    ((s.set_current_top (s.current_top + 8 * (size + 3))).set_mem
      (YHeader.construct (zero_words s.current_top (size + 3) 0 s.mem) s.current_top size
        type unbox)).Sound (N ++ [s.current_top]) T := by
  have hwf := hs.wf
  obtain ⟨a1, a2, a3, a4, a5, a6⟩ := YHeader.init_header1_fields type htype unbox hunbox
  have hh1 := YHeader.construct_header1 (zero_words s.current_top (size + 3) 0 s.mem)
    s.current_top size type unbox
  have hfs := YHeader.construct_field_size (zero_words s.current_top (size + 3) 0 s.mem)
    s.current_top size type unbox hsize
  generalize hm2 : YHeader.construct (zero_words s.current_top (size + 3) 0 s.mem)
    s.current_top size type unbox = m2 at hh1 hfs
  have hout : ∀ a, (a < s.current_top ∨ s.current_top + 8 * (size + 3) ≤ a) →
      m2 a = s.mem a := by
    intro a ha
    rw [← hm2, YHeader.construct_other _ _ _ _ _ hsize a (by omega)]
    refine zero_words_other _ _ _ _ _ (fun j _ hj => ?_)
    omega
  have hzero : ∀ i, i < size → YHeader.get_field m2 s.current_top i = 0 := by
    intro i hi
    rw [← hm2]
    refine YHeader.construct_field_zero _ _ _ _ _ i (by omega) ?_
    exact zero_words_at _ _ _ _ (i + 3) (Nat.zero_le _) (by omega)
  have hcb : object_bytes m2 s.current_top = 8 * (size + 3) := by
    unfold object_bytes object_words
    rw [hfs]
    rfl
  have hend := hs.end_eq
  have htop := hs.top_ge
  have hne := hwf.nursery_end
  have hinside : s.nursery_space ≤ s.current_top
      ∧ s.current_top + 8 * (size + 3) ≤ s.nursery_space_end := by
    rcases hwf.semi_spaces with ⟨a, b⟩ | ⟨a, b⟩ <;> omega
  have hold : ∀ o ∈ N ++ T, same_object s.mem m2 o := by
    intro o ho
    apply same_object_of_eq
    intro a h1 h2
    apply hout
    rcases List.mem_append.1 ho with h | h
    · have := hs.below_top o h
      omega
    · have := (hwf.old_outside o h).2.2
      omega
  have hNU : ∀ n ∈ N, n ∈ N ++ T := fun n hn => List.mem_append_left _ hn
  have hTU : ∀ n ∈ T, n ∈ N ++ T := fun n hn => List.mem_append_right _ hn
  have hbytes : ∀ o ∈ N ++ T, object_bytes m2 o = object_bytes s.mem o :=
    fun o ho => (hold o ho).bytes
  have hyoung : ∀ o, o ∈ N ++ [s.current_top] → o ∈ N ∨ o = s.current_top := by
    intro o ho
    rcases List.mem_append.1 ho with h | h
    · exact Or.inl h
    · exact Or.inr (List.mem_singleton.1 h)
  have hcnotT : s.current_top ∉ T := by
    intro h
    have := (hwf.old_outside _ h).2.2
    have := object_bytes_pos s.mem s.current_top
    omega
  constructor
  · constructor
    · exact hwf.nursery_pos
    · exact hwf.semi_spaces
    · exact hwf.nursery_end
    · exact hwf.heap_above
    · exact hwf.heap_room
    · show (N ++ [s.current_top]).Pairwise (fun a b => a + object_bytes m2 a ≤ b)
      rw [List.pairwise_append]
      refine ⟨hwf.young_sorted.imp_of_mem ?_, List.pairwise_singleton _ _, ?_⟩
      · intro a b ha _ hab
        rw [hbytes a (hNU a ha)]
        exact hab
      · intro a ha b hb
        rw [List.mem_singleton.1 hb, hbytes a (hNU a ha)]
        exact hs.below_top a ha
    · show ∀ o ∈ N ++ [s.current_top], s.semi_space0 ≤ o
        ∧ o + object_bytes m2 o ≤ s.semi_space0 + 8 * s.semi_space_size
      intro o ho
      rcases hyoung o ho with h | h
      · rw [hbytes o (hNU o h)]
        exact hwf.young_in_space o h
      · rw [h, hcb]
        omega
    · show ∀ o ∈ N ++ [s.current_top],
        YHeader.forward_pointer (YHeader.header1 m2 o) = 0
          ∧ 1 ≤ YHeader.gc_generation (YHeader.header1 m2 o)
      intro o ho
      rcases hyoung o ho with h | h
      · rw [(hold o (hNU o h)).1]
        exact hwf.young_header o h
      · rw [h, hh1, a6, a3]
        exact ⟨rfl, Nat.le_refl _⟩
    · show T.Pairwise
        (fun a b => a + object_bytes m2 a ≤ b ∨ b + object_bytes m2 b ≤ a)
      refine hwf.old_apart.imp_of_mem ?_
      intro a b ha hb' hab
      rw [hbytes a (hTU a ha), hbytes b (hTU b hb')]
      exact hab
    · show ∀ t ∈ T, t ≠ 0 ∧ t + object_bytes m2 t ≤ s.heap_break
        ∧ (t + object_bytes m2 t ≤ s.nursery_space ∨ s.nursery_space_end ≤ t)
      intro o ho
      rw [hbytes o (hTU o ho)]
      exact hwf.old_outside o ho
    · show ∀ t ∈ T, YHeader.gc_generation (YHeader.header1 m2 t) = 0
      intro o ho
      rw [(hold o (hTU o ho)).1]
      exact hwf.old_header o ho
    · show ∀ o ∈ (N ++ [s.current_top]) ++ T,
        ∀ i, i < YHeader.field_size (YHeader.header2 m2 o) →
        YHeader.has_boxed_value (YHeader.header1 m2 o) = true →
        YHeader.unbox_size (YHeader.header1 m2 o) ≤ i →
        Box.is_ptr (YHeader.get_field m2 o i) = true →
        YHeader.get_field m2 o i = 0 ∨ YHeader.get_field m2 o i ∈ N ++ [s.current_top]
          ∨ YHeader.get_field m2 o i ∈ T
      intro o ho i hi hb hu hp
      have hcase : o ∈ N ++ T ∨ o = s.current_top := by
        rcases List.mem_append.1 ho with h | h
        · rcases hyoung o h with h' | h'
          · exact Or.inl (hNU o h')
          · exact Or.inr h'
        · exact Or.inl (hTU o h)
      rcases hcase with h | h
      · obtain ⟨e1, e2, e3⟩ := hold o h
        rw [e2] at hi
        rw [e1] at hb hu
        rw [e3 i hi] at hp ⊢
        rcases hwf.fields_closed o h i hi hb hu hp with e | e | e
        · exact Or.inl e
        · exact Or.inr (Or.inl (List.mem_append_left _ e))
        · exact Or.inr (Or.inr e)
      · rw [h] at hi ⊢
        rw [hfs] at hi
        exact Or.inl (hzero i hi)
    · exact hwf.stack_fits
    · show ∀ i, i < (s.stack_top + 1).toNat →
        s.shadow_stack.getD i 0 = 0 ∨ s.shadow_stack.getD i 0 ∈ N ++ [s.current_top]
          ∨ s.shadow_stack.getD i 0 ∈ T
      intro i hi
      rcases hwf.roots_closed i hi with e | e | e
      · exact Or.inl e
      · exact Or.inr (Or.inl (List.mem_append_left _ e))
      · exact Or.inr (Or.inr e)
    · exact hwf.remembered_old
    · exact hwf.remembered_nodup
    · show ∀ t ∈ T,
        (∃ i, i < YHeader.field_size (YHeader.header2 m2 t)
          ∧ YHeader.has_boxed_value (YHeader.header1 m2 t) = true
          ∧ YHeader.unbox_size (YHeader.header1 m2 t) ≤ i
          ∧ Box.is_ptr (YHeader.get_field m2 t i) = true
          ∧ s.in_nursery (YHeader.get_field m2 t i) = true) →
        t ∈ s.remember_set
      intro o ho hex
      obtain ⟨i, hi, hb, hu, hp, hn⟩ := hex
      obtain ⟨e1, e2, e3⟩ := hold o (hTU o ho)
      rw [e2] at hi
      rw [e1] at hb hu
      rw [e3 i hi] at hp hn
      exact hwf.remembered_all o ho ⟨i, hi, hb, hu, hp, hn⟩
    · exact hwf.no_promoted
    · show tenure_list m2 (T.length + 1) s.tenure_space = T
      obtain ⟨hc, hn⟩ := chain_of_tenure_list T s.tenure_space hwf.tenure_chain
      exact tenure_list_of_chain T _
        (chain_to_of_next T _ _ (fun n hn => by rw [(hold n (hTU n hn)).1]) hc) hn
    · exact hwf.size_word
  · exact hs.sized
  · exact hs.mark_value
  · show ∀ o ∈ (N ++ [s.current_top]) ++ T,
      YHeader.gc_mark (YHeader.header1 m2 o) ≠ s.current_mark_bit
    intro o ho
    have hcase : o ∈ N ++ T ∨ o = s.current_top := by
      rcases List.mem_append.1 ho with h | h
      · rcases hyoung o h with h' | h'
        · exact Or.inl (hNU o h')
        · exact Or.inr h'
      · exact Or.inl (hTU o h)
    rcases hcase with h | h
    · rw [(hold o h).1]
      exact hs.unmarked o h
    · rw [h, hh1, a5]
      rcases hs.mark_value with e | e <;> omega
  · show ∀ o ∈ N ++ [s.current_top], YHeader.gc_remember (YHeader.header1 m2 o) = 0
    intro o ho
    rcases hyoung o ho with h | h
    · rw [(hold o (hNU o h)).1]
      exact hs.young_bit o h
    · rw [h, hh1, a4]
  · show ∀ t ∈ T, YHeader.gc_remember (YHeader.header1 m2 t) = 1 ↔ t ∈ s.remember_set
    intro o ho
    rw [(hold o (hTU o ho)).1]
    exact hs.old_bit o ho
  · show ∀ o ∈ N ++ [s.current_top], o + object_bytes m2 o ≤ s.current_top + 8 * (size + 3)
    intro o ho
    rcases hyoung o ho with h | h
    · rw [hbytes o (hNU o h)]
      have := hs.below_top o h
      omega
    · rw [h, hcb]
  · show s.semi_space0 ≤ s.current_top + 8 * (size + 3)
    omega
  · exact hfit
  · exact hs.end_eq

end GC


namespace YHeader

/-- The first header word of a boxed array made in the tenure space and linked before the
node `ts`. -/
theorem tenured_header (ts : Nat) (hts : ts < 2 ^ 48) :
    gc_generation (set_next_object (set_gc_generation (init_header1 2 0) 0) ts) = 0
      ∧ gc_remember (set_next_object (set_gc_generation (init_header1 2 0) 0) ts) = 0
      ∧ gc_mark (set_next_object (set_gc_generation (init_header1 2 0) 0) ts) = 0
      ∧ has_boxed_value (set_next_object (set_gc_generation (init_header1 2 0) 0) ts) = true
      ∧ unbox_size (set_next_object (set_gc_generation (init_header1 2 0) 0) ts) = 0
      ∧ next_object (set_next_object (set_gc_generation (init_header1 2 0) 0) ts) = ts := by
  have e0 : set_gc_generation (init_header1 2 0) 0 = 2 ^ 63 := by decide
  rw [e0]
  refine ⟨?_, ?_, ?_, ?_, ?_, next_object_set_next_object _ _ hts⟩
  · rw [gc_generation_eq, set_next_object_eq]; omega
  · rw [gc_remember_eq, set_next_object_eq]; omega
  · rw [gc_mark_eq, set_next_object_eq]; omega
  · rw [has_boxed_value_eq, set_next_object_eq]
    have : (2 ^ 63 / 2 ^ 48 % 2 ^ 16 * 2 ^ 48 + ts % 2 ^ 48) / 2 ^ 62 % 2 = 0 := by omega
    rw [this]
    rfl
  · rw [unbox_size_eq, set_next_object_eq]; omega

end YHeader

theorem make_in_tenure_eq (s : GC) (size : Nat) :
    YArray.make_in_tenure s size
      = (((s.set_heap_break (s.heap_break + (24 + size * 8))).set_tenure_space
          s.heap_break).set_mem (tenured_mem s size), s.heap_break) := rfl

theorem tenured_mem_facts (s : GC) (size : Nat) (hsize : size < 2 ^ 32) :
    YHeader.header1 (tenured_mem s size) s.heap_break
        = YHeader.set_next_object (YHeader.set_gc_generation (YHeader.init_header1 2 0) 0)
            s.tenure_space
      ∧ YHeader.field_size (YHeader.header2 (tenured_mem s size) s.heap_break) = size
      ∧ (∀ i, i < size → YHeader.get_field (tenured_mem s size) s.heap_break i = 0)
      ∧ (∀ a, (a < s.heap_break + 8 ∨ s.heap_break + 8 * (size + 3) ≤ a) →
          tenured_mem s size a = s.mem a) := by
  have hh1 := YHeader.construct_header1 s.mem s.heap_break size 2 0
  have hfs := YHeader.construct_field_size s.mem s.heap_break size 2 0 hsize
  have hco := YHeader.construct_other s.mem s.heap_break size 2 0 hsize
  unfold tenured_mem
  generalize YHeader.construct s.mem s.heap_break size 2 0 = m1 at hh1 hfs hco
  refine ⟨?_, ?_, ?_, ?_⟩
  · unfold YHeader.header1 at hh1 ⊢
    rw [YHeader.init_fields_other _ _ _ _ _ (fun j _ _ => by omega)]
    unfold YHeader.put_header1
    rw [Mem.write_same, Mem.write_same, hh1]
  · have : YHeader.header2 (YHeader.init_fields s.heap_break size 0
        (YHeader.put_header1
          (YHeader.put_header1 m1 s.heap_break
            (YHeader.set_gc_generation (YHeader.header1 m1 s.heap_break) 0))
          s.heap_break
          (YHeader.set_next_object
            (YHeader.header1
              (YHeader.put_header1 m1 s.heap_break
                (YHeader.set_gc_generation (YHeader.header1 m1 s.heap_break) 0))
              s.heap_break)
            s.tenure_space))) s.heap_break = YHeader.header2 m1 s.heap_break := by
      unfold YHeader.header2
      rw [YHeader.init_fields_other _ _ _ _ _ (fun j _ _ => by omega)]
      unfold YHeader.put_header1
      rw [Mem.write_other _ _ _ _ (by omega), Mem.write_other _ _ _ _ (by omega)]
    rw [this]
    exact hfs
  · intro i hi
    unfold YHeader.get_field
    rw [YHeader.field_addr_eq _ i (by omega)]
    have e : s.heap_break + 8 * (i + 3) = s.heap_break + 24 + 8 * i := by omega
    rw [e]
    exact YHeader.init_fields_at _ _ _ _ i (Nat.zero_le _) (by omega)
  · intro a ha
    rw [YHeader.init_fields_other _ _ _ _ _ (fun j _ hj => by omega)]
    unfold YHeader.put_header1
    rw [Mem.write_other _ _ _ _ (by omega), Mem.write_other _ _ _ _ (by omega)]
    exact hco a ha

namespace GC

/-- A boxed array made in the tenure space of a sound state, with room in the free store,
leaves a sound state: the new object is the head of the tenure list. -/
theorem Sound.make_in_tenure {s : GC} {N T : List Nat} (hs : s.Sound N T) (size : Nat)
    (hsize : size < 2 ^ 32)
    (hroom : s.heap_break + (24 + size * 8) + 8 * s.semi_space_size ≤ 2 ^ 48) :
    (YArray.make_in_tenure s size).1.Sound N (s.heap_break :: T)
      ∧ (YArray.make_in_tenure s size).2 = s.heap_break := by
  refine ⟨?_, rfl⟩
  rw [make_in_tenure_eq]
  have hwf := hs.wf
  have hL := hwf.listed
  obtain ⟨f1, hfs, hzero, hout⟩ := tenured_mem_facts s size hsize
  obtain ⟨b1, b2, b3, b4, b5, b6⟩ := YHeader.tenured_header s.tenure_space hL.head
  rw [← f1] at b1 b2 b3 b4 b5 b6
  generalize tenured_mem s size = m2 at f1 hfs hzero hout b1 b2 b3 b4 b5 b6
  have hcb : object_bytes m2 s.heap_break = 8 * (size + 3) := by
    unfold object_bytes object_words
    rw [hfs]
    rfl
  have habove := hwf.heap_above
  have hpos := hwf.nursery_pos
  have hne := hwf.nursery_end
  have hbelow : ∀ o ∈ N ++ T, o + object_bytes s.mem o ≤ s.heap_break := by
    intro o ho
    rcases List.mem_append.1 ho with h | h
    · have := (hwf.young_inside h).2
      omega
    · exact (hwf.old_outside o h).2.1
  have hold : ∀ o ∈ N ++ T, same_object s.mem m2 o := by
    intro o ho
    apply same_object_of_eq
    intro a h1 h2
    apply hout
    have := hbelow o ho
    omega
  have hNU : ∀ n ∈ N, n ∈ N ++ T := fun n hn => List.mem_append_left _ hn
  have hTU : ∀ n ∈ T, n ∈ N ++ T := fun n hn => List.mem_append_right _ hn
  have hbytes : ∀ o ∈ N ++ T, object_bytes m2 o = object_bytes s.mem o :=
    fun o ho => (hold o ho).bytes
  have hcnot : s.heap_break ∉ N ++ T := by
    intro h
    have := hbelow _ h
    have := object_bytes_pos s.mem s.heap_break
    omega
  have hcase : ∀ o, o ∈ N ++ s.heap_break :: T → o ∈ N ++ T ∨ o = s.heap_break := by
    intro o ho
    rcases List.mem_append.1 ho with h | h
    · exact Or.inl (hNU o h)
    · rcases List.mem_cons.1 h with e | e
      · exact Or.inr e
      · exact Or.inl (hTU o e)
  have hold2 : ∀ o, o ∈ s.heap_break :: T → o = s.heap_break ∨ o ∈ T :=
    fun o ho => List.mem_cons.1 ho
  constructor
  · constructor
    · exact hwf.nursery_pos
    · exact hwf.semi_spaces
    · exact hwf.nursery_end
    · show s.nursery_space_end ≤ s.heap_break + (24 + size * 8)
      omega
    · show s.heap_break + (24 + size * 8) + 8 * s.semi_space_size ≤ 2 ^ 48
      exact hroom
    · show N.Pairwise (fun a b => a + object_bytes m2 a ≤ b)
      refine hwf.young_sorted.imp_of_mem ?_
      intro a b ha _ hab
      rw [hbytes a (hNU a ha)]
      exact hab
    · show ∀ o ∈ N, s.semi_space0 ≤ o
        ∧ o + object_bytes m2 o ≤ s.semi_space0 + 8 * s.semi_space_size
      intro o ho
      rw [hbytes o (hNU o ho)]
      exact hwf.young_in_space o ho
    · show ∀ o ∈ N, YHeader.forward_pointer (YHeader.header1 m2 o) = 0
          ∧ 1 ≤ YHeader.gc_generation (YHeader.header1 m2 o)
      intro o ho
      rw [(hold o (hNU o ho)).1]
      exact hwf.young_header o ho
    · show (s.heap_break :: T).Pairwise
        (fun a b => a + object_bytes m2 a ≤ b ∨ b + object_bytes m2 b ≤ a)
      rw [List.pairwise_cons]
      constructor
      · intro b hb
        right
        rw [hbytes b (hTU b hb)]
        exact hbelow b (hTU b hb)
      · refine hwf.old_apart.imp_of_mem ?_
        intro a b ha hb' hab
        rw [hbytes a (hTU a ha), hbytes b (hTU b hb')]
        exact hab
    · show ∀ t ∈ s.heap_break :: T, t ≠ 0
        ∧ t + object_bytes m2 t ≤ s.heap_break + (24 + size * 8)
        ∧ (t + object_bytes m2 t ≤ s.nursery_space ∨ s.nursery_space_end ≤ t)
      intro o ho
      rcases hold2 o ho with h | h
      · rw [h, hcb]
        refine ⟨by omega, by omega, Or.inr habove⟩
      · rw [hbytes o (hTU o h)]
        obtain ⟨c1, c2, c3⟩ := hwf.old_outside o h
        exact ⟨c1, by omega, c3⟩
    · show ∀ t ∈ s.heap_break :: T, YHeader.gc_generation (YHeader.header1 m2 t) = 0
      intro o ho
      rcases hold2 o ho with h | h
      · rw [h]; exact b1
      · rw [(hold o (hTU o h)).1]
        exact hwf.old_header o h
    · show ∀ o ∈ N ++ s.heap_break :: T,
        ∀ i, i < YHeader.field_size (YHeader.header2 m2 o) →
        YHeader.has_boxed_value (YHeader.header1 m2 o) = true →
        YHeader.unbox_size (YHeader.header1 m2 o) ≤ i →
        Box.is_ptr (YHeader.get_field m2 o i) = true →
        YHeader.get_field m2 o i = 0 ∨ YHeader.get_field m2 o i ∈ N
          ∨ YHeader.get_field m2 o i ∈ s.heap_break :: T
      intro o ho i hi hb hu hp
      rcases hcase o ho with h | h
      · obtain ⟨e1, e2, e3⟩ := hold o h
        rw [e2] at hi
        rw [e1] at hb hu
        rw [e3 i hi] at hp ⊢
        rcases hwf.fields_closed o h i hi hb hu hp with e | e | e
        · exact Or.inl e
        · exact Or.inr (Or.inl e)
        · exact Or.inr (Or.inr (List.mem_cons_of_mem _ e))
      · rw [h] at hi ⊢
        rw [hfs] at hi
        exact Or.inl (hzero i hi)
    · exact hwf.stack_fits
    · show ∀ i, i < (s.stack_top + 1).toNat →
        s.shadow_stack.getD i 0 = 0 ∨ s.shadow_stack.getD i 0 ∈ N
          ∨ s.shadow_stack.getD i 0 ∈ s.heap_break :: T
      intro i hi
      rcases hwf.roots_closed i hi with e | e | e
      · exact Or.inl e
      · exact Or.inr (Or.inl e)
      · exact Or.inr (Or.inr (List.mem_cons_of_mem _ e))
    · show ∀ r ∈ s.remember_set, r = 0 ∨ r ∈ s.heap_break :: T
      intro r hr
      rcases hwf.remembered_old r hr with e | e
      · exact Or.inl e
      · exact Or.inr (List.mem_cons_of_mem _ e)
    · exact hwf.remembered_nodup
    · show ∀ t ∈ s.heap_break :: T,
        (∃ i, i < YHeader.field_size (YHeader.header2 m2 t)
          ∧ YHeader.has_boxed_value (YHeader.header1 m2 t) = true
          ∧ YHeader.unbox_size (YHeader.header1 m2 t) ≤ i
          ∧ Box.is_ptr (YHeader.get_field m2 t i) = true
          ∧ s.in_nursery (YHeader.get_field m2 t i) = true) →
        t ∈ s.remember_set
      intro o ho hex
      obtain ⟨i, hi, hb, hu, hp, hn⟩ := hex
      rcases hold2 o ho with h | h
      · exfalso
        rw [h] at hi hn
        rw [hfs] at hi
        rw [hzero i hi] at hn
        unfold GC.in_nursery at hn
        simp only [Bool.and_eq_true, decide_eq_true_eq] at hn
        omega
      · obtain ⟨e1, e2, e3⟩ := hold o (hTU o h)
        rw [e2] at hi
        rw [e1] at hb hu
        rw [e3 i hi] at hp hn
        exact hwf.remembered_all o h ⟨i, hi, hb, hu, hp, hn⟩
    · exact hwf.no_promoted
    · show tenure_list m2 ((s.heap_break :: T).length + 1) s.heap_break = s.heap_break :: T
      refine tenure_list_of_chain (s.heap_break :: T) _ ⟨rfl, ?_⟩ ?_
      · rw [b6]
        exact chain_to_of_next T _ _ (fun n hn => by rw [(hold n (hTU n hn)).1]) hL.chain
      · intro n hn
        rcases hold2 n hn with h | h
        · omega
        · exact hL.nonnull n h
    · exact hwf.size_word
  · exact hs.sized
  · exact hs.mark_value
  · show ∀ o ∈ N ++ s.heap_break :: T,
      YHeader.gc_mark (YHeader.header1 m2 o) ≠ s.current_mark_bit
    intro o ho
    rcases hcase o ho with h | h
    · rw [(hold o h).1]
      exact hs.unmarked o h
    · rw [h, b3]
      rcases hs.mark_value with e | e <;> omega
  · show ∀ o ∈ N, YHeader.gc_remember (YHeader.header1 m2 o) = 0
    intro o ho
    rw [(hold o (hNU o ho)).1]
    exact hs.young_bit o ho
  · show ∀ t ∈ s.heap_break :: T,
      YHeader.gc_remember (YHeader.header1 m2 t) = 1 ↔ t ∈ s.remember_set
    intro o ho
    rcases hold2 o ho with h | h
    · rw [h, b2]
      constructor
      · intro e
        cases e
      · intro hr
        exfalso
        rcases hwf.remembered_old _ hr with e | e
        · omega
        · exact hcnot (hTU _ e)
    · rw [(hold o (hTU o h)).1]
      exact hs.old_bit o h
  · show ∀ o ∈ N, o + object_bytes m2 o ≤ s.current_top
    intro o ho
    rw [hbytes o (hNU o ho)]
    exact hs.below_top o ho
  · exact hs.top_ge
  · exact hs.top_le
  · exact hs.end_eq

end GC


namespace GC

/-- A store of the word `v` into field `i` of the object `self` of a sound state, after the
write barrier did its work, leaves a sound state when a word that reads as a pointer is
null or an object. -/
theorem Sound.store_core {s t : GC} {N T : List Nat} (hs : s.Sound N T) {self i v : Nat}
    (hself : self ∈ N ++ T) (hi : i < YHeader.field_size (YHeader.header2 s.mem self))
    (hv : Box.is_ptr v = true → v = 0 ∨ v ∈ N ∨ v ∈ T)
    (q_ns : t.nursery_space = s.nursery_space)
    (q_ne : t.nursery_space_end = s.nursery_space_end)
    (q_sz : t.semi_space_size = s.semi_space_size)
    (q_s0 : t.semi_space0 = s.semi_space0)
    (q_s1 : t.semi_space1 = s.semi_space1)
    (q_ct : t.current_top = s.current_top)
    (q_ce : t.current_end = s.current_end)
    (q_po : t.promoted_objects = s.promoted_objects)
    (q_mb : t.current_mark_bit = s.current_mark_bit)
    (q_hb : t.heap_break = s.heap_break)
    (q_ts : t.tenure_space = s.tenure_space)
    (q_tz : t.tenure_space_size = s.tenure_space_size)
    (q_ss : t.shadow_stack = s.shadow_stack)
    (q_st : t.stack_top = s.stack_top)
    (hother : ∀ a, a ≠ self + 8 → a ≠ self + 8 * (i + 3) → t.mem a = s.mem a)
    (hfield : t.mem (self + 8 * (i + 3)) = v)
    (hcase : (t.mem (self + 8) = s.mem (self + 8) ∧ t.remember_set = s.remember_set
        ∧ ¬ (v ≠ 0 ∧ Box.is_ptr v = true
          ∧ YHeader.can_remember (YHeader.header1 s.mem self) = true
          ∧ YHeader.gc_generation (YHeader.header1 s.mem v) > 0))
      ∨ (t.mem (self + 8) = YHeader.set_gc_remember (YHeader.header1 s.mem self)
        ∧ t.remember_set = s.remember_set ++ [self]
        ∧ YHeader.can_remember (YHeader.header1 s.mem self) = true)) :
    t.Sound N T := by
  have hwf := hs.wf
  have hmbv : s.current_mark_bit < 4 := by
    rcases hs.mark_value with e | e <;> omega
  have hh := hwf.heap hmbv
  have hNU : ∀ n ∈ N, n ∈ N ++ T := fun n hn => List.mem_append_left _ hn
  have hTU : ∀ n ∈ T, n ∈ N ++ T := fun n hn => List.mem_append_right _ hn
  have h32 := field_size_lt (YHeader.header2 s.mem self)
  have hbself : object_bytes s.mem self
      = 8 * (YHeader.field_size (YHeader.header2 s.mem self) + 3) := rfl
  -- objects other than `self` read the same
  have hold : ∀ o ∈ N ++ T, o ≠ self → same_object s.mem t.mem o := by
    intro o ho hne
    apply same_object_of_eq
    intro a h1 h2
    have := hh.distinct_apart ho hself hne
    apply hother <;> omega
  have hh2 : ∀ o ∈ N ++ T, YHeader.header2 t.mem o = YHeader.header2 s.mem o := by
    intro o ho
    by_cases e : o = self
    · rw [e]
      exact hother _ (by omega) (by omega)
    · exact (hold o ho e).2.1
  have hbytes : ∀ o ∈ N ++ T, object_bytes t.mem o = object_bytes s.mem o := by
    intro o ho
    unfold object_bytes object_words
    rw [hh2 o ho]
  have hsm : ∀ o ∈ N ++ T,
      YHeader.same_but_marks (YHeader.header1 s.mem o) (YHeader.header1 t.mem o)
        ∧ YHeader.gc_mark (YHeader.header1 t.mem o) = YHeader.gc_mark (YHeader.header1 s.mem o) := by
    intro o ho
    by_cases e : o = self
    · rw [e]
      rcases hcase with ⟨c1, _, _⟩ | ⟨c1, _, _⟩
      · have : YHeader.header1 t.mem self = YHeader.header1 s.mem self := c1
        rw [this]
        exact ⟨YHeader.same_but_marks_refl _, rfl⟩
      · have : YHeader.header1 t.mem self
            = YHeader.set_gc_remember (YHeader.header1 s.mem self) := c1
        rw [this]
        exact ⟨YHeader.same_but_marks_set_gc_remember _, YHeader.gc_mark_set_gc_remember _⟩
    · rw [(hold o ho e).1]
      exact ⟨YHeader.same_but_marks_refl _, rfl⟩
  have hgen : ∀ o ∈ N ++ T, YHeader.gc_generation (YHeader.header1 t.mem o)
      = YHeader.gc_generation (YHeader.header1 s.mem o) :=
    fun o ho => YHeader.same_but_marks_generation (hsm o ho).1
  have hfld : ∀ o ∈ N ++ T, ∀ j, j < YHeader.field_size (YHeader.header2 s.mem o) →
      (o = self ∧ j = i ∧ YHeader.get_field t.mem o j = v)
        ∨ (¬ (o = self ∧ j = i)
          ∧ YHeader.get_field t.mem o j = YHeader.get_field s.mem o j) := by
    intro o ho j hj
    by_cases e : o = self
    · by_cases e2 : j = i
      · left
        refine ⟨e, e2, ?_⟩
        rw [e, e2]
        unfold YHeader.get_field
        rw [YHeader.field_addr_eq self i (by omega)]
        exact hfield
      · right
        refine ⟨fun h => e2 h.2, ?_⟩
        rw [e] at hj ⊢
        unfold YHeader.get_field
        rw [YHeader.field_addr_eq self j (by omega)]
        exact hother _ (by omega) (by omega)
    · right
      exact ⟨fun h => e h.1, (hold o ho e).2.2 j hj⟩
  have hrsub : ∀ r ∈ s.remember_set, r ∈ t.remember_set := by
    intro r hr
    rcases hcase with ⟨_, c2, _⟩ | ⟨_, c2, _⟩
    · rw [c2]; exact hr
    · rw [c2]; exact List.mem_append_left _ hr
  have hselfT : YHeader.can_remember (YHeader.header1 s.mem self) = true → self ∈ T := by
    intro hc
    rw [YHeader.can_remember_iff_generation_remember] at hc
    rcases List.mem_append.1 hself with h | h
    · have := (hwf.young_header self h).2
      omega
    · exact h
  constructor
  · constructor
    · rw [q_ns]; exact hwf.nursery_pos
    · rw [q_ns, q_s0, q_s1, q_sz]; exact hwf.semi_spaces
    · rw [q_ns, q_ne, q_sz]; exact hwf.nursery_end
    · rw [q_hb, q_ne]; exact hwf.heap_above
    · rw [q_hb, q_sz]; exact hwf.heap_room
    · refine hwf.young_sorted.imp_of_mem ?_
      intro a b ha _ hab
      rw [hbytes a (hNU a ha)]
      exact hab
    · intro o ho
      rw [hbytes o (hNU o ho), q_s0, q_sz]
      exact hwf.young_in_space o ho
    · intro o ho
      rw [hgen o (hNU o ho), YHeader.same_but_marks_forward (hsm o (hNU o ho)).1]
      exact hwf.young_header o ho
    · refine hwf.old_apart.imp_of_mem ?_
      intro a b ha hb' hab
      rw [hbytes a (hTU a ha), hbytes b (hTU b hb')]
      exact hab
    · intro o ho
      rw [hbytes o (hTU o ho), q_hb, q_ns, q_ne]
      exact hwf.old_outside o ho
    · intro o ho
      rw [hgen o (hTU o ho)]
      exact hwf.old_header o ho
    · intro o ho j hj hb hu hp
      obtain ⟨e1, e2, _⟩ := YHeader.same_but_marks_shape (hsm o ho).1
      rw [hh2 o ho] at hj
      rw [e1] at hb
      rw [e2] at hu
      rcases hfld o ho j hj with ⟨_, _, e3⟩ | ⟨_, e3⟩
      · rw [e3] at hp ⊢
        exact hv hp
      · rw [e3] at hp ⊢
        exact hwf.fields_closed o ho j hj hb hu hp
    · rw [q_st, q_ss]; exact hwf.stack_fits
    · intro k hk
      rw [q_st] at hk
      rw [q_ss]
      exact hwf.roots_closed k hk
    · intro r hr
      rcases hcase with ⟨_, c2, _⟩ | ⟨_, c2, c3⟩
      · rw [c2] at hr
        exact hwf.remembered_old r hr
      · rw [c2] at hr
        rcases List.mem_append.1 hr with h | h
        · exact hwf.remembered_old r h
        · rw [List.mem_singleton.1 h]
          exact Or.inr (hselfT c3)
    · rcases hcase with ⟨_, c2, _⟩ | ⟨_, c2, c3⟩
      · rw [c2]; exact hwf.remembered_nodup
      · rw [c2, List.pairwise_append]
        refine ⟨hwf.remembered_nodup, List.pairwise_singleton _ _, ?_⟩
        intro a ha b hb _ hab
        rw [List.mem_singleton.1 hb] at hab
        rw [hab] at ha
        have hbit := (hs.old_bit self (hselfT c3)).2 ha
        rw [YHeader.can_remember_iff_generation_remember] at c3
        omega
    · intro o ho hex
      obtain ⟨j, hj, hb, hu, hp, hn⟩ := hex
      obtain ⟨e1, e2, _⟩ := YHeader.same_but_marks_shape (hsm o (hTU o ho)).1
      rw [hh2 o (hTU o ho)] at hj
      rw [e1] at hb
      rw [e2] at hu
      have hn' : s.in_nursery (YHeader.get_field t.mem o j) = true := by
        unfold GC.in_nursery at hn ⊢
        rw [q_ns, q_ne] at hn
        exact hn
      rcases hfld o (hTU o ho) j hj with ⟨e4, _, e3⟩ | ⟨_, e3⟩
      · rw [e3] at hp hn'
        have hn2 : s.nursery_space ≤ v ∧ v < s.nursery_space_end := by
          unfold GC.in_nursery at hn'
          simpa using hn'
        have hpos := hwf.nursery_pos
        have hv0 : v ≠ 0 := by omega
        have hvN : v ∈ N := by
          rcases hv hp with e | e | e
          · exact absurd e hv0
          · exact e
          · have := (hwf.old_outside v e).2.2
            have := object_bytes_pos s.mem v
            omega
        have hg := (hwf.young_header v hvN).2
        rcases hcase with ⟨_, c2, c3⟩ | ⟨_, c2, _⟩
        · rw [c2]
          have hb1 : YHeader.gc_remember (YHeader.header1 s.mem self) = 1 := by
            by_contra hne
            apply c3
            refine ⟨hv0, hp, ?_, by omega⟩
            rw [YHeader.can_remember_iff_generation_remember]
            have := YHeader.gc_remember_lt (YHeader.header1 s.mem self)
            have := hwf.old_header self (e4 ▸ ho)
            omega
          rw [e4]
          exact (hs.old_bit self (e4 ▸ ho)).1 hb1
        · rw [c2, e4]
          exact List.mem_append_right _ (List.mem_singleton_self _)
      · rw [e3] at hp hn'
        exact hrsub o (hwf.remembered_all o ho ⟨j, hj, hb, hu, hp, hn'⟩)
    · rw [q_po]; exact hwf.no_promoted
    · obtain ⟨hc, hn⟩ := chain_of_tenure_list T s.tenure_space hwf.tenure_chain
      rw [q_ts]
      exact tenure_list_of_chain T _
        (chain_to_of_next T _ _
          (fun n hn => (YHeader.same_but_marks_shape (hsm n (hTU n hn)).1).2.2) hc) hn
    · rw [q_tz]; exact hwf.size_word
  · unfold Shadow.sized
    rw [q_st, q_ss]
    exact hs.sized
  · rw [q_mb]; exact hs.mark_value
  · intro o ho
    rw [(hsm o ho).2, q_mb]
    exact hs.unmarked o ho
  · intro o ho
    by_cases e : o = self
    · rcases hcase with ⟨c1, _, _⟩ | ⟨_, _, c3⟩
      · have : YHeader.header1 t.mem o = YHeader.header1 s.mem o := by rw [e]; exact c1
        rw [this]
        exact hs.young_bit o ho
      · exfalso
        exact hwf.young_not_old ho (e ▸ hselfT c3)
    · rw [(hold o (hNU o ho) e).1]
      exact hs.young_bit o ho
  · intro o ho
    by_cases e : o = self
    · rcases hcase with ⟨c1, c2, _⟩ | ⟨c1, c2, _⟩
      · have : YHeader.header1 t.mem o = YHeader.header1 s.mem o := by rw [e]; exact c1
        rw [this, c2]
        exact hs.old_bit o ho
      · have : YHeader.header1 t.mem o
            = YHeader.set_gc_remember (YHeader.header1 s.mem self) := by rw [e]; exact c1
        rw [this, c2, YHeader.gc_remember_set_gc_remember, e]
        exact ⟨fun _ => List.mem_append_right _ (List.mem_singleton_self _), fun _ => rfl⟩
    · rw [(hold o (hTU o ho) e).1]
      rcases hcase with ⟨_, c2, _⟩ | ⟨_, c2, _⟩
      · rw [c2]
        exact hs.old_bit o ho
      · rw [c2, List.mem_append, List.mem_singleton]
        constructor
        · intro h
          exact Or.inl ((hs.old_bit o ho).1 h)
        · intro h
          rcases h with h | h
          · exact (hs.old_bit o ho).2 h
          · exact absurd h e
  · intro o ho
    rw [hbytes o (hNU o ho), q_ct]
    exact hs.below_top o ho
  · rw [q_s0, q_ct]; exact hs.top_ge
  · rw [q_ct, q_ce]; exact hs.top_le
  · rw [q_ce, q_s0, q_sz]; exact hs.end_eq

/-- A store through the write barrier into a field of an object of a sound state leaves a
sound state, when a word that reads as a pointer is null or an object. -/
theorem Sound.store {s : GC} {N T : List Nat} (hs : s.Sound N T) {self i v : Nat}
    (hself : self ∈ N ++ T) (hi : i < YHeader.field_size (YHeader.header2 s.mem self))
    (hv : Box.is_ptr v = true → v = 0 ∨ v ∈ N ∨ v ∈ T) :
    (Example.store s self i v).Sound N T := by
  have h32 := field_size_lt (YHeader.header2 s.mem self)
  have hfa := YHeader.field_addr_eq self i (by omega)
  unfold Example.store
  simp only
  by_cases hc : v ≠ Box.null_value ∧ Box.is_ptr v = true
      ∧ YHeader.can_remember (YHeader.header1 s.mem self) = true
      ∧ YHeader.gc_generation (YHeader.header1 s.mem (Box.to_ptr v)) > 0
  · have e1 : (w_barrier s self v).1
        = (s.set_mem (YHeader.put_header1 s.mem self
            (YHeader.set_gc_remember (YHeader.header1 s.mem self)))).set_remember_set
            (s.remember_set ++ [self]) := w_barrier_fire s self v hc
    have e2 : (w_barrier s self v).2 = v := by
      unfold w_barrier
      rw [if_pos hc]
    rw [e1, e2]
    refine hs.store_core hself hi hv rfl rfl rfl rfl rfl rfl rfl rfl rfl rfl rfl rfl rfl rfl
      ?_ ?_ (Or.inr ⟨?_, rfl, hc.2.2.1⟩)
    · intro a h1 h2
      show YHeader.set_field (YHeader.put_header1 s.mem self _) self i v a = s.mem a
      unfold YHeader.set_field YHeader.put_header1
      rw [hfa, Mem.write_other _ _ _ _ h2, Mem.write_other _ _ _ _ h1]
    · show YHeader.set_field (YHeader.put_header1 s.mem self _) self i v _ = v
      unfold YHeader.set_field
      rw [hfa]
      exact Mem.write_same _ _ _
    · show YHeader.set_field (YHeader.put_header1 s.mem self _) self i v _ = _
      unfold YHeader.set_field YHeader.put_header1
      rw [hfa, Mem.write_other _ _ _ _ (by omega)]
      exact Mem.write_same _ _ _
  · have e1 : (w_barrier s self v).1 = s := w_barrier_skip s self v hc
    have e2 : (w_barrier s self v).2 = v := by
      unfold w_barrier
      rw [if_neg hc]
    rw [e1, e2]
    refine hs.store_core hself hi hv rfl rfl rfl rfl rfl rfl rfl rfl rfl rfl rfl rfl rfl rfl
      ?_ ?_ (Or.inl ⟨?_, rfl, hc⟩)
    · intro a h1 h2
      show YHeader.set_field s.mem self i v a = s.mem a
      unfold YHeader.set_field
      rw [hfa, Mem.write_other _ _ _ _ h2]
    · show YHeader.set_field s.mem self i v _ = v
      unfold YHeader.set_field
      rw [hfa]
      exact Mem.write_same _ _ _
    · show YHeader.set_field s.mem self i v _ = _
      unfold YHeader.set_field
      rw [hfa, Mem.write_other _ _ _ _ (by omega)]

end GC


theorem getD_set_cases (l : List Nat) (k v i : Nat) :
    (l.set k v).getD i 0 = v ∨ (l.set k v).getD i 0 = l.getD i 0 := by
  rw [List.getD_eq_getElem?_getD, List.getD_eq_getElem?_getD, List.getElem?_set]
  by_cases e : k = i
  · rw [if_pos e]
    by_cases h : k < l.length
    · rw [if_pos h]
      exact Or.inl rfl
    · rw [if_neg h]
      right
      have : l[i]? = none := List.getElem?_eq_none (by omega)
      rw [this]
  · rw [if_neg e]
    exact Or.inr rfl

namespace GC

/-- The state that `GC::initialize` leaves is sound, with no objects, when the nursery is
not at address zero and the free store has room. -/
theorem Sound.init (heap_base young_size stack_size : Nat) (hb : 0 < heap_base)
    (hroom : heap_base + 24 * young_size ≤ 2 ^ 48) :
    (GC.initialise (GC.start heap_base) young_size stack_size).Sound [] [] := by
  constructor
  · constructor
    · exact hb
    · exact Or.inl ⟨rfl, rfl⟩
    · show heap_base + 8 * (young_size * 2) = heap_base + 16 * young_size
      omega
    · exact Nat.le_refl _
    · show heap_base + 8 * (young_size * 2) + 8 * young_size ≤ 2 ^ 48
      omega
    · exact List.Pairwise.nil
    · intro o ho; cases ho
    · intro o ho; cases ho
    · exact List.Pairwise.nil
    · intro o ho; cases ho
    · intro o ho; cases ho
    · intro o ho; cases ho
    · exact Nat.le_refl _
    · intro i hi
      have : ((-1 : Int) + 1).toNat = 0 := rfl
      have hi' : i < ((-1 : Int) + 1).toNat := hi
      omega
    · intro r hr; cases hr
    · exact List.Pairwise.nil
    · intro o ho; cases ho
    · rfl
    · rfl
    · show (0 : Nat) < 2 ^ 64
      norm_num
  · exact ⟨Int.le_refl _, rfl⟩
  · exact Or.inl rfl
  · intro o ho; cases ho
  · intro o ho; cases ho
  · intro o ho; cases ho
  · intro o ho; cases ho
  · exact Nat.le_refl _
  · show heap_base ≤ heap_base + 8 * young_size
    omega
  · rfl

/-- The function `Shadow::expand` keeps a sound state sound. -/
theorem Sound.expand {s : GC} {N T : List Nat} (hs : s.Sound N T) (size : Nat) :
    (Shadow.expand s (size : Int)).Sound N T := by
  obtain ⟨e1, e2⟩ := Shadow.expand_stack s size hs.sized
  obtain ⟨h1, h2⟩ := hs.sized
  refine hs.frame (fun o _ => same_object_refl _ o) rfl rfl rfl rfl rfl rfl rfl rfl rfl rfl
    rfl rfl rfl ?_ ?_
  · refine ⟨by rw [e2]; omega, ?_⟩
    rw [e1, e2, List.length_append, List.length_replicate]
    omega
  · intro i hi
    rw [e1]
    by_cases hlt : i < s.shadow_stack.length
    · have : (s.shadow_stack ++ List.replicate size 0).getD i 0 = s.shadow_stack.getD i 0 := by
        rw [List.getD_eq_getElem?_getD, List.getD_eq_getElem?_getD,
          List.getElem?_append_left hlt]
      rw [this]
      exact hs.wf.roots_closed i (by omega)
    · exact Or.inl (Shadow.getD_replicate_zero _ _ _ (by omega))

/-- The function `Shadow::shrink` keeps a sound state sound. -/
theorem Sound.shrink {s : GC} {N T : List Nat} (hs : s.Sound N T) (size : Nat)
    (hle : (size : Int) ≤ s.stack_top + 1) : (Shadow.shrink s size).Sound N T := by
  obtain ⟨h1, h2⟩ := hs.sized
  have hlen : (Shadow.resize s.shadow_stack (s.stack_top - size + 1).toNat).length
      = (s.stack_top - size + 1).toNat := by
    unfold Shadow.resize
    rw [List.length_append, List.length_take, List.length_replicate]
    omega
  refine hs.frame (fun o _ => same_object_refl _ o) rfl rfl rfl rfl rfl rfl rfl rfl rfl rfl
    rfl rfl rfl ?_ ?_
  · unfold Shadow.shrink Shadow.sized
    simp only [GC.set_shadow_stack_proj, GC.set_stack_top_proj]
    exact ⟨by omega, hlen⟩
  · intro i hi
    have hi' : i < (s.stack_top - size + 1).toNat := hi
    have : (Shadow.shrink s size).shadow_stack.getD i 0 = s.shadow_stack.getD i 0 := by
      show (Shadow.resize s.shadow_stack (s.stack_top - size + 1).toNat).getD i 0 = _
      unfold Shadow.resize
      rw [List.getD_eq_getElem?_getD, List.getD_eq_getElem?_getD,
        List.getElem?_append_left (by rw [List.length_take]; omega), List.getElem?_take]
      rw [if_pos hi']
    rw [this]
    exact hs.wf.roots_closed i (by omega)

/-- The function `Shadow::set` keeps a sound state sound when the value is null or an
object. -/
theorem Sound.set_slot {s : GC} {N T : List Nat} (hs : s.Sound N T) (index : Int)
    (value : Nat) (hv : value = 0 ∨ value ∈ N ∨ value ∈ T) :
    (Shadow.set s index value).Sound N T := by
  obtain ⟨h1, h2⟩ := hs.sized
  refine hs.frame (fun o _ => same_object_refl _ o) rfl rfl rfl rfl rfl rfl rfl rfl rfl rfl
    rfl rfl rfl ?_ ?_
  · unfold Shadow.set Shadow.sized
    simp only [GC.set_shadow_stack_proj]
    refine ⟨h1, ?_⟩
    rw [List.length_set]
    exact h2
  · intro i hi
    have hi' : i < (s.stack_top + 1).toNat := hi
    show (s.shadow_stack.set (s.stack_top - index).toNat value).getD i 0 = 0
      ∨ (s.shadow_stack.set (s.stack_top - index).toNat value).getD i 0 ∈ N
      ∨ (s.shadow_stack.set (s.stack_top - index).toNat value).getD i 0 ∈ T
    rcases getD_set_cases s.shadow_stack (s.stack_top - index).toNat value i with e | e
    · rw [e]; exact hv
    · rw [e]; exact hs.wf.roots_closed i hi'

/-- The allocator of the nursery, when it returns in a sound state with room in the free
store, has published the region at the bump pointer of a sound state; when it throws, it
leaves a sound state. -/
theorem Sound.allocate_of {s : GC} {N T : List Nat} (hs : s.Sound N T) (size : Nat)
    (hsize : size < 2 ^ 32) (hroom : s.heap_break + 32 * s.semi_space_size ≤ 2 ^ 48)
    {fuel : Nat} {o : Outcome} (h : allocate_in_semi fuel s (24 + size * 8) = some o) :
    (∀ u, o = Outcome.memory_exhausted u → ∃ (N' T' : List Nat), u.Sound N' T')
      ∧ (∀ u p, o = Outcome.returned u p → ∃ (s' : GC) (N' T' : List Nat), s'.Sound N' T'
          ∧ s'.current_top + 8 * (size + 3) ≤ s'.current_end
          ∧ u = (s'.set_current_top (s'.current_top + 8 * (size + 3))).set_mem
              (zero_words s'.current_top (size + 3) 0 s'.mem)
          ∧ p = s'.current_top) := by
  have hw : ((24 + size * 8 + 8 - 1) % 2 ^ 64) / 8 = size + 3 := by omega
  unfold allocate_in_semi at h
  simp only [hw] at h
  split at h
  · rename_i hbig
    unfold allocate_in_semi2 at h
    cases e : mark_sweep_gc_if_needed fuel s with
    | none =>
      rw [e] at h
      cases h
    | some r =>
      obtain ⟨s1, n1⟩ := r
      rw [e] at h
      simp only at h
      obtain ⟨N1, T1, g1, g2, g3⟩ := hs.if_needed_of e
      cases e2 : alloc_attempts fuel (size + 3) 3 s1 with
      | none =>
        rw [e2] at h
        cases h
      | some o2 =>
        rw [e2] at h
        obtain ⟨N2, T2, k1, _, _, k4⟩ := Sound.alloc_attempts_of fuel (size + 3) 3 s1 N1 T1 g1
          (by rw [g2, g3]; omega) o2 e2
        cases o2 with
        | memory_exhausted u =>
          simp only at h
          cases h
          refine ⟨fun u' e' => ?_, fun u' p e' => by cases e'⟩
          cases e'
          exact ⟨N2, T2, k1⟩
        | returned u nt =>
          simp only at h
          cases h
          refine ⟨fun u' e' => (by cases e'), fun u' p e' => ?_⟩
          obtain ⟨k5, k6⟩ := k4 u nt rfl
          unfold publish at e'
          cases e'
          exact ⟨u, N2, T2, k1, by omega, by rw [k5], rfl⟩
  · rename_i hfit
    cases h
    refine ⟨fun u' e' => (by cases e'), fun u' p e' => ?_⟩
    unfold publish at e'
    cases e'
    exact ⟨s, N, T, hs, by omega, rfl, rfl⟩

/-- The factory `YArray::make`, when it returns in a sound state with room in the free
store, leaves a sound state of which the new array is an object. -/
theorem Sound.make_of {s : GC} {N T : List Nat} (hs : s.Sound N T) (size : Nat)
    (hsize : size < 2 ^ 32) (hroom : s.heap_break + 32 * s.semi_space_size ≤ 2 ^ 48)
    {fuel : Nat} {t : GC} {p : Nat}
    (h : YArray.make fuel s size = some (Outcome.returned t p)) :
    ∃ (N' T' : List Nat), t.Sound N' T' ∧ p ∈ N' := by
  unfold YArray.make at h
  cases e : allocate_in_semi fuel s (24 + size * 8) with
  | none =>
    rw [e] at h
    cases h
  | some o =>
    rw [e] at h
    obtain ⟨_, k2⟩ := hs.allocate_of size hsize hroom e
    cases o with
    | memory_exhausted u =>
      simp only at h
      cases h
    | returned u q =>
      simp only at h
      cases h
      obtain ⟨s', N', T', g1, g2, g3, g4⟩ := k2 u p rfl
      refine ⟨N' ++ [s'.current_top], T', ?_, ?_⟩
      · rw [g3, g4]
        exact g1.young_object size 2 0 hsize (by omega) (by omega) g2
      · rw [g4]
        exact List.mem_append_right _ (List.mem_singleton_self _)

/-- The factory `YArray::make`, when it throws in a sound state with room in the free
store, leaves a sound state. -/
theorem Sound.make_failed {s : GC} {N T : List Nat} (hs : s.Sound N T) (size : Nat)
    (hsize : size < 2 ^ 32) (hroom : s.heap_break + 32 * s.semi_space_size ≤ 2 ^ 48)
    {fuel : Nat} {t : GC}
    (h : YArray.make fuel s size = some (Outcome.memory_exhausted t)) :
    ∃ (N' T' : List Nat), t.Sound N' T' := by
  unfold YArray.make at h
  cases e : allocate_in_semi fuel s (24 + size * 8) with
  | none =>
    rw [e] at h
    cases h
  | some o =>
    rw [e] at h
    obtain ⟨k1, _⟩ := hs.allocate_of size hsize hroom e
    cases o with
    | memory_exhausted u =>
      simp only at h
      cases h
      exact k1 t rfl
    | returned u q =>
      simp only at h
      cases h

/-- The factory `YUnboxArray::make`, when it returns in a sound state with room in the free
store, leaves a sound state of which the new array is an object. -/
theorem Sound.make_unboxed_of {s : GC} {N T : List Nat} (hs : s.Sound N T) (size : Nat)
    (hsize : size < 2 ^ 32) (hroom : s.heap_break + 32 * s.semi_space_size ≤ 2 ^ 48)
    {fuel : Nat} {t : GC} {p : Nat}
    (h : YUnboxArray.make fuel s size = some (Outcome.returned t p)) :
    ∃ (N' T' : List Nat), t.Sound N' T' ∧ p ∈ N' := by
  unfold YUnboxArray.make at h
  cases e : allocate_in_semi fuel s (24 + size * 8) with
  | none =>
    rw [e] at h
    cases h
  | some o =>
    rw [e] at h
    obtain ⟨_, k2⟩ := hs.allocate_of size hsize hroom e
    cases o with
    | memory_exhausted u =>
      simp only at h
      cases h
    | returned u q =>
      simp only at h
      cases h
      obtain ⟨s', N', T', g1, g2, g3, g4⟩ := k2 u p rfl
      refine ⟨N' ++ [s'.current_top], T', ?_, ?_⟩
      · rw [g3, g4]
        exact g1.young_object size 1 0 hsize (by omega) (by omega) g2
      · rw [g4]
        exact List.mem_append_right _ (List.mem_singleton_self _)

/-- The factory `YUnboxArray::make`, when it throws in a sound state with room in the free
store, leaves a sound state. -/
theorem Sound.make_unboxed_failed {s : GC} {N T : List Nat} (hs : s.Sound N T) (size : Nat)
    (hsize : size < 2 ^ 32) (hroom : s.heap_break + 32 * s.semi_space_size ≤ 2 ^ 48)
    {fuel : Nat} {t : GC}
    (h : YUnboxArray.make fuel s size = some (Outcome.memory_exhausted t)) :
    ∃ (N' T' : List Nat), t.Sound N' T' := by
  unfold YUnboxArray.make at h
  cases e : allocate_in_semi fuel s (24 + size * 8) with
  | none =>
    rw [e] at h
    cases h
  | some o =>
    rw [e] at h
    obtain ⟨k1, _⟩ := hs.allocate_of size hsize hroom e
    cases o with
    | memory_exhausted u =>
      simp only at h
      cases h
      exact k1 t rfl
    | returned u q =>
      simp only at h
      cases h

end GC


namespace GC

/-- An object of a sound state has an address of 48 bits. -/
theorem Sound.object_lt {s : GC} {N T : List Nat} (hs : s.Sound N T) {o : Nat}
    (ho : o ∈ N ++ T) : o < 2 ^ 48 := by
  have h1 := hs.wf.heap_room
  have h2 := hs.wf.heap_above
  have := object_bytes_pos s.mem o
  rcases List.mem_append.1 ho with h | h
  · have := (hs.wf.young_inside h).2
    omega
  · have := (hs.wf.old_outside o h).2.1
    omega

/-- A state of a program that keeps to the protocol of the shadow stack is sound, and the
pointers that the program holds are null or objects. -/
theorem Run.sound {s : GC} {R : List Nat} (h : s.Run R) :
    ∃ (N T : List Nat), s.Sound N T ∧ ∀ p ∈ R, p = 0 ∨ p ∈ N ∨ p ∈ T := by
  induction h with
  | init heap_base young_size stack_size hb hroom =>
    exact ⟨[], [], Sound.init heap_base young_size stack_size hb hroom,
      fun p hp => by cases hp⟩
  | expand size _ ih =>
    obtain ⟨N, T, hs, hR⟩ := ih
    exact ⟨N, T, hs.expand size, hR⟩
  | shrink size _ hle ih =>
    obtain ⟨N, T, hs, hR⟩ := ih
    exact ⟨N, T, hs.shrink size hle, hR⟩
  | @get s R index _ h0 h1 ih =>
    obtain ⟨N, T, hs, hR⟩ := ih
    refine ⟨N, T, hs, ?_⟩
    intro p hp
    rcases List.mem_cons.1 hp with e | e
    · rw [e]
      exact hs.wf.roots_closed (s.stack_top - index).toNat (by omega)
    · exact hR p e
  | set index value _ _ _ hv ih =>
    obtain ⟨N, T, hs, hR⟩ := ih
    refine ⟨N, T, hs.set_slot index value ?_, hR⟩
    rcases hv with e | e
    · exact Or.inl e
    · exact hR value e
  | @load s R self i _ hself h0 hi hp ih =>
    obtain ⟨N, T, hs, hR⟩ := ih
    refine ⟨N, T, hs, ?_⟩
    intro p hp'
    rcases List.mem_cons.1 hp' with e | e
    · rw [e]
      have hsU : self ∈ N ++ T := by
        rcases hR self hself with a | a | a
        · exact absurd a h0
        · exact List.mem_append_left _ a
        · exact List.mem_append_right _ a
      exact hs.wf.fields_closed self hsU i hi.2.2 hi.1 hi.2.1 hp
    · exact hR p e
  | @store s R self i v _ hself h0 hi hv ih =>
    obtain ⟨N, T, hs, hR⟩ := ih
    have hsU : self ∈ N ++ T := by
      rcases hR self hself with a | a | a
      · exact absurd a h0
      · exact List.mem_append_left _ a
      · exact List.mem_append_right _ a
    refine ⟨N, T, hs.store hsU hi ?_, hR⟩
    intro hp
    rcases hv hp with e | e
    · exact Or.inl e
    · exact hR v e
  | drop R' _ hsub ih =>
    obtain ⟨N, T, hs, hR⟩ := ih
    exact ⟨N, T, hs, fun p hp => hR p (hsub p hp)⟩
  | make fuel size _ hsize hroom hrun ih =>
    obtain ⟨N, T, hs, _⟩ := ih
    obtain ⟨N', T', h1, h2⟩ := hs.make_of size hsize hroom hrun
    refine ⟨N', T', h1, ?_⟩
    intro q hq
    rw [List.mem_singleton.1 hq]
    exact Or.inr (Or.inl h2)
  | make_failed fuel size _ hsize hroom hrun ih =>
    obtain ⟨N, T, hs, _⟩ := ih
    obtain ⟨N', T', h1⟩ := hs.make_failed size hsize hroom hrun
    exact ⟨N', T', h1, fun p hp => by cases hp⟩
  | make_unboxed fuel size _ hsize hroom hrun ih =>
    obtain ⟨N, T, hs, _⟩ := ih
    obtain ⟨N', T', h1, h2⟩ := hs.make_unboxed_of size hsize hroom hrun
    refine ⟨N', T', h1, ?_⟩
    intro q hq
    rw [List.mem_singleton.1 hq]
    exact Or.inr (Or.inl h2)
  | make_unboxed_failed fuel size _ hsize hroom hrun ih =>
    obtain ⟨N, T, hs, _⟩ := ih
    obtain ⟨N', T', h1⟩ := hs.make_unboxed_failed size hsize hroom hrun
    exact ⟨N', T', h1, fun p hp => by cases hp⟩
  | @make_in_tenure s R size _ hsize hroom ih =>
    obtain ⟨N, T, hs, hR⟩ := ih
    obtain ⟨h1, h2⟩ := hs.make_in_tenure size hsize hroom
    refine ⟨N, s.heap_break :: T, h1, ?_⟩
    intro p hp
    rcases List.mem_cons.1 hp with e | e
    · rw [e, h2]
      exact Or.inr (Or.inr (List.mem_cons_self _ _))
    · rcases hR p e with a | a | a
      · exact Or.inl a
      · exact Or.inr (Or.inl a)
      · exact Or.inr (Or.inr (List.mem_cons_of_mem _ a))
  | minor fuel _ hroom hrun ih =>
    obtain ⟨N, T, hs, _⟩ := ih
    obtain ⟨N', T', h1, _⟩ := hs.scavenge_of hroom hrun
    exact ⟨N', T', h1, fun p hp => by cases hp⟩
  | major fuel _ hrun ih =>
    obtain ⟨N, T, hs, _⟩ := ih
    obtain ⟨N', T', h1, _⟩ := hs.major_of hrun
    exact ⟨N', T', h1, fun p hp => by cases hp⟩
  | if_needed fuel _ hrun ih =>
    obtain ⟨N, T, hs, _⟩ := ih
    obtain ⟨N', T', h1, _⟩ := hs.if_needed_of hrun
    exact ⟨N', T', h1, fun p hp => by cases hp⟩

end GC


/-- C1: from every state that satisfies the collector's invariants `GC.WF` (with young
objects `N` and tenured objects `T`), `do_copy_gc` with fuel covering the young objects
returns, and the live-object count it returns is the number of distinct nursery objects
reachable through boxed pointer fields from the non-null shadow-stack entries up to
`stack_top` and the non-null remember-set entries. -/
theorem do_copy_gc_counts_reachable (s : GC) (N T : List Nat) (hwf : s.WF N T) (fuel : Nat)
    (hf : N.length ≤ fuel) :
    ∃ (t : GC) (n : Nat) (L : List Nat), GC.do_copy_gc fuel s = some (t, n) ∧ L.Nodup
      ∧ (∀ x, x ∈ L ↔ s.in_nursery x = true ∧ s.copy_reachable x) ∧ n = L.length := by
  obtain ⟨c, F, D, Lk, Q, e, h, -, hall⟩ := hwf.do_copy_gc fuel hf
  have hwf0 := hwf.count (s.copy_gc_count + 1)
  refine ⟨_, _, F.map Prod.fst, e, h.inv.keys_nodup, ?_, ?_⟩
  · intro x
    constructor
    · intro hx
      obtain ⟨y, hy, ey⟩ := List.mem_map.1 hx
      rw [← ey]
      exact ⟨hwf.in_nursery_young (h.inv.keys_young y hy), h.inv.reach y hy⟩
    · rintro ⟨hn, r, hr, hp⟩
      have hcl := h.closed hwf0 hall hr hp
      rcases hcl.1 with hN | hT
      · exact hcl.2 hN
      · rw [hwf.in_nursery_old hT] at hn
        cases hn
  · rw [List.length_map]
    exact h.inv.live

theorem do_copy_gc_counts_reachable_witness :
    Example.one_remembered.WF [4096] [4352] ∧ [4096].length ≤ 1
      ∧ ∃ (t : GC) (n : Nat) (L : List Nat), GC.do_copy_gc 1 Example.one_remembered = some (t, n) ∧ L.Nodup
        ∧ (∀ x, x ∈ L ↔ Example.one_remembered.in_nursery x = true
            ∧ Example.one_remembered.copy_reachable x) ∧ n = L.length :=
  ⟨by constructor <;> decide!, by decide,
    do_copy_gc_counts_reachable Example.one_remembered [4096] [4352]
      (by constructor <;> decide!) 1 (by decide)⟩


/-- C2: a scavenge started in a state that satisfies the collector's invariants
(`GC.WF`), with fuel for the young objects, returns; afterwards no entry of the shadow stack
and no pointer in a scanned (boxed) field of an object reachable from the shadow stack or
the remember set points into the semi-space that was active before the call, which is now
the inactive one, and none points to a nursery object whose forwarding pointer is not
null. -/
theorem scavenge_leaves_no_stale_pointer (s : GC) (N T : List Nat) (hwf : s.WF N T)
    (fuel : Nat) (hf : N.length ≤ fuel) :
    ∃ (t : GC) (n : Nat), GC.do_copy_gc fuel s = some (t, n)
      ∧ t.semi_space1 = s.semi_space0
      ∧ (∀ i, i < (t.stack_top + 1).toNat →
          ¬ (t.semi_space1 ≤ t.shadow_stack.getD i 0
              ∧ t.shadow_stack.getD i 0 < t.semi_space1 + 8 * t.semi_space_size)
          ∧ (t.in_nursery (t.shadow_stack.getD i 0) = true →
              YHeader.forward_pointer (YHeader.header1 t.mem (t.shadow_stack.getD i 0)) = 0))
      ∧ (∀ x, t.copy_reachable x → ∀ i, scanned_index t.mem x i →
          Box.is_ptr (YHeader.get_field t.mem x i) = true →
          ¬ (t.semi_space1 ≤ YHeader.get_field t.mem x i
              ∧ YHeader.get_field t.mem x i < t.semi_space1 + 8 * t.semi_space_size)
          ∧ (t.in_nursery (YHeader.get_field t.mem x i) = true →
              YHeader.forward_pointer (YHeader.header1 t.mem (YHeader.get_field t.mem x i))
                = 0)) := by
  obtain ⟨c, F, D, Lk, Q, hrun, hph, _, hall⟩ := hwf.do_copy_gc fuel hf
  have hwf0 := hwf.count (s.copy_gc_count + 1)
  have hfr := hph.inv.frame
  have hnur : ∀ v, (c.gc.flip c.alloc_ptr).in_nursery v
      = (s.set_copy_gc_count (s.copy_gc_count + 1)).in_nursery v := by
    intro v
    rw [← GC.in_nursery_frame hfr]
    simp [GC.in_nursery]
  refine ⟨_, _, hrun, ?_, ?_, ?_⟩
  · simp only [GC.flip_proj, hfr.semi_space0]
    rfl
  · intro i hi
    simp only [GC.flip_proj, hfr.stack_top] at hi
    have hcl := hph.target_clean hwf0 (hph.roots_after hwf0 hall i hi)
    simp only [GC.flip_proj, hfr.semi_space0, hfr.semi_space_size, hnur]
    exact hcl
  · intro x hx i hi hptr
    have hxl := hph.reachable_after hwf0 hall hx
    simp only [GC.flip_proj] at hi hptr
    have hcl := hph.target_clean hwf0
      (hph.fields_after hwf0 hall x hxl i hi.2.2 hi.1 hi.2.1 hptr)
    simp only [GC.flip_proj, hfr.semi_space0, hfr.semi_space_size, hnur]
    exact hcl

theorem scavenge_leaves_no_stale_pointer_witness :
    Example.one_remembered.WF [4096] [4352] ∧ [4096].length ≤ 1
      ∧ ∃ (t : GC) (n : Nat), GC.do_copy_gc 1 Example.one_remembered = some (t, n)
        ∧ t.semi_space1 = Example.one_remembered.semi_space0
        ∧ (∀ i, i < (t.stack_top + 1).toNat →
            ¬ (t.semi_space1 ≤ t.shadow_stack.getD i 0
                ∧ t.shadow_stack.getD i 0 < t.semi_space1 + 8 * t.semi_space_size)
            ∧ (t.in_nursery (t.shadow_stack.getD i 0) = true →
                YHeader.forward_pointer (YHeader.header1 t.mem (t.shadow_stack.getD i 0)) = 0))
        ∧ (∀ x, t.copy_reachable x → ∀ i, scanned_index t.mem x i →
            Box.is_ptr (YHeader.get_field t.mem x i) = true →
            ¬ (t.semi_space1 ≤ YHeader.get_field t.mem x i
                ∧ YHeader.get_field t.mem x i < t.semi_space1 + 8 * t.semi_space_size)
            ∧ (t.in_nursery (YHeader.get_field t.mem x i) = true →
                YHeader.forward_pointer (YHeader.header1 t.mem (YHeader.get_field t.mem x i))
                  = 0)) :=
  ⟨one_remembered_wf, by decide,
    scavenge_leaves_no_stale_pointer Example.one_remembered [4096] [4352] one_remembered_wf 1
      (by decide)⟩


/-- C3: in every state `s` that a program reaches from `GC::initialize` while it keeps to
the protocol of the shadow stack (`GC.Run`: a pointer held across a call that may run a
collection is stored in a slot), the heap can be walked (`GC.Heap` for the objects `U`,
`GC.Listed` for the tenure list `L`), and a major collection (`do_mark_sweep_gc`) run in
`s` with fuel for the objects returns; the tenure list `L'` it leaves is made of exactly
the nodes of `L` that are reachable from the entries of the shadow stack through boxed
pointer fields (`GC.mark_reachable`, through objects of either generation), in their
order, every other node of `L` is unlinked and freed, and the state it leaves is again a
state of the program. -/
theorem major_gc_keeps_exactly_reachable (s : GC) (R : List Nat) (h : s.Run R) :
    ∃ (U L : List Nat), s.Heap U ∧ s.Listed L ∧ (∀ n ∈ L, n ∈ U)
      ∧ ∀ fuel, U.length + 1 ≤ fuel →
        ∃ (t : GC) (n : Nat) (L' D : List Nat), GC.do_mark_sweep_gc fuel s = some (t, n)
          ∧ t.Listed L' ∧ L'.Sublist L ∧ D.Sublist L
          ∧ (∀ x, x ∈ L' ↔ x ∈ L ∧ s.mark_reachable x)
          ∧ (∀ x, x ∈ D ↔ x ∈ L ∧ ¬ s.mark_reachable x)
          ∧ t.freed = s.freed ++ D
          ∧ t.Run [] := by
  obtain ⟨N, T, hs, _⟩ := h.sound
  have hmb : s.current_mark_bit < 4 := by
    rcases hs.mark_value with e | e <;> omega
  have hLU : ∀ n ∈ T, n ∈ N ++ T := fun n hn => List.mem_append_right _ hn
  refine ⟨N ++ T, T, hs.wf.heap hmb, hs.wf.listed, hLU, ?_⟩
  intro fuel hf
  obtain ⟨t, n, L', D, e, c1, c2, c3, c4, c5, c6⟩ :=
    GC.Heap.major_exact (hs.wf.heap hmb) hs.wf.listed hLU hs.unmarked fuel hf
  exact ⟨t, n, L', D, e, c1, c2, c3, c4, c5, c6, GC.Run.major fuel h e⟩

/-- The heap `rooted_and_loose` is a state of a program that keeps to the protocol:
`initialize`, `expand(1)`, two calls of `make_in_tenure(1)`, and `set(0, p)` with the first
array. -/
theorem rooted_and_loose_run : Example.rooted_and_loose.Run [0x1120, 0x1100] :=
  GC.Run.set 0 0x1100
    (GC.Run.make_in_tenure 1
      (GC.Run.make_in_tenure 1
        (GC.Run.expand 1 (GC.Run.init 0x1000 16 0 (by decide) (by decide)))
        (by decide) (by decide!))
      (by decide) (by decide!))
    (by decide!) (by decide!) (Or.inr (List.mem_cons_of_mem _ (List.mem_cons_self _ _)))

theorem major_gc_keeps_exactly_reachable_witness :
    Example.rooted_and_loose.Run [0x1120, 0x1100]
      ∧ ∃ (U L : List Nat), Example.rooted_and_loose.Heap U
        ∧ Example.rooted_and_loose.Listed L ∧ (∀ n ∈ L, n ∈ U)
        ∧ ∀ fuel, U.length + 1 ≤ fuel →
          ∃ (t : GC) (n : Nat) (L' D : List Nat),
            GC.do_mark_sweep_gc fuel Example.rooted_and_loose = some (t, n)
            ∧ t.Listed L' ∧ L'.Sublist L ∧ D.Sublist L
            ∧ (∀ x, x ∈ L' ↔ x ∈ L ∧ Example.rooted_and_loose.mark_reachable x)
            ∧ (∀ x, x ∈ D ↔ x ∈ L ∧ ¬ Example.rooted_and_loose.mark_reachable x)
            ∧ t.freed = Example.rooted_and_loose.freed ++ D
            ∧ t.Run [] :=
  ⟨rooted_and_loose_run,
    major_gc_keeps_exactly_reachable Example.rooted_and_loose [0x1120, 0x1100]
      rooted_and_loose_run⟩


/-- C6: the allocation slow path `allocate_in_semi2(w)` runs `mark_sweep_gc_if_needed` once
and then, from the state `s1` that this leaves (which satisfies the collector's invariants),
up to three scavenges `t1`, `t2`, `t3`: it returns `current_top + w` after the first
scavenge after which `current_top + w ≤ current_end` (`w` words are `8 * w` bytes) and runs
no further scavenge, and it raises `MemoryExhausted` exactly when the allocation fits after
none of the three. -/
theorem allocate_in_semi2_three_attempts (s s1 : GC) (m : Nat) (N T : List Nat)
    (fuel wcount : Nat)
    (hgc : GC.mark_sweep_gc_if_needed fuel s = some (s1, m)) (hwf : s1.WF N T)
    (hf : N.length ≤ fuel) (hroom : s1.heap_break + 24 * s1.semi_space_size ≤ 2 ^ 48) :
    ∃ (t1 t2 t3 : GC) (n1 n2 n3 : Nat), GC.do_copy_gc fuel s1 = some (t1, n1)
      ∧ GC.do_copy_gc fuel t1 = some (t2, n2) ∧ GC.do_copy_gc fuel t2 = some (t3, n3)
      ∧ GC.allocate_in_semi2 fuel s wcount
        = some (if t1.current_top + 8 * wcount ≤ t1.current_end then
            GC.Outcome.returned t1 (t1.current_top + 8 * wcount)
          else if t2.current_top + 8 * wcount ≤ t2.current_end then
            GC.Outcome.returned t2 (t2.current_top + 8 * wcount)
          else if t3.current_top + 8 * wcount ≤ t3.current_end then
            GC.Outcome.returned t3 (t3.current_top + 8 * wcount)
          else GC.Outcome.memory_exhausted t3)
      ∧ ((∃ u, GC.allocate_in_semi2 fuel s wcount = some (GC.Outcome.memory_exhausted u))
          ↔ (t1.current_end < t1.current_top + 8 * wcount
            ∧ t2.current_end < t2.current_top + 8 * wcount
            ∧ t3.current_end < t3.current_top + 8 * wcount)) := by
  obtain ⟨t1, t2, t3, n1, n2, n3, hr1, hr2, hr3, hat⟩ := hwf.alloc_attempts fuel hf hroom wcount
  have hrun : GC.allocate_in_semi2 fuel s wcount = GC.alloc_attempts fuel wcount 3 s1 := by
    unfold GC.allocate_in_semi2
    rw [hgc]
  refine ⟨t1, t2, t3, n1, n2, n3, hr1, hr2, hr3, hrun.trans hat, ?_⟩
  rw [hrun, hat]
  by_cases h1 : t1.current_top + 8 * wcount ≤ t1.current_end
  · rw [if_pos h1]
    constructor
    · rintro ⟨u, hu⟩
      cases hu
    · intro h
      omega
  · rw [if_neg h1]
    by_cases h2 : t2.current_top + 8 * wcount ≤ t2.current_end
    · rw [if_pos h2]
      constructor
      · rintro ⟨u, hu⟩
        cases hu
      · intro h
        omega
    · rw [if_neg h2]
      by_cases h3 : t3.current_top + 8 * wcount ≤ t3.current_end
      · rw [if_pos h3]
        constructor
        · rintro ⟨u, hu⟩
          cases hu
        · intro h
          omega
      · rw [if_neg h3]
        exact ⟨fun _ => ⟨by omega, by omega, by omega⟩, fun _ => ⟨t3, rfl⟩⟩

theorem allocate_in_semi2_three_attempts_witness :
    GC.mark_sweep_gc_if_needed 0 Example.heap0 = some (Example.heap0, 0)
      ∧ Example.heap0.WF [] [] ∧ ([] : List Nat).length ≤ 0
      ∧ Example.heap0.heap_break + 24 * Example.heap0.semi_space_size ≤ 2 ^ 48
      ∧ ∃ (t1 t2 t3 : GC) (n1 n2 n3 : Nat), GC.do_copy_gc 0 Example.heap0 = some (t1, n1)
        ∧ GC.do_copy_gc 0 t1 = some (t2, n2) ∧ GC.do_copy_gc 0 t2 = some (t3, n3)
        ∧ GC.allocate_in_semi2 0 Example.heap0 17
          = some (if t1.current_top + 8 * 17 ≤ t1.current_end then
              GC.Outcome.returned t1 (t1.current_top + 8 * 17)
            else if t2.current_top + 8 * 17 ≤ t2.current_end then
              GC.Outcome.returned t2 (t2.current_top + 8 * 17)
            else if t3.current_top + 8 * 17 ≤ t3.current_end then
              GC.Outcome.returned t3 (t3.current_top + 8 * 17)
            else GC.Outcome.memory_exhausted t3)
        ∧ ((∃ u, GC.allocate_in_semi2 0 Example.heap0 17
              = some (GC.Outcome.memory_exhausted u))
            ↔ (t1.current_end < t1.current_top + 8 * 17
              ∧ t2.current_end < t2.current_top + 8 * 17
              ∧ t3.current_end < t3.current_top + 8 * 17)) :=
  ⟨heap0_below_limit, heap0_wf, by decide, by decide!,
    allocate_in_semi2_three_attempts Example.heap0 Example.heap0 0 [] [] 0 17
      heap0_below_limit heap0_wf (by decide) (by decide!)⟩


/-- C7, as the code has it: a young object promotes on its third surviving scavenge.  For a
state that satisfies the collector's invariants and an object of generation 1 (as the
nursery constructor leaves it) held in slot `i` of the shadow stack, three calls of
`do_copy_gc` in a row return; after the first and the second the object in slot `i` is still
a nursery object, of generation 2 and then 3, and the third moves it to the tenure list,
with generation 0 and a tenure size above 0. -/
theorem promotion_on_third_scavenge (s : GC) (N T : List Nat) (hwf : s.WF N T) (fuel : Nat)
    (hf : N.length ≤ fuel) (i : Nat) (hi : i < (s.stack_top + 1).toNat)
    (hy : s.in_nursery (s.shadow_stack.getD i 0) = true)
    (hg : YHeader.gc_generation (YHeader.header1 s.mem (s.shadow_stack.getD i 0)) = 1)
    (hroom : s.heap_break + 24 * s.semi_space_size ≤ 2 ^ 48)
    (hsz : s.tenure_space_size + 3 * s.semi_space_size < 2 ^ 64) :
    ∃ (s1 s2 s3 : GC) (n1 n2 n3 : Nat) (T3 : List Nat), GC.do_copy_gc fuel s = some (s1, n1)
      ∧ GC.do_copy_gc fuel s1 = some (s2, n2) ∧ GC.do_copy_gc fuel s2 = some (s3, n3)
      ∧ s1.in_nursery (s1.shadow_stack.getD i 0) = true
      ∧ YHeader.gc_generation (YHeader.header1 s1.mem (s1.shadow_stack.getD i 0)) = 2
      ∧ s2.in_nursery (s2.shadow_stack.getD i 0) = true
      ∧ YHeader.gc_generation (YHeader.header1 s2.mem (s2.shadow_stack.getD i 0)) = 3
      ∧ s3.in_nursery (s3.shadow_stack.getD i 0) = false
      ∧ YHeader.gc_generation (YHeader.header1 s3.mem (s3.shadow_stack.getD i 0)) = 0
      ∧ tenure_list s3.mem (T3.length + 1) s3.tenure_space = T3
      ∧ s3.shadow_stack.getD i 0 ∈ T3
      ∧ 0 < s3.tenure_space_size := by
  obtain ⟨s1, n1, N1, T1, hr1, hw1, hl1, hb1, hs1, ht1, hz1, hy1, -⟩ :=
    hwf.scavenge_rooted fuel hf i hi hy
  have hwf1 := hw1 (by omega)
  obtain ⟨hn1, hg1⟩ := hy1 (by omega)
  rw [hg] at hg1
  obtain ⟨hz1a, hz1b⟩ := hz1 (by omega)
  obtain ⟨s2, n2, N2, T2, hr2, hw2, hl2, hb2, hs2, ht2, hz2, hy2, -⟩ :=
    hwf1.scavenge_rooted fuel (by omega) i (by rw [ht1]; exact hi) hn1
  have hwf2 := hw2 (by omega)
  obtain ⟨hn2, hg2⟩ := hy2 (by omega)
  rw [hg1] at hg2
  obtain ⟨hz2a, hz2b⟩ := hz2 (by omega)
  obtain ⟨s3, n3, N3, T3, hr3, -, -, -, -, -, -, -, hy3⟩ :=
    hwf2.scavenge_rooted fuel (by omega) i (by rw [ht2, ht1]; exact hi) hn2
  obtain ⟨hn3, hg3, hl3, hm3, hz3⟩ := hy3 (by omega)
  have := hz3 (by omega)
  exact ⟨s1, s2, s3, n1, n2, n3, T3, hr1, hr2, hr3, hn1, hg1, hn2, hg2, hn3, hg3, hl3, hm3,
    by omega⟩

theorem promotion_on_third_scavenge_witness :
    Example.one_root.WF [4096] [] ∧ [4096].length ≤ 1
      ∧ 0 < (Example.one_root.stack_top + 1).toNat
      ∧ Example.one_root.in_nursery (Example.one_root.shadow_stack.getD 0 0) = true
      ∧ YHeader.gc_generation
          (YHeader.header1 Example.one_root.mem (Example.one_root.shadow_stack.getD 0 0)) = 1
      ∧ ∃ (s1 s2 s3 : GC) (n1 n2 n3 : Nat) (T3 : List Nat),
        GC.do_copy_gc 1 Example.one_root = some (s1, n1)
        ∧ GC.do_copy_gc 1 s1 = some (s2, n2) ∧ GC.do_copy_gc 1 s2 = some (s3, n3)
        ∧ s1.in_nursery (s1.shadow_stack.getD 0 0) = true
        ∧ YHeader.gc_generation (YHeader.header1 s1.mem (s1.shadow_stack.getD 0 0)) = 2
        ∧ s2.in_nursery (s2.shadow_stack.getD 0 0) = true
        ∧ YHeader.gc_generation (YHeader.header1 s2.mem (s2.shadow_stack.getD 0 0)) = 3
        ∧ s3.in_nursery (s3.shadow_stack.getD 0 0) = false
        ∧ YHeader.gc_generation (YHeader.header1 s3.mem (s3.shadow_stack.getD 0 0)) = 0
        ∧ tenure_list s3.mem (T3.length + 1) s3.tenure_space = T3
        ∧ s3.shadow_stack.getD 0 0 ∈ T3
        ∧ 0 < s3.tenure_space_size :=
  ⟨one_root_wf, by decide, by decide!, by decide!, by decide!,
    promotion_on_third_scavenge Example.one_root [4096] [] one_root_wf 1 (by decide) 0
      (by decide!) (by decide!) (by decide!) (by decide!) (by decide!)⟩


/-- C8, as the code has it: a scavenge runs no major collection.  From every state that
satisfies the collector's invariants, whatever the tenure size and limit, `do_copy_gc`
returns with `copy_gc_count` one higher and `mark_sweep_gc_count` unchanged.  On the
allocation slow path `mark_sweep_gc_if_needed` runs once, before the first of the up to
three scavenges: `mark_sweep_gc_count` goes up by one when the tenure size had reached the
limit at entry and not at all otherwise, and `copy_gc_count` by one to three. -/
theorem scavenge_runs_no_major_gc :
    (∀ (s : GC) (N T : List Nat) (fuel : Nat), s.WF N T → N.length ≤ fuel →
        ∃ (t : GC) (n : Nat), GC.do_copy_gc fuel s = some (t, n)
          ∧ t.copy_gc_count = s.copy_gc_count + 1
          ∧ t.mark_sweep_gc_count = s.mark_sweep_gc_count)
      ∧ (∀ (s0 s : GC) (m : Nat) (N T : List Nat) (fuel wcount : Nat),
          GC.mark_sweep_gc_if_needed fuel s0 = some (s, m) → s.WF N T → N.length ≤ fuel →
          s.heap_break + 24 * s.semi_space_size ≤ 2 ^ 48 →
          ∃ o : GC.Outcome, GC.allocate_in_semi2 fuel s0 wcount = some o
            ∧ o.state.mark_sweep_gc_count = s0.mark_sweep_gc_count
                + (if s0.tenure_space_size < s0.tenure_space_limit then 0 else 1)
            ∧ s0.copy_gc_count + 1 ≤ o.state.copy_gc_count
            ∧ o.state.copy_gc_count ≤ s0.copy_gc_count + 3) := by
  constructor
  · intro s N T fuel hwf hf
    obtain ⟨t, n, _, _, hrun, -, -, -, -, hc, hm, -⟩ := hwf.scavenge fuel hf
    exact ⟨t, n, hrun, hc, hm⟩
  · intro s0 s m N T fuel wcount hgc hwf hf hroom
    obtain ⟨t1, t2, t3, n1, n2, n3, hr1, hr2, hr3, hat0⟩ :=
      hwf.alloc_attempts fuel hf hroom wcount
    have hrun : GC.allocate_in_semi2 fuel s0 wcount = GC.alloc_attempts fuel wcount 3 s := by
      unfold GC.allocate_in_semi2
      rw [hgc]
    have hat := hrun.trans hat0
    obtain ⟨hc0, hm0⟩ := GC.mark_sweep_gc_if_needed_counts hgc
    obtain ⟨c1, m1, -⟩ := GC.do_copy_gc_frame hr1
    obtain ⟨c2, m2, -⟩ := GC.do_copy_gc_frame hr2
    obtain ⟨c3, m3, -⟩ := GC.do_copy_gc_frame hr3
    refine ⟨_, hat, ?_⟩
    split
    · simp only [GC.Outcome.state]
      omega
    · split
      · simp only [GC.Outcome.state]
        omega
      · split
        · simp only [GC.Outcome.state]
          omega
        · simp only [GC.Outcome.state]
          omega

theorem scavenge_runs_no_major_gc_witness :
    (Example.at_limit.tenure_space_limit ≤ Example.at_limit.tenure_space_size
      ∧ Example.at_limit.WF [4096] [] ∧ [4096].length ≤ 1
      ∧ ∃ (t : GC) (n : Nat), GC.do_copy_gc 1 Example.at_limit = some (t, n)
        ∧ t.copy_gc_count = Example.at_limit.copy_gc_count + 1
        ∧ t.mark_sweep_gc_count = Example.at_limit.mark_sweep_gc_count)
      ∧ (GC.mark_sweep_gc_if_needed 0 Example.heap0 = some (Example.heap0, 0)
        ∧ Example.heap0.WF [] []
        ∧ ∃ o : GC.Outcome, GC.allocate_in_semi2 0 Example.heap0 17 = some o
          ∧ o.state.mark_sweep_gc_count = Example.heap0.mark_sweep_gc_count
              + (if Example.heap0.tenure_space_size < Example.heap0.tenure_space_limit then 0
                else 1)
          ∧ Example.heap0.copy_gc_count + 1 ≤ o.state.copy_gc_count
          ∧ o.state.copy_gc_count ≤ Example.heap0.copy_gc_count + 3) :=
  ⟨⟨by decide!, at_limit_wf, by decide,
      scavenge_runs_no_major_gc.1 Example.at_limit [4096] [] 1 at_limit_wf (by decide)⟩,
    heap0_below_limit, heap0_wf,
    scavenge_runs_no_major_gc.2 Example.heap0 Example.heap0 0 [] [] 0 17 heap0_below_limit
      heap0_wf (by decide) (by decide!)⟩


/-- C9, as the code has it: after a scavenge of a state that satisfies the collector's
invariants, a non-null entry `r` of the remember set is kept, with its header word (hence
its remember bit) unchanged, when one of its scanned fields pointed to a young object of
generation below 3, which the scavenge copies within the nursery; it is nulled, and the
remember bit of `r` is cleared, when no scanned field did. -/
theorem remember_set_keeps_young_pointers (s : GC) (N T : List Nat) (hwf : s.WF N T)
    (fuel : Nat) (hf : N.length ≤ fuel) :
    ∃ (t : GC) (n : Nat), GC.do_copy_gc fuel s = some (t, n)
      ∧ ∀ j, j < s.remember_set.length → s.remember_set.getD j 0 ≠ 0 →
        ((∃ i, scanned_index s.mem (s.remember_set.getD j 0) i
            ∧ Box.is_ptr (YHeader.get_field s.mem (s.remember_set.getD j 0) i) = true
            ∧ s.in_nursery (YHeader.get_field s.mem (s.remember_set.getD j 0) i) = true
            ∧ YHeader.gc_generation (YHeader.header1 s.mem
                (YHeader.get_field s.mem (s.remember_set.getD j 0) i)) ≠ 3) →
          t.remember_set.getD j 0 = s.remember_set.getD j 0
          ∧ YHeader.header1 t.mem (s.remember_set.getD j 0)
              = YHeader.header1 s.mem (s.remember_set.getD j 0))
        ∧ (¬ (∃ i, scanned_index s.mem (s.remember_set.getD j 0) i
            ∧ Box.is_ptr (YHeader.get_field s.mem (s.remember_set.getD j 0) i) = true
            ∧ s.in_nursery (YHeader.get_field s.mem (s.remember_set.getD j 0) i) = true
            ∧ YHeader.gc_generation (YHeader.header1 s.mem
                (YHeader.get_field s.mem (s.remember_set.getD j 0) i)) ≠ 3) →
          t.remember_set.getD j 0 = 0
          ∧ YHeader.gc_remember (YHeader.header1 t.mem (s.remember_set.getD j 0)) = 0) := by
  obtain ⟨c, F, D, Lk, Q, hrun, hph, _, hall⟩ := hwf.do_copy_gc fuel hf
  have hwf0 := hwf.count (s.copy_gc_count + 1)
  refine ⟨_, _, hrun, ?_⟩
  intro j hj h0
  have hd := hph.rs_done j (Nat.zero_le _) hj
  have hd2 := hd.2 h0
  have hT := (hwf0.remembered_mem hj h0).1
  have hky := hph.keeps_young_iff hwf0 hall
    (GC.mem_owners.2 (Or.inl ⟨hT, rfl⟩) :
      ((s.set_copy_gc_count (s.copy_gc_count + 1)).remember_set.getD j 0,
        (s.set_copy_gc_count (s.copy_gc_count + 1)).remember_set.getD j 0) ∈ owners T F)
  constructor
  · intro hex
    have hne : c.gc.remember_set.getD j 0 ≠ 0 := hd2.2.1.2 (hky.2 hex)
    have h3 := hd2.2.2
    rw [if_pos hne] at h3
    refine ⟨?_, h3⟩
    rcases hd.1 with e | e
    · exact e
    · exact absurd e hne
  · intro hex
    have hz : c.gc.remember_set.getD j 0 = 0 := by
      by_contra hne
      exact hex (hky.1 (hd2.2.1.1 hne))
    have h3 := hd2.2.2
    rw [if_neg (by rw [hz]; exact fun h => h rfl)] at h3
    refine ⟨hz, ?_⟩
    have h4 : YHeader.header1 c.gc.mem (s.remember_set.getD j 0)
        = YHeader.reset_gc_remember (YHeader.header1 s.mem (s.remember_set.getD j 0)) := h3
    simp only [GC.flip_proj]
    rw [h4]
    exact YHeader.gc_remember_reset_gc_remember _

theorem remember_set_keeps_young_pointers_witness :
    Example.one_remembered.WF [4096] [4352] ∧ [4096].length ≤ 1
      ∧ ∃ (t : GC) (n : Nat), GC.do_copy_gc 1 Example.one_remembered = some (t, n)
        ∧ ∀ j, j < Example.one_remembered.remember_set.length →
          Example.one_remembered.remember_set.getD j 0 ≠ 0 →
          ((∃ i, scanned_index Example.one_remembered.mem
                (Example.one_remembered.remember_set.getD j 0) i
              ∧ Box.is_ptr (YHeader.get_field Example.one_remembered.mem
                  (Example.one_remembered.remember_set.getD j 0) i) = true
              ∧ Example.one_remembered.in_nursery (YHeader.get_field Example.one_remembered.mem
                  (Example.one_remembered.remember_set.getD j 0) i) = true
              ∧ YHeader.gc_generation (YHeader.header1 Example.one_remembered.mem
                  (YHeader.get_field Example.one_remembered.mem
                    (Example.one_remembered.remember_set.getD j 0) i)) ≠ 3) →
            t.remember_set.getD j 0 = Example.one_remembered.remember_set.getD j 0
            ∧ YHeader.header1 t.mem (Example.one_remembered.remember_set.getD j 0)
                = YHeader.header1 Example.one_remembered.mem
                    (Example.one_remembered.remember_set.getD j 0))
          ∧ (¬ (∃ i, scanned_index Example.one_remembered.mem
                (Example.one_remembered.remember_set.getD j 0) i
              ∧ Box.is_ptr (YHeader.get_field Example.one_remembered.mem
                  (Example.one_remembered.remember_set.getD j 0) i) = true
              ∧ Example.one_remembered.in_nursery (YHeader.get_field Example.one_remembered.mem
                  (Example.one_remembered.remember_set.getD j 0) i) = true
              ∧ YHeader.gc_generation (YHeader.header1 Example.one_remembered.mem
                  (YHeader.get_field Example.one_remembered.mem
                    (Example.one_remembered.remember_set.getD j 0) i)) ≠ 3) →
            t.remember_set.getD j 0 = 0
            ∧ YHeader.gc_remember
                (YHeader.header1 t.mem (Example.one_remembered.remember_set.getD j 0)) = 0) :=
  ⟨one_remembered_wf, by decide,
    remember_set_keeps_young_pointers Example.one_remembered [4096] [4352] one_remembered_wf 1
      (by decide)⟩


/-- C10: `copy_and_forward` copies the second header word (hash and field count) and every
body word of the object it moves unchanged into the destination, which is the to-space
cell at `alloc_ptr` or, when the generation wraps from 3, the fresh tenure cell; and after
any number of scavenges in a row, from a state that satisfies the collector's invariants,
the object held in a root slot, wherever it has been copied or promoted to, has the
`hash_value` and the `field_size` it had. -/
theorem hash_stable_under_moves :
    (∀ (s : GC) (p alloc_ptr live_objects : Nat),
        YHeader.forward_pointer (YHeader.header1 s.mem p) = 0 →
        ((if YHeader.gc_generation (YHeader.header1 s.mem p) = 3 then s.heap_break
              else alloc_ptr) + 8 * object_words s.mem p ≤ p
          ∨ p + 8 * object_words s.mem p
              ≤ (if YHeader.gc_generation (YHeader.header1 s.mem p) = 3 then s.heap_break
                  else alloc_ptr)) →
        (GC.copy_and_forward ⟨s, alloc_ptr, live_objects⟩ p).2
            = (if YHeader.gc_generation (YHeader.header1 s.mem p) = 3 then s.heap_break
                else alloc_ptr)
          ∧ YHeader.header2 (GC.copy_and_forward ⟨s, alloc_ptr, live_objects⟩ p).1.gc.mem
              (GC.copy_and_forward ⟨s, alloc_ptr, live_objects⟩ p).2 = YHeader.header2 s.mem p
          ∧ (∀ i, i < YHeader.field_size (YHeader.header2 s.mem p) →
              YHeader.get_field (GC.copy_and_forward ⟨s, alloc_ptr, live_objects⟩ p).1.gc.mem
                (GC.copy_and_forward ⟨s, alloc_ptr, live_objects⟩ p).2 i
                = YHeader.get_field s.mem p i))
      ∧ (∀ (k fuel i : Nat) (s : GC) (N T : List Nat), s.WF N T → N.length ≤ fuel →
          s.heap_break + 8 * (k + 1) * s.semi_space_size ≤ 2 ^ 48 →
          i < (s.stack_top + 1).toNat → s.shadow_stack.getD i 0 ≠ 0 →
          ∃ t : GC, GC.scavenges fuel k s = some t
            ∧ YHeader.hash_value (YHeader.header2 t.mem (t.shadow_stack.getD i 0))
                = YHeader.hash_value (YHeader.header2 s.mem (s.shadow_stack.getD i 0))
            ∧ YHeader.field_size (YHeader.header2 t.mem (t.shadow_stack.getD i 0))
                = YHeader.field_size (YHeader.header2 s.mem (s.shadow_stack.getD i 0))) := by
  constructor
  · intro s p alloc_ptr live_objects hnull hdisj
    obtain ⟨h1, h2, h3, -⟩ :=
      copy_and_forward_keeps_header2_and_body s p alloc_ptr live_objects hnull hdisj
    exact ⟨h1, h2, h3⟩
  · intro k fuel i s N T hwf hf hroom hi h0
    obtain ⟨t, hrun, hh⟩ := GC.WF.scavenges_header2 fuel i k s N T hwf hf hroom hi h0
    exact ⟨t, hrun, by rw [hh], by rw [hh]⟩

theorem hash_stable_under_moves_witness :
    (YHeader.forward_pointer (YHeader.header1 Example.one_root.mem 4096) = 0
      ∧ (GC.copy_and_forward ⟨Example.one_root, 4224, 0⟩ 4096).2
          = (if YHeader.gc_generation (YHeader.header1 Example.one_root.mem 4096) = 3 then
              Example.one_root.heap_break
            else 4224)
      ∧ YHeader.header2 (GC.copy_and_forward ⟨Example.one_root, 4224, 0⟩ 4096).1.gc.mem
          (GC.copy_and_forward ⟨Example.one_root, 4224, 0⟩ 4096).2
          = YHeader.header2 Example.one_root.mem 4096
      ∧ (∀ i, i < YHeader.field_size (YHeader.header2 Example.one_root.mem 4096) →
          YHeader.get_field (GC.copy_and_forward ⟨Example.one_root, 4224, 0⟩ 4096).1.gc.mem
            (GC.copy_and_forward ⟨Example.one_root, 4224, 0⟩ 4096).2 i
            = YHeader.get_field Example.one_root.mem 4096 i))
      ∧ (Example.one_root.WF [4096] [] ∧ [4096].length ≤ 1
        ∧ Example.one_root.heap_break + 8 * (3 + 1) * Example.one_root.semi_space_size ≤ 2 ^ 48
        ∧ 0 < (Example.one_root.stack_top + 1).toNat
        ∧ Example.one_root.shadow_stack.getD 0 0 ≠ 0
        ∧ ∃ t : GC, GC.scavenges 1 3 Example.one_root = some t
          ∧ YHeader.hash_value (YHeader.header2 t.mem (t.shadow_stack.getD 0 0))
              = YHeader.hash_value
                  (YHeader.header2 Example.one_root.mem (Example.one_root.shadow_stack.getD 0 0))
          ∧ YHeader.field_size (YHeader.header2 t.mem (t.shadow_stack.getD 0 0))
              = YHeader.field_size
                  (YHeader.header2 Example.one_root.mem
                    (Example.one_root.shadow_stack.getD 0 0))) :=
  ⟨⟨by decide!,
      hash_stable_under_moves.1 Example.one_root 4096 4224 0 (by decide!) (by decide!)⟩,
    one_root_wf, by decide, by decide!, by decide!, by decide!,
    hash_stable_under_moves.2 3 1 0 Example.one_root [4096] [] one_root_wf (by decide)
      (by decide!) (by decide!) (by decide!)⟩

/-- C11: for every 32-bit `size`, every type in `{object, unbox_array, box_array}` (0, 1, 2)
and every `unbox_size` in `0..7`, the header built by the constructor reads back that type,
that unbox size, `field_size = size`, generation 1, remember 0, mark 0 and a null
forwarding pointer; and when the object has boxed values, every field `i` with
`unbox_size <= i < size` reads the null word. -/
theorem construct_reads_back (m : Mem) (self size type unbox : Nat) (hs : size < 2 ^ 32)
    (ht : type ≤ 2) (hu : unbox ≤ 7) :
    YHeader.object_type (YHeader.header1 (YHeader.construct m self size type unbox) self) = type
      ∧ YHeader.unbox_size (YHeader.header1 (YHeader.construct m self size type unbox) self)
          = unbox
      ∧ YHeader.field_size (YHeader.header2 (YHeader.construct m self size type unbox) self)
          = size
      ∧ YHeader.gc_generation (YHeader.header1 (YHeader.construct m self size type unbox) self)
          = 1
      ∧ YHeader.gc_remember (YHeader.header1 (YHeader.construct m self size type unbox) self)
          = 0
      ∧ YHeader.gc_mark (YHeader.header1 (YHeader.construct m self size type unbox) self) = 0
      ∧ YHeader.forward_pointer
          (YHeader.header1 (YHeader.construct m self size type unbox) self) = 0
      ∧ (YHeader.has_boxed_value
            (YHeader.header1 (YHeader.construct m self size type unbox) self) = true →
          ∀ i, unbox ≤ i → i < size →
            YHeader.get_field (YHeader.construct m self size type unbox) self i
              = Box.null_value) := by
  have h1 := YHeader.construct_header1 m self size type unbox
  have h2 := YHeader.construct_header2 m self size type unbox
  obtain ⟨a1, a2, a3, a4, a5, a6⟩ := YHeader.init_header1_fields type ht unbox hu
  rw [h1, h2]
  refine ⟨a1, a2, ?_, a3, a4, a5, a6, ?_⟩
  · unfold YHeader.field_size
    rw [YHeader.or_shift_mod _ _ (Nat.mod_lt _ (by norm_num))]
    exact Nat.mod_eq_of_lt hs
  · intro hb i hi1 hi2
    unfold YHeader.get_field
    rw [YHeader.field_addr_eq self i (by omega)]
    unfold YHeader.construct
    have hb' : YHeader.has_boxed_value (YHeader.header1
        ((m.write (self + 8) (YHeader.init_header1 type unbox)).write (self + 16)
          ((((self % 2 ^ 32) >>> 3)) <<< 32 ||| size % 2 ^ 32)) self) = true := by
      have : YHeader.header1
          ((m.write (self + 8) (YHeader.init_header1 type unbox)).write (self + 16)
            ((((self % 2 ^ 32) >>> 3)) <<< 32 ||| size % 2 ^ 32)) self
          = YHeader.init_header1 type unbox := by
        unfold YHeader.header1
        rw [Mem.write_other _ _ _ _ (by omega)]
        exact Mem.write_same _ _ _
      rw [this]; exact hb
    rw [if_pos hb']
    have e : self + 8 * (i + 3) = self + 24 + 8 * i := by omega
    rw [e]
    exact YHeader.init_fields_at self _ _ _ i
      (by rw [Nat.mod_eq_of_lt (by omega : unbox < 2 ^ 32)]; exact hi1)
      (by rw [Nat.mod_eq_of_lt (by omega : unbox < 2 ^ 32), Nat.mod_eq_of_lt hs]; omega)

theorem construct_reads_back_witness :
    (4 : Nat) < 2 ^ 32 ∧ (2 : Nat) ≤ 2 ∧ (1 : Nat) ≤ 7
      ∧ YHeader.object_type (YHeader.header1
          (YHeader.construct (fun _ => 7) 0x1000 4 2 1) 0x1000) = 2
      ∧ YHeader.get_field (YHeader.construct (fun _ => 7) 0x1000 4 2 1) 0x1000 3
          = Box.null_value :=
  ⟨by decide, by decide, by decide,
    (construct_reads_back (fun _ => 7) 0x1000 4 2 1 (by decide) (by decide) (by decide)).1,
    (construct_reads_back (fun _ => 7) 0x1000 4 2 1 (by decide) (by decide) (by decide)).2.2.2.2.2.2.2
      (by decide) 3 (by decide) (by decide)⟩

/-- C12: for every byte count below `2^64` whose word count `w = ceil(count / 8)` satisfies
`current_top + w <= current_end` (in words; `current_end` being a 64-bit address),
`allocate_in_semi` returns the old `current_top` and changes the state only in
`current_top`, which becomes the old `current_top + w`, and in the memory, where each of the
`w` words of the returned region is zero and every other word is as before; in particular
no collection runs and `current_end` is unchanged. -/
theorem allocate_in_semi_fast_path (fuel : Nat) (s : GC) (count : Nat) (hc : count < 2 ^ 64)
    (he : s.current_end < 2 ^ 64) (hfit : s.current_top + 8 * ((count + 7) / 8) ≤ s.current_end) :
    ∃ t : GC, GC.allocate_in_semi fuel s count = some (GC.Outcome.returned t s.current_top)
      ∧ t = (s.set_current_top (s.current_top + 8 * ((count + 7) / 8))).set_mem t.mem
      ∧ t.current_top = s.current_top + 8 * ((count + 7) / 8)
      ∧ t.current_end = s.current_end
      ∧ t.copy_gc_count = s.copy_gc_count ∧ t.mark_sweep_gc_count = s.mark_sweep_gc_count
      ∧ (∀ i, i < (count + 7) / 8 → t.mem (s.current_top + 8 * i) = 0)
      ∧ (∀ a, (∀ i, i < (count + 7) / 8 → a ≠ s.current_top + 8 * i) → t.mem a = s.mem a) := by
  have hw : ((count + 8 - 1) % 2 ^ 64) / 8 = (count + 7) / 8 := by omega
  have hfit2 : ¬ s.current_top + 8 * (((count + 8 - 1) % 2 ^ 64) / 8) > s.current_end := by
    rw [hw]; omega
  refine ⟨(s.set_current_top (s.current_top + 8 * ((count + 7) / 8))).set_mem
    (GC.zero_words s.current_top ((count + 7) / 8) 0 s.mem), ?_, ?_, ?_, ?_, ?_, ?_, ?_, ?_⟩
  · rw [GC.allocate_in_semi_fits fuel s count hfit2, hw]
    rfl
  · simp
  · simp
  · simp
  · simp
  · simp
  · intro i hi
    simp only [GC.set_mem_proj]
    exact GC.zero_words_at s.current_top _ 0 s.mem i (Nat.zero_le _) (by omega)
  · intro a ha
    simp only [GC.set_mem_proj]
    exact GC.zero_words_other s.current_top _ 0 s.mem a (fun j _ hj => ha j (by omega))

theorem allocate_in_semi_fast_path_witness :
    (20 : Nat) < 2 ^ 64 ∧ Example.heap0.current_end < 2 ^ 64
      ∧ Example.heap0.current_top + 8 * ((20 + 7) / 8) ≤ Example.heap0.current_end
      ∧ ∃ t : GC, GC.allocate_in_semi 0 Example.heap0 20
            = some (GC.Outcome.returned t Example.heap0.current_top)
          ∧ t = (Example.heap0.set_current_top
              (Example.heap0.current_top + 8 * ((20 + 7) / 8))).set_mem t.mem
          ∧ t.current_top = Example.heap0.current_top + 8 * ((20 + 7) / 8)
          ∧ t.current_end = Example.heap0.current_end
          ∧ t.copy_gc_count = Example.heap0.copy_gc_count
          ∧ t.mark_sweep_gc_count = Example.heap0.mark_sweep_gc_count
          ∧ (∀ i, i < (20 + 7) / 8 → t.mem (Example.heap0.current_top + 8 * i) = 0)
          ∧ (∀ a, (∀ i, i < (20 + 7) / 8 → a ≠ Example.heap0.current_top + 8 * i) →
              t.mem a = Example.heap0.mem a) :=
  ⟨by decide, by decide, by decide,
    allocate_in_semi_fast_path 0 Example.heap0 20 (by decide) (by decide) (by decide)⟩

/-- C13: for every integer `i` with `-2^47 <= i < 2^47`, unboxing the boxed `i` gives
`i` back, the boxed word passes `is_int64`, and its top 16 bits are `0xFFFF`. -/
theorem int_boxing_round_trip (i : Int) (h1 : -2 ^ 47 ≤ i) (h2 : i < 2 ^ 47) :
    Box.to_int64 (Box.to_boxed_int64 i) = i ∧ Box.is_int64 (Box.to_boxed_int64 i) = true
      ∧ Box.to_boxed_int64 i >>> 48 = 0xffff := by
  have hb := Box.to_boxed_uint64_eq (Box.of_int64 i)
  have hc := Box.of_int64_cast i
  have hv : Box.to_boxed_int64 i = Box.to_boxed_uint64 (Box.of_int64 i) := rfl
  rw [hv]
  clear hv
  generalize Box.of_int64 i = n at hb hc ⊢
  generalize Box.to_boxed_uint64 n = v at hb ⊢
  have hn : n < 2 ^ 47 ∨ (2 ^ 64 - 2 ^ 47 ≤ n ∧ n < 2 ^ 64) := by omega
  have hq : v / 2 ^ 48 = 65535 := by omega
  refine ⟨?_, ?_, ?_⟩
  · rw [Box.to_int64_eq]
    unfold Box.as_int64
    split <;> omega
  · unfold Box.is_int64
    exact (Box.is_uint64_iff v).2 hq
  · rw [Nat.shiftRight_eq_div_pow]
    exact hq

theorem int_boxing_round_trip_witness :
    (-2 ^ 47 : Int) ≤ -5 ∧ (-5 : Int) < 2 ^ 47
      ∧ Box.to_int64 (Box.to_boxed_int64 (-5)) = -5
      ∧ Box.is_int64 (Box.to_boxed_int64 (-5)) = true
      ∧ Box.to_boxed_int64 (-5) >>> 48 = 0xffff :=
  ⟨by decide, by decide, int_boxing_round_trip (-5) (by decide) (by decide)⟩

/-- C14: for every 64-bit pattern `d` of a double that is not NaN, the boxed word is
`d + 2^48`, the sum does not reach `2^64`, and unboxing it gives the pattern `d` back. -/
theorem double_boxing_round_trip (d : Nat) (hd : d < 2 ^ 64) (hn : Box.is_nan d = false) :
    Box.to_boxed_double d = d + 2 ^ 48 ∧ d + 2 ^ 48 < 2 ^ 64
      ∧ Box.to_double (Box.to_boxed_double d) = d := by
  have hnn : ¬ (d / 2 ^ 52 % 2 ^ 11 = 2047 ∧ d % 2 ^ 52 ≠ 0) := by
    rw [← Box.is_nan_iff, hn]
    exact Bool.false_ne_true
  have hlt : d + 2 ^ 48 < 2 ^ 64 := by omega
  have hb : Box.to_boxed_double d = d + 2 ^ 48 := by
    unfold Box.to_boxed_double
    rw [if_neg (by rw [hn]; exact Bool.false_ne_true)]
    have : Box.double_offset = 2 ^ 48 := by decide
    rw [this]
    exact Nat.mod_eq_of_lt hlt
  refine ⟨hb, hlt, ?_⟩
  rw [hb]
  unfold Box.to_double
  have : Box.double_offset = 2 ^ 48 := by decide
  rw [this]
  omega

theorem double_boxing_round_trip_witness :
    0x3FF0000000000000 < 2 ^ 64 ∧ Box.is_nan 0x3FF0000000000000 = false
      ∧ Box.to_boxed_double 0x3FF0000000000000 = 0x3FF0000000000000 + 2 ^ 48
      ∧ 0x3FF0000000000000 + 2 ^ 48 < 2 ^ 64
      ∧ Box.to_double (Box.to_boxed_double 0x3FF0000000000000) = 0x3FF0000000000000 :=
  ⟨by decide, by decide, double_boxing_round_trip 0x3FF0000000000000 (by decide) (by decide)⟩

/-- C15: for every bit pattern `d` of a NaN (any sign, any payload, quiet or signalling),
the boxed word is `(0x7FF8 + 1) << 48`, it passes `is_double`, and unboxing it gives
the quiet NaN pattern `0x7FF8000000000000`. -/
theorem nan_boxing_canonical (d : Nat) (hn : Box.is_nan d = true) :
    Box.to_boxed_double d = (0x7ff8 + 1) <<< 48
      ∧ Box.is_double (Box.to_boxed_double d) = true
      ∧ Box.to_double (Box.to_boxed_double d) = 0x7FF8000000000000 := by
  have hb : Box.to_boxed_double d = (0x7ff8 + 1) <<< 48 := by
    unfold Box.to_boxed_double
    rw [if_pos hn]
  refine ⟨hb, ?_, ?_⟩
  · rw [hb]; decide
  · rw [hb]; decide

theorem nan_boxing_canonical_witness :
    Box.is_nan 0xFFF0000000000001 = true
      ∧ Box.to_boxed_double 0xFFF0000000000001 = (0x7ff8 + 1) <<< 48
      ∧ Box.is_double (Box.to_boxed_double 0xFFF0000000000001) = true
      ∧ Box.to_double (Box.to_boxed_double 0xFFF0000000000001) = 0x7FF8000000000000 :=
  ⟨by decide, nan_boxing_canonical 0xFFF0000000000001 (by decide)⟩

/-- C16: for every pointer `p` that fits in 48 bits, unboxing the boxed `p` gives `p`
back and the boxed word passes `is_ptr`; the null word passes `is_ptr`. -/
theorem pointer_boxing_round_trip (p : Nat) (hp : p < 2 ^ 48) :
    Box.to_ptr (Box.to_boxed_ptr p) = p ∧ Box.is_ptr (Box.to_boxed_ptr p) = true
      ∧ Box.is_ptr Box.null_value = true := by
  rw [Box.to_boxed_ptr_of_lt p hp]
  exact ⟨rfl, (Box.is_ptr_iff p).2 hp, by decide⟩

theorem pointer_boxing_round_trip_witness :
    0x1000 < 2 ^ 48 ∧ Box.to_ptr (Box.to_boxed_ptr 0x1000) = 0x1000
      ∧ Box.is_ptr (Box.to_boxed_ptr 0x1000) = true ∧ Box.is_ptr Box.null_value = true :=
  ⟨by decide, pointer_boxing_round_trip 0x1000 (by decide)⟩


/-- C17: the threshold rule of `mark_sweep_gc_if_needed`.  When the tenure size is below the
limit it returns the state unchanged and the count 0, with no collection.  Otherwise, on a
heap that a major collection can walk (`GC.Heap`, `GC.Listed`) and with fuel for its objects,
it returns: it runs `do_mark_sweep_gc` once (the major count goes up by one) and the new
limit is `floor(3 * size / 2)` for the size after the collection when `floor(7 * L / 10)`
is below that size, the old limit `L` otherwise; when neither product passes `2 ^ 64`
the new limit is at least the old one. -/
theorem mark_sweep_gc_if_needed_rule (fuel : Nat) (s : GC) (U L : List Nat) :
    (s.tenure_space_size < s.tenure_space_limit →
        GC.mark_sweep_gc_if_needed fuel s = some (s, 0))
      ∧ (¬ s.tenure_space_size < s.tenure_space_limit → s.Heap U → s.Listed L →
          (∀ n ∈ L, n ∈ U) → U.length + 1 ≤ fuel →
          ∃ (s1 t : GC) (lives : Nat), GC.do_mark_sweep_gc fuel s = some (s1, lives)
            ∧ GC.mark_sweep_gc_if_needed fuel s = some (t, lives)
            ∧ t.mark_sweep_gc_count = s.mark_sweep_gc_count + 1
            ∧ t.tenure_space_size = s1.tenure_space_size
            ∧ t.tenure_space_limit
                = (if s.tenure_space_limit * 7 % 2 ^ 64 / 10 < s1.tenure_space_size then
                    s1.tenure_space_size * 3 % 2 ^ 64 / 2
                  else s.tenure_space_limit)
            ∧ (s.tenure_space_limit * 7 < 2 ^ 64 → s1.tenure_space_size * 3 < 2 ^ 64 →
                t.tenure_space_limit
                    = (if s.tenure_space_limit * 7 / 10 < s1.tenure_space_size then
                        s1.tenure_space_size * 3 / 2
                      else s.tenure_space_limit)
                  ∧ s.tenure_space_limit ≤ t.tenure_space_limit)) := by
  constructor
  · intro h
    unfold GC.mark_sweep_gc_if_needed
    rw [if_pos h]
  · intro hge hh hL hLU hf
    obtain ⟨s1, lives, L', D, hrun, -, -, -, -, -, -, hcnt, -, hlim, -⟩ :=
      GC.Heap.do_mark_sweep_gc hh hL hLU fuel hf
    have hrule : GC.mark_sweep_gc_if_needed fuel s
        = some (if s1.tenure_space_limit * 7 % 2 ^ 64 / 10 < s1.tenure_space_size then
            s1.set_tenure_space_limit (s1.tenure_space_size * 3 % 2 ^ 64 / 2) else s1,
          lives) := by
      unfold GC.mark_sweep_gc_if_needed
      rw [if_neg hge, hrun]
      simp only
      split <;> rfl
    by_cases hc : s1.tenure_space_limit * 7 % 2 ^ 64 / 10 < s1.tenure_space_size
    · rw [if_pos hc] at hrule
      rw [hlim] at hc
      refine ⟨s1, _, lives, hrun, hrule, by simpa using hcnt, by simp, ?_, ?_⟩
      · rw [if_pos hc]
        simp
      · intro h7 h3
        rw [Nat.mod_eq_of_lt h7] at hc
        rw [if_pos hc]
        simp only [GC.set_tenure_space_limit, Nat.mod_eq_of_lt h3]
        refine ⟨trivial, ?_⟩
        omega
    · rw [if_neg hc] at hrule
      rw [hlim] at hc
      refine ⟨s1, _, lives, hrun, hrule, hcnt, rfl, ?_, ?_⟩
      · rw [if_neg hc, hlim]
      · intro h7 h3
        rw [Nat.mod_eq_of_lt h7] at hc
        rw [if_neg hc, hlim]
        exact ⟨rfl, le_refl _⟩

theorem mark_sweep_gc_if_needed_rule_witness :
    (Example.heap0.tenure_space_size < Example.heap0.tenure_space_limit
      ∧ GC.mark_sweep_gc_if_needed 0 Example.heap0 = some (Example.heap0, 0))
    ∧ (¬ Example.at_limit.tenure_space_size < Example.at_limit.tenure_space_limit
      ∧ Example.at_limit.Heap [0x1000] ∧ Example.at_limit.Listed []
      ∧ ∃ (s1 t : GC) (lives : Nat), GC.do_mark_sweep_gc 2 Example.at_limit = some (s1, lives)
        ∧ GC.mark_sweep_gc_if_needed 2 Example.at_limit = some (t, lives)
        ∧ t.mark_sweep_gc_count = Example.at_limit.mark_sweep_gc_count + 1
        ∧ t.tenure_space_size = s1.tenure_space_size
        ∧ t.tenure_space_limit
            = (if Example.at_limit.tenure_space_limit * 7 % 2 ^ 64 / 10
                  < s1.tenure_space_size then
                s1.tenure_space_size * 3 % 2 ^ 64 / 2
              else Example.at_limit.tenure_space_limit)
        ∧ (Example.at_limit.tenure_space_limit * 7 < 2 ^ 64 →
            s1.tenure_space_size * 3 < 2 ^ 64 →
            t.tenure_space_limit
                = (if Example.at_limit.tenure_space_limit * 7 / 10 < s1.tenure_space_size then
                    s1.tenure_space_size * 3 / 2
                  else Example.at_limit.tenure_space_limit)
              ∧ Example.at_limit.tenure_space_limit ≤ t.tenure_space_limit)) :=
  ⟨⟨by decide!, (mark_sweep_gc_if_needed_rule 0 Example.heap0 [] []).1 (by decide!)⟩,
    by decide!, at_limit_heap, at_limit_listed,
    (mark_sweep_gc_if_needed_rule 2 Example.at_limit [0x1000] []).2 (by decide!)
      at_limit_heap at_limit_listed (fun n hn => by cases hn) (by decide)⟩


/-- C18: for every state whose tenure list is `L` (`GC.Listed`) and every mark value, the
sweep phase of `do_mark_sweep_gc` (`GC.sweep`), given fuel for the nodes, ends; the tenure
list after it is the sub-sequence of `L` of the nodes whose `gc_mark` equals the mark value,
in their order; every node left has that mark; the other nodes are freed, each once and in
list order, and the size of each is subtracted from `tenure_space_size` (modulo `2^64`). -/
theorem sweep_is_order_preserving_filter (s : GC) (L : List Nat) (mb fuel : Nat)
    (hL : s.Listed L) (hf : L.length + 1 ≤ fuel) :
    ∃ t : GC, GC.sweep mb fuel s = some t
      ∧ t.Listed (L.filter (fun x => decide (YHeader.gc_mark (YHeader.header1 s.mem x) = mb)))
      ∧ (∀ x ∈ L.filter (fun x => decide (YHeader.gc_mark (YHeader.header1 s.mem x) = mb)),
          YHeader.gc_mark (YHeader.header1 t.mem x) = mb)
      ∧ t.freed = s.freed
          ++ L.filter (fun x => !decide (YHeader.gc_mark (YHeader.header1 s.mem x) = mb))
      ∧ (t.tenure_space_size + words_of s.mem (L.filter
            (fun x => !decide (YHeader.gc_mark (YHeader.header1 s.mem x) = mb)))) % 2 ^ 64
          = s.tenure_space_size % 2 ^ 64 := by
  obtain ⟨t, h1, h2, h3, h4, h5, -⟩ := GC.sweep_spec s L mb fuel hL hf
  exact ⟨t, h1, h2, h3, h4, h5⟩

theorem sweep_is_order_preserving_filter_witness :
    Example.two_tenured.Listed [0x1120, 0x1100] ∧ [0x1120, 0x1100].length + 1 ≤ 3
      ∧ ∃ t : GC, GC.sweep 1 3 Example.two_tenured = some t
        ∧ t.Listed ([0x1120, 0x1100].filter
            (fun x => decide (YHeader.gc_mark (YHeader.header1 Example.two_tenured.mem x) = 1)))
        ∧ (∀ x ∈ [0x1120, 0x1100].filter
            (fun x => decide (YHeader.gc_mark (YHeader.header1 Example.two_tenured.mem x) = 1)),
            YHeader.gc_mark (YHeader.header1 t.mem x) = 1)
        ∧ t.freed = Example.two_tenured.freed ++ [0x1120, 0x1100].filter
            (fun x => !decide (YHeader.gc_mark (YHeader.header1 Example.two_tenured.mem x) = 1))
        ∧ (t.tenure_space_size + words_of Example.two_tenured.mem ([0x1120, 0x1100].filter
              (fun x => !decide
                (YHeader.gc_mark (YHeader.header1 Example.two_tenured.mem x) = 1)))) % 2 ^ 64
            = Example.two_tenured.tenure_space_size % 2 ^ 64 :=
  ⟨two_tenured_listed, by decide,
    sweep_is_order_preserving_filter Example.two_tenured [0x1120, 0x1100] 1 3
      two_tenured_listed (by decide)⟩


/-- C19: in every state reachable from `GC::initialize` (`GC.Reachable`) the mark value
`current_mark_bit` is 1 or 3.  A `do_mark_sweep_gc` that returns from such a state leaves the
mark value XORed with 2, which differs from the value it used.  On a heap that the major
collection can walk, with fuel for its objects, it does return, and every node that is left
on the tenure list carries the value that was used, not the new one. -/
theorem mark_value_is_fresh :
    (∀ s : GC, s.Reachable → s.current_mark_bit = 1 ∨ s.current_mark_bit = 3)
      ∧ (∀ (s t : GC) (fuel n : Nat), s.Reachable → GC.do_mark_sweep_gc fuel s = some (t, n) →
          t.current_mark_bit = s.current_mark_bit ^^^ 2
            ∧ t.current_mark_bit ≠ s.current_mark_bit)
      ∧ (∀ (s : GC) (U L : List Nat) (fuel : Nat), s.Reachable → s.Heap U → s.Listed L →
          (∀ n ∈ L, n ∈ U) → U.length + 1 ≤ fuel →
          ∃ (t : GC) (n : Nat) (L' : List Nat), GC.do_mark_sweep_gc fuel s = some (t, n)
            ∧ t.Listed L' ∧ L'.Sublist L
            ∧ t.current_mark_bit = s.current_mark_bit ^^^ 2
            ∧ ∀ x ∈ L', YHeader.gc_mark (YHeader.header1 t.mem x) = s.current_mark_bit
                ∧ YHeader.gc_mark (YHeader.header1 t.mem x) ≠ t.current_mark_bit) := by
  refine ⟨fun s h => h.mark_value, ?_, ?_⟩
  · intro s t fuel n hr hrun
    have hm := (GC.do_mark_sweep_gc_frame hrun).2.1
    rw [hm]
    exact ⟨rfl, (GC.xor_two_of_mark hr.mark_value).2⟩
  · intro s U L fuel hr hh hL hLU hf
    obtain ⟨t, n, L', D, hrun, hL', hsub, hmark, -, -, -, -, hbit, -⟩ :=
      GC.Heap.do_mark_sweep_gc hh hL hLU fuel hf
    refine ⟨t, n, L', hrun, hL', hsub, hbit, ?_⟩
    intro x hx
    refine ⟨hmark x hx, ?_⟩
    rw [hmark x hx, hbit]
    exact fun e => (GC.xor_two_of_mark hr.mark_value).2 e.symm

theorem mark_value_is_fresh_witness :
    Example.rooted_tenured.Reachable ∧ Example.rooted_tenured.Heap [0x1100]
      ∧ Example.rooted_tenured.Listed [0x1100]
      ∧ (Example.rooted_tenured.current_mark_bit = 1
          ∨ Example.rooted_tenured.current_mark_bit = 3)
      ∧ ∃ (t : GC) (n : Nat) (L' : List Nat),
          GC.do_mark_sweep_gc 2 Example.rooted_tenured = some (t, n)
        ∧ t.Listed L' ∧ L'.Sublist [0x1100]
        ∧ t.current_mark_bit = Example.rooted_tenured.current_mark_bit ^^^ 2
        ∧ ∀ x ∈ L', YHeader.gc_mark (YHeader.header1 t.mem x)
              = Example.rooted_tenured.current_mark_bit
            ∧ YHeader.gc_mark (YHeader.header1 t.mem x) ≠ t.current_mark_bit :=
  ⟨rooted_tenured_reachable, rooted_tenured_heap, rooted_tenured_listed,
    mark_value_is_fresh.1 Example.rooted_tenured rooted_tenured_reachable,
    mark_value_is_fresh.2.2 Example.rooted_tenured [0x1100] [0x1100] 2
      rooted_tenured_reachable rooted_tenured_heap rooted_tenured_listed
      (fun n hn => hn) (by decide)⟩


/-- Addressing of a shadow stack whose vector holds exactly the slots `0 .. stack_top`. -/
theorem Shadow.sized_addressing (s : GC) (n : Nat) (h : Shadow.sized s) :
    (∀ i : Int, 0 ≤ i → i < n → Shadow.get (Shadow.expand s (n : Int)) i = 0)
      ∧ (∀ j : Int, 0 ≤ j → j ≤ s.stack_top →
          Shadow.get (Shadow.expand s (n : Int)) (n + j) = Shadow.get s j)
      ∧ Shadow.sized (Shadow.expand s (n : Int))
      ∧ (Shadow.shrink (Shadow.expand s (n : Int)) n).stack_top = s.stack_top
      ∧ (Shadow.shrink (Shadow.expand s (n : Int)) n).shadow_stack = s.shadow_stack
      ∧ (∀ (i : Int) (p : Nat), 0 ≤ i → i ≤ s.stack_top →
          Shadow.get (Shadow.set s i p) i = p
          ∧ (Shadow.set s i p).stack_top = s.stack_top
          ∧ ∀ k : Int, 0 ≤ k → k ≤ s.stack_top → k ≠ i →
              Shadow.get (Shadow.set s i p) k = Shadow.get s k) := by
  obtain ⟨e1, e2⟩ := Shadow.expand_stack s n h
  obtain ⟨h1, h2⟩ := h
  refine ⟨?_, ?_, ?_, ?_, ?_, ?_⟩
  · intro i hi1 hi2
    unfold Shadow.get
    rw [e1, e2]
    exact Shadow.getD_replicate_zero _ _ _ (by omega)
  · intro j hj1 hj2
    unfold Shadow.get
    rw [e1, e2]
    have : (s.stack_top + (n : Int) - ((n : Int) + j)).toNat = (s.stack_top - j).toNat := by
      omega
    rw [this]
    exact List.getD_append _ _ _ _ (by omega)
  · refine ⟨by rw [e2]; omega, ?_⟩
    rw [e1, e2, List.length_append, List.length_replicate]
    omega
  · unfold Shadow.shrink
    simp only [GC.set_shadow_stack_proj, GC.set_stack_top_proj]
    rw [e2]; omega
  · unfold Shadow.shrink
    simp only [GC.set_shadow_stack_proj, GC.set_stack_top_proj]
    rw [e1, e2]
    have : (s.stack_top + (n : Int) - (n : Int) + 1).toNat = s.shadow_stack.length := by omega
    rw [this]
    exact Shadow.resize_append _ _
  · intro i p hi1 hi2
    refine ⟨?_, ?_, ?_⟩
    · unfold Shadow.get Shadow.set
      simp only [GC.set_shadow_stack_proj]
      exact GC.getD_set_same _ _ _ (by omega)
    · unfold Shadow.set
      simp only [GC.set_shadow_stack_proj]
    · intro k hk1 hk2 hne
      unfold Shadow.get Shadow.set
      simp only [GC.set_shadow_stack_proj]
      exact GC.getD_set_other _ _ _ _ (by omega)

/-- C20: shadow stack addressing.  In every state of a program that keeps to the life
cycle of the collector (`GC.Defined`: `initialize` at program start or after `finalize`,
then the entry points, `shrink` by no more than the stack holds) the shadow-stack vector
holds exactly the slots `0 .. stack_top` (`Shadow.sized`).  For every such stack state and
every `n >= 0`: after `expand(n)` the `n` new slots read null and every older slot `j` is
read at `n + j`; `expand(n)` followed by `shrink(n)` restores the stack top and the
contents; and for every slot `i`, `set(i, p)` followed by `get(i)` returns `p` and changes
no other slot. -/
theorem shadow_stack_addressing :
    (∀ s : GC, s.Defined → Shadow.sized s)
      ∧ ∀ (s : GC) (n : Nat), Shadow.sized s →
        (∀ i : Int, 0 ≤ i → i < n → Shadow.get (Shadow.expand s (n : Int)) i = 0)
          ∧ (∀ j : Int, 0 ≤ j → j ≤ s.stack_top →
              Shadow.get (Shadow.expand s (n : Int)) (n + j) = Shadow.get s j)
          ∧ Shadow.sized (Shadow.expand s (n : Int))
          ∧ (Shadow.shrink (Shadow.expand s (n : Int)) n).stack_top = s.stack_top
          ∧ (Shadow.shrink (Shadow.expand s (n : Int)) n).shadow_stack = s.shadow_stack
          ∧ (∀ (i : Int) (p : Nat), 0 ≤ i → i ≤ s.stack_top →
              Shadow.get (Shadow.set s i p) i = p
              ∧ (Shadow.set s i p).stack_top = s.stack_top
              ∧ ∀ k : Int, 0 ≤ k → k ≤ s.stack_top → k ≠ i →
                  Shadow.get (Shadow.set s i p) k = Shadow.get s k) :=
  ⟨fun _ h => h.sized, fun s n h => Shadow.sized_addressing s n h⟩

theorem shadow_stack_addressing_witness :
    (Shadow.expand Example.heap0 1).Defined
      ∧ Shadow.sized (Shadow.expand Example.heap0 1)
      ∧ (∀ i : Int, 0 ≤ i → i < (2 : Nat) →
          Shadow.get (Shadow.expand (Shadow.expand Example.heap0 1) ((2 : Nat) : Int)) i = 0)
      ∧ (Shadow.shrink (Shadow.expand (Shadow.expand Example.heap0 1) ((2 : Nat) : Int)) 2).shadow_stack
          = (Shadow.expand Example.heap0 1).shadow_stack :=
  ⟨GC.Defined.expand 1 (GC.Defined.first 0x1000 16 0),
    shadow_stack_addressing.1 _ (GC.Defined.expand 1 (GC.Defined.first 0x1000 16 0)),
    (shadow_stack_addressing.2 (Shadow.expand Example.heap0 1) 2 ⟨by decide, by decide⟩).1,
    (shadow_stack_addressing.2 (Shadow.expand Example.heap0 1) 2
      ⟨by decide, by decide⟩).2.2.2.2.1⟩

/-- Why the life cycle matters: after `initialize`, `expand(1)`, `set(0, 0x2000)` and a
second `initialize` with no `finalize` in between, the vector still holds the old slot
while `stack_top` is `-1`, and the slot that `expand(1)` then adds reads `0x2000`. -/
theorem expand_slot_not_null_example :
    Example.set_up_twice.stack_top = -1
      ∧ Example.set_up_twice.shadow_stack = [0x2000]
      ∧ Shadow.get (Shadow.expand Example.set_up_twice 1) 0 = 0x2000 := by
  decide


/-- C21: `copy_and_forward` coalesces references.  On an object `p` whose forwarding pointer
is null the call returns the destination (the to-space cell at `alloc_ptr`, or the fresh
tenure cell when the generation wraps from 3), stores it in the first header word of `p`,
and adds 1 to the live-object counter (modulo `2 ^ 64`).  On an object whose forwarding
pointer is not null it returns that pointer and leaves the whole state, hence `alloc_ptr`,
the counter, `tenure_space_size` and the promoted-objects list, as it was.  In a scavenge
(invariant `GC.Inv`) the first call on a reachable young object adds exactly 1 to the
counter and records the pair, and every later call on the same object, in any later state
of the scavenge, returns the same destination and changes nothing. -/
theorem copy_and_forward_coalesces :
    (∀ (c : Scan) (p : Nat), YHeader.forward_pointer (YHeader.header1 c.gc.mem p) = 0 →
        (GC.copy_and_forward c p).2
            = (if YHeader.gc_generation (YHeader.header1 c.gc.mem p) = 3 then c.gc.heap_break
                else c.alloc_ptr)
          ∧ YHeader.header1 (GC.copy_and_forward c p).1.gc.mem p = (GC.copy_and_forward c p).2
          ∧ (GC.copy_and_forward c p).1.live_objects = (c.live_objects + 1) % 2 ^ 64)
      ∧ (∀ (c : Scan) (p : Nat), YHeader.forward_pointer (YHeader.header1 c.gc.mem p) ≠ 0 →
          GC.copy_and_forward c p
            = (c, YHeader.forward_pointer (YHeader.header1 c.gc.mem p)))
      ∧ (∀ (s0 : GC) (N T : List Nat) (c : Scan) (F : List (Nat × Nat)) (p : Nat),
          s0.WF N T → GC.Inv s0 N T c F → p ∈ N → s0.copy_reachable p →
          YHeader.forward_pointer (YHeader.header1 c.gc.mem p) = 0 →
          (GC.copy_and_forward c p).1.live_objects = c.live_objects + 1
            ∧ YHeader.forward_pointer (YHeader.header1 (GC.copy_and_forward c p).1.gc.mem p)
                = (GC.copy_and_forward c p).2
            ∧ (GC.copy_and_forward c p).2 ≠ 0
            ∧ GC.copy_and_forward (GC.copy_and_forward c p).1 p
                = ((GC.copy_and_forward c p).1, (GC.copy_and_forward c p).2)
            ∧ ∃ F1, GC.Inv s0 N T (GC.copy_and_forward c p).1 F1
                ∧ (p, (GC.copy_and_forward c p).2) ∈ F1
                ∧ ∀ (c' : Scan) (F' : List (Nat × Nat)), GC.Inv s0 N T c' F' →
                    (p, (GC.copy_and_forward c p).2) ∈ F' →
                    GC.copy_and_forward c' p = (c', (GC.copy_and_forward c p).2)) := by
  refine ⟨fun c p h => GC.copy_and_forward_first c p h,
    fun c p h => GC.copy_and_forward_forwarded c p h, ?_⟩
  intro s0 N T c F p hwf hinv hp hreach hnull
  obtain ⟨F1, hstep, hmem, -⟩ := hinv.copy_and_forward hwf (p, p) hp hreach
  have hinv1 := hstep.inv
  obtain ⟨-, h1, h2⟩ := GC.copy_and_forward_first c p hnull
  have ha := hinv1.new_addr hwf _ hmem
  simp only at ha
  have hlen := (GC.used_le hwf F hinv.keys_nodup hinv.keys_young).2
  have hlive := hinv.live
  refine ⟨?_, ?_, by omega, hinv1.copy_again hwf hmem, F1, hinv1, hmem, ?_⟩
  · rw [h2, Nat.mod_eq_of_lt (by omega)]
  · rw [h1]
    exact YHeader.forward_pointer_of_lt _ ha.2.1
  · intro c' F' hinv' hmem'
    exact hinv'.copy_again hwf hmem'

theorem copy_and_forward_coalesces_witness :
    Example.one_root.WF [4096] []
      ∧ GC.Inv Example.one_root [4096] [] ⟨Example.one_root, Example.one_root.semi_space1, 0⟩ []
      ∧ YHeader.forward_pointer (YHeader.header1 Example.one_root.mem 4096) = 0
      ∧ (GC.copy_and_forward ⟨Example.one_root, Example.one_root.semi_space1, 0⟩ 4096).1.live_objects
          = 0 + 1
      ∧ YHeader.forward_pointer (YHeader.header1
          (GC.copy_and_forward ⟨Example.one_root, Example.one_root.semi_space1, 0⟩ 4096).1.gc.mem
          4096)
          = (GC.copy_and_forward ⟨Example.one_root, Example.one_root.semi_space1, 0⟩ 4096).2
      ∧ (GC.copy_and_forward ⟨Example.one_root, Example.one_root.semi_space1, 0⟩ 4096).2 ≠ 0
      ∧ GC.copy_and_forward
          (GC.copy_and_forward ⟨Example.one_root, Example.one_root.semi_space1, 0⟩ 4096).1 4096
          = ((GC.copy_and_forward ⟨Example.one_root, Example.one_root.semi_space1, 0⟩ 4096).1,
            (GC.copy_and_forward ⟨Example.one_root, Example.one_root.semi_space1, 0⟩ 4096).2) :=
  ⟨one_root_wf, (GC.Phase.start one_root_wf).inv, by decide!,
    (copy_and_forward_coalesces.2.2 Example.one_root [4096] []
      ⟨Example.one_root, Example.one_root.semi_space1, 0⟩ [] 4096 one_root_wf
      (GC.Phase.start one_root_wf).inv (by decide) one_root_reachable (by decide!)).1,
    (copy_and_forward_coalesces.2.2 Example.one_root [4096] []
      ⟨Example.one_root, Example.one_root.semi_space1, 0⟩ [] 4096 one_root_wf
      (GC.Phase.start one_root_wf).inv (by decide) one_root_reachable (by decide!)).2.1,
    (copy_and_forward_coalesces.2.2 Example.one_root [4096] []
      ⟨Example.one_root, Example.one_root.semi_space1, 0⟩ [] 4096 one_root_wf
      (GC.Phase.start one_root_wf).inv (by decide) one_root_reachable (by decide!)).2.2.1,
    (copy_and_forward_coalesces.2.2 Example.one_root [4096] []
      ⟨Example.one_root, Example.one_root.semi_space1, 0⟩ [] 4096 one_root_wf
      (GC.Phase.start one_root_wf).inv (by decide) one_root_reachable (by decide!)).2.2.2.1⟩


/-- C22: on every 64-bit header word, `inc_gc_generation` takes the generation `g` to
`(g + 1) mod 4`, returns true exactly when the old generation was 3, which is exactly when
the generation bits are 0 afterwards, and leaves every other bit of the word (bits 0 to 56
and 59 to 63: link, mark bits, remember bit, unbox size, type) as it was; written back with
`put_header1` it changes no other word of memory, so `header2` is unchanged. -/
theorem inc_gc_generation_spec (h : Nat) (hh : h < 2 ^ 64) :
    YHeader.gc_generation (YHeader.inc_gc_generation h).1 = (YHeader.gc_generation h + 1) % 4
      ∧ ((YHeader.inc_gc_generation h).2 = true ↔ YHeader.gc_generation h = 3)
      ∧ ((YHeader.inc_gc_generation h).2 = true
          ↔ YHeader.gc_generation (YHeader.inc_gc_generation h).1 = 0)
      ∧ (YHeader.inc_gc_generation h).1 % 2 ^ 57 = h % 2 ^ 57
      ∧ (YHeader.inc_gc_generation h).1 / 2 ^ 59 = h / 2 ^ 59
      ∧ YHeader.object_type (YHeader.inc_gc_generation h).1 = YHeader.object_type h
      ∧ YHeader.unbox_size (YHeader.inc_gc_generation h).1 = YHeader.unbox_size h
      ∧ YHeader.gc_remember (YHeader.inc_gc_generation h).1 = YHeader.gc_remember h
      ∧ YHeader.gc_mark (YHeader.inc_gc_generation h).1 = YHeader.gc_mark h
      ∧ YHeader.forward_pointer (YHeader.inc_gc_generation h).1 = YHeader.forward_pointer h
      ∧ YHeader.next_object (YHeader.inc_gc_generation h).1 = YHeader.next_object h
      ∧ (∀ (m : Mem) (p : Nat),
          YHeader.header2 (YHeader.put_header1 m p (YHeader.inc_gc_generation h).1) p
              = YHeader.header2 m p
            ∧ ∀ a, a ≠ p + 8 →
                YHeader.put_header1 m p (YHeader.inc_gc_generation h).1 a = m a) := by
  have e := YHeader.inc_gc_generation_fst h
  have e2 := YHeader.inc_gc_generation_snd h
  have hg : YHeader.gc_generation h = h / 2 ^ 57 % 4 := YHeader.gc_generation_eq h
  have hlow : (YHeader.inc_gc_generation h).1 % 2 ^ 57 = h % 2 ^ 57 := by
    rw [e]; omega
  have hhigh : (YHeader.inc_gc_generation h).1 / 2 ^ 59 = h / 2 ^ 59 := by
    rw [e]; omega
  have hgen : YHeader.gc_generation (YHeader.inc_gc_generation h).1
      = (YHeader.gc_generation h + 1) % 4 := YHeader.gc_generation_inc h
  have hret : (YHeader.inc_gc_generation h).2 = true ↔ YHeader.gc_generation h = 3 := by
    rw [e2, hg]
    exact decide_eq_true_iff
  refine ⟨hgen, hret, ?_, hlow, hhigh, ?_, YHeader.unbox_size_inc h, YHeader.gc_remember_inc h,
    ?_, YHeader.forward_pointer_inc h, ?_, ?_⟩
  · rw [hret, hgen]
    have : YHeader.gc_generation h < 4 := by rw [hg]; exact Nat.mod_lt _ (by norm_num)
    omega
  · rw [YHeader.object_type_eq, YHeader.object_type_eq]
    omega
  · rw [YHeader.gc_mark_eq, YHeader.gc_mark_eq]
    omega
  · rw [YHeader.next_object_eq, YHeader.next_object_eq]
    omega
  · intro m p
    refine ⟨?_, ?_⟩
    · exact Mem.write_other _ _ _ _ (by omega)
    · intro a ha
      exact Mem.write_other _ _ _ _ ha

theorem inc_gc_generation_spec_witness :
    (3 * 2 ^ 57 + 2 ^ 56 + 4096 : Nat) < 2 ^ 64
      ∧ YHeader.gc_generation (YHeader.inc_gc_generation (3 * 2 ^ 57 + 2 ^ 56 + 4096)).1
          = (YHeader.gc_generation (3 * 2 ^ 57 + 2 ^ 56 + 4096) + 1) % 4
      ∧ ((YHeader.inc_gc_generation (3 * 2 ^ 57 + 2 ^ 56 + 4096)).2 = true
          ↔ YHeader.gc_generation (3 * 2 ^ 57 + 2 ^ 56 + 4096) = 3)
      ∧ (YHeader.inc_gc_generation (3 * 2 ^ 57 + 2 ^ 56 + 4096)).1 % 2 ^ 57
          = (3 * 2 ^ 57 + 2 ^ 56 + 4096) % 2 ^ 57 :=
  ⟨by decide,
    (inc_gc_generation_spec (3 * 2 ^ 57 + 2 ^ 56 + 4096) (by decide)).1,
    (inc_gc_generation_spec (3 * 2 ^ 57 + 2 ^ 56 + 4096) (by decide)).2.1,
    (inc_gc_generation_spec (3 * 2 ^ 57 + 2 ^ 56 + 4096) (by decide)).2.2.2.1⟩


/-- C23: three scavenges in a row empty the nursery.  From a state that satisfies the
collector's invariants (every young object has generation 1 to 3), with nothing allocated in
between, three calls of `do_copy_gc` return and leave `current_top` at the base of the
active semi-space, every survivor having been promoted: the young objects `R` that were
reachable from the roots, which the first scavenge counts, have as many copies `L`, one
for each with its second header word, every copy being the copy of one of them; the tenure
list is `L` followed by the objects `T` that were tenured, which keep their second header
word; every slot of the shadow stack that held a young object holds its copy in `L`, every
other slot is unchanged; and all that is reachable from the roots is on the tenure list,
outside the nursery, with generation 0.  So the allocation slow path
`allocate_in_semi2(w)`, run from a state that `mark_sweep_gc_if_needed` leaves in that
condition, raises `MemoryExhausted` exactly when `w` words exceed `semi_space_size`,
whatever the roots. -/
theorem three_scavenges_empty_nursery :
    (∀ (s : GC) (N T : List Nat) (fuel : Nat), s.WF N T → N.length ≤ fuel →
        s.heap_break + 32 * s.semi_space_size ≤ 2 ^ 48 →
        ∃ (s1 s2 s3 : GC) (n1 n2 n3 : Nat) (L R : List Nat),
          GC.do_copy_gc fuel s = some (s1, n1) ∧ GC.do_copy_gc fuel s1 = some (s2, n2)
            ∧ GC.do_copy_gc fuel s2 = some (s3, n3)
            ∧ s3.current_top = s3.semi_space0 ∧ s3.WF [] (L ++ T)
            ∧ R.Nodup ∧ (∀ x, x ∈ R ↔ s.in_nursery x = true ∧ s.copy_reachable x)
            ∧ n1 = R.length ∧ L.length = R.length
            ∧ (∀ x ∈ R, ∃ y ∈ L, YHeader.header2 s3.mem y = YHeader.header2 s.mem x)
            ∧ (∀ y ∈ L, ∃ x ∈ R, YHeader.header2 s3.mem y = YHeader.header2 s.mem x)
            ∧ tenure_list s3.mem ((L ++ T).length + 1) s3.tenure_space = L ++ T
            ∧ (L ++ T).Nodup
            ∧ (∀ y ∈ T, YHeader.header2 s3.mem y = YHeader.header2 s.mem y)
            ∧ s3.stack_top = s.stack_top
            ∧ (∀ i, i < (s.stack_top + 1).toNat →
                (s.in_nursery (s.shadow_stack.getD i 0) = true →
                  s3.shadow_stack.getD i 0 ∈ L
                  ∧ YHeader.header2 s3.mem (s3.shadow_stack.getD i 0)
                      = YHeader.header2 s.mem (s.shadow_stack.getD i 0))
                ∧ (s.in_nursery (s.shadow_stack.getD i 0) = false →
                  s3.shadow_stack.getD i 0 = s.shadow_stack.getD i 0))
            ∧ (∀ x, s3.copy_reachable x → x ∈ L ++ T ∧ s3.in_nursery x = false
                ∧ YHeader.gc_generation (YHeader.header1 s3.mem x) = 0))
      ∧ (∀ (s0 s : GC) (m : Nat) (N T : List Nat) (fuel w : Nat),
          GC.mark_sweep_gc_if_needed fuel s0 = some (s, m) → s.WF N T → N.length ≤ fuel →
          s.heap_break + 24 * s.semi_space_size ≤ 2 ^ 48 →
          ∃ o : GC.Outcome, GC.allocate_in_semi2 fuel s0 w = some o
            ∧ ((∃ u, o = GC.Outcome.memory_exhausted u) ↔ s.semi_space_size < w)) := by
  constructor
  · intro s N T fuel hwf hf hroom
    obtain ⟨s1, s2, s3, n1, n2, n3, L, R, hr1, hr2, hr3, htop, hw3, A, hn1, hlist, hnd, hgen⟩ :=
      hwf.three_promotions fuel hf hroom
    have hsplit := A.split
    have hmem : ∀ y, y ∈ ([] : List Nat) ∨ y ∈ L → y ∈ L := by
      intro y hy
      rcases hy with hy | hy
      · cases hy
      · exact hy
    refine ⟨s1, s2, s3, n1, n2, n3, L, R, hr1, hr2, hr3, htop, hw3, A.nodup, A.survivors, hn1,
      ?_, ?_, ?_, hlist, hnd, A.kept, A.stack_top, ?_, ?_⟩
    · rw [hsplit]
      simp
    · intro x hx
      obtain ⟨y, hy, e⟩ := A.image x hx
      exact ⟨y, hmem y hy, e⟩
    · intro y hy
      exact A.source y (Or.inr hy)
    · intro i hi
      obtain ⟨r1, r2⟩ := A.roots i hi
      refine ⟨?_, r2⟩
      intro hy
      obtain ⟨hm, e⟩ := r1 hy
      exact ⟨hmem _ hm, e⟩
    · intro x hx
      have hm : x ∈ L ++ T := by
        rcases hw3.reachable_listed hx with h0 | h1
        · cases h0
        · exact h1
      exact ⟨hm, A.old x hm, hgen x hm⟩
  · intro s0 s m N T fuel w hgc hwf hf hroom
    obtain ⟨s1, s2, s3, n1, n2, n3, T3, hr1, hr2, hr3, htop, -, hs1, hs2, hs3, he1, he2, he3,
      ht1, ht2⟩ := hwf.three_scavenges fuel hf hroom
    have hrun : GC.allocate_in_semi2 fuel s0 w = GC.alloc_attempts fuel w 3 s := by
      unfold GC.allocate_in_semi2
      rw [hgc]
    rw [hrun, GC.alloc_attempts_succ fuel w 2 s s1 n1 hr1]
    by_cases h1 : s1.current_top + 8 * w ≤ s1.current_end
    · rw [if_pos h1]
      refine ⟨_, rfl, ?_⟩
      constructor
      · rintro ⟨u, hu⟩
        cases hu
      · intro hlt
        omega
    · rw [if_neg h1, GC.alloc_attempts_succ fuel w 1 s1 s2 n2 hr2]
      by_cases h2 : s2.current_top + 8 * w ≤ s2.current_end
      · rw [if_pos h2]
        refine ⟨_, rfl, ?_⟩
        constructor
        · rintro ⟨u, hu⟩
          cases hu
        · intro hlt
          omega
      · rw [if_neg h2, GC.alloc_attempts_succ fuel w 0 s2 s3 n3 hr3]
        by_cases h3 : s3.current_top + 8 * w ≤ s3.current_end
        · rw [if_pos h3]
          refine ⟨_, rfl, ?_⟩
          constructor
          · rintro ⟨u, hu⟩
            cases hu
          · intro hlt
            omega
        · rw [if_neg h3, GC.alloc_attempts]
          refine ⟨_, rfl, ?_⟩
          constructor
          · intro _
            omega
          · intro _
            exact ⟨s3, rfl⟩

theorem three_scavenges_empty_nursery_witness :
    (Example.one_root.WF [4096] [] ∧ [4096].length ≤ 1
      ∧ Example.one_root.heap_break + 32 * Example.one_root.semi_space_size ≤ 2 ^ 48
      ∧ ∃ (s1 s2 s3 : GC) (n1 n2 n3 : Nat) (L R : List Nat),
          GC.do_copy_gc 1 Example.one_root = some (s1, n1)
            ∧ GC.do_copy_gc 1 s1 = some (s2, n2) ∧ GC.do_copy_gc 1 s2 = some (s3, n3)
            ∧ s3.current_top = s3.semi_space0 ∧ s3.WF [] (L ++ [])
            ∧ R.Nodup
            ∧ (∀ x, x ∈ R ↔ Example.one_root.in_nursery x = true
                ∧ Example.one_root.copy_reachable x)
            ∧ n1 = R.length ∧ L.length = R.length
            ∧ (∀ x ∈ R, ∃ y ∈ L, YHeader.header2 s3.mem y
                = YHeader.header2 Example.one_root.mem x)
            ∧ (∀ y ∈ L, ∃ x ∈ R, YHeader.header2 s3.mem y
                = YHeader.header2 Example.one_root.mem x)
            ∧ tenure_list s3.mem ((L ++ []).length + 1) s3.tenure_space = L ++ []
            ∧ (L ++ []).Nodup
            ∧ (∀ y ∈ ([] : List Nat), YHeader.header2 s3.mem y
                = YHeader.header2 Example.one_root.mem y)
            ∧ s3.stack_top = Example.one_root.stack_top
            ∧ (∀ i, i < (Example.one_root.stack_top + 1).toNat →
                (Example.one_root.in_nursery (Example.one_root.shadow_stack.getD i 0) = true →
                  s3.shadow_stack.getD i 0 ∈ L
                  ∧ YHeader.header2 s3.mem (s3.shadow_stack.getD i 0)
                      = YHeader.header2 Example.one_root.mem
                          (Example.one_root.shadow_stack.getD i 0))
                ∧ (Example.one_root.in_nursery (Example.one_root.shadow_stack.getD i 0)
                    = false →
                  s3.shadow_stack.getD i 0 = Example.one_root.shadow_stack.getD i 0))
            ∧ (∀ x, s3.copy_reachable x → x ∈ L ++ [] ∧ s3.in_nursery x = false
                ∧ YHeader.gc_generation (YHeader.header1 s3.mem x) = 0))
      ∧ (GC.mark_sweep_gc_if_needed 1 Example.one_root = some (Example.one_root, 0)
        ∧ ∃ o : GC.Outcome, GC.allocate_in_semi2 1 Example.one_root 16 = some o
          ∧ ((∃ u, o = GC.Outcome.memory_exhausted u)
              ↔ Example.one_root.semi_space_size < 16)) :=
  ⟨⟨one_root_wf, by decide, by decide!,
      three_scavenges_empty_nursery.1 Example.one_root [4096] [] 1 one_root_wf (by decide)
        (by decide!)⟩,
    one_root_below_limit,
    three_scavenges_empty_nursery.2 Example.one_root Example.one_root 0 [4096] [] 1 16
      one_root_below_limit one_root_wf (by decide) (by decide!)⟩


/-- C24: on every 64-bit word exactly one of the three type tests holds: `is_ptr` when the
top 16 bits are 0, `is_int64` when they are `0xFFFF`, `is_double` when they are neither; the
null word is a pointer and not a double. -/
theorem type_tests_partition (w : Nat) (hw : w < 2 ^ 64) :
    (Box.is_ptr w = true ↔ w / 2 ^ 48 = 0)
      ∧ (Box.is_int64 w = true ↔ w / 2 ^ 48 = 0xffff)
      ∧ (Box.is_double w = true ↔ w / 2 ^ 48 ≠ 0 ∧ w / 2 ^ 48 ≠ 0xffff)
      ∧ ((Box.is_ptr w = true ∧ Box.is_int64 w = false ∧ Box.is_double w = false)
        ∨ (Box.is_ptr w = false ∧ Box.is_int64 w = true ∧ Box.is_double w = false)
        ∨ (Box.is_ptr w = false ∧ Box.is_int64 w = false ∧ Box.is_double w = true))
      ∧ Box.is_ptr Box.null_value = true ∧ Box.is_double Box.null_value = false := by
  have hp : Box.is_ptr w = true ↔ w / 2 ^ 48 = 0 := by
    rw [Box.is_ptr_iff]
    omega
  have hi : Box.is_int64 w = true ↔ w / 2 ^ 48 = 0xffff := by
    unfold Box.is_int64
    rw [Box.is_uint64_iff]
  have hd : Box.is_double w = true ↔ w / 2 ^ 48 ≠ 0 ∧ w / 2 ^ 48 ≠ 0xffff := by
    rw [Box.is_double_iff]
    have : w / 2 ^ 48 < 2 ^ 16 := by omega
    omega
  refine ⟨hp, hi, hd, ?_, by decide, by decide⟩
  have ht : w / 2 ^ 48 < 2 ^ 16 := by omega
  by_cases h0 : w / 2 ^ 48 = 0
  · refine Or.inl ⟨hp.2 h0, ?_, ?_⟩
    · cases h : Box.is_int64 w
      · rfl
      · have := hi.1 h
        omega
    · cases h : Box.is_double w
      · rfl
      · exact absurd h0 (hd.1 h).1
  · by_cases hf : w / 2 ^ 48 = 0xffff
    · refine Or.inr (Or.inl ⟨?_, hi.2 hf, ?_⟩)
      · cases h : Box.is_ptr w
        · rfl
        · exact absurd (hp.1 h) h0
      · cases h : Box.is_double w
        · rfl
        · exact absurd hf (hd.1 h).2
    · refine Or.inr (Or.inr ⟨?_, ?_, hd.2 ⟨h0, hf⟩⟩)
      · cases h : Box.is_ptr w
        · rfl
        · exact absurd (hp.1 h) h0
      · cases h : Box.is_int64 w
        · rfl
        · exact absurd (hi.1 h) hf

theorem type_tests_partition_witness :
    (0xfffe000000000001 : Nat) < 2 ^ 64
      ∧ (Box.is_ptr 0xfffe000000000001 = true ↔ 0xfffe000000000001 / 2 ^ 48 = 0)
      ∧ (Box.is_int64 0xfffe000000000001 = true ↔ 0xfffe000000000001 / 2 ^ 48 = 0xffff)
      ∧ (Box.is_double 0xfffe000000000001 = true
          ↔ 0xfffe000000000001 / 2 ^ 48 ≠ 0 ∧ 0xfffe000000000001 / 2 ^ 48 ≠ 0xffff)
      ∧ ((Box.is_ptr 0xfffe000000000001 = true ∧ Box.is_int64 0xfffe000000000001 = false
            ∧ Box.is_double 0xfffe000000000001 = false)
        ∨ (Box.is_ptr 0xfffe000000000001 = false ∧ Box.is_int64 0xfffe000000000001 = true
            ∧ Box.is_double 0xfffe000000000001 = false)
        ∨ (Box.is_ptr 0xfffe000000000001 = false ∧ Box.is_int64 0xfffe000000000001 = false
            ∧ Box.is_double 0xfffe000000000001 = true))
      ∧ Box.is_ptr Box.null_value = true ∧ Box.is_double Box.null_value = false :=
  ⟨by decide, type_tests_partition 0xfffe000000000001 (by decide)⟩

/-! ## Evaluations on concrete heaps -/

/-- Claim C4, evaluated. After `initialise`, `YArray::make_in_tenure(4)` puts one object of
7 words on the tenure list and leaves `tenure_space_size` at 0; a major collection that
frees it then wraps the size to `2 ^ 64 - 7`. -/
theorem make_in_tenure_size_not_counted :
    tenure_list (YArray.make_in_tenure Example.heap0 4).1.mem 4
        (YArray.make_in_tenure Example.heap0 4).1.tenure_space
      = [(YArray.make_in_tenure Example.heap0 4).2]
    ∧ object_words (YArray.make_in_tenure Example.heap0 4).1.mem
        (YArray.make_in_tenure Example.heap0 4).2 = 7
    ∧ (YArray.make_in_tenure Example.heap0 4).1.tenure_space_size = 0
    ∧ Example.heap0.tenure_space_size = 0
    ∧ (GC.do_mark_sweep_gc 8 (YArray.make_in_tenure Example.heap0 4).1).map
        (fun r => (r.1.tenure_space, r.1.tenure_space_size, r.1.freed))
      = some (0, 2 ^ 64 - 7, [(YArray.make_in_tenure Example.heap0 4).2]) := by
  decide!

/-- Claim C7, refuted as stated. The young array of `Example.one_root` is created with
generation 1 and stays rooted; after two scavenges it is still in the nursery, and the third
scavenge, not the fourth, moves it to the tenure list with generation 0 and a positive
tenure size. -/
theorem promotion_on_third_scavenge_example :
    YHeader.gc_generation
        (YHeader.header1 Example.one_root.mem (Shadow.get Example.one_root 0)) = 1
    ∧ (GC.scavenges 8 2 Example.one_root).map
        (fun s => (s.in_nursery (Shadow.get s 0), s.tenure_space, s.tenure_space_size))
      = some (true, 0, 0)
    ∧ (GC.scavenges 8 3 Example.one_root).map
        (fun s => (s.in_nursery (Shadow.get s 0), decide (s.tenure_space = Shadow.get s 0),
          YHeader.gc_generation (YHeader.header1 s.mem (Shadow.get s 0)),
          s.tenure_space_size))
      = some (false, true, 0, 4) := by
  decide!

/-- Claim C8, refuted as stated. In `Example.at_limit` the tenure size has reached the
limit, yet a scavenge requested directly runs no major collection: `copy_gc_count` goes
from 0 to 1 and `mark_sweep_gc_count` stays 0. -/
theorem forced_minor_runs_no_major_example :
    Example.at_limit.tenure_space_size ≥ Example.at_limit.tenure_space_limit
    ∧ Example.at_limit.copy_gc_count = 0 ∧ Example.at_limit.mark_sweep_gc_count = 0
    ∧ (GC.do_copy_gc 8 Example.at_limit).map
        (fun r => (r.1.copy_gc_count, r.1.mark_sweep_gc_count)) = some (1, 0) := by
  decide!

/-- Claim C9, refuted as stated. With one tenured array whose field holds, through the
write barrier, a pointer to a fresh young object, one scavenge returns live count 1, copies
the young object into the other semi-space, and keeps the array in the remember set with
its remember bit still 1. -/
theorem remember_set_kept_example :
    Example.one_remembered.remember_set = [Example.one_remembered.tenure_space]
    ∧ YHeader.gc_generation (YHeader.header1 Example.one_remembered.mem
        (YHeader.get_field Example.one_remembered.mem Example.one_remembered.tenure_space 0)) = 1
    ∧ (GC.do_copy_gc 8 Example.one_remembered).map
        (fun r => (r.2, r.1.remember_set,
          YHeader.gc_remember (YHeader.header1 r.1.mem Example.one_remembered.tenure_space),
          r.1.in_nursery (YHeader.get_field r.1.mem Example.one_remembered.tenure_space 0)))
      = some (1, [Example.one_remembered.tenure_space], 1, true) := by
  decide!

end Yadriggy
